import Mathlib

/-!
# texture_shader: binary raster codecs

A shallow embedding of the grid reader and writer (`read_grid_files.c`,
`write_grid_files.c`) and of the TIFF encoder (`WriteGrayscaleTIFF.c`).

Conventions of the embedding.

* A file is a list of bytes together with a position.  The sink and the source never
  report an I/O error.  `malloc` fails for a request above `PTRDIFF_MAX`, which is what a
  negative `int` size becomes as a `size_t`, and meets every other request; the failure
  paths that depend on it (`return -2`, `error_exit`) are part of the embedding.
* `float` is IEEE-754 binary32 and is carried by its 32-bit pattern; a `double` is carried
  by its exact value `(-1)^neg * m * 2^e`, and `Fp.is_double` tells the values that are
  doubles.  Arithmetic is round-to-nearest-even, every operation rounded to `double`.
* The header is a text: a list of bytes.  `fprintf` and `sscanf` convert between binary
  and decimal exactly, with correct rounding, and `sscanf` is that of the GNU C library:
  `%d` converts with `strtol` and keeps the low 32 bits of the `long`, and a floating
  conversion stops before an exponent marker without digits, an unfinished `nan(` or a
  hexadecimal point without digits and converts what came before.  The sign of a NaN is
  not carried, the C language leaving open which NaN an operation returns: `Fp` has one
  NaN and `fmt_g` and `fmt_f` show it as `nan`, where the C library writes `-nan` for a
  NaN whose sign bit is set (the difference of two infinities on x86 is one).
* `int` is 32 bits, `long`, `long long` and `size_t` are 64 bits.  A function parameter of
  type `int` that counts rows, columns or pixels is a natural number; the theorems bound
  it by `2^31` where the bound matters.
* The byte order of the host (`am_big_endian`) is a parameter `host_be`.
-/

set_option maxRecDepth 8192
set_option exponentiation.threshold 4096

namespace TextureShader

/-! ## Bytes and IEEE values -/

/-- One octet of a file. -/
abbrev Byte := Fin 256

/-- The 32-bit pattern of a C `float`. -/
abbrev Float32 := Fin 4294967296

/-- Exact value of an IEEE number: a NaN, an infinity, or `(-1)^neg * m * 2^e`. -/
inductive Fp where
  | nan : Fp
  | inf (neg : Bool) : Fp
  | fin (neg : Bool) (m : Nat) (e : Int) : Fp
deriving DecidableEq, Repr

/-- Value denoted by a binary32 pattern (sign, 8 exponent bits, 23 fraction bits). -/
def Float32.toFp (x : Float32) : Fp :=
  let neg := decide (2147483648 ≤ x.val)
  let ex := x.val / 8388608 % 256
  let fr := x.val % 8388608
  if ex = 255 then (if fr = 0 then Fp.inf neg else Fp.nan)
  else if ex = 0 then Fp.fin neg fr (-149)
  else Fp.fin neg (8388608 + fr) ((ex : Int) - 150)

/-- The signed integer `(-1)^neg * m * 2^(e - base)`, for `base ≤ e`. -/
def Fp.scaled (neg : Bool) (m : Nat) (e base : Int) : Int :=
  if neg then -((m * 2 ^ (e - base).toNat : Nat) : Int) else ((m * 2 ^ (e - base).toNat : Nat) : Int)

/-- The C comparison `a < b` (false as soon as one side is a NaN). -/
def Fp.lt : Fp → Fp → Bool
  | .nan, _ => false
  | _, .nan => false
  | .inf n1, .inf n2 => n1 && !n2
  | .inf n1, .fin _ _ _ => n1
  | .fin _ _ _, .inf n2 => !n2
  | .fin n1 m1 e1, .fin n2 m2 e2 =>
    decide (Fp.scaled n1 m1 e1 (min e1 e2) < Fp.scaled n2 m2 e2 (min e1 e2))

/-- The C comparison `a == b` (false on a NaN, true on zeros of either sign). -/
def Fp.eq : Fp → Fp → Bool
  | .nan, _ => false
  | _, .nan => false
  | .inf n1, .inf n2 => n1 == n2
  | .inf _, .fin _ _ _ => false
  | .fin _ _ _, .inf _ => false
  | .fin n1 m1 e1, .fin n2 m2 e2 =>
    decide (Fp.scaled n1 m1 e1 (min e1 e2) = Fp.scaled n2 m2 e2 (min e1 e2))

/-- The C comparison `a <= b`. -/
def Fp.le (a b : Fp) : Bool := Fp.lt a b || Fp.eq a b

/-- The C library function `floor` on an exact value. -/
def Fp.floor : Fp → Fp
  | .fin neg m e =>
    if 0 ≤ e then .fin neg m e
    else if neg then .fin true ((m + 2 ^ (-e).toNat - 1) / 2 ^ (-e).toNat) 0
    else .fin false (m / 2 ^ (-e).toNat) 0
  | x => x

/-- Number of binary digits of `n`, by halving at most `fuel` times. -/
def bitlen_aux : Nat → Nat → Nat
  | 0, _ => 0
  | fuel + 1, n => if n = 0 then 0 else bitlen_aux fuel (n / 2) + 1

/-- Number of binary digits of `n` (0 for 0). -/
def bitlen (n : Nat) : Nat := bitlen_aux n n

/-- Rounding of `m * 2^e` to nearest, ties to even, onto the numbers with `p` significant
bits and least exponent `emin`: the rounded significand and its exponent. -/
def round_rne (p : Nat) (emin : Int) (m : Nat) (e : Int) : Nat × Int :=
  let len : Nat := bitlen m
  let q : Int := max emin (e + len - p)
  if q ≤ e then (m * 2 ^ (e - q).toNat, q)
  else
    let s := (q - e).toNat
    let t := m / 2 ^ s
    let r := m % 2 ^ s
    let h := 2 ^ (s - 1)
    (if h < r ∨ (r = h ∧ t % 2 = 1) then t + 1 else t, q)

/-- Rounding of an exact value to `double` (53 bits, exponents -1074 .. 971). -/
def Fp.round64 : Fp → Fp
  | .fin neg m e =>
    let tq := round_rne 53 (-1074) m e
    if 1024 < tq.2 + bitlen tq.1 then .inf neg else .fin neg tq.1 tq.2
  | x => x

/-- The `double` product `a * b`. -/
def Fp.mul64 : Fp → Fp → Fp
  | .nan, _ => .nan
  | _, .nan => .nan
  | .inf n1, .inf n2 => .inf (n1 != n2)
  | .inf n1, .fin n2 m2 _ => if m2 = 0 then .nan else .inf (n1 != n2)
  | .fin n1 m1 _, .inf n2 => if m1 = 0 then .nan else .inf (n1 != n2)
  | .fin n1 m1 e1, .fin n2 m2 e2 => Fp.round64 (.fin (n1 != n2) (m1 * m2) (e1 + e2))

/-- The `double` sum `a + b`. -/
def Fp.add64 : Fp → Fp → Fp
  | .nan, _ => .nan
  | _, .nan => .nan
  | .inf n1, .inf n2 => if n1 = n2 then .inf n1 else .nan
  | .inf n1, .fin _ _ _ => .inf n1
  | .fin _ _ _, .inf n2 => .inf n2
  | .fin n1 m1 e1, .fin n2 m2 e2 =>
    let s : Int := Fp.scaled n1 m1 e1 (min e1 e2) + Fp.scaled n2 m2 e2 (min e1 e2)
    if s = 0 then .fin (n1 && n2) 0 (min e1 e2)
    else Fp.round64 (.fin (decide (s < 0)) s.natAbs (min e1 e2))

/-- The exponent and fraction fields of the `float` with significand `t` and exponent `q`,
as one number; a zero has both fields zero. -/
def float_mag (t : Nat) (q : Int) : Nat :=
  if t = 0 then 0 else (q + 149).toNat * 8388608 + t

/-- Conversion of an exact value to `float` (24 bits, exponents -149 .. 104), as a pattern. -/
def Fp.toFloat32 : Fp → Float32
  | .nan => ⟨2143289344, by decide⟩
  | .inf neg => ⟨(if neg then 2147483648 else 0) + 2139095040, by split <;> decide⟩
  | .fin neg m e =>
    let tq := round_rne 24 (-149) m e
    let mag := float_mag tq.1 tq.2
    ⟨(if neg then 2147483648 else 0) + (if 2139095040 ≤ mag then 2139095040 else mag),
      by split <;> split <;> omega⟩

/-- The test `flt_isnan`: `y != y`. -/
def flt_isnan (x : Float32) : Bool := !(Fp.eq x.toFp x.toFp)

/-- The `double` constant `-1.0e+38`. -/
def dbl_m1e38 : Fp := .fin true 5293955920339377 74

/-- The `double` constant `0.5`. -/
def dbl_half : Fp := .fin false 1 (-1)

/-- The `double` constant `10.0`. -/
def dbl_ten : Fp := .fin false 10 0

instance instDecidableEqExcept {ε α : Type} [DecidableEq ε] [DecidableEq α] :
    DecidableEq (Except ε α)
  | .ok a, .ok b =>
    if h : a = b then isTrue (by rw [h]) else isFalse (fun h2 => h (Except.ok.inj h2))
  | .error a, .error b =>
    if h : a = b then isTrue (by rw [h]) else isFalse (fun h2 => h (Except.error.inj h2))
  | .ok _, .error _ => isFalse (fun h => Except.noConfusion h)
  | .error _, .ok _ => isFalse (fun h => Except.noConfusion h)

/-! ## read_grid_files.c : read_flt_file -/

/-- Ways in which the grid codecs stop with `exit( EXIT_FAILURE )`; `alloc` is the
"Memory allocation error", and `buffer_overrun` stands for an access past the end of the
row buffer, after which the behaviour is undefined. -/
inductive GridError where
  | too_small : GridError
  | contains_nan : GridError
  | nodata_collision : GridError
  | alloc : GridError
  | buffer_overrun : GridError
deriving DecidableEq, Repr

/-- A result of `int` arithmetic, or a wider integer stored in an `int`, reduced to 32
bits. -/
def wrap_int (v : Int) : Int := (v + 2147483648) % 4294967296 - 2147483648

/-- The initialiser `int bufsize = n * sizeof( T )` of the row buffers: the product is
formed in `size_t` and its low 32 bits are stored in an `int`. -/
def int_bufsize (n size : Nat) : Int :=
  if n * size % 2 ^ 64 % 2 ^ 32 < 2 ^ 31 then ((n * size % 2 ^ 64 % 2 ^ 32 : Nat) : Int)
  else ((n * size % 2 ^ 64 % 2 ^ 32 : Nat) : Int) - 2 ^ 32

/-- Whether `malloc( bufsize )` returns a null pointer: a negative `int` is converted to a
`size_t` above `PTRDIFF_MAX`, which `malloc` refuses. -/
def malloc_fails (bufsize : Int) : Bool := decide (bufsize < 0)

/-- Result of `read_flt_file`: the data array and the two output flags. -/
structure FltGrid where
  data : List Float32
  has_nulls : Bool
  all_ints : Bool
deriving DecidableEq, Repr

/-- The `float` whose four bytes in memory, at increasing addresses, are `c0 c1 c2 c3`. -/
def float_of_mem (host_be : Bool) (c0 c1 c2 c3 : Byte) : Float32 :=
  if host_be then
    ⟨c3.val + 256 * c2.val + 65536 * c1.val + 16777216 * c0.val, by omega⟩
  else
    ⟨c0.val + 256 * c1.val + 65536 * c2.val + 16777216 * c3.val, by omega⟩

/-- The four bytes of a `float` in memory, at increasing addresses. -/
def mem_of_float (host_be : Bool) (x : Float32) : List Byte :=
  if host_be then
    [⟨x.val / 16777216 % 256, Nat.mod_lt _ (by decide)⟩, ⟨x.val / 65536 % 256, Nat.mod_lt _ (by decide)⟩,
     ⟨x.val / 256 % 256, Nat.mod_lt _ (by decide)⟩, ⟨x.val % 256, Nat.mod_lt _ (by decide)⟩]
  else
    [⟨x.val % 256, Nat.mod_lt _ (by decide)⟩, ⟨x.val / 256 % 256, Nat.mod_lt _ (by decide)⟩,
     ⟨x.val / 65536 % 256, Nat.mod_lt _ (by decide)⟩, ⟨x.val / 16777216 % 256, Nat.mod_lt _ (by decide)⟩]

/-- One row as left in memory by `fread` and by the loop of lines 582-593, which swaps
`c[0]` with `c[3]` and `c[1]` with `c[2]` in every value when `reverse_bytes` is set. -/
def decode_row (host_be reverse_bytes : Bool) : List Byte → List Float32
  | c0 :: c1 :: c2 :: c3 :: rest =>
    (if reverse_bytes then float_of_mem host_be c3 c2 c1 c0 else float_of_mem host_be c0 c1 c2 c3)
      :: decode_row host_be reverse_bytes rest
  | _ => []

/-- The test `ptr[j] == nodata || ptr[j] < -1.0e+38` of line 602. -/
def is_null (nodata x : Float32) : Bool :=
  Fp.eq x.toFp nodata.toFp || Fp.lt x.toFp dbl_m1e38

/-- The test `ptr[j] != floor( ptr[j] )` of line 605. -/
def not_integral (x : Float32) : Bool := !(Fp.eq x.toFp (Fp.floor x.toFp))

/-- The loop of lines 595-608 over one row: the row as stored back, `has_nulls`, `all_ints`. -/
def scan_row (nodata : Float32) :
    List Float32 → Bool → Bool → Except GridError (List Float32 × Bool × Bool)
  | [], has_nulls, all_ints => .ok ([], has_nulls, all_ints)
  | x :: xs, has_nulls, all_ints =>
    if flt_isnan x then .error .contains_nan
    else if is_null nodata x then
      match scan_row nodata xs true all_ints with
      | .ok (ys, hn, ai) => .ok ((0 : Float32) :: ys, hn, ai)
      | .error e => .error e
    else
      match scan_row nodata xs has_nulls (if all_ints && not_integral x then false else all_ints) with
      | .ok (ys, hn, ai) => .ok (x :: ys, hn, ai)
      | .error e => .error e

/-- The row loop of lines 572-614 on the rest of the stream: `fread` of `ncols` values (a
short count is the fatal "file size too small"), byte reversal, scan, `fseek` over `rowpad`. -/
def read_rows (host_be big_endian : Bool) (ncols : Nat) (nodata : Float32) (rowpad : Nat) :
    Nat → List Byte → Bool → Bool → Except GridError FltGrid
  | 0, _, has_nulls, all_ints => .ok ⟨[], has_nulls, all_ints⟩
  | n + 1, rest, has_nulls, all_ints =>
    if rest.length < 4 * ncols then .error .too_small
    else
      match scan_row nodata (decode_row host_be (host_be != big_endian) (rest.take (4 * ncols)))
          has_nulls all_ints with
      | .error e => .error e
      | .ok (vals, hn, ai) =>
        match read_rows host_be big_endian ncols nodata rowpad n
            ((rest.drop (4 * ncols)).drop rowpad) hn ai with
        | .error e => .error e
        | .ok g => .ok ⟨vals ++ g.data, g.has_nulls, g.all_ints⟩

/-- The function `read_flt_file` on a stream positioned at its first byte. -/
def read_flt_file (host_be : Bool) (in_flt_file : List Byte) (nrows ncols : Nat)
    (nodata : Float32) (big_endian : Bool) (skipbytes rowpad : Nat) : Except GridError FltGrid :=
  read_rows host_be big_endian ncols nodata rowpad nrows (in_flt_file.drop skipbytes) false true

/-- The values stored in the stream in the declared byte order, row after row, before any
nodata handling: `ncols` values per row, each row followed by `rowpad` bytes. -/
def stored_values (host_be big_endian : Bool) (ncols rowpad : Nat) : Nat → List Byte → List Float32
  | 0, _ => []
  | n + 1, rest =>
    decode_row host_be (host_be != big_endian) (rest.take (4 * ncols))
      ++ stored_values host_be big_endian ncols rowpad n ((rest.drop (4 * ncols)).drop rowpad)

/-- Every one of the `nrows` rows has its `4 * ncols` bytes in the stream. -/
def rows_present (ncols rowpad : Nat) : Nat → List Byte → Prop
  | 0, _ => True
  | n + 1, rest =>
    4 * ncols ≤ rest.length ∧ rows_present ncols rowpad n ((rest.drop (4 * ncols)).drop rowpad)

/-- The value stored back for one cell by line 602-603: `0.0` in place of a null. -/
def replace_null (nodata x : Float32) : Float32 := if is_null nodata x then 0 else x

/-- Reversal of every complete group of four bytes. -/
def reverse_groups : List Byte → List Byte
  | c0 :: c1 :: c2 :: c3 :: rest => c3 :: c2 :: c1 :: c0 :: reverse_groups rest
  | l => l

/-- The stream in which the four bytes of every value of the `nrows` rows are reversed;
the pad bytes after each row are left alone. -/
def reverse_rows (ncols rowpad : Nat) : Nat → List Byte → List Byte
  | 0, rest => rest
  | n + 1, rest =>
    reverse_groups (rest.take (4 * ncols)) ++ ((rest.drop (4 * ncols)).take rowpad
      ++ reverse_rows ncols rowpad n ((rest.drop (4 * ncols)).drop rowpad))

/-- The stream with every stored value byte-reversed: skip region and row pads unchanged. -/
def reverse_payload (nrows ncols skipbytes rowpad : Nat) (stream : List Byte) : List Byte :=
  stream.take skipbytes ++ reverse_rows ncols rowpad nrows (stream.drop skipbytes)

/-! ## write_grid_files.c : write_flt_file -/

/-- The variables `*nodata`, `has_nulls`, `*min_value`, `*max_value` of `write_flt_file`. -/
structure FltScan where
  nodata : Float32
  has_nulls : Bool
  min_value : Float32
  max_value : Float32
deriving DecidableEq, Repr

/-- Lines 237-241: the running minimum and maximum. -/
def update_min_max (st : FltScan) (b : Float32) : FltScan :=
  if Fp.lt b.toFp st.min_value.toFp then { st with min_value := b }
  else if Fp.lt st.max_value.toFp b.toFp then { st with max_value := b }
  else st

/-- The body of the loop of lines 221-242 for one cell: the value left in `buffer[j]` and
the new variables, or the fatal exit of lines 231-236. -/
def write_cell (st : FltScan) (b : Float32) : Except GridError (Float32 × FltScan) :=
  if flt_isnan b then .ok (st.nodata, { st with has_nulls := true })
  else if !st.has_nulls then
    if Fp.lt b.toFp (Fp.mul64 st.nodata.toFp dbl_half) then
      .ok (b, update_min_max { st with nodata := Fp.toFloat32 (Fp.mul64 st.nodata.toFp dbl_ten) } b)
    else .ok (b, update_min_max st b)
  else if Fp.eq b.toFp st.nodata.toFp then .error .nodata_collision
  else .ok (b, update_min_max st b)

/-- The loop of lines 221-242 over one row: the buffer and the new variables. -/
def write_row : List Float32 → FltScan → Except GridError (List Float32 × FltScan)
  | [], st => .ok ([], st)
  | b :: bs, st =>
    match write_cell st b with
    | .error e => .error e
    | .ok (v, st1) =>
      match write_row bs st1 with
      | .error e => .error e
      | .ok (vs, st2) => .ok (v :: vs, st2)

/-- The bytes that `fwrite` emits for a buffer of floats. -/
def floats_to_bytes (host_be : Bool) : List Float32 → List Byte
  | [] => []
  | v :: vs => mem_of_float host_be v ++ floats_to_bytes host_be vs

/-- The row loop of lines 218-248: the bytes written and the final variables. -/
def write_rows (host_be : Bool) (ncols : Nat) :
    Nat → List Float32 → FltScan → Except GridError (List Byte × FltScan)
  | 0, _, st => .ok ([], st)
  | n + 1, ptr, st =>
    match write_row (ptr.take ncols) st with
    | .error e => .error e
    | .ok (buffer, st1) =>
      match write_rows host_be ncols n (ptr.drop ncols) st1 with
      | .error e => .error e
      | .ok (bytes, st2) => .ok (floats_to_bytes host_be buffer ++ bytes, st2)

/-- Result of `write_flt_file`: the bytes written to the file and the three outputs. -/
structure FltWritten where
  bytes : List Byte
  nodata : Float32
  min_value : Float32
  max_value : Float32
deriving DecidableEq, Repr

/-- The `float` constant `-1.0e+06` to which `*nodata` is initialised. -/
def flt_m1e6 : Float32 := 3379831808

/-- The function `write_flt_file`; `data` holds `nrows * ncols` values.  Lines 205-210:
the buffer of `bufsize` bytes, fatal when `malloc` fails.  When the buffer is shorter than
a row (`bufsize` has wrapped to a number that is not negative), `memcpy` fills it, the
loop of lines 221-242 goes over the cells that lie inside it, and the next cell is read
past its end. -/
def write_flt_file (host_be : Bool) (nrows ncols : Nat) (data : List Float32) :
    Except GridError FltWritten :=
  let bufsize := int_bufsize ncols 4
  if malloc_fails bufsize then .error .alloc
  else if nrows ≠ 0 ∧ bufsize.toNat < 4 * ncols then
    match write_row ((data.take ncols).take (bufsize.toNat / 4))
        ⟨flt_m1e6, false, data.headD 0, data.headD 0⟩ with
    | .error e => .error e
    | .ok _ => .error .buffer_overrun
  else
    match write_rows host_be ncols nrows data ⟨flt_m1e6, false, data.headD 0, data.headD 0⟩ with
    | .error e => .error e
    | .ok (bytes, st) => .ok ⟨bytes, st.nodata, st.min_value, st.max_value⟩

/-- An open binary file: its content and the file position. -/
structure FileState where
  bytes : List Byte
  pos : Nat
deriving DecidableEq, Repr

/-- The part of a file before the position `pos`; when the position lies past the end the
hole reads as zero bytes. -/
def zero_fill (bytes : List Byte) (pos : Nat) : List Byte :=
  bytes.take pos ++ List.replicate (pos - bytes.length) 0

/-- The function `fwrite` at the file position: the bytes replace what is there and extend
the file; a position past the end first fills the hole with zero bytes.  Nothing happens
when there is nothing to write. -/
def fwrite (bs : List Byte) (f : FileState) : FileState :=
  if bs = [] then f
  else ⟨zero_fill f.bytes f.pos ++ bs ++ f.bytes.drop (f.pos + bs.length), f.pos + bs.length⟩

/-- The call `fseek( hFile, offset, SEEK_CUR )`. -/
def fseek_cur (f : FileState) (offset : Int) : FileState := { f with pos := (f.pos + offset).toNat }

/-- The call `fseek( hFile, offset, SEEK_SET )`. -/
def fseek_set (f : FileState) (offset : Nat) : FileState := { f with pos := offset }

/-- The call `rewind( hFile )`. -/
def rewind (f : FileState) : FileState := { f with pos := 0 }

/-- The `size` low-order bytes of `n`, least significant first. -/
def le_bytes : Nat → Nat → List Byte
  | 0, _ => []
  | size + 1, n => ⟨n % 256, Nat.mod_lt _ (by decide)⟩ :: le_bytes size (n / 256)

/-- The bytes of an unsigned integer of `size` bytes as they lie in the memory of the host. -/
def host_bytes (host_be : Bool) (size n : Nat) : List Byte :=
  if host_be then (le_bytes size n).reverse else le_bytes size n

/-- The function `WriteWord`: an `unsigned short` in host order. -/
def WriteWord (host_be : Bool) (hFileRef : FileState) (n : Nat) : FileState :=
  fwrite (host_bytes host_be 2 n) hFileRef

/-- The function `WriteLong`: an `unsigned int` in host order. -/
def WriteLong (host_be : Bool) (hFileRef : FileState) (n : Nat) : FileState :=
  fwrite (host_bytes host_be 4 n) hFileRef

/-- The function `Write8Byte`: a `long long` in host order. -/
def Write8Byte (host_be : Bool) (hFileRef : FileState) (n : Nat) : FileState :=
  fwrite (host_bytes host_be 8 n) hFileRef

/-- The C function `strlen` on a character array: the number of bytes before the first NUL. -/
def strlen : List Byte → Nat
  | [] => 0
  | c :: cs => if c = 0 then 0 else strlen cs + 1

/-- The function `WriteString`: `count` bytes of the string (its terminator is the byte
after the last character), then the pad byte.  The test of line 133 is
`count & (1 == 0)`. -/
def WriteString (hFileRef : FileState) (str : List Byte) (count : Nat) : FileState :=
  let f1 := fwrite ((str ++ [0]).take count) hFileRef
  if count &&& (if (1 : Nat) = 0 then 1 else 0) ≠ 0 then f1
  else fwrite [0] f1

def TIFFbyte : Nat := 1
def TIFFascii : Nat := 2
def TIFFshort : Nat := 3
def TIFFlong : Nat := 4
def TIFFrational : Nat := 5
def TIFFdouble : Nat := 12
def TIFFlong8 : Nat := 16

def ImageWidth : Nat := 256
def ImageLength : Nat := 257
def BitsPerSample : Nat := 258
def Compression : Nat := 259
def PhotometricInterp : Nat := 262
def StripOffsets : Nat := 273
def SamplesPerPixel : Nat := 277
def RowsPerStrip : Nat := 278
def StripByteCounts : Nat := 279
def XResolution : Nat := 282
def YResolution : Nat := 283
def ResolutionUnit : Nat := 296
def Software : Nat := 305
def TIFFTAG_SAMPLEFORMAT : Nat := 339
def PHOTOMETRIC_MINISBLACK : Nat := 1
def SAMPLEFORMAT_UINT : Nat := 1

/-- The function `WriteTIFFTag`. -/
def WriteTIFFTag (host_be : Bool) (hFile : FileState) (tag type length offset : Nat) : FileState :=
  let f := WriteWord host_be hFile tag
  let f := WriteWord host_be f type
  let f := WriteLong host_be f length
  if type = TIFFshort ∧ length = 1 then
    let f := WriteWord host_be f offset
    WriteWord host_be f 0
  else
    WriteLong host_be f offset

/-- The function `WriteBigTIFFTag`. -/
def WriteBigTIFFTag (host_be : Bool) (hFile : FileState) (tag type length offset : Nat) :
    FileState :=
  let f := WriteWord host_be hFile tag
  let f := WriteWord host_be f type
  let f := Write8Byte host_be f length
  if type = TIFFshort ∧ length = 1 then
    let f := WriteWord host_be f offset
    let f := WriteWord host_be f 0
    WriteLong host_be f 0
  else if type = TIFFlong ∧ length = 1 then
    let f := WriteLong host_be f offset
    WriteLong host_be f 0
  else
    Write8Byte host_be f offset

/-- The function `WriteTIFFAsciiTag`; the entry is written with the tag `Software`
whatever `tag` is. -/
def WriteTIFFAsciiTag (host_be : Bool) (hFile : FileState) (_tag : Nat) (str : List Byte)
    (count offset : Nat) : FileState :=
  if count ≤ 0 then hFile
  else
    let f := WriteTIFFTag host_be hFile Software TIFFascii count offset
    if count > 4 then f
    else
      let f := fseek_cur f (-4)
      let f := WriteString f str count
      fseek_cur f (((4 - count) &&& 2 : Nat) : Int)

/-- The function `WriteBigTIFFAsciiTag`. -/
def WriteBigTIFFAsciiTag (host_be : Bool) (hFile : FileState) (_tag : Nat) (str : List Byte)
    (count offset : Nat) : FileState :=
  if count ≤ 0 then hFile
  else
    let f := WriteBigTIFFTag host_be hFile Software TIFFascii count offset
    if count > 8 then f
    else
      let f := fseek_cur f (-8)
      let f := WriteString f str count
      fseek_cur f (((8 - count) &&& 6 : Nat) : Int)

/-- The `double` constant `0.0`. -/
def dbl_zero : Fp := .fin false 0 0

/-- The `double` constant `65535.0`. -/
def dbl_65535 : Fp := .fin false 65535 0

/-- Conversion of a `double` to an unsigned 16-bit integer: the fraction is discarded. -/
def Fp.toUInt16 : Fp → Nat
  | .fin false m e => (if 0 ≤ e then m * 2 ^ e.toNat else m / 2 ^ (-e).toNat) % 65536
  | _ => 0

/-- The sample stored in `buffer[j]` by lines 256-273 of `WriteBitmap`. -/
def bitmap_sample (fltval : Float32) : Nat :=
  if flt_isnan fltval then 0
  else if Fp.le fltval.toFp dbl_zero then 0
  else if Fp.le dbl_65535 fltval.toFp then 65535
  else Fp.toUInt16 (Fp.add64 fltval.toFp dbl_half)

/-- The bytes of one buffer of `WriteBitmap` as `fwrite` emits them. -/
def samples_to_bytes (host_be : Bool) : List Float32 → List Byte
  | [] => []
  | v :: vs => host_bytes host_be 2 (bitmap_sample v) ++ samples_to_bytes host_be vs

/-- All the bytes that the row loop of `WriteBitmap` emits. -/
def bitmap_bytes (host_be : Bool) (width : Nat) : Nat → List Float32 → List Byte
  | 0, _ => []
  | n + 1, ptr =>
    samples_to_bytes host_be (ptr.take width) ++ bitmap_bytes host_be width n (ptr.drop width)

/-- The row loop of `WriteBitmap`: `height` rows of `width` samples taken from `ptr`. -/
def write_bitmap_rows (host_be : Bool) (width : Nat) :
    Nat → List Float32 → FileState → FileState
  | 0, _, f => f
  | n + 1, ptr, f =>
    write_bitmap_rows host_be width n (ptr.drop width)
      (fwrite (samples_to_bytes host_be (ptr.take width)) f)

/-- The function `WriteBitmap`; `data` holds `width * height` values.  The file it leaves
and the value it returns: -2, with nothing written, when `malloc` fails for the row buffer
of `bufsize` bytes (lines 245-250), and 0 after the row loop. -/
def WriteBitmap (host_be : Bool) (hFile : FileState) (width height : Nat) (data : List Float32) :
    FileState × Int :=
  if malloc_fails (int_bufsize width 2) then (hFile, -2)
  else (write_bitmap_rows host_be width height data hFile, 0)

/-- All the bytes that `WriteBitmap` emits: those of its row loop, or none when the buffer
is not allocated. -/
def bitmap_written (host_be : Bool) (width height : Nat) (data : List Float32) : List Byte :=
  if malloc_fails (int_bufsize width 2) then [] else bitmap_bytes host_be width height data

/-! ## WriteGrayscaleTIFF.c : the two encoders -/

/-- One of the entry-writing calls of the classic encoder (lines 344-366). -/
inductive TiffCall where
  | plain (tag type length offset : Nat) : TiffCall
  | ascii (tag : Nat) (str : List Byte) (count offset : Nat) : TiffCall
deriving DecidableEq, Repr

/-- One of the entry-writing steps of the BigTIFF encoder (lines 461-492); `rational` is
the group of lines 477-480: the entry with offset 0, `fseek` back over the value slot, and
the two 4-byte integers. -/
inductive BigTiffCall where
  | plain (tag type length offset : Nat) : BigTiffCall
  | ascii (tag : Nat) (str : List Byte) (count offset : Nat) : BigTiffCall
  | rational (tag num den : Nat) : BigTiffCall
deriving DecidableEq, Repr

/-- The tag ID that a call writes into its entry. -/
def TiffCall.tagId : TiffCall → Nat
  | .plain tag _ _ _ => tag
  | .ascii _ _ _ _ => Software

/-- The tag ID that a step writes into its entry. -/
def BigTiffCall.tagId : BigTiffCall → Nat
  | .plain tag _ _ _ => tag
  | .ascii _ _ _ _ => Software
  | .rational tag _ _ => tag

/-- Execution of one call of the classic encoder. -/
def TiffCall.run (host_be : Bool) (f : FileState) : TiffCall → FileState
  | .plain tag type length offset => WriteTIFFTag host_be f tag type length offset
  | .ascii tag str count offset => WriteTIFFAsciiTag host_be f tag str count offset

/-- Execution of one step of the BigTIFF encoder. -/
def BigTiffCall.run (host_be : Bool) (f : FileState) : BigTiffCall → FileState
  | .plain tag type length offset => WriteBigTIFFTag host_be f tag type length offset
  | .ascii tag str count offset => WriteBigTIFFAsciiTag host_be f tag str count offset
  | .rational tag num den =>
    let f := WriteBigTIFFTag host_be f tag TIFFrational 1 0
    let f := fseek_cur f (-8)
    let f := WriteLong host_be f num
    WriteLong host_be f den

/-- Line 302: `softwareVersion ? strlen(softwareVersion) : 0`. -/
def software_strlen : Option (List Byte) → Nat
  | some s => strlen s
  | none => 0

/-- Lines 306-308: `softwareCount`, the terminator included when the string is not empty. -/
def software_count (softwareVersion : Option (List Byte)) : Nat :=
  if software_strlen softwareVersion ≠ 0 then software_strlen softwareVersion + 1 else 0

/-- Lines 305-309: `softwareSpace`. -/
def software_space (softwareVersion : Option (List Byte)) : Nat :=
  if software_strlen softwareVersion ≠ 0 then
    software_count softwareVersion + (software_count softwareVersion &&& 1)
  else 2

/-- Lines 304-310: `sTagCount`. -/
def tag_count (softwareVersion : Option (List Byte)) : Nat :=
  if software_strlen softwareVersion ≠ 0 then 14 else 13

/-- Lines 314-340 of `WriteGrayscale16BitToTIFF`: the 8-byte header, the two resolution
rationals and the software string (or a zero word). -/
def tiff_header (host_be : Bool) (hFile : FileState) (softwareVersion : Option (List Byte)) :
    FileState :=
  let f := if host_be then WriteWord host_be hFile 0x4d4d else WriteWord host_be hFile 0x4949
  let f := WriteWord host_be f 42
  let f := WriteLong host_be f (24 + software_space softwareVersion)
  let f := WriteLong host_be f (72 * 0x02710)
  let f := WriteLong host_be f 0x02710
  let f := WriteLong host_be f (72 * 0x02710)
  let f := WriteLong host_be f 0x02710
  if software_count softwareVersion ≠ 0 then
    WriteString f (softwareVersion.getD []) (software_count softwareVersion)
  else
    WriteWord host_be f 0

/-- Lines 344-349: the calls up to and including `StripOffsets`. -/
def tiff_calls_a (width height : Nat) : List TiffCall :=
  [.plain ImageWidth TIFFlong 1 width,
   .plain ImageLength TIFFlong 1 height,
   .plain BitsPerSample TIFFshort 1 16,
   .plain Compression TIFFshort 1 1,
   .plain PhotometricInterp TIFFshort 1 PHOTOMETRIC_MINISBLACK,
   .plain StripOffsets TIFFlong 1 0]

/-- Lines 356-366: the calls after `StripOffsets`. -/
def tiff_calls_b (height lWriteCount : Nat) (softwareVersion : Option (List Byte)) :
    List TiffCall :=
  [.plain SamplesPerPixel TIFFshort 1 1,
   .plain RowsPerStrip TIFFlong 1 height,
   .plain StripByteCounts TIFFlong 1 lWriteCount,
   .plain XResolution TIFFrational 1 8,
   .plain YResolution TIFFrational 1 16,
   .plain ResolutionUnit TIFFshort 1 2]
  ++ (if software_count softwareVersion ≠ 0 then
        [.ascii Software (softwareVersion.getD []) (software_count softwareVersion) 24]
      else [])
  ++ [.plain TIFFTAG_SAMPLEFORMAT TIFFshort 1 SAMPLEFORMAT_UINT]

/-- The calls of a list, one after the other. -/
def run_calls (host_be : Bool) (f : FileState) (calls : List TiffCall) : FileState :=
  calls.foldl (TiffCall.run host_be) f

/-- The steps of a list, one after the other. -/
def run_big_calls (host_be : Bool) (f : FileState) (calls : List BigTiffCall) : FileState :=
  calls.foldl (BigTiffCall.run host_be) f

/-- Lines 300 and 422: `lWriteCount`, a `size_t`. -/
def write_count (width height : Nat) : Nat := height * width * 2 % 2 ^ 64

/-- Result of an encoder: the file, the value stored through `fileSize`, and the value
returned, which is 0 on success and -2 when `WriteBitmap` could not allocate its buffer. -/
structure TiffResult where
  file : FileState
  fileSize : Nat
  err : Int
deriving DecidableEq, Repr

/-- Lines 435-457 of `WriteGrayscale16BitToBigTIFF`: the 16-byte header, eight zero bytes
and the software string (or a zero word). -/
def bigtiff_header (host_be : Bool) (hFile : FileState) (softwareVersion : Option (List Byte)) :
    FileState :=
  let f := if host_be then WriteWord host_be hFile 0x4d4d else WriteWord host_be hFile 0x4949
  let f := WriteWord host_be f 43
  let f := WriteWord host_be f 8
  let f := WriteWord host_be f 0
  let f := Write8Byte host_be f (24 + software_space softwareVersion)
  let f := Write8Byte host_be f 0
  if software_count softwareVersion ≠ 0 then
    WriteString f (softwareVersion.getD []) (software_count softwareVersion)
  else
    WriteWord host_be f 0

/-- Lines 461-466: the steps up to and including `StripOffsets`. -/
def bigtiff_calls_a (width height : Nat) : List BigTiffCall :=
  [.plain ImageWidth TIFFlong 1 width,
   .plain ImageLength TIFFlong 1 height,
   .plain BitsPerSample TIFFshort 1 16,
   .plain Compression TIFFshort 1 1,
   .plain PhotometricInterp TIFFshort 1 PHOTOMETRIC_MINISBLACK,
   .plain StripOffsets TIFFlong 1 0]

/-- Lines 473-492: the steps after `StripOffsets`. -/
def bigtiff_calls_b (height lWriteCount : Nat) (softwareVersion : Option (List Byte)) :
    List BigTiffCall :=
  [.plain SamplesPerPixel TIFFshort 1 1,
   .plain RowsPerStrip TIFFlong 1 height,
   .plain StripByteCounts TIFFlong8 1 lWriteCount,
   .rational XResolution (72 * 0x02710) 0x02710,
   .rational YResolution (72 * 0x02710) 0x02710,
   .plain ResolutionUnit TIFFshort 1 2]
  ++ (if software_count softwareVersion ≠ 0 then
        [.ascii Software (softwareVersion.getD []) (software_count softwareVersion) 24]
      else [])
  ++ [.plain TIFFTAG_SAMPLEFORMAT TIFFshort 1 SAMPLEFORMAT_UINT]

/-- Lines 435-494: header, entry count, entries and the zero next-IFD field; the state
reached and `offsetpos`. -/
def bigtiff_directory (host_be : Bool) (hFile : FileState) (width height : Nat)
    (softwareVersion : Option (List Byte)) : FileState × Nat :=
  let f := bigtiff_header host_be hFile softwareVersion
  let f := Write8Byte host_be f (tag_count softwareVersion)
  let f := run_big_calls host_be f (bigtiff_calls_a width height)
  let offsetpos := f.pos - 8
  let f := run_big_calls host_be f
    (bigtiff_calls_b height (write_count width height) softwareVersion)
  let f := Write8Byte host_be f 0
  (f, offsetpos)

/-- Lines 395-404 and 513-522, the same in both encoders: the position `pos` reached after
the directory is written as a 4-byte integer at `offsetpos`, then the bitmap follows at
`pos`; the file left and the value that `WriteBitmap` returns. -/
def patch_and_payload (host_be : Bool) (hFile : FileState) (offsetpos : Nat) (width height : Nat)
    (data : List Float32) : FileState × Int :=
  let pos := hFile.pos
  let f := fseek_set hFile offsetpos
  let f := WriteLong host_be f pos
  let f := fseek_set f pos
  WriteBitmap host_be f width height data

/-- The function `WriteGrayscale16BitToBigTIFF`. -/
def WriteGrayscale16BitToBigTIFF (host_be : Bool) (hFile : FileState) (width height : Nat)
    (data : List Float32) (softwareVersion : Option (List Byte)) : TiffResult :=
  let d := bigtiff_directory host_be hFile width height softwareVersion
  let pos := d.1.pos
  let fileSize := (pos + write_count width height) % 2 ^ 64
  let r := patch_and_payload host_be d.1 d.2 width height data
  ⟨r.1, fileSize, r.2⟩

/-- Lines 314-368: header, entry count, entries and the zero next-IFD field; the state
reached and `offsetpos`. -/
def tiff_directory (host_be : Bool) (hFile : FileState) (width height : Nat)
    (softwareVersion : Option (List Byte)) : FileState × Nat :=
  let f := tiff_header host_be hFile softwareVersion
  let f := WriteWord host_be f (tag_count softwareVersion)
  let f := run_calls host_be f (tiff_calls_a width height)
  let offsetpos := f.pos - 4
  let f := run_calls host_be f (tiff_calls_b height (write_count width height) softwareVersion)
  let f := WriteLong host_be f 0
  (f, offsetpos)

/-- The test `(tiffSize-1)>>31 > 1` of line 384 on a `size_t`. -/
def too_big_for_tiff (tiffSize : Nat) : Bool :=
  decide (1 < ((tiffSize + 2 ^ 64 - 1) % 2 ^ 64) >>> 31)

/-- The function `WriteGrayscale16BitToTIFF`. -/
def WriteGrayscale16BitToTIFF (host_be : Bool) (hFile : FileState) (width height : Nat)
    (data : List Float32) (softwareVersion : Option (List Byte)) : TiffResult :=
  let d := tiff_directory host_be hFile width height softwareVersion
  let pos := d.1.pos
  let tiffSize := (pos + write_count width height) % 2 ^ 64
  if too_big_for_tiff tiffSize then
    WriteGrayscale16BitToBigTIFF host_be (rewind d.1) width height data softwareVersion
  else
    let r := patch_and_payload host_be d.1 d.2 width height data
    ⟨r.1, tiffSize, r.2⟩

/-! ## Reading a file back -/

/-- The byte at an offset of a file; a hole or the space past the end reads as zero. -/
def byte_at (bytes : List Byte) (i : Nat) : Nat := (bytes.getD i 0).val

/-- The unsigned integer of `size` bytes stored at offset `p` in the byte order `be`. -/
def read_uint (be : Bool) (bytes : List Byte) (p : Nat) : Nat → Nat
  | 0 => 0
  | size + 1 =>
    if be then byte_at bytes (p + size) + 256 * read_uint be bytes p size
    else byte_at bytes p + 256 * read_uint be bytes (p + 1) size

/-- The twelve bytes of a classic entry as `WriteTIFFTag` emits them. -/
def tiff_entry_bytes (host_be : Bool) (tag type length offset : Nat) : List Byte :=
  host_bytes host_be 2 tag ++ (host_bytes host_be 2 type ++ (host_bytes host_be 4 length ++
    (if type = TIFFshort ∧ length = 1 then host_bytes host_be 2 offset ++ host_bytes host_be 2 0
     else host_bytes host_be 4 offset)))

/-- The twenty bytes of a BigTIFF entry as `WriteBigTIFFTag` emits them. -/
def bigtiff_entry_bytes (host_be : Bool) (tag type length offset : Nat) : List Byte :=
  host_bytes host_be 2 tag ++ (host_bytes host_be 2 type ++ (host_bytes host_be 8 length ++
    (if type = TIFFshort ∧ length = 1 then
       host_bytes host_be 2 offset ++ (host_bytes host_be 2 0 ++ host_bytes host_be 4 0)
     else if type = TIFFlong ∧ length = 1 then host_bytes host_be 4 offset ++ host_bytes host_be 4 0
     else host_bytes host_be 8 offset)))

/-- The file `g` agrees with the file `f` on every byte below the offset `lo`. -/
def Untouched (lo : Nat) (f g : FileState) : Prop :=
  ∀ i, i < lo → byte_at g.bytes i = byte_at f.bytes i

/-- The file positions at which the successive steps of a list start. -/
def step_positions {α : Type} (run : FileState → α → FileState) : FileState → List α → List Nat
  | _, [] => []
  | f, c :: cs => f.pos :: step_positions run (run f c) cs

/-- The file positions at which the successive calls of the classic encoder start. -/
def call_positions (host_be : Bool) (f : FileState) (calls : List TiffCall) : List Nat :=
  step_positions (TiffCall.run host_be) f calls

/-- The file positions at which the successive steps of the BigTIFF encoder start. -/
def big_call_positions (host_be : Bool) (f : FileState) (calls : List BigTiffCall) : List Nat :=
  step_positions (BigTiffCall.run host_be) f calls

/-- A step that writes one entry: it ends between `lo` and `hi` bytes after the position
at which it starts, leaves every byte below that position alone, and leaves `tag` in the
two bytes at that position. -/
def EntryStep (be : Bool) (tag lo hi : Nat) (op : FileState → FileState) : Prop :=
  ∀ f, f.pos + lo ≤ (op f).pos ∧ (op f).pos ≤ f.pos + hi ∧ Untouched f.pos f (op f)
    ∧ read_uint be (op f).bytes f.pos 2 = tag

/-- The calls of the classic encoder in the order of execution. -/
def tiff_calls (width height : Nat) (softwareVersion : Option (List Byte)) : List TiffCall :=
  tiff_calls_a width height ++ tiff_calls_b height (write_count width height) softwareVersion

/-- The steps of the BigTIFF encoder in the order of execution. -/
def bigtiff_calls (width height : Nat) (softwareVersion : Option (List Byte)) :
    List BigTiffCall :=
  bigtiff_calls_a width height ++ bigtiff_calls_b height (write_count width height) softwareVersion

/-- The state of the classic encoder when the first entry is about to be written. -/
def tiff_before_entries (host_be : Bool) (hFile : FileState)
    (softwareVersion : Option (List Byte)) : FileState :=
  WriteWord host_be (tiff_header host_be hFile softwareVersion) (tag_count softwareVersion)

/-- The state of the BigTIFF encoder when the first entry is about to be written. -/
def bigtiff_before_entries (host_be : Bool) (hFile : FileState)
    (softwareVersion : Option (List Byte)) : FileState :=
  Write8Byte host_be (bigtiff_header host_be hFile softwareVersion) (tag_count softwareVersion)

/-- The bytes that the string part of a header emits: the string with its terminator and
the pad byte, or a zero word when there is no string. -/
def software_bytes (host_be : Bool) (softwareVersion : Option (List Byte)) : List Byte :=
  if software_count softwareVersion ≠ 0 then
    ((softwareVersion.getD []) ++ [0]).take (software_count softwareVersion) ++ [0]
  else host_bytes host_be 2 0

/-- The bytes that `tiff_header` emits. -/
def tiff_header_bytes (host_be : Bool) (softwareVersion : Option (List Byte)) : List Byte :=
  host_bytes host_be 2 (if host_be then 0x4d4d else 0x4949) ++ (host_bytes host_be 2 42 ++
    (host_bytes host_be 4 (24 + software_space softwareVersion) ++
    (host_bytes host_be 4 (72 * 0x02710) ++ (host_bytes host_be 4 0x02710 ++
    (host_bytes host_be 4 (72 * 0x02710) ++ (host_bytes host_be 4 0x02710 ++
    software_bytes host_be softwareVersion))))))

/-- The bytes that `bigtiff_header` emits. -/
def bigtiff_header_bytes (host_be : Bool) (softwareVersion : Option (List Byte)) : List Byte :=
  host_bytes host_be 2 (if host_be then 0x4d4d else 0x4949) ++ (host_bytes host_be 2 43 ++
    (host_bytes host_be 2 8 ++ (host_bytes host_be 2 0 ++
    (host_bytes host_be 8 (24 + software_space softwareVersion) ++ (host_bytes host_be 8 0 ++
    software_bytes host_be softwareVersion)))))

/-- One entry of a classic IFD as a reader decodes it: tag, type, count, and the value
slot read as a 2-byte integer for a single SHORT and as a 4-byte integer otherwise. -/
structure IfdEntry where
  tag : Nat
  type : Nat
  count : Nat
  value : Nat
deriving DecidableEq, Repr

/-- The 12-byte classic entry stored at offset `p`. -/
def read_entry (be : Bool) (bytes : List Byte) (p : Nat) : IfdEntry :=
  ⟨read_uint be bytes p 2, read_uint be bytes (p + 2) 2, read_uint be bytes (p + 4) 4,
    if read_uint be bytes (p + 2) 2 = TIFFshort ∧ read_uint be bytes (p + 4) 4 = 1 then
      read_uint be bytes (p + 8) 2
    else read_uint be bytes (p + 8) 4⟩

/-- The classic IFD stored at offset `p`: the 2-byte entry count, then that many entries of
12 bytes each. -/
def read_ifd (be : Bool) (bytes : List Byte) (p : Nat) : List IfdEntry :=
  (List.range (read_uint be bytes p 2)).map (fun k => read_entry be bytes (p + 2 + 12 * k))

/-- The content of the 4-byte value slot when a string of two characters is stored in it:
the two characters, the terminator and the pad byte, read as one integer. -/
def inline_string_value (be : Bool) (str : List Byte) : Nat :=
  read_uint be ((str ++ [0]).take 3 ++ [0]) 0 4

/-- The entry that a reader finds where a call of the classic encoder has written, for an
ASCII call whose string does not have one or three characters. -/
def TiffCall.entry (be : Bool) : TiffCall → IfdEntry
  | .plain tag type length offset =>
    ⟨tag, type, length, if type = TIFFshort ∧ length = 1 then offset % 65536 else offset % 2 ^ 32⟩
  | .ascii _ str count offset =>
    ⟨Software, TIFFascii, count, if count > 4 then offset % 2 ^ 32 else inline_string_value be str⟩

/-- A step that writes one 12-byte entry at the file position, leaves every byte below it
alone, and after which a reader finds the entry `e` there. -/
def WritesEntry (be : Bool) (e : IfdEntry) (op : FileState → FileState) : Prop :=
  ∀ f, (op f).pos = f.pos + 12 ∧ Untouched f.pos f (op f) ∧ read_entry be (op f).bytes f.pos = e

/-- The call has small enough arguments for its entry to be read back as written: tag and
type fit 16 bits, the count fits 32 bits, and an ASCII call has the count `strlen + 1`
with a string of two or of at least four characters. -/
def TiffCall.regular : TiffCall → Prop
  | .plain tag type length _ => tag < 65536 ∧ type < 65536 ∧ length < 2 ^ 32
  | .ascii _ str count _ => count = strlen str + 1 ∧ count < 2 ^ 32 ∧ (count = 3 ∨ 4 < count)

/-! ## Text conversions of the C library

`fprintf` and `sscanf` are modelled on byte strings.  Conversions between binary and
decimal are exact and correctly rounded (to nearest, ties to even), expressions of type
`double` are evaluated in `double`, and the sign of a NaN is not carried. -/

/-- The bytes of a string constant. -/
def str (s : String) : List Byte :=
  s.toList.map (fun c => (⟨c.toNat % 256, Nat.mod_lt _ (by decide)⟩ : Byte))

/-- The character of the last decimal digit of `n`. -/
def digit_char (n : Nat) : Byte := ⟨48 + n % 10, by omega⟩

/-- The `k` low decimal digits of `n`, most significant first. -/
def digits_fixed : Nat → Nat → List Byte
  | 0, _ => []
  | k + 1, n => digits_fixed k (n / 10) ++ [digit_char n]

/-- Number of decimal digits of `n`, by division at most `fuel` times. -/
def declen_aux : Nat → Nat → Nat
  | 0, _ => 1
  | fuel + 1, n => if n < 10 then 1 else declen_aux fuel (n / 10) + 1

/-- Number of decimal digits of `n` (1 for 0). -/
def declen (n : Nat) : Nat := declen_aux n n

/-- The decimal digits of `n` without leading zeros. -/
def dec_digits (n : Nat) : List Byte := digits_fixed (declen n) n

/-- The sign that `printf` puts before a negative number. -/
def sign_text (neg : Bool) : List Byte := if neg then str "-" else []

/-- The conversion `%d`. -/
def fmt_d (v : Int) : List Byte := sign_text (decide (v < 0)) ++ dec_digits v.natAbs

/-- The conversion `%-13s` and its like: the string, padded on the right to `w` characters. -/
def pad_right (w : Nat) (s : List Byte) : List Byte := s ++ List.replicate (w - s.length) 32

/-- The integer nearest to `a / b`, ties to even. -/
def round_div (a b : Nat) : Nat :=
  if b < 2 * (a % b) ∨ (2 * (a % b) = b ∧ a / b % 2 = 1) then a / b + 1 else a / b

/-- The decimal exponent of `a / b` (`0 < a`, `0 < b`): the `x` with
`10^x ≤ a / b < 10^(x+1)`. -/
def dec_exp (a b : Nat) : Int :=
  let l : Int := (declen a : Int) - (declen b : Int)
  if b * 10 ^ l.toNat ≤ a * 10 ^ (-l).toNat then l else l - 1

/-- The value `m * 2^e` (`0 < m`) rounded to `P` significant decimal digits: the digits as
a number `D` with `10^(P-1) ≤ D < 10^P`, and the decimal exponent of the first digit. -/
def dec_round (P : Nat) (m : Nat) (e : Int) : Nat × Int :=
  let a := m * 2 ^ e.toNat
  let b := 2 ^ (-e).toNat
  let x := dec_exp a b
  let k : Int := (P : Int) - 1 - x
  let D := round_div (a * 10 ^ k.toNat) (b * 10 ^ (-k).toNat)
  if D = 10 ^ P then (10 ^ (P - 1), x + 1) else (D, x)

/-- The `f` fraction digits `F` with the trailing zeros removed. -/
def frac_digits : Nat → Nat → List Byte
  | 0, _ => []
  | f + 1, F => if F % 10 = 0 then frac_digits f (F / 10) else digits_fixed (f + 1) F

/-- The decimal point and the fraction, or nothing when no fraction digit is left. -/
def point_frac (frac : List Byte) : List Byte := if frac = [] then [] else str "." ++ frac

/-- The exponent of the style `e`: a sign and at least two digits. -/
def exp_text (x : Int) : List Byte :=
  str "e" ++ (if x < 0 then str "-" else str "+") ++ digits_fixed (max 2 (declen x.natAbs)) x.natAbs

/-- The conversion `%.Pg` (for `1 ≤ P`, without the `#` flag).  `Fp` has one NaN, shown as
`nan`: the C library writes `-nan` for a NaN whose sign bit is set, and that sign is not
modelled. -/
def fmt_g (P : Nat) : Fp → List Byte
  | .nan => str "nan"
  | .inf neg => sign_text neg ++ str "inf"
  | .fin neg m e =>
    if m = 0 then sign_text neg ++ str "0"
    else
      let DX := dec_round P m e
      if -4 ≤ DX.2 ∧ DX.2 < P then
        let f := ((P : Int) - 1 - DX.2).toNat
        sign_text neg ++ dec_digits (DX.1 / 10 ^ f) ++ point_frac (frac_digits f (DX.1 % 10 ^ f))
      else
        sign_text neg ++ dec_digits (DX.1 / 10 ^ (P - 1))
          ++ point_frac (frac_digits (P - 1) (DX.1 % 10 ^ (P - 1))) ++ exp_text DX.2

/-- The conversion `%.pf`.  `Fp` has one NaN, shown as `nan`: the C library writes `-nan` for
a NaN whose sign bit is set, and that sign is not modelled. -/
def fmt_f (p : Nat) : Fp → List Byte
  | .nan => str "nan"
  | .inf neg => sign_text neg ++ str "inf"
  | .fin neg m e =>
    let R := round_div (m * 2 ^ e.toNat * 10 ^ p) (2 ^ (-e).toNat)
    sign_text neg ++ dec_digits (R / 10 ^ p)
      ++ (if p = 0 then [] else str "." ++ digits_fixed p (R % 10 ^ p))

/-- The C function `isspace` in the C locale. -/
def isspace (c : Byte) : Bool := decide (c.val = 32 ∨ (9 ≤ c.val ∧ c.val ≤ 13))

/-- The C function `isdigit`. -/
def isdigit (c : Byte) : Bool := decide (48 ≤ c.val ∧ c.val ≤ 57)

/-- The C function `tolower` in the C locale. -/
def tolower (c : Byte) : Byte :=
  if h : 65 ≤ c.val ∧ c.val ≤ 90 then ⟨c.val + 32, by omega⟩ else c

/-- The value of a hexadecimal digit, if the character is one. -/
def hex_value (c : Byte) : Option Nat :=
  if isdigit c then some (c.val - 48)
  else if 97 ≤ (tolower c).val ∧ (tolower c).val ≤ 102 then some ((tolower c).val - 87)
  else none

/-- White space skipped by a directive of `sscanf`. -/
def skip_space : List Byte → List Byte
  | [] => []
  | c :: s => if isspace c then skip_space s else c :: s

/-- The longest run of decimal digits at the head of the input: the number read after
`acc`, the count of digits added to `n`, and the rest. -/
def scan_digits : List Byte → Nat → Nat → Nat × Nat × List Byte
  | [], acc, n => (acc, n, [])
  | c :: s, acc, n =>
    if isdigit c then scan_digits s (acc * 10 + (c.val - 48)) (n + 1) else (acc, n, c :: s)

/-- The longest run of hexadecimal digits at the head of the input. -/
def scan_hex_digits : List Byte → Nat → Nat → Nat × Nat × List Byte
  | [], acc, n => (acc, n, [])
  | c :: s, acc, n =>
    match hex_value c with
    | some d => scan_hex_digits s (acc * 16 + d) (n + 1)
    | none => (acc, n, c :: s)

/-- An optional sign at the head of the input: whether it is `-`, and the rest. -/
def scan_sign : List Byte → Bool × List Byte
  | [] => (false, [])
  | c :: s => if c = 45 then (true, s) else if c = 43 then (false, s) else (false, c :: s)

/-- The conversion `%d` of `sscanf` up to the storing: the number read, or nothing on a
matching or input failure.  The number is not yet reduced to the range of an `int`. -/
def scan_d (s : List Byte) : Option Int :=
  let ns := scan_sign (skip_space s)
  let r := scan_digits ns.2 0 0
  if r.2.1 = 0 then none else some (if ns.1 then -(r.1 : Int) else (r.1 : Int))

/-- The conversion `%s` of `sscanf`: the run of characters up to the next white space. -/
def scan_token : List Byte → List Byte × List Byte
  | [] => ([], [])
  | c :: s => if isspace c then ([], c :: s) else ((scan_token s).1.cons c, (scan_token s).2)

/-- What a floating-point conversion of `sscanf` has read: a NaN, an infinity, or the
ratio `a / b`. -/
inductive FloatLit where
  | nan : FloatLit
  | inf : FloatLit
  | ratio (a b : Nat) : FloatLit
deriving DecidableEq, Repr

/-- Length of the longest common prefix of the input, in lower case, and `word`. -/
def match_word : List Byte → List Byte → Nat
  | c :: s, w :: word => if tolower c = w then match_word s word + 1 else 0
  | _, _ => 0

/-- The optional exponent part after the digits: marker `mark`, optional sign, decimal
digits.  A marker that is not followed by a digit is read, with its sign, as part of the
input item, and the number is converted without it: the exponent is 0. -/
def scan_exponent (mark : Byte) (s : List Byte) : Int :=
  match s with
  | [] => 0
  | c :: t =>
    if tolower c = mark then
      let ns := scan_sign t
      let r := scan_digits ns.2 0 0
      if ns.1 then -(r.1 : Int) else (r.1 : Int)
    else 0

/-- The optional fraction after the integer digits of value `i`: the value with the
fraction digits appended, the number of fraction digits, and the rest. -/
def scan_fraction (i : Nat) : List Byte → Nat × Nat × List Byte
  | [] => (i, 0, [])
  | c :: t => if c = 46 then scan_digits t i 0 else (i, 0, c :: t)

/-- The number made of `n` digits in base `base` with value `m`, `f` of them after the
point (each worth `w` binary or decimal places), and of the exponent part at the head of
`s` with marker `mark`; nothing when there is no digit. -/
def float_lit (base w : Nat) (mark : Byte) (n m f : Nat) (s : List Byte) : Option FloatLit :=
  if n = 0 then none
  else
    some (.ratio (m * base ^ (scan_exponent mark s - ((w * f : Nat) : Int)).toNat)
      (base ^ (((w * f : Nat) : Int) - scan_exponent mark s).toNat))

/-- A decimal floating constant: digits with an optional point, at least one digit, and an
optional exponent. -/
def scan_decimal (s : List Byte) : Option FloatLit :=
  let i := scan_digits s 0 0
  let fr := scan_fraction i.1 i.2.2
  float_lit 10 1 101 (i.2.1 + fr.2.1) fr.1 fr.2.1 fr.2.2

/-- The optional fraction of a hexadecimal constant. -/
def scan_hex_fraction (i : Nat) : List Byte → Nat × Nat × List Byte
  | [] => (i, 0, [])
  | c :: t => if c = 46 then scan_hex_digits t i 0 else (i, 0, c :: t)

/-- A hexadecimal floating constant, after its prefix `0x`.  Without any hexadecimal
digit the conversion fails when nothing but the prefix has been read; when a point
follows the prefix, the point is read and the zero of the prefix is converted. -/
def scan_hex (s : List Byte) : Option FloatLit :=
  let i := scan_hex_digits s 0 0
  let fr := scan_hex_fraction i.1 i.2.2
  if i.2.1 + fr.2.1 = 0 then
    if s.head? = some 46 then some (.ratio 0 1) else none
  else float_lit 2 4 112 (i.2.1 + fr.2.1) fr.1 fr.2.1 fr.2.2

/-- The conversions `%lf` and `%f` of `sscanf` up to the rounding: the sign and the number
read, or nothing on a matching or input failure.  After `nan` a parenthesised sequence,
finished or not, does not change the result. -/
def scan_float (s : List Byte) : Option (Bool × FloatLit) :=
  let ns := scan_sign (skip_space s)
  match ns.2 with
  | [] => none
  | c :: t =>
    if tolower c = 105 then
      if match_word ns.2 (str "infinity") = 3 ∨ match_word ns.2 (str "infinity") = 8
      then some (ns.1, .inf) else none
    else if tolower c = 110 then
      if match_word ns.2 (str "nan") = 3 then some (ns.1, .nan) else none
    else if c = 48 ∧ (t.head?.map tolower) = some 120 then
      (scan_hex (t.drop 1)).map (fun v => (ns.1, v))
    else (scan_decimal ns.2).map (fun v => (ns.1, v))

/-- The binary exponent of `a / b` (`0 < a`, `0 < b`): the `x` with
`2^x ≤ a / b < 2^(x+1)`. -/
def bin_exp (a b : Nat) : Int :=
  let l : Int := (bitlen a : Int) - (bitlen b : Int)
  if b * 2 ^ l.toNat ≤ a * 2 ^ (-l).toNat then l else l - 1

/-- Rounding of the ratio `a / b` (`0 < b`) to nearest, ties to even, onto the numbers with
`p` significant bits and least exponent `emin`: the rounded significand and its exponent. -/
def round_ratio (p : Nat) (emin : Int) (a b : Nat) : Nat × Int :=
  if a = 0 then (0, emin)
  else
    let q : Int := max emin (bin_exp a b + 1 - p)
    (round_div (a * 2 ^ (-q).toNat) (b * 2 ^ q.toNat), q)

/-- Rounding of the ratio `a / b` with a sign to `double`. -/
def Fp.ratio64 (neg : Bool) (a b : Nat) : Fp :=
  let tq := round_ratio 53 (-1074) a b
  if 1024 < tq.2 + bitlen tq.1 then .inf neg else .fin neg tq.1 tq.2

/-- Rounding of the ratio `a / b` with a sign to `float`, as a pattern. -/
def Fp.ratio32 (neg : Bool) (a b : Nat) : Float32 :=
  let tq := round_ratio 24 (-149) a b
  Fp.toFloat32 (.fin neg tq.1 tq.2)

/-- The conversion `%lf` of `sscanf`. -/
def scan_lf (s : List Byte) : Option Fp :=
  match scan_float s with
  | none => none
  | some (_, .nan) => some .nan
  | some (neg, .inf) => some (.inf neg)
  | some (neg, .ratio a b) => some (Fp.ratio64 neg a b)

/-- The conversion `%f` of `sscanf`. -/
def scan_f (s : List Byte) : Option Float32 :=
  match scan_float s with
  | none => none
  | some (_, .nan) => some (Fp.toFloat32 .nan)
  | some (neg, .inf) => some (Fp.toFloat32 (.inf neg))
  | some (neg, .ratio a b) => some (Fp.ratio32 neg a b)

/-- The `double` quotient `a / b`. -/
def Fp.div64 : Fp → Fp → Fp
  | .nan, _ => .nan
  | _, .nan => .nan
  | .inf _, .inf _ => .nan
  | .inf n1, .fin n2 _ _ => .inf (n1 != n2)
  | .fin n1 _ _, .inf n2 => .fin (n1 != n2) 0 0
  | .fin n1 m1 e1, .fin n2 m2 e2 =>
    if m2 = 0 then (if m1 = 0 then .nan else .inf (n1 != n2))
    else Fp.ratio64 (n1 != n2) (m1 * 2 ^ (e1 - e2).toNat) (m2 * 2 ^ (e2 - e1).toNat)

/-- The negation `-a`. -/
def Fp.neg : Fp → Fp
  | .nan => .nan
  | .inf n => .inf (!n)
  | .fin n m e => .fin (!n) m e

/-- The `double` difference `a - b`. -/
def Fp.sub64 (a b : Fp) : Fp := Fp.add64 a (Fp.neg b)

/-- The C library function `fabs`. -/
def Fp.abs : Fp → Fp
  | .nan => .nan
  | .inf _ => .inf false
  | .fin _ m e => .fin false m e

/-- The conversion of an `int` to `double`. -/
def Fp.of_int (v : Int) : Fp := .fin (decide (v < 0)) v.natAbs 0

/-- The value of a `float` as a `double`. -/
def Fp.of_float (x : Float32) : Fp := x.toFp

/-- The `double` constant `0.25`. -/
def dbl_quarter : Fp := .fin false 1 (-2)

/-- The `double` constant `2.0`. -/
def dbl_two : Fp := .fin false 2 0

/-! ## write_grid_files.c : write_hdr_file -/

/-- One line of the header: `fprintf( out_hdr_file, "%-13s ...\r\n", keyword, value )`
with the value already converted. -/
def hdr_text_line (keyword value : List Byte) : List Byte :=
  pad_right 13 keyword ++ str " " ++ value ++ str "\r\n"

/-- The cell dimension `(max - min) / (double)n` of lines 351-352. -/
def cell_dim (n : Int) (lo hi : Fp) : Fp := Fp.div64 (Fp.sub64 hi lo) (Fp.of_int n)

/-- The test of lines 374-375 that selects the single `cellsize` line. -/
def square_cells (nrows ncols : Int) (xmin xmax ymin ymax : Fp) : Bool :=
  Fp.lt (Fp.abs (Fp.sub64 (Fp.div64 (Fp.sub64 xmax xmin) (cell_dim nrows ymin ymax))
      (Fp.of_int ncols))) dbl_quarter
    && Fp.lt (Fp.abs (Fp.sub64 (Fp.div64 (Fp.sub64 ymax ymin) (cell_dim ncols xmin xmax))
      (Fp.of_int nrows))) dbl_quarter

/-- The harmonic mean `2.0 * xdim * ydim / (xdim + ydim)` of line 378. -/
def harmonic_mean (xdim ydim : Fp) : Fp :=
  Fp.div64 (Fp.mul64 (Fp.mul64 dbl_two xdim) ydim) (Fp.add64 xdim ydim)

/-- The cell-size lines of the header: one `cellsize` line with the harmonic mean, or an
`xdim` and a `ydim` line. -/
def cell_size_lines (nrows ncols : Int) (xmin xmax ymin ymax : Fp) : List Byte :=
  if square_cells nrows ncols xmin xmax ymin ymax then
    hdr_text_line (str "cellsize")
      (fmt_g 14 (harmonic_mean (cell_dim ncols xmin xmax) (cell_dim nrows ymin ymax)))
  else
    hdr_text_line (str "xdim") (fmt_g 14 (cell_dim ncols xmin xmax))
      ++ hdr_text_line (str "ydim") (fmt_g 14 (cell_dim nrows ymin ymax))

/-- The function `write_hdr_file`: the text written to `out_hdr_file`.  `flt_data_type`
is true for a file of 32-bit floats; `software` is absent for a null pointer. -/
def write_hdr_file (host_be : Bool) (nrows ncols : Int) (xmin xmax ymin ymax : Fp)
    (nodata min_value max_value : Float32) (flt_data_type : Bool)
    (software : Option (List Byte)) : List Byte :=
  let nbits : Int := if flt_data_type then 32 else 16
  let pixeltype := if flt_data_type then str "FLOAT" else str "UNSIGNEDINT"
  hdr_text_line (str "ncols") (fmt_d ncols)
    ++ hdr_text_line (str "nrows") (fmt_d nrows)
    ++ hdr_text_line (str "xllcorner") (fmt_g 14 xmin)
    ++ hdr_text_line (str "yllcorner") (fmt_g 14 ymin)
    ++ cell_size_lines nrows ncols xmin xmax ymin ymax
    ++ hdr_text_line (str "NODATA_value") (fmt_g 6 (Fp.of_float nodata))
    ++ hdr_text_line (str "byteorder") (if host_be then str "MSBFIRST" else str "LSBFIRST")
    ++ hdr_text_line (str "layout") (str "BIL")
    ++ hdr_text_line (str "nbands") (fmt_d 1)
    ++ hdr_text_line (str "nbits") (fmt_d nbits)
    ++ hdr_text_line (str "pixeltype") pixeltype
    ++ hdr_text_line (str "min_value")
        (fmt_f (if flt_data_type then 1 else 0) (Fp.of_float min_value))
    ++ hdr_text_line (str "max_value")
        (fmt_f (if flt_data_type then 1 else 0) (Fp.of_float max_value))
    ++ (match software with
        | none => []
        | some s => hdr_text_line (str "software") (s.take (strlen s)))

/-! ## read_grid_files.c : read_hdr_file -/

/-- Ways in which `read_hdr_file` stops with `exit( EXIT_FAILURE )`. -/
inductive HdrError where
  | parse : HdrError
  | bad_value : HdrError
  | bad_zero : HdrError
  | negative : HdrError
  | no_ncols : HdrError
  | no_nrows : HdrError
  | bad_bandrowbytes : HdrError
  | bad_totalrowbytes : HdrError
  | no_xdim : HdrError
  | no_ydim : HdrError
  | no_xcoord : HdrError
  | no_ycoord : HdrError
deriving DecidableEq, Repr

/-- The local variables and output parameters of `read_hdr_file` that the loop over the
lines updates. -/
structure HdrVars where
  ncols : Int
  nrows : Int
  xcoord : Fp
  ycoord : Fp
  xcoord_type : Nat
  ycoord_type : Nat
  xdim : Fp
  ydim : Fp
  nodata : Float32
  big_endian : Bool
  skipbytes : Int
  bandrow : Int
  totalrow : Int
  software : Option (List Byte)
deriving DecidableEq, Repr

/-- What `read_hdr_file` returns through its output parameters. -/
structure HdrInfo where
  nrows : Int
  ncols : Int
  xmin : Fp
  xmax : Fp
  ymin : Fp
  ymax : Fp
  nodata : Float32
  big_endian : Bool
  skipbytes : Int
  rowpad : Int
  software : Option (List Byte)
deriving DecidableEq, Repr

/-- The C function `fgets( line, n, f )`: the characters up to and including the first
newline, at most `n - 1` of them, and the rest of the stream; `k` is `n - 1`. -/
def fgets : Nat → List Byte → List Byte × List Byte
  | 0, f => ([], f)
  | _, [] => ([], [])
  | k + 1, c :: f => if c = 10 then ([c], f) else ((fgets k f).1.cons c, (fgets k f).2)

/-- The array `line` as a C string: its characters before the first NUL. -/
def c_str (line : List Byte) : List Byte := line.take (strlen line)

/-- The function `make_lowercase`. -/
def make_lowercase (s : List Byte) : List Byte := s.map tolower

/-- The call `sscanf( line, "%s %n", keyword, &pos )`: the keyword in lower case and
`pos`, when the result is positive. -/
def scan_keyword (line : List Byte) : Option (List Byte × Nat) :=
  let t := scan_token (skip_space line)
  if t.1 = [] then none else some (make_lowercase t.1, line.length - (skip_space t.2).length)

/-- The function `negative_exit`. -/
def negative_exit (value : Int) : HdrError := if value = 0 then .bad_zero else .negative

/-- The `long` that `strtol` returns for a number: the number itself, or the nearest limit
of `long` when it is out of range. -/
def clamp_long (v : Int) : Int := max (-9223372036854775808) (min 9223372036854775807 v)

/-- The function `read_int`: `%d` stores the low 32 bits of the `long` that `strtol`
returns, so a number outside the range of an `int` is not an error. -/
def read_int (line : List Byte) (pos : Nat) : Except HdrError Int :=
  match scan_d (line.drop pos) with
  | none => .error .parse
  | some v => .ok (wrap_int (clamp_long v))

/-- The function `read_float`. -/
def read_float (line : List Byte) (pos : Nat) : Except HdrError Float32 :=
  match scan_f (line.drop pos) with
  | none => .error .parse
  | some v => .ok v

/-- The function `read_double`. -/
def read_double (line : List Byte) (pos : Nat) : Except HdrError Fp :=
  match scan_lf (line.drop pos) with
  | none => .error .parse
  | some v => .ok v

/-- The function `read_string`. -/
def read_string (line : List Byte) (pos : Nat) : Except HdrError (List Byte) :=
  let t := scan_token (skip_space (line.drop pos))
  if t.1 = [] then .error .parse else .ok (make_lowercase t.1)

/-- The `double` constant `0.0`. -/
def dbl_0 : Fp := .fin false 0 0

/-- The text kept for a `software` line: `line + pos` up to the first `\r` or `\n`. -/
def software_text : List Byte → List Byte
  | [] => []
  | c :: s => if c = 13 ∨ c = 10 then [] else c :: software_text s

/-- The chain of keyword tests in the loop of `read_hdr_file`, for one line in which a
keyword was found.  The `software` parameter is taken to be a non-null pointer. -/
def hdr_entry (line keyword : List Byte) (pos : Nat) (v : HdrVars) : Except HdrError HdrVars :=
  if keyword = str "ncols" then do
    let n ← read_int line pos
    if n ≤ 0 then .error (negative_exit n) else pure { v with ncols := n }
  else if keyword = str "nrows" then do
    let n ← read_int line pos
    if n ≤ 0 then .error (negative_exit n) else pure { v with nrows := n }
  else if keyword = str "xllcorner" then do
    let x ← read_double line pos
    pure { v with xcoord := x, xcoord_type := 1 }
  else if keyword = str "yllcorner" then do
    let y ← read_double line pos
    pure { v with ycoord := y, ycoord_type := 1 }
  else if keyword = str "xllcenter" then do
    let x ← read_double line pos
    pure { v with xcoord := x, xcoord_type := 2 }
  else if keyword = str "yllcenter" then do
    let y ← read_double line pos
    pure { v with ycoord := y, ycoord_type := 2 }
  else if keyword = str "ulxmap" then do
    let x ← read_double line pos
    pure { v with xcoord := x, xcoord_type := 3 }
  else if keyword = str "ulymap" then do
    let y ← read_double line pos
    pure { v with ycoord := y, ycoord_type := 3 }
  else if keyword = str "cellsize" then do
    let d ← read_double line pos
    if Fp.eq d dbl_0 then .error .bad_zero else pure { v with xdim := d, ydim := d }
  else if keyword = str "xdim" then do
    let d ← read_double line pos
    if Fp.eq d dbl_0 then .error .bad_zero else pure { v with xdim := d }
  else if keyword = str "ydim" then do
    let d ← read_double line pos
    if Fp.eq d dbl_0 then .error .bad_zero else pure { v with ydim := d }
  else if keyword = str "nodata_value" then do
    let x ← read_float line pos
    pure { v with nodata := x }
  else if keyword = str "nodata" then do
    let x ← read_float line pos
    pure { v with nodata := x }
  else if keyword = str "nbands" then do
    let n ← read_int line pos
    if n ≠ 1 then .error .bad_value else pure v
  else if keyword = str "nbits" then do
    let n ← read_int line pos
    if n = 8 ∨ n = 16 ∨ n ≠ 32 then .error .bad_value else pure v
  else if keyword = str "skipbytes" then do
    let n ← read_int line pos
    if n < 0 then .error (negative_exit n) else pure { v with skipbytes := n }
  else if keyword = str "bandrowbytes" then do
    let n ← read_int line pos
    if n ≤ 0 then .error (negative_exit n) else pure { v with bandrow := n }
  else if keyword = str "totalrowbytes" then do
    let n ← read_int line pos
    if n ≤ 0 then .error (negative_exit n) else pure { v with totalrow := n }
  else if keyword = str "bandgapbytes" then do
    let n ← read_int line pos
    if n ≠ 0 then .error .bad_value else pure v
  else if keyword = str "min_value" then do
    let _ ← read_float line pos
    pure v
  else if keyword = str "max_value" then do
    let _ ← read_float line pos
    pure v
  else if keyword = str "byteorder" then do
    let s ← read_string line pos
    if s = str "lsbfirst" then pure { v with big_endian := false }
    else if s = str "i" then pure { v with big_endian := false }
    else if s = str "msbfirst" then pure { v with big_endian := true }
    else if s = str "m" then pure { v with big_endian := true }
    else .error .bad_value
  else if keyword = str "layout" then do
    let s ← read_string line pos
    if s = str "bip" ∨ s = str "bsq" ∨ s ≠ str "bil" then .error .bad_value else pure v
  else if keyword = str "numbertype" then do
    let s ← read_string line pos
    if s = str "1_byte_integer" ∨ s = str "byte" then .error .bad_value
    else if s = str "2_byte_integer" then .error .bad_value
    else if s ≠ str "4_byte_float" then .error .bad_value
    else pure v
  else if keyword = str "pixeltype" then do
    let s ← read_string line pos
    if s = str "signedint" then .error .bad_value
    else if s = str "unsignedint" then .error .bad_value
    else if s ≠ str "float" ∧ s ≠ str "floatingpoint" then .error .bad_value
    else pure v
  else if keyword = str "offset" then do
    let _ ← read_float line pos
    pure v
  else if keyword = str "scale" then do
    let _ ← read_float line pos
    pure v
  else if keyword = str "units" then do
    let _ ← read_string line pos
    pure v
  else if keyword = str "zunits" then do
    let _ ← read_string line pos
    pure v
  else if keyword = str "software" then
    pure { v with software := some (software_text (line.drop pos)) }
  else pure v

/-- The body of the outer loop for the line that `fgets` has just stored. -/
def hdr_line (line : List Byte) (v : HdrVars) : Except HdrError HdrVars :=
  match scan_keyword (c_str line) with
  | none => .ok v
  | some kp => hdr_entry (c_str line) kp.1 kp.2 v

/-- The inner loop `while (!strchr( line, '\n' ) && fgets( ... )) { }`: what is left of
the stream once a piece with a newline has been read. -/
def skip_rest : Nat → List Byte → List Byte → List Byte
  | 0, _, f => f
  | fuel + 1, line, f =>
    if (10 : Byte) ∈ c_str line then f
    else if (fgets 82 f).1 = [] then f
    else skip_rest fuel (fgets 82 f).1 (fgets 82 f).2

/-- The outer loop `while (fgets( line, MAXLINE+3, in_hdr_file ))`. -/
def hdr_lines : Nat → List Byte → HdrVars → Except HdrError HdrVars
  | 0, _, v => .ok v
  | fuel + 1, f, v =>
    if (fgets 82 f).1 = [] then .ok v
    else
      match hdr_line (fgets 82 f).1 v with
      | .error e => .error e
      | .ok v2 => hdr_lines fuel (skip_rest f.length (fgets 82 f).1 (fgets 82 f).2) v2

/-- The values of the variables on entry to the loop; `-3.40282347e+38` is the pattern
`0xFF7FFFFF`, and the coordinates are not yet initialised. -/
def hdr_init : HdrVars :=
  { ncols := 0, nrows := 0, xcoord := dbl_0, ycoord := dbl_0, xcoord_type := 0,
    ycoord_type := 0, xdim := dbl_0, ydim := dbl_0, nodata := 4286578687,
    big_endian := false, skipbytes := 0, bandrow := 0, totalrow := 0, software := none }

/-- The validation and the resolution of the coordinates after the loop. -/
def hdr_resolve (v : HdrVars) : Except HdrError HdrInfo :=
  if v.ncols = 0 then .error .no_ncols
  else if v.nrows = 0 then .error .no_nrows
  else if v.bandrow ≠ 0 ∧ v.bandrow ≠ wrap_int (4 * v.ncols) then .error .bad_bandrowbytes
  else
    let bandrow := wrap_int (4 * v.ncols)
    let rowpad := if v.totalrow ≠ 0 then wrap_int (v.totalrow - bandrow) else 0
    if rowpad < 0 then .error .bad_totalrowbytes
    else if Fp.eq v.xdim dbl_0 then .error .no_xdim
    else if Fp.eq v.ydim dbl_0 then .error .no_ydim
    else if v.xcoord_type = 0 then .error .no_xcoord
    else if v.ycoord_type = 0 then .error .no_ycoord
    else
      let ncols := Fp.of_int v.ncols
      let nrows := Fp.of_int v.nrows
      let xmin := if v.xcoord_type = 1 then v.xcoord
        else Fp.sub64 v.xcoord (Fp.mul64 v.xdim dbl_half)
      let xmax := if v.xcoord_type = 1 then Fp.add64 v.xcoord (Fp.mul64 v.xdim ncols)
        else Fp.add64 v.xcoord (Fp.mul64 v.xdim (Fp.sub64 ncols dbl_half))
      let ymin := if v.ycoord_type = 1 then v.ycoord
        else if v.ycoord_type = 2 then Fp.sub64 v.ycoord (Fp.mul64 v.ydim dbl_half)
        else Fp.sub64 v.ycoord (Fp.mul64 v.ydim (Fp.sub64 nrows dbl_half))
      let ymax := if v.ycoord_type = 1 then Fp.add64 v.ycoord (Fp.mul64 v.ydim nrows)
        else if v.ycoord_type = 2 then
          Fp.add64 v.ycoord (Fp.mul64 v.ydim (Fp.sub64 nrows dbl_half))
        else Fp.add64 v.ycoord (Fp.mul64 v.ydim dbl_half)
      .ok { nrows := v.nrows, ncols := v.ncols,
            xmin := if Fp.lt v.xdim dbl_0 then xmax else xmin,
            xmax := if Fp.lt v.xdim dbl_0 then xmin else xmax,
            ymin := if Fp.lt v.ydim dbl_0 then ymax else ymin,
            ymax := if Fp.lt v.ydim dbl_0 then ymin else ymax,
            nodata := v.nodata, big_endian := v.big_endian, skipbytes := v.skipbytes,
            rowpad := rowpad, software := v.software }

/-- The function `read_hdr_file` on the bytes of the stream from its position on.  The
loop ends at the end of the stream, so the test of `feof` after it passes. -/
def read_hdr_file (in_hdr_file : List Byte) : Except HdrError HdrInfo :=
  match hdr_lines (in_hdr_file.length + 1) in_hdr_file hdr_init with
  | .error e => .error e
  | .ok v => hdr_resolve v

/-! ## Comparing what is written with what is read back -/

/-- Whether `|a - b| * 10^k ≤ |b|` for two finite values, in exact arithmetic: `a` is
within the relative error `10^(-k)` of `b`. -/
def Fp.rel_close (k : Nat) : Fp → Fp → Bool
  | .fin n1 m1 e1, .fin n2 m2 e2 =>
    decide ((Fp.scaled n1 m1 e1 (min e1 e2) - Fp.scaled n2 m2 e2 (min e1 e2)).natAbs * 10 ^ k
      ≤ (Fp.scaled n2 m2 e2 (min e1 e2)).natAbs)
  | _, _ => false

/-- The cell sizes that the header carries: the harmonic mean for both, or `xdim` and
`ydim`. -/
def cell_sizes (nrows ncols : Int) (xmin xmax ymin ymax : Fp) : Fp × Fp :=
  if square_cells nrows ncols xmin xmax ymin ymax then
    (harmonic_mean (cell_dim ncols xmin xmax) (cell_dim nrows ymin ymax),
      harmonic_mean (cell_dim ncols xmin xmax) (cell_dim nrows ymin ymax))
  else (cell_dim ncols xmin xmax, cell_dim nrows ymin ymax)

/-- The fraction `a / b` that is the value `m * 2^e` (`0 < m`) rounded to `P` significant
decimal digits. -/
def dec_value (P : Nat) (m : Nat) (e : Int) : Nat × Nat :=
  ((dec_round P m e).1 * 10 ^ ((dec_round P m e).2 + 1 - (P : Int)).toNat,
    10 ^ ((P : Int) - 1 - (dec_round P m e).2).toNat)

/-- The `double` nearest to the decimal number of `P` significant digits nearest to `x`:
what `%lf` reads from the text that `%.Pg` writes for `x`. -/
def reread64 (P : Nat) : Fp → Fp
  | .nan => .nan
  | .inf neg => .inf neg
  | .fin neg m e =>
    if m = 0 then .fin neg 0 (-1074)
    else Fp.ratio64 neg (dec_value P m e).1 (dec_value P m e).2

/-- The `float` nearest to the decimal number of `P` significant digits nearest to `x`:
what `%f` reads from the text that `%.Pg` writes for `x`. -/
def reread32 (P : Nat) : Fp → Float32
  | .nan => Fp.toFloat32 .nan
  | .inf neg => Fp.toFloat32 (.inf neg)
  | .fin neg m e =>
    if m = 0 then Fp.ratio32 neg 0 1
    else Fp.ratio32 neg (dec_value P m e).1 (dec_value P m e).2

/-! ## Notions used in the statements and proofs -/

/-- The comparison `B^x ≤ a / b` on natural numbers. -/
def pow_le (B : Nat) (x : Int) (a b : Nat) : Prop := b * B ^ x.toNat ≤ a * B ^ (-x).toNat

/-- Whether an exact value is a `double`: a NaN, an infinity, or a number with a
significand of at most 53 bits and an exponent in the range of the format. -/
def Fp.is_double : Fp → Bool
  | .fin _ m e => decide (-1074 ≤ e ∧ m ≤ 2 ^ 53 ∧ e + bitlen m ≤ 1024)
  | _ => true

/-- The value of a finite number as a rational (0 for a NaN or an infinity). -/
def Fp.toRat : Fp → ℚ
  | .fin neg m e => (if neg then -1 else 1) * (m : ℚ) * (2 : ℚ) ^ e
  | _ => 0

/-- Whether a value is a finite number. -/
def Fp.is_finite : Fp → Bool
  | .fin _ _ _ => true
  | _ => false

/-- Whether every character of a text is a printing character other than the space. -/
@[reducible]
def graph (s : List Byte) : Prop := ∀ c ∈ s, 33 ≤ c.val ∧ c.val ≤ 126

/-- Whether a finite number has an exponent and a size in the range of `double`. -/
def Fp.bounded : Fp → Prop
  | .fin _ m e => -1074 ≤ e ∧ e + bitlen m ≤ 1024
  | _ => True

/-- Whether the sign of a value is not set (a NaN counts as such). -/
def Fp.not_neg : Fp → Prop
  | .nan => True
  | .inf n => n = false
  | .fin n _ _ => n = false

/-- Whether `a` reproduces `x` to `k` significant decimal digits: the same NaN or
infinity, or a finite number with `|a - x| ≤ |x| / 10^k`. -/
def Fp.close_to (k : Nat) (a x : Fp) : Prop :=
  match x with
  | .fin _ _ _ => a.is_finite = true ∧ |a.toRat - x.toRat| ≤ |x.toRat| / 10 ^ k
  | _ => a = x

/-- The file `g` is the file `f` written over the bytes `cb`: the same position, inside
the content of `f`, and the content of `f` followed by what is left of `cb` after it. -/
def Overlay (cb : List Byte) (f g : FileState) : Prop :=
  g.pos = f.pos ∧ f.pos ≤ f.bytes.length ∧ g.bytes = f.bytes ++ cb.drop f.bytes.length

/-- A bound on the number of bytes by which a call of the classic encoder can extend the
file or move the position past its end. -/
def TiffCall.growth : TiffCall → Nat
  | .plain _ _ _ _ => 12
  | .ascii _ _ _ _ => 19

/-- The steps of the BigTIFF encoder after `StripOffsets` and before the `Software` entry. -/
def bigtiff_calls_mid (height lWriteCount : Nat) : List BigTiffCall :=
  [.plain SamplesPerPixel TIFFshort 1 1,
   .plain RowsPerStrip TIFFlong 1 height,
   .plain StripByteCounts TIFFlong8 1 lWriteCount,
   .rational XResolution (72 * 0x02710) 0x02710,
   .rational YResolution (72 * 0x02710) 0x02710,
   .plain ResolutionUnit TIFFshort 1 2]

/-- The steps of the BigTIFF encoder from the `Software` entry on. -/
def bigtiff_calls_end (softwareVersion : Option (List Byte)) : List BigTiffCall :=
  (if software_count softwareVersion ≠ 0 then
      [.ascii Software (softwareVersion.getD []) (software_count softwareVersion) 24]
    else [])
  ++ [.plain TIFFTAG_SAMPLEFORMAT TIFFshort 1 SAMPLEFORMAT_UINT]

/-- Whether a step of the BigTIFF encoder is not the `Software` entry. -/
def BigTiffCall.not_ascii : BigTiffCall → Prop
  | .ascii _ _ _ _ => False
  | _ => True

/-! ## write_grid_files.c : write_bil_file -/

/-- The constant `max_limit`. -/
def max_limit : Nat := 65534

/-- The constant `min_limit`. -/
def min_limit : Nat := 1

/-- The `float` constant `flt_max_limit`, `65534.0`. -/
def flt_max_limit : Float32 := 1199570432

/-- The `float` constant `flt_min_limit`, `1.0`. -/
def flt_min_limit : Float32 := 1065353216

/-- The variables `*min_value` and `*max_value` of `write_bil_file`. -/
structure BilScan where
  min_value : Nat
  max_value : Nat
deriving DecidableEq, Repr

/-- Lines 308-316: `intval` for a cell that is not a NaN.  The sum `ptr[j] + 0.5` is a
`double` and is rounded to `float` when it is stored in `fltval`. -/
def bil_intval (x : Float32) : Nat :=
  let fltval := Fp.toFloat32 (Fp.add64 x.toFp dbl_half)
  if Fp.le fltval.toFp flt_min_limit.toFp then min_limit
  else if Fp.le flt_max_limit.toFp fltval.toFp then max_limit
  else Fp.toUInt16 (Fp.floor fltval.toFp)

/-- Lines 318-322: the running minimum and maximum. -/
def bil_min_max (st : BilScan) (intval : Nat) : BilScan :=
  if intval < st.min_value then { st with min_value := intval }
  else if intval > st.max_value then { st with max_value := intval }
  else st

/-- The body of the loop of lines 302-325 for one cell: the value left in `buffer[j]` and
the new variables; `*nodata` is 0. -/
def bil_cell (st : BilScan) (x : Float32) : Nat × BilScan :=
  if flt_isnan x then (0, st)
  else (bil_intval x, bil_min_max st (bil_intval x))

/-- The loop of lines 302-325 over one row: the buffer and the new variables. -/
def bil_row : List Float32 → BilScan → List Nat × BilScan
  | [], st => ([], st)
  | x :: xs, st =>
    ((bil_cell st x).1 :: (bil_row xs (bil_cell st x).2).1, (bil_row xs (bil_cell st x).2).2)

/-- The bytes that `fwrite` emits for a buffer of `unsigned short`. -/
def shorts_to_bytes (host_be : Bool) : List Nat → List Byte
  | [] => []
  | v :: vs => host_bytes host_be 2 v ++ shorts_to_bytes host_be vs

/-- The row loop of lines 301-331: the bytes written and the final variables. -/
def bil_rows (host_be : Bool) (ncols : Nat) : Nat → List Float32 → BilScan → List Byte × BilScan
  | 0, _, st => ([], st)
  | n + 1, ptr, st =>
    (shorts_to_bytes host_be (bil_row (ptr.take ncols) st).1
        ++ (bil_rows host_be ncols n (ptr.drop ncols) (bil_row (ptr.take ncols) st).2).1,
      (bil_rows host_be ncols n (ptr.drop ncols) (bil_row (ptr.take ncols) st).2).2)

/-- Result of `write_bil_file`: the bytes written to the file and the three outputs. -/
structure BilWritten where
  bytes : List Byte
  nodata : Nat
  min_value : Nat
  max_value : Nat
deriving DecidableEq, Repr

/-- The function `write_bil_file`; `data` holds `nrows * ncols` values.  Lines 287-292:
the buffer of `bufsize` bytes, fatal when `malloc` fails. -/
def write_bil_file (host_be : Bool) (nrows ncols : Nat) (data : List Float32) :
    Except GridError BilWritten :=
  if malloc_fails (int_bufsize ncols 2) then .error .alloc
  else
    .ok ⟨(bil_rows host_be ncols nrows data ⟨max_limit, min_limit⟩).1, 0,
      (bil_rows host_be ncols nrows data ⟨max_limit, min_limit⟩).2.min_value,
      (bil_rows host_be ncols nrows data ⟨max_limit, min_limit⟩).2.max_value⟩

/-- The sample that `write_bil_file` stores for a value, whatever the running minimum and
maximum are. -/
def bil_sample (x : Float32) : Nat := (bil_cell ⟨max_limit, min_limit⟩ x).1

/-! ## The header as a list of lines -/

/-- The lines that the outer loop of `read_hdr_file` hands to the keyword test: of every
line of the stream the first 82 characters (the line feed included when it is among them),
the rest of a longer line being skipped. -/
def hdr_pieces : Nat → List Byte → List (List Byte)
  | 0, _ => []
  | fuel + 1, f =>
    if (fgets 82 f).1 = [] then []
    else (fgets 82 f).1 :: hdr_pieces fuel (skip_rest f.length (fgets 82 f).1 (fgets 82 f).2)

/-- The lines of a header as `read_hdr_file` reads them. -/
def hdr_file_lines (in_hdr_file : List Byte) : List (List Byte) :=
  hdr_pieces (in_hdr_file.length + 1) in_hdr_file

/-- The body of the outer loop of `read_hdr_file` run over a list of lines. -/
def hdr_fold : List (List Byte) → HdrVars → Except HdrError HdrVars
  | [], v => .ok v
  | line :: lines, v =>
    match hdr_line line v with
    | .error e => .error e
    | .ok v2 => hdr_fold lines v2

/-- The keyword of a line, in lower case, when `sscanf` finds one. -/
def line_keyword (line : List Byte) : Option (List Byte) :=
  match scan_keyword (c_str line) with
  | none => none
  | some kp => some kp.1

/-- The integer that `read_int` finds after the keyword of a line. -/
def line_int (line : List Byte) : Option Int :=
  match scan_keyword (c_str line) with
  | none => none
  | some kp =>
    match read_int (c_str line) kp.2 with
    | .ok n => some n
    | .error _ => none

/-- The `double` that `read_double` finds after the keyword of a line. -/
def line_double (line : List Byte) : Option Fp :=
  match scan_keyword (c_str line) with
  | none => none
  | some kp =>
    match read_double (c_str line) kp.2 with
    | .ok x => some x
    | .error _ => none

/-- The word, in lower case, that `read_string` finds after the keyword of a line. -/
def line_string (line : List Byte) : Option (List Byte) :=
  match scan_keyword (c_str line) with
  | none => none
  | some kp =>
    match read_string (c_str line) kp.2 with
    | .ok s => some s
    | .error _ => none

/-- The integer that a line gives for the keyword `key`, when it is a line of that
keyword. -/
def line_sets_int (key : List Byte) (line : List Byte) : Option Int :=
  if line_keyword line = some key then line_int line else none

/-- The `double` that a line gives for one of the keywords `keys`. -/
def line_sets_double (keys : List (List Byte)) (line : List Byte) : Option Fp :=
  match line_keyword line with
  | none => none
  | some kw => if kw ∈ keys then line_double line else none

/-- The X origin that a line gives: the kind of origin (1 for `xllcorner`, 2 for
`xllcenter`, 3 for `ulxmap`) and the coordinate. -/
def line_sets_x_origin (line : List Byte) : Option (Nat × Fp) :=
  match line_keyword line, line_double line with
  | some kw, some c =>
    if kw = str "xllcorner" then some (1, c)
    else if kw = str "xllcenter" then some (2, c)
    else if kw = str "ulxmap" then some (3, c)
    else none
  | _, _ => none

/-- The Y origin that a line gives: the kind of origin (1 for `yllcorner`, 2 for
`yllcenter`, 3 for `ulymap`) and the coordinate. -/
def line_sets_y_origin (line : List Byte) : Option (Nat × Fp) :=
  match line_keyword line, line_double line with
  | some kw, some c =>
    if kw = str "yllcorner" then some (1, c)
    else if kw = str "yllcenter" then some (2, c)
    else if kw = str "ulymap" then some (3, c)
    else none
  | _, _ => none

/-- The value in force after a list of lines, each of which may set it: that of the last
line that sets it, and `init` when no line does. -/
def last_set {α : Type} (upd : List Byte → Option α) (lines : List (List Byte)) (init : α) : α :=
  lines.foldl (fun acc line => (upd line).getD acc) init

/-- The value of an integer keyword of a header; 0 when the keyword is absent. -/
def header_int (key : List Byte) (in_hdr_file : List Byte) : Int :=
  last_set (line_sets_int key) (hdr_file_lines in_hdr_file) 0

/-- The X cell dimension of a header: the value of the last `cellsize` or `xdim` line;
0.0 when there is none. -/
def header_xdim (in_hdr_file : List Byte) : Fp :=
  last_set (line_sets_double [str "cellsize", str "xdim"]) (hdr_file_lines in_hdr_file) dbl_0

/-- The Y cell dimension of a header: the value of the last `cellsize` or `ydim` line;
0.0 when there is none. -/
def header_ydim (in_hdr_file : List Byte) : Fp :=
  last_set (line_sets_double [str "cellsize", str "ydim"]) (hdr_file_lines in_hdr_file) dbl_0

/-- The X origin of a header: kind and coordinate of the last `xllcorner`, `xllcenter` or
`ulxmap` line; the kind is 0 when there is none. -/
def header_x_origin (in_hdr_file : List Byte) : Nat × Fp :=
  last_set line_sets_x_origin (hdr_file_lines in_hdr_file) (0, dbl_0)

/-- The Y origin of a header: kind and coordinate of the last `yllcorner`, `yllcenter` or
`ulymap` line; the kind is 0 when there is none. -/
def header_y_origin (in_hdr_file : List Byte) : Nat × Fp :=
  last_set line_sets_y_origin (hdr_file_lines in_hdr_file) (0, dbl_0)

/-- The text whose lines are the given strings, each ended by a newline. -/
def text_of_lines : List String → List Byte
  | [] => []
  | s :: rest => str s ++ 10 :: text_of_lines rest

/-- Whether a line declares one of the supported formats: `nbands 1`, `nbits 32`,
`layout bil`, `numbertype 4_byte_float`, `pixeltype float` or `pixeltype floatingpoint`,
the words in any case. -/
def supported_format_line (line : List Byte) : Bool :=
  (line_keyword line == some (str "nbands") && line_int line == some 1)
  || (line_keyword line == some (str "nbits") && line_int line == some 32)
  || (line_keyword line == some (str "layout") && line_string line == some (str "bil"))
  || (line_keyword line == some (str "numbertype")
      && line_string line == some (str "4_byte_float"))
  || (line_keyword line == some (str "pixeltype")
      && (line_string line == some (str "float")
          || line_string line == some (str "floatingpoint")))

/-- Whether a value is not a NaN and carries the sign `s` (`true` for the minus sign). -/
def Fp.has_sign (s : Bool) : Fp → Bool
  | .nan => false
  | .inf n => n == s
  | .fin n _ _ => n == s

/-! ## The sentinel of `write_flt_file` -/

/-- The sentinel after a value that is not a NaN, while no NaN has been met (lines
227-230): multiplied by 10 once when the value is lower than half the sentinel. -/
def sentinel_step (s v : Float32) : Float32 :=
  if Fp.lt v.toFp (Fp.mul64 s.toFp dbl_half) then Fp.toFloat32 (Fp.mul64 s.toFp dbl_ten) else s

/-- The sentinel after a run of values without a NaN, from the initial `-1.0e6`. -/
def sentinel_after (vs : List Float32) : Float32 := vs.foldl sentinel_step flt_m1e6

/-- The value left in the buffer for a cell once a NaN has been met: the sentinel for a
NaN, the value itself otherwise. -/
def replace_nan (s v : Float32) : Float32 := if flt_isnan v then s else v

/-- The `float` constant `-1.0e+07`. -/
def flt_m1e7 : Float32 := 3407386240

/-- The `double` constant `-5.0e6`. -/
def dbl_m5e6 : Fp := .fin true 5000000 0

/-! ## write_grid_files.c : write_tfw_file, write_tif_tfw_files -/

/-- One `fprintf( out_tfw_file, "%.14g\r\n", v )` of `write_tfw_file`. -/
def tfw_line (v : Fp) : List Byte := fmt_g 14 v ++ str "\r\n"

/-- The function `write_tfw_file`: the text written to `out_tfw_file`. -/
def write_tfw_file (nrows ncols : Int) (xmin xmax ymin ymax : Fp) : List Byte :=
  let xdim := cell_dim ncols xmin xmax
  let ydim := cell_dim nrows ymin ymax
  let ulxmap := Fp.add64 xmin (Fp.mul64 xdim dbl_half)
  let ulymap := Fp.sub64 ymax (Fp.mul64 ydim dbl_half)
  tfw_line xdim ++ tfw_line dbl_0 ++ tfw_line dbl_0 ++ tfw_line (Fp.neg ydim)
    ++ tfw_line ulxmap ++ tfw_line ulymap

/-- The size warning that `write_tif_tfw_files` prints on `stderr`. -/
inductive SizeWarning where
  | no_warning
  | bigtiff
  | two_gigabytes
deriving DecidableEq, Repr

/-- Lines 169-182 of `write_tif_tfw_files`: the tests `(fileSize-1)>>31 > 1` and
`fileSize>>31` on a `size_t`. -/
def size_warning (fileSize : Nat) : SizeWarning :=
  if 1 < ((fileSize + 2 ^ 64 - 1) % 2 ^ 64) >>> 31 then .bigtiff
  else if fileSize >>> 31 ≠ 0 then .two_gigabytes
  else .no_warning

/-- What `write_tif_tfw_files` leaves: the two files and the warning printed. -/
structure TifTfwWritten where
  tif : FileState
  warning : SizeWarning
  tfw : List Byte
deriving DecidableEq, Repr

/-- The function `write_tif_tfw_files`; the return value -2 of the encoder is the fatal
"Memory allocation error" of lines 164-166. -/
def write_tif_tfw_files (host_be : Bool) (out_tif_file : FileState) (nrows ncols : Nat)
    (xmin xmax ymin ymax : Fp) (data : List Float32) (software : Option (List Byte)) :
    Except GridError TifTfwWritten :=
  let r := WriteGrayscale16BitToTIFF host_be out_tif_file ncols nrows data software
  if r.err = -2 then .error .alloc
  else .ok ⟨r.file, size_warning r.fileSize, write_tfw_file nrows ncols xmin xmax ymin ymax⟩

/-- A reader of a text in which every line ends with CR LF: the lines without their
terminators, or `none` when the text ends in an unterminated line.  `acc` holds the
characters of the current line, last first. -/
def crlf_lines_from : List Byte → List Byte → Option (List (List Byte))
  | [], [] => some []
  | [], _ :: _ => none
  | c :: rest, acc =>
    if c = 10 ∧ acc.head? = some 13 then
      (crlf_lines_from rest []).map (fun ls => acc.tail.reverse :: ls)
    else crlf_lines_from rest (c :: acc)

/-- The lines of a text in which every line ends with CR LF. -/
def crlf_lines (s : List Byte) : Option (List (List Byte)) := crlf_lines_from s []

/-! ## read_grid_files.c : copy_prj_file -/

/-- The call `sscanf( line+pos, "%s%n", strval, &pos2 )` on the text `s` at `line+pos`:
`pos2`, when the result is positive. -/
def scan_value (s : List Byte) : Option Nat :=
  let t := scan_token (skip_space s)
  if t.1 = [] then none else some (s.length - t.2.length)

/-- The body of the outer loop of `copy_prj_file` before its inner loop: the text written
for the piece `line` that `fgets` has stored.  `fprintf` with `%.*s` writes the first `pos`
characters of the line, and `%s` the characters up to the NUL. -/
def prj_line (line : List Byte) : List Byte :=
  match scan_keyword (c_str line) with
  | none => c_str line
  | some kp =>
    if kp.1 = str "zunits" then
      match scan_value ((c_str line).drop kp.2) with
      | none => (c_str line).take kp.2 ++ (c_str line).drop kp.2
      | some pos2 =>
        if (c_str line).getD (kp.2 + pos2) 0 ≠ 0 then
          (c_str line).take kp.2 ++ str "NO" ++ (c_str line).drop (kp.2 + pos2)
        else (c_str line).take kp.2 ++ (c_str line).drop kp.2
    else (c_str line).take kp.2 ++ (c_str line).drop kp.2

/-- The inner loop `while (!strchr( line, '\n' ) && fgets( ... )) fprintf( ..., "%s", line )`
of `copy_prj_file`: the text written and what is left of the stream. -/
def prj_rest : Nat → List Byte → List Byte → List Byte × List Byte
  | 0, _, f => ([], f)
  | fuel + 1, line, f =>
    if (10 : Byte) ∈ c_str line then ([], f)
    else if (fgets 82 f).1 = [] then ([], f)
    else
      (c_str (fgets 82 f).1 ++ (prj_rest fuel (fgets 82 f).1 (fgets 82 f).2).1,
        (prj_rest fuel (fgets 82 f).1 (fgets 82 f).2).2)

/-- The outer loop `while (fgets( line, MAXLINE+3, in_prj_file ))` of `copy_prj_file`. -/
def prj_lines : Nat → List Byte → List Byte
  | 0, _ => []
  | fuel + 1, f =>
    if (fgets 82 f).1 = [] then []
    else
      prj_line (fgets 82 f).1 ++ (prj_rest f.length (fgets 82 f).1 (fgets 82 f).2).1
        ++ prj_lines fuel (prj_rest f.length (fgets 82 f).1 (fgets 82 f).2).2

/-- The function `copy_prj_file`: the text written to `out_prj_file` for the text of
`in_prj_file`. -/
def copy_prj_file (in_prj_file : List Byte) : List Byte :=
  prj_lines (in_prj_file.length + 1) in_prj_file

/-- The rule of the specification for one line, given with its line feed when it has one:
when the first token is `ZUNITS` in any letter case and a value token follows it, and the
value token is followed by at least one more character of the line, the value token is
replaced by `NO`; every other line is kept. -/
def zunits_no (line : List Byte) : List Byte :=
  let w0 := line.takeWhile isspace
  let r0 := line.dropWhile isspace
  let k := r0.takeWhile (fun c => !isspace c)
  let r1 := r0.dropWhile (fun c => !isspace c)
  let w1 := r1.takeWhile isspace
  let r2 := r1.dropWhile isspace
  let v := r2.takeWhile (fun c => !isspace c)
  let r3 := r2.dropWhile (fun c => !isspace c)
  if k.map tolower = str "zunits" ∧ v ≠ [] ∧ r3 ≠ [] then w0 ++ k ++ w1 ++ str "NO" ++ r3
  else line

/-! ## Keywords of the header -/

/-- The keywords that the chain of tests in the loop of `read_hdr_file` knows, in the
order of the tests. -/
def recognised_keywords : List (List Byte) :=
  [str "ncols", str "nrows", str "xllcorner", str "yllcorner", str "xllcenter",
   str "yllcenter", str "ulxmap", str "ulymap", str "cellsize", str "xdim", str "ydim",
   str "nodata_value", str "nodata", str "nbands", str "nbits", str "skipbytes",
   str "bandrowbytes", str "totalrowbytes", str "bandgapbytes", str "min_value",
   str "max_value", str "byteorder", str "layout", str "numbertype", str "pixeltype",
   str "offset", str "scale", str "units", str "zunits", str "software"]

/-- The keywords whose value is a word that `read_string` reads and turns to lower case
before it is compared. -/
def word_valued_keywords : List (List Byte) :=
  [str "byteorder", str "layout", str "numbertype", str "pixeltype"]

/-- Whether the line `L2` is the line `L1` with the letter case changed in its keyword, or
anywhere when the keyword is `byteorder`, `layout`, `numbertype` or `pixeltype`: the two
lines are equal up to letter case, and what follows the keyword and the white space after
it is the same unless the keyword is one of those four. -/
def case_variant (L1 L2 : List Byte) : Bool :=
  L1.map tolower == L2.map tolower
    && (match scan_keyword (c_str L1) with
        | none => true
        | some kp =>
          decide (kp.1 ∈ word_valued_keywords)
            || (c_str L1).drop kp.2 == (c_str L2).drop kp.2)

/-- Whether two lists of lines have the same length and their lines are case variants,
one by one. -/
def lines_case_variant : List (List Byte) → List (List Byte) → Bool
  | [], [] => true
  | L1 :: Ls1, L2 :: Ls2 => case_variant L1 L2 && lines_case_variant Ls1 Ls2
  | _, _ => false

/-- Whether the keyword test of `read_hdr_file` finds no recognised keyword in the piece
`P` of a line: `sscanf` finds no token, or the token in lower case is none of the
recognised keywords. -/
def no_recognised_keyword (P : List Byte) : Bool :=
  match scan_keyword P with
  | none => true
  | some kp => decide (kp.1 ∉ recognised_keywords)

/-! ## Reading a rational entry of a BigTIFF directory -/

/-- A reader's test on a BigTIFF directory entry at offset `p`: the entry has the tag `tag`,
the type RATIONAL and the count 1, and the eight bytes of its value slot are the 4-byte
numerator `num` followed by the 4-byte denominator `den`. -/
def inline_rational_at (be : Bool) (bytes : List Byte) (p tag num den : Nat) : Prop :=
  read_uint be bytes p 2 = tag ∧ read_uint be bytes (p + 2) 2 = TIFFrational
    ∧ read_uint be bytes (p + 4) 8 = 1 ∧ read_uint be bytes (p + 12) 4 = num
    ∧ read_uint be bytes (p + 16) 4 = den

instance (be : Bool) (bytes : List Byte) (p tag num den : Nat) :
    Decidable (inline_rational_at be bytes p tag num den) := by
  unfold inline_rational_at
  infer_instance
/-! ## read_grid_files.c : the position of a value, the end of the stream -/

/-- The rest of the stream after `n` turns of the row loop of `read_flt_file`: each turn
moves the position over the `4 * ncols` bytes read and the `rowpad` bytes skipped. -/
def after_rows (ncols rowpad : Nat) : Nat → List Byte → List Byte
  | 0, rest => rest
  | n + 1, rest => after_rows ncols rowpad n ((rest.drop (4 * ncols)).drop rowpad)

/-- Lines 616-620 of `read_flt_file`, reached when the row loop has finished: the warning
"file size too large" is printed when one more byte can be read. -/
def flt_too_large (in_flt_file : List Byte) (nrows ncols skipbytes rowpad : Nat) : Bool :=
  !(after_rows ncols rowpad nrows (in_flt_file.drop skipbytes)).isEmpty

/-- The `float` that the four bytes at the offsets `p .. p + 3` of a stream stand for in
the declared byte order, as `fread` and the reversal of lines 582-593 leave it in memory. -/
def value_at (host_be big_endian : Bool) (stream : List Byte) (p : Nat) : Float32 :=
  if host_be != big_endian then
    float_of_mem host_be (stream.getD (p + 3) 0) (stream.getD (p + 2) 0)
      (stream.getD (p + 1) 0) (stream.getD p 0)
  else
    float_of_mem host_be (stream.getD p 0) (stream.getD (p + 1) 0)
      (stream.getD (p + 2) 0) (stream.getD (p + 3) 0)

/-- Number of bytes up to the last value of the last row: the skip region, `nrows - 1`
rows with their pads, and one row more. -/
def flt_needed (nrows ncols skipbytes rowpad : Nat) : Nat :=
  skipbytes + (nrows - 1) * (4 * ncols + rowpad) + 4 * ncols
/-! ## The byte order that a header declares -/

/-- The byte order that a `byteorder` word, in lower case, stands for: `false` for
`lsbfirst` and `i`, `true` for `msbfirst` and `m`. -/
def byteorder_of_word (s : List Byte) : Option Bool :=
  if s = str "lsbfirst" ∨ s = str "i" then some false
  else if s = str "msbfirst" ∨ s = str "m" then some true
  else none

/-- The byte order that a line gives, when it is a `byteorder` line with one of the four
words. -/
def line_sets_byteorder (line : List Byte) : Option Bool :=
  if line_keyword line = some (str "byteorder") then (line_string line).bind byteorder_of_word
  else none

/-- The byte order that a header declares: that of its last `byteorder` line, and
little-endian when there is none. -/
def header_big_endian (in_hdr_file : List Byte) : Bool :=
  last_set line_sets_byteorder (hdr_file_lines in_hdr_file) false
/-! ## The values that the sentinel of `write_flt_file` takes -/

/-- Line 229, `*nodata *= 10.0`: the product in `double`, stored as a `float`. -/
def sentinel_times_ten (s : Float32) : Float32 := Fp.toFloat32 (Fp.mul64 s.toFp dbl_ten)

/-- The sentinel after `k` multiplications by 10, from the initial `-1.0e6`. -/
def sentinel_power : Nat → Float32
  | 0 => flt_m1e6
  | k + 1 => sentinel_times_ten (sentinel_power k)

/-- The patterns of the 34 values that the sentinel can take: `-1.0e6` and what 1 to 33
multiplications by 10 in `float` arithmetic make of it, the last one being minus
infinity. -/
def sentinel_values : List Float32 :=
  [3379831808, 3407386240, 3435052064, 3463342888, 3491037945, 3518645175, 3546862757,
   3574695143, 3602245153, 3630391209, 3658357706, 3685851836, 3713928043, 3742025507,
   3769465068, 3797473063, 3825698424, 3853084694, 3881026076, 3909376338, 3936710566,
   3964586896, 3993059130, 4020342536, 4048155338, 4076629884, 4103980462, 4131731226,
   4160128224, 4187624204, 4215314383, 4243635651, 4271273626, 4286578688]
/-! ## The formulas of the cell size and of the corners, in any arithmetic

The formulas of `write_tfw_file`, `write_hdr_file` and `read_hdr_file` are written once
over the operations they use; with the operations of `double` they are the program, and
with those of the rational numbers they are the same formulas in exact arithmetic. -/

/-- The operations and constants of `double` that the formulas use. -/
structure Arith (α : Type) where
  add : α → α → α
  sub : α → α → α
  mul : α → α → α
  div : α → α → α
  neg : α → α
  abs : α → α
  lt : α → α → Bool
  of_int : Int → α
  zero : α
  quarter : α
  half : α
  two : α

/-- The arithmetic of the program: `double`, every operation rounded. -/
def dbl_arith : Arith Fp :=
  { add := Fp.add64, sub := Fp.sub64, mul := Fp.mul64, div := Fp.div64, neg := Fp.neg,
    abs := Fp.abs, lt := Fp.lt, of_int := Fp.of_int, zero := dbl_0, quarter := dbl_quarter,
    half := dbl_half, two := dbl_two }

/-- Exact arithmetic: the rational numbers. -/
def exact_arith : Arith ℚ :=
  { add := fun a b => a + b, sub := fun a b => a - b, mul := fun a b => a * b,
    div := fun a b => a / b, neg := fun a => -a, abs := fun a => |a|,
    lt := fun a b => decide (a < b), of_int := fun n => (n : ℚ), zero := 0,
    quarter := 1 / 4, half := 1 / 2, two := 2 }

/-- Lines 351-352 of `write_hdr_file` and 429-430 of `write_tfw_file`:
`(max - min) / (double)n`. -/
def cell_dim_in {α : Type} (A : Arith α) (n : Int) (lo hi : α) : α :=
  A.div (A.sub hi lo) (A.of_int n)

/-- Lines 429-438 of `write_tfw_file`: the six values printed. -/
def tfw_values {α : Type} (A : Arith α) (nrows ncols : Int) (xmin xmax ymin ymax : α) :
    List α :=
  [cell_dim_in A ncols xmin xmax, A.zero, A.zero, A.neg (cell_dim_in A nrows ymin ymax),
   A.add xmin (A.mul (cell_dim_in A ncols xmin xmax) A.half),
   A.sub ymax (A.mul (cell_dim_in A nrows ymin ymax) A.half)]

/-- The corners `xmin`, `xmax`, `ymin`, `ymax` that `read_hdr_file` returns for the origin
keywords `ulxmap` and `ulymap`: the cases 3 of lines 447-467 and the swaps that follow
for a negative cell dimension. -/
def upper_left_corners {α : Type} (A : Arith α) (nrows ncols : Int)
    (xcoord ycoord xdim ydim : α) : α × α × α × α :=
  (if A.lt xdim A.zero then A.add xcoord (A.mul xdim (A.sub (A.of_int ncols) A.half))
      else A.sub xcoord (A.mul xdim A.half),
    if A.lt xdim A.zero then A.sub xcoord (A.mul xdim A.half)
      else A.add xcoord (A.mul xdim (A.sub (A.of_int ncols) A.half)),
    if A.lt ydim A.zero then A.add ycoord (A.mul ydim A.half)
      else A.sub ycoord (A.mul ydim (A.sub (A.of_int nrows) A.half)),
    if A.lt ydim A.zero then A.sub ycoord (A.mul ydim (A.sub (A.of_int nrows) A.half))
      else A.add ycoord (A.mul ydim A.half))

/-- The corners `xmin`, `xmax`, `ymin`, `ymax` that `read_hdr_file` returns: the cases of
lines 442-470 for the kind of origin (1 for the corner of the lower left cell, 2 for its
centre, 3 for the centre of the upper left cell) and the swaps that follow for a negative
cell dimension. -/
def resolve_corners {α : Type} (A : Arith α) (nrows ncols : Int) (xcoord_type ycoord_type : Nat)
    (xcoord ycoord xdim ydim : α) : α × α × α × α :=
  (if A.lt xdim A.zero then
      (if xcoord_type = 1 then A.add xcoord (A.mul xdim (A.of_int ncols))
       else A.add xcoord (A.mul xdim (A.sub (A.of_int ncols) A.half)))
    else (if xcoord_type = 1 then xcoord else A.sub xcoord (A.mul xdim A.half)),
   if A.lt xdim A.zero then
      (if xcoord_type = 1 then xcoord else A.sub xcoord (A.mul xdim A.half))
    else (if xcoord_type = 1 then A.add xcoord (A.mul xdim (A.of_int ncols))
      else A.add xcoord (A.mul xdim (A.sub (A.of_int ncols) A.half))),
   if A.lt ydim A.zero then
      (if ycoord_type = 1 then A.add ycoord (A.mul ydim (A.of_int nrows))
       else if ycoord_type = 2 then
         A.add ycoord (A.mul ydim (A.sub (A.of_int nrows) A.half))
       else A.add ycoord (A.mul ydim A.half))
    else (if ycoord_type = 1 then ycoord
      else if ycoord_type = 2 then A.sub ycoord (A.mul ydim A.half)
      else A.sub ycoord (A.mul ydim (A.sub (A.of_int nrows) A.half))),
   if A.lt ydim A.zero then
      (if ycoord_type = 1 then ycoord
       else if ycoord_type = 2 then A.sub ycoord (A.mul ydim A.half)
       else A.sub ycoord (A.mul ydim (A.sub (A.of_int nrows) A.half)))
    else (if ycoord_type = 1 then A.add ycoord (A.mul ydim (A.of_int nrows))
      else if ycoord_type = 2 then
        A.add ycoord (A.mul ydim (A.sub (A.of_int nrows) A.half))
      else A.add ycoord (A.mul ydim A.half)))

/-- The test of lines 374-375 of `write_hdr_file` that selects the `cellsize` line. -/
def square_cells_in {α : Type} (A : Arith α) (nrows ncols : Int) (xmin xmax ymin ymax : α) :
    Bool :=
  A.lt (A.abs (A.sub (A.div (A.sub xmax xmin) (cell_dim_in A nrows ymin ymax))
      (A.of_int ncols))) A.quarter
    && A.lt (A.abs (A.sub (A.div (A.sub ymax ymin) (cell_dim_in A ncols xmin xmax))
      (A.of_int nrows))) A.quarter

/-- Line 378 of `write_hdr_file`: `2.0 * xdim * ydim / (xdim + ydim)`. -/
def harmonic_mean_in {α : Type} (A : Arith α) (xdim ydim : α) : α :=
  A.div (A.mul (A.mul A.two xdim) ydim) (A.add xdim ydim)

/-! ## The rings of the proofs

Exact arithmetic is that of `ℚ` and `ℤ`.  The instances below give their ring structure
directly from the commutative ring, so that the proofs about rational and integer values
rest on the algebra of these rings alone. -/

/-- The ring of rational numbers. -/
instance (priority := 2000) rat_ring : Ring ℚ := Rat.commRing.toRing

/-- The rational numbers as a commutative ring that need not have a unit. -/
instance (priority := 2000) rat_non_unital_ring : NonUnitalCommRing ℚ :=
  Rat.commRing.toNonUnitalCommRing

/-- The ring of integers. -/
instance (priority := 2000) int_ring : Ring ℤ := Int.instCommRing.toRing

/-- The integers as a commutative ring that need not have a unit. -/
instance (priority := 2000) int_non_unital_ring : NonUnitalCommRing ℤ :=
  Int.instCommRing.toNonUnitalCommRing

/-! # Theorems -/

/-! ## Grid payload: reading -/

theorem forall_mem_of_all_not {α : Type} (p : α → Bool) (l : List α)
    (h : l.all (fun v => !p v) = true) : ∀ v ∈ l, p v = false := by
  intro v hv
  simpa using List.all_eq_true.mp h v hv

theorem scan_row_ok (nodata : Float32) (row : List Float32) (hn ai : Bool)
    (h : ∀ v ∈ row, flt_isnan v = false) :
    scan_row nodata row hn ai = .ok (row.map (replace_null nodata),
      hn || row.any (is_null nodata),
      ai && row.all (fun v => is_null nodata v || !not_integral v)) := by
  induction row generalizing hn ai with
  | nil => simp [scan_row]
  | cons x xs ih =>
    have hx := h x (List.mem_cons_self _ _)
    have hxs : ∀ v ∈ xs, flt_isnan v = false := fun v hv => h v (List.mem_cons_of_mem _ hv)
    by_cases hnull : is_null nodata x = true
    · simp [scan_row, hx, hnull, ih _ _ hxs, replace_null]
    · cases ai <;> cases h2 : not_integral x <;>
        simp [scan_row, hx, hnull, ih _ _ hxs, replace_null, h2]

theorem read_rows_ok (host_be big_endian : Bool) (ncols : Nat) (nodata : Float32) (rowpad : Nat)
    (n : Nat) (rest : List Byte) (hn ai : Bool)
    (hp : rows_present ncols rowpad n rest)
    (h : ∀ v ∈ stored_values host_be big_endian ncols rowpad n rest, flt_isnan v = false) :
    read_rows host_be big_endian ncols nodata rowpad n rest hn ai =
      .ok ⟨(stored_values host_be big_endian ncols rowpad n rest).map (replace_null nodata),
        hn || (stored_values host_be big_endian ncols rowpad n rest).any (is_null nodata),
        ai && (stored_values host_be big_endian ncols rowpad n rest).all
          (fun v => is_null nodata v || !not_integral v)⟩ := by
  induction n generalizing rest hn ai with
  | zero => simp [read_rows, stored_values]
  | succ k ih =>
    obtain ⟨hlen, hp2⟩ := hp
    simp only [stored_values, List.mem_append] at h
    have h1 : ∀ v ∈ decode_row host_be (host_be != big_endian) (rest.take (4 * ncols)),
        flt_isnan v = false := fun v hv => h v (Or.inl hv)
    have h2 := fun v hv => h v (Or.inr hv)
    simp only [read_rows, stored_values]
    rw [if_neg (by omega), scan_row_ok nodata _ hn ai h1]
    simp only []
    rw [ih _ _ _ hp2 h2]
    simp [Bool.or_assoc, Bool.and_assoc]

theorem scan_row_nan (nodata : Float32) (row : List Float32) (hn ai : Bool)
    (h : ∃ v ∈ row, flt_isnan v = true) :
    scan_row nodata row hn ai = .error .contains_nan := by
  induction row generalizing hn ai with
  | nil => simp at h
  | cons x xs ih =>
    by_cases hx : flt_isnan x = true
    · simp [scan_row, hx]
    · have hxs : ∃ v ∈ xs, flt_isnan v = true := by
        obtain ⟨v, hv, hnan⟩ := h
        rcases List.mem_cons.mp hv with rfl | hv2
        · exact absurd hnan hx
        · exact ⟨v, hv2, hnan⟩
      by_cases hnull : is_null nodata x = true
      · simp [scan_row, hx, hnull, ih _ _ hxs]
      · simp [scan_row, hx, hnull, ih _ _ hxs]

theorem read_rows_nan (host_be big_endian : Bool) (ncols : Nat) (nodata : Float32) (rowpad : Nat)
    (n : Nat) (rest : List Byte) (hn ai : Bool)
    (h : ∃ v ∈ stored_values host_be big_endian ncols rowpad n rest, flt_isnan v = true) :
    ∃ e, read_rows host_be big_endian ncols nodata rowpad n rest hn ai = .error e := by
  induction n generalizing rest hn ai with
  | zero => simp [stored_values] at h
  | succ k ih =>
    simp only [read_rows]
    by_cases hlen : rest.length < 4 * ncols
    · exact ⟨_, if_pos hlen⟩
    · rw [if_neg hlen]
      obtain ⟨v, hv, hnan⟩ := h
      simp only [stored_values, List.mem_append] at hv
      rcases hv with hv | hv
      · rw [scan_row_nan nodata _ hn ai ⟨v, hv, hnan⟩]
        exact ⟨_, rfl⟩
      · cases hs : scan_row nodata
            (decode_row host_be (host_be != big_endian) (rest.take (4 * ncols))) hn ai with
        | error e => exact ⟨e, rfl⟩
        | ok r =>
          obtain ⟨vals, hn2, ai2⟩ := r
          obtain ⟨e, he⟩ := ih ((rest.drop (4 * ncols)).drop rowpad) hn2 ai2 ⟨v, hv, hnan⟩
          simp only []
          rw [he]
          exact ⟨e, rfl⟩

/-- C1. On a stream that holds all its rows and no NaN, `read_flt_file` succeeds; every
stored value that equals `nodata` or is below `-1.0e38` is returned as `0.0`, every other
value is returned unchanged, and `has_nulls` is set exactly when some value was replaced. -/
theorem read_flt_file_replaces_nulls (host_be : Bool) (in_flt_file : List Byte)
    (nrows ncols : Nat) (nodata : Float32) (big_endian : Bool) (skipbytes rowpad : Nat)
    (hp : rows_present ncols rowpad nrows (in_flt_file.drop skipbytes))
    (h : ∀ v ∈ stored_values host_be big_endian ncols rowpad nrows (in_flt_file.drop skipbytes),
      flt_isnan v = false) :
    ∃ g, read_flt_file host_be in_flt_file nrows ncols nodata big_endian skipbytes rowpad = .ok g
      ∧ g.data = (stored_values host_be big_endian ncols rowpad nrows
          (in_flt_file.drop skipbytes)).map
            (fun v => if Fp.eq v.toFp nodata.toFp || Fp.lt v.toFp dbl_m1e38 then 0 else v)
      ∧ (g.has_nulls = true ↔
          ∃ v ∈ stored_values host_be big_endian ncols rowpad nrows (in_flt_file.drop skipbytes),
            (Fp.eq v.toFp nodata.toFp || Fp.lt v.toFp dbl_m1e38) = true) := by
  refine ⟨_, read_rows_ok host_be big_endian ncols nodata rowpad nrows _ false true hp h, rfl, ?_⟩
  simp [is_null]

/-- C1, witness: the 2x2 grid with nodata -9999 and payload 1.0, 2.0, 3.0, -9999.0 on a
little-endian host decodes to 1, 2, 3, 0 with `has_nulls` and `all_ints` both set. -/
theorem read_flt_file_replaces_nulls_witness :
    (∃ g, read_flt_file false [0, 0, 128, 63, 0, 0, 0, 64, 0, 0, 64, 64, 0, 60, 28, 198]
        2 2 3323739136 false 0 0 = .ok g
      ∧ g.data = (stored_values false false 2 0 2
          (List.drop 0 [0, 0, 128, 63, 0, 0, 0, 64, 0, 0, 64, 64, 0, 60, 28, 198])).map
            (fun v => if Fp.eq v.toFp (Float32.toFp 3323739136) || Fp.lt v.toFp dbl_m1e38
              then 0 else v)
      ∧ (g.has_nulls = true ↔
          ∃ v ∈ stored_values false false 2 0 2
              (List.drop 0 [0, 0, 128, 63, 0, 0, 0, 64, 0, 0, 64, 64, 0, 60, 28, 198]),
            (Fp.eq v.toFp (Float32.toFp 3323739136) || Fp.lt v.toFp dbl_m1e38) = true))
    ∧ read_flt_file false [0, 0, 128, 63, 0, 0, 0, 64, 0, 0, 64, 64, 0, 60, 28, 198]
        2 2 3323739136 false 0 0
      = .ok ⟨[1065353216, 1073741824, 1077936128, 0], true, true⟩ :=
  ⟨read_flt_file_replaces_nulls false [0, 0, 128, 63, 0, 0, 0, 64, 0, 0, 64, 64, 0, 60, 28, 198]
      2 2 3323739136 false 0 0 (by simp [rows_present]) (forall_mem_of_all_not _ _ (by decide)), by decide⟩

/-- C2. A NaN among the stored values makes `read_flt_file` fail, whatever `nodata` is:
no result is returned, so the NaN is neither turned into `0.0` nor taken as nodata. -/
theorem read_flt_file_nan_is_fatal (host_be : Bool) (in_flt_file : List Byte)
    (nrows ncols : Nat) (nodata : Float32) (big_endian : Bool) (skipbytes rowpad : Nat)
    (h : ∃ v ∈ stored_values host_be big_endian ncols rowpad nrows (in_flt_file.drop skipbytes),
      flt_isnan v = true) :
    ∃ e, read_flt_file host_be in_flt_file nrows ncols nodata big_endian skipbytes rowpad
      = .error e :=
  read_rows_nan host_be big_endian ncols nodata rowpad nrows _ false true h

/-- C2, witness: a single stored NaN, with that same NaN declared as nodata, is fatal. -/
theorem read_flt_file_nan_is_fatal_witness :
    ∃ e, read_flt_file false [0, 0, 192, 127] 1 1 2143289344 false 0 0 = .error e :=
  read_flt_file_nan_is_fatal false [0, 0, 192, 127] 1 1 2143289344 false 0 0
    ⟨2143289344, by decide, by decide⟩

/-! ## Grid payload: writing, then reading -/

theorem float_of_mem_of_float (host_be : Bool) (x : Float32) :
    decode_row host_be false (mem_of_float host_be x ++ []) = [x] := by
  cases host_be <;> simp [mem_of_float, decode_row, float_of_mem] <;> apply Fin.ext <;>
    simp <;> omega

theorem floats_to_bytes_append (host_be : Bool) (a b : List Float32) :
    floats_to_bytes host_be (a ++ b) = floats_to_bytes host_be a ++ floats_to_bytes host_be b := by
  induction a with
  | nil => rfl
  | cons v vs ih => simp [floats_to_bytes, ih]

theorem update_min_max_has_nulls (st : FltScan) (b : Float32) :
    (update_min_max st b).has_nulls = st.has_nulls := by
  simp only [update_min_max]
  split
  · rfl
  · split <;> rfl

/-- The `int` that holds the size of a row buffer is the size itself when the size is in
the range of an `int`. -/
theorem int_bufsize_eq (n size : Nat) (h : n * size < 2 ^ 31) :
    int_bufsize n size = ((n * size : Nat) : Int) := by
  unfold int_bufsize
  generalize n * size = k at h ⊢
  rw [Nat.mod_eq_of_lt (show k < 2 ^ 64 by omega), Nat.mod_eq_of_lt (show k < 2 ^ 32 by omega),
    if_pos h]

/-- The buffer of a row whose size is in the range of an `int` is allocated. -/
theorem malloc_fails_of_lt (n size : Nat) (h : n * size < 2 ^ 31) :
    malloc_fails (int_bufsize n size) = false := by
  rw [int_bufsize_eq n size h]
  simp only [malloc_fails, decide_eq_false_iff_not, not_lt]
  exact Int.ofNat_nonneg _

/-- The buffer of a row whose size is from `2^31` up to `2^32 - 1` is not allocated. -/
theorem malloc_fails_of_ge (n size : Nat) (h1 : 2 ^ 31 ≤ n * size) (h2 : n * size < 2 ^ 32) :
    malloc_fails (int_bufsize n size) = true := by
  unfold int_bufsize
  generalize n * size = k at h1 h2 ⊢
  rw [Nat.mod_eq_of_lt (show k < 2 ^ 64 by omega), Nat.mod_eq_of_lt (show k < 2 ^ 32 by omega),
    if_neg (by omega)]
  simp only [malloc_fails, decide_eq_true_eq]
  omega

/-- A successful `write_flt_file` is a successful row loop. -/
theorem write_flt_file_ok_rows (host_be : Bool) (nrows ncols : Nat) (data : List Float32)
    (w : FltWritten) (h : write_flt_file host_be nrows ncols data = .ok w) :
    ∃ st, write_rows host_be ncols nrows data ⟨flt_m1e6, false, data.headD 0, data.headD 0⟩
        = .ok (w.bytes, st)
      ∧ w.nodata = st.nodata ∧ w.min_value = st.min_value ∧ w.max_value = st.max_value := by
  unfold write_flt_file at h
  simp only [] at h
  split at h
  · cases h
  · split at h
    · split at h <;> cases h
    · split at h
      · cases h
      · next bytes st hw =>
        cases h
        exact ⟨st, hw, rfl, rfl, rfl⟩

theorem reverse_groups_involutive (l : List Byte) : reverse_groups (reverse_groups l) = l := by
  induction l using reverse_groups.induct with
  | case1 c0 c1 c2 c3 rest ih => simp [reverse_groups, ih]
  | case2 l h =>
    have : reverse_groups l = l := by
      unfold reverse_groups
      split
      · exact absurd rfl (h _ _ _ _ _)
      · rfl
    rw [this, this]

theorem length_reverse_groups (l : List Byte) : (reverse_groups l).length = l.length := by
  induction l using reverse_groups.induct with
  | case1 c0 c1 c2 c3 rest ih => simp [reverse_groups, ih]
  | case2 l h =>
    unfold reverse_groups
    split
    · exact absurd rfl (h _ _ _ _ _)
    · rfl

theorem decode_row_reverse_groups (host_be r : Bool) (l : List Byte) :
    decode_row host_be (!r) (reverse_groups l) = decode_row host_be r l := by
  induction l using reverse_groups.induct with
  | case1 c0 c1 c2 c3 rest ih =>
    cases r
    · have ih2 : decode_row host_be true (reverse_groups rest) = decode_row host_be false rest := ih
      simp [reverse_groups, decode_row, ih2]
    · have ih2 : decode_row host_be false (reverse_groups rest) = decode_row host_be true rest := ih
      simp [reverse_groups, decode_row, ih2]
  | case2 l h =>
    have h1 : reverse_groups l = l := by
      unfold reverse_groups
      split
      · exact absurd rfl (h _ _ _ _ _)
      · rfl
    have h2 : ∀ b, decode_row host_be b l = [] := by
      intro b
      unfold decode_row
      split
      · exact absurd rfl (h _ _ _ _ _)
      · rfl
    rw [h1, h2, h2]

theorem reverse_rows_nil (ncols rowpad n : Nat) : reverse_rows ncols rowpad n [] = [] := by
  induction n with
  | zero => rfl
  | succ k ih => simp [reverse_rows, reverse_groups, ih]

theorem length_reverse_rows (ncols rowpad n : Nat) (rest : List Byte) :
    (reverse_rows ncols rowpad n rest).length = rest.length := by
  induction n generalizing rest with
  | zero => rfl
  | succ k ih =>
    simp only [reverse_rows, List.length_append, length_reverse_groups, ih, List.length_take,
      List.length_drop]
    omega

theorem drop_take_append (rowpad : Nat) (x r : List Byte) (h : x.length < rowpad → r = []) :
    (x.take rowpad ++ r).drop rowpad = r := by
  by_cases hx : rowpad ≤ x.length
  · exact List.drop_left' (by rw [List.length_take]; omega)
  · rw [h (by omega), List.append_nil, List.take_of_length_le (by omega),
      List.drop_eq_nil_of_le (by omega)]

theorem read_rows_reverse (host_be big_endian : Bool) (ncols : Nat) (nodata : Float32)
    (rowpad n : Nat) (rest : List Byte) (hn ai : Bool) :
    read_rows host_be (!big_endian) ncols nodata rowpad n (reverse_rows ncols rowpad n rest) hn ai
      = read_rows host_be big_endian ncols nodata rowpad n rest hn ai := by
  induction n generalizing rest hn ai with
  | zero => rfl
  | succ k ih =>
    unfold read_rows
    rw [length_reverse_rows]
    by_cases hlen : rest.length < 4 * ncols
    · rw [if_pos hlen, if_pos hlen]
    · rw [if_neg hlen, if_neg hlen]
      have hl : (reverse_groups (rest.take (4 * ncols))).length = 4 * ncols := by
        rw [length_reverse_groups, List.length_take]; omega
      have hflag : (host_be != !big_endian) = !(host_be != big_endian) := by
        cases host_be <;> cases big_endian <;> rfl
      have htail : (List.take rowpad (List.drop (4 * ncols) rest)
            ++ reverse_rows ncols rowpad k (List.drop rowpad (List.drop (4 * ncols) rest))).drop
              rowpad
          = reverse_rows ncols rowpad k (List.drop rowpad (List.drop (4 * ncols) rest)) := by
        apply drop_take_append
        intro hshort
        rw [List.drop_eq_nil_of_le (by omega), reverse_rows_nil]
      simp only [reverse_rows]
      rw [List.take_left' hl, List.drop_left' hl, htail, hflag, decode_row_reverse_groups]
      cases scan_row nodata (decode_row host_be (host_be != big_endian) (rest.take (4 * ncols)))
          hn ai with
      | error e => rfl
      | ok r =>
        obtain ⟨vals, hn2, ai2⟩ := r
        simp only []
        rw [ih]

/-- Reading the stream in which the four bytes of every stored value are reversed, with
the opposite `big_endian` flag, gives the same outcome as reading the original stream with
the original flag. -/
theorem read_flt_file_reverse (host_be : Bool) (in_flt_file : List Byte) (nrows ncols : Nat)
    (nodata : Float32) (big_endian : Bool) (skipbytes rowpad : Nat) :
    read_flt_file host_be (reverse_payload nrows ncols skipbytes rowpad in_flt_file) nrows ncols
        nodata (!big_endian) skipbytes rowpad
      = read_flt_file host_be in_flt_file nrows ncols nodata big_endian skipbytes rowpad := by
  unfold read_flt_file reverse_payload
  have hdrop : (List.take skipbytes in_flt_file
        ++ reverse_rows ncols rowpad nrows (List.drop skipbytes in_flt_file)).drop skipbytes
      = reverse_rows ncols rowpad nrows (List.drop skipbytes in_flt_file) := by
    apply drop_take_append
    intro hshort
    rw [List.drop_eq_nil_of_le (by omega), reverse_rows_nil]
  rw [hdrop, read_rows_reverse]

/-- The memory of the `float` made of four bytes is those four bytes. -/
theorem mem_of_float_of_mem (host_be : Bool) (c0 c1 c2 c3 : Byte) :
    mem_of_float host_be (float_of_mem host_be c0 c1 c2 c3) = [c0, c1, c2, c3] := by
  cases host_be <;> simp only [mem_of_float, float_of_mem, Bool.false_eq_true, if_false, if_true,
    List.cons.injEq, and_true] <;> refine ⟨?_, ?_, ?_, ?_⟩ <;> apply Fin.ext <;> simp <;> omega

/-- The reversal of lines 582-593, applied to a row that it has already reversed, gives
the row as `fread` stored it: the reversal is an involution. -/
theorem decode_row_reverse_twice (host_be : Bool) (row : List Byte) :
    decode_row host_be true (floats_to_bytes host_be (decode_row host_be true row))
      = decode_row host_be false row := by
  induction row using reverse_groups.induct with
  | case1 c0 c1 c2 c3 rest ih =>
    simp only [decode_row, if_true, floats_to_bytes, mem_of_float_of_mem, List.cons_append,
      List.nil_append, Bool.false_eq_true, if_false, ih]
  | case2 l h =>
    have h2 : ∀ b, decode_row host_be b l = [] := by
      intro b
      unfold decode_row
      split
      · exact absurd rfl (h _ _ _ _ _)
      · rfl
    rw [h2, h2]
    rfl

/-! ## TIFF encoder: files, positions and frames -/

@[simp] theorem fwrite_pos (bs : List Byte) (f : FileState) :
    (fwrite bs f).pos = f.pos + bs.length := by
  unfold fwrite
  split
  · next h => simp [h]
  · rfl

@[simp] theorem fwrite_nil (f : FileState) : fwrite [] f = f := by simp [fwrite]

@[simp] theorem fseek_cur_pos (f : FileState) (d : Int) :
    (fseek_cur f d).pos = ((f.pos : Int) + d).toNat := rfl

@[simp] theorem fseek_cur_bytes (f : FileState) (d : Int) : (fseek_cur f d).bytes = f.bytes := rfl

@[simp] theorem fseek_set_bytes (f : FileState) (p : Nat) : (fseek_set f p).bytes = f.bytes := rfl

@[simp] theorem fseek_set_pos (f : FileState) (p : Nat) : (fseek_set f p).pos = p := rfl

@[simp] theorem rewind_bytes (f : FileState) : (rewind f).bytes = f.bytes := rfl

@[simp] theorem rewind_pos (f : FileState) : (rewind f).pos = 0 := rfl

theorem length_zero_fill (bytes : List Byte) (pos : Nat) :
    (zero_fill bytes pos).length = pos := by
  simp only [zero_fill, List.length_append, List.length_take, List.length_replicate]
  omega

theorem byte_at_append_left (a b : List Byte) (i : Nat) (h : i < a.length) :
    byte_at (a ++ b) i = byte_at a i := by
  simp only [byte_at, List.getD_eq_getElem?_getD, List.getElem?_append_left h]

theorem byte_at_append_right (a b : List Byte) (i : Nat) (h : a.length ≤ i) :
    byte_at (a ++ b) i = byte_at b (i - a.length) := by
  simp only [byte_at, List.getD_eq_getElem?_getD, List.getElem?_append_right h]

theorem byte_at_of_length_le (a : List Byte) (i : Nat) (h : a.length ≤ i) : byte_at a i = 0 := by
  simp only [byte_at, List.getD_eq_getElem?_getD, List.getElem?_eq_none h]
  rfl

theorem byte_at_zero_fill (bytes : List Byte) (pos i : Nat) (h : i < pos) :
    byte_at (zero_fill bytes pos) i = byte_at bytes i := by
  unfold zero_fill
  by_cases h2 : i < bytes.length
  · rw [byte_at_append_left _ _ _ (by rw [List.length_take]; omega)]
    simp only [byte_at, List.getD_eq_getElem?_getD, List.getElem?_take_of_lt h]
  · rw [byte_at_append_right _ _ _ (by rw [List.length_take]; omega),
      byte_at_of_length_le bytes i (by omega)]
    simp only [byte_at, List.getD_eq_getElem?_getD, List.getElem?_replicate]
    split <;> rfl

theorem byte_at_drop (a : List Byte) (n i : Nat) : byte_at (a.drop n) i = byte_at a (n + i) := by
  simp only [byte_at, List.getD_eq_getElem?_getD, List.getElem?_drop]

theorem fwrite_fwrite (a b : List Byte) (f : FileState) :
    fwrite b (fwrite a f) = fwrite (a ++ b) f := by
  by_cases ha : a = []
  · simp [ha]
  by_cases hb : b = []
  · simp [hb]
  obtain ⟨bytes, pos⟩ := f
  have hp := length_zero_fill bytes pos
  have hab : ¬ (a ++ b = []) := by simp [ha]
  simp only [fwrite, if_neg ha, if_neg hb, if_neg hab]
  generalize zero_fill bytes pos = pre at hp
  have hlen : (pre ++ a).length = pos + a.length := by simp [hp]
  have ht : zero_fill (pre ++ a ++ List.drop (pos + a.length) bytes) (pos + a.length)
      = pre ++ a := by
    unfold zero_fill
    rw [List.take_left' hlen, List.length_append, hlen,
      show pos + a.length - (pos + a.length + (List.drop (pos + a.length) bytes).length) = 0 by
        omega]
    simp
  have hd : List.drop (pos + a.length + b.length) (pre ++ a ++ List.drop (pos + a.length) bytes)
      = List.drop (pos + (a ++ b).length) bytes := by
    rw [show pos + a.length + b.length = (pre ++ a).length + b.length by rw [hlen],
      List.drop_append, List.drop_drop, List.length_append]
    congr 1
    omega
  rw [ht, hd]
  simp [Nat.add_assoc]

theorem byte_at_fwrite (bs : List Byte) (f : FileState) (i : Nat) :
    byte_at (fwrite bs f).bytes i =
      if i < f.pos then byte_at f.bytes i
      else if i < f.pos + bs.length then byte_at bs (i - f.pos)
      else byte_at f.bytes i := by
  by_cases hbs : bs = []
  · subst hbs
    by_cases h1 : i < f.pos <;> simp [h1]
  have hp := length_zero_fill f.bytes f.pos
  simp only [fwrite, if_neg hbs, List.append_assoc]
  by_cases h1 : i < f.pos
  · rw [if_pos h1, byte_at_append_left _ _ _ (by omega), byte_at_zero_fill _ _ _ h1]
  · rw [if_neg h1, byte_at_append_right _ _ _ (by omega), hp]
    by_cases h3 : i < f.pos + bs.length
    · rw [if_pos h3, byte_at_append_left _ _ _ (by omega)]
    · rw [if_neg h3, byte_at_append_right _ _ _ (by omega), byte_at_drop]
      congr 1
      omega

@[simp] theorem length_le_bytes (size n : Nat) : (le_bytes size n).length = size := by
  induction size generalizing n with
  | zero => rfl
  | succ k ih => simp [le_bytes, ih]

@[simp] theorem length_host_bytes (be : Bool) (size n : Nat) :
    (host_bytes be size n).length = size := by
  cases be <;> simp [host_bytes]

@[simp] theorem length_tiff_entry_bytes (be : Bool) (tag type length offset : Nat) :
    (tiff_entry_bytes be tag type length offset).length = 12 := by
  unfold tiff_entry_bytes
  split <;> simp

@[simp] theorem length_bigtiff_entry_bytes (be : Bool) (tag type length offset : Nat) :
    (bigtiff_entry_bytes be tag type length offset).length = 20 := by
  unfold bigtiff_entry_bytes
  split
  · simp
  · split <;> simp

theorem WriteTIFFTag_eq_fwrite (be : Bool) (f : FileState) (tag type length offset : Nat) :
    WriteTIFFTag be f tag type length offset
      = fwrite (tiff_entry_bytes be tag type length offset) f := by
  unfold WriteTIFFTag tiff_entry_bytes WriteWord WriteLong
  split <;> simp only [fwrite_fwrite, List.append_assoc]

theorem WriteBigTIFFTag_eq_fwrite (be : Bool) (f : FileState) (tag type length offset : Nat) :
    WriteBigTIFFTag be f tag type length offset
      = fwrite (bigtiff_entry_bytes be tag type length offset) f := by
  unfold WriteBigTIFFTag bigtiff_entry_bytes WriteWord WriteLong Write8Byte
  split
  · simp only [fwrite_fwrite, List.append_assoc]
  · split <;> simp only [fwrite_fwrite, List.append_assoc]

theorem WriteString_eq_fwrite (f : FileState) (str : List Byte) (count : Nat) :
    WriteString f str count = fwrite ((str ++ [0]).take count ++ [0]) f := by
  simp [WriteString, fwrite_fwrite]

theorem strlen_le_length (s : List Byte) : strlen s ≤ s.length := by
  induction s with
  | nil => simp [strlen]
  | cons c cs ih =>
    simp only [strlen, List.length_cons]
    split <;> omega

theorem Untouched.refl (lo : Nat) (f : FileState) : Untouched lo f f := fun _ _ => rfl

theorem Untouched.trans {lo lo2 : Nat} {f g h : FileState} (h1 : Untouched lo f g)
    (h2 : Untouched lo2 g h) (hle : lo ≤ lo2) : Untouched lo f h := by
  intro i hi
  rw [h2 i (by omega), h1 i hi]

theorem Untouched.mono {lo lo2 : Nat} {f g : FileState} (h1 : Untouched lo2 f g)
    (hle : lo ≤ lo2) : Untouched lo f g := fun i hi => h1 i (by omega)

theorem fwrite_untouched (bs : List Byte) (f : FileState) : Untouched f.pos f (fwrite bs f) := by
  intro i hi
  rw [byte_at_fwrite, if_pos hi]

theorem read_uint_congr (be : Bool) (g f : List Byte) (p size : Nat)
    (h : ∀ i, p ≤ i → i < p + size → byte_at g i = byte_at f i) :
    read_uint be g p size = read_uint be f p size := by
  induction size generalizing p with
  | zero => rfl
  | succ k ih =>
    cases be
    · simp only [read_uint, Bool.false_eq_true, if_false]
      rw [h p (by omega) (by omega), ih (p + 1) (fun i h1 h2 => h i (by omega) (by omega))]
    · simp only [read_uint, if_true]
      rw [h (p + k) (by omega) (by omega), ih p (fun i h1 h2 => h i (by omega) (by omega))]

theorem read_uint_untouched (be : Bool) {lo : Nat} {f g : FileState} (h : Untouched lo f g)
    (p size : Nat) (hp : p + size ≤ lo) :
    read_uint be g.bytes p size = read_uint be f.bytes p size :=
  read_uint_congr be _ _ p size (fun i _ h2 => h i (by omega))

theorem read_uint_le_bytes (bytes : List Byte) (p size n : Nat)
    (h : ∀ j, j < size → byte_at bytes (p + j) = byte_at (le_bytes size n) j) :
    read_uint false bytes p size = n % 256 ^ size := by
  induction size generalizing p n with
  | zero => simp [read_uint, Nat.mod_one]
  | succ k ih =>
    simp only [read_uint, Bool.false_eq_true, if_false]
    have h0 := h 0 (by omega)
    simp only [Nat.add_zero, le_bytes, byte_at, List.getD_cons_zero] at h0
    have hrest : ∀ j, j < k → byte_at bytes (p + 1 + j) = byte_at (le_bytes k (n / 256)) j := by
      intro j hj
      have := h (j + 1) (by omega)
      simp only [le_bytes, byte_at, List.getD_cons_succ] at this
      rw [show p + 1 + j = p + (j + 1) by omega]
      exact this
    rw [ih (p + 1) (n / 256) hrest]
    simp only [byte_at] at h0 ⊢
    rw [h0, Nat.pow_succ, Nat.mul_comm (256 ^ k) 256, Nat.mod_mul]

theorem read_uint_be_bytes (bytes : List Byte) (p size n : Nat)
    (h : ∀ j, j < size → byte_at bytes (p + j) = byte_at (le_bytes size n).reverse j) :
    read_uint true bytes p size = n % 256 ^ size := by
  induction size generalizing n with
  | zero => simp [read_uint, Nat.mod_one]
  | succ k ih =>
    simp only [read_uint, if_true]
    have hrev : (le_bytes (k + 1) n).reverse
        = (le_bytes k (n / 256)).reverse ++ [⟨n % 256, Nat.mod_lt _ (by decide)⟩] := by
      simp [le_bytes]
    have hlast := h k (by omega)
    rw [hrev, byte_at_append_right _ _ _ (by simp)] at hlast
    simp only [List.length_reverse, length_le_bytes, Nat.sub_self, byte_at,
      List.getD_cons_zero] at hlast
    have hrest : ∀ j, j < k → byte_at bytes (p + j) = byte_at (le_bytes k (n / 256)).reverse j := by
      intro j hj
      have := h j (by omega)
      rw [hrev, byte_at_append_left _ _ _ (by simp; exact hj)] at this
      exact this
    rw [ih (n / 256) hrest]
    simp only [byte_at] at hlast ⊢
    rw [hlast, Nat.pow_succ, Nat.mul_comm (256 ^ k) 256, Nat.mod_mul]

theorem read_uint_host_bytes (be : Bool) (bytes : List Byte) (p size n : Nat)
    (h : ∀ j, j < size → byte_at bytes (p + j) = byte_at (host_bytes be size n) j) :
    read_uint be bytes p size = n % 256 ^ size := by
  cases be
  · exact read_uint_le_bytes bytes p size n h
  · exact read_uint_be_bytes bytes p size n h

/-! ## TIFF encoder: the entry-writing steps -/

theorem fwrite_written (bs : List Byte) (f : FileState) (j : Nat) (hj : j < bs.length) :
    byte_at (fwrite bs f).bytes (f.pos + j) = byte_at bs j := by
  rw [byte_at_fwrite, if_neg (by omega), if_pos (by omega)]
  congr 1
  omega

theorem read_uint_fwrite_head (be : Bool) (size n : Nat) (rest : List Byte) (f : FileState) :
    read_uint be (fwrite (host_bytes be size n ++ rest) f).bytes f.pos size = n % 256 ^ size := by
  apply read_uint_host_bytes
  intro j hj
  rw [fwrite_written _ _ _ (by simp; omega), byte_at_append_left _ _ _ (by simpa using hj)]

theorem plain_entry_step (be : Bool) (tag type length offset : Nat) :
    EntryStep be (tag % 256 ^ 2) 12 12 (fun f => WriteTIFFTag be f tag type length offset) := by
  intro f
  simp only [WriteTIFFTag_eq_fwrite]
  refine ⟨by simp, by simp, fwrite_untouched _ _, ?_⟩
  exact read_uint_fwrite_head be 2 tag _ f

theorem big_plain_entry_step (be : Bool) (tag type length offset : Nat) :
    EntryStep be (tag % 256 ^ 2) 20 20 (fun f => WriteBigTIFFTag be f tag type length offset) := by
  intro f
  simp only [WriteBigTIFFTag_eq_fwrite]
  refine ⟨by simp, by simp, fwrite_untouched _ _, ?_⟩
  exact read_uint_fwrite_head be 2 tag _ f

theorem length_string_bytes (s : List Byte) :
    ((s ++ [0]).take (strlen s + 1) ++ [(0 : Byte)]).length = strlen s + 2 := by
  have := strlen_le_length s
  simp only [List.length_append, List.length_take, List.length_cons, List.length_nil]
  omega

theorem overwrite_tail (a w : List Byte) (f : FileState) (k : Nat) (hk : k ≤ a.length) :
    (fwrite w (fseek_cur (fwrite a f) (-(k : Int)))).pos = f.pos + a.length - k + w.length
      ∧ Untouched f.pos f (fwrite w (fseek_cur (fwrite a f) (-(k : Int))))
      ∧ (∀ j, j < a.length - k →
          byte_at (fwrite w (fseek_cur (fwrite a f) (-(k : Int)))).bytes (f.pos + j) = byte_at a j)
      ∧ (∀ j, j < w.length →
          byte_at (fwrite w (fseek_cur (fwrite a f) (-(k : Int)))).bytes
            (f.pos + a.length - k + j) = byte_at w j) := by
  have hpos : (fseek_cur (fwrite a f) (-(k : Int))).pos = f.pos + a.length - k := by
    simp only [fseek_cur_pos, fwrite_pos]
    omega
  refine ⟨by simp only [fwrite_pos, hpos], ?_, ?_, ?_⟩
  · intro i hi
    rw [byte_at_fwrite, if_pos (by rw [hpos]; omega), fseek_cur_bytes, fwrite_untouched a f i hi]
  · intro j hj
    rw [byte_at_fwrite, if_pos (by rw [hpos]; omega), fseek_cur_bytes,
      fwrite_written _ _ _ (by omega)]
  · intro j hj
    rw [← hpos]
    exact fwrite_written w _ j hj

theorem ascii_entry_step (be : Bool) (tag : Nat) (s : List Byte) (offset : Nat) :
    EntryStep be Software 12 13
      (fun f => WriteTIFFAsciiTag be f tag s (strlen s + 1) offset) := by
  intro f
  have htag : ∀ j, j < 2 → byte_at (tiff_entry_bytes be Software TIFFascii (strlen s + 1) offset) j
      = byte_at (host_bytes be 2 Software) j := by
    intro j hj
    unfold tiff_entry_bytes
    rw [byte_at_append_left _ _ _ (by simpa using hj)]
  simp only [WriteTIFFAsciiTag, WriteTIFFTag_eq_fwrite, WriteString_eq_fwrite]
  rw [if_neg (by omega)]
  by_cases hc : strlen s + 1 > 4
  · rw [if_pos hc]
    refine ⟨by simp, by simp, fwrite_untouched _ _, ?_⟩
    exact read_uint_fwrite_head be 2 Software _ f
  · rw [if_neg hc]
    obtain ⟨hp, hu, hw, _⟩ := overwrite_tail (tiff_entry_bytes be Software TIFFascii (strlen s + 1) offset)
      ((s ++ [0]).take (strlen s + 1) ++ [0]) f 4 (by simp)
    simp only [length_tiff_entry_bytes, length_string_bytes] at hp hw
    simp only [fseek_cur_pos, fseek_cur_bytes]
    have hcase : strlen s = 0 ∨ strlen s = 1 ∨ strlen s = 2 ∨ strlen s = 3 := by omega
    rw [show (-(4 : Int)) = -((4 : Nat) : Int) from rfl]
    have a0 : (0 &&& 2 : Nat) = 0 := by decide
    have a1 : (1 &&& 2 : Nat) = 0 := by decide
    have a2 : (2 &&& 2 : Nat) = 2 := by decide
    have a3 : (3 &&& 2 : Nat) = 2 := by decide
    refine ⟨?_, ?_, hu, ?_⟩
    · rw [hp]
      rcases hcase with h | h | h | h <;> rw [h] <;>
        simp only [Nat.reduceAdd, Nat.reduceSub, a0, a1, a2, a3] <;> omega
    · rw [hp]
      rcases hcase with h | h | h | h <;> rw [h] <;>
        simp only [Nat.reduceAdd, Nat.reduceSub, a0, a1, a2, a3] <;> omega
    · have h2 := read_uint_host_bytes be
        (fwrite ((s ++ [0]).take (strlen s + 1) ++ [0])
          (fseek_cur (fwrite (tiff_entry_bytes be Software TIFFascii (strlen s + 1) offset) f)
            (-((4 : Nat) : Int)))).bytes f.pos 2 Software
        (fun j hj => by rw [hw j (by omega), htag j hj])
      rw [show Software % 256 ^ 2 = Software by decide] at h2
      exact h2

theorem big_rational_entry_step (be : Bool) (tag num den : Nat) :
    EntryStep be (tag % 256 ^ 2) 20 20
      (fun f => BigTiffCall.run be f (.rational tag num den)) := by
  intro f
  simp only [BigTiffCall.run, WriteBigTIFFTag_eq_fwrite, WriteLong, fwrite_fwrite]
  obtain ⟨hp, hu, hw, _⟩ := overwrite_tail (bigtiff_entry_bytes be tag TIFFrational 1 0)
    (host_bytes be 4 num ++ host_bytes be 4 den) f 8 (by simp)
  simp only [length_bigtiff_entry_bytes, List.length_append, length_host_bytes] at hp hw
  rw [show (-(8 : Int)) = -((8 : Nat) : Int) from rfl]
  refine ⟨by omega, by omega, hu, ?_⟩
  apply read_uint_host_bytes
  intro j hj
  rw [hw j (by omega)]
  unfold bigtiff_entry_bytes
  rw [byte_at_append_left _ _ _ (by simpa using hj)]

theorem big_ascii_entry_step (be : Bool) (tag : Nat) (s : List Byte) (offset : Nat) :
    EntryStep be Software 20 21
      (fun f => WriteBigTIFFAsciiTag be f tag s (strlen s + 1) offset) := by
  intro f
  have htag : ∀ j, j < 2 →
      byte_at (bigtiff_entry_bytes be Software TIFFascii (strlen s + 1) offset) j
        = byte_at (host_bytes be 2 Software) j := by
    intro j hj
    unfold bigtiff_entry_bytes
    rw [byte_at_append_left _ _ _ (by simpa using hj)]
  simp only [WriteBigTIFFAsciiTag, WriteBigTIFFTag_eq_fwrite, WriteString_eq_fwrite]
  rw [if_neg (by omega)]
  by_cases hc : strlen s + 1 > 8
  · rw [if_pos hc]
    refine ⟨by simp, by simp, fwrite_untouched _ _, ?_⟩
    exact read_uint_fwrite_head be 2 Software _ f
  · rw [if_neg hc]
    obtain ⟨hp, hu, hw, _⟩ := overwrite_tail
      (bigtiff_entry_bytes be Software TIFFascii (strlen s + 1) offset)
      ((s ++ [0]).take (strlen s + 1) ++ [0]) f 8 (by simp)
    simp only [length_bigtiff_entry_bytes, length_string_bytes] at hp hw
    simp only [fseek_cur_pos, fseek_cur_bytes]
    have hcase : strlen s = 0 ∨ strlen s = 1 ∨ strlen s = 2 ∨ strlen s = 3 ∨ strlen s = 4
        ∨ strlen s = 5 ∨ strlen s = 6 ∨ strlen s = 7 := by omega
    rw [show (-(8 : Int)) = -((8 : Nat) : Int) from rfl]
    have a0 : (0 &&& 6 : Nat) = 0 := by decide
    have a1 : (1 &&& 6 : Nat) = 0 := by decide
    have a2 : (2 &&& 6 : Nat) = 2 := by decide
    have a3 : (3 &&& 6 : Nat) = 2 := by decide
    have a4 : (4 &&& 6 : Nat) = 4 := by decide
    have a5 : (5 &&& 6 : Nat) = 4 := by decide
    have a6 : (6 &&& 6 : Nat) = 6 := by decide
    have a7 : (7 &&& 6 : Nat) = 6 := by decide
    refine ⟨?_, ?_, hu, ?_⟩
    · rw [hp]
      rcases hcase with h | h | h | h | h | h | h | h <;> rw [h] <;>
        simp only [Nat.reduceAdd, Nat.reduceSub, a0, a1, a2, a3, a4, a5, a6, a7] <;> omega
    · rw [hp]
      rcases hcase with h | h | h | h | h | h | h | h <;> rw [h] <;>
        simp only [Nat.reduceAdd, Nat.reduceSub, a0, a1, a2, a3, a4, a5, a6, a7] <;> omega
    · have h2 := read_uint_host_bytes be
        (fwrite ((s ++ [0]).take (strlen s + 1) ++ [0])
          (fseek_cur (fwrite (bigtiff_entry_bytes be Software TIFFascii (strlen s + 1) offset) f)
            (-((8 : Nat) : Int)))).bytes f.pos 2 Software
        (fun j hj => by rw [hw j (by omega), htag j hj])
      rw [show Software % 256 ^ 2 = Software by decide] at h2
      exact h2

theorem steps_spec {α : Type} (be : Bool) (run : FileState → α → FileState) (tag : α → Nat)
    (lo hi : Nat) (hlo : 2 ≤ lo) (calls : List α)
    (hall : ∀ c ∈ calls, EntryStep be (tag c) lo hi (fun f => run f c)) (f : FileState) :
    f.pos + lo * calls.length ≤ (calls.foldl run f).pos
    ∧ (calls.foldl run f).pos ≤ f.pos + hi * calls.length
    ∧ Untouched f.pos f (calls.foldl run f)
    ∧ (∀ x ∈ (step_positions run f calls).zip (calls.map tag),
        f.pos ≤ x.1 ∧ x.1 + lo ≤ (calls.foldl run f).pos
          ∧ read_uint be (calls.foldl run f).bytes x.1 2 = x.2)
    ∧ (∀ p ∈ step_positions run f calls, f.pos ≤ p ∧ p + lo ≤ (calls.foldl run f).pos)
    ∧ (step_positions run f calls).Pairwise (· < ·) := by
  induction calls generalizing f with
  | nil =>
    simp only [List.foldl_nil, List.length_nil, Nat.mul_zero, Nat.add_zero, step_positions,
      List.map_nil, List.zip_nil_right, List.not_mem_nil, false_implies, implies_true,
      List.Pairwise.nil, and_true, Nat.le_refl, true_and]
    exact Untouched.refl _ _
  | cons c cs ih =>
    obtain ⟨h1, h2, h3, h4⟩ := hall c (List.mem_cons_self _ _) f
    dsimp only at h1 h2 h3 h4
    obtain ⟨i1, i2, i3, i4, i5, i6⟩ := ih (fun d hd => hall d (List.mem_cons_of_mem _ hd)) (run f c)
    simp only [List.foldl_cons, List.length_cons, step_positions, List.map_cons, List.zip_cons_cons,
      List.mem_cons, List.pairwise_cons]
    have hm1 : lo * (cs.length + 1) = lo * cs.length + lo := by ring
    have hm2 : hi * (cs.length + 1) = hi * cs.length + hi := by ring
    refine ⟨by omega, by omega, h3.trans i3 (by omega), ?_, ?_, ?_, i6⟩
    · rintro x (rfl | hx)
      · refine ⟨Nat.le_refl _, by simp only; omega, ?_⟩
        simp only
        rw [read_uint_untouched be i3 f.pos 2 (by omega), h4]
      · obtain ⟨j1, j2, j3⟩ := i4 x hx
        exact ⟨by omega, j2, j3⟩
    · rintro p (rfl | hp)
      · exact ⟨Nat.le_refl _, by omega⟩
      · obtain ⟨j1, j2⟩ := i5 p hp
        exact ⟨by omega, j2⟩
    · intro p hp
      obtain ⟨j1, _⟩ := i5 p hp
      omega

/-! ## TIFF encoder: the header, the directory and the finished file -/

theorem software_count_eq (sw : Option (List Byte)) (h : software_count sw ≠ 0) :
    software_count sw = strlen (sw.getD []) + 1 := by
  cases sw with
  | none => simp [software_count, software_strlen] at h
  | some s =>
    simp only [software_count, software_strlen, Option.getD_some] at h ⊢
    split at h
    · rw [if_pos (by assumption)]
    · exact absurd rfl h

theorem length_software_bytes (be : Bool) (sw : Option (List Byte)) :
    (software_bytes be sw).length = if software_count sw ≠ 0 then software_count sw + 1 else 2 := by
  unfold software_bytes
  by_cases h : software_count sw ≠ 0
  · rw [if_pos h, if_pos h, software_count_eq sw h, length_string_bytes]
  · rw [if_neg h, if_neg h, length_host_bytes]

theorem tiff_header_eq_fwrite (be : Bool) (f : FileState) (sw : Option (List Byte)) :
    tiff_header be f sw = fwrite (tiff_header_bytes be sw) f := by
  unfold tiff_header tiff_header_bytes software_bytes WriteWord WriteLong
  by_cases h : software_count sw ≠ 0 <;> cases be <;>
    simp only [h, WriteString_eq_fwrite, fwrite_fwrite, List.append_assoc, Bool.false_eq_true,
      if_false, if_true, not_true_eq_false, not_false_eq_true, ne_eq]

theorem bigtiff_header_eq_fwrite (be : Bool) (f : FileState) (sw : Option (List Byte)) :
    bigtiff_header be f sw = fwrite (bigtiff_header_bytes be sw) f := by
  unfold bigtiff_header bigtiff_header_bytes software_bytes WriteWord Write8Byte
  by_cases h : software_count sw ≠ 0 <;> cases be <;>
    simp only [h, WriteString_eq_fwrite, fwrite_fwrite, List.append_assoc, Bool.false_eq_true,
      if_false, if_true, not_true_eq_false, not_false_eq_true, ne_eq]

theorem length_tiff_header_bytes (be : Bool) (sw : Option (List Byte)) :
    (tiff_header_bytes be sw).length = 24 + (software_bytes be sw).length := by
  simp only [tiff_header_bytes, List.length_append, length_host_bytes]
  omega

theorem length_bigtiff_header_bytes (be : Bool) (sw : Option (List Byte)) :
    (bigtiff_header_bytes be sw).length = 24 + (software_bytes be sw).length := by
  simp only [bigtiff_header_bytes, List.length_append, length_host_bytes]
  omega

theorem write_bitmap_rows_eq_fwrite (be : Bool) (width n : Nat) (ptr : List Float32)
    (f : FileState) :
    write_bitmap_rows be width n ptr f = fwrite (bitmap_bytes be width n ptr) f := by
  induction n generalizing ptr f with
  | zero => simp [write_bitmap_rows, bitmap_bytes]
  | succ k ih => simp only [write_bitmap_rows, bitmap_bytes, ih, fwrite_fwrite]

/-- With a row of fewer than `2^30` samples the buffer of `WriteBitmap` is allocated. -/
theorem bitmap_malloc_ok (width : Nat) (h : width < 2 ^ 30) :
    malloc_fails (int_bufsize width 2) = false :=
  malloc_fails_of_lt width 2 (by omega)

/-- From `2^30` samples in a row on, below the limit of an `int`, it is not. -/
theorem bitmap_malloc_fails (width : Nat) (h1 : 2 ^ 30 ≤ width) (h2 : width < 2 ^ 31) :
    malloc_fails (int_bufsize width 2) = true :=
  malloc_fails_of_ge width 2 (by omega) (by omega)

theorem bitmap_written_of_lt (be : Bool) (width height : Nat) (data : List Float32)
    (h : width < 2 ^ 30) :
    bitmap_written be width height data = bitmap_bytes be width height data := by
  rw [bitmap_written, bitmap_malloc_ok width h]
  rfl

theorem bitmap_written_of_ge (be : Bool) (width height : Nat) (data : List Float32)
    (h1 : 2 ^ 30 ≤ width) (h2 : width < 2 ^ 31) :
    bitmap_written be width height data = [] := by
  rw [bitmap_written, bitmap_malloc_fails width h1 h2]
  rfl

/-- The file that `WriteBitmap` leaves. -/
theorem WriteBitmap_fst (be : Bool) (f : FileState) (width height : Nat) (data : List Float32) :
    (WriteBitmap be f width height data).1 = fwrite (bitmap_written be width height data) f := by
  unfold WriteBitmap bitmap_written
  split
  · rw [fwrite_nil]
  · rw [write_bitmap_rows_eq_fwrite]

/-- The value that `WriteBitmap` returns. -/
theorem WriteBitmap_snd (be : Bool) (f : FileState) (width height : Nat) (data : List Float32) :
    (WriteBitmap be f width height data).2
      = if malloc_fails (int_bufsize width 2) then -2 else 0 := by
  unfold WriteBitmap
  split <;> rfl

theorem bitmap_written_of_ok (be : Bool) (width height : Nat) (data : List Float32)
    (h : malloc_fails (int_bufsize width 2) = false) :
    bitmap_written be width height data = bitmap_bytes be width height data := by
  rw [bitmap_written, h]
  rfl

/-- The value returned is 0 exactly when the buffer is allocated. -/
theorem malloc_ok_of_err (width : Nat)
    (h : (if malloc_fails (int_bufsize width 2) then (-2 : Int) else 0) = 0) :
    malloc_fails (int_bufsize width 2) = false := by
  cases hm : malloc_fails (int_bufsize width 2)
  · rfl
  · rw [hm] at h
    cases h

theorem patch_and_payload_snd (be : Bool) (s : FileState) (off width height : Nat)
    (data : List Float32) :
    (patch_and_payload be s off width height data).2
      = if malloc_fails (int_bufsize width 2) then -2 else 0 := by
  unfold patch_and_payload
  exact WriteBitmap_snd be _ width height data

theorem patch_and_payload_spec (be : Bool) (s : FileState) (off width height : Nat)
    (data : List Float32) (hoff : off + 4 ≤ s.pos) :
    (∀ i, i < s.pos → (i < off ∨ off + 4 ≤ i) →
        byte_at (patch_and_payload be s off width height data).1.bytes i = byte_at s.bytes i)
    ∧ read_uint be (patch_and_payload be s off width height data).1.bytes off 4 = s.pos % 256 ^ 4
    ∧ (∀ j, j < (bitmap_written be width height data).length →
        byte_at (patch_and_payload be s off width height data).1.bytes (s.pos + j)
          = byte_at (bitmap_written be width height data) j)
    ∧ (patch_and_payload be s off width height data).1.pos
        = s.pos + (bitmap_written be width height data).length := by
  simp only [patch_and_payload, WriteBitmap_fst, WriteLong]
  refine ⟨?_, ?_, ?_, ?_⟩
  · intro i hi hout
    rw [byte_at_fwrite, if_pos (by simpa using hi), fseek_set_bytes, byte_at_fwrite]
    simp only [fseek_set_pos, fseek_set_bytes, length_host_bytes]
    rcases hout with h | h
    · rw [if_pos h]
    · rw [if_neg (by omega), if_neg (by omega)]
  · apply read_uint_host_bytes
    intro j hj
    rw [byte_at_fwrite, if_pos (by simp only [fseek_set_pos]; omega), fseek_set_bytes]
    exact fwrite_written _ (fseek_set s off) j (by simpa using hj)
  · intro j hj
    exact fwrite_written _ (fseek_set _ s.pos) j hj
  · simp

theorem EntryStep.weaken {be : Bool} {tag lo hi hi2 : Nat} {op : FileState → FileState}
    (h : EntryStep be tag lo hi op) (hle : hi ≤ hi2) : EntryStep be tag lo hi2 op := by
  intro f
  obtain ⟨h1, h2, h3, h4⟩ := h f
  exact ⟨h1, by omega, h3, h4⟩

theorem tiff_plain_step (be : Bool) (tag type length offset : Nat) (ht : tag < 65536) :
    EntryStep be (TiffCall.plain tag type length offset).tagId 12 13
      (fun f => TiffCall.run be f (.plain tag type length offset)) := by
  have h := (plain_entry_step be tag type length offset).weaken (show 12 ≤ 13 by omega)
  rw [show tag % 256 ^ 2 = tag from Nat.mod_eq_of_lt (by omega)] at h
  exact h

theorem bigtiff_plain_step (be : Bool) (tag type length offset : Nat) (ht : tag < 65536) :
    EntryStep be (BigTiffCall.plain tag type length offset).tagId 20 21
      (fun f => BigTiffCall.run be f (.plain tag type length offset)) := by
  have h := (big_plain_entry_step be tag type length offset).weaken (show 20 ≤ 21 by omega)
  rw [show tag % 256 ^ 2 = tag from Nat.mod_eq_of_lt (by omega)] at h
  exact h

theorem bigtiff_rational_step (be : Bool) (tag num den : Nat) (ht : tag < 65536) :
    EntryStep be (BigTiffCall.rational tag num den).tagId 20 21
      (fun f => BigTiffCall.run be f (.rational tag num den)) := by
  have h := (big_rational_entry_step be tag num den).weaken (show 20 ≤ 21 by omega)
  rw [show tag % 256 ^ 2 = tag from Nat.mod_eq_of_lt (by omega)] at h
  exact h

theorem tiff_calls_entry_steps (be : Bool) (width height : Nat) (sw : Option (List Byte)) :
    ∀ c ∈ tiff_calls width height sw,
      EntryStep be c.tagId 12 13 (fun f => TiffCall.run be f c) := by
  intro c hc
  simp only [tiff_calls, tiff_calls_a, tiff_calls_b, List.mem_append, List.mem_cons,
    List.mem_singleton, List.not_mem_nil, or_false] at hc
  rcases hc with (h | h | h | h | h | h) | ((h | h | h | h | h | h) | h) | h
  any_goals (subst h; exact tiff_plain_step be _ _ _ _ (by decide))
  by_cases hs : software_count sw ≠ 0
  · rw [if_pos hs, List.mem_singleton] at h
    subst h
    rw [software_count_eq sw hs]
    exact ascii_entry_step be Software _ _
  · rw [if_neg hs] at h
    exact absurd h (List.not_mem_nil _)

theorem bigtiff_calls_entry_steps (be : Bool) (width height : Nat) (sw : Option (List Byte)) :
    ∀ c ∈ bigtiff_calls width height sw,
      EntryStep be c.tagId 20 21 (fun f => BigTiffCall.run be f c) := by
  intro c hc
  simp only [bigtiff_calls, bigtiff_calls_a, bigtiff_calls_b, List.mem_append, List.mem_cons,
    List.mem_singleton, List.not_mem_nil, or_false] at hc
  rcases hc with (h | h | h | h | h | h) | ((h | h | h | h | h | h) | h) | h
  any_goals (subst h; first | exact bigtiff_plain_step be _ _ _ _ (by decide)
                            | exact bigtiff_rational_step be _ _ _ (by decide))
  by_cases hs : software_count sw ≠ 0
  · rw [if_pos hs, List.mem_singleton] at h
    subst h
    rw [software_count_eq sw hs]
    exact big_ascii_entry_step be Software _ _
  · rw [if_neg hs] at h
    exact absurd h (List.not_mem_nil _)

theorem step_positions_append {α : Type} (run : FileState → α → FileState) (f : FileState)
    (a b : List α) :
    step_positions run f (a ++ b) = step_positions run f a ++ step_positions run (a.foldl run f) b := by
  induction a generalizing f with
  | nil => rfl
  | cons c cs ih =>
    show f.pos :: step_positions run (run f c) (cs ++ b) = _
    rw [ih]
    rfl

theorem length_step_positions {α : Type} (run : FileState → α → FileState) (f : FileState)
    (a : List α) : (step_positions run f a).length = a.length := by
  induction a generalizing f with
  | nil => rfl
  | cons c cs ih => simp only [step_positions, List.length_cons, ih]

theorem tags_in_finished_file {α : Type} (be : Bool) (run : FileState → α → FileState)
    (tag : α → Nat) (lo hi : Nat) (hlo : 2 ≤ lo) (a b : List α)
    (hall : ∀ c ∈ a ++ b, EntryStep be (tag c) lo hi (fun f => run f c)) (f0 : FileState)
    (z : List Byte) (off width height : Nat) (data : List Float32)
    (hoff1 : off + 4 ≤ (a.foldl run f0).pos) (hoff2 : (a.foldl run f0).pos + 2 ≤ off + lo) :
    ∀ x ∈ (step_positions run f0 (a ++ b)).zip ((a ++ b).map tag),
      read_uint be
        (patch_and_payload be (fwrite z ((a ++ b).foldl run f0)) off width height data).1.bytes
        x.1 2 = x.2 := by
  obtain ⟨a1, _, _, a4, _, _⟩ := steps_spec be run tag lo hi hlo a
    (fun c hc => hall c (List.mem_append_left _ hc)) f0
  obtain ⟨b1, _, b3, b4, _, _⟩ := steps_spec be run tag lo hi hlo b
    (fun c hc => hall c (List.mem_append_right _ hc)) (a.foldl run f0)
  have hpos : (a.foldl run f0).pos ≤ (b.foldl run (a.foldl run f0)).pos := by
    have : 0 ≤ lo * b.length := Nat.zero_le _
    omega
  have hsplit : (step_positions run f0 (a ++ b)).zip ((a ++ b).map tag)
      = (step_positions run f0 a).zip (a.map tag)
        ++ (step_positions run (a.foldl run f0) b).zip (b.map tag) := by
    rw [step_positions_append, List.map_append, List.zip_append]
    rw [length_step_positions, List.length_map]
  have hz : Untouched (b.foldl run (a.foldl run f0)).pos (b.foldl run (a.foldl run f0))
      (fwrite z (b.foldl run (a.foldl run f0))) := fwrite_untouched _ _
  obtain ⟨p1, _, _, _⟩ := patch_and_payload_spec be (fwrite z (b.foldl run (a.foldl run f0))) off
    width height data (by rw [fwrite_pos]; omega)
  have key : ∀ p, p + 2 ≤ (b.foldl run (a.foldl run f0)).pos → (p + 2 ≤ off ∨ off + 4 ≤ p) →
      read_uint be (patch_and_payload be (fwrite z (b.foldl run (a.foldl run f0))) off width
        height data).1.bytes p 2 = read_uint be (b.foldl run (a.foldl run f0)).bytes p 2 := by
    intro p hp hout
    rw [← read_uint_untouched be hz p 2 hp]
    apply read_uint_congr
    intro i hi1 hi2
    exact p1 i (by rw [fwrite_pos]; omega) (by omega)
  intro x hx
  rw [hsplit, List.mem_append] at hx
  rw [List.foldl_append]
  rcases hx with hx | hx
  · obtain ⟨_, j2, j3⟩ := a4 x hx
    rw [key x.1 (by omega) (Or.inl (by omega)), read_uint_untouched be b3 x.1 2 (by omega), j3]
  · obtain ⟨j1, j2, j3⟩ := b4 x hx
    rw [key x.1 (by omega) (Or.inr (by omega)), j3]

/-! ## TIFF encoder: the directory -/

theorem tiff_directory_eq (be : Bool) (hFile : FileState) (width height : Nat)
    (sw : Option (List Byte)) :
    tiff_directory be hFile width height sw
      = (fwrite (host_bytes be 4 0)
          ((tiff_calls width height sw).foldl (TiffCall.run be) (tiff_before_entries be hFile sw)),
         (tiff_before_entries be hFile sw).pos + 68) := by
  simp only [tiff_directory, tiff_calls, run_calls, List.foldl_append, WriteLong,
    tiff_before_entries, Prod.mk.injEq, true_and]
  simp only [tiff_calls_a, List.foldl_cons, List.foldl_nil, TiffCall.run, WriteTIFFTag_eq_fwrite,
    fwrite_pos, length_tiff_entry_bytes]
  omega

theorem bigtiff_directory_eq (be : Bool) (hFile : FileState) (width height : Nat)
    (sw : Option (List Byte)) :
    bigtiff_directory be hFile width height sw
      = (fwrite (host_bytes be 8 0)
          ((bigtiff_calls width height sw).foldl (BigTiffCall.run be)
            (bigtiff_before_entries be hFile sw)),
         (bigtiff_before_entries be hFile sw).pos + 112) := by
  simp only [bigtiff_directory, bigtiff_calls, run_big_calls, List.foldl_append, Write8Byte,
    bigtiff_before_entries, Prod.mk.injEq, true_and]
  simp only [bigtiff_calls_a, List.foldl_cons, List.foldl_nil, BigTiffCall.run,
    WriteBigTIFFTag_eq_fwrite, fwrite_pos, length_bigtiff_entry_bytes]
  omega

/-! ## The files of the examples, byte for byte -/

/-- The directory of the classic file of a 1x1 image without software string on a little-endian host, byte for byte. -/
theorem tiff_directory_one_pixel :
    tiff_directory false ⟨[], 0⟩ 1 1 none =
      (⟨
      [73, 73, 42, 0, 26, 0, 0, 0, 128, 252, 10, 0, 16, 39, 0, 0, 128, 252, 10, 0, 16, 39, 0, 0, 0,
       0, 13, 0, 0, 1, 4, 0, 1, 0, 0, 0, 1, 0, 0, 0, 1, 1, 4, 0, 1, 0, 0, 0, 1, 0, 0, 0, 2, 1, 3, 0,
       1, 0, 0, 0, 16, 0, 0, 0, 3, 1, 3, 0, 1, 0, 0, 0, 1, 0, 0, 0, 6, 1, 3, 0, 1, 0, 0, 0, 1, 0, 0,
       0, 17, 1, 4, 0, 1, 0, 0, 0, 0, 0, 0, 0, 21, 1, 3, 0, 1, 0, 0, 0, 1, 0, 0, 0, 22, 1, 4, 0, 1,
       0, 0, 0, 1, 0, 0, 0, 23, 1, 4, 0, 1, 0, 0, 0, 2, 0, 0, 0, 26, 1, 5, 0, 1, 0, 0, 0, 8, 0, 0,
       0, 27, 1, 5, 0, 1, 0, 0, 0, 16, 0, 0, 0, 40, 1, 3, 0, 1, 0, 0, 0, 2, 0, 0, 0, 83, 1, 3, 0, 1,
       0, 0, 0, 1, 0, 0, 0, 0, 0, 0, 0], 188⟩, 96) := by
  have hc : tiff_calls 1 1 none
      = [.plain ImageWidth TIFFlong 1 1, .plain ImageLength TIFFlong 1 1,
         .plain BitsPerSample TIFFshort 1 16, .plain Compression TIFFshort 1 1,
         .plain PhotometricInterp TIFFshort 1 PHOTOMETRIC_MINISBLACK,
         .plain StripOffsets TIFFlong 1 0, .plain SamplesPerPixel TIFFshort 1 1,
         .plain RowsPerStrip TIFFlong 1 1,
         .plain StripByteCounts TIFFlong 1 (write_count 1 1),
         .plain XResolution TIFFrational 1 8, .plain YResolution TIFFrational 1 16,
         .plain ResolutionUnit TIFFshort 1 2,
         .plain TIFFTAG_SAMPLEFORMAT TIFFshort 1 SAMPLEFORMAT_UINT] := by decide
  rw [tiff_directory_eq, hc]
  simp only [List.foldl_cons, List.foldl_nil, TiffCall.run, WriteTIFFTag_eq_fwrite,
    WriteTIFFAsciiTag, WriteString_eq_fwrite, tiff_before_entries, tiff_header_eq_fwrite,
    WriteWord, fwrite_fwrite, Nat.reduceLeDiff, Nat.reduceGT, if_false]
  decide

/-- The classic file of the 1x1 image 100.0 without software string on a little-endian host, byte for byte. -/
theorem tiff_one_pixel :
    WriteGrayscale16BitToTIFF false ⟨[], 0⟩ 1 1 [1120403456] none =
      ⟨⟨
      [73, 73, 42, 0, 26, 0, 0, 0, 128, 252, 10, 0, 16, 39, 0, 0, 128, 252, 10, 0, 16, 39, 0, 0, 0,
       0, 13, 0, 0, 1, 4, 0, 1, 0, 0, 0, 1, 0, 0, 0, 1, 1, 4, 0, 1, 0, 0, 0, 1, 0, 0, 0, 2, 1, 3, 0,
       1, 0, 0, 0, 16, 0, 0, 0, 3, 1, 3, 0, 1, 0, 0, 0, 1, 0, 0, 0, 6, 1, 3, 0, 1, 0, 0, 0, 1, 0, 0,
       0, 17, 1, 4, 0, 1, 0, 0, 0, 188, 0, 0, 0, 21, 1, 3, 0, 1, 0, 0, 0, 1, 0, 0, 0, 22, 1, 4, 0,
       1, 0, 0, 0, 1, 0, 0, 0, 23, 1, 4, 0, 1, 0, 0, 0, 2, 0, 0, 0, 26, 1, 5, 0, 1, 0, 0, 0, 8, 0,
       0, 0, 27, 1, 5, 0, 1, 0, 0, 0, 16, 0, 0, 0, 40, 1, 3, 0, 1, 0, 0, 0, 2, 0, 0, 0, 83, 1, 3, 0,
       1, 0, 0, 0, 1, 0, 0, 0, 0, 0, 0, 0, 100, 0], 190⟩, 190, 0⟩ := by
  simp only [WriteGrayscale16BitToTIFF, tiff_directory_one_pixel]
  decide

/-- The directory of the classic file of one row of `2^30` samples without software string on a little-endian host, byte for byte. -/
theorem tiff_directory_wide_row :
    tiff_directory false ⟨[], 0⟩ 1073741824 1 none =
      (⟨
      [73, 73, 42, 0, 26, 0, 0, 0, 128, 252, 10, 0, 16, 39, 0, 0, 128, 252, 10, 0, 16, 39, 0, 0, 0,
       0, 13, 0, 0, 1, 4, 0, 1, 0, 0, 0, 0, 0, 0, 64, 1, 1, 4, 0, 1, 0, 0, 0, 1, 0, 0, 0, 2, 1, 3,
       0, 1, 0, 0, 0, 16, 0, 0, 0, 3, 1, 3, 0, 1, 0, 0, 0, 1, 0, 0, 0, 6, 1, 3, 0, 1, 0, 0, 0, 1, 0,
       0, 0, 17, 1, 4, 0, 1, 0, 0, 0, 0, 0, 0, 0, 21, 1, 3, 0, 1, 0, 0, 0, 1, 0, 0, 0, 22, 1, 4, 0,
       1, 0, 0, 0, 1, 0, 0, 0, 23, 1, 4, 0, 1, 0, 0, 0, 0, 0, 0, 128, 26, 1, 5, 0, 1, 0, 0, 0, 8, 0,
       0, 0, 27, 1, 5, 0, 1, 0, 0, 0, 16, 0, 0, 0, 40, 1, 3, 0, 1, 0, 0, 0, 2, 0, 0, 0, 83, 1, 3, 0,
       1, 0, 0, 0, 1, 0, 0, 0, 0, 0, 0, 0], 188⟩, 96) := by
  have hc : tiff_calls 1073741824 1 none
      = [.plain ImageWidth TIFFlong 1 1073741824, .plain ImageLength TIFFlong 1 1,
         .plain BitsPerSample TIFFshort 1 16, .plain Compression TIFFshort 1 1,
         .plain PhotometricInterp TIFFshort 1 PHOTOMETRIC_MINISBLACK,
         .plain StripOffsets TIFFlong 1 0, .plain SamplesPerPixel TIFFshort 1 1,
         .plain RowsPerStrip TIFFlong 1 1,
         .plain StripByteCounts TIFFlong 1 (write_count 1073741824 1),
         .plain XResolution TIFFrational 1 8, .plain YResolution TIFFrational 1 16,
         .plain ResolutionUnit TIFFshort 1 2,
         .plain TIFFTAG_SAMPLEFORMAT TIFFshort 1 SAMPLEFORMAT_UINT] := by decide
  rw [tiff_directory_eq, hc]
  simp only [List.foldl_cons, List.foldl_nil, TiffCall.run, WriteTIFFTag_eq_fwrite,
    WriteTIFFAsciiTag, WriteString_eq_fwrite, tiff_before_entries, tiff_header_eq_fwrite,
    WriteWord, fwrite_fwrite, Nat.reduceLeDiff, Nat.reduceGT, if_false]
  decide

/-- The directory of the BigTIFF file of a 1x1 image without software string on a little-endian host, byte for byte. -/
theorem bigtiff_directory_one_pixel :
    bigtiff_directory false ⟨[], 0⟩ 1 1 none =
      (⟨
      [73, 73, 43, 0, 8, 0, 0, 0, 26, 0, 0, 0, 0, 0, 0, 0, 0, 0, 0, 0, 0, 0, 0, 0, 0, 0, 13, 0, 0,
       0, 0, 0, 0, 0, 0, 1, 4, 0, 1, 0, 0, 0, 0, 0, 0, 0, 1, 0, 0, 0, 0, 0, 0, 0, 1, 1, 4, 0, 1, 0,
       0, 0, 0, 0, 0, 0, 1, 0, 0, 0, 0, 0, 0, 0, 2, 1, 3, 0, 1, 0, 0, 0, 0, 0, 0, 0, 16, 0, 0, 0, 0,
       0, 0, 0, 3, 1, 3, 0, 1, 0, 0, 0, 0, 0, 0, 0, 1, 0, 0, 0, 0, 0, 0, 0, 6, 1, 3, 0, 1, 0, 0, 0,
       0, 0, 0, 0, 1, 0, 0, 0, 0, 0, 0, 0, 17, 1, 4, 0, 1, 0, 0, 0, 0, 0, 0, 0, 0, 0, 0, 0, 0, 0, 0,
       0, 21, 1, 3, 0, 1, 0, 0, 0, 0, 0, 0, 0, 1, 0, 0, 0, 0, 0, 0, 0, 22, 1, 4, 0, 1, 0, 0, 0, 0,
       0, 0, 0, 1, 0, 0, 0, 0, 0, 0, 0, 23, 1, 16, 0, 1, 0, 0, 0, 0, 0, 0, 0, 2, 0, 0, 0, 0, 0, 0,
       0, 26, 1, 5, 0, 1, 0, 0, 0, 0, 0, 0, 0, 128, 252, 10, 0, 16, 39, 0, 0, 27, 1, 5, 0, 1, 0, 0,
       0, 0, 0, 0, 0, 128, 252, 10, 0, 16, 39, 0, 0, 40, 1, 3, 0, 1, 0, 0, 0, 0, 0, 0, 0, 2, 0, 0,
       0, 0, 0, 0, 0, 83, 1, 3, 0, 1, 0, 0, 0, 0, 0, 0, 0, 1, 0, 0, 0, 0, 0, 0, 0, 0, 0, 0, 0, 0, 0,
       0, 0], 302⟩, 146) := by
  have hc : bigtiff_calls 1 1 none
      = [.plain ImageWidth TIFFlong 1 1, .plain ImageLength TIFFlong 1 1,
         .plain BitsPerSample TIFFshort 1 16, .plain Compression TIFFshort 1 1,
         .plain PhotometricInterp TIFFshort 1 PHOTOMETRIC_MINISBLACK,
         .plain StripOffsets TIFFlong 1 0, .plain SamplesPerPixel TIFFshort 1 1,
         .plain RowsPerStrip TIFFlong 1 1,
         .plain StripByteCounts TIFFlong8 1 (write_count 1 1),
         .rational XResolution (72 * 0x02710) 0x02710,
         .rational YResolution (72 * 0x02710) 0x02710,
         .plain ResolutionUnit TIFFshort 1 2,
         .plain TIFFTAG_SAMPLEFORMAT TIFFshort 1 SAMPLEFORMAT_UINT] := by decide
  rw [bigtiff_directory_eq, hc]
  simp only [List.foldl_cons, List.foldl_nil, BigTiffCall.run, WriteBigTIFFTag_eq_fwrite,
    WriteBigTIFFAsciiTag, WriteString_eq_fwrite, bigtiff_before_entries,
    bigtiff_header_eq_fwrite, Write8Byte, WriteLong, fwrite_fwrite, Nat.reduceLeDiff,
    Nat.reduceGT, if_false]
  decide

/-- The BigTIFF file of the 1x1 image 100.0 without software string on a little-endian host, byte for byte. -/
theorem bigtiff_one_pixel :
    WriteGrayscale16BitToBigTIFF false ⟨[], 0⟩ 1 1 [1120403456] none =
      ⟨⟨
      [73, 73, 43, 0, 8, 0, 0, 0, 26, 0, 0, 0, 0, 0, 0, 0, 0, 0, 0, 0, 0, 0, 0, 0, 0, 0, 13, 0, 0,
       0, 0, 0, 0, 0, 0, 1, 4, 0, 1, 0, 0, 0, 0, 0, 0, 0, 1, 0, 0, 0, 0, 0, 0, 0, 1, 1, 4, 0, 1, 0,
       0, 0, 0, 0, 0, 0, 1, 0, 0, 0, 0, 0, 0, 0, 2, 1, 3, 0, 1, 0, 0, 0, 0, 0, 0, 0, 16, 0, 0, 0, 0,
       0, 0, 0, 3, 1, 3, 0, 1, 0, 0, 0, 0, 0, 0, 0, 1, 0, 0, 0, 0, 0, 0, 0, 6, 1, 3, 0, 1, 0, 0, 0,
       0, 0, 0, 0, 1, 0, 0, 0, 0, 0, 0, 0, 17, 1, 4, 0, 1, 0, 0, 0, 0, 0, 0, 0, 46, 1, 0, 0, 0, 0,
       0, 0, 21, 1, 3, 0, 1, 0, 0, 0, 0, 0, 0, 0, 1, 0, 0, 0, 0, 0, 0, 0, 22, 1, 4, 0, 1, 0, 0, 0,
       0, 0, 0, 0, 1, 0, 0, 0, 0, 0, 0, 0, 23, 1, 16, 0, 1, 0, 0, 0, 0, 0, 0, 0, 2, 0, 0, 0, 0, 0,
       0, 0, 26, 1, 5, 0, 1, 0, 0, 0, 0, 0, 0, 0, 128, 252, 10, 0, 16, 39, 0, 0, 27, 1, 5, 0, 1, 0,
       0, 0, 0, 0, 0, 0, 128, 252, 10, 0, 16, 39, 0, 0, 40, 1, 3, 0, 1, 0, 0, 0, 0, 0, 0, 0, 2, 0,
       0, 0, 0, 0, 0, 0, 83, 1, 3, 0, 1, 0, 0, 0, 0, 0, 0, 0, 1, 0, 0, 0, 0, 0, 0, 0, 0, 0, 0, 0, 0,
       0, 0, 0, 100, 0], 304⟩, 304, 0⟩ := by
  simp only [WriteGrayscale16BitToBigTIFF, bigtiff_directory_one_pixel]
  decide

/-- The directory of the classic file of a 1x1 image with the software string `a` on a little-endian host, byte for byte. -/
theorem tiff_directory_one_pixel_a :
    tiff_directory false ⟨[], 0⟩ 1 1 (some [97]) =
      (⟨
      [73, 73, 42, 0, 26, 0, 0, 0, 128, 252, 10, 0, 16, 39, 0, 0, 128, 252, 10, 0, 16, 39, 0, 0, 97,
       0, 0, 14, 0, 0, 1, 4, 0, 1, 0, 0, 0, 1, 0, 0, 0, 1, 1, 4, 0, 1, 0, 0, 0, 1, 0, 0, 0, 2, 1, 3,
       0, 1, 0, 0, 0, 16, 0, 0, 0, 3, 1, 3, 0, 1, 0, 0, 0, 1, 0, 0, 0, 6, 1, 3, 0, 1, 0, 0, 0, 1, 0,
       0, 0, 17, 1, 4, 0, 1, 0, 0, 0, 0, 0, 0, 0, 21, 1, 3, 0, 1, 0, 0, 0, 1, 0, 0, 0, 22, 1, 4, 0,
       1, 0, 0, 0, 1, 0, 0, 0, 23, 1, 4, 0, 1, 0, 0, 0, 2, 0, 0, 0, 26, 1, 5, 0, 1, 0, 0, 0, 8, 0,
       0, 0, 27, 1, 5, 0, 1, 0, 0, 0, 16, 0, 0, 0, 40, 1, 3, 0, 1, 0, 0, 0, 2, 0, 0, 0, 49, 1, 2, 0,
       2, 0, 0, 0, 97, 0, 0, 0, 0, 83, 1, 3, 0, 1, 0, 0, 0, 1, 0, 0, 0, 0, 0, 0, 0], 202⟩, 97) := by
  have hc : tiff_calls 1 1 (some [97])
      = [.plain ImageWidth TIFFlong 1 1, .plain ImageLength TIFFlong 1 1,
         .plain BitsPerSample TIFFshort 1 16, .plain Compression TIFFshort 1 1,
         .plain PhotometricInterp TIFFshort 1 PHOTOMETRIC_MINISBLACK,
         .plain StripOffsets TIFFlong 1 0, .plain SamplesPerPixel TIFFshort 1 1,
         .plain RowsPerStrip TIFFlong 1 1,
         .plain StripByteCounts TIFFlong 1 (write_count 1 1),
         .plain XResolution TIFFrational 1 8, .plain YResolution TIFFrational 1 16,
         .plain ResolutionUnit TIFFshort 1 2, .ascii Software [97] 2 24,
         .plain TIFFTAG_SAMPLEFORMAT TIFFshort 1 SAMPLEFORMAT_UINT] := by decide
  rw [tiff_directory_eq, hc]
  simp only [List.foldl_cons, List.foldl_nil, TiffCall.run, WriteTIFFTag_eq_fwrite,
    WriteTIFFAsciiTag, WriteString_eq_fwrite, tiff_before_entries, tiff_header_eq_fwrite,
    WriteWord, fwrite_fwrite, Nat.reduceLeDiff, Nat.reduceGT, if_false]
  decide

/-- The classic file of the 1x1 image 100.0 with the software string `a` on a little-endian host, byte for byte. -/
theorem tiff_one_pixel_a :
    WriteGrayscale16BitToTIFF false ⟨[], 0⟩ 1 1 [1120403456] (some [97]) =
      ⟨⟨
      [73, 73, 42, 0, 26, 0, 0, 0, 128, 252, 10, 0, 16, 39, 0, 0, 128, 252, 10, 0, 16, 39, 0, 0, 97,
       0, 0, 14, 0, 0, 1, 4, 0, 1, 0, 0, 0, 1, 0, 0, 0, 1, 1, 4, 0, 1, 0, 0, 0, 1, 0, 0, 0, 2, 1, 3,
       0, 1, 0, 0, 0, 16, 0, 0, 0, 3, 1, 3, 0, 1, 0, 0, 0, 1, 0, 0, 0, 6, 1, 3, 0, 1, 0, 0, 0, 1, 0,
       0, 0, 17, 1, 4, 0, 1, 0, 0, 0, 202, 0, 0, 0, 21, 1, 3, 0, 1, 0, 0, 0, 1, 0, 0, 0, 22, 1, 4,
       0, 1, 0, 0, 0, 1, 0, 0, 0, 23, 1, 4, 0, 1, 0, 0, 0, 2, 0, 0, 0, 26, 1, 5, 0, 1, 0, 0, 0, 8,
       0, 0, 0, 27, 1, 5, 0, 1, 0, 0, 0, 16, 0, 0, 0, 40, 1, 3, 0, 1, 0, 0, 0, 2, 0, 0, 0, 49, 1, 2,
       0, 2, 0, 0, 0, 97, 0, 0, 0, 0, 83, 1, 3, 0, 1, 0, 0, 0, 1, 0, 0, 0, 0, 0, 0, 0, 100, 0], 204⟩, 204, 0⟩ := by
  simp only [WriteGrayscale16BitToTIFF, tiff_directory_one_pixel_a]
  decide

/-- The directory of the BigTIFF file of a 1x1 image with the software string `a` on a little-endian host, byte for byte. -/
theorem bigtiff_directory_one_pixel_a :
    bigtiff_directory false ⟨[], 0⟩ 1 1 (some [97]) =
      (⟨
      [73, 73, 43, 0, 8, 0, 0, 0, 26, 0, 0, 0, 0, 0, 0, 0, 0, 0, 0, 0, 0, 0, 0, 0, 97, 0, 0, 14, 0,
       0, 0, 0, 0, 0, 0, 0, 1, 4, 0, 1, 0, 0, 0, 0, 0, 0, 0, 1, 0, 0, 0, 0, 0, 0, 0, 1, 1, 4, 0, 1,
       0, 0, 0, 0, 0, 0, 0, 1, 0, 0, 0, 0, 0, 0, 0, 2, 1, 3, 0, 1, 0, 0, 0, 0, 0, 0, 0, 16, 0, 0, 0,
       0, 0, 0, 0, 3, 1, 3, 0, 1, 0, 0, 0, 0, 0, 0, 0, 1, 0, 0, 0, 0, 0, 0, 0, 6, 1, 3, 0, 1, 0, 0,
       0, 0, 0, 0, 0, 1, 0, 0, 0, 0, 0, 0, 0, 17, 1, 4, 0, 1, 0, 0, 0, 0, 0, 0, 0, 0, 0, 0, 0, 0, 0,
       0, 0, 21, 1, 3, 0, 1, 0, 0, 0, 0, 0, 0, 0, 1, 0, 0, 0, 0, 0, 0, 0, 22, 1, 4, 0, 1, 0, 0, 0,
       0, 0, 0, 0, 1, 0, 0, 0, 0, 0, 0, 0, 23, 1, 16, 0, 1, 0, 0, 0, 0, 0, 0, 0, 2, 0, 0, 0, 0, 0,
       0, 0, 26, 1, 5, 0, 1, 0, 0, 0, 0, 0, 0, 0, 128, 252, 10, 0, 16, 39, 0, 0, 27, 1, 5, 0, 1, 0,
       0, 0, 0, 0, 0, 0, 128, 252, 10, 0, 16, 39, 0, 0, 40, 1, 3, 0, 1, 0, 0, 0, 0, 0, 0, 0, 2, 0,
       0, 0, 0, 0, 0, 0, 49, 1, 2, 0, 2, 0, 0, 0, 0, 0, 0, 0, 97, 0, 0, 0, 0, 0, 0, 0, 0, 83, 1, 3,
       0, 1, 0, 0, 0, 0, 0, 0, 0, 1, 0, 0, 0, 0, 0, 0, 0, 0, 0, 0, 0, 0, 0, 0, 0], 324⟩, 147) := by
  have hc : bigtiff_calls 1 1 (some [97])
      = [.plain ImageWidth TIFFlong 1 1, .plain ImageLength TIFFlong 1 1,
         .plain BitsPerSample TIFFshort 1 16, .plain Compression TIFFshort 1 1,
         .plain PhotometricInterp TIFFshort 1 PHOTOMETRIC_MINISBLACK,
         .plain StripOffsets TIFFlong 1 0, .plain SamplesPerPixel TIFFshort 1 1,
         .plain RowsPerStrip TIFFlong 1 1,
         .plain StripByteCounts TIFFlong8 1 (write_count 1 1),
         .rational XResolution (72 * 0x02710) 0x02710,
         .rational YResolution (72 * 0x02710) 0x02710,
         .plain ResolutionUnit TIFFshort 1 2, .ascii Software [97] 2 24,
         .plain TIFFTAG_SAMPLEFORMAT TIFFshort 1 SAMPLEFORMAT_UINT] := by decide
  rw [bigtiff_directory_eq, hc]
  simp only [List.foldl_cons, List.foldl_nil, BigTiffCall.run, WriteBigTIFFTag_eq_fwrite,
    WriteBigTIFFAsciiTag, WriteString_eq_fwrite, bigtiff_before_entries,
    bigtiff_header_eq_fwrite, Write8Byte, WriteLong, fwrite_fwrite, Nat.reduceLeDiff,
    Nat.reduceGT, if_false]
  decide

/-- The BigTIFF file of the 1x1 image 100.0 with the software string `a` on a little-endian host, byte for byte. -/
theorem bigtiff_one_pixel_a :
    WriteGrayscale16BitToBigTIFF false ⟨[], 0⟩ 1 1 [1120403456] (some [97]) =
      ⟨⟨
      [73, 73, 43, 0, 8, 0, 0, 0, 26, 0, 0, 0, 0, 0, 0, 0, 0, 0, 0, 0, 0, 0, 0, 0, 97, 0, 0, 14, 0,
       0, 0, 0, 0, 0, 0, 0, 1, 4, 0, 1, 0, 0, 0, 0, 0, 0, 0, 1, 0, 0, 0, 0, 0, 0, 0, 1, 1, 4, 0, 1,
       0, 0, 0, 0, 0, 0, 0, 1, 0, 0, 0, 0, 0, 0, 0, 2, 1, 3, 0, 1, 0, 0, 0, 0, 0, 0, 0, 16, 0, 0, 0,
       0, 0, 0, 0, 3, 1, 3, 0, 1, 0, 0, 0, 0, 0, 0, 0, 1, 0, 0, 0, 0, 0, 0, 0, 6, 1, 3, 0, 1, 0, 0,
       0, 0, 0, 0, 0, 1, 0, 0, 0, 0, 0, 0, 0, 17, 1, 4, 0, 1, 0, 0, 0, 0, 0, 0, 0, 68, 1, 0, 0, 0,
       0, 0, 0, 21, 1, 3, 0, 1, 0, 0, 0, 0, 0, 0, 0, 1, 0, 0, 0, 0, 0, 0, 0, 22, 1, 4, 0, 1, 0, 0,
       0, 0, 0, 0, 0, 1, 0, 0, 0, 0, 0, 0, 0, 23, 1, 16, 0, 1, 0, 0, 0, 0, 0, 0, 0, 2, 0, 0, 0, 0,
       0, 0, 0, 26, 1, 5, 0, 1, 0, 0, 0, 0, 0, 0, 0, 128, 252, 10, 0, 16, 39, 0, 0, 27, 1, 5, 0, 1,
       0, 0, 0, 0, 0, 0, 0, 128, 252, 10, 0, 16, 39, 0, 0, 40, 1, 3, 0, 1, 0, 0, 0, 0, 0, 0, 0, 2,
       0, 0, 0, 0, 0, 0, 0, 49, 1, 2, 0, 2, 0, 0, 0, 0, 0, 0, 0, 97, 0, 0, 0, 0, 0, 0, 0, 0, 83, 1,
       3, 0, 1, 0, 0, 0, 0, 0, 0, 0, 1, 0, 0, 0, 0, 0, 0, 0, 0, 0, 0, 0, 0, 0, 0, 0, 100, 0], 326⟩, 326, 0⟩ := by
  simp only [WriteGrayscale16BitToBigTIFF, bigtiff_directory_one_pixel_a]
  decide

/-- The directory of the classic file of a 1x1 image with the software string `ab` on a little-endian host, byte for byte. -/
theorem tiff_directory_one_pixel_ab :
    tiff_directory false ⟨[], 0⟩ 1 1 (some [97, 98]) =
      (⟨
      [73, 73, 42, 0, 28, 0, 0, 0, 128, 252, 10, 0, 16, 39, 0, 0, 128, 252, 10, 0, 16, 39, 0, 0, 97,
       98, 0, 0, 14, 0, 0, 1, 4, 0, 1, 0, 0, 0, 1, 0, 0, 0, 1, 1, 4, 0, 1, 0, 0, 0, 1, 0, 0, 0, 2,
       1, 3, 0, 1, 0, 0, 0, 16, 0, 0, 0, 3, 1, 3, 0, 1, 0, 0, 0, 1, 0, 0, 0, 6, 1, 3, 0, 1, 0, 0, 0,
       1, 0, 0, 0, 17, 1, 4, 0, 1, 0, 0, 0, 0, 0, 0, 0, 21, 1, 3, 0, 1, 0, 0, 0, 1, 0, 0, 0, 22, 1,
       4, 0, 1, 0, 0, 0, 1, 0, 0, 0, 23, 1, 4, 0, 1, 0, 0, 0, 2, 0, 0, 0, 26, 1, 5, 0, 1, 0, 0, 0,
       8, 0, 0, 0, 27, 1, 5, 0, 1, 0, 0, 0, 16, 0, 0, 0, 40, 1, 3, 0, 1, 0, 0, 0, 2, 0, 0, 0, 49, 1,
       2, 0, 3, 0, 0, 0, 97, 98, 0, 0, 83, 1, 3, 0, 1, 0, 0, 0, 1, 0, 0, 0, 0, 0, 0, 0], 202⟩, 98) := by
  have hc : tiff_calls 1 1 (some [97, 98])
      = [.plain ImageWidth TIFFlong 1 1, .plain ImageLength TIFFlong 1 1,
         .plain BitsPerSample TIFFshort 1 16, .plain Compression TIFFshort 1 1,
         .plain PhotometricInterp TIFFshort 1 PHOTOMETRIC_MINISBLACK,
         .plain StripOffsets TIFFlong 1 0, .plain SamplesPerPixel TIFFshort 1 1,
         .plain RowsPerStrip TIFFlong 1 1,
         .plain StripByteCounts TIFFlong 1 (write_count 1 1),
         .plain XResolution TIFFrational 1 8, .plain YResolution TIFFrational 1 16,
         .plain ResolutionUnit TIFFshort 1 2, .ascii Software [97, 98] 3 24,
         .plain TIFFTAG_SAMPLEFORMAT TIFFshort 1 SAMPLEFORMAT_UINT] := by decide
  rw [tiff_directory_eq, hc]
  simp only [List.foldl_cons, List.foldl_nil, TiffCall.run, WriteTIFFTag_eq_fwrite,
    WriteTIFFAsciiTag, WriteString_eq_fwrite, tiff_before_entries, tiff_header_eq_fwrite,
    WriteWord, fwrite_fwrite, Nat.reduceLeDiff, Nat.reduceGT, if_false]
  decide

/-- The classic file of the 1x1 image 100.0 with the software string `ab` on a little-endian host, byte for byte. -/
theorem tiff_one_pixel_ab :
    WriteGrayscale16BitToTIFF false ⟨[], 0⟩ 1 1 [1120403456] (some [97, 98]) =
      ⟨⟨
      [73, 73, 42, 0, 28, 0, 0, 0, 128, 252, 10, 0, 16, 39, 0, 0, 128, 252, 10, 0, 16, 39, 0, 0, 97,
       98, 0, 0, 14, 0, 0, 1, 4, 0, 1, 0, 0, 0, 1, 0, 0, 0, 1, 1, 4, 0, 1, 0, 0, 0, 1, 0, 0, 0, 2,
       1, 3, 0, 1, 0, 0, 0, 16, 0, 0, 0, 3, 1, 3, 0, 1, 0, 0, 0, 1, 0, 0, 0, 6, 1, 3, 0, 1, 0, 0, 0,
       1, 0, 0, 0, 17, 1, 4, 0, 1, 0, 0, 0, 202, 0, 0, 0, 21, 1, 3, 0, 1, 0, 0, 0, 1, 0, 0, 0, 22,
       1, 4, 0, 1, 0, 0, 0, 1, 0, 0, 0, 23, 1, 4, 0, 1, 0, 0, 0, 2, 0, 0, 0, 26, 1, 5, 0, 1, 0, 0,
       0, 8, 0, 0, 0, 27, 1, 5, 0, 1, 0, 0, 0, 16, 0, 0, 0, 40, 1, 3, 0, 1, 0, 0, 0, 2, 0, 0, 0, 49,
       1, 2, 0, 3, 0, 0, 0, 97, 98, 0, 0, 83, 1, 3, 0, 1, 0, 0, 0, 1, 0, 0, 0, 0, 0, 0, 0, 100, 0], 204⟩, 204, 0⟩ := by
  simp only [WriteGrayscale16BitToTIFF, tiff_directory_one_pixel_ab]
  decide

theorem tiff_calls_a_pos (be : Bool) (f : FileState) (width height : Nat) :
    ((tiff_calls_a width height).foldl (TiffCall.run be) f).pos = f.pos + 72 := by
  simp only [tiff_calls_a, List.foldl_cons, List.foldl_nil, TiffCall.run, WriteTIFFTag_eq_fwrite,
    fwrite_pos, length_tiff_entry_bytes]

theorem bigtiff_calls_a_pos (be : Bool) (f : FileState) (width height : Nat) :
    ((bigtiff_calls_a width height).foldl (BigTiffCall.run be) f).pos = f.pos + 120 := by
  simp only [bigtiff_calls_a, List.foldl_cons, List.foldl_nil, BigTiffCall.run,
    WriteBigTIFFTag_eq_fwrite, fwrite_pos, length_bigtiff_entry_bytes]

theorem tiff_tag_ids_ascending (width height : Nat) (sw : Option (List Byte)) :
    ((tiff_calls width height sw).map TiffCall.tagId).Pairwise (· < ·) := by
  by_cases h : software_count sw ≠ 0
  · simp only [tiff_calls, tiff_calls_a, tiff_calls_b, h, if_true, List.map_append, List.map_cons,
      List.map_nil, TiffCall.tagId, not_false_eq_true, ne_eq]
    decide
  · simp only [tiff_calls, tiff_calls_a, tiff_calls_b, h, if_false, List.map_append,
      List.map_cons, List.map_nil, TiffCall.tagId]
    decide

theorem bigtiff_tag_ids_ascending (width height : Nat) (sw : Option (List Byte)) :
    ((bigtiff_calls width height sw).map BigTiffCall.tagId).Pairwise (· < ·) := by
  by_cases h : software_count sw ≠ 0
  · simp only [bigtiff_calls, bigtiff_calls_a, bigtiff_calls_b, h, if_true, List.map_append,
      List.map_cons, List.map_nil, BigTiffCall.tagId, not_false_eq_true, ne_eq]
    decide
  · simp only [bigtiff_calls, bigtiff_calls_a, bigtiff_calls_b, h, if_false, List.map_append,
      List.map_cons, List.map_nil, BigTiffCall.tagId]
    decide

/-- C7. In both encoders the tag IDs of the entry-writing calls, in the order of execution,
are strictly increasing; the calls start at strictly increasing file positions; and the
finished file holds, in the two bytes at the position where each call started, the tag ID
of that call.  (The classic file is the outcome when the size check of line 384 does not
divert to BigTIFF.) -/
theorem ifd_tags_strictly_increasing (be : Bool) (hFile : FileState) (width height : Nat)
    (data : List Float32) (sw : Option (List Byte)) :
    (((tiff_calls width height sw).map TiffCall.tagId).Pairwise (· < ·)
      ∧ (call_positions be (tiff_before_entries be hFile sw)
          (tiff_calls width height sw)).Pairwise (· < ·)
      ∧ (too_big_for_tiff (((tiff_directory be hFile width height sw).1.pos
            + write_count width height) % 2 ^ 64) = false →
          ∀ x ∈ (call_positions be (tiff_before_entries be hFile sw)
              (tiff_calls width height sw)).zip ((tiff_calls width height sw).map TiffCall.tagId),
            read_uint be (WriteGrayscale16BitToTIFF be hFile width height data sw).file.bytes
              x.1 2 = x.2))
    ∧ (((bigtiff_calls width height sw).map BigTiffCall.tagId).Pairwise (· < ·)
      ∧ (big_call_positions be (bigtiff_before_entries be hFile sw)
          (bigtiff_calls width height sw)).Pairwise (· < ·)
      ∧ ∀ x ∈ (big_call_positions be (bigtiff_before_entries be hFile sw)
            (bigtiff_calls width height sw)).zip
              ((bigtiff_calls width height sw).map BigTiffCall.tagId),
          read_uint be (WriteGrayscale16BitToBigTIFF be hFile width height data sw).file.bytes
            x.1 2 = x.2) := by
  refine ⟨⟨tiff_tag_ids_ascending width height sw, ?_, ?_⟩,
    ⟨bigtiff_tag_ids_ascending width height sw, ?_, ?_⟩⟩
  · exact (steps_spec be (TiffCall.run be) TiffCall.tagId 12 13 (by omega) _
      (tiff_calls_entry_steps be width height sw) _).2.2.2.2.2
  · intro hsmall x hx
    simp only [WriteGrayscale16BitToTIFF, hsmall, Bool.false_eq_true, if_false]
    rw [tiff_directory_eq]
    have hA := tiff_calls_a_pos be (tiff_before_entries be hFile sw) width height
    exact tags_in_finished_file be (TiffCall.run be) TiffCall.tagId 12 13 (by omega)
      (tiff_calls_a width height) _ (tiff_calls_entry_steps be width height sw) _ _ _ _ _ _
      (by omega) (by omega) x hx
  · exact (steps_spec be (BigTiffCall.run be) BigTiffCall.tagId 20 21 (by omega) _
      (bigtiff_calls_entry_steps be width height sw) _).2.2.2.2.2
  · intro x hx
    simp only [WriteGrayscale16BitToBigTIFF]
    rw [bigtiff_directory_eq]
    have hA := bigtiff_calls_a_pos be (bigtiff_before_entries be hFile sw) width height
    exact tags_in_finished_file be (BigTiffCall.run be) BigTiffCall.tagId 20 21 (by omega)
      (bigtiff_calls_a width height) _ (bigtiff_calls_entry_steps be width height sw) _ _ _ _ _ _
      (by omega) (by omega) x hx

/-- C7, witness: the 1x1 image without software string on a little-endian host; the size
check does not divert, the thirteen calls start at offsets 28, 40, ..., 172 of the file and
the file holds their tag IDs there. -/
theorem ifd_tags_strictly_increasing_witness :
    too_big_for_tiff (((tiff_directory false ⟨[], 0⟩ 1 1 none).1.pos + write_count 1 1) % 2 ^ 64)
      = false
    ∧ (call_positions false (tiff_before_entries false ⟨[], 0⟩ none) (tiff_calls 1 1 none)).zip
        ((tiff_calls 1 1 none).map TiffCall.tagId)
      = [(28, 256), (40, 257), (52, 258), (64, 259), (76, 262), (88, 273), (100, 277),
         (112, 278), (124, 279), (136, 282), (148, 283), (160, 296), (172, 339)]
    ∧ (∀ x ∈ (call_positions false (tiff_before_entries false ⟨[], 0⟩ none)
          (tiff_calls 1 1 none)).zip ((tiff_calls 1 1 none).map TiffCall.tagId),
        read_uint false (WriteGrayscale16BitToTIFF false ⟨[], 0⟩ 1 1 [1120403456] none).file.bytes
          x.1 2 = x.2) :=
  ⟨by decide, by decide,
    (ifd_tags_strictly_increasing false ⟨[], 0⟩ 1 1 [1120403456] none).1.2.2 (by decide)⟩

theorem bitmap_sample_lt (v : Float32) : bitmap_sample v < 65536 := by
  unfold bitmap_sample
  split
  · omega
  · split
    · omega
    · split
      · omega
      · unfold Fp.toUInt16
        split
        · exact Nat.mod_lt _ (by omega)
        · omega

theorem length_tiff_calls_le (width height : Nat) (sw : Option (List Byte)) :
    (tiff_calls width height sw).length ≤ 14 := by
  simp only [tiff_calls, tiff_calls_a, tiff_calls_b, List.length_append, List.length_cons,
    List.length_nil]
  split <;> simp

theorem length_bigtiff_calls_le (width height : Nat) (sw : Option (List Byte)) :
    (bigtiff_calls width height sw).length ≤ 14 := by
  simp only [bigtiff_calls, bigtiff_calls_a, bigtiff_calls_b, List.length_append,
    List.length_cons, List.length_nil]
  split <;> simp

theorem software_count_le (sw : Option (List Byte)) : software_count sw ≤ software_strlen sw + 1 := by
  unfold software_count
  split <;> omega

theorem tiff_before_entries_pos (be : Bool) (hFile : FileState) (sw : Option (List Byte)) :
    (tiff_before_entries be hFile sw).pos = hFile.pos + 24 + (software_bytes be sw).length + 2 := by
  simp only [tiff_before_entries, WriteWord, tiff_header_eq_fwrite, fwrite_pos,
    length_tiff_header_bytes, length_host_bytes]
  omega

theorem bigtiff_before_entries_pos (be : Bool) (hFile : FileState) (sw : Option (List Byte)) :
    (bigtiff_before_entries be hFile sw).pos
      = hFile.pos + 24 + (software_bytes be sw).length + 8 := by
  simp only [bigtiff_before_entries, Write8Byte, bigtiff_header_eq_fwrite, fwrite_pos,
    length_bigtiff_header_bytes, length_host_bytes]
  omega

theorem length_software_bytes_le (be : Bool) (sw : Option (List Byte)) :
    (software_bytes be sw).length ≤ software_strlen sw + 2 := by
  rw [length_software_bytes]
  have := software_count_le sw
  split <;> omega

theorem first_sample_bytes (be : Bool) (width height : Nat) (v : Float32) (rest : List Float32)
    (hw : 1 ≤ width) (hh : 1 ≤ height) :
    ∃ tail, bitmap_bytes be width height (v :: rest)
      = host_bytes be 2 (bitmap_sample v) ++ tail := by
  obtain ⟨w, rfl⟩ : ∃ w, width = w + 1 := ⟨width - 1, by omega⟩
  obtain ⟨h, rfl⟩ : ∃ h, height = h + 1 := ⟨height - 1, by omega⟩
  refine ⟨samples_to_bytes be (rest.take w) ++ bitmap_bytes be (w + 1) h ((v :: rest).drop (w + 1)),
    ?_⟩
  simp only [bitmap_bytes, List.take_succ_cons, samples_to_bytes, List.append_assoc]

theorem terminator_in_finished_file (be : Bool) (s2 : FileState) (zsize off width height : Nat)
    (data : List Float32) (hoff : off + 4 ≤ s2.pos) :
    read_uint be (patch_and_payload be (fwrite (host_bytes be zsize 0) s2) off width height
      data).1.bytes s2.pos zsize = 0 := by
  obtain ⟨p1, _, _, _⟩ := patch_and_payload_spec be (fwrite (host_bytes be zsize 0) s2) off
    width height data (by rw [fwrite_pos]; omega)
  have h1 : read_uint be (patch_and_payload be (fwrite (host_bytes be zsize 0) s2) off width
        height data).1.bytes s2.pos zsize
      = read_uint be (fwrite (host_bytes be zsize 0) s2).bytes s2.pos zsize := by
    apply read_uint_congr
    intro i hi1 hi2
    exact p1 i (by rw [fwrite_pos, length_host_bytes]; omega) (Or.inr (by omega))
  rw [h1, read_uint_host_bytes be _ s2.pos zsize 0
    (fun j hj => fwrite_written _ s2 j (by simpa using hj))]
  exact Nat.zero_mod _

theorem first_sample_in_finished_file (be : Bool) (s : FileState) (off width height : Nat)
    (v : Float32) (rest : List Float32) (hoff : off + 4 ≤ s.pos) (hw : 1 ≤ width)
    (hh : 1 ≤ height) (hm : malloc_fails (int_bufsize width 2) = false) :
    read_uint be (patch_and_payload be s off width height (v :: rest)).1.bytes s.pos 2
      = bitmap_sample v := by
  obtain ⟨_, _, p3, _⟩ := patch_and_payload_spec be s off width height (v :: rest) hoff
  rw [bitmap_written_of_ok be width height (v :: rest) hm] at p3
  obtain ⟨tail, ht⟩ := first_sample_bytes be width height v rest hw hh
  have h := read_uint_host_bytes be (patch_and_payload be s off width height (v :: rest)).1.bytes
    s.pos 2 (bitmap_sample v) (fun j hj => by
      rw [p3 j (by rw [ht]; simp; omega), ht, byte_at_append_left _ _ _ (by simpa using hj)])
  rw [h]
  exact Nat.mod_eq_of_lt (by have := bitmap_sample_lt v; omega)

theorem length_tiff_calls_ge (width height : Nat) (sw : Option (List Byte)) :
    13 ≤ (tiff_calls width height sw).length := by
  simp only [tiff_calls, tiff_calls_a, tiff_calls_b, List.length_append, List.length_cons,
    List.length_nil]
  split <;> simp

theorem length_bigtiff_calls_ge (width height : Nat) (sw : Option (List Byte)) :
    13 ≤ (bigtiff_calls width height sw).length := by
  simp only [bigtiff_calls, bigtiff_calls_a, bigtiff_calls_b, List.length_append,
    List.length_cons, List.length_nil]
  split <;> simp

theorem tiff_entries_end_pos (be : Bool) (hFile : FileState) (width height : Nat)
    (sw : Option (List Byte)) :
    (tiff_before_entries be hFile sw).pos + 156
        ≤ ((tiff_calls width height sw).foldl (TiffCall.run be)
            (tiff_before_entries be hFile sw)).pos
    ∧ ((tiff_calls width height sw).foldl (TiffCall.run be)
            (tiff_before_entries be hFile sw)).pos
        ≤ (tiff_before_entries be hFile sw).pos + 182 := by
  obtain ⟨h1, h2, _⟩ := steps_spec be (TiffCall.run be) TiffCall.tagId 12 13 (by omega) _
    (tiff_calls_entry_steps be width height sw) (tiff_before_entries be hFile sw)
  have := length_tiff_calls_ge width height sw
  have := length_tiff_calls_le width height sw
  constructor <;> omega

theorem bigtiff_entries_end_pos (be : Bool) (hFile : FileState) (width height : Nat)
    (sw : Option (List Byte)) :
    (bigtiff_before_entries be hFile sw).pos + 260
        ≤ ((bigtiff_calls width height sw).foldl (BigTiffCall.run be)
            (bigtiff_before_entries be hFile sw)).pos
    ∧ ((bigtiff_calls width height sw).foldl (BigTiffCall.run be)
            (bigtiff_before_entries be hFile sw)).pos
        ≤ (bigtiff_before_entries be hFile sw).pos + 294 := by
  obtain ⟨h1, h2, _⟩ := steps_spec be (BigTiffCall.run be) BigTiffCall.tagId 20 21 (by omega) _
    (bigtiff_calls_entry_steps be width height sw) (bigtiff_before_entries be hFile sw)
  have := length_bigtiff_calls_ge width height sw
  have := length_bigtiff_calls_le width height sw
  constructor <;> omega

theorem strip_offsets_call_mem (be : Bool) (f0 : FileState) (width height : Nat)
    (sw : Option (List Byte)) :
    (f0.pos + 60, StripOffsets)
      ∈ (call_positions be f0 (tiff_calls width height sw)).zip
          ((tiff_calls width height sw).map TiffCall.tagId) := by
  simp only [call_positions, tiff_calls, tiff_calls_a, List.cons_append, step_positions,
    List.map_cons, List.zip_cons_cons, TiffCall.run, WriteTIFFTag_eq_fwrite, fwrite_pos,
    length_tiff_entry_bytes, TiffCall.tagId, List.mem_cons, Prod.mk.injEq]
  right; right; right; right; right; left
  trivial

theorem big_strip_offsets_call_mem (be : Bool) (f0 : FileState) (width height : Nat)
    (sw : Option (List Byte)) :
    (f0.pos + 100, StripOffsets)
      ∈ (big_call_positions be f0 (bigtiff_calls width height sw)).zip
          ((bigtiff_calls width height sw).map BigTiffCall.tagId) := by
  simp only [big_call_positions, bigtiff_calls, bigtiff_calls_a, List.cons_append, step_positions,
    List.map_cons, List.zip_cons_cons, BigTiffCall.run, WriteBigTIFFTag_eq_fwrite, fwrite_pos,
    length_bigtiff_entry_bytes, BigTiffCall.tagId, List.mem_cons, Prod.mk.injEq]
  right; right; right; right; right; left
  trivial

/-- The value that the BigTIFF encoder returns is that of `WriteBitmap`. -/
theorem bigtiff_err (be : Bool) (hFile : FileState) (width height : Nat) (data : List Float32)
    (sw : Option (List Byte)) :
    (WriteGrayscale16BitToBigTIFF be hFile width height data sw).err
      = if malloc_fails (int_bufsize width 2) then -2 else 0 := by
  simp only [WriteGrayscale16BitToBigTIFF]
  exact patch_and_payload_snd be _ _ width height data

/-- The value that the classic encoder returns is that of `WriteBitmap`. -/
theorem tiff_err (be : Bool) (hFile : FileState) (width height : Nat) (data : List Float32)
    (sw : Option (List Byte)) :
    (WriteGrayscale16BitToTIFF be hFile width height data sw).err
      = if malloc_fails (int_bufsize width 2) then -2 else 0 := by
  simp only [WriteGrayscale16BitToTIFF]
  split
  · exact bigtiff_err be _ width height data sw
  · exact patch_and_payload_snd be _ _ width height data

/-- An encode of a row of fewer than `2^30` samples returns 0. -/
theorem tiff_err_of_lt (be : Bool) (hFile : FileState) (width height : Nat)
    (data : List Float32) (sw : Option (List Byte)) (h : width < 2 ^ 30) :
    (WriteGrayscale16BitToTIFF be hFile width height data sw).err = 0
    ∧ (WriteGrayscale16BitToBigTIFF be hFile width height data sw).err = 0 := by
  rw [tiff_err, bigtiff_err, bitmap_malloc_ok width h]
  exact ⟨rfl, rfl⟩

/-- An encode of a row of `2^30` samples or more, within the range of an `int`, returns -2. -/
theorem tiff_err_of_ge (be : Bool) (hFile : FileState) (width height : Nat)
    (data : List Float32) (sw : Option (List Byte)) (h1 : 2 ^ 30 ≤ width) (h2 : width < 2 ^ 31) :
    (WriteGrayscale16BitToTIFF be hFile width height data sw).err = -2
    ∧ (WriteGrayscale16BitToBigTIFF be hFile width height data sw).err = -2 := by
  rw [tiff_err, bigtiff_err, bitmap_malloc_fails width h1 h2]
  exact ⟨rfl, rfl⟩

/-- C8, amended. In the classic file (when the size check does not divert) and in the
BigTIFF file, for every software string that fits an `int`: the entry whose value slot is
at `offsetpos` is the `StripOffsets` entry, the 4-byte value patched there is the position
reached after the zero next-IFD field, and that field lies immediately before this
position.  When the encode succeeds (the value returned is 0), the bitmap bytes, the first
sample first, are written from exactly this position on.  The encode succeeds for every
`width` below `2^30`; from `2^30` on `WriteBitmap` cannot allocate its row buffer, the
value returned is -2 and the file position stays at the patched position: no sample is
written. -/
theorem strip_offsets_is_payload_position (be : Bool) (hFile : FileState) (width height : Nat)
    (data : List Float32) (sw : Option (List Byte)) (hpos : hFile.pos = 0)
    (hs : software_strlen sw + 2 < 2 ^ 31) :
    (too_big_for_tiff (((tiff_directory be hFile width height sw).1.pos
          + write_count width height) % 2 ^ 64) = false →
      read_uint be (WriteGrayscale16BitToTIFF be hFile width height data sw).file.bytes
          ((tiff_directory be hFile width height sw).2 - 8) 2 = StripOffsets
      ∧ read_uint be (WriteGrayscale16BitToTIFF be hFile width height data sw).file.bytes
          (tiff_directory be hFile width height sw).2 4
        = (tiff_directory be hFile width height sw).1.pos
      ∧ read_uint be (WriteGrayscale16BitToTIFF be hFile width height data sw).file.bytes
          ((tiff_directory be hFile width height sw).1.pos - 4) 4 = 0
      ∧ ((WriteGrayscale16BitToTIFF be hFile width height data sw).err = 0 →
        (∀ j, j < (bitmap_bytes be width height data).length →
          byte_at (WriteGrayscale16BitToTIFF be hFile width height data sw).file.bytes
            ((tiff_directory be hFile width height sw).1.pos + j)
          = byte_at (bitmap_bytes be width height data) j)
        ∧ (∀ v rest, data = v :: rest → 1 ≤ width → 1 ≤ height →
          read_uint be (WriteGrayscale16BitToTIFF be hFile width height data sw).file.bytes
            (tiff_directory be hFile width height sw).1.pos 2 = bitmap_sample v))
      ∧ ((WriteGrayscale16BitToTIFF be hFile width height data sw).err = -2 →
        (WriteGrayscale16BitToTIFF be hFile width height data sw).file.pos
          = (tiff_directory be hFile width height sw).1.pos))
    ∧ (read_uint be (WriteGrayscale16BitToBigTIFF be hFile width height data sw).file.bytes
          ((bigtiff_directory be hFile width height sw).2 - 12) 2 = StripOffsets
      ∧ read_uint be (WriteGrayscale16BitToBigTIFF be hFile width height data sw).file.bytes
          (bigtiff_directory be hFile width height sw).2 4
        = (bigtiff_directory be hFile width height sw).1.pos
      ∧ read_uint be (WriteGrayscale16BitToBigTIFF be hFile width height data sw).file.bytes
          ((bigtiff_directory be hFile width height sw).1.pos - 8) 8 = 0
      ∧ ((WriteGrayscale16BitToBigTIFF be hFile width height data sw).err = 0 →
        (∀ j, j < (bitmap_bytes be width height data).length →
          byte_at (WriteGrayscale16BitToBigTIFF be hFile width height data sw).file.bytes
            ((bigtiff_directory be hFile width height sw).1.pos + j)
          = byte_at (bitmap_bytes be width height data) j)
        ∧ (∀ v rest, data = v :: rest → 1 ≤ width → 1 ≤ height →
          read_uint be (WriteGrayscale16BitToBigTIFF be hFile width height data sw).file.bytes
            (bigtiff_directory be hFile width height sw).1.pos 2 = bitmap_sample v))
      ∧ ((WriteGrayscale16BitToBigTIFF be hFile width height data sw).err = -2 →
        (WriteGrayscale16BitToBigTIFF be hFile width height data sw).file.pos
          = (bigtiff_directory be hFile width height sw).1.pos))
    ∧ (width < 2 ^ 30 →
        (WriteGrayscale16BitToTIFF be hFile width height data sw).err = 0
        ∧ (WriteGrayscale16BitToBigTIFF be hFile width height data sw).err = 0)
    ∧ (2 ^ 30 ≤ width → width < 2 ^ 31 →
        (WriteGrayscale16BitToTIFF be hFile width height data sw).err = -2
        ∧ (WriteGrayscale16BitToBigTIFF be hFile width height data sw).err = -2) := by
  have hsb := length_software_bytes_le be sw
  have hfail : ∀ (e : Int), (if malloc_fails (int_bufsize width 2) then (-2 : Int) else 0) = -2 →
      bitmap_written be width height data = [] := by
    intro _ h
    cases hm : malloc_fails (int_bufsize width 2)
    · rw [hm] at h
      cases h
    · rw [bitmap_written, hm]
      rfl
  refine ⟨?_, ?_, tiff_err_of_lt be hFile width height data sw,
    tiff_err_of_ge be hFile width height data sw⟩
  · intro hsmall
    have herr := tiff_err be hFile width height data sw
    simp only [WriteGrayscale16BitToTIFF, hsmall, Bool.false_eq_true, if_false] at herr ⊢
    rw [tiff_directory_eq]
    have hf0 := tiff_before_entries_pos be hFile sw
    obtain ⟨e1, e2⟩ := tiff_entries_end_pos be hFile width height sw
    have hA := tiff_calls_a_pos be (tiff_before_entries be hFile sw) width height
    simp only [fwrite_pos, length_host_bytes]
    rw [tiff_directory_eq] at herr
    simp only [fwrite_pos, length_host_bytes] at herr
    generalize hS2 : (tiff_calls width height sw).foldl (TiffCall.run be)
      (tiff_before_entries be hFile sw) = s2 at e1 e2 herr ⊢
    obtain ⟨_, p2, p3, p4⟩ := patch_and_payload_spec be (fwrite (host_bytes be 4 0) s2)
      ((tiff_before_entries be hFile sw).pos + 68) width height data
      (by rw [fwrite_pos, length_host_bytes]; omega)
    simp only [fwrite_pos, length_host_bytes] at p2 p3 p4
    refine ⟨?_, ?_, ?_, ?_, ?_⟩
    · have h := tags_in_finished_file be (TiffCall.run be) TiffCall.tagId 12 13 (by omega)
        (tiff_calls_a width height) _ (tiff_calls_entry_steps be width height sw)
        (tiff_before_entries be hFile sw) (host_bytes be 4 0)
        ((tiff_before_entries be hFile sw).pos + 68) width height data (by omega) (by omega)
        _ (strip_offsets_call_mem be (tiff_before_entries be hFile sw) width height sw)
      rw [show tiff_calls_a width height ++ tiff_calls_b height (write_count width height) sw
        = tiff_calls width height sw from rfl, hS2] at h
      rw [show (tiff_before_entries be hFile sw).pos + 68 - 8
        = (tiff_before_entries be hFile sw).pos + 60 by omega]
      exact h
    · rw [p2]
      exact Nat.mod_eq_of_lt (by omega)
    · rw [show s2.pos + 4 - 4 = s2.pos by omega]
      exact terminator_in_finished_file be s2 4 _ width height data (by omega)
    · intro h0
      have hm := malloc_ok_of_err width (herr.symm.trans h0)
      rw [bitmap_written_of_ok be width height data hm] at p3
      refine ⟨p3, ?_⟩
      intro v rest hd hw hh
      subst hd
      have h := first_sample_in_finished_file be (fwrite (host_bytes be 4 0) s2)
        ((tiff_before_entries be hFile sw).pos + 68) width height v rest
        (by rw [fwrite_pos, length_host_bytes]; omega) hw hh hm
      simpa only [fwrite_pos, length_host_bytes] using h
    · intro h2
      rw [p4, hfail 0 (herr.symm.trans h2)]
      rfl
  · have herr := bigtiff_err be hFile width height data sw
    simp only [WriteGrayscale16BitToBigTIFF] at herr ⊢
    rw [bigtiff_directory_eq]
    have hf0 := bigtiff_before_entries_pos be hFile sw
    obtain ⟨e1, e2⟩ := bigtiff_entries_end_pos be hFile width height sw
    have hA := bigtiff_calls_a_pos be (bigtiff_before_entries be hFile sw) width height
    simp only [fwrite_pos, length_host_bytes]
    rw [bigtiff_directory_eq] at herr
    simp only [fwrite_pos, length_host_bytes] at herr
    generalize hS2 : (bigtiff_calls width height sw).foldl (BigTiffCall.run be)
      (bigtiff_before_entries be hFile sw) = s2 at e1 e2 herr ⊢
    obtain ⟨_, p2, p3, p4⟩ := patch_and_payload_spec be (fwrite (host_bytes be 8 0) s2)
      ((bigtiff_before_entries be hFile sw).pos + 112) width height data
      (by rw [fwrite_pos, length_host_bytes]; omega)
    simp only [fwrite_pos, length_host_bytes] at p2 p3 p4
    refine ⟨?_, ?_, ?_, ?_, ?_⟩
    · have h := tags_in_finished_file be (BigTiffCall.run be) BigTiffCall.tagId 20 21 (by omega)
        (bigtiff_calls_a width height) _ (bigtiff_calls_entry_steps be width height sw)
        (bigtiff_before_entries be hFile sw) (host_bytes be 8 0)
        ((bigtiff_before_entries be hFile sw).pos + 112) width height data (by omega) (by omega)
        _ (big_strip_offsets_call_mem be (bigtiff_before_entries be hFile sw) width height sw)
      rw [show bigtiff_calls_a width height
          ++ bigtiff_calls_b height (write_count width height) sw
        = bigtiff_calls width height sw from rfl, hS2] at h
      rw [show (bigtiff_before_entries be hFile sw).pos + 112 - 12
        = (bigtiff_before_entries be hFile sw).pos + 100 by omega]
      exact h
    · rw [p2]
      exact Nat.mod_eq_of_lt (by omega)
    · rw [show s2.pos + 8 - 8 = s2.pos by omega]
      exact terminator_in_finished_file be s2 8 _ width height data (by omega)
    · intro h0
      have hm := malloc_ok_of_err width (herr.symm.trans h0)
      rw [bitmap_written_of_ok be width height data hm] at p3
      refine ⟨p3, ?_⟩
      intro v rest hd hw hh
      subst hd
      have h := first_sample_in_finished_file be (fwrite (host_bytes be 8 0) s2)
        ((bigtiff_before_entries be hFile sw).pos + 112) width height v rest
        (by rw [fwrite_pos, length_host_bytes]; omega) hw hh hm
      simpa only [fwrite_pos, length_host_bytes] using h
    · intro h2
      rw [p4, hfail 0 (herr.symm.trans h2)]
      rfl

/-- C8, as stated, does not hold for every encode. For the image of one row of `2^30`
samples without software string (little-endian host) the size check does not divert, the
classic directory is written and the value 188 is patched into the `StripOffsets` entry,
but `WriteBitmap` cannot allocate its row buffer: the encoder returns -2 and the file
ends at byte 188, so no sample is written at the position that `StripOffsets` gives. -/
theorem strip_offsets_without_payload :
    too_big_for_tiff (((tiff_directory false ⟨[], 0⟩ 1073741824 1 none).1.pos
        + write_count 1073741824 1) % 2 ^ 64) = false
    ∧ (WriteGrayscale16BitToTIFF false ⟨[], 0⟩ 1073741824 1
        (List.replicate 1073741824 0) none).err = -2
    ∧ read_uint false (WriteGrayscale16BitToTIFF false ⟨[], 0⟩ 1073741824 1
        (List.replicate 1073741824 0) none).file.bytes 96 4 = 188
    ∧ (WriteGrayscale16BitToTIFF false ⟨[], 0⟩ 1073741824 1
        (List.replicate 1073741824 0) none).file.bytes.length = 188 := by
  simp only [WriteGrayscale16BitToTIFF, tiff_directory_wide_row]
  decide

/-- C8, witness: the 1x1 image with the value 100.0 and no software string on a
little-endian host.  The entry count is 13, `offsetpos` is 96, the value stored there is
188, which is the position after the zero next-IFD field, and the bytes 188..189, the last
of the 190 bytes of the file, hold the sample 100. -/
theorem strip_offsets_is_payload_position_witness :
    ((⟨[], 0⟩ : FileState).pos = 0 ∧ software_strlen none + 2 < 2 ^ 31
      ∧ too_big_for_tiff (((tiff_directory false ⟨[], 0⟩ 1 1 none).1.pos + write_count 1 1)
          % 2 ^ 64) = false)
    ∧ (read_uint false (WriteGrayscale16BitToTIFF false ⟨[], 0⟩ 1 1 [1120403456] none).file.bytes
          26 2 = 13
      ∧ (tiff_directory false ⟨[], 0⟩ 1 1 none).2 = 96
      ∧ (tiff_directory false ⟨[], 0⟩ 1 1 none).1.pos = 188
      ∧ read_uint false (WriteGrayscale16BitToTIFF false ⟨[], 0⟩ 1 1 [1120403456] none).file.bytes
          188 2 = 100
      ∧ (WriteGrayscale16BitToTIFF false ⟨[], 0⟩ 1 1 [1120403456] none).file.bytes.length = 190)
    ∧ (read_uint false (WriteGrayscale16BitToTIFF false ⟨[], 0⟩ 1 1 [1120403456] none).file.bytes
          ((tiff_directory false ⟨[], 0⟩ 1 1 none).2 - 8) 2 = StripOffsets
      ∧ read_uint false (WriteGrayscale16BitToTIFF false ⟨[], 0⟩ 1 1 [1120403456] none).file.bytes
          (tiff_directory false ⟨[], 0⟩ 1 1 none).2 4
        = (tiff_directory false ⟨[], 0⟩ 1 1 none).1.pos
      ∧ read_uint false (WriteGrayscale16BitToTIFF false ⟨[], 0⟩ 1 1 [1120403456] none).file.bytes
          ((tiff_directory false ⟨[], 0⟩ 1 1 none).1.pos - 4) 4 = 0) :=
  ⟨by rw [tiff_directory_one_pixel]; decide,
    by rw [tiff_one_pixel, tiff_directory_one_pixel]; decide,
    ⟨((strip_offsets_is_payload_position false ⟨[], 0⟩ 1 1 [1120403456] none rfl
        (by decide)).1 (by rw [tiff_directory_one_pixel]; decide)).1,
     ((strip_offsets_is_payload_position false ⟨[], 0⟩ 1 1 [1120403456] none rfl
        (by decide)).1 (by rw [tiff_directory_one_pixel]; decide)).2.1,
     ((strip_offsets_is_payload_position false ⟨[], 0⟩ 1 1 [1120403456] none rfl
        (by decide)).1 (by rw [tiff_directory_one_pixel]; decide)).2.2.1⟩⟩

/-! ## TIFF encoder: the header in the finished file and the choice of the variant -/

theorem header_in_finished_file {α : Type} (be : Bool) (run : FileState → α → FileState)
    (tag : α → Nat) (lo hi : Nat) (hlo : 2 ≤ lo) (calls : List α)
    (hall : ∀ c ∈ calls, EntryStep be (tag c) lo hi (fun f => run f c))
    (hdr cnt z : List Byte) (hFile : FileState) (off width height : Nat) (data : List Float32)
    (hoff : hFile.pos + hdr.length ≤ off)
    (hoff1 : off + 4 ≤ (calls.foldl run (fwrite cnt (fwrite hdr hFile))).pos) :
    ∀ i, i < hdr.length →
      byte_at (patch_and_payload be (fwrite z (calls.foldl run (fwrite cnt (fwrite hdr hFile))))
        off width height data).1.bytes (hFile.pos + i) = byte_at hdr i := by
  intro i hlt
  obtain ⟨s1, _, s3, _⟩ := steps_spec be run tag lo hi hlo calls hall (fwrite cnt (fwrite hdr hFile))
  obtain ⟨p1, _, _, _⟩ := patch_and_payload_spec be
    (fwrite z (calls.foldl run (fwrite cnt (fwrite hdr hFile)))) off width height data
    (by rw [fwrite_pos]; omega)
  simp only [fwrite_pos] at s1 s3
  rw [p1 _ (by rw [fwrite_pos]; omega) (Or.inl (by omega)),
    fwrite_untouched z _ _ (by omega), s3 _ (by omega),
    fwrite_untouched cnt _ _ (by rw [fwrite_pos]; omega), fwrite_written hdr hFile i hlt]

theorem tiff_version_field (be : Bool) (hFile : FileState) (width height : Nat)
    (data : List Float32) (sw : Option (List Byte)) :
    read_uint be (patch_and_payload be (tiff_directory be hFile width height sw).1
      (tiff_directory be hFile width height sw).2 width height data).1.bytes (hFile.pos + 2) 2
      = 42 := by
  rw [tiff_directory_eq]
  have hf0 := tiff_before_entries_pos be hFile sw
  obtain ⟨e1, _⟩ := tiff_entries_end_pos be hFile width height sw
  have hlen := length_tiff_header_bytes be sw
  have hb : tiff_before_entries be hFile sw
      = fwrite (host_bytes be 2 (tag_count sw)) (fwrite (tiff_header_bytes be sw) hFile) := by
    simp only [tiff_before_entries, WriteWord, tiff_header_eq_fwrite]
  have h := header_in_finished_file be (TiffCall.run be) TiffCall.tagId 12 13 (by omega)
    (tiff_calls width height sw) (tiff_calls_entry_steps be width height sw)
    (tiff_header_bytes be sw) (host_bytes be 2 (tag_count sw)) (host_bytes be 4 0) hFile
    ((tiff_before_entries be hFile sw).pos + 68) width height data (by omega)
    (by rw [← hb]; omega)
  rw [← hb] at h
  have h2 := read_uint_host_bytes be (patch_and_payload be (fwrite (host_bytes be 4 0)
      ((tiff_calls width height sw).foldl (TiffCall.run be) (tiff_before_entries be hFile sw)))
      ((tiff_before_entries be hFile sw).pos + 68) width height data).1.bytes (hFile.pos + 2) 2 42
    (fun j hj => by
      rw [Nat.add_assoc, h (2 + j) (by omega)]
      unfold tiff_header_bytes
      rw [byte_at_append_right _ _ _ (by simp), length_host_bytes,
        byte_at_append_left _ _ _ (by simp; omega)]
      congr 1
      omega)
  rw [h2]
  rfl

theorem bigtiff_version_field (be : Bool) (hFile : FileState) (width height : Nat)
    (data : List Float32) (sw : Option (List Byte)) :
    read_uint be (WriteGrayscale16BitToBigTIFF be hFile width height data sw).file.bytes
      (hFile.pos + 2) 2 = 43 := by
  simp only [WriteGrayscale16BitToBigTIFF]
  rw [bigtiff_directory_eq]
  have hf0 := bigtiff_before_entries_pos be hFile sw
  obtain ⟨e1, _⟩ := bigtiff_entries_end_pos be hFile width height sw
  have hlen := length_bigtiff_header_bytes be sw
  have hb : bigtiff_before_entries be hFile sw
      = fwrite (host_bytes be 8 (tag_count sw)) (fwrite (bigtiff_header_bytes be sw) hFile) := by
    simp only [bigtiff_before_entries, Write8Byte, bigtiff_header_eq_fwrite]
  have h := header_in_finished_file be (BigTiffCall.run be) BigTiffCall.tagId 20 21 (by omega)
    (bigtiff_calls width height sw) (bigtiff_calls_entry_steps be width height sw)
    (bigtiff_header_bytes be sw) (host_bytes be 8 (tag_count sw)) (host_bytes be 8 0) hFile
    ((bigtiff_before_entries be hFile sw).pos + 112) width height data (by omega)
    (by rw [← hb]; omega)
  rw [← hb] at h
  have h2 := read_uint_host_bytes be (patch_and_payload be (fwrite (host_bytes be 8 0)
      ((bigtiff_calls width height sw).foldl (BigTiffCall.run be)
        (bigtiff_before_entries be hFile sw)))
      ((bigtiff_before_entries be hFile sw).pos + 112) width height data).1.bytes
    (hFile.pos + 2) 2 43
    (fun j hj => by
      rw [Nat.add_assoc, h (2 + j) (by omega)]
      unfold bigtiff_header_bytes
      rw [byte_at_append_right _ _ _ (by simp), length_host_bytes,
        byte_at_append_left _ _ _ (by simp; omega)]
      congr 1
      omega)
  rw [h2]
  rfl

theorem too_big_for_tiff_iff (pos width height : Nat) (hw : width < 2 ^ 31) (hh : height < 2 ^ 31)
    (hp1 : 1 ≤ pos) (hp2 : pos < 2 ^ 32) :
    too_big_for_tiff ((pos + write_count width height) % 2 ^ 64) = true
      ↔ 2 ^ 32 < pos + width * height * 2 := by
  have hmul : height * width < 2 ^ 62 := by
    calc height * width ≤ (2 ^ 31 - 1) * (2 ^ 31 - 1) :=
          Nat.mul_le_mul (by omega) (by omega)
      _ < 2 ^ 62 := by norm_num
  have hcomm : width * height = height * width := Nat.mul_comm _ _
  simp only [too_big_for_tiff, write_count, decide_eq_true_eq, Nat.shiftRight_eq_div_pow]
  rw [Nat.mod_eq_of_lt (show height * width * 2 < 2 ^ 64 by omega),
    Nat.mod_eq_of_lt (show pos + height * width * 2 < 2 ^ 64 by omega), hcomm]
  have e : (pos + height * width * 2 + 2 ^ 64 - 1) % 2 ^ 64 = pos + height * width * 2 - 1 := by
    omega
  rw [e]
  omega

/-- C6. On an empty sink, for `width` and `height` in the range of an `int` and a software
string that fits an `int`, the version field of the file written by
`WriteGrayscale16BitToTIFF` (bytes 2..3, in the byte order of the file) is 43 exactly when
the classic payload offset plus `width * height * 2` exceeds `2^32`, and 42 otherwise. -/
theorem tiff_variant_selection (be : Bool) (width height : Nat) (data : List Float32)
    (sw : Option (List Byte)) (hw : width < 2 ^ 31) (hh : height < 2 ^ 31)
    (hs : software_strlen sw + 2 < 2 ^ 31) :
    read_uint be (WriteGrayscale16BitToTIFF be ⟨[], 0⟩ width height data sw).file.bytes 2 2
      = if 2 ^ 32 < (tiff_directory be ⟨[], 0⟩ width height sw).1.pos + width * height * 2
        then 43 else 42 := by
  have hsb := length_software_bytes_le be sw
  have hf0 := tiff_before_entries_pos be ⟨[], 0⟩ sw
  obtain ⟨e1, e2⟩ := tiff_entries_end_pos be ⟨[], 0⟩ width height sw
  have hpos : (tiff_directory be ⟨[], 0⟩ width height sw).1.pos
      = ((tiff_calls width height sw).foldl (TiffCall.run be)
          (tiff_before_entries be ⟨[], 0⟩ sw)).pos + 4 := by
    rw [tiff_directory_eq, fwrite_pos, length_host_bytes]
  have hiff := too_big_for_tiff_iff (tiff_directory be ⟨[], 0⟩ width height sw).1.pos width height
    hw hh (by omega) (by simp only [] at hf0; omega)
  by_cases hbig : 2 ^ 32 < (tiff_directory be ⟨[], 0⟩ width height sw).1.pos + width * height * 2
  · rw [if_pos hbig]
    simp only [WriteGrayscale16BitToTIFF, hiff.mpr hbig, if_true]
    have h := bigtiff_version_field be (rewind (tiff_directory be ⟨[], 0⟩ width height sw).1)
      width height data sw
    simpa only [rewind_pos, Nat.zero_add] using h
  · rw [if_neg hbig]
    have hfalse : too_big_for_tiff (((tiff_directory be ⟨[], 0⟩ width height sw).1.pos
        + write_count width height) % 2 ^ 64) = false := by
      rw [Bool.eq_false_iff]
      exact fun h => hbig (hiff.mp h)
    simp only [WriteGrayscale16BitToTIFF, hfalse, Bool.false_eq_true, if_false]
    have h := tiff_version_field be ⟨[], 0⟩ width height data sw
    simpa only [Nat.zero_add] using h

/-- C6, witness: a 1x1 image gives a classic file, and an image of 65536 x 32768 samples,
whose payload alone has `2^32` bytes, gives a BigTIFF file. -/
theorem tiff_variant_selection_witness :
    ((1 : Nat) < 2 ^ 31 ∧ software_strlen none + 2 < 2 ^ 31 ∧ (65536 : Nat) < 2 ^ 31
      ∧ (32768 : Nat) < 2 ^ 31)
    ∧ read_uint false (WriteGrayscale16BitToTIFF false ⟨[], 0⟩ 1 1 [1120403456] none).file.bytes 2 2
      = 42
    ∧ read_uint false (WriteGrayscale16BitToTIFF false ⟨[], 0⟩ 65536 32768
        (List.replicate (65536 * 32768) 0) none).file.bytes 2 2 = 43 :=
  ⟨by decide,
    (tiff_variant_selection false 1 1 [1120403456] none (by decide) (by decide) (by decide)).trans
      (if_neg (by decide)),
    (tiff_variant_selection false 65536 32768 (List.replicate (65536 * 32768) 0) none (by decide)
      (by decide) (by decide)).trans (if_pos (by decide))⟩

theorem tiff_header_pos (be : Bool) (hFile : FileState) (sw : Option (List Byte)) :
    (tiff_header be hFile sw).pos
      = hFile.pos + 24 + software_space sw
        + (if software_count sw ≠ 0 ∧ software_count sw % 2 = 0 then 1 else 0) := by
  rw [tiff_header_eq_fwrite, fwrite_pos, length_tiff_header_bytes, length_software_bytes]
  unfold software_space
  by_cases h : software_count sw ≠ 0
  · have h2 : software_strlen sw ≠ 0 := by
      intro h0
      simp [software_count, h0] at h
    rw [if_pos h, if_pos h2, Nat.and_one_is_mod]
    by_cases h3 : software_count sw % 2 = 0
    · rw [if_pos ⟨h, h3⟩]; omega
    · rw [if_neg (fun hc => h3 hc.2)]; omega
  · have h2 : ¬ software_strlen sw ≠ 0 := by
      intro h0
      apply h
      simp [software_count, h0]
    rw [if_neg h, if_neg h2, if_neg (fun hc => h hc.1)]

/-- C9, evaluated at a failing input: the 1x1 image with the software string "a" on a
little-endian host.  `softwareSpace` is 2 and the header field at bytes 4..7 holds 26, but
the string with its terminator and the pad byte takes three bytes, so the entry count 14
is written at offset 27; the two bytes at offset 26 do not hold it. -/
theorem ifd_offset_field_misses_directory :
    software_space (some [97]) = 2
    ∧ read_uint false (WriteGrayscale16BitToTIFF false ⟨[], 0⟩ 1 1 [1120403456]
        (some [97])).file.bytes 4 4 = 26
    ∧ (tiff_header false ⟨[], 0⟩ (some [97])).pos = 27
    ∧ read_uint false (WriteGrayscale16BitToTIFF false ⟨[], 0⟩ 1 1 [1120403456]
        (some [97])).file.bytes 27 2 = 14
    ∧ read_uint false (WriteGrayscale16BitToTIFF false ⟨[], 0⟩ 1 1 [1120403456]
        (some [97])).file.bytes 26 2 = 3584 := by
  rw [tiff_one_pixel_a]
  decide

/-! ## TIFF encoder: the entries of the classic directory as a reader finds them -/

theorem read_uint_shift (be : Bool) (b1 b2 : List Byte) (p q size : Nat)
    (h : ∀ j, j < size → byte_at b1 (p + j) = byte_at b2 (q + j)) :
    read_uint be b1 p size = read_uint be b2 q size := by
  induction size generalizing p q with
  | zero => rfl
  | succ k ih =>
    cases be
    · simp only [read_uint, Bool.false_eq_true, if_false]
      have h0 := h 0 (by omega)
      simp only [Nat.add_zero] at h0
      rw [h0, ih (p + 1) (q + 1) (fun j hj => by
        have := h (j + 1) (by omega)
        rw [show p + 1 + j = p + (j + 1) by omega, show q + 1 + j = q + (j + 1) by omega]
        exact this)]
    · simp only [read_uint, if_true]
      rw [h k (by omega), ih p q (fun j hj => h j (by omega))]

theorem read_entry_congr (be : Bool) (b1 b2 : List Byte) (p : Nat)
    (h : ∀ j, j < 12 → byte_at b1 (p + j) = byte_at b2 (p + j)) :
    read_entry be b1 p = read_entry be b2 p := by
  have e0 : read_uint be b1 p 2 = read_uint be b2 p 2 :=
    read_uint_shift be b1 b2 p p 2 (fun j hj => h j (by omega))
  have e2 : read_uint be b1 (p + 2) 2 = read_uint be b2 (p + 2) 2 :=
    read_uint_shift be b1 b2 (p + 2) (p + 2) 2 (fun j hj => by
      rw [Nat.add_assoc]; exact h (2 + j) (by omega))
  have e4 : read_uint be b1 (p + 4) 4 = read_uint be b2 (p + 4) 4 :=
    read_uint_shift be b1 b2 (p + 4) (p + 4) 4 (fun j hj => by
      rw [Nat.add_assoc]; exact h (4 + j) (by omega))
  have e8 : read_uint be b1 (p + 8) 4 = read_uint be b2 (p + 8) 4 :=
    read_uint_shift be b1 b2 (p + 8) (p + 8) 4 (fun j hj => by
      rw [Nat.add_assoc]; exact h (8 + j) (by omega))
  have e8s : read_uint be b1 (p + 8) 2 = read_uint be b2 (p + 8) 2 :=
    read_uint_shift be b1 b2 (p + 8) (p + 8) 2 (fun j hj => by
      rw [Nat.add_assoc]; exact h (8 + j) (by omega))
  simp only [read_entry, e0, e2, e4, e8, e8s]

theorem read_entry_of_block (be : Bool) (bytes : List Byte) (p tag type length : Nat)
    (v : List Byte)
    (h : ∀ j, j < 12 → byte_at bytes (p + j)
      = byte_at (host_bytes be 2 tag ++ (host_bytes be 2 type ++ (host_bytes be 4 length ++ v))) j)
    (ht : tag < 65536) (hty : type < 65536) (hl : length < 2 ^ 32) :
    read_entry be bytes p
      = ⟨tag, type, length,
          if type = TIFFshort ∧ length = 1 then read_uint be v 0 2 else read_uint be v 0 4⟩ := by
  have e0 : read_uint be bytes p 2 = tag := by
    rw [read_uint_host_bytes be bytes p 2 tag (fun j hj => by
      rw [h j (by omega), byte_at_append_left _ _ _ (by simpa using hj)])]
    exact Nat.mod_eq_of_lt (by omega)
  have e2 : read_uint be bytes (p + 2) 2 = type := by
    rw [read_uint_host_bytes be bytes (p + 2) 2 type (fun j hj => by
      rw [Nat.add_assoc, h (2 + j) (by omega), byte_at_append_right _ _ _ (by rw [length_host_bytes]; omega),
        length_host_bytes, byte_at_append_left _ _ _ (by rw [length_host_bytes]; omega)]
      congr 1; omega)]
    exact Nat.mod_eq_of_lt (by omega)
  have e4 : read_uint be bytes (p + 4) 4 = length := by
    rw [read_uint_host_bytes be bytes (p + 4) 4 length (fun j hj => by
      rw [Nat.add_assoc, h (4 + j) (by omega), byte_at_append_right _ _ _ (by rw [length_host_bytes]; omega),
        length_host_bytes, byte_at_append_right _ _ _ (by rw [length_host_bytes]; omega), length_host_bytes,
        byte_at_append_left _ _ _ (by rw [length_host_bytes]; omega)]
      congr 1; omega)]
    exact Nat.mod_eq_of_lt (by omega)
  have hv : ∀ j, j < 4 → byte_at bytes (p + 8 + j) = byte_at v (0 + j) := by
    intro j hj
    rw [Nat.add_assoc, h (8 + j) (by omega), byte_at_append_right _ _ _ (by rw [length_host_bytes]; omega),
      length_host_bytes, byte_at_append_right _ _ _ (by rw [length_host_bytes]; omega), length_host_bytes,
      byte_at_append_right _ _ _ (by rw [length_host_bytes]; omega), length_host_bytes]
    congr 1; omega
  have e8 : read_uint be bytes (p + 8) 4 = read_uint be v 0 4 :=
    read_uint_shift be bytes v (p + 8) 0 4 hv
  have e8s : read_uint be bytes (p + 8) 2 = read_uint be v 0 2 :=
    read_uint_shift be bytes v (p + 8) 0 2 (fun j hj => hv j (by omega))
  simp only [read_entry, e0, e2, e4, e8, e8s]

theorem read_uint_host_bytes_zero (be : Bool) (size n : Nat) (rest : List Byte) :
    read_uint be (host_bytes be size n ++ rest) 0 size = n % 256 ^ size :=
  read_uint_host_bytes be _ 0 size n (fun j hj => by
    rw [Nat.zero_add, byte_at_append_left _ _ _ (by simpa using hj)])

theorem plain_writes_entry (be : Bool) (tag type length offset : Nat) (ht : tag < 65536)
    (hty : type < 65536) (hl : length < 2 ^ 32) :
    WritesEntry be (TiffCall.entry be (.plain tag type length offset))
      (fun f => WriteTIFFTag be f tag type length offset) := by
  intro f
  simp only [WriteTIFFTag_eq_fwrite]
  refine ⟨by simp, fwrite_untouched _ _, ?_⟩
  have h := read_entry_of_block be (fwrite (tiff_entry_bytes be tag type length offset) f).bytes
    f.pos tag type length
    (if type = TIFFshort ∧ length = 1 then host_bytes be 2 offset ++ host_bytes be 2 0
      else host_bytes be 4 offset)
    (fun j hj => fwrite_written _ f j (by simpa using hj)) ht hty hl
  rw [h]
  simp only [TiffCall.entry]
  by_cases hc : type = TIFFshort ∧ length = 1
  · simp only [hc, and_self, if_true, read_uint_host_bytes_zero]
    rfl
  · simp only [hc, if_false]
    have := read_uint_host_bytes_zero be 4 offset []
    simp only [List.append_nil] at this
    rw [this]
    rfl
theorem ascii_writes_entry (be : Bool) (tag : Nat) (s : List Byte) (count offset : Nat)
    (hc : count = strlen s + 1) (hl : count < 2 ^ 32) (hr : count = 3 ∨ 4 < count) :
    WritesEntry be (TiffCall.entry be (.ascii tag s count offset))
      (fun f => WriteTIFFAsciiTag be f tag s count offset) := by
  intro f
  simp only [WriteTIFFAsciiTag, WriteTIFFTag_eq_fwrite, WriteString_eq_fwrite]
  rw [if_neg (by omega)]
  by_cases h4 : count > 4
  · rw [if_pos h4]
    refine ⟨by simp, fwrite_untouched _ _, ?_⟩
    have h := read_entry_of_block be
      (fwrite (tiff_entry_bytes be Software TIFFascii count offset) f).bytes
      f.pos Software TIFFascii count
      (if TIFFascii = TIFFshort ∧ count = 1 then host_bytes be 2 offset ++ host_bytes be 2 0
        else host_bytes be 4 offset)
      (fun j hj => fwrite_written _ f j (by simpa using hj)) (by decide) (by decide) hl
    rw [h]
    simp only [TiffCall.entry, h4, if_true]
    have hne : ¬ (TIFFascii = TIFFshort ∧ count = 1) := fun hh => absurd hh.1 (by decide)
    simp only [hne, if_false]
    have := read_uint_host_bytes_zero be 4 offset []
    simp only [List.append_nil] at this
    rw [this]
    rfl
  · rw [if_neg h4]
    have hc3 : count = 3 := by omega
    subst hc3
    have hs2 : strlen s = 2 := by omega
    have hwlen : ((s ++ [0]).take 3 ++ [(0 : Byte)]).length = 4 := by
      have := length_string_bytes s
      rw [hs2] at this
      exact this
    obtain ⟨hp, hu, hw1, hw2⟩ := overwrite_tail (tiff_entry_bytes be Software TIFFascii 3 offset)
      ((s ++ [0]).take 3 ++ [0]) f 4 (by simp)
    simp only [length_tiff_entry_bytes, hwlen] at hp hw1 hw2
    rw [show (-(4 : Int)) = -((4 : Nat) : Int) from rfl]
    have a1 : ((4 - 3 : Nat) &&& 2 : Nat) = 0 := by decide
    simp only [fseek_cur_pos, fseek_cur_bytes, a1]
    refine ⟨by rw [hp]; omega, hu, ?_⟩
    have h := read_entry_of_block be
      (fwrite ((s ++ [0]).take 3 ++ [0])
        (fseek_cur (fwrite (tiff_entry_bytes be Software TIFFascii 3 offset) f)
          (-((4 : Nat) : Int)))).bytes
      f.pos Software TIFFascii 3 ((s ++ [0]).take 3 ++ [0])
      (fun j hj => by
        have e1 : tiff_entry_bytes be Software TIFFascii 3 offset
            = (host_bytes be 2 Software ++ (host_bytes be 2 TIFFascii ++ host_bytes be 4 3))
              ++ (if TIFFascii = TIFFshort ∧ 3 = 1 then
                    host_bytes be 2 offset ++ host_bytes be 2 0
                  else host_bytes be 4 offset) := by
          simp only [tiff_entry_bytes, List.append_assoc]
        have e2 : host_bytes be 2 Software ++ (host_bytes be 2 TIFFascii
              ++ (host_bytes be 4 3 ++ ((s ++ [0]).take 3 ++ [0])))
            = (host_bytes be 2 Software ++ (host_bytes be 2 TIFFascii ++ host_bytes be 4 3))
              ++ ((s ++ [0]).take 3 ++ [0]) := by
          simp only [List.append_assoc]
        have hl8 : (host_bytes be 2 Software
            ++ (host_bytes be 2 TIFFascii ++ host_bytes be 4 3)).length = 8 := by simp
        rw [e2]
        generalize host_bytes be 2 Software
          ++ (host_bytes be 2 TIFFascii ++ host_bytes be 4 3) = hd at e1 hl8
        by_cases h8 : j < 8
        · rw [hw1 j (by omega), e1, byte_at_append_left hd _ j (by omega),
            byte_at_append_left hd _ j (by omega)]
        · have := hw2 (j - 8) (by omega)
          rw [show f.pos + 12 - 4 + (j - 8) = f.pos + j by omega] at this
          rw [this, byte_at_append_right hd _ j (by omega), hl8])
      (by decide) (by decide) (by norm_num)
    rw [h]
    simp only [TiffCall.entry, inline_string_value]
    have hne : ¬ (TIFFascii = TIFFshort ∧ 3 = 1) := fun hh => absurd hh.1 (by decide)
    simp only [hne, if_false, gt_iff_lt, Nat.lt_irrefl, show ¬ (4 < 3) by omega]

theorem call_writes_entry (be : Bool) (c : TiffCall) (hc : c.regular) :
    WritesEntry be (c.entry be) (fun f => TiffCall.run be f c) := by
  cases c with
  | plain tag type length offset =>
    obtain ⟨h1, h2, h3⟩ := hc
    exact plain_writes_entry be tag type length offset h1 h2 h3
  | ascii tag s count offset =>
    obtain ⟨h1, h2, h3⟩ := hc
    exact ascii_writes_entry be tag s count offset h1 h2 h3

theorem entries_spec (be : Bool) (calls : List TiffCall) (hall : ∀ c ∈ calls, c.regular)
    (f : FileState) :
    (calls.foldl (TiffCall.run be) f).pos = f.pos + 12 * calls.length
    ∧ Untouched f.pos f (calls.foldl (TiffCall.run be) f)
    ∧ ∀ k c, calls[k]? = some c →
        read_entry be (calls.foldl (TiffCall.run be) f).bytes (f.pos + 12 * k) = c.entry be := by
  induction calls generalizing f with
  | nil =>
    refine ⟨by simp, Untouched.refl _ _, ?_⟩
    intro k c hk
    simp at hk
  | cons d ds ih =>
    obtain ⟨h1, h2, h3⟩ := call_writes_entry be d (hall d (List.mem_cons_self _ _)) f
    dsimp only at h1 h2 h3
    obtain ⟨i1, i2, i3⟩ := ih (fun c hc => hall c (List.mem_cons_of_mem _ hc)) (TiffCall.run be f d)
    simp only [List.foldl_cons, List.length_cons]
    refine ⟨by rw [i1, h1]; ring, h2.trans i2 (by omega), ?_⟩
    intro k c hk
    cases k with
    | zero =>
      simp only [List.getElem?_cons_zero, Option.some.injEq] at hk
      subst hk
      rw [Nat.mul_zero, Nat.add_zero, ← h3]
      apply read_entry_congr
      intro j hj
      exact i2 (f.pos + j) (by omega)
    | succ n =>
      simp only [List.getElem?_cons_succ] at hk
      have := i3 n c hk
      rw [h1] at this
      rw [show f.pos + 12 * (n + 1) = f.pos + 12 + 12 * n by ring]
      exact this
theorem tiff_calls_regular (width height : Nat) (sw : Option (List Byte))
    (hs : software_strlen sw + 2 < 2 ^ 31)
    (hr : software_strlen sw = 0 ∨ software_strlen sw = 2 ∨ 4 ≤ software_strlen sw) :
    ∀ c ∈ tiff_calls width height sw, c.regular := by
  intro c hc
  simp only [tiff_calls, tiff_calls_a, tiff_calls_b, List.mem_append, List.mem_cons,
    List.mem_singleton, List.not_mem_nil, or_false] at hc
  rcases hc with (h | h | h | h | h | h) | ((h | h | h | h | h | h) | h) | h
  any_goals (subst h; exact ⟨by decide, by decide, by norm_num⟩)
  by_cases h0 : software_count sw ≠ 0
  · rw [if_pos h0, List.mem_singleton] at h
    subst h
    have e := software_count_eq sw h0
    have hle := software_count_le sw
    have hst : software_strlen sw ≠ 0 := by
      intro hz
      simp [software_count, hz] at h0
    have hcnt : software_count sw = software_strlen sw + 1 := by
      simp [software_count, hst]
    exact ⟨e, by omega, by omega⟩
  · rw [if_neg h0] at h
    exact absurd h (List.not_mem_nil _)

theorem entry_in_finished_file (be : Bool) (calls : List TiffCall) (hall : ∀ c ∈ calls, c.regular)
    (f0 : FileState) (z : List Byte) (width height : Nat) (data : List Float32)
    (hlen : 6 ≤ calls.length) (k : Nat) (c : TiffCall) (hk : calls[k]? = some c) (hk5 : k ≠ 5) :
    read_entry be (patch_and_payload be (fwrite z (calls.foldl (TiffCall.run be) f0))
      (f0.pos + 68) width height data).1.bytes (f0.pos + 12 * k) = c.entry be := by
  obtain ⟨s1, _, s3⟩ := entries_spec be calls hall f0
  obtain ⟨p1, _, _, _⟩ := patch_and_payload_spec be (fwrite z (calls.foldl (TiffCall.run be) f0))
    (f0.pos + 68) width height data (by rw [fwrite_pos, s1]; omega)
  have hkn : k < calls.length := by
    rcases Nat.lt_or_ge k calls.length with h | h
    · exact h
    · rw [List.getElem?_eq_none h] at hk
      exact absurd hk (by simp)
  rw [← s3 k c hk]
  apply read_entry_congr
  intro j hj
  rw [p1 _ (by rw [fwrite_pos, s1]; omega) (by omega),
    fwrite_untouched z _ _ (by rw [s1]; omega)]

theorem strip_offsets_entry_in_finished_file (be : Bool) (calls : List TiffCall)
    (hall : ∀ c ∈ calls, c.regular) (f0 : FileState) (z : List Byte) (width height : Nat)
    (data : List Float32) (hlen : 6 ≤ calls.length) (offset : Nat)
    (hk : calls[5]? = some (.plain StripOffsets TIFFlong 1 offset)) :
    read_entry be (patch_and_payload be (fwrite z (calls.foldl (TiffCall.run be) f0))
      (f0.pos + 68) width height data).1.bytes (f0.pos + 12 * 5)
      = ⟨StripOffsets, TIFFlong, 1,
          (fwrite z (calls.foldl (TiffCall.run be) f0)).pos % 2 ^ 32⟩ := by
  obtain ⟨s1, _, s3⟩ := entries_spec be calls hall f0
  obtain ⟨p1, p2, _, _⟩ := patch_and_payload_spec be (fwrite z (calls.foldl (TiffCall.run be) f0))
    (f0.pos + 68) width height data (by rw [fwrite_pos, s1]; omega)
  have h5 := s3 5 _ hk
  have hframe : ∀ i, i < f0.pos + 68 →
      byte_at (patch_and_payload be (fwrite z (calls.foldl (TiffCall.run be) f0))
        (f0.pos + 68) width height data).1.bytes i
      = byte_at (calls.foldl (TiffCall.run be) f0).bytes i := by
    intro i hi
    rw [p1 _ (by rw [fwrite_pos, s1]; omega) (Or.inl hi),
      fwrite_untouched z _ _ (by rw [s1]; omega)]
  have e0 := read_uint_congr be _ _ (f0.pos + 12 * 5) 2 (fun i _ h2 => hframe i (by omega))
  have e2 := read_uint_congr be _ _ (f0.pos + 12 * 5 + 2) 2 (fun i _ h2 => hframe i (by omega))
  have e4 := read_uint_congr be _ _ (f0.pos + 12 * 5 + 4) 4 (fun i _ h2 => hframe i (by omega))
  have t0 := congrArg IfdEntry.tag h5
  have t2 := congrArg IfdEntry.type h5
  have t4 := congrArg IfdEntry.count h5
  simp only [read_entry, TiffCall.entry] at t0 t2 t4
  rw [show f0.pos + 68 = f0.pos + 12 * 5 + 8 by omega] at p2
  simp only [read_entry, e0, e2, e4, t0, t2, t4, p2]
  rw [if_neg (fun hh => absurd hh.1 (by decide))]
  rfl
theorem byte_at_host_skip (be : Bool) (n x : Nat) (rest : List Byte) (j : Nat) :
    byte_at (host_bytes be n x ++ rest) (n + j) = byte_at rest j := by
  rw [byte_at_append_right _ _ _ (by rw [length_host_bytes]; omega), length_host_bytes]
  congr 1
  omega

theorem tiff_calls_without_software (width height : Nat) (sw : Option (List Byte))
    (h : software_strlen sw = 0) :
    tiff_calls width height sw =
      [.plain ImageWidth TIFFlong 1 width, .plain ImageLength TIFFlong 1 height,
       .plain BitsPerSample TIFFshort 1 16, .plain Compression TIFFshort 1 1,
       .plain PhotometricInterp TIFFshort 1 PHOTOMETRIC_MINISBLACK,
       .plain StripOffsets TIFFlong 1 0, .plain SamplesPerPixel TIFFshort 1 1,
       .plain RowsPerStrip TIFFlong 1 height,
       .plain StripByteCounts TIFFlong 1 (write_count width height),
       .plain XResolution TIFFrational 1 8, .plain YResolution TIFFrational 1 16,
       .plain ResolutionUnit TIFFshort 1 2,
       .plain TIFFTAG_SAMPLEFORMAT TIFFshort 1 SAMPLEFORMAT_UINT] := by
  simp [tiff_calls, tiff_calls_a, tiff_calls_b, software_count, h]

theorem tiff_calls_with_software (width height : Nat) (sw : Option (List Byte))
    (h : software_strlen sw ≠ 0) :
    tiff_calls width height sw =
      [.plain ImageWidth TIFFlong 1 width, .plain ImageLength TIFFlong 1 height,
       .plain BitsPerSample TIFFshort 1 16, .plain Compression TIFFshort 1 1,
       .plain PhotometricInterp TIFFshort 1 PHOTOMETRIC_MINISBLACK,
       .plain StripOffsets TIFFlong 1 0, .plain SamplesPerPixel TIFFshort 1 1,
       .plain RowsPerStrip TIFFlong 1 height,
       .plain StripByteCounts TIFFlong 1 (write_count width height),
       .plain XResolution TIFFrational 1 8, .plain YResolution TIFFrational 1 16,
       .plain ResolutionUnit TIFFshort 1 2,
       .ascii Software (sw.getD []) (software_strlen sw + 1) 24,
       .plain TIFFTAG_SAMPLEFORMAT TIFFshort 1 SAMPLEFORMAT_UINT] := by
  simp [tiff_calls, tiff_calls_a, tiff_calls_b, software_count, h]

theorem tiff_prologue_in_finished_file (be : Bool) (width height : Nat) (data : List Float32)
    (sw : Option (List Byte)) :
    ∀ i, i < (tiff_header_bytes be sw ++ host_bytes be 2 (tag_count sw)).length →
      byte_at (patch_and_payload be (tiff_directory be ⟨[], 0⟩ width height sw).1
        (tiff_directory be ⟨[], 0⟩ width height sw).2 width height data).1.bytes i
      = byte_at (tiff_header_bytes be sw ++ host_bytes be 2 (tag_count sw)) i := by
  intro i hi
  rw [tiff_directory_eq]
  have hf0 := tiff_before_entries_pos be ⟨[], 0⟩ sw
  obtain ⟨e1, _⟩ := tiff_entries_end_pos be ⟨[], 0⟩ width height sw
  have hlen := length_tiff_header_bytes be sw
  have hb : tiff_before_entries be ⟨[], 0⟩ sw
      = fwrite [] (fwrite (tiff_header_bytes be sw ++ host_bytes be 2 (tag_count sw)) ⟨[], 0⟩) := by
    simp only [tiff_before_entries, WriteWord, tiff_header_eq_fwrite, fwrite_fwrite, fwrite_nil,
      List.append_nil]
  simp only [List.length_append, length_host_bytes] at hi
  have h := header_in_finished_file be (TiffCall.run be) TiffCall.tagId 12 13 (by omega)
    (tiff_calls width height sw) (tiff_calls_entry_steps be width height sw)
    (tiff_header_bytes be sw ++ host_bytes be 2 (tag_count sw)) [] (host_bytes be 4 0) ⟨[], 0⟩
    ((tiff_before_entries be ⟨[], 0⟩ sw).pos + 68) width height data
    (by simp only [List.length_append, length_host_bytes]; omega)
    (by rw [← hb]; omega) i (by simp only [List.length_append, length_host_bytes]; omega)
  rw [← hb] at h
  simpa only [Nat.zero_add] using h

theorem tiff_rationals_in_finished_file (be : Bool) (width height : Nat) (data : List Float32)
    (sw : Option (List Byte)) :
    read_uint be (patch_and_payload be (tiff_directory be ⟨[], 0⟩ width height sw).1
        (tiff_directory be ⟨[], 0⟩ width height sw).2 width height data).1.bytes 8 4 = 720000
    ∧ read_uint be (patch_and_payload be (tiff_directory be ⟨[], 0⟩ width height sw).1
        (tiff_directory be ⟨[], 0⟩ width height sw).2 width height data).1.bytes 12 4 = 10000
    ∧ read_uint be (patch_and_payload be (tiff_directory be ⟨[], 0⟩ width height sw).1
        (tiff_directory be ⟨[], 0⟩ width height sw).2 width height data).1.bytes 16 4 = 720000
    ∧ read_uint be (patch_and_payload be (tiff_directory be ⟨[], 0⟩ width height sw).1
        (tiff_directory be ⟨[], 0⟩ width height sw).2 width height data).1.bytes 20 4 = 10000 := by
  have hp := tiff_prologue_in_finished_file be width height data sw
  have hlen := length_tiff_header_bytes be sw
  simp only [List.length_append, length_host_bytes, hlen] at hp
  have hb : ∀ i, i < 24 →
      byte_at (tiff_header_bytes be sw ++ host_bytes be 2 (tag_count sw)) i
        = byte_at (tiff_header_bytes be sw) i :=
    fun i hi => byte_at_append_left _ _ _ (by omega)
  refine ⟨?_, ?_, ?_, ?_⟩
  · rw [read_uint_host_bytes be _ 8 4 (72 * 0x02710) (fun j hj => by
      rw [hp _ (by omega), hb _ (by omega), tiff_header_bytes,
        show 8 + j = 2 + (2 + (4 + j)) by omega, byte_at_host_skip, byte_at_host_skip,
        byte_at_host_skip, byte_at_append_left _ _ _ (by rw [length_host_bytes]; exact hj)])]
    norm_num
  · rw [read_uint_host_bytes be _ 12 4 0x02710 (fun j hj => by
      rw [hp _ (by omega), hb _ (by omega), tiff_header_bytes,
        show 12 + j = 2 + (2 + (4 + (4 + j))) by omega, byte_at_host_skip, byte_at_host_skip,
        byte_at_host_skip, byte_at_host_skip,
        byte_at_append_left _ _ _ (by rw [length_host_bytes]; exact hj)])]
    norm_num
  · rw [read_uint_host_bytes be _ 16 4 (72 * 0x02710) (fun j hj => by
      rw [hp _ (by omega), hb _ (by omega), tiff_header_bytes,
        show 16 + j = 2 + (2 + (4 + (4 + (4 + j)))) by omega, byte_at_host_skip,
        byte_at_host_skip, byte_at_host_skip, byte_at_host_skip, byte_at_host_skip,
        byte_at_append_left _ _ _ (by rw [length_host_bytes]; exact hj)])]
    norm_num
  · rw [read_uint_host_bytes be _ 20 4 0x02710 (fun j hj => by
      rw [hp _ (by omega), hb _ (by omega), tiff_header_bytes,
        show 20 + j = 2 + (2 + (4 + (4 + (4 + (4 + j))))) by omega, byte_at_host_skip,
        byte_at_host_skip, byte_at_host_skip, byte_at_host_skip, byte_at_host_skip,
        byte_at_host_skip, byte_at_append_left _ _ _ (by rw [length_host_bytes]; exact hj)])]
    norm_num

theorem tiff_count_in_finished_file (be : Bool) (width height : Nat) (data : List Float32)
    (sw : Option (List Byte)) :
    read_uint be (patch_and_payload be (tiff_directory be ⟨[], 0⟩ width height sw).1
        (tiff_directory be ⟨[], 0⟩ width height sw).2 width height data).1.bytes
      (tiff_header be ⟨[], 0⟩ sw).pos 2 = tag_count sw := by
  have hp := tiff_prologue_in_finished_file be width height data sw
  have hpos : (tiff_header be ⟨[], 0⟩ sw).pos = (tiff_header_bytes be sw).length := by
    rw [tiff_header_eq_fwrite, fwrite_pos]
    simp
  rw [hpos, read_uint_host_bytes be _ _ 2 (tag_count sw) (fun j hj => by
    rw [hp _ (by simp only [List.length_append, length_host_bytes]; omega),
      byte_at_append_right _ _ _ (by omega)]
    congr 1
    omega)]
  unfold tag_count
  split <;> rfl
/-- C10, as amended. For `width` and `height` in the range of an `int`, on an empty sink
and when the size check does not divert to BigTIFF, the IFD that a reader finds at the
position where `WriteGrayscale16BitToTIFF` wrote the entry count consists of exactly the
entries listed; the `Software` entry is there when the string is not empty, with the
offset 24 for a string of at least four characters and with the string itself in the
value slot for a string of two characters (nothing is said of strings of one or of three
characters).  The entry count is 13 without and 14 with a software string, and the bytes
8..23 of the file hold the rationals 720000/10000 twice. -/
theorem classic_ifd_entries (be : Bool) (width height : Nat) (data : List Float32)
    (sw : Option (List Byte)) (hw : width < 2 ^ 31) (hh : height < 2 ^ 31)
    (hs : software_strlen sw + 2 < 2 ^ 31)
    (hr : software_strlen sw = 0 ∨ software_strlen sw = 2 ∨ 4 ≤ software_strlen sw)
    (hsmall : too_big_for_tiff (((tiff_directory be ⟨[], 0⟩ width height sw).1.pos
      + write_count width height) % 2 ^ 64) = false) :
    read_ifd be (WriteGrayscale16BitToTIFF be ⟨[], 0⟩ width height data sw).file.bytes
        (tiff_header be ⟨[], 0⟩ sw).pos
      = [⟨ImageWidth, TIFFlong, 1, width⟩, ⟨ImageLength, TIFFlong, 1, height⟩,
         ⟨BitsPerSample, TIFFshort, 1, 16⟩, ⟨Compression, TIFFshort, 1, 1⟩,
         ⟨PhotometricInterp, TIFFshort, 1, 1⟩,
         ⟨StripOffsets, TIFFlong, 1, (tiff_directory be ⟨[], 0⟩ width height sw).1.pos⟩,
         ⟨SamplesPerPixel, TIFFshort, 1, 1⟩, ⟨RowsPerStrip, TIFFlong, 1, height⟩,
         ⟨StripByteCounts, TIFFlong, 1, width * height * 2⟩,
         ⟨XResolution, TIFFrational, 1, 8⟩, ⟨YResolution, TIFFrational, 1, 16⟩,
         ⟨ResolutionUnit, TIFFshort, 1, 2⟩]
        ++ (if software_strlen sw = 0 then []
            else [⟨Software, TIFFascii, software_strlen sw + 1,
              if 4 ≤ software_strlen sw then 24 else inline_string_value be (sw.getD [])⟩])
        ++ [⟨TIFFTAG_SAMPLEFORMAT, TIFFshort, 1, 1⟩]
    ∧ read_uint be (WriteGrayscale16BitToTIFF be ⟨[], 0⟩ width height data sw).file.bytes
        (tiff_header be ⟨[], 0⟩ sw).pos 2 = (if software_strlen sw = 0 then 13 else 14)
    ∧ read_uint be (WriteGrayscale16BitToTIFF be ⟨[], 0⟩ width height data sw).file.bytes 8 4
        = 720000
    ∧ read_uint be (WriteGrayscale16BitToTIFF be ⟨[], 0⟩ width height data sw).file.bytes 12 4
        = 10000
    ∧ read_uint be (WriteGrayscale16BitToTIFF be ⟨[], 0⟩ width height data sw).file.bytes 16 4
        = 720000
    ∧ read_uint be (WriteGrayscale16BitToTIFF be ⟨[], 0⟩ width height data sw).file.bytes 20 4
        = 10000 := by
  have hcnt := tiff_count_in_finished_file be width height data sw
  have hrat := tiff_rationals_in_finished_file be width height data sw
  have hsb := length_software_bytes_le be sw
  have hf0 := tiff_before_entries_pos be ⟨[], 0⟩ sw
  obtain ⟨e1, e2⟩ := tiff_entries_end_pos be ⟨[], 0⟩ width height sw
  have hpos : (tiff_directory be ⟨[], 0⟩ width height sw).1.pos
      = ((tiff_calls width height sw).foldl (TiffCall.run be)
          (tiff_before_entries be ⟨[], 0⟩ sw)).pos + 4 := by
    rw [tiff_directory_eq, fwrite_pos, length_host_bytes]
  have hposlt : (tiff_directory be ⟨[], 0⟩ width height sw).1.pos < 2 ^ 32 := by
    simp only [] at hf0; omega
  have hiff := too_big_for_tiff_iff (tiff_directory be ⟨[], 0⟩ width height sw).1.pos width height
    hw hh (by omega) hposlt
  have hnot : ¬ 2 ^ 32 < (tiff_directory be ⟨[], 0⟩ width height sw).1.pos + width * height * 2 := by
    intro hb
    rw [hiff.mpr hb] at hsmall
    exact absurd hsmall (by decide)
  have hwc : write_count width height % 2 ^ 32 = width * height * 2 := by
    unfold write_count
    rw [Nat.mul_comm height width, Nat.mod_eq_of_lt (show width * height * 2 < 2 ^ 64 by omega)]
    exact Nat.mod_eq_of_lt (by omega)
  have hwm : width % 2 ^ 32 = width := Nat.mod_eq_of_lt (by omega)
  have hhm : height % 2 ^ 32 = height := Nat.mod_eq_of_lt (by omega)
  have hpm : (tiff_directory be ⟨[], 0⟩ width height sw).1.pos % 2 ^ 32
      = (tiff_directory be ⟨[], 0⟩ width height sw).1.pos := Nat.mod_eq_of_lt hposlt
  have hP : (tiff_before_entries be ⟨[], 0⟩ sw).pos = (tiff_header be ⟨[], 0⟩ sw).pos + 2 := by
    simp only [tiff_before_entries, WriteWord, fwrite_pos, length_host_bytes]
  have hreg := tiff_calls_regular width height sw hs hr
  have hlen6 : 6 ≤ (tiff_calls width height sw).length := by
    have := length_tiff_calls_ge width height sw
    omega
  have he := fun k c hk hk5 => entry_in_finished_file be (tiff_calls width height sw) hreg
    (tiff_before_entries be ⟨[], 0⟩ sw) (host_bytes be 4 0) width height data hlen6 k c hk hk5
  have h5 := fun offset hk => strip_offsets_entry_in_finished_file be (tiff_calls width height sw)
    hreg (tiff_before_entries be ⟨[], 0⟩ sw) (host_bytes be 4 0) width height data hlen6 offset hk
  simp only [WriteGrayscale16BitToTIFF, hsmall, Bool.false_eq_true, if_false]
  refine ⟨?_, ?_, hrat⟩
  · unfold read_ifd
    rw [hcnt]
    rw [tiff_directory_eq] at hpm ⊢
    simp only [] at hpm ⊢
    rw [← hP]
    by_cases hz : software_strlen sw = 0
    · rw [tiff_calls_without_software width height sw hz] at he h5 hpm ⊢
      simp only [tag_count, hz, ne_eq, not_true_eq_false, if_false, if_true, List.append_nil]
      rw [show List.range 13 = [0, 1, 2, 3, 4, 5, 6, 7, 8, 9, 10, 11, 12] by decide]
      simp only [List.map_cons, List.map_nil]
      rw [he 0 _ rfl (by decide), he 1 _ rfl (by decide), he 2 _ rfl (by decide),
        he 3 _ rfl (by decide), he 4 _ rfl (by decide), h5 0 rfl, he 6 _ rfl (by decide),
        he 7 _ rfl (by decide), he 8 _ rfl (by decide), he 9 _ rfl (by decide),
        he 10 _ rfl (by decide), he 11 _ rfl (by decide), he 12 _ rfl (by decide), hpm]
      simp [TiffCall.entry, TIFFshort, TIFFlong, TIFFrational, PHOTOMETRIC_MINISBLACK,
        SAMPLEFORMAT_UINT, hwm, hhm, hwc]
      exact ⟨by omega, by omega, hwc⟩
    · rw [tiff_calls_with_software width height sw hz] at he h5 hpm ⊢
      simp only [tag_count, hz, ne_eq, not_false_eq_true, if_false, if_true]
      rw [show List.range 14 = [0, 1, 2, 3, 4, 5, 6, 7, 8, 9, 10, 11, 12, 13] by decide]
      simp only [List.map_cons, List.map_nil]
      rw [he 0 _ rfl (by decide), he 1 _ rfl (by decide), he 2 _ rfl (by decide),
        he 3 _ rfl (by decide), he 4 _ rfl (by decide), h5 0 rfl, he 6 _ rfl (by decide),
        he 7 _ rfl (by decide), he 8 _ rfl (by decide), he 9 _ rfl (by decide),
        he 10 _ rfl (by decide), he 11 _ rfl (by decide), he 12 _ rfl (by decide),
        he 13 _ rfl (by decide), hpm]
      have h4 : (software_strlen sw + 1 > 4) = (4 ≤ software_strlen sw) := by
        apply propext
        constructor <;> intro h <;> omega
      simp [TiffCall.entry, TIFFshort, TIFFlong, TIFFrational, PHOTOMETRIC_MINISBLACK,
        SAMPLEFORMAT_UINT, hwm, hhm, hwc, h4]
      exact ⟨by omega, by omega, hwc⟩
  · rw [hcnt]
    unfold tag_count
    by_cases hz : software_strlen sw = 0
    · simp [hz]
    · simp [hz]

/-- C10, witness: the 1x1 image without software string on a little-endian host; the
thirteen entries are read at offset 26. -/
theorem classic_ifd_entries_witness :
    ((1 : Nat) < 2 ^ 31 ∧ software_strlen none + 2 < 2 ^ 31
      ∧ (software_strlen none = 0 ∨ software_strlen none = 2 ∨ 4 ≤ software_strlen none)
      ∧ too_big_for_tiff (((tiff_directory false ⟨[], 0⟩ 1 1 none).1.pos + write_count 1 1)
          % 2 ^ 64) = false)
    ∧ read_uint false (WriteGrayscale16BitToTIFF false ⟨[], 0⟩ 1 1 [1120403456] none).file.bytes
        (tiff_header false ⟨[], 0⟩ none).pos 2 = (if software_strlen none = 0 then 13 else 14)
    ∧ read_ifd false (WriteGrayscale16BitToTIFF false ⟨[], 0⟩ 1 1 [1120403456] none).file.bytes 26
      = [⟨256, 4, 1, 1⟩, ⟨257, 4, 1, 1⟩, ⟨258, 3, 1, 16⟩, ⟨259, 3, 1, 1⟩, ⟨262, 3, 1, 1⟩,
         ⟨273, 4, 1, 188⟩, ⟨277, 3, 1, 1⟩, ⟨278, 4, 1, 1⟩, ⟨279, 4, 1, 2⟩, ⟨282, 5, 1, 8⟩,
         ⟨283, 5, 1, 16⟩, ⟨296, 3, 1, 2⟩, ⟨339, 3, 1, 1⟩] :=
  ⟨by rw [tiff_directory_one_pixel]; decide,
    (classic_ifd_entries false 1 1 [1120403456] none (by decide) (by decide) (by decide)
      (by decide) (by rw [tiff_directory_one_pixel]; decide)).2.1,
    by rw [tiff_one_pixel]; decide⟩

/-- C10, counterexample: with the software string "ab" (1x1 image, little-endian host) the
directory is read at offset 28, as the header says; its thirteenth entry is the `Software`
entry with count 3, and its value slot does not hold the offset 24 but the string itself,
the bytes 97, 98, 0, 0, that is the integer 25185. -/
theorem software_entry_is_inline_for_short_string :
    software_strlen (some [97, 98]) = 2
    ∧ read_uint false (WriteGrayscale16BitToTIFF false ⟨[], 0⟩ 1 1 [1120403456]
        (some [97, 98])).file.bytes 4 4 = 28
    ∧ (tiff_header false ⟨[], 0⟩ (some [97, 98])).pos = 28
    ∧ (read_ifd false (WriteGrayscale16BitToTIFF false ⟨[], 0⟩ 1 1 [1120403456]
        (some [97, 98])).file.bytes 28).length = 14
    ∧ (read_ifd false (WriteGrayscale16BitToTIFF false ⟨[], 0⟩ 1 1 [1120403456]
        (some [97, 98])).file.bytes 28).getD 12 ⟨0, 0, 0, 0⟩ = ⟨305, 2, 3, 25185⟩ := by
  rw [tiff_one_pixel_ab]
  decide

/-! ## Decimal digits -/

theorem length_digits_fixed (k n : Nat) : (digits_fixed k n).length = k := by
  induction k generalizing n with
  | zero => rfl
  | succ k ih => simp [digits_fixed, ih]

theorem isdigit_digit_char (n : Nat) : isdigit (digit_char n) = true := by
  have h : n % 10 < 10 := Nat.mod_lt _ (by decide)
  simp only [isdigit, digit_char, decide_eq_true_eq]
  omega

theorem digit_char_val (n : Nat) : (digit_char n).val - 48 = n % 10 := by
  simp only [digit_char]
  omega

theorem scan_digits_stop (c : Byte) (rest : List Byte) (acc n : Nat) (h : isdigit c = false) :
    scan_digits (c :: rest) acc n = (acc, n, c :: rest) := by
  simp [scan_digits, h]

theorem scan_digits_fixed (k n : Nat) (rest : List Byte) (acc cnt : Nat) :
    scan_digits (digits_fixed k n ++ rest) acc cnt
      = scan_digits rest (acc * 10 ^ k + n % 10 ^ k) (cnt + k) := by
  induction k generalizing n rest with
  | zero => simp [digits_fixed, Nat.mod_one]
  | succ k ih =>
    rw [digits_fixed, List.append_assoc, ih]
    simp only [List.singleton_append, scan_digits, isdigit_digit_char, if_true, digit_char_val]
    have h : n % 10 ^ (k + 1) = n % 10 + 10 * (n / 10 % 10 ^ k) := by
      rw [pow_succ, mul_comm, Nat.mod_mul]
    have e : (acc * 10 ^ k + n / 10 % 10 ^ k) * 10 + n % 10
        = acc * 10 ^ (k + 1) + (n % 10 + 10 * (n / 10 % 10 ^ k)) := by ring
    rw [h, e]
    rfl

theorem declen_aux_spec (fuel n : Nat) (h : n ≤ fuel) :
    n < 10 ^ declen_aux fuel n ∧ (0 < n → 10 ^ (declen_aux fuel n - 1) ≤ n) := by
  induction fuel generalizing n with
  | zero =>
    have : n = 0 := by omega
    subst this
    simp [declen_aux]
  | succ fuel ih =>
    rw [declen_aux]
    by_cases h10 : n < 10
    · rw [if_pos h10]
      exact ⟨by simpa using h10, fun h0 => by simpa using h0⟩
    · rw [if_neg h10, Nat.add_sub_cancel]
      have h2 := ih (n / 10) (by omega)
      constructor
      · rw [pow_succ]
        have := h2.1
        omega
      · intro _
        have h3 := h2.2 (by omega)
        have h4 : 1 ≤ declen_aux fuel (n / 10) := by
          cases fuel with
          | zero => simp [declen_aux]
          | succ f => rw [declen_aux]; split <;> omega
        have h5 : 10 ^ declen_aux fuel (n / 10) = 10 ^ (declen_aux fuel (n / 10) - 1) * 10 := by
          rw [← pow_succ]
          congr 1
          omega
        rw [h5]
        omega

theorem lt_pow_declen (n : Nat) : n < 10 ^ declen n := (declen_aux_spec n n (le_refl n)).1

theorem pow_declen_le (n : Nat) (h : 0 < n) : 10 ^ (declen n - 1) ≤ n :=
  (declen_aux_spec n n (le_refl n)).2 h

theorem declen_pos (n : Nat) : 1 ≤ declen n := by
  rw [declen]
  cases n with
  | zero => simp [declen_aux]
  | succ f => rw [declen_aux]; split <;> omega

theorem scan_dec_digits (n : Nat) (rest : List Byte) (acc cnt : Nat) :
    scan_digits (dec_digits n ++ rest) acc cnt
      = scan_digits rest (acc * 10 ^ declen n + n) (cnt + declen n) := by
  rw [dec_digits, scan_digits_fixed, Nat.mod_eq_of_lt (lt_pow_declen n)]

theorem digits_fixed_all_digits (k n : Nat) : ∀ c ∈ digits_fixed k n, isdigit c = true := by
  induction k generalizing n with
  | zero => simp [digits_fixed]
  | succ k ih =>
    intro c hc
    rw [digits_fixed, List.mem_append] at hc
    rcases hc with hc | hc
    · exact ih _ c hc
    · rw [List.mem_singleton] at hc
      rw [hc]
      exact isdigit_digit_char n

theorem dec_digits_ne_nil (n : Nat) : dec_digits n ≠ [] := by
  intro h
  have h1 := congrArg List.length h
  rw [dec_digits, length_digits_fixed] at h1
  have := declen_pos n
  simp at h1
  omega
/-! ## Reading back a printed integer -/

theorem isdigit_val {c : Byte} (h : isdigit c = true) : 48 ≤ c.val ∧ c.val ≤ 57 := by
  simpa [isdigit] using h

theorem isspace_of_isdigit {c : Byte} (h : isdigit c = true) : isspace c = false := by
  have := isdigit_val h
  simp only [isspace, decide_eq_false_iff_not]
  omega

theorem ne_of_isdigit {c : Byte} (h : isdigit c = true) (d : Byte)
    (hd : d.val < 48 ∨ 57 < d.val) : c ≠ d := by
  have := isdigit_val h
  intro e
  rw [e] at this
  omega

theorem tolower_of_isdigit {c : Byte} (h : isdigit c = true) : tolower c = c := by
  have := isdigit_val h
  rw [tolower, dif_neg]
  omega

theorem skip_space_cons (c : Byte) (s : List Byte) (h : isspace c = false) :
    skip_space (c :: s) = c :: s := by
  simp [skip_space, h]

theorem dec_digits_head (n : Nat) :
    ∃ d t, dec_digits n = d :: t ∧ isdigit d = true ∧ ∀ c ∈ t, isdigit c = true := by
  have h := dec_digits_ne_nil n
  have ha := digits_fixed_all_digits (declen n) n
  rw [← dec_digits] at ha
  cases hd : dec_digits n with
  | nil => exact absurd hd h
  | cons d t =>
    rw [hd] at ha
    exact ⟨d, t, rfl, ha d (List.mem_cons_self _ _), fun c hc => ha c (List.mem_cons_of_mem _ hc)⟩

theorem scan_sign_text (neg : Bool) (d : Byte) (t : List Byte) (hd : isdigit d = true) :
    scan_sign (skip_space (sign_text neg ++ d :: t)) = (neg, d :: t) := by
  have h45 : d ≠ 45 := ne_of_isdigit hd 45 (by decide)
  have h43 : d ≠ 43 := ne_of_isdigit hd 43 (by decide)
  cases neg with
  | true =>
    have e : sign_text true ++ d :: t = 45 :: d :: t := rfl
    rw [e, skip_space_cons _ _ (by decide)]
    rfl
  | false =>
    have e : sign_text false ++ d :: t = d :: t := rfl
    rw [e, skip_space_cons _ _ (isspace_of_isdigit hd)]
    simp [scan_sign, h45, h43]

theorem scan_d_fmt_d (n : Int) (c : Byte) (rest : List Byte) (hc : isdigit c = false) :
    scan_d (fmt_d n ++ c :: rest) = some n := by
  obtain ⟨d, t, hd, hd1, _⟩ := dec_digits_head n.natAbs
  have e : fmt_d n ++ c :: rest = sign_text (decide (n < 0)) ++ d :: (t ++ c :: rest) := by
    rw [fmt_d, hd]
    simp
  have e2 : d :: (t ++ c :: rest) = dec_digits n.natAbs ++ c :: rest := by
    rw [hd]
    rfl
  rw [scan_d, e, scan_sign_text _ _ _ hd1]
  simp only []
  rw [e2, scan_dec_digits, scan_digits_stop _ _ _ _ hc]
  have hp := declen_pos n.natAbs
  simp only [Nat.zero_mul, Nat.zero_add]
  rw [if_neg (by omega)]
  congr 1
  by_cases hn : n < 0
  · simp only [hn, decide_True, if_true]
    omega
  · simp only [hn, decide_False, Bool.false_eq_true, if_false]
    omega
/-! ## Reading back a printed decimal fraction -/

theorem frac_digits_spec (f F : Nat) (hF : F < 10 ^ f) :
    ∃ g G, frac_digits f F = digits_fixed g G ∧ g ≤ f ∧ F = G * 10 ^ (f - g) ∧ G < 10 ^ g := by
  induction f generalizing F with
  | zero => exact ⟨0, F, rfl, le_refl _, by simp, by simpa using hF⟩
  | succ f ih =>
    rw [frac_digits]
    by_cases h0 : F % 10 = 0
    · rw [if_pos h0]
      have hF2 : F / 10 < 10 ^ f := by
        rw [pow_succ] at hF
        omega
      obtain ⟨g, G, e1, e2, e3, e4⟩ := ih (F / 10) hF2
      refine ⟨g, G, e1, by omega, ?_, e4⟩
      have e5 : f + 1 - g = (f - g) + 1 := by omega
      rw [e5, pow_succ, ← mul_assoc, ← e3]
      omega
    · rw [if_neg h0]
      exact ⟨f + 1, F, rfl, le_refl _, by simp, hF⟩

theorem point_frac_digits (g G : Nat) :
    point_frac (digits_fixed g G) = if g = 0 then [] else 46 :: digits_fixed g G := by
  rw [point_frac]
  by_cases h : g = 0
  · subst h
    rfl
  · have h2 : digits_fixed g G ≠ [] := by
      intro e
      have := congrArg List.length e
      rw [length_digits_fixed] at this
      exact h (by simpa using this)
    rw [if_neg h2, if_neg h]
    rfl

theorem scan_exponent_cr (mark : Byte) (rest : List Byte) (h : mark ≠ 13) :
    scan_exponent mark (13 :: rest) = 0 := by
  have e : tolower 13 = 13 := by decide
  simp only [scan_exponent, e]
  rw [if_neg (fun h2 => h h2.symm)]

theorem scan_sign_minus (s : List Byte) : scan_sign (45 :: s) = (true, s) := rfl

theorem scan_sign_plus (s : List Byte) : scan_sign (43 :: s) = (false, s) := rfl

theorem scan_exponent_text (X : Int) (rest : List Byte) :
    scan_exponent 101 (exp_text X ++ 13 :: rest) = X := by
  have hw : X.natAbs < 10 ^ max 2 (declen X.natAbs) :=
    lt_of_lt_of_le (lt_pow_declen _) (Nat.pow_le_pow_right (by decide) (le_max_right _ _))
  have h2 : 2 ≤ max 2 (declen X.natAbs) := le_max_left _ _
  have e101 : tolower 101 = 101 := by decide
  have hd : scan_digits (digits_fixed (max 2 (declen X.natAbs)) X.natAbs ++ 13 :: rest) 0 0
      = (X.natAbs, max 2 (declen X.natAbs), 13 :: rest) := by
    rw [scan_digits_fixed, scan_digits_stop _ _ _ _ (by decide), Nat.mod_eq_of_lt hw]
    simp
  by_cases hX : X < 0
  · have e : exp_text X ++ 13 :: rest
        = 101 :: 45 :: (digits_fixed (max 2 (declen X.natAbs)) X.natAbs ++ 13 :: rest) := by
      simp [exp_text, hX, str]
    rw [e]
    simp only [scan_exponent, e101, if_true, scan_sign_minus, hd]
    omega
  · have e : exp_text X ++ 13 :: rest
        = 101 :: 43 :: (digits_fixed (max 2 (declen X.natAbs)) X.natAbs ++ 13 :: rest) := by
      simp [exp_text, hX, str]
    rw [e]
    simp only [scan_exponent, e101, if_true, scan_sign_plus, hd, Bool.false_eq_true, if_false]
    omega

theorem scan_fraction_point (i : Nat) (t : List Byte) :
    scan_fraction i (46 :: t) = scan_digits t i 0 := rfl

theorem scan_fraction_other (i : Nat) (c : Byte) (t : List Byte) (h : c ≠ 46) :
    scan_fraction i (c :: t) = (i, 0, c :: t) := by
  simp [scan_fraction, h]

theorem scan_decimal_plain (I g G : Nat) (rest : List Byte) (hG : G < 10 ^ g) :
    scan_decimal (dec_digits I ++ point_frac (digits_fixed g G) ++ 13 :: rest)
      = some (.ratio (I * 10 ^ g + G) (10 ^ g)) := by
  have hp := declen_pos I
  rw [List.append_assoc, point_frac_digits]
  by_cases hg : g = 0
  · subst hg
    have hG0 : G = 0 := by simpa using hG
    subst hG0
    rw [if_pos rfl, List.nil_append]
    have h1 : scan_digits (dec_digits I ++ 13 :: rest) 0 0 = (I, declen I, 13 :: rest) := by
      rw [scan_dec_digits, scan_digits_stop _ _ _ _ (by decide)]
      simp
    rw [scan_decimal, h1]
    simp only []
    rw [scan_fraction_other _ _ _ (by decide)]
    simp only [float_lit]
    rw [if_neg (by omega), scan_exponent_cr _ _ (by decide)]
    simp
  · rw [if_neg hg]
    have h1 : scan_digits (dec_digits I ++ (46 :: digits_fixed g G ++ 13 :: rest)) 0 0
        = (I, declen I, 46 :: (digits_fixed g G ++ 13 :: rest)) := by
      rw [scan_dec_digits, List.cons_append, scan_digits_stop _ _ _ _ (by decide)]
      simp
    have h2 : scan_digits (digits_fixed g G ++ 13 :: rest) I 0 = (I * 10 ^ g + G, g, 13 :: rest) := by
      rw [scan_digits_fixed, scan_digits_stop _ _ _ _ (by decide), Nat.mod_eq_of_lt hG]
      simp
    rw [scan_decimal, h1]
    simp only []
    rw [scan_fraction_point, h2]
    simp only [float_lit]
    rw [if_neg (by omega), scan_exponent_cr _ _ (by decide)]
    simp

theorem scan_decimal_exp (I g G : Nat) (X : Int) (rest : List Byte) (hG : G < 10 ^ g) :
    scan_decimal (dec_digits I ++ point_frac (digits_fixed g G) ++ exp_text X ++ 13 :: rest)
      = some (.ratio ((I * 10 ^ g + G) * 10 ^ (X - (g : Int)).toNat)
          (10 ^ ((g : Int) - X).toNat)) := by
  have hp := declen_pos I
  have he : ∃ t, exp_text X = 101 :: t := ⟨_, rfl⟩
  obtain ⟨t, ht⟩ := he
  have hs : ∀ (a n : Nat), scan_digits (exp_text X ++ 13 :: rest) a n
      = (a, n, exp_text X ++ 13 :: rest) := by
    intro a n
    rw [ht, List.cons_append]
    exact scan_digits_stop _ _ _ _ (by decide)
  have hf : ∀ (i : Nat), scan_fraction i (exp_text X ++ 13 :: rest)
      = (i, 0, exp_text X ++ 13 :: rest) := by
    intro i
    rw [ht, List.cons_append]
    exact scan_fraction_other _ _ _ (by decide)
  rw [List.append_assoc, List.append_assoc, point_frac_digits]
  by_cases hg : g = 0
  · subst hg
    have hG0 : G = 0 := by simpa using hG
    subst hG0
    rw [if_pos rfl, List.nil_append]
    have h1 : scan_digits (dec_digits I ++ (exp_text X ++ 13 :: rest)) 0 0
        = (I, declen I, exp_text X ++ 13 :: rest) := by
      rw [scan_dec_digits, hs]
      simp
    rw [scan_decimal, h1]
    simp only []
    rw [hf]
    simp only [float_lit]
    rw [if_neg (by omega), scan_exponent_text]
    simp
  · rw [if_neg hg]
    have h1 : scan_digits (dec_digits I ++ (46 :: digits_fixed g G ++ (exp_text X ++ 13 :: rest))) 0 0
        = (I, declen I, 46 :: (digits_fixed g G ++ (exp_text X ++ 13 :: rest))) := by
      rw [scan_dec_digits, List.cons_append, scan_digits_stop _ _ _ _ (by decide)]
      simp
    have h2 : scan_digits (digits_fixed g G ++ (exp_text X ++ 13 :: rest)) I 0
        = (I * 10 ^ g + G, g, exp_text X ++ 13 :: rest) := by
      rw [scan_digits_fixed, hs, Nat.mod_eq_of_lt hG]
      simp
    rw [scan_decimal, h1]
    simp only []
    rw [scan_fraction_point, h2]
    simp only [float_lit]
    rw [if_neg (by omega), scan_exponent_text]
    simp
/-! ## Rounding of a ratio does not depend on the fraction chosen -/

theorem bitlen_aux_spec (fuel n : Nat) (h : n ≤ fuel) (hn : 0 < n) :
    2 ^ (bitlen_aux fuel n - 1) ≤ n ∧ n < 2 ^ bitlen_aux fuel n ∧ 1 ≤ bitlen_aux fuel n := by
  induction fuel generalizing n with
  | zero => omega
  | succ fuel ih =>
    rw [bitlen_aux, if_neg (by omega), Nat.add_sub_cancel]
    by_cases h1 : n / 2 = 0
    · have hn1 : n = 1 := by omega
      subst hn1
      have e : bitlen_aux fuel (1 / 2) = 0 := by
        cases fuel with
        | zero => rfl
        | succ f => simp [bitlen_aux]
      rw [e]
      simp
    · obtain ⟨h2, h3, h4⟩ := ih (n / 2) (by omega) (by omega)
      refine ⟨?_, ?_, by omega⟩
      · have e : bitlen_aux fuel (n / 2) = (bitlen_aux fuel (n / 2) - 1) + 1 := by omega
        rw [e, pow_succ]
        omega
      · rw [pow_succ]
        omega

theorem bitlen_spec (n : Nat) (hn : 0 < n) :
    2 ^ (bitlen n - 1) ≤ n ∧ n < 2 ^ bitlen n ∧ 1 ≤ bitlen n :=
  bitlen_aux_spec n n (le_refl n) hn

theorem zpow_split (B : Nat) (hB : 0 < B) (x : Int) :
    ((B : ℚ) ^ x.toNat) / ((B : ℚ) ^ (-x).toNat) = (B : ℚ) ^ x := by
  have hB0 : (B : ℚ) ≠ 0 := by positivity
  rcases le_or_lt 0 x with h | h
  · have e1 : (-x).toNat = 0 := by omega
    have e2 : ((x.toNat : Nat) : Int) = x := Int.toNat_of_nonneg h
    rw [e1, pow_zero, div_one]
    conv_rhs => rw [← e2]
    rw [zpow_natCast]
  · have e1 : x.toNat = 0 := by omega
    have e2 : (((-x).toNat : Nat) : Int) = -x := Int.toNat_of_nonneg (by omega)
    have e3 : x = -(((-x).toNat : Nat) : Int) := by omega
    rw [e1, pow_zero]
    conv_rhs => rw [e3]
    rw [zpow_neg, zpow_natCast, one_div]

theorem pow_le_iff (B : Nat) (hB : 0 < B) (x : Int) (a b : Nat) (hb : 0 < b) :
    pow_le B x a b ↔ (B : ℚ) ^ x ≤ (a : ℚ) / b := by
  have hb0 : (0 : ℚ) < b := by exact_mod_cast hb
  have hp : (0 : ℚ) < (B : ℚ) ^ (-x).toNat := by positivity
  rw [pow_le, ← zpow_split B hB x, div_le_div_iff₀ hp hb0]
  constructor
  · intro h
    have : ((b * B ^ x.toNat : Nat) : ℚ) ≤ ((a * B ^ (-x).toNat : Nat) : ℚ) := by exact_mod_cast h
    push_cast at this
    linarith
  · intro h
    have : ((b * B ^ x.toNat : Nat) : ℚ) ≤ ((a * B ^ (-x).toNat : Nat) : ℚ) := by
      push_cast
      linarith
    exact_mod_cast this

theorem pow_le_scale (B : Nat) (x : Int) (a b c : Nat) (hc : 0 < c) :
    pow_le B x (a * c) (b * c) ↔ pow_le B x a b := by
  rw [pow_le, pow_le]
  constructor
  · intro h
    have h2 : (b * B ^ x.toNat) * c ≤ (a * B ^ (-x).toNat) * c := by
      calc (b * B ^ x.toNat) * c = b * c * B ^ x.toNat := by ring
        _ ≤ a * c * B ^ (-x).toNat := h
        _ = (a * B ^ (-x).toNat) * c := by ring
    exact Nat.le_of_mul_le_mul_right h2 hc
  · intro h
    calc b * c * B ^ x.toNat = (b * B ^ x.toNat) * c := by ring
      _ ≤ (a * B ^ (-x).toNat) * c := Nat.mul_le_mul_right c h
      _ = a * c * B ^ (-x).toNat := by ring

theorem pow_le_anti (B : Nat) (hB : 1 < B) (x y : Int) (hxy : x ≤ y) (a b : Nat) (hb : 0 < b)
    (h : pow_le B y a b) : pow_le B x a b := by
  rw [pow_le_iff B (by omega) _ _ _ hb] at h ⊢
  have h1 : (1 : ℚ) ≤ (B : ℚ) := by exact_mod_cast hB.le
  exact le_trans (zpow_le_zpow_right₀ h1 hxy) h

theorem pow_le_unique (B : Nat) (hB : 1 < B) (x y : Int) (a b : Nat) (hb : 0 < b)
    (hx : pow_le B x a b) (hx2 : ¬ pow_le B (x + 1) a b)
    (hy : pow_le B y a b) (hy2 : ¬ pow_le B (y + 1) a b) : x = y := by
  rcases lt_trichotomy x y with h | h | h
  · exact absurd (pow_le_anti B hB (x + 1) y (by omega) a b hb hy) hx2
  · exact h
  · exact absurd (pow_le_anti B hB (y + 1) x (by omega) a b hb hx) hy2

theorem exp_estimate (B : Nat) (hB : 1 < B) (a b la lb : Nat) (hb : 0 < b)
    (ha1 : B ^ (la - 1) ≤ a) (ha2 : a < B ^ la) (hla : 1 ≤ la)
    (hb1 : B ^ (lb - 1) ≤ b) (hb2 : b < B ^ lb) (hlb : 1 ≤ lb) :
    pow_le B ((la : Int) - (lb : Int) - 1) a b ∧ ¬ pow_le B ((la : Int) - (lb : Int) + 1) a b := by
  have hB0 : (0 : ℚ) < (B : ℚ) := by exact_mod_cast (by omega : 0 < B)
  have hBne : (B : ℚ) ≠ 0 := ne_of_gt hB0
  have hbq : (0 : ℚ) < b := by exact_mod_cast hb
  have qa1 : (B : ℚ) ^ ((la : Int) - 1) ≤ a := by
    have : ((B ^ (la - 1) : Nat) : ℚ) ≤ a := by exact_mod_cast ha1
    rw [Nat.cast_pow, ← zpow_natCast] at this
    rwa [Nat.cast_sub hla] at this
  have qa2 : (a : ℚ) < (B : ℚ) ^ (la : Int) := by
    have : (a : ℚ) < ((B ^ la : Nat) : ℚ) := by exact_mod_cast ha2
    rwa [Nat.cast_pow, ← zpow_natCast] at this
  have qb1 : (B : ℚ) ^ ((lb : Int) - 1) ≤ b := by
    have : ((B ^ (lb - 1) : Nat) : ℚ) ≤ b := by exact_mod_cast hb1
    rw [Nat.cast_pow, ← zpow_natCast] at this
    rwa [Nat.cast_sub hlb] at this
  have qb2 : (b : ℚ) < (B : ℚ) ^ (lb : Int) := by
    have : (b : ℚ) < ((B ^ lb : Nat) : ℚ) := by exact_mod_cast hb2
    rwa [Nat.cast_pow, ← zpow_natCast] at this
  rw [pow_le_iff B (by omega) _ _ _ hb, pow_le_iff B (by omega) _ _ _ hb]
  constructor
  · rw [le_div_iff₀ hbq]
    have e : (B : ℚ) ^ ((la : Int) - lb - 1) * (B : ℚ) ^ (lb : Int) = (B : ℚ) ^ ((la : Int) - 1) := by
      rw [← zpow_add₀ hBne]
      congr 1
      ring
    have hp : (0 : ℚ) < (B : ℚ) ^ ((la : Int) - lb - 1) := zpow_pos hB0 _
    calc (B : ℚ) ^ ((la : Int) - lb - 1) * b ≤ (B : ℚ) ^ ((la : Int) - lb - 1) * (B : ℚ) ^ (lb : Int) :=
          mul_le_mul_of_nonneg_left qb2.le hp.le
      _ = (B : ℚ) ^ ((la : Int) - 1) := e
      _ ≤ a := qa1
  · rw [not_le, div_lt_iff₀ hbq]
    have e : (B : ℚ) ^ ((la : Int) - lb + 1) * (B : ℚ) ^ ((lb : Int) - 1) = (B : ℚ) ^ (la : Int) := by
      rw [← zpow_add₀ hBne]
      congr 1
      ring
    have hp : (0 : ℚ) < (B : ℚ) ^ ((la : Int) - lb + 1) := zpow_pos hB0 _
    calc (a : ℚ) < (B : ℚ) ^ (la : Int) := qa2
      _ = (B : ℚ) ^ ((la : Int) - lb + 1) * (B : ℚ) ^ ((lb : Int) - 1) := e.symm
      _ ≤ (B : ℚ) ^ ((la : Int) - lb + 1) * b := mul_le_mul_of_nonneg_left qb1 hp.le

theorem bin_exp_spec (a b : Nat) (ha : 0 < a) (hb : 0 < b) :
    pow_le 2 (bin_exp a b) a b ∧ ¬ pow_le 2 (bin_exp a b + 1) a b := by
  obtain ⟨a1, a2, a3⟩ := bitlen_spec a ha
  obtain ⟨b1, b2, b3⟩ := bitlen_spec b hb
  obtain ⟨h1, h2⟩ := exp_estimate 2 (by decide) a b _ _ hb a1 a2 a3 b1 b2 b3
  rw [bin_exp]
  by_cases h : b * 2 ^ ((bitlen a : Int) - (bitlen b : Int)).toNat
      ≤ a * 2 ^ (-((bitlen a : Int) - (bitlen b : Int))).toNat
  · rw [if_pos h]
    exact ⟨h, h2⟩
  · rw [if_neg h]
    refine ⟨h1, ?_⟩
    rw [Int.sub_add_cancel]
    exact h

theorem dec_exp_spec (a b : Nat) (ha : 0 < a) (hb : 0 < b) :
    pow_le 10 (dec_exp a b) a b ∧ ¬ pow_le 10 (dec_exp a b + 1) a b := by
  obtain ⟨h1, h2⟩ := exp_estimate 10 (by decide) a b _ _ hb (pow_declen_le a ha) (lt_pow_declen a)
    (declen_pos a) (pow_declen_le b hb) (lt_pow_declen b) (declen_pos b)
  rw [dec_exp]
  by_cases h : b * 10 ^ ((declen a : Int) - (declen b : Int)).toNat
      ≤ a * 10 ^ (-((declen a : Int) - (declen b : Int))).toNat
  · rw [if_pos h]
    exact ⟨h, h2⟩
  · rw [if_neg h]
    refine ⟨h1, ?_⟩
    rw [Int.sub_add_cancel]
    exact h

theorem bin_exp_scale (a b c : Nat) (ha : 0 < a) (hb : 0 < b) (hc : 0 < c) :
    bin_exp (a * c) (b * c) = bin_exp a b := by
  obtain ⟨h1, h2⟩ := bin_exp_spec (a * c) (b * c) (Nat.mul_pos ha hc) (Nat.mul_pos hb hc)
  obtain ⟨h3, h4⟩ := bin_exp_spec a b ha hb
  rw [pow_le_scale _ _ _ _ _ hc] at h1 h2
  exact pow_le_unique 2 (by decide) _ _ a b hb h1 h2 h3 h4

theorem round_div_scale (a b c : Nat) (hc : 0 < c) :
    round_div (a * c) (b * c) = round_div a b := by
  rw [round_div, round_div, Nat.mul_div_mul_right _ _ hc, Nat.mul_mod_mul_right]
  have e1 : (b * c < 2 * (a % b * c)) ↔ (b < 2 * (a % b)) := by
    rw [← mul_assoc]
    exact Nat.mul_lt_mul_right hc
  have e2 : (2 * (a % b * c) = b * c) ↔ (2 * (a % b) = b) := by
    rw [← mul_assoc]
    exact Nat.mul_left_inj (by omega)
  simp only [e1, e2]

theorem round_ratio_scale (p : Nat) (emin : Int) (a b c : Nat) (hb : 0 < b) (hc : 0 < c) :
    round_ratio p emin (a * c) (b * c) = round_ratio p emin a b := by
  rw [round_ratio, round_ratio]
  by_cases ha : a = 0
  · subst ha
    simp
  · have hac : a * c ≠ 0 := Nat.mul_ne_zero ha (by omega)
    rw [if_neg hac, if_neg ha, bin_exp_scale a b c (by omega) hb hc]
    simp only []
    congr 1
    have e1 : ∀ k : Nat, a * c * k = a * k * c := fun k => by ring
    have e2 : ∀ k : Nat, b * c * k = b * k * c := fun k => by ring
    rw [e1, e2, round_div_scale _ _ _ hc]

theorem ratio64_scale (neg : Bool) (a b c : Nat) (hb : 0 < b) (hc : 0 < c) :
    Fp.ratio64 neg (a * c) (b * c) = Fp.ratio64 neg a b := by
  rw [Fp.ratio64, Fp.ratio64, round_ratio_scale _ _ _ _ _ hb hc]

theorem ratio32_scale (neg : Bool) (a b c : Nat) (hb : 0 < b) (hc : 0 < c) :
    Fp.ratio32 neg (a * c) (b * c) = Fp.ratio32 neg a b := by
  rw [Fp.ratio32, Fp.ratio32, round_ratio_scale _ _ _ _ _ hb hc]
/-! ## Reading back what `%g` and `%f` print -/

theorem scan_float_digits (neg : Bool) (I : Nat) (c : Byte) (t : List Byte)
    (hc : tolower c ≠ 120) :
    scan_float (sign_text neg ++ (dec_digits I ++ c :: t))
      = (scan_decimal (dec_digits I ++ c :: t)).map (fun v => (neg, v)) := by
  obtain ⟨d, t0, hd, hd1, hd2⟩ := dec_digits_head I
  have e : dec_digits I ++ c :: t = d :: (t0 ++ c :: t) := by rw [hd]; rfl
  have hx : (t0 ++ c :: t).head?.map tolower ≠ some 120 := by
    cases t0 with
    | nil => simpa using hc
    | cons d2 t1 =>
      have h2 := hd2 d2 (List.mem_cons_self _ _)
      have h3 := isdigit_val h2
      simp only [List.cons_append, List.head?_cons, Option.map_some', ne_eq, Option.some.injEq,
        tolower_of_isdigit h2]
      intro h4
      rw [h4] at h3
      revert h3
      decide
  have h105 : tolower d ≠ 105 := by
    rw [tolower_of_isdigit hd1]
    exact ne_of_isdigit hd1 105 (by decide)
  have h110 : tolower d ≠ 110 := by
    rw [tolower_of_isdigit hd1]
    exact ne_of_isdigit hd1 110 (by decide)
  rw [e, scan_float, scan_sign_text _ _ _ hd1]
  simp only [h105, h110, if_false, hx, and_false]

theorem point_frac_tail (g G : Nat) (c : Byte) (t : List Byte) (hc : tolower c ≠ 120) :
    ∃ c2 t2, point_frac (digits_fixed g G) ++ c :: t = c2 :: t2 ∧ tolower c2 ≠ 120 := by
  rw [point_frac_digits]
  by_cases hg : g = 0
  · rw [if_pos hg]
    exact ⟨c, t, rfl, hc⟩
  · rw [if_neg hg]
    exact ⟨46, _, rfl, by decide⟩

theorem scan_float_fixed (neg : Bool) (I g G : Nat) (rest : List Byte) (hG : G < 10 ^ g) :
    scan_float (sign_text neg ++ dec_digits I ++ point_frac (digits_fixed g G) ++ 13 :: rest)
      = some (neg, .ratio (I * 10 ^ g + G) (10 ^ g)) := by
  obtain ⟨c2, t2, e, hc2⟩ := point_frac_tail g G 13 rest (by decide)
  rw [List.append_assoc, List.append_assoc, e, scan_float_digits _ _ _ _ hc2, ← e,
    ← List.append_assoc, scan_decimal_plain _ _ _ _ hG]
  rfl

theorem scan_float_exp (neg : Bool) (I g G : Nat) (X : Int) (rest : List Byte)
    (hG : G < 10 ^ g) :
    scan_float (sign_text neg ++ dec_digits I ++ point_frac (digits_fixed g G) ++ exp_text X
        ++ 13 :: rest)
      = some (neg, .ratio ((I * 10 ^ g + G) * 10 ^ (X - (g : Int)).toNat)
          (10 ^ ((g : Int) - X).toNat)) := by
  have he : ∃ t, exp_text X ++ 13 :: rest = 101 :: t := ⟨_, rfl⟩
  obtain ⟨t, ht⟩ := he
  obtain ⟨c2, t2, e, hc2⟩ := point_frac_tail g G 101 t (by decide)
  rw [List.append_assoc, List.append_assoc, List.append_assoc, ht, e,
    scan_float_digits _ _ _ _ hc2, ← e, ← ht, ← List.append_assoc, ← List.append_assoc,
    scan_decimal_exp _ _ _ _ _ hG]
  rfl

theorem scan_float_fmt_g (P : Nat) (hP : 1 ≤ P) (neg : Bool) (m : Nat) (e : Int) (hm : m ≠ 0)
    (rest : List Byte) :
    ∃ a b c, 0 < b ∧ 0 < c
      ∧ scan_float (fmt_g P (.fin neg m e) ++ 13 :: rest) = some (neg, .ratio a b)
      ∧ (dec_value P m e).1 = a * c ∧ (dec_value P m e).2 = b * c := by
  rw [fmt_g, if_neg hm, dec_value]
  generalize dec_round P m e = DX
  obtain ⟨D, X⟩ := DX
  simp only []
  by_cases hX : -4 ≤ X ∧ X < (P : Int)
  · rw [if_pos hX]
    have hF : D % 10 ^ ((P : Int) - 1 - X).toNat < 10 ^ ((P : Int) - 1 - X).toNat :=
      Nat.mod_lt _ (by positivity)
    obtain ⟨g, G, e1, e2, e3, e4⟩ := frac_digits_spec _ _ hF
    rw [e1, scan_float_fixed _ _ _ _ _ e4]
    refine ⟨_, _, 10 ^ (((P : Int) - 1 - X).toNat - g), by positivity, by positivity, rfl, ?_, ?_⟩
    · have e5 : (X + 1 - (P : Int)).toNat = 0 := by omega
      rw [e5, pow_zero, mul_one, add_mul, mul_assoc, ← pow_add, ← e3]
      have e6 : g + (((P : Int) - 1 - X).toNat - g) = ((P : Int) - 1 - X).toNat := by omega
      rw [e6]
      exact (Nat.div_add_mod' D _).symm
    · rw [← pow_add]
      congr 1
      omega
  · rw [if_neg hX]
    have hF : D % 10 ^ (P - 1) < 10 ^ (P - 1) := Nat.mod_lt _ (by positivity)
    obtain ⟨g, G, e1, e2, e3, e4⟩ := frac_digits_spec _ _ hF
    rw [e1, scan_float_exp _ _ _ _ _ _ e4]
    have hD : D = (D / 10 ^ (P - 1) * 10 ^ g + G) * 10 ^ (P - 1 - g) := by
      rw [add_mul, mul_assoc, ← pow_add, ← e3]
      have e6 : g + (P - 1 - g) = P - 1 := by omega
      rw [e6]
      exact (Nat.div_add_mod' D _).symm
    generalize D / 10 ^ (P - 1) * 10 ^ g + G = N at hD
    subst hD
    rcases le_or_lt ((P : Int) - 1) X with h1 | h1
    · refine ⟨_, _, 1, by positivity, by decide, rfl, ?_, ?_⟩
      · rw [mul_one, mul_assoc, ← pow_add]
        congr 2
        omega
      · rw [mul_one]
        congr 1
        omega
    · rcases le_or_lt (g : Int) X with h2 | h2
      · refine ⟨_, _, 10 ^ ((P : Int) - 1 - X).toNat, by positivity, by positivity, rfl, ?_, ?_⟩
        · rw [mul_assoc, mul_assoc, ← pow_add, ← pow_add]
          congr 2
          omega
        · have e7 : ((g : Int) - X).toNat = 0 := by omega
          rw [e7, pow_zero, one_mul]
      · refine ⟨_, _, 10 ^ (P - 1 - g), by positivity, by positivity, rfl, ?_, ?_⟩
        · have e7 : (X - (g : Int)).toNat = 0 := by omega
          have e8 : (X + 1 - (P : Int)).toNat = 0 := by omega
          rw [e7, e8, pow_zero, mul_one, mul_one]
        · rw [← pow_add]
          congr 1
          omega

theorem scan_float_special (P : Nat) (x : Fp) (rest : List Byte)
    (hx : ∀ neg m e, x = .fin neg m e → m = 0) :
    scan_float (fmt_g P x ++ 13 :: rest)
      = match x with
        | .nan => some (false, .nan)
        | .inf neg => some (neg, .inf)
        | .fin neg _ _ => some (neg, .ratio 0 1) := by
  cases x with
  | nan => rfl
  | inf neg => cases neg <;> rfl
  | fin neg m e =>
    have := hx neg m e rfl
    subst this
    cases neg <;> rfl

theorem scan_lf_fmt_g (P : Nat) (hP : 1 ≤ P) (x : Fp) (rest : List Byte) :
    scan_lf (fmt_g P x ++ 13 :: rest) = some (reread64 P x) := by
  by_cases hx : ∀ neg m e, x = .fin neg m e → m = 0
  · rw [scan_lf, scan_float_special P x rest hx]
    cases x with
    | nan => rfl
    | inf neg => rfl
    | fin neg m e =>
      have := hx neg m e rfl
      subst this
      rfl
  · push_neg at hx
    obtain ⟨neg, m, e, hxe, hm⟩ := hx
    subst hxe
    obtain ⟨a, b, c, hb, hc, h1, h2, h3⟩ := scan_float_fmt_g P hP neg m e hm rest
    rw [scan_lf, h1, reread64, if_neg hm, h2, h3, ratio64_scale _ _ _ _ hb hc]

theorem scan_f_fmt_g (P : Nat) (hP : 1 ≤ P) (x : Fp) (rest : List Byte) :
    scan_f (fmt_g P x ++ 13 :: rest) = some (reread32 P x) := by
  by_cases hx : ∀ neg m e, x = .fin neg m e → m = 0
  · rw [scan_f, scan_float_special P x rest hx]
    cases x with
    | nan => rfl
    | inf neg => rfl
    | fin neg m e =>
      have := hx neg m e rfl
      subst this
      rfl
  · push_neg at hx
    obtain ⟨neg, m, e, hxe, hm⟩ := hx
    subst hxe
    obtain ⟨a, b, c, hb, hc, h1, h2, h3⟩ := scan_float_fmt_g P hP neg m e hm rest
    rw [scan_f, h1, reread32, if_neg hm, h2, h3, ratio32_scale _ _ _ _ hb hc]

theorem scan_f_fmt_f (p : Nat) (x : Fp) (rest : List Byte) :
    ∃ v, scan_f (fmt_f p x ++ 13 :: rest) = some v := by
  cases x with
  | nan => exact ⟨_, rfl⟩
  | inf neg => cases neg <;> exact ⟨_, rfl⟩
  | fin neg m e =>
    have e1 : ∀ F : Nat, (if p = 0 then [] else str "." ++ digits_fixed p F)
        = point_frac (digits_fixed p F) := by
      intro F
      rw [point_frac_digits]
      by_cases hp : p = 0
      · rw [if_pos hp, if_pos hp]
      · rw [if_neg hp, if_neg hp]
        rfl
    rw [fmt_f, e1, scan_f, scan_float_fixed _ _ _ _ _ (Nat.mod_lt _ (by positivity))]
    exact ⟨_, rfl⟩
/-! ## Bounds on the rounded quotient -/

theorem le_round_div (L n d : Nat) (hd : 0 < d) (h : L * d ≤ n) : L ≤ round_div n d := by
  have h1 : L ≤ n / d := (Nat.le_div_iff_mul_le hd).2 h
  rw [round_div]
  split <;> omega

theorem round_div_le (U n d : Nat) (hd : 0 < d) (h : n ≤ U * d) : round_div n d ≤ U := by
  rw [round_div]
  rcases Nat.lt_or_ge n (U * d) with h1 | h1
  · have h2 : n / d < U := (Nat.div_lt_iff_lt_mul hd).2 h1
    split <;> omega
  · have e : n = U * d := le_antisymm h h1
    subst e
    rw [Nat.mul_mod_left, Nat.mul_div_cancel _ hd]
    rw [if_neg (by omega)]

theorem round_div_le_half (U n d : Nat) (hd : 0 < d) (h : 2 * n < (2 * U + 1) * d) :
    round_div n d ≤ U := by
  have h0 := Nat.div_add_mod n d
  have h1 := Nat.mod_lt n hd
  have h2 : n / d ≤ U := by
    by_contra hc
    have h3 : U + 1 ≤ n / d := by omega
    have h4 : d * (U + 1) ≤ d * (n / d) := Nat.mul_le_mul_left d h3
    have h5 : (2 * U + 1) * d = 2 * (d * U) + d := by ring
    have h6 : d * (U + 1) = d * U + d := by ring
    omega
  rw [round_div]
  split
  · rename_i hr
    rcases Nat.lt_or_ge (n / d) U with h5 | h5
    · omega
    · have e : n / d = U := le_antisymm h2 h5
      rw [e] at h0
      have h5 : (2 * U + 1) * d = 2 * (d * U) + d := by ring
      rcases hr with hr | hr
      · omega
      · omega
  · exact h2

theorem round_div_near (n d : Nat) (hd : 0 < d) :
    |((round_div n d : Nat) : ℚ) - (n : ℚ) / d| ≤ 1 / 2 := by
  have hdq : (0 : ℚ) < d := by exact_mod_cast hd
  have h0 : ((d * (n / d) + n % d : Nat) : ℚ) = n := by exact_mod_cast Nat.div_add_mod n d
  have h1 : ((n % d : Nat) : ℚ) < d := by exact_mod_cast Nat.mod_lt n hd
  have h2 : (0 : ℚ) ≤ (n % d : Nat) := by positivity
  have e : (n : ℚ) / d = (n / d : Nat) + ((n % d : Nat) : ℚ) / d := by
    rw [← h0]
    push_cast
    field_simp
    ring
  rw [round_div, e, abs_le]
  split
  · rename_i hr
    have h3 : (d : ℚ) ≤ 2 * (n % d : Nat) := by
      rcases hr with hr | hr
      · exact_mod_cast hr.le
      · exact_mod_cast hr.1.symm.le
    have h4 : (1 : ℚ) / 2 ≤ ((n % d : Nat) : ℚ) / d := by
      rw [div_le_div_iff₀ (by norm_num) hdq]
      linarith
    have h5 : ((n % d : Nat) : ℚ) / d < 1 := by
      rw [div_lt_one hdq]
      exact h1
    push_cast
    constructor <;> linarith
  · rename_i hr
    have h3 : 2 * ((n % d : Nat) : ℚ) ≤ d := by
      have : 2 * (n % d) ≤ d := by
        by_contra hc
        exact hr (Or.inl (by omega))
      exact_mod_cast this
    have h4 : ((n % d : Nat) : ℚ) / d ≤ 1 / 2 := by
      rw [div_le_div_iff₀ hdq (by norm_num)]
      linarith
    have h5 : (0 : ℚ) ≤ ((n % d : Nat) : ℚ) / d := by positivity
    constructor <;> linarith

theorem scaled_ratio (B : Nat) (hB : 0 < B) (a b : Nat) (k : Int) :
    ((a * B ^ k.toNat : Nat) : ℚ) / ((b * B ^ (-k).toNat : Nat) : ℚ)
      = (a : ℚ) / b * (B : ℚ) ^ k := by
  rw [← zpow_split B hB k]
  push_cast
  by_cases hb : (b : ℚ) = 0
  · rw [hb]
    simp
  · have hB0 : (B : ℚ) ≠ 0 := by positivity
    field_simp

theorem dec_round_spec (P m : Nat) (e : Int) (hP : 1 ≤ P) (hm : 0 < m) :
    10 ^ (P - 1) ≤ (dec_round P m e).1 ∧ (dec_round P m e).1 < 10 ^ P := by
  have ha : 0 < m * 2 ^ e.toNat := by positivity
  have hb : 0 < 2 ^ (-e).toNat := by positivity
  obtain ⟨h1, h2⟩ := dec_exp_spec _ _ ha hb
  rw [pow_le_iff 10 (by decide) _ _ _ hb] at h1 h2
  rw [not_le] at h2
  rw [dec_round]
  generalize dec_exp (m * 2 ^ e.toNat) (2 ^ (-e).toNat) = x at h1 h2
  generalize m * 2 ^ e.toNat = a at ha h1 h2
  generalize 2 ^ (-e).toNat = b at hb h1 h2
  have hd : 0 < b * 10 ^ (-((P : Int) - 1 - x)).toNat := by positivity
  have hdq : (0 : ℚ) < ((b * 10 ^ (-((P : Int) - 1 - x)).toNat : Nat) : ℚ) := by exact_mod_cast hd
  have hs := scaled_ratio 10 (by decide) a b ((P : Int) - 1 - x)
  have h10 : (0 : ℚ) < ((10 : Nat) : ℚ) := by norm_num
  have hk : (0 : ℚ) < ((10 : Nat) : ℚ) ^ ((P : Int) - 1 - x) := zpow_pos h10 _
  have hL : 10 ^ (P - 1) ≤ round_div (a * 10 ^ ((P : Int) - 1 - x).toNat)
      (b * 10 ^ (-((P : Int) - 1 - x)).toNat) := by
    apply le_round_div _ _ _ hd
    have h3 : ((10 ^ (P - 1) : Nat) : ℚ)
        ≤ ((a * 10 ^ ((P : Int) - 1 - x).toNat : Nat) : ℚ)
          / ((b * 10 ^ (-((P : Int) - 1 - x)).toNat : Nat) : ℚ) := by
      rw [hs]
      have e1 : ((10 ^ (P - 1) : Nat) : ℚ) = ((10 : Nat) : ℚ) ^ x * ((10 : Nat) : ℚ) ^ ((P : Int) - 1 - x) := by
        rw [← zpow_add₀ (ne_of_gt h10), Nat.cast_pow, ← zpow_natCast]
        congr 1
        omega
      rw [e1]
      exact mul_le_mul_of_nonneg_right h1 hk.le
    rw [le_div_iff₀ hdq] at h3
    exact_mod_cast h3
  have hU : round_div (a * 10 ^ ((P : Int) - 1 - x).toNat)
      (b * 10 ^ (-((P : Int) - 1 - x)).toNat) ≤ 10 ^ P := by
    apply round_div_le _ _ _ hd
    have h3 : ((a * 10 ^ ((P : Int) - 1 - x).toNat : Nat) : ℚ)
          / ((b * 10 ^ (-((P : Int) - 1 - x)).toNat : Nat) : ℚ) ≤ ((10 ^ P : Nat) : ℚ) := by
      rw [hs]
      have e1 : ((10 ^ P : Nat) : ℚ) = ((10 : Nat) : ℚ) ^ (x + 1) * ((10 : Nat) : ℚ) ^ ((P : Int) - 1 - x) := by
        rw [← zpow_add₀ (ne_of_gt h10), Nat.cast_pow, ← zpow_natCast]
        congr 1
        omega
      rw [e1]
      exact mul_le_mul_of_nonneg_right h2.le hk.le
    rw [div_le_iff₀ hdq] at h3
    exact_mod_cast h3
  split
  · constructor
    · exact le_refl _
    · exact Nat.pow_lt_pow_right (by decide) (by omega)
  · rename_i hne
    exact ⟨hL, lt_of_le_of_ne hU hne⟩
/-! ## Size of the printed numbers -/

theorem fp_value (m : Nat) (e : Int) :
    ((m * 2 ^ e.toNat : Nat) : ℚ) / ((2 ^ (-e).toNat : Nat) : ℚ) = (m : ℚ) * (2 : ℚ) ^ e := by
  have h := scaled_ratio 2 (by decide) m 1 e
  rw [one_mul] at h
  rw [h]
  simp

theorem bitlen_le (m k : Nat) (h : m < 2 ^ k) : bitlen m ≤ k := by
  rcases Nat.eq_zero_or_pos m with h0 | h0
  · subst h0
    simp [bitlen, bitlen_aux]
  · obtain ⟨h1, _, h3⟩ := bitlen_spec m h0
    by_contra hc
    have h4 : 2 ^ k ≤ 2 ^ (bitlen m - 1) := Nat.pow_le_pow_right (by decide) (by omega)
    omega

theorem declen_le (n k : Nat) (h : n < 10 ^ k) (hk : 1 ≤ k) : declen n ≤ k := by
  rcases Nat.eq_zero_or_pos n with h0 | h0
  · subst h0
    exact hk
  · have h1 := pow_declen_le n h0
    by_contra hc
    have h4 : 10 ^ k ≤ 10 ^ (declen n - 1) := Nat.pow_le_pow_right (by decide) (by omega)
    omega

theorem fp_value_range (m : Nat) (e : Int) (hm : 0 < m) (h1 : -1074 ≤ e)
    (h2 : e + bitlen m ≤ 1024) :
    (2 : ℚ) ^ (-1074 : Int) ≤ (m : ℚ) * (2 : ℚ) ^ e
      ∧ (m : ℚ) * (2 : ℚ) ^ e < (2 : ℚ) ^ (1024 : Int) := by
  obtain ⟨_, b2, _⟩ := bitlen_spec m hm
  have hp : (0 : ℚ) < (2 : ℚ) ^ e := zpow_pos (by norm_num) _
  have hm1 : (1 : ℚ) ≤ m := by exact_mod_cast hm
  have hm2 : (m : ℚ) < (2 : ℚ) ^ (bitlen m : Int) := by
    have : (m : ℚ) < ((2 ^ bitlen m : Nat) : ℚ) := by exact_mod_cast b2
    rwa [Nat.cast_pow, ← zpow_natCast] at this
  constructor
  · calc (2 : ℚ) ^ (-1074 : Int) ≤ (2 : ℚ) ^ e := zpow_le_zpow_right₀ (by norm_num) h1
      _ = 1 * (2 : ℚ) ^ e := (one_mul _).symm
      _ ≤ (m : ℚ) * (2 : ℚ) ^ e := mul_le_mul_of_nonneg_right hm1 hp.le
  · calc (m : ℚ) * (2 : ℚ) ^ e < (2 : ℚ) ^ (bitlen m : Int) * (2 : ℚ) ^ e :=
          mul_lt_mul_of_pos_right hm2 hp
      _ = (2 : ℚ) ^ ((bitlen m : Int) + e) := (zpow_add₀ (by norm_num) _ _).symm
      _ ≤ (2 : ℚ) ^ (1024 : Int) := zpow_le_zpow_right₀ (by norm_num) (by omega)

theorem dec_exp_range (m : Nat) (e : Int) (hm : 0 < m) (h1 : -1074 ≤ e)
    (h2 : e + bitlen m ≤ 1024) :
    -324 ≤ dec_exp (m * 2 ^ e.toNat) (2 ^ (-e).toNat)
      ∧ dec_exp (m * 2 ^ e.toNat) (2 ^ (-e).toNat) < 309 := by
  have ha : 0 < m * 2 ^ e.toNat := by positivity
  have hb : 0 < 2 ^ (-e).toNat := by positivity
  obtain ⟨s1, s2⟩ := dec_exp_spec _ _ ha hb
  rw [pow_le_iff 10 (by decide) _ _ _ hb, fp_value] at s1 s2
  rw [not_le] at s2
  obtain ⟨r1, r2⟩ := fp_value_range m e hm h1 h2
  generalize dec_exp (m * 2 ^ e.toNat) (2 ^ (-e).toNat) = x at s1 s2
  have n1 : (2 : ℚ) ^ (1024 : Int) < ((10 : Nat) : ℚ) ^ (309 : Int) := by
    have : ((2 ^ 1024 : Nat) : ℚ) < ((10 ^ 309 : Nat) : ℚ) := by
      exact_mod_cast (by decide : 2 ^ 1024 < 10 ^ 309)
    rw [Nat.cast_pow, Nat.cast_pow, ← zpow_natCast, ← zpow_natCast] at this
    exact_mod_cast this
  have n2 : ((10 : Nat) : ℚ) ^ (-324 : Int) < (2 : ℚ) ^ (-1074 : Int) := by
    have : ((2 ^ 1074 : Nat) : ℚ) < ((10 ^ 324 : Nat) : ℚ) := by
      exact_mod_cast (by decide : 2 ^ 1074 < 10 ^ 324)
    rw [Nat.cast_pow, Nat.cast_pow, ← zpow_natCast, ← zpow_natCast] at this
    rw [zpow_neg, zpow_neg]
    have p2 : (0 : ℚ) < ((2 : Nat) : ℚ) ^ ((1074 : Nat) : Int) := by positivity
    have := inv_strictAnti₀ p2 this
    exact_mod_cast this
  have h10 : (1 : ℚ) < ((10 : Nat) : ℚ) := by norm_num
  constructor
  · have : ((10 : Nat) : ℚ) ^ (-324 : Int) < ((10 : Nat) : ℚ) ^ (x + 1) := by linarith
    have := (zpow_lt_zpow_iff_right₀ h10).1 this
    omega
  · have : ((10 : Nat) : ℚ) ^ x < ((10 : Nat) : ℚ) ^ (309 : Int) := by linarith
    exact (zpow_lt_zpow_iff_right₀ h10).1 this

theorem dec_round_exp_range (P m : Nat) (e : Int) (hm : 0 < m) (h1 : -1074 ≤ e)
    (h2 : e + bitlen m ≤ 1024) :
    -324 ≤ (dec_round P m e).2 ∧ (dec_round P m e).2 ≤ 309 := by
  have h := dec_exp_range m e hm h1 h2
  rw [dec_round]
  split <;> constructor <;> simp only [] <;> omega

theorem graph_append {a b : List Byte} (ha : graph a) (hb : graph b) : graph (a ++ b) := by
  intro c hc
  rcases List.mem_append.1 hc with h | h
  · exact ha c h
  · exact hb c h

theorem graph_digits_fixed (k n : Nat) : graph (digits_fixed k n) := by
  intro c hc
  have := isdigit_val (digits_fixed_all_digits k n c hc)
  omega

theorem graph_sign_text (neg : Bool) : graph (sign_text neg) := by
  cases neg
  · intro c hc
    exact absurd hc (List.not_mem_nil c)
  · intro c hc
    have e : sign_text true = [45] := rfl
    rw [e, List.mem_singleton] at hc
    subst hc
    decide

theorem graph_cons {c : Byte} {s : List Byte} (hc : 33 ≤ c.val ∧ c.val ≤ 126) (hs : graph s) :
    graph (c :: s) := by
  intro d hd
  rcases List.mem_cons.1 hd with h | h
  · rw [h]
    exact hc
  · exact hs d h

theorem graph_nil : graph [] := fun c hc => absurd hc (List.not_mem_nil c)

theorem graph_point_frac (g G : Nat) : graph (point_frac (digits_fixed g G)) := by
  rw [point_frac_digits]
  split
  · exact graph_nil
  · exact graph_cons (by decide) (graph_digits_fixed g G)

theorem graph_exp_text (X : Int) : graph (exp_text X) := by
  rw [exp_text]
  refine graph_append (graph_append ?_ ?_) (graph_digits_fixed _ _)
  · exact graph_cons (by decide) graph_nil
  · split
    · exact graph_cons (by decide) graph_nil
    · exact graph_cons (by decide) graph_nil

theorem graph_fmt_d (n : Int) : graph (fmt_d n) :=
  graph_append (graph_sign_text _) (graph_digits_fixed _ _)

theorem graph_fmt_g (P : Nat) (x : Fp) : graph (fmt_g P x) := by
  cases x with
  | nan => exact graph_cons (by decide) (graph_cons (by decide) (graph_cons (by decide) graph_nil))
  | inf neg =>
    exact graph_append (graph_sign_text _)
      (graph_cons (by decide) (graph_cons (by decide) (graph_cons (by decide) graph_nil)))
  | fin neg m e =>
    rw [fmt_g]
    split
    · exact graph_append (graph_sign_text _) (graph_cons (by decide) graph_nil)
    · simp only []
      split
      · obtain ⟨g, G, e1, _⟩ := frac_digits_spec _ _
          (Nat.mod_lt ((dec_round P m e).1) (by positivity :
            0 < 10 ^ ((P : Int) - 1 - (dec_round P m e).2).toNat))
        rw [e1]
        exact graph_append (graph_append (graph_sign_text _) (graph_digits_fixed _ _))
          (graph_point_frac _ _)
      · obtain ⟨g, G, e1, _⟩ := frac_digits_spec _ _
          (Nat.mod_lt ((dec_round P m e).1) (by positivity : 0 < 10 ^ (P - 1)))
        rw [e1]
        exact graph_append (graph_append (graph_append (graph_sign_text _)
          (graph_digits_fixed _ _)) (graph_point_frac _ _)) (graph_exp_text _)

theorem graph_fmt_f (p : Nat) (x : Fp) : graph (fmt_f p x) := by
  cases x with
  | nan => exact graph_cons (by decide) (graph_cons (by decide) (graph_cons (by decide) graph_nil))
  | inf neg =>
    exact graph_append (graph_sign_text _)
      (graph_cons (by decide) (graph_cons (by decide) (graph_cons (by decide) graph_nil)))
  | fin neg m e =>
    rw [fmt_f]
    refine graph_append (graph_append (graph_sign_text _) (graph_digits_fixed _ _)) ?_
    split
    · exact graph_nil
    · exact graph_cons (by decide) (graph_digits_fixed _ _)

theorem length_sign_text (neg : Bool) : (sign_text neg).length ≤ 1 := by
  cases neg <;> decide

theorem length_dec_digits (n : Nat) : (dec_digits n).length = declen n :=
  length_digits_fixed _ _

theorem length_point_frac (g G : Nat) : (point_frac (digits_fixed g G)).length ≤ g + 1 := by
  rw [point_frac_digits]
  split
  · simp
  · simp [length_digits_fixed]

theorem length_frac (f F : Nat) (hF : F < 10 ^ f) :
    (point_frac (frac_digits f F)).length ≤ f + 1 := by
  obtain ⟨g, G, e1, e2, _⟩ := frac_digits_spec f F hF
  rw [e1]
  have := length_point_frac g G
  omega

theorem length_exp_text (X : Int) (h : X.natAbs < 1000) : (exp_text X).length ≤ 5 := by
  have h1 : declen X.natAbs ≤ 3 := declen_le _ 3 (by simpa using h) (by decide)
  rw [exp_text]
  simp only [List.length_append, length_digits_fixed]
  have e1 : (str "e").length = 1 := rfl
  have e2 : (if X < 0 then str "-" else str "+").length = 1 := by split <;> rfl
  rw [e1, e2]
  omega

theorem length_fmt_d (n : Int) (h : n.natAbs < 10 ^ 10) : (fmt_d n).length ≤ 11 := by
  have h1 : declen n.natAbs ≤ 10 := declen_le _ 10 h (by decide)
  have h2 := length_sign_text (decide (n < 0))
  rw [fmt_d, List.length_append, length_dec_digits]
  omega

theorem length_fmt_g (P : Nat) (hP : 1 ≤ P) (x : Fp) (hx : Fp.bounded x) :
    (fmt_g P x).length ≤ 2 * P + 6 := by
  cases x with
  | nan =>
    have e : (fmt_g P .nan).length = 3 := rfl
    omega
  | inf neg =>
    have e : (fmt_g P (.inf neg)).length = (sign_text neg).length + 3 := by
      cases neg <;> rfl
    have := length_sign_text neg
    omega
  | fin neg m e =>
    have hs := length_sign_text neg
    rw [fmt_g]
    split
    · have e1 : (sign_text neg ++ str "0").length ≤ 2 := by cases neg <;> decide
      omega
    · rename_i hm
      obtain ⟨d1, d2⟩ := dec_round_spec P m e hP (by omega)
      obtain ⟨x1, x2⟩ := dec_round_exp_range P m e (by omega) hx.1 hx.2
      simp only []
      generalize dec_round P m e = DX at d1 d2 x1 x2
      obtain ⟨D, X⟩ := DX
      simp only [] at d1 d2 x1 x2 ⊢
      split
      · rename_i hX
        have h1 : declen (D / 10 ^ ((P : Int) - 1 - X).toNat) ≤ P :=
          declen_le _ P (lt_of_le_of_lt (Nat.div_le_self _ _) d2) hP
        have h2 := length_frac ((P : Int) - 1 - X).toNat (D % 10 ^ ((P : Int) - 1 - X).toNat)
          (Nat.mod_lt _ (by positivity))
        simp only [List.length_append, length_dec_digits]
        omega
      · have h1 : declen (D / 10 ^ (P - 1)) ≤ P :=
          declen_le _ P (lt_of_le_of_lt (Nat.div_le_self _ _) d2) hP
        have h2 := length_frac (P - 1) (D % 10 ^ (P - 1)) (Nat.mod_lt _ (by positivity))
        have h3 := length_exp_text X (by omega)
        simp only [List.length_append, length_dec_digits]
        omega

/-! ## Lines of a header -/

theorem fgets_line (L rest : List Byte) (k : Nat) (hL : ∀ c ∈ L, c ≠ 10) (hk : L.length < k) :
    fgets k (L ++ 10 :: rest) = (L ++ [10], rest) := by
  induction L generalizing k with
  | nil =>
    cases k with
    | zero => omega
    | succ k => simp [fgets]
  | cons c L ih =>
    cases k with
    | zero => omega
    | succ k =>
      have hc : c ≠ 10 := hL c (List.mem_cons_self _ _)
      have h2 := ih k (fun d hd => hL d (List.mem_cons_of_mem _ hd))
        (by simp only [List.length_cons] at hk; omega)
      rw [List.cons_append, fgets, if_neg hc, h2]
      rfl

theorem fgets_long (L rest : List Byte) (k : Nat) (hL : ∀ c ∈ L, c ≠ 10) (hk : k ≤ L.length) :
    fgets k (L ++ rest) = (L.take k, L.drop k ++ rest) := by
  induction L generalizing k with
  | nil =>
    have : k = 0 := by simpa using hk
    subst this
    cases rest <;> rfl
  | cons c L ih =>
    cases k with
    | zero => rfl
    | succ k =>
      have hc : c ≠ 10 := hL c (List.mem_cons_self _ _)
      have h2 := ih k (fun d hd => hL d (List.mem_cons_of_mem _ hd))
        (by simp only [List.length_cons] at hk; omega)
      rw [List.cons_append, fgets, if_neg hc, h2]
      rfl

theorem strlen_eq_length (s : List Byte) (h : ∀ c ∈ s, c ≠ 0) : strlen s = s.length := by
  induction s with
  | nil => rfl
  | cons c s ih =>
    rw [strlen, if_neg (h c (List.mem_cons_self _ _)),
      ih (fun d hd => h d (List.mem_cons_of_mem _ hd))]
    rfl

theorem c_str_eq (s : List Byte) (h : ∀ c ∈ s, c ≠ 0) : c_str s = s := by
  rw [c_str, strlen_eq_length s h, List.take_length]

theorem skip_rest_newline (fuel : Nat) (chunk rest : List Byte) (h : (10 : Byte) ∈ c_str chunk) :
    skip_rest (fuel + 1) chunk rest = rest := by
  rw [skip_rest, if_pos h]

theorem skip_rest_to_newline (fuel : Nat) (chunk M rest : List Byte)
    (hM10 : ∀ c ∈ M, c ≠ 10) (hM0 : ∀ c ∈ M, c ≠ 0) (hchunk : (10 : Byte) ∉ c_str chunk)
    (hf : M.length + 2 ≤ fuel) : skip_rest fuel chunk (M ++ 10 :: rest) = rest := by
  induction fuel generalizing chunk M with
  | zero => omega
  | succ f ih =>
    rw [skip_rest, if_neg hchunk]
    rcases Nat.lt_or_ge M.length 82 with h1 | h1
    · rw [fgets_line M rest 82 hM10 h1]
      simp only []
      rw [if_neg (by simp)]
      obtain ⟨f2, hf2⟩ : ∃ f2, f = f2 + 1 := ⟨f - 1, by omega⟩
      rw [hf2]
      apply skip_rest_newline
      rw [c_str_eq]
      · simp
      · intro c hc
        rcases List.mem_append.1 hc with h | h
        · exact hM0 c h
        · rw [List.mem_singleton] at h
          rw [h]
          decide
    · rw [fgets_long M (10 :: rest) 82 hM10 h1]
      simp only []
      have hne : List.take 82 M ≠ [] := by
        intro e
        have := congrArg List.length e
        simp only [List.length_take, List.length_nil] at this
        omega
      rw [if_neg hne]
      apply ih
      · exact fun c hc => hM10 c (List.mem_of_mem_drop hc)
      · exact fun c hc => hM0 c (List.mem_of_mem_drop hc)
      · rw [c_str_eq _ (fun c hc => hM0 c (List.mem_of_mem_take hc))]
        exact fun hc => hM10 10 (List.mem_of_mem_take hc) rfl
      · rw [List.length_drop]
        omega

theorem hdr_lines_step (fuel : Nat) (L rest : List Byte) (v : HdrVars)
    (hL10 : ∀ c ∈ L, c ≠ 10) (hL0 : ∀ c ∈ L, c ≠ 0) :
    hdr_lines (fuel + 1) (L ++ 10 :: rest) v
      = match hdr_line ((L ++ [10]).take 82) v with
        | .error e => .error e
        | .ok v2 => hdr_lines fuel rest v2 := by
  rw [hdr_lines]
  rcases Nat.lt_or_ge L.length 82 with h1 | h1
  · rw [fgets_line L rest 82 hL10 h1]
    simp only []
    rw [if_neg (by simp)]
    have e1 : (L ++ [10]).take 82 = L ++ [10] := by
      apply List.take_of_length_le
      simp only [List.length_append, List.length_singleton]
      omega
    have e2 : ∃ n, (L ++ 10 :: rest).length = n + 1 := ⟨L.length + rest.length, by simp; omega⟩
    obtain ⟨n, hn⟩ := e2
    have hmem : (10 : Byte) ∈ c_str (L ++ [10]) := by
      rw [c_str_eq]
      · simp
      · intro c hc
        rcases List.mem_append.1 hc with h | h
        · exact hL0 c h
        · rw [List.mem_singleton] at h
          rw [h]
          decide
    rw [e1, hn, skip_rest_newline _ _ _ hmem]
    try rfl
  · rw [fgets_long L (10 :: rest) 82 hL10 h1]
    simp only []
    have hne : List.take 82 L ≠ [] := by
      intro e
      have := congrArg List.length e
      simp only [List.length_take, List.length_nil] at this
      omega
    rw [if_neg hne]
    have e1 : (L ++ [10]).take 82 = L.take 82 := by
      rw [List.take_append_of_le_length h1]
    have hmem : (10 : Byte) ∉ c_str (List.take 82 L) := by
      rw [c_str_eq _ (fun c hc => hL0 c (List.mem_of_mem_take hc))]
      exact fun hc => hL10 10 (List.mem_of_mem_take hc) rfl
    have hlen : (List.drop 82 L).length + 2 ≤ (L ++ 10 :: rest).length := by
      simp only [List.length_append, List.length_drop, List.length_cons]
      omega
    rw [e1, skip_rest_to_newline _ _ _ _ (fun c hc => hL10 c (List.mem_of_mem_drop hc))
      (fun c hc => hL0 c (List.mem_of_mem_drop hc)) hmem hlen]
    try rfl

theorem hdr_lines_nil (fuel : Nat) (v : HdrVars) : hdr_lines fuel [] v = .ok v := by
  cases fuel <;> rfl

theorem graph_isspace {c : Byte} (h : 33 ≤ c.val ∧ c.val ≤ 126) : isspace c = false := by
  simp only [isspace, decide_eq_false_iff_not]
  omega

theorem scan_token_graph (kw tl : List Byte) (hkw : graph kw) :
    scan_token (kw ++ 32 :: tl) = (kw, 32 :: tl) := by
  induction kw with
  | nil => rfl
  | cons c kw ih =>
    have hc := graph_isspace (hkw c (List.mem_cons_self _ _))
    have h2 := ih (fun d hd => hkw d (List.mem_cons_of_mem _ hd))
    rw [List.cons_append, scan_token, hc, h2]
    rfl

theorem skip_space_spaces (n : Nat) (s : List Byte) :
    skip_space (List.replicate n 32 ++ s) = skip_space s := by
  induction n with
  | zero => rfl
  | succ n ih =>
    rw [List.replicate_succ, List.cons_append, skip_space, if_pos (by decide), ih]

theorem skip_space_graph (s : List Byte) (h : graph s) (hs : s ≠ []) (t : List Byte) :
    skip_space (s ++ t) = s ++ t := by
  cases s with
  | nil => exact absurd rfl hs
  | cons c s => exact skip_space_cons _ _ (graph_isspace (h c (List.mem_cons_self _ _)))

theorem length_pad_right (kw : List Byte) (h : kw.length ≤ 13) :
    (pad_right 13 kw).length = 13 := by
  rw [pad_right, List.length_append, List.length_replicate]
  omega

theorem hdr_text_line_eq (kw value : List Byte) :
    hdr_text_line kw value
      = kw ++ 32 :: (List.replicate (13 - kw.length) 32 ++ (value ++ [13, 10])) := by
  have e1 : str " " = [32] := rfl
  have e2 : str "\r\n" = [13, 10] := rfl
  have e3 : List.replicate (13 - kw.length) (32 : Byte) ++ [32]
      = 32 :: List.replicate (13 - kw.length) 32 := by
    rw [← List.replicate_succ, List.replicate_succ']
  rw [hdr_text_line, pad_right, e1, e2, List.append_assoc, List.append_assoc, List.append_assoc,
    ← List.append_assoc (List.replicate _ _), e3]
  rfl

theorem length_hdr_text_line (kw value : List Byte) (h : kw.length ≤ 13) :
    (hdr_text_line kw value).length = value.length + 16 := by
  rw [hdr_text_line_eq]
  simp only [List.length_append, List.length_cons, List.length_replicate, List.length_nil]
  omega

theorem drop_hdr_text_line (kw value : List Byte) (h : kw.length ≤ 13) :
    (hdr_text_line kw value).drop 14 = value ++ 13 :: [10] := by
  have e : hdr_text_line kw value = (pad_right 13 kw ++ [32]) ++ (value ++ [13, 10]) := by
    rw [hdr_text_line]
    simp only [List.append_assoc]
    rfl
  have e2 : (pad_right 13 kw ++ [32]).length = 14 := by
    rw [List.length_append, length_pad_right kw h]
    rfl
  rw [e, ← e2, List.drop_left]

theorem graph_nonzero {s : List Byte} (h : graph s) : ∀ c ∈ s, c ≠ 0 ∧ c ≠ 10 ∧ c ≠ 13 := by
  intro c hc
  have := h c hc
  refine ⟨?_, ?_, ?_⟩ <;> intro e <;> rw [e] at this <;> revert this <;> decide

theorem hdr_text_line_chars (kw value : List Byte)
    (hkw : ∀ c ∈ kw, c ≠ 0 ∧ c ≠ 10) (hv : ∀ c ∈ value, c ≠ 0 ∧ c ≠ 10) :
    ∃ L, hdr_text_line kw value = L ++ [10] ∧ (∀ c ∈ L, c ≠ 10) ∧ (∀ c ∈ L, c ≠ 0)
      ∧ L.length = (hdr_text_line kw value).length - 1 := by
  refine ⟨kw ++ 32 :: (List.replicate (13 - kw.length) 32 ++ (value ++ [13])), ?_, ?_, ?_, ?_⟩
  · rw [hdr_text_line_eq]
    simp
  · intro c hc
    simp only [List.mem_append, List.mem_cons, List.mem_replicate, List.mem_singleton,
      List.not_mem_nil, or_false] at hc
    rcases hc with h | h | h | h | h
    · exact (hkw c h).2
    · rw [h]; decide
    · rw [h.2]; decide
    · exact (hv c h).2
    · rw [h]; decide
  · intro c hc
    simp only [List.mem_append, List.mem_cons, List.mem_replicate, List.mem_singleton,
      List.not_mem_nil, or_false] at hc
    rcases hc with h | h | h | h | h
    · exact (hkw c h).1
    · rw [h]; decide
    · rw [h.2]; decide
    · exact (hv c h).1
    · rw [h]; decide
  · rw [hdr_text_line_eq]
    simp only [List.length_append, List.length_cons, List.length_replicate, List.length_nil]
    omega

theorem hdr_line_value (kw value : List Byte) (v : HdrVars) (hkw : graph kw) (hkw0 : kw ≠ [])
    (hkl : kw.length ≤ 13) (hv : graph value) (hv0 : value ≠ []) :
    hdr_line (hdr_text_line kw value) v
      = hdr_entry (hdr_text_line kw value) (make_lowercase kw) 14 v := by
  obtain ⟨L, eL, _, hL0, _⟩ := hdr_text_line_chars kw value
    (fun c hc => ⟨(graph_nonzero hkw c hc).1, (graph_nonzero hkw c hc).2.1⟩)
    (fun c hc => ⟨(graph_nonzero hv c hc).1, (graph_nonzero hv c hc).2.1⟩)
  have hc : c_str (hdr_text_line kw value) = hdr_text_line kw value := by
    apply c_str_eq
    rw [eL]
    intro c hc
    rcases List.mem_append.1 hc with h | h
    · exact hL0 c h
    · rw [List.mem_singleton] at h
      rw [h]
      decide
  have hlen := length_hdr_text_line kw value hkl
  rw [hdr_line, hc]
  have h1 : skip_space (hdr_text_line kw value) = hdr_text_line kw value := by
    rw [hdr_text_line_eq]
    exact skip_space_graph kw hkw hkw0 _
  have h2 : scan_token (hdr_text_line kw value)
      = (kw, 32 :: (List.replicate (13 - kw.length) 32 ++ (value ++ [13, 10]))) := by
    rw [hdr_text_line_eq]
    exact scan_token_graph kw _ hkw
  have h3 : skip_space (32 :: (List.replicate (13 - kw.length) 32 ++ (value ++ [13, 10])))
      = value ++ [13, 10] := by
    rw [skip_space, if_pos (by decide), skip_space_spaces]
    exact skip_space_graph value hv hv0 _
  have h4 : scan_keyword (hdr_text_line kw value) = some (make_lowercase kw, 14) := by
    rw [scan_keyword, h1, h2]
    simp only []
    rw [if_neg hkw0, h3, hlen]
    congr 2
    simp only [List.length_append, List.length_cons, List.length_nil]
    omega
  rw [h4]

theorem hdr_lines_value (fuel : Nat) (kw value rest : List Byte) (v : HdrVars) (hkw : graph kw)
    (hkw0 : kw ≠ []) (hkl : kw.length ≤ 13) (hv : graph value) (hv0 : value ≠ [])
    (hvl : value.length ≤ 66) :
    hdr_lines (fuel + 1) (hdr_text_line kw value ++ rest) v
      = match hdr_entry (hdr_text_line kw value) (make_lowercase kw) 14 v with
        | .error e => .error e
        | .ok v2 => hdr_lines fuel rest v2 := by
  obtain ⟨L, eL, hL10, hL0, hLl⟩ := hdr_text_line_chars kw value
    (fun c hc => ⟨(graph_nonzero hkw c hc).1, (graph_nonzero hkw c hc).2.1⟩)
    (fun c hc => ⟨(graph_nonzero hv c hc).1, (graph_nonzero hv c hc).2.1⟩)
  have hlen := length_hdr_text_line kw value hkl
  have e1 : (L ++ [10]).take 82 = L ++ [10] := by
    apply List.take_of_length_le
    rw [← eL, hlen]
    omega
  have e2 : hdr_text_line kw value ++ rest = L ++ 10 :: rest := by
    rw [eL, List.append_assoc]
    rfl
  rw [e2, hdr_lines_step fuel L rest v hL10 hL0, e1, ← eL, hdr_line_value kw value v hkw hkw0 hkl hv hv0]
/-! ## The lines that `write_hdr_file` writes, read by `read_hdr_file` -/

theorem hdr_entry_ncols (line : List Byte) (pos : Nat) (v : HdrVars) :
    hdr_entry line (make_lowercase (str "ncols")) pos v
      = (read_int line pos).bind (fun n =>
          if n ≤ 0 then .error (negative_exit n) else .ok { v with ncols := n }) := rfl

theorem hdr_entry_nrows (line : List Byte) (pos : Nat) (v : HdrVars) :
    hdr_entry line (make_lowercase (str "nrows")) pos v
      = (read_int line pos).bind (fun n =>
          if n ≤ 0 then .error (negative_exit n) else .ok { v with nrows := n }) := rfl

theorem hdr_entry_xllcorner (line : List Byte) (pos : Nat) (v : HdrVars) :
    hdr_entry line (make_lowercase (str "xllcorner")) pos v
      = (read_double line pos).bind (fun x => .ok { v with xcoord := x, xcoord_type := 1 }) := rfl

theorem hdr_entry_yllcorner (line : List Byte) (pos : Nat) (v : HdrVars) :
    hdr_entry line (make_lowercase (str "yllcorner")) pos v
      = (read_double line pos).bind (fun y => .ok { v with ycoord := y, ycoord_type := 1 }) := rfl

theorem hdr_entry_cellsize (line : List Byte) (pos : Nat) (v : HdrVars) :
    hdr_entry line (make_lowercase (str "cellsize")) pos v
      = (read_double line pos).bind (fun d =>
          if Fp.eq d dbl_0 then .error .bad_zero else .ok { v with xdim := d, ydim := d }) := rfl

theorem hdr_entry_xdim (line : List Byte) (pos : Nat) (v : HdrVars) :
    hdr_entry line (make_lowercase (str "xdim")) pos v
      = (read_double line pos).bind (fun d =>
          if Fp.eq d dbl_0 then .error .bad_zero else .ok { v with xdim := d }) := rfl

theorem hdr_entry_ydim (line : List Byte) (pos : Nat) (v : HdrVars) :
    hdr_entry line (make_lowercase (str "ydim")) pos v
      = (read_double line pos).bind (fun d =>
          if Fp.eq d dbl_0 then .error .bad_zero else .ok { v with ydim := d }) := rfl

theorem hdr_entry_nodata (line : List Byte) (pos : Nat) (v : HdrVars) :
    hdr_entry line (make_lowercase (str "NODATA_value")) pos v
      = (read_float line pos).bind (fun x => .ok { v with nodata := x }) := rfl

theorem hdr_entry_min_value (line : List Byte) (pos : Nat) (v : HdrVars) :
    hdr_entry line (make_lowercase (str "min_value")) pos v
      = (read_float line pos).bind (fun _ => .ok v) := rfl

theorem hdr_entry_max_value (line : List Byte) (pos : Nat) (v : HdrVars) :
    hdr_entry line (make_lowercase (str "max_value")) pos v
      = (read_float line pos).bind (fun _ => .ok v) := rfl

theorem hdr_entry_byteorder (host_be : Bool) (v : HdrVars) :
    hdr_entry (hdr_text_line (str "byteorder") (if host_be then str "MSBFIRST" else str "LSBFIRST"))
        (make_lowercase (str "byteorder")) 14 v
      = .ok { v with big_endian := host_be } := by
  cases host_be <;> rfl

theorem hdr_entry_layout (v : HdrVars) :
    hdr_entry (hdr_text_line (str "layout") (str "BIL")) (make_lowercase (str "layout")) 14 v
      = .ok v := rfl

theorem hdr_entry_nbands (v : HdrVars) :
    hdr_entry (hdr_text_line (str "nbands") (fmt_d 1)) (make_lowercase (str "nbands")) 14 v
      = .ok v := rfl

theorem hdr_entry_nbits (v : HdrVars) :
    hdr_entry (hdr_text_line (str "nbits") (fmt_d 32)) (make_lowercase (str "nbits")) 14 v
      = .ok v := rfl

theorem hdr_entry_pixeltype (v : HdrVars) :
    hdr_entry (hdr_text_line (str "pixeltype") (str "FLOAT"))
        (make_lowercase (str "pixeltype")) 14 v
      = .ok v := rfl

theorem toFp_range (x : Float32) :
    ∀ neg m e, x.toFp = .fin neg m e → m < 2 ^ 24 ∧ -149 ≤ e ∧ e ≤ 104 := by
  intro neg m e h
  have hx := x.isLt
  rw [Float32.toFp] at h
  split at h
  · split at h <;> exact absurd h (by simp)
  · split at h
    · injection h with _ h2 h3
      subst h2 h3
      refine ⟨?_, by decide, by decide⟩
      have := Nat.mod_lt x.val (by decide : 0 < 8388608)
      omega
    · injection h with _ h2 h3
      subst h2 h3
      have h4 := Nat.mod_lt x.val (by decide : 0 < 8388608)
      have h5 := Nat.mod_lt (x.val / 8388608) (by decide : 0 < 256)
      refine ⟨by omega, by omega, by omega⟩

theorem bounded_of_float (x : Float32) : Fp.bounded (Fp.of_float x) := by
  rw [Fp.of_float]
  cases h : x.toFp with
  | nan => trivial
  | inf neg => trivial
  | fin neg m e =>
    obtain ⟨h1, h2, h3⟩ := toFp_range x neg m e h
    have := bitlen_le m 24 h1
    exact ⟨by omega, by omega⟩

theorem ratio64_bounded (neg : Bool) (a b : Nat) : Fp.bounded (Fp.ratio64 neg a b) := by
  rw [Fp.ratio64]
  split
  · trivial
  · rename_i h
    refine ⟨?_, by omega⟩
    rw [round_ratio]
    split
    · decide
    · exact le_max_left _ _

theorem div64_bounded (a b : Fp) : Fp.bounded (Fp.div64 a b) := by
  cases a with
  | nan => cases b <;> trivial
  | inf n1 => cases b <;> trivial
  | fin n1 m1 e1 =>
    cases b with
    | nan => trivial
    | inf n2 => exact ⟨by decide, by decide⟩
    | fin n2 m2 e2 =>
      rw [Fp.div64]
      split
      · split <;> trivial
      · exact ratio64_bounded _ _ _

theorem cell_sizes_bounded (nrows ncols : Int) (xmin xmax ymin ymax : Fp) :
    Fp.bounded (cell_sizes nrows ncols xmin xmax ymin ymax).1
      ∧ Fp.bounded (cell_sizes nrows ncols xmin xmax ymin ymax).2 := by
  rw [cell_sizes]
  split
  · exact ⟨div64_bounded _ _, div64_bounded _ _⟩
  · exact ⟨div64_bounded _ _, div64_bounded _ _⟩

theorem length_fmt_f_float (p : Nat) (x : Float32) :
    (fmt_f p (Fp.of_float x)).length ≤ p + 41 := by
  rw [Fp.of_float]
  cases h : x.toFp with
  | nan =>
    have e : (fmt_f p .nan).length = 3 := rfl
    omega
  | inf neg =>
    have e : (fmt_f p (.inf neg)).length = (sign_text neg).length + 3 := by cases neg <;> rfl
    have := length_sign_text neg
    omega
  | fin neg m e =>
    obtain ⟨h1, h2, h3⟩ := toFp_range x neg m e h
    have hs := length_sign_text neg
    have hd : 0 < 2 ^ (-e).toNat := by positivity
    have hn : m * 2 ^ e.toNat ≤ 2 ^ 128 := by
      have e1 : 2 ^ e.toNat ≤ 2 ^ 104 := Nat.pow_le_pow_right (by decide) (by omega)
      calc m * 2 ^ e.toNat ≤ 2 ^ 24 * 2 ^ 104 := Nat.mul_le_mul h1.le e1
        _ = 2 ^ 128 := by norm_num
    have hR : round_div (m * 2 ^ e.toNat * 10 ^ p) (2 ^ (-e).toNat) ≤ 2 ^ 128 * 10 ^ p := by
      apply round_div_le _ _ _ hd
      calc m * 2 ^ e.toNat * 10 ^ p ≤ 2 ^ 128 * 10 ^ p := Nat.mul_le_mul_right _ hn
        _ = 2 ^ 128 * 10 ^ p * 1 := (Nat.mul_one _).symm
        _ ≤ 2 ^ 128 * 10 ^ p * 2 ^ (-e).toNat := Nat.mul_le_mul_left _ hd
    have hI : round_div (m * 2 ^ e.toNat * 10 ^ p) (2 ^ (-e).toNat) / 10 ^ p < 10 ^ 39 := by
      have : round_div (m * 2 ^ e.toNat * 10 ^ p) (2 ^ (-e).toNat) / 10 ^ p ≤ 2 ^ 128 :=
        Nat.div_le_of_le_mul (by rw [mul_comm (10 ^ p) (2 ^ 128)]; exact hR)
      exact lt_of_le_of_lt this (by norm_num)
    have hl := declen_le _ 39 hI (by decide)
    rw [fmt_f]
    simp only [List.length_append, length_dec_digits]
    have hp : (if p = 0 then [] else str "." ++ digits_fixed p
        (round_div (m * 2 ^ e.toNat * 10 ^ p) (2 ^ (-e).toNat) % 10 ^ p)).length ≤ p + 1 := by
      split
      · simp
      · rw [List.length_append, length_digits_fixed]
        have : (str ".").length = 1 := rfl
        omega
    omega

theorem fmt_d_ne_nil (n : Int) : fmt_d n ≠ [] := by
  rw [fmt_d]
  intro h
  exact dec_digits_ne_nil _ (List.append_eq_nil.1 h).2

theorem fmt_g_ne_nil (P : Nat) (x : Fp) : fmt_g P x ≠ [] := by
  have h3 : str "nan" ≠ [] := by decide
  have h4 : str "inf" ≠ [] := by decide
  have h5 : str "0" ≠ [] := by decide
  cases x with
  | nan => exact h3
  | inf neg => exact fun h => h4 (List.append_eq_nil.1 h).2
  | fin neg m e =>
    rw [fmt_g]
    split
    · exact fun h => h5 (List.append_eq_nil.1 h).2
    · simp only []
      split
      · intro h
        exact dec_digits_ne_nil _ (List.append_eq_nil.1 (List.append_eq_nil.1 h).1).2
      · intro h
        exact dec_digits_ne_nil _
          (List.append_eq_nil.1 (List.append_eq_nil.1 (List.append_eq_nil.1 h).1).1).2

theorem fmt_f_ne_nil (p : Nat) (x : Fp) : fmt_f p x ≠ [] := by
  have h3 : str "nan" ≠ [] := by decide
  have h4 : str "inf" ≠ [] := by decide
  cases x with
  | nan => exact h3
  | inf neg => exact fun h => h4 (List.append_eq_nil.1 h).2
  | fin neg m e =>
    rw [fmt_f]
    intro h
    exact dec_digits_ne_nil _ (List.append_eq_nil.1 (List.append_eq_nil.1 h).1).2

theorem wrap_int_of_range (x : Int) (h1 : -2147483648 ≤ x) (h2 : x ≤ 2147483647) :
    wrap_int x = x := by
  unfold wrap_int
  omega

theorem wrap_int_range (x : Int) : -2147483648 ≤ wrap_int x ∧ wrap_int x ≤ 2147483647 := by
  unfold wrap_int
  omega

theorem clamp_long_of_range (x : Int) (h1 : -9223372036854775808 ≤ x)
    (h2 : x ≤ 9223372036854775807) : clamp_long x = x := by
  unfold clamp_long
  omega

/-- The `int` that `%d` stores for a number in the range of an `int` is the number. -/
theorem stored_int_of_range (x : Int) (h1 : -2147483648 ≤ x) (h2 : x ≤ 2147483647) :
    wrap_int (clamp_long x) = x := by
  rw [clamp_long_of_range x (by omega) (by omega), wrap_int_of_range x h1 h2]

theorem read_int_line (kw : List Byte) (n : Int) (hkl : kw.length ≤ 13)
    (hn : -2147483648 ≤ n ∧ n ≤ 2147483647) :
    read_int (hdr_text_line kw (fmt_d n)) 14 = .ok n := by
  rw [read_int, drop_hdr_text_line _ _ hkl, scan_d_fmt_d n 13 [10] (by decide)]
  simp only []
  rw [stored_int_of_range n hn.1 hn.2]

theorem read_double_line (kw : List Byte) (x : Fp) (hkl : kw.length ≤ 13) :
    read_double (hdr_text_line kw (fmt_g 14 x)) 14 = .ok (reread64 14 x) := by
  rw [read_double, drop_hdr_text_line _ _ hkl, scan_lf_fmt_g 14 (by decide)]

theorem read_float_line (kw : List Byte) (x : Fp) (hkl : kw.length ≤ 13) :
    read_float (hdr_text_line kw (fmt_g 6 x)) 14 = .ok (reread32 6 x) := by
  rw [read_float, drop_hdr_text_line _ _ hkl, scan_f_fmt_g 6 (by decide)]

theorem read_float_fixed_line (kw : List Byte) (p : Nat) (x : Fp) (hkl : kw.length ≤ 13) :
    ∃ y, read_float (hdr_text_line kw (fmt_f p x)) 14 = .ok y := by
  obtain ⟨y, hy⟩ := scan_f_fmt_f p x [10]
  refine ⟨y, ?_⟩
  rw [read_float, drop_hdr_text_line _ _ hkl, hy]

theorem step_ncols (fuel : Nat) (rest : List Byte) (v : HdrVars) (n : Int)
    (hn : 1 ≤ n ∧ n ≤ 2147483647) :
    hdr_lines (fuel + 1) (hdr_text_line (str "ncols") (fmt_d n) ++ rest) v
      = hdr_lines fuel rest { v with ncols := n } := by
  rw [hdr_lines_value fuel _ _ rest v (by decide) (by decide) (by decide) (graph_fmt_d n)
    (fmt_d_ne_nil n) (le_trans (length_fmt_d n (by omega)) (by decide)), hdr_entry_ncols,
    read_int_line _ n (by decide) (by omega)]
  simp only [Except.bind]
  rw [if_neg (by omega)]

theorem step_nrows (fuel : Nat) (rest : List Byte) (v : HdrVars) (n : Int)
    (hn : 1 ≤ n ∧ n ≤ 2147483647) :
    hdr_lines (fuel + 1) (hdr_text_line (str "nrows") (fmt_d n) ++ rest) v
      = hdr_lines fuel rest { v with nrows := n } := by
  rw [hdr_lines_value fuel _ _ rest v (by decide) (by decide) (by decide) (graph_fmt_d n)
    (fmt_d_ne_nil n) (le_trans (length_fmt_d n (by omega)) (by decide)), hdr_entry_nrows,
    read_int_line _ n (by decide) (by omega)]
  simp only [Except.bind]
  rw [if_neg (by omega)]

theorem length_fmt_g_le (P : Nat) (hP : 1 ≤ P) (hP2 : P ≤ 14) (x : Fp) (hx : Fp.bounded x) :
    (fmt_g P x).length ≤ 66 := by
  have := length_fmt_g P hP x hx
  omega

theorem step_xllcorner (fuel : Nat) (rest : List Byte) (v : HdrVars) (x : Fp)
    (hx : Fp.bounded x) :
    hdr_lines (fuel + 1) (hdr_text_line (str "xllcorner") (fmt_g 14 x) ++ rest) v
      = hdr_lines fuel rest { v with xcoord := reread64 14 x, xcoord_type := 1 } := by
  rw [hdr_lines_value fuel _ _ rest v (by decide) (by decide) (by decide) (graph_fmt_g 14 x)
    (fmt_g_ne_nil 14 x) (length_fmt_g_le 14 (by decide) (by decide) x hx), hdr_entry_xllcorner,
    read_double_line _ x (by decide)]
  rfl

theorem step_yllcorner (fuel : Nat) (rest : List Byte) (v : HdrVars) (x : Fp)
    (hx : Fp.bounded x) :
    hdr_lines (fuel + 1) (hdr_text_line (str "yllcorner") (fmt_g 14 x) ++ rest) v
      = hdr_lines fuel rest { v with ycoord := reread64 14 x, ycoord_type := 1 } := by
  rw [hdr_lines_value fuel _ _ rest v (by decide) (by decide) (by decide) (graph_fmt_g 14 x)
    (fmt_g_ne_nil 14 x) (length_fmt_g_le 14 (by decide) (by decide) x hx), hdr_entry_yllcorner,
    read_double_line _ x (by decide)]
  rfl

theorem step_cellsize (fuel : Nat) (rest : List Byte) (v : HdrVars) (x : Fp)
    (hx : Fp.bounded x) (hnz : Fp.eq (reread64 14 x) dbl_0 = false) :
    hdr_lines (fuel + 1) (hdr_text_line (str "cellsize") (fmt_g 14 x) ++ rest) v
      = hdr_lines fuel rest { v with xdim := reread64 14 x, ydim := reread64 14 x } := by
  rw [hdr_lines_value fuel _ _ rest v (by decide) (by decide) (by decide) (graph_fmt_g 14 x)
    (fmt_g_ne_nil 14 x) (length_fmt_g_le 14 (by decide) (by decide) x hx), hdr_entry_cellsize,
    read_double_line _ x (by decide)]
  simp only [Except.bind, hnz]
  rfl

theorem step_xdim (fuel : Nat) (rest : List Byte) (v : HdrVars) (x : Fp)
    (hx : Fp.bounded x) (hnz : Fp.eq (reread64 14 x) dbl_0 = false) :
    hdr_lines (fuel + 1) (hdr_text_line (str "xdim") (fmt_g 14 x) ++ rest) v
      = hdr_lines fuel rest { v with xdim := reread64 14 x } := by
  rw [hdr_lines_value fuel _ _ rest v (by decide) (by decide) (by decide) (graph_fmt_g 14 x)
    (fmt_g_ne_nil 14 x) (length_fmt_g_le 14 (by decide) (by decide) x hx), hdr_entry_xdim,
    read_double_line _ x (by decide)]
  simp only [Except.bind, hnz]
  rfl

theorem step_ydim (fuel : Nat) (rest : List Byte) (v : HdrVars) (x : Fp)
    (hx : Fp.bounded x) (hnz : Fp.eq (reread64 14 x) dbl_0 = false) :
    hdr_lines (fuel + 1) (hdr_text_line (str "ydim") (fmt_g 14 x) ++ rest) v
      = hdr_lines fuel rest { v with ydim := reread64 14 x } := by
  rw [hdr_lines_value fuel _ _ rest v (by decide) (by decide) (by decide) (graph_fmt_g 14 x)
    (fmt_g_ne_nil 14 x) (length_fmt_g_le 14 (by decide) (by decide) x hx), hdr_entry_ydim,
    read_double_line _ x (by decide)]
  simp only [Except.bind, hnz]
  rfl

theorem step_nodata (fuel : Nat) (rest : List Byte) (v : HdrVars) (x : Float32) :
    hdr_lines (fuel + 1)
        (hdr_text_line (str "NODATA_value") (fmt_g 6 (Fp.of_float x)) ++ rest) v
      = hdr_lines fuel rest { v with nodata := reread32 6 (Fp.of_float x) } := by
  rw [hdr_lines_value fuel _ _ rest v (by decide) (by decide) (by decide) (graph_fmt_g 6 _)
    (fmt_g_ne_nil 6 _) (length_fmt_g_le 6 (by decide) (by decide) _ (bounded_of_float x)),
    hdr_entry_nodata, read_float_line _ _ (by decide)]
  rfl

theorem step_byteorder (fuel : Nat) (rest : List Byte) (v : HdrVars) (host_be : Bool) :
    hdr_lines (fuel + 1)
        (hdr_text_line (str "byteorder") (if host_be then str "MSBFIRST" else str "LSBFIRST")
          ++ rest) v
      = hdr_lines fuel rest { v with big_endian := host_be } := by
  rw [hdr_lines_value fuel _ _ rest v (by decide) (by decide) (by decide)
    (by cases host_be <;> decide) (by cases host_be <;> decide) (by cases host_be <;> decide),
    hdr_entry_byteorder]

theorem step_layout (fuel : Nat) (rest : List Byte) (v : HdrVars) :
    hdr_lines (fuel + 1) (hdr_text_line (str "layout") (str "BIL") ++ rest) v
      = hdr_lines fuel rest v := by
  rw [hdr_lines_value fuel _ _ rest v (by decide) (by decide) (by decide)
    (by decide) (by decide) (by decide), hdr_entry_layout]

theorem step_nbands (fuel : Nat) (rest : List Byte) (v : HdrVars) :
    hdr_lines (fuel + 1) (hdr_text_line (str "nbands") (fmt_d 1) ++ rest) v
      = hdr_lines fuel rest v := by
  rw [hdr_lines_value fuel _ _ rest v (by decide) (by decide) (by decide)
    (by decide) (by decide) (by decide), hdr_entry_nbands]

theorem step_nbits (fuel : Nat) (rest : List Byte) (v : HdrVars) :
    hdr_lines (fuel + 1) (hdr_text_line (str "nbits") (fmt_d 32) ++ rest) v
      = hdr_lines fuel rest v := by
  rw [hdr_lines_value fuel _ _ rest v (by decide) (by decide) (by decide)
    (by decide) (by decide) (by decide), hdr_entry_nbits]

theorem step_pixeltype (fuel : Nat) (rest : List Byte) (v : HdrVars) :
    hdr_lines (fuel + 1) (hdr_text_line (str "pixeltype") (str "FLOAT") ++ rest) v
      = hdr_lines fuel rest v := by
  rw [hdr_lines_value fuel _ _ rest v (by decide) (by decide) (by decide)
    (by decide) (by decide) (by decide), hdr_entry_pixeltype]

theorem step_min_value (fuel : Nat) (rest : List Byte) (v : HdrVars) (x : Float32) :
    hdr_lines (fuel + 1) (hdr_text_line (str "min_value") (fmt_f 1 (Fp.of_float x)) ++ rest) v
      = hdr_lines fuel rest v := by
  obtain ⟨y, hy⟩ := read_float_fixed_line (str "min_value") 1 (Fp.of_float x) (by decide)
  rw [hdr_lines_value fuel _ _ rest v (by decide) (by decide) (by decide) (graph_fmt_f 1 _)
    (fmt_f_ne_nil 1 _) (le_trans (length_fmt_f_float 1 x) (by decide)), hdr_entry_min_value, hy]
  rfl

theorem step_max_value (fuel : Nat) (rest : List Byte) (v : HdrVars) (x : Float32) :
    hdr_lines (fuel + 1) (hdr_text_line (str "max_value") (fmt_f 1 (Fp.of_float x)) ++ rest) v
      = hdr_lines fuel rest v := by
  obtain ⟨y, hy⟩ := read_float_fixed_line (str "max_value") 1 (Fp.of_float x) (by decide)
  rw [hdr_lines_value fuel _ _ rest v (by decide) (by decide) (by decide) (graph_fmt_f 1 _)
    (fmt_f_ne_nil 1 _) (le_trans (length_fmt_f_float 1 x) (by decide)), hdr_entry_max_value, hy]
  rfl

theorem take_strlen_nonzero (s : List Byte) : ∀ c ∈ s.take (strlen s), c ≠ 0 := by
  induction s with
  | nil => exact fun c hc => absurd hc (List.not_mem_nil c)
  | cons d s ih =>
    rw [strlen]
    split
    · exact fun c hc => absurd hc (List.not_mem_nil c)
    · rename_i hd
      intro c hc
      rw [List.take_succ_cons] at hc
      rcases List.mem_cons.1 hc with h | h
      · rw [h]
        exact hd
      · exact ih c h

theorem hdr_entry_software (line : List Byte) (pos : Nat) (v : HdrVars) :
    hdr_entry line (make_lowercase (str "software")) pos v
      = .ok { v with software := some (software_text (line.drop pos)) } := rfl

theorem hdr_line_software (T : List Byte) (v : HdrVars) (hT : ∀ c ∈ T, c ≠ 0) :
    ∃ s, hdr_line (str "software" ++ 32 :: T) v = .ok { v with software := some s } := by
  have hc : c_str (str "software" ++ 32 :: T) = str "software" ++ 32 :: T := by
    apply c_str_eq
    intro c hc
    rcases List.mem_append.1 hc with h | h
    · exact (graph_nonzero (by decide : graph (str "software")) c h).1
    · rcases List.mem_cons.1 h with h2 | h2
      · rw [h2]
        decide
      · exact hT c h2
  have h1 : skip_space (str "software" ++ 32 :: T) = str "software" ++ 32 :: T :=
    skip_space_graph _ (by decide) (by decide) _
  have h2 : scan_token (str "software" ++ 32 :: T) = (str "software", 32 :: T) :=
    scan_token_graph _ _ (by decide)
  rw [hdr_line, hc, scan_keyword, h1, h2]
  simp only []
  rw [if_neg (by decide)]
  simp only []
  rw [hdr_entry_software]
  exact ⟨_, rfl⟩

theorem step_software (fuel : Nat) (sv : List Byte) (v : HdrVars)
    (h0 : ∀ c ∈ sv, c ≠ 0) (h10 : ∀ c ∈ sv, c ≠ 10) :
    ∃ s, hdr_lines (fuel + 1) (hdr_text_line (str "software") sv) v
      = .ok { v with software := some s } := by
  obtain ⟨L, eL, hL10, hL0, hLl⟩ := hdr_text_line_chars (str "software") sv
    (fun c hc => ⟨(graph_nonzero (by decide : graph (str "software")) c hc).1,
      (graph_nonzero (by decide : graph (str "software")) c hc).2.1⟩)
    (fun c hc => ⟨h0 c hc, h10 c hc⟩)
  have e1 : hdr_text_line (str "software") sv = L ++ 10 :: [] := eL
  have e2 : ∃ T, (L ++ [10]).take 82 = str "software" ++ 32 :: T ∧ ∀ c ∈ T, c ≠ 0 := by
    refine ⟨List.take 73 (List.replicate (13 - (str "software").length) 32 ++ (sv ++ [13, 10])),
      ?_, ?_⟩
    · rw [← eL, hdr_text_line_eq]
      rfl
    · intro c hc
      have h1 := List.mem_of_mem_take hc
      simp only [List.mem_append, List.mem_replicate, List.mem_cons, List.mem_singleton,
        List.not_mem_nil, or_false] at h1
      rcases h1 with h | h | h | h
      · rw [h.2]; decide
      · exact h0 c h
      · rw [h]; decide
      · rw [h]; decide
  obtain ⟨T, eT, hT⟩ := e2
  obtain ⟨s, hs⟩ := hdr_line_software T v hT
  refine ⟨s, ?_⟩
  rw [e1, hdr_lines_step fuel L [] v hL10 hL0, eT, hs]
  exact hdr_lines_nil _ _

theorem hdr_lines_tail (fuel : Nat) (v : HdrVars) (software : Option (List Byte))
    (hsw : ∀ s, software = some s → ∀ c ∈ s.take (strlen s), c ≠ 10) :
    ∃ sw, hdr_lines (fuel + 1)
        (match software with
          | none => []
          | some s => hdr_text_line (str "software") (s.take (strlen s))) v
      = .ok { v with software := sw } := by
  cases software with
  | none => exact ⟨v.software, hdr_lines_nil _ _⟩
  | some s =>
    obtain ⟨t, ht⟩ := step_software fuel (s.take (strlen s)) v (take_strlen_nonzero s)
      (hsw s rfl)
    exact ⟨some t, ht⟩

theorem hdr_lines_written (fuel : Nat) (host_be : Bool) (nrows ncols : Int)
    (xmin xmax ymin ymax : Fp) (nodata min_value max_value : Float32)
    (software : Option (List Byte))
    (hr : 1 ≤ nrows ∧ nrows ≤ 2147483647) (hc : 1 ≤ ncols ∧ ncols ≤ 2147483647)
    (hxb : Fp.bounded xmin) (hyb : Fp.bounded ymin)
    (hcx : Fp.eq (reread64 14 (cell_sizes nrows ncols xmin xmax ymin ymax).1) dbl_0 = false)
    (hcy : Fp.eq (reread64 14 (cell_sizes nrows ncols xmin xmax ymin ymax).2) dbl_0 = false)
    (hsw : ∀ s, software = some s → ∀ c ∈ s.take (strlen s), c ≠ 10) :
    ∃ sw, hdr_lines (fuel + 16)
        (write_hdr_file host_be nrows ncols xmin xmax ymin ymax nodata min_value max_value
          true software) hdr_init
      = .ok { ncols := ncols, nrows := nrows, xcoord := reread64 14 xmin,
              ycoord := reread64 14 ymin, xcoord_type := 1, ycoord_type := 1,
              xdim := reread64 14 (cell_sizes nrows ncols xmin xmax ymin ymax).1,
              ydim := reread64 14 (cell_sizes nrows ncols xmin xmax ymin ymax).2,
              nodata := reread32 6 (Fp.of_float nodata), big_endian := host_be,
              skipbytes := 0, bandrow := 0, totalrow := 0, software := sw } := by
  have hb := cell_sizes_bounded nrows ncols xmin xmax ymin ymax
  unfold write_hdr_file
  simp only [↓reduceIte, List.append_assoc]
  rw [step_ncols (fuel + 15) _ _ ncols hc]
  dsimp only [hdr_init]
  rw [step_nrows (fuel + 14) _ _ nrows hr]
  dsimp only
  rw [step_xllcorner (fuel + 13) _ _ xmin hxb]
  dsimp only
  rw [step_yllcorner (fuel + 12) _ _ ymin hyb]
  dsimp only
  rw [cell_sizes] at hcx hcy hb
  rw [cell_sizes, cell_size_lines]
  by_cases hs : square_cells nrows ncols xmin xmax ymin ymax = true
  · rw [if_pos hs] at hcx hcy hb
    rw [if_pos hs, if_pos hs]
    rw [step_cellsize (fuel + 11) _ _ _ hb.1 hcx]
    dsimp only
    rw [step_nodata (fuel + 10)]
    dsimp only
    rw [step_byteorder (fuel + 9)]
    dsimp only
    rw [step_layout (fuel + 8), step_nbands (fuel + 7), step_nbits (fuel + 6),
      step_pixeltype (fuel + 5), step_min_value (fuel + 4), step_max_value (fuel + 3)]
    exact hdr_lines_tail (fuel + 2) _ software hsw
  · rw [if_neg hs] at hcx hcy hb
    rw [if_neg hs, if_neg hs, List.append_assoc]
    rw [step_xdim (fuel + 11) _ _ _ hb.1 hcx]
    dsimp only
    rw [step_ydim (fuel + 10) _ _ _ hb.2 hcy]
    dsimp only
    rw [step_nodata (fuel + 9)]
    dsimp only
    rw [step_byteorder (fuel + 8)]
    dsimp only
    rw [step_layout (fuel + 7), step_nbands (fuel + 6), step_nbits (fuel + 5),
      step_pixeltype (fuel + 4), step_min_value (fuel + 3), step_max_value (fuel + 2)]
    exact hdr_lines_tail (fuel + 1) _ software hsw

/-! ## Signs of the cell sizes -/

theorem round64_not_neg (m : Nat) (e : Int) : Fp.not_neg (Fp.round64 (.fin false m e)) := by
  rw [Fp.round64]
  split <;> rfl

theorem scaled_neg (n : Bool) (m : Nat) (e base : Int) :
    Fp.scaled (!n) m e base = -Fp.scaled n m e base := by
  cases n <;> simp [Fp.scaled]

theorem sub64_not_neg (x y : Fp) (h : Fp.lt x y = true) : Fp.not_neg (Fp.sub64 y x) := by
  cases x with
  | nan => simp [Fp.lt] at h
  | inf n1 =>
    cases y with
    | nan => simp [Fp.lt] at h
    | inf n2 =>
      simp only [Fp.lt, Bool.and_eq_true, Bool.not_eq_true'] at h
      obtain ⟨h1, h2⟩ := h
      subst h1 h2
      rfl
    | fin n2 m2 e2 =>
      simp only [Fp.lt] at h
      subst h
      rfl
  | fin n1 m1 e1 =>
    cases y with
    | nan => simp [Fp.lt] at h
    | inf n2 =>
      simp only [Fp.lt, Bool.not_eq_true'] at h
      subst h
      rfl
    | fin n2 m2 e2 =>
      simp only [Fp.lt, decide_eq_true_eq] at h
      rw [Fp.sub64, Fp.neg, Fp.add64]
      simp only [scaled_neg]
      rw [min_comm e2 e1]
      have hs : ¬ (Fp.scaled n2 m2 e2 (min e1 e2) + -Fp.scaled n1 m1 e1 (min e1 e2) = 0) := by
        omega
      have hs2 : ¬ (Fp.scaled n2 m2 e2 (min e1 e2) + -Fp.scaled n1 m1 e1 (min e1 e2) < 0) := by
        omega
      rw [if_neg hs]
      simp only [hs2, decide_False]
      exact round64_not_neg _ _

theorem ratio64_not_neg (a b : Nat) : Fp.not_neg (Fp.ratio64 false a b) := by
  rw [Fp.ratio64]
  split <;> rfl

theorem div64_not_neg (a b : Fp) (ha : Fp.not_neg a) (hb : Fp.not_neg b) :
    Fp.not_neg (Fp.div64 a b) := by
  cases a with
  | nan => cases b <;> trivial
  | inf n1 =>
    cases b with
    | nan => trivial
    | inf n2 => trivial
    | fin n2 m2 e2 =>
      simp only [Fp.not_neg] at ha hb
      subst ha hb
      rfl
  | fin n1 m1 e1 =>
    cases b with
    | nan => trivial
    | inf n2 =>
      simp only [Fp.not_neg] at ha hb
      subst ha hb
      rfl
    | fin n2 m2 e2 =>
      simp only [Fp.not_neg] at ha hb
      subst ha hb
      rw [Fp.div64]
      split
      · split
        · trivial
        · rfl
      · exact ratio64_not_neg _ _

theorem mul64_not_neg (a b : Fp) (ha : Fp.not_neg a) (hb : Fp.not_neg b) :
    Fp.not_neg (Fp.mul64 a b) := by
  cases a with
  | nan => cases b <;> trivial
  | inf n1 =>
    cases b with
    | nan => trivial
    | inf n2 =>
      simp only [Fp.not_neg] at ha hb
      subst ha hb
      rfl
    | fin n2 m2 e2 =>
      simp only [Fp.not_neg] at ha hb
      subst ha hb
      rw [Fp.mul64]
      split
      · trivial
      · rfl
  | fin n1 m1 e1 =>
    cases b with
    | nan => trivial
    | inf n2 =>
      simp only [Fp.not_neg] at ha hb
      subst ha hb
      rw [Fp.mul64]
      split
      · trivial
      · rfl
    | fin n2 m2 e2 =>
      simp only [Fp.not_neg] at ha hb
      subst ha hb
      exact round64_not_neg _ _

theorem scaled_nonneg (m : Nat) (e base : Int) : 0 ≤ Fp.scaled false m e base := by
  simp [Fp.scaled]

theorem add64_not_neg (a b : Fp) (ha : Fp.not_neg a) (hb : Fp.not_neg b) :
    Fp.not_neg (Fp.add64 a b) := by
  cases a with
  | nan => cases b <;> trivial
  | inf n1 =>
    cases b with
    | nan => trivial
    | inf n2 =>
      simp only [Fp.not_neg] at ha hb
      subst ha hb
      rfl
    | fin n2 m2 e2 => exact ha
  | fin n1 m1 e1 =>
    cases b with
    | nan => trivial
    | inf n2 => exact hb
    | fin n2 m2 e2 =>
      simp only [Fp.not_neg] at ha hb
      subst ha hb
      have h1 := scaled_nonneg m1 e1 (min e1 e2)
      have h2 := scaled_nonneg m2 e2 (min e1 e2)
      rw [Fp.add64]
      split
      · rfl
      · have hs2 : ¬ (Fp.scaled false m1 e1 (min e1 e2) + Fp.scaled false m2 e2 (min e1 e2) < 0) := by
          omega
        simp only [hs2, decide_False]
        exact round64_not_neg _ _

theorem of_int_not_neg (n : Int) (h : 1 ≤ n) : Fp.not_neg (Fp.of_int n) := by
  rw [Fp.of_int]
  simp only [Fp.not_neg, decide_eq_false_iff_not]
  omega

theorem cell_sizes_not_neg (nrows ncols : Int) (xmin xmax ymin ymax : Fp)
    (hr : 1 ≤ nrows) (hc : 1 ≤ ncols) (hx : Fp.lt xmin xmax = true)
    (hy : Fp.lt ymin ymax = true) :
    Fp.not_neg (cell_sizes nrows ncols xmin xmax ymin ymax).1
      ∧ Fp.not_neg (cell_sizes nrows ncols xmin xmax ymin ymax).2 := by
  have h1 : Fp.not_neg (cell_dim ncols xmin xmax) :=
    div64_not_neg _ _ (sub64_not_neg _ _ hx) (of_int_not_neg _ hc)
  have h2 : Fp.not_neg (cell_dim nrows ymin ymax) :=
    div64_not_neg _ _ (sub64_not_neg _ _ hy) (of_int_not_neg _ hr)
  have h3 : Fp.not_neg (harmonic_mean (cell_dim ncols xmin xmax) (cell_dim nrows ymin ymax)) :=
    div64_not_neg _ _ (mul64_not_neg _ _ (mul64_not_neg _ _ rfl h1) h2) (add64_not_neg _ _ h1 h2)
  rw [cell_sizes]
  split
  · exact ⟨h3, h3⟩
  · exact ⟨h1, h2⟩

theorem reread64_not_neg (P : Nat) (x : Fp) (h : Fp.not_neg x) : Fp.not_neg (reread64 P x) := by
  cases x with
  | nan => trivial
  | inf n => exact h
  | fin n m e =>
    simp only [Fp.not_neg] at h
    subst h
    rw [reread64]
    split
    · rfl
    · exact ratio64_not_neg _ _

theorem lt_zero_of_not_neg (x : Fp) (h : Fp.not_neg x) : Fp.lt x dbl_0 = false := by
  cases x with
  | nan => rfl
  | inf n =>
    simp only [Fp.not_neg] at h
    subst h
    rfl
  | fin n m e =>
    simp only [Fp.not_neg] at h
    subst h
    have h1 := scaled_nonneg m e (min e 0)
    simp only [dbl_0, Fp.lt, decide_eq_false_iff_not]
    have h2 : Fp.scaled false 0 0 (min e 0) = 0 := by simp [Fp.scaled]
    rw [h2]
    omega

theorem length_write_hdr_file (host_be : Bool) (nrows ncols : Int) (xmin xmax ymin ymax : Fp)
    (nodata min_value max_value : Float32) (software : Option (List Byte)) :
    ∃ f, (write_hdr_file host_be nrows ncols xmin xmax ymin ymax nodata min_value max_value
      true software).length + 1 = f + 16 := by
  have h : 16 ≤ (write_hdr_file host_be nrows ncols xmin xmax ymin ymax nodata min_value
      max_value true software).length := by
    unfold write_hdr_file
    simp only [List.append_assoc, List.length_append]
    rw [length_hdr_text_line (str "ncols") _ (by decide)]
    omega
  exact ⟨(write_hdr_file host_be nrows ncols xmin xmax ymin ymax nodata min_value
      max_value true software).length - 15, by omega⟩

theorem hdr_resolve_corner (v : HdrVars) (h1 : 1 ≤ v.ncols) (h2 : 1 ≤ v.nrows)
    (h3 : v.bandrow = 0) (h4 : v.totalrow = 0) (h5 : Fp.eq v.xdim dbl_0 = false)
    (h6 : Fp.eq v.ydim dbl_0 = false) (h7 : v.xcoord_type = 1) (h8 : v.ycoord_type = 1)
    (h9 : Fp.lt v.xdim dbl_0 = false) (h10 : Fp.lt v.ydim dbl_0 = false) :
    hdr_resolve v
      = .ok { nrows := v.nrows, ncols := v.ncols, xmin := v.xcoord,
              xmax := Fp.add64 v.xcoord (Fp.mul64 v.xdim (Fp.of_int v.ncols)),
              ymin := v.ycoord,
              ymax := Fp.add64 v.ycoord (Fp.mul64 v.ydim (Fp.of_int v.nrows)),
              nodata := v.nodata, big_endian := v.big_endian, skipbytes := v.skipbytes,
              rowpad := 0, software := v.software } := by
  rw [hdr_resolve, if_neg (by omega), if_neg (by omega), if_neg (by simp [h3])]
  simp only [h4, h5, h6, h7, h8, h9, h10, ne_eq, not_true_eq_false, if_false, if_true,
    lt_self_iff_false, Bool.false_eq_true, OfNat.one_ne_ofNat, OfNat.ofNat_ne_one,
    one_ne_zero]

theorem read_written_header (host_be : Bool) (nrows ncols : Int)
    (xmin xmax ymin ymax : Fp) (nodata min_value max_value : Float32)
    (software : Option (List Byte))
    (hr : 1 ≤ nrows ∧ nrows ≤ 2147483647) (hc : 1 ≤ ncols ∧ ncols ≤ 2147483647)
    (hx : Fp.lt xmin xmax = true) (hy : Fp.lt ymin ymax = true)
    (hxb : Fp.bounded xmin) (hyb : Fp.bounded ymin)
    (hcx : Fp.eq (reread64 14 (cell_sizes nrows ncols xmin xmax ymin ymax).1) dbl_0 = false)
    (hcy : Fp.eq (reread64 14 (cell_sizes nrows ncols xmin xmax ymin ymax).2) dbl_0 = false)
    (hsw : ∀ s, software = some s → ∀ c ∈ s.take (strlen s), c ≠ 10) :
    ∃ sw, read_hdr_file (write_hdr_file host_be nrows ncols xmin xmax ymin ymax nodata
        min_value max_value true software)
      = .ok { nrows := nrows, ncols := ncols, xmin := reread64 14 xmin,
              xmax := Fp.add64 (reread64 14 xmin)
                (Fp.mul64 (reread64 14 (cell_sizes nrows ncols xmin xmax ymin ymax).1)
                  (Fp.of_int ncols)),
              ymin := reread64 14 ymin,
              ymax := Fp.add64 (reread64 14 ymin)
                (Fp.mul64 (reread64 14 (cell_sizes nrows ncols xmin xmax ymin ymax).2)
                  (Fp.of_int nrows)),
              nodata := reread32 6 (Fp.of_float nodata), big_endian := host_be,
              skipbytes := 0, rowpad := 0, software := sw } := by
  obtain ⟨f, hf⟩ := length_write_hdr_file host_be nrows ncols xmin xmax ymin ymax nodata
    min_value max_value software
  obtain ⟨sw, h⟩ := hdr_lines_written f host_be nrows ncols xmin xmax ymin ymax nodata
    min_value max_value software hr hc hxb hyb hcx hcy hsw
  obtain ⟨n1, n2⟩ := cell_sizes_not_neg nrows ncols xmin xmax ymin ymax hr.1 hc.1 hx hy
  refine ⟨sw, ?_⟩
  rw [read_hdr_file, hf, h]
  simp only []
  rw [hdr_resolve_corner _ hc.1 hr.1 rfl rfl hcx hcy rfl rfl
    (lt_zero_of_not_neg _ (reread64_not_neg _ _ n1))
    (lt_zero_of_not_neg _ (reread64_not_neg _ _ n2))]

/-! ## Accuracy of the decimal conversions -/

theorem pow_ratio (B : Nat) (hB : 0 < B) (A : Nat) (j : Int) :
    ((A * B ^ j.toNat : Nat) : ℚ) / ((B ^ (-j).toNat : Nat) : ℚ) = (A : ℚ) * (B : ℚ) ^ j := by
  have h := scaled_ratio B hB A 1 j
  rw [one_mul] at h
  rw [h]
  simp

theorem dec_value_ratio (P m : Nat) (e : Int) (hP : 1 ≤ P) :
    ((dec_value P m e).1 : ℚ) / ((dec_value P m e).2 : ℚ)
      = (round_div
          (m * 2 ^ e.toNat
            * 10 ^ ((P : Int) - 1 - dec_exp (m * 2 ^ e.toNat) (2 ^ (-e).toNat)).toNat)
          (2 ^ (-e).toNat
            * 10 ^ (-((P : Int) - 1 - dec_exp (m * 2 ^ e.toNat) (2 ^ (-e).toNat))).toNat) : ℚ)
        * ((10 : Nat) : ℚ) ^ (dec_exp (m * 2 ^ e.toNat) (2 ^ (-e).toNat) + 1 - (P : Int)) := by
  have h10 : ((10 : Nat) : ℚ) ≠ 0 := by norm_num
  rw [dec_value, dec_round]
  simp only []
  generalize dec_exp (m * 2 ^ e.toNat) (2 ^ (-e).toNat) = x
  generalize round_div (m * 2 ^ e.toNat * 10 ^ ((P : Int) - 1 - x).toNat)
    (2 ^ (-e).toNat * 10 ^ (-((P : Int) - 1 - x)).toNat) = D0
  have e1 : ∀ X : Int, (P : Int) - 1 - X = -(X + 1 - (P : Int)) := fun X => by ring
  split
  · rename_i hD
    simp only []
    rw [e1, pow_ratio 10 (by decide), hD]
    push_cast
    have h10b : (10 : ℚ) ≠ 0 := by norm_num
    rw [← zpow_natCast, ← zpow_natCast, ← zpow_add₀ h10b, ← zpow_add₀ h10b]
    congr 1
    omega
  · simp only []
    rw [e1, pow_ratio 10 (by decide)]

theorem dec_value_pos (P m : Nat) (e : Int) : 0 < (dec_value P m e).2 := by
  rw [dec_value]
  positivity

theorem dec_exp_le (m : Nat) (e : Int) (hm : 0 < m) :
    ((10 : Nat) : ℚ) ^ dec_exp (m * 2 ^ e.toNat) (2 ^ (-e).toNat) ≤ (m : ℚ) * (2 : ℚ) ^ e := by
  have ha : 0 < m * 2 ^ e.toNat := by positivity
  have hb : 0 < 2 ^ (-e).toNat := by positivity
  obtain ⟨s1, _⟩ := dec_exp_spec _ _ ha hb
  rwa [pow_le_iff 10 (by decide) _ _ _ hb, fp_value] at s1

theorem dec_scaled_value (P m : Nat) (e : Int) (x : Int) :
    ((m * 2 ^ e.toNat * 10 ^ ((P : Int) - 1 - x).toNat : Nat) : ℚ)
        / ((2 ^ (-e).toNat * 10 ^ (-((P : Int) - 1 - x)).toNat : Nat) : ℚ)
      = (m : ℚ) * (2 : ℚ) ^ e * ((10 : Nat) : ℚ) ^ ((P : Int) - 1 - x) := by
  rw [scaled_ratio 10 (by decide), fp_value]

theorem dec_value_near (P m : Nat) (e : Int) (hP : 1 ≤ P) (hm : 0 < m) :
    |((dec_value P m e).1 : ℚ) / ((dec_value P m e).2 : ℚ) - (m : ℚ) * (2 : ℚ) ^ e|
      ≤ (m : ℚ) * (2 : ℚ) ^ e / (2 * 10 ^ (P - 1)) := by
  have h10 : (0 : ℚ) < ((10 : Nat) : ℚ) := by norm_num
  have hx := dec_exp_le m e hm
  have hd : 0 < 2 ^ (-e).toNat
      * 10 ^ (-((P : Int) - 1 - dec_exp (m * 2 ^ e.toNat) (2 ^ (-e).toNat))).toNat := by
    positivity
  have hn := round_div_near (m * 2 ^ e.toNat
      * 10 ^ ((P : Int) - 1 - dec_exp (m * 2 ^ e.toNat) (2 ^ (-e).toNat)).toNat) _ hd
  rw [dec_scaled_value] at hn
  rw [dec_value_ratio P m e hP]
  generalize dec_exp (m * 2 ^ e.toNat) (2 ^ (-e).toNat) = x at hx hn
  generalize (round_div (m * 2 ^ e.toNat * 10 ^ ((P : Int) - 1 - x).toNat)
    (2 ^ (-e).toNat * 10 ^ (-((P : Int) - 1 - x)).toNat) : ℚ) = D0 at hn
  generalize (m : ℚ) * (2 : ℚ) ^ e = v at hx hn
  have hk : (0 : ℚ) < ((10 : Nat) : ℚ) ^ (x + 1 - (P : Int)) := zpow_pos h10 _
  have e1 : ((10 : Nat) : ℚ) ^ ((P : Int) - 1 - x) * ((10 : Nat) : ℚ) ^ (x + 1 - (P : Int)) = 1 := by
    rw [← zpow_add₀ (ne_of_gt h10)]
    have : (P : Int) - 1 - x + (x + 1 - (P : Int)) = 0 := by ring
    rw [this, zpow_zero]
  have e2 : D0 * ((10 : Nat) : ℚ) ^ (x + 1 - (P : Int)) - v
      = (D0 - v * ((10 : Nat) : ℚ) ^ ((P : Int) - 1 - x)) * ((10 : Nat) : ℚ) ^ (x + 1 - (P : Int)) := by
    rw [sub_mul, mul_assoc, e1, mul_one]
  have e3 : ((10 : Nat) : ℚ) ^ (x + 1 - (P : Int))
      = ((10 : Nat) : ℚ) ^ x / 10 ^ (P - 1) := by
    have : x + 1 - (P : Int) = x - ((P - 1 : Nat) : Int) := by omega
    rw [this, zpow_sub₀ (ne_of_gt h10), zpow_natCast]
    norm_num
  rw [e2, abs_mul, abs_of_pos hk]
  have hp : (0 : ℚ) < 10 ^ (P - 1) := by positivity
  calc |D0 - v * ((10 : Nat) : ℚ) ^ ((P : Int) - 1 - x)| * ((10 : Nat) : ℚ) ^ (x + 1 - (P : Int))
      ≤ 1 / 2 * ((10 : Nat) : ℚ) ^ (x + 1 - (P : Int)) := mul_le_mul_of_nonneg_right hn hk.le
    _ = ((10 : Nat) : ℚ) ^ x / (2 * 10 ^ (P - 1)) := by
        rw [e3]
        field_simp
    _ ≤ v / (2 * 10 ^ (P - 1)) := div_le_div_of_nonneg_right hx (by positivity)

theorem round_div_nearest (n d j : Nat) (hd : 0 < d) :
    |((round_div n d : Nat) : ℚ) - (n : ℚ) / d| ≤ |(j : ℚ) - (n : ℚ) / d| := by
  have h := round_div_near n d hd
  rcases eq_or_ne j (round_div n d) with h1 | h1
  · rw [h1]
  · have h2 : (1 : ℚ) ≤ |(j : ℚ) - (round_div n d : Nat)| := by
      have h3 : (1 : Int) ≤ |(j : Int) - (round_div n d : Nat)| := by
        have : (j : Int) - (round_div n d : Nat) ≠ 0 := by
          intro h4
          apply h1
          omega
        exact Int.one_le_abs this
      have h5 : ((1 : Int) : ℚ) ≤ ((|(j : Int) - (round_div n d : Nat)| : Int) : ℚ) := by
        exact_mod_cast h3
      simpa using h5
    have h6 : |(j : ℚ) - (round_div n d : Nat)|
        ≤ |(j : ℚ) - (n : ℚ) / d| + |((round_div n d : Nat) : ℚ) - (n : ℚ) / d| := by
      have : (j : ℚ) - (round_div n d : Nat)
          = ((j : ℚ) - (n : ℚ) / d) - (((round_div n d : Nat) : ℚ) - (n : ℚ) / d) := by ring
      rw [this]
      exact abs_sub _ _
    linarith

theorem round_ratio_exp (p : Nat) (emin : Int) (a b : Nat) (ha : 0 < a) :
    (round_ratio p emin a b).2 = max emin (bin_exp a b + 1 - p) := by
  rw [round_ratio, if_neg (by omega)]

theorem round_ratio_sig (p : Nat) (emin : Int) (a b : Nat) (ha : 0 < a) :
    (round_ratio p emin a b).1
      = round_div (a * 2 ^ (-(round_ratio p emin a b).2).toNat)
          (b * 2 ^ ((round_ratio p emin a b).2).toNat) := by
  rw [round_ratio, if_neg (by omega)]

theorem ratio_scaled_value (a b : Nat) (q : Int) :
    ((a * 2 ^ (-q).toNat : Nat) : ℚ) / ((b * 2 ^ q.toNat : Nat) : ℚ)
      = (a : ℚ) / b * (2 : ℚ) ^ (-q) := by
  have h := scaled_ratio 2 (by decide) a b (-q)
  rw [neg_neg] at h
  rw [h]
  norm_num

theorem bin_exp_bounds (a b : Nat) (ha : 0 < a) (hb : 0 < b) :
    (2 : ℚ) ^ bin_exp a b ≤ (a : ℚ) / b ∧ (a : ℚ) / b < (2 : ℚ) ^ (bin_exp a b + 1) := by
  obtain ⟨s1, s2⟩ := bin_exp_spec a b ha hb
  rw [pow_le_iff 2 (by decide) _ _ _ hb] at s1 s2
  rw [not_le] at s2
  constructor
  · exact_mod_cast s1
  · exact_mod_cast s2

theorem ratio64_nearest (a b m : Nat) (e : Int) (ha : 0 < a) (hb : 0 < b) (hm : m ≤ 2 ^ 53)
    (he : -1074 ≤ e) :
    |((round_ratio 53 (-1074) a b).1 : ℚ) * (2 : ℚ) ^ (round_ratio 53 (-1074) a b).2
        - (a : ℚ) / b|
      ≤ |(m : ℚ) * (2 : ℚ) ^ e - (a : ℚ) / b| := by
  have hq := round_ratio_exp 53 (-1074) a b ha
  have ht := round_ratio_sig 53 (-1074) a b ha
  obtain ⟨b1, b2⟩ := bin_exp_bounds a b ha hb
  generalize (round_ratio 53 (-1074) a b).2 = q at hq ht
  generalize (round_ratio 53 (-1074) a b).1 = t at ht
  have h2 : (0 : ℚ) < (2 : ℚ) ^ q := zpow_pos (by norm_num) _
  have h2n : (2 : ℚ) ≠ 0 := by norm_num
  have hd : 0 < b * 2 ^ q.toNat := by positivity
  have key : ∀ j : Nat, |(t : ℚ) * (2 : ℚ) ^ q - (a : ℚ) / b|
      ≤ |(j : ℚ) * (2 : ℚ) ^ q - (a : ℚ) / b| := by
    intro j
    have h := round_div_nearest (a * 2 ^ (-q).toNat) (b * 2 ^ q.toNat) j hd
    rw [← ht, ratio_scaled_value] at h
    have e1 : ∀ y : ℚ, y * (2 : ℚ) ^ q - (a : ℚ) / b
        = (y - (a : ℚ) / b * (2 : ℚ) ^ (-q)) * (2 : ℚ) ^ q := by
      intro y
      rw [sub_mul, mul_assoc, ← zpow_add₀ h2n, neg_add_cancel, zpow_zero, mul_one]
    rw [e1, e1, abs_mul, abs_mul, abs_of_pos h2]
    exact mul_le_mul_of_nonneg_right h h2.le
  rcases le_or_lt q e with hc | hc
  · have e2 : ((m * 2 ^ (e - q).toNat : Nat) : ℚ) * (2 : ℚ) ^ q = (m : ℚ) * (2 : ℚ) ^ e := by
      push_cast
      rw [mul_assoc, ← zpow_natCast, ← zpow_add₀ h2n]
      congr 2
      omega
    rw [← e2]
    exact key _
  · have hq2 : q = bin_exp a b + 1 - 53 := by
      rw [hq]
      apply max_eq_right
      rw [hq] at hc
      by_contra hcon
      rw [max_eq_left (by omega)] at hc
      omega
    have e52 : ((2 ^ 52 : Nat) : ℚ) = (2 : ℚ) ^ (52 : Int) := by norm_num
    have e3 : ((2 ^ 52 : Nat) : ℚ) * (2 : ℚ) ^ q = (2 : ℚ) ^ bin_exp a b := by
      rw [e52, ← zpow_add₀ h2n]
      congr 1
      omega
    have hv : (m : ℚ) * (2 : ℚ) ^ e ≤ (2 : ℚ) ^ bin_exp a b := by
      have h1 : (m : ℚ) ≤ (2 : ℚ) ^ (53 : Int) := by
        have : (m : ℚ) ≤ ((2 ^ 53 : Nat) : ℚ) := by exact_mod_cast hm
        have e53 : ((2 ^ 53 : Nat) : ℚ) = (2 : ℚ) ^ (53 : Int) := by norm_num
        rwa [e53] at this
      have h3 : (0 : ℚ) < (2 : ℚ) ^ e := zpow_pos (by norm_num) _
      calc (m : ℚ) * (2 : ℚ) ^ e ≤ (2 : ℚ) ^ (53 : Int) * (2 : ℚ) ^ e :=
            mul_le_mul_of_nonneg_right h1 h3.le
        _ = (2 : ℚ) ^ (53 + e) := (zpow_add₀ h2n _ _).symm
        _ ≤ (2 : ℚ) ^ bin_exp a b := zpow_le_zpow_right₀ (by norm_num) (by omega)
    have k := key (2 ^ 52)
    rw [e3] at k
    rw [abs_of_nonpos (by linarith : (2 : ℚ) ^ bin_exp a b - (a : ℚ) / b ≤ 0)] at k
    rw [abs_of_nonpos (by linarith : (m : ℚ) * (2 : ℚ) ^ e - (a : ℚ) / b ≤ 0)]
    linarith

theorem ratio64_no_overflow (a b : Nat) (ha : 0 < a) (hb : 0 < b)
    (h : (a : ℚ) / b < (2 : ℚ) ^ (1024 : Int) - (2 : ℚ) ^ (970 : Int)) :
    ¬ (1024 < (round_ratio 53 (-1074) a b).2 + bitlen (round_ratio 53 (-1074) a b).1) := by
  have hq := round_ratio_exp 53 (-1074) a b ha
  have ht := round_ratio_sig 53 (-1074) a b ha
  obtain ⟨b1, b2⟩ := bin_exp_bounds a b ha hb
  generalize (round_ratio 53 (-1074) a b).2 = q at hq ht
  generalize (round_ratio 53 (-1074) a b).1 = t at ht
  have h2n : (2 : ℚ) ≠ 0 := by norm_num
  have hbx : bin_exp a b < 1024 := by
    have h3 : (2 : ℚ) ^ bin_exp a b < (2 : ℚ) ^ (1024 : Int) := by
      have : (0 : ℚ) < (2 : ℚ) ^ (970 : Int) := zpow_pos (by norm_num) _
      linarith
    exact (zpow_lt_zpow_iff_right₀ (by norm_num : (1 : ℚ) < 2)).1 h3
  have hq1 : -1074 ≤ q := by rw [hq]; exact le_max_left _ _
  have hq2 : q ≤ 971 := by
    rw [hq]
    apply max_le
    · decide
    · push_cast
      omega
  have hd : 0 < b * 2 ^ q.toNat := by positivity
  have hdq : (0 : ℚ) < ((b * 2 ^ q.toNat : Nat) : ℚ) := by exact_mod_cast hd
  have hU : t ≤ 2 ^ (1024 - q).toNat - 1 := by
    rw [ht]
    apply round_div_le_half _ _ _ hd
    have hp1 : 1 ≤ 2 ^ (1024 - q).toNat := Nat.one_le_two_pow
    have e1 : 2 * (2 ^ (1024 - q).toNat - 1) + 1 = 2 * 2 ^ (1024 - q).toNat - 1 := by omega
    rw [e1]
    have hy : ((a * 2 ^ (-q).toNat : Nat) : ℚ) / ((b * 2 ^ q.toNat : Nat) : ℚ)
        < (2 : ℚ) ^ (1024 - q) - 1 / 2 := by
      rw [ratio_scaled_value]
      have h4 : (0 : ℚ) < (2 : ℚ) ^ (-q) := zpow_pos (by norm_num) _
      have h5 : (2 : ℚ) ^ (970 : Int) * (2 : ℚ) ^ (-q) ≥ 1 / 2 := by
        rw [← zpow_add₀ h2n]
        have : (2 : ℚ) ^ (-1 : Int) ≤ (2 : ℚ) ^ ((970 : Int) + -q) :=
          zpow_le_zpow_right₀ (by norm_num) (by omega)
        norm_num at this ⊢
        linarith
      calc (a : ℚ) / b * (2 : ℚ) ^ (-q)
          < ((2 : ℚ) ^ (1024 : Int) - (2 : ℚ) ^ (970 : Int)) * (2 : ℚ) ^ (-q) :=
            mul_lt_mul_of_pos_right h h4
        _ = (2 : ℚ) ^ (1024 - q) - (2 : ℚ) ^ (970 : Int) * (2 : ℚ) ^ (-q) := by
            rw [sub_mul, ← zpow_add₀ h2n]
            rfl
        _ ≤ (2 : ℚ) ^ (1024 - q) - 1 / 2 := by linarith
    rw [div_lt_iff₀ hdq] at hy
    have e2 : (2 : ℚ) ^ (1024 - q) = ((2 ^ (1024 - q).toNat : Nat) : ℚ) := by
      push_cast
      rw [← zpow_natCast]
      congr 1
      omega
    rw [e2] at hy
    have hy2 : 2 * ((a * 2 ^ (-q).toNat : Nat) : ℚ)
        < ((2 * 2 ^ (1024 - q).toNat - 1 : Nat) : ℚ) * ((b * 2 ^ q.toNat : Nat) : ℚ) := by
      rw [Nat.cast_sub (by omega)]
      push_cast
      push_cast at hy
      nlinarith
    exact_mod_cast hy2
  have hb2 : bitlen t ≤ (1024 - q).toNat := by
    apply bitlen_le
    have hp1 : 1 ≤ 2 ^ (1024 - q).toNat := Nat.one_le_two_pow
    omega
  omega

theorem dec_exp_lt (m : Nat) (e : Int) (hm : 0 < m) :
    (m : ℚ) * (2 : ℚ) ^ e
      < ((10 : Nat) : ℚ) ^ (dec_exp (m * 2 ^ e.toNat) (2 ^ (-e).toNat) + 1) := by
  have ha : 0 < m * 2 ^ e.toNat := by positivity
  have hb : 0 < 2 ^ (-e).toNat := by positivity
  obtain ⟨_, s2⟩ := dec_exp_spec _ _ ha hb
  rw [pow_le_iff 10 (by decide) _ _ _ hb, fp_value, not_le] at s2
  exact s2

theorem dec_round_div_le (P m : Nat) (e : Int) (hm : 0 < m) :
    round_div
        (m * 2 ^ e.toNat
          * 10 ^ ((P : Int) - 1 - dec_exp (m * 2 ^ e.toNat) (2 ^ (-e).toNat)).toNat)
        (2 ^ (-e).toNat
          * 10 ^ (-((P : Int) - 1 - dec_exp (m * 2 ^ e.toNat) (2 ^ (-e).toNat))).toNat)
      ≤ 10 ^ P := by
  have h2 := dec_exp_lt m e hm
  have h10 : (0 : ℚ) < ((10 : Nat) : ℚ) := by norm_num
  generalize dec_exp (m * 2 ^ e.toNat) (2 ^ (-e).toNat) = x at h2
  have hd : 0 < 2 ^ (-e).toNat * 10 ^ (-((P : Int) - 1 - x)).toNat := by positivity
  have hdq : (0 : ℚ) < ((2 ^ (-e).toNat * 10 ^ (-((P : Int) - 1 - x)).toNat : Nat) : ℚ) := by
    exact_mod_cast hd
  have hk : (0 : ℚ) < ((10 : Nat) : ℚ) ^ ((P : Int) - 1 - x) := zpow_pos h10 _
  apply round_div_le _ _ _ hd
  have h3 : ((m * 2 ^ e.toNat * 10 ^ ((P : Int) - 1 - x).toNat : Nat) : ℚ)
        / ((2 ^ (-e).toNat * 10 ^ (-((P : Int) - 1 - x)).toNat : Nat) : ℚ)
      ≤ ((10 ^ P : Nat) : ℚ) := by
    rw [dec_scaled_value]
    have e1 : ((10 ^ P : Nat) : ℚ)
        = ((10 : Nat) : ℚ) ^ (x + 1) * ((10 : Nat) : ℚ) ^ ((P : Int) - 1 - x) := by
      rw [← zpow_add₀ (ne_of_gt h10), Nat.cast_pow, ← zpow_natCast]
      congr 1
      omega
    rw [e1]
    exact mul_le_mul_of_nonneg_right h2.le hk.le
  rw [div_le_iff₀ hdq] at h3
  exact_mod_cast h3

theorem dec_value_below_overflow (m : Nat) (e : Int) (hm : 0 < m) (h1 : -1074 ≤ e)
    (h2 : e + bitlen m ≤ 1024) :
    ((dec_value 14 m e).1 : ℚ) / ((dec_value 14 m e).2 : ℚ)
      < (2 : ℚ) ^ (1024 : Int) - (2 : ℚ) ^ (970 : Int) := by
  have h10 : (0 : ℚ) < ((10 : Nat) : ℚ) := by norm_num
  obtain ⟨_, x2⟩ := dec_exp_range m e hm h1 h2
  obtain ⟨_, v2⟩ := fp_value_range m e hm h1 h2
  have hD := dec_round_div_le 14 m e hm
  rw [dec_value_ratio 14 m e (by decide)]
  have hd : 0 < 2 ^ (-e).toNat
      * 10 ^ (-(((14 : Nat) : Int) - 1
        - dec_exp (m * 2 ^ e.toNat) (2 ^ (-e).toNat))).toNat := by positivity
  have hdq : (0 : ℚ) < ((2 ^ (-e).toNat
      * 10 ^ (-(((14 : Nat) : Int) - 1
        - dec_exp (m * 2 ^ e.toNat) (2 ^ (-e).toNat))).toNat : Nat) : ℚ) := by
    exact_mod_cast hd
  have hs := dec_scaled_value 14 m e (dec_exp (m * 2 ^ e.toNat) (2 ^ (-e).toNat))
  have hU : dec_exp (m * 2 ^ e.toNat) (2 ^ (-e).toNat) = 308 →
      round_div
        (m * 2 ^ e.toNat
          * 10 ^ (((14 : Nat) : Int) - 1 - dec_exp (m * 2 ^ e.toNat) (2 ^ (-e).toNat)).toNat)
        (2 ^ (-e).toNat
          * 10 ^ (-(((14 : Nat) : Int) - 1
            - dec_exp (m * 2 ^ e.toNat) (2 ^ (-e).toNat))).toNat)
      ≤ 17976931348623 := by
    intro hx
    apply round_div_le_half _ _ _ hd
    have h3 : ((m * 2 ^ e.toNat
          * 10 ^ (((14 : Nat) : Int) - 1
            - dec_exp (m * 2 ^ e.toNat) (2 ^ (-e).toNat)).toNat : Nat) : ℚ)
        / ((2 ^ (-e).toNat
          * 10 ^ (-(((14 : Nat) : Int) - 1
            - dec_exp (m * 2 ^ e.toNat) (2 ^ (-e).toNat))).toNat : Nat) : ℚ)
        < ((2 * 17976931348623 + 1 : Nat) : ℚ) / 2 := by
      rw [hs, hx]
      have n3 : (2 : ℚ) ^ (1024 : Int) * ((10 : Nat) : ℚ) ^ (((14 : Nat) : Int) - 1 - 308)
          < ((2 * 17976931348623 + 1 : Nat) : ℚ) / 2 := by
        have e1 : ((10 : Nat) : ℚ) ^ (((14 : Nat) : Int) - 1 - 308)
            = 1 / ((10 ^ 295 : Nat) : ℚ) := by
          have : (((14 : Nat) : Int) - 1 - 308) = -((295 : Nat) : Int) := by norm_num
          rw [this, zpow_neg, zpow_natCast]
          norm_num
        have e2 : (2 : ℚ) ^ (1024 : Int) = ((2 ^ 1024 : Nat) : ℚ) := by norm_num
        rw [e1, e2, mul_one_div, div_lt_div_iff₀ (by positivity) (by norm_num)]
        exact_mod_cast (by decide :
          2 ^ 1024 * 2 < (2 * 17976931348623 + 1) * 10 ^ 295)
      have hk : (0 : ℚ) < ((10 : Nat) : ℚ) ^ (((14 : Nat) : Int) - 1 - 308) := zpow_pos h10 _
      calc (m : ℚ) * (2 : ℚ) ^ e * ((10 : Nat) : ℚ) ^ (((14 : Nat) : Int) - 1 - 308)
          < (2 : ℚ) ^ (1024 : Int) * ((10 : Nat) : ℚ) ^ (((14 : Nat) : Int) - 1 - 308) :=
            mul_lt_mul_of_pos_right v2 hk
        _ < ((2 * 17976931348623 + 1 : Nat) : ℚ) / 2 := n3
    rw [div_lt_div_iff₀ hdq (by norm_num)] at h3
    have h4 : ((m * 2 ^ e.toNat
          * 10 ^ (((14 : Nat) : Int) - 1
            - dec_exp (m * 2 ^ e.toNat) (2 ^ (-e).toNat)).toNat : Nat) : ℚ) * 2
        < ((2 * 17976931348623 + 1 : Nat) : ℚ) * ((2 ^ (-e).toNat
          * 10 ^ (-(((14 : Nat) : Int) - 1
            - dec_exp (m * 2 ^ e.toNat) (2 ^ (-e).toNat))).toNat : Nat) : ℚ) := h3
    have h5 : m * 2 ^ e.toNat
          * 10 ^ (((14 : Nat) : Int) - 1
            - dec_exp (m * 2 ^ e.toNat) (2 ^ (-e).toNat)).toNat * 2
        < (2 * 17976931348623 + 1) * (2 ^ (-e).toNat
          * 10 ^ (-(((14 : Nat) : Int) - 1
            - dec_exp (m * 2 ^ e.toNat) (2 ^ (-e).toNat))).toNat) := by
      exact_mod_cast h4
    omega
  generalize dec_exp (m * 2 ^ e.toNat) (2 ^ (-e).toNat) = x at x2 hD hU
  generalize round_div (m * 2 ^ e.toNat * 10 ^ (((14 : Nat) : Int) - 1 - x).toNat)
    (2 ^ (-e).toNat * 10 ^ (-(((14 : Nat) : Int) - 1 - x)).toNat) = D0 at hD hU
  have hk : (0 : ℚ) < ((10 : Nat) : ℚ) ^ (x + 1 - ((14 : Nat) : Int)) := zpow_pos h10 _
  rcases lt_or_le x 308 with hx | hx
  · have hDq : (D0 : ℚ) ≤ ((10 : Nat) : ℚ) ^ ((14 : Nat) : Int) := by
      have : (D0 : ℚ) ≤ ((10 ^ 14 : Nat) : ℚ) := by exact_mod_cast hD
      rwa [Nat.cast_pow, ← zpow_natCast] at this
    have n1 : ((10 : Nat) : ℚ) ^ (308 : Int) < (2 : ℚ) ^ (1024 : Int) - (2 : ℚ) ^ (970 : Int) := by
      have e1 : ((10 : Nat) : ℚ) ^ (308 : Int) = ((10 ^ 308 : Nat) : ℚ) := by norm_num
      have e2 : (2 : ℚ) ^ (1024 : Int) = ((2 ^ 1024 : Nat) : ℚ) := by norm_num
      have e3 : (2 : ℚ) ^ (970 : Int) = ((2 ^ 970 : Nat) : ℚ) := by norm_num
      rw [e1, e2, e3, lt_sub_iff_add_lt]
      exact_mod_cast (by decide : 10 ^ 308 + 2 ^ 970 < 2 ^ 1024)
    calc (D0 : ℚ) * ((10 : Nat) : ℚ) ^ (x + 1 - ((14 : Nat) : Int))
        ≤ ((10 : Nat) : ℚ) ^ ((14 : Nat) : Int) * ((10 : Nat) : ℚ) ^ (x + 1 - ((14 : Nat) : Int)) :=
          mul_le_mul_of_nonneg_right hDq hk.le
      _ = ((10 : Nat) : ℚ) ^ (x + 1) := by
          rw [← zpow_add₀ (ne_of_gt h10)]
          congr 1
          ring
      _ ≤ ((10 : Nat) : ℚ) ^ (308 : Int) := zpow_le_zpow_right₀ (by norm_num) (by omega)
      _ < _ := n1
  · have hx308 : x = 308 := by omega
    have hDq : (D0 : ℚ) ≤ ((17976931348623 : Nat) : ℚ) := by exact_mod_cast hU hx308
    subst hx308
    have n2 : ((17976931348623 : Nat) : ℚ) * ((10 : Nat) : ℚ) ^ ((308 : Int) + 1 - ((14 : Nat) : Int))
        < (2 : ℚ) ^ (1024 : Int) - (2 : ℚ) ^ (970 : Int) := by
      have e1 : ((10 : Nat) : ℚ) ^ ((308 : Int) + 1 - ((14 : Nat) : Int)) = ((10 ^ 295 : Nat) : ℚ) := by
        norm_num
      have e2 : (2 : ℚ) ^ (1024 : Int) = ((2 ^ 1024 : Nat) : ℚ) := by norm_num
      have e3 : (2 : ℚ) ^ (970 : Int) = ((2 ^ 970 : Nat) : ℚ) := by norm_num
      rw [e1, e2, e3, lt_sub_iff_add_lt]
      exact_mod_cast (by decide : 17976931348623 * 10 ^ 295 + 2 ^ 970 < 2 ^ 1024)
    calc (D0 : ℚ) * ((10 : Nat) : ℚ) ^ ((308 : Int) + 1 - ((14 : Nat) : Int))
        ≤ ((17976931348623 : Nat) : ℚ) * ((10 : Nat) : ℚ) ^ ((308 : Int) + 1 - ((14 : Nat) : Int)) :=
          mul_le_mul_of_nonneg_right hDq hk.le
      _ < _ := n2

theorem dec_value_num_pos (P m : Nat) (e : Int) (hP : 1 ≤ P) (hm : 0 < m) :
    0 < (dec_value P m e).1 := by
  obtain ⟨h1, _⟩ := dec_round_spec P m e hP hm
  have h2 : 0 < 10 ^ (P - 1) := by positivity
  rw [dec_value]
  exact Nat.mul_pos (by omega) (by positivity)

theorem reread64_finite (m : Nat) (e : Int) (neg : Bool) (hm : 0 < m) (h1 : -1074 ≤ e)
    (h2 : e + bitlen m ≤ 1024) :
    reread64 14 (.fin neg m e)
      = .fin neg (round_ratio 53 (-1074) (dec_value 14 m e).1 (dec_value 14 m e).2).1
          (round_ratio 53 (-1074) (dec_value 14 m e).1 (dec_value 14 m e).2).2 := by
  rw [reread64, if_neg (by omega), Fp.ratio64]
  rw [if_neg (ratio64_no_overflow _ _ (dec_value_num_pos 14 m e (by decide) hm)
    (dec_value_pos 14 m e) (dec_value_below_overflow m e hm h1 h2))]

theorem toRat_sub (neg : Bool) (t m : Nat) (q e : Int) :
    |(Fp.fin neg t q).toRat - (Fp.fin neg m e).toRat|
      = |(t : ℚ) * (2 : ℚ) ^ q - (m : ℚ) * (2 : ℚ) ^ e| := by
  cases neg
  · simp [Fp.toRat]
  · simp only [Fp.toRat, if_true]
    have : -1 * (t : ℚ) * (2 : ℚ) ^ q - -1 * (m : ℚ) * (2 : ℚ) ^ e
        = -((t : ℚ) * (2 : ℚ) ^ q - (m : ℚ) * (2 : ℚ) ^ e) := by ring
    rw [this, abs_neg]

theorem toRat_abs (neg : Bool) (m : Nat) (e : Int) :
    |(Fp.fin neg m e).toRat| = (m : ℚ) * (2 : ℚ) ^ e := by
  have h : (0 : ℚ) ≤ (m : ℚ) * (2 : ℚ) ^ e := by positivity
  cases neg
  · simp only [Fp.toRat, Bool.false_eq_true, if_false, one_mul]
    exact abs_of_nonneg h
  · simp only [Fp.toRat, if_true]
    have : -1 * (m : ℚ) * (2 : ℚ) ^ e = -((m : ℚ) * (2 : ℚ) ^ e) := by ring
    rw [this, abs_neg]
    exact abs_of_nonneg h

theorem reread64_close (x : Fp) (hx : x.is_double = true) :
    Fp.close_to 13 (reread64 14 x) x := by
  cases x with
  | nan => rfl
  | inf neg => rfl
  | fin neg m e =>
    simp only [Fp.is_double, decide_eq_true_eq] at hx
    obtain ⟨h1, h2, h3⟩ := hx
    rcases Nat.eq_zero_or_pos m with hm | hm
    · subst hm
      refine ⟨rfl, ?_⟩
      have e1 : reread64 14 (.fin neg 0 e) = .fin neg 0 (-1074) := rfl
      rw [e1, toRat_sub, toRat_abs]
      simp
    · show (reread64 14 (.fin neg m e)).is_finite = true
        ∧ |(reread64 14 (.fin neg m e)).toRat - (Fp.fin neg m e).toRat|
          ≤ |(Fp.fin neg m e).toRat| / 10 ^ 13
      rw [reread64_finite m e neg hm h1 h3, toRat_sub, toRat_abs]
      refine ⟨rfl, ?_⟩
      have ha := dec_value_num_pos 14 m e (by decide) hm
      have hb := dec_value_pos 14 m e
      have n1 := ratio64_nearest _ _ m e ha hb h2 h1
      have n2 := dec_value_near 14 m e (by decide) hm
      generalize (dec_value 14 m e).1 = a at ha n1 n2
      generalize (dec_value 14 m e).2 = b at hb n1 n2
      generalize ((round_ratio 53 (-1074) a b).1 : ℚ) * (2 : ℚ) ^ (round_ratio 53 (-1074) a b).2
        = r at n1
      generalize (m : ℚ) * (2 : ℚ) ^ e = v at n1 n2
      have e2 : r - v = (r - (a : ℚ) / b) + ((a : ℚ) / b - v) := by ring
      have n3 : |v - (a : ℚ) / b| = |(a : ℚ) / b - v| := abs_sub_comm _ _
      have e3 : v / (2 * 10 ^ (14 - 1)) + v / (2 * 10 ^ (14 - 1)) = v / 10 ^ 13 := by
        norm_num
        ring
      calc |r - v| = |(r - (a : ℚ) / b) + ((a : ℚ) / b - v)| := by rw [e2]
        _ ≤ |r - (a : ℚ) / b| + |(a : ℚ) / b - v| := abs_add _ _
        _ ≤ v / (2 * 10 ^ (14 - 1)) + v / (2 * 10 ^ (14 - 1)) := by
            rw [n3] at n1
            linarith
        _ = v / 10 ^ 13 := e3

theorem one_le_round_div (n d : Nat) (h : d < 2 * n) : 1 ≤ round_div n d := by
  rw [round_div]
  rcases Nat.eq_zero_or_pos (n / d) with h0 | h0
  · have hd : 0 < d ∨ d = 0 := by omega
    rcases hd with hd | hd
    · have h1 : n < d := (Nat.div_eq_zero_iff hd).1 h0
      rw [Nat.mod_eq_of_lt h1, if_pos (Or.inl h)]
      omega
    · subst hd
      rw [Nat.mod_zero, if_pos (Or.inl h)]
      omega
  · split <;> omega

theorem eq_zero_false (neg : Bool) (t : Nat) (q : Int) (ht : 1 ≤ t) :
    Fp.eq (.fin neg t q) dbl_0 = false := by
  have hp : 0 < t * 2 ^ (q - min q 0).toNat := by positivity
  simp only [dbl_0, Fp.eq, Fp.scaled, decide_eq_false_iff_not]
  cases neg <;> simp <;> omega

theorem reread64_ne_zero (x : Fp) (hb : Fp.bounded x) (hnz : Fp.eq x dbl_0 = false) :
    Fp.eq (reread64 14 x) dbl_0 = false := by
  cases x with
  | nan => rfl
  | inf neg => rfl
  | fin neg m e =>
    obtain ⟨h1, h2⟩ := hb
    have hm : 0 < m := by
      rcases Nat.eq_zero_or_pos m with h | h
      · subst h
        exfalso
        revert hnz
        simp [dbl_0, Fp.eq, Fp.scaled]
      · exact h
    rw [reread64_finite m e neg hm h1 h2]
    apply eq_zero_false
    have ha := dec_value_num_pos 14 m e (by decide) hm
    have hb := dec_value_pos 14 m e
    have hq := round_ratio_exp 53 (-1074) _ (dec_value 14 m e).2 ha
    rw [round_ratio_sig 53 (-1074) _ _ ha]
    have n2 := dec_value_near 14 m e (by decide) hm
    obtain ⟨v1, _⟩ := fp_value_range m e hm h1 h2
    obtain ⟨b1, _⟩ := bin_exp_bounds _ _ ha hb
    generalize (round_ratio 53 (-1074) (dec_value 14 m e).1 (dec_value 14 m e).2).2 = q at hq
    generalize (dec_value 14 m e).1 = a at ha n2 b1 hq
    generalize (dec_value 14 m e).2 = b at hb n2 b1 hq
    generalize (m : ℚ) * (2 : ℚ) ^ e = v at n2 v1
    apply one_le_round_div
    have hdq : (0 : ℚ) < ((b * 2 ^ q.toNat : Nat) : ℚ) := by
      have : 0 < b * 2 ^ q.toNat := by positivity
      exact_mod_cast this
    have h2n : (2 : ℚ) ≠ 0 := by norm_num
    have hd1 : (2 : ℚ) ^ (-1075 : Int) < (a : ℚ) / b := by
      have n3 := (abs_le.1 n2).1
      have e1 : (2 : ℚ) ^ (-1074 : Int) = 2 * (2 : ℚ) ^ (-1075 : Int) := by
        rw [show (-1074 : Int) = 1 + -1075 by norm_num, zpow_add₀ h2n, zpow_one]
      have hp : (0 : ℚ) < (2 : ℚ) ^ (-1075 : Int) := zpow_pos (by norm_num) _
      have hv0 : (0 : ℚ) ≤ v := by linarith
      have e4 : v / (2 * 10 ^ (14 - 1)) ≤ v / 4 :=
        div_le_div_of_nonneg_left hv0 (by norm_num) (by norm_num)
      have e5 : v / 4 = v * (1 / 4) := by ring
      rw [e5] at e4
      rw [e1] at v1
      generalize (2 : ℚ) ^ (-1075 : Int) = w at v1 hp ⊢
      generalize v / (2 * 10 ^ (14 - 1)) = u at n3 e4
      linarith
    have hd2 : (2 : ℚ) ^ (q - 1) < (a : ℚ) / b := by
      rcases le_or_lt (bin_exp a b + 1 - ((53 : Nat) : Int)) (-1074) with hc | hc
      · rw [max_eq_left hc] at hq
        rw [hq]
        exact hd1
      · rw [max_eq_right hc.le] at hq
        have : (2 : ℚ) ^ (q - 1) < (2 : ℚ) ^ bin_exp a b :=
          zpow_lt_zpow_right₀ (by norm_num) (by push_cast at hq; omega)
        linarith
    have hy : (1 : ℚ) / 2 < ((a * 2 ^ (-q).toNat : Nat) : ℚ) / ((b * 2 ^ q.toNat : Nat) : ℚ) := by
      rw [ratio_scaled_value]
      have h4 : (0 : ℚ) < (2 : ℚ) ^ (-q) := zpow_pos (by norm_num) _
      have e5 : (2 : ℚ) ^ (q - 1) * (2 : ℚ) ^ (-q) = 1 / 2 := by
        rw [← zpow_add₀ h2n]
        have : q - 1 + -q = -1 := by ring
        rw [this]
        norm_num
      rw [← e5]
      exact mul_lt_mul_of_pos_right hd2 h4
    rw [div_lt_div_iff₀ (by norm_num) hdq] at hy
    have hy2 : ((b * 2 ^ q.toNat : Nat) : ℚ) < ((2 * (a * 2 ^ (-q).toNat) : Nat) : ℚ) := by
      push_cast
      push_cast at hy
      linarith
    exact_mod_cast hy2

/-! ## The header round trip -/

theorem is_double_bounded (x : Fp) (h : x.is_double = true) : Fp.bounded x := by
  cases x with
  | nan => trivial
  | inf neg => trivial
  | fin neg m e =>
    simp only [Fp.is_double, decide_eq_true_eq] at h
    exact ⟨h.1, h.2.2⟩

/-- C5, amended: the header that `write_hdr_file` emits for a float grid is accepted by
`read_hdr_file` whenever the cell sizes written are not zero and the software string has
no newline.  Rows, columns, byte order, `skipbytes` and `rowpad` come back exactly; the
lower-left corner comes back to 14 significant digits (relative error at most `10^-13`);
nodata comes back as the `float` nearest to its decimal of 6 significant digits; and the
upper-right corner is rebuilt from the corner and the cell sizes as they are read back,
the cell sizes being the harmonic mean of `xdim` and `ydim` when the `cellsize` line is
chosen. -/
theorem header_round_trip (host_be : Bool) (nrows ncols : Int) (xmin xmax ymin ymax : Fp)
    (nodata min_value max_value : Float32) (software : Option (List Byte))
    (hr : 1 ≤ nrows ∧ nrows ≤ 2147483647) (hc : 1 ≤ ncols ∧ ncols ≤ 2147483647)
    (hd : xmin.is_double = true ∧ ymin.is_double = true)
    (hx : Fp.lt xmin xmax = true) (hy : Fp.lt ymin ymax = true)
    (hcz : Fp.eq (cell_sizes nrows ncols xmin xmax ymin ymax).1 dbl_0 = false
      ∧ Fp.eq (cell_sizes nrows ncols xmin xmax ymin ymax).2 dbl_0 = false)
    (hsw : ∀ s, software = some s → ∀ c ∈ s.take (strlen s), c ≠ 10) :
    ∃ r, read_hdr_file (write_hdr_file host_be nrows ncols xmin xmax ymin ymax nodata
          min_value max_value true software) = .ok r
      ∧ r.nrows = nrows ∧ r.ncols = ncols ∧ r.big_endian = host_be
      ∧ r.skipbytes = 0 ∧ r.rowpad = 0
      ∧ r.nodata = reread32 6 (Fp.of_float nodata)
      ∧ r.xmin = reread64 14 xmin ∧ r.ymin = reread64 14 ymin
      ∧ Fp.close_to 13 r.xmin xmin ∧ Fp.close_to 13 r.ymin ymin
      ∧ r.xmax = Fp.add64 r.xmin
          (Fp.mul64 (reread64 14 (cell_sizes nrows ncols xmin xmax ymin ymax).1)
            (Fp.of_int ncols))
      ∧ r.ymax = Fp.add64 r.ymin
          (Fp.mul64 (reread64 14 (cell_sizes nrows ncols xmin xmax ymin ymax).2)
            (Fp.of_int nrows)) := by
  obtain ⟨b1, b2⟩ := cell_sizes_bounded nrows ncols xmin xmax ymin ymax
  obtain ⟨sw, h⟩ := read_written_header host_be nrows ncols xmin xmax ymin ymax nodata
    min_value max_value software hr hc hx hy (is_double_bounded _ hd.1)
    (is_double_bounded _ hd.2) (reread64_ne_zero _ b1 hcz.1) (reread64_ne_zero _ b2 hcz.2) hsw
  exact ⟨_, h, rfl, rfl, rfl, rfl, rfl, rfl, rfl, rfl, reread64_close _ hd.1,
    reread64_close _ hd.2, rfl, rfl⟩

/-- C5, witness: the 2x2 grid of the specification on the box `[0, 2] x [0, 2]` with
nodata -9999 and no software string, on a little-endian host. -/
theorem header_round_trip_witness :
    ∃ r, read_hdr_file (write_hdr_file false 2 2 (.fin false 0 0) (.fin false 2 0)
          (.fin false 0 0) (.fin false 2 0) 3323739136 1065353216 1077936128 true none) = .ok r
      ∧ r.nrows = 2 ∧ r.ncols = 2 ∧ r.big_endian = false
      ∧ r.skipbytes = 0 ∧ r.rowpad = 0
      ∧ r.nodata = reread32 6 (Fp.of_float 3323739136)
      ∧ r.xmin = reread64 14 (.fin false 0 0) ∧ r.ymin = reread64 14 (.fin false 0 0)
      ∧ Fp.close_to 13 r.xmin (.fin false 0 0) ∧ Fp.close_to 13 r.ymin (.fin false 0 0)
      ∧ r.xmax = Fp.add64 r.xmin
          (Fp.mul64 (reread64 14 (cell_sizes 2 2 (.fin false 0 0) (.fin false 2 0)
            (.fin false 0 0) (.fin false 2 0)).1) (Fp.of_int 2))
      ∧ r.ymax = Fp.add64 r.ymin
          (Fp.mul64 (reread64 14 (cell_sizes 2 2 (.fin false 0 0) (.fin false 2 0)
            (.fin false 0 0) (.fin false 2 0)).2) (Fp.of_int 2)) :=
  header_round_trip false 2 2 (.fin false 0 0) (.fin false 2 0) (.fin false 0 0)
    (.fin false 2 0) 3323739136 1065353216 1077936128 none (by decide) (by decide)
    (by decide) (by decide) (by decide) (by decide) (fun s h => by cases h)

/-- C5, counterexample: the 1x1 grid on the box `[0, 1] x [0, 1.2]`, on a little-endian
host.  The header carries `cellsize 1.0909090909091`, the harmonic mean of 1 and 1.2, and
is read back with `xmax = ymax = 1.0909090909091`: `xmax` is off by 9 percent and `ymax`
by 9 percent, far beyond `10^-9`.  With the nodata value -1.000000071494503e+25 (the
pattern 3909376338, which ten-folding -1.0e6 nineteen times in `float` gives) the header
carries `-1e+25` and the value read back is the neighbouring `float` 3909376337. -/
theorem header_round_trip_fails :
    (Fp.lt dbl_0 (.fin false 1 0) = true ∧ Fp.lt dbl_0 (.fin false 5404319552844595 (-52)) = true)
    ∧ read_hdr_file (write_hdr_file false 1 1 dbl_0 (.fin false 1 0) dbl_0
        (.fin false 5404319552844595 (-52)) 3909376338 1065353216 1073741824 true none)
      = .ok { nrows := 1, ncols := 1, xmin := .fin false 0 (-1074),
              xmax := .fin false 4913017775313309 (-52), ymin := .fin false 0 (-1074),
              ymax := .fin false 4913017775313309 (-52), nodata := 3909376337,
              big_endian := false, skipbytes := 0, rowpad := 0, software := none }
    ∧ Fp.rel_close 9 (.fin false 4913017775313309 (-52)) (.fin false 1 0) = false
    ∧ Fp.rel_close 9 (.fin false 4913017775313309 (-52))
        (.fin false 5404319552844595 (-52)) = false := by
  decide

theorem two_zpow_split (x y : Int) (h : y ≤ x) :
    ((2 : ℚ) ^ (x - y).toNat) * (2 : ℚ) ^ y = (2 : ℚ) ^ x := by
  rw [← zpow_natCast, ← zpow_add₀ (by norm_num : (2 : ℚ) ≠ 0)]
  congr 1
  omega

theorem round_rne_exact (p : Nat) (emin : Int) (m : Nat) (e : Int)
    (h : max emin (e + bitlen m - p) ≤ e) :
    ((round_rne p emin m e).1 : ℚ) * (2 : ℚ) ^ (round_rne p emin m e).2 = (m : ℚ) * (2 : ℚ) ^ e := by
  simp only [round_rne, if_pos h]
  push_cast
  rw [mul_assoc, two_zpow_split _ _ h]

theorem round_rne_floor_le (p : Nat) (emin : Int) (m : Nat) (e : Int)
    (h : ¬ max emin (e + bitlen m - p) ≤ e) :
    m / 2 ^ (max emin (e + bitlen m - p) - e).toNat ≤ (round_rne p emin m e).1
    ∧ (round_rne p emin m e).1 ≤ m / 2 ^ (max emin (e + bitlen m - p) - e).toNat + 1
    ∧ (m % 2 ^ (max emin (e + bitlen m - p) - e).toNat = 0 →
        (round_rne p emin m e).1 = m / 2 ^ (max emin (e + bitlen m - p) - e).toNat)
    ∧ (round_rne p emin m e).2 = max emin (e + bitlen m - p) := by
  simp only [round_rne, if_neg h]
  have hpos : 0 < 2 ^ ((max emin (e + bitlen m - p) - e).toNat - 1) := Nat.two_pow_pos _
  refine ⟨?_, ?_, ?_, trivial⟩
  · split <;> omega
  · split <;> omega
  · intro h0
    rw [if_neg]
    rw [h0]
    omega

theorem round_rne_ge (p : Nat) (emin : Int) (m : Nat) (e : Int) (a : Nat) (ea : Int)
    (ha : a ≤ 2 ^ p) (hp : 1 ≤ p) (hea : emin ≤ ea)
    (h : (a : ℚ) * (2 : ℚ) ^ ea ≤ (m : ℚ) * (2 : ℚ) ^ e) :
    (a : ℚ) * (2 : ℚ) ^ ea
      ≤ ((round_rne p emin m e).1 : ℚ) * (2 : ℚ) ^ (round_rne p emin m e).2 := by
  by_cases hq : max emin (e + bitlen m - p) ≤ e
  · rw [round_rne_exact p emin m e hq]
    exact h
  · obtain ⟨h1, _, _, h4⟩ := round_rne_floor_le p emin m e hq
    rw [h4]
    generalize (round_rne p emin m e).1 = t at h1
    generalize hqd : max emin (e + bitlen m - p) = q at hq h1
    have hqe : e < q := by omega
    have h2q : (0 : ℚ) < (2 : ℚ) ^ q := zpow_pos (by norm_num) _
    have hstep : (a : ℚ) * (2 : ℚ) ^ ea ≤ ((m / 2 ^ (q - e).toNat : Nat) : ℚ) * (2 : ℚ) ^ q := by
      by_cases hlt : q ≤ ea
      · have e1 : (a : ℚ) * (2 : ℚ) ^ ea = ((a * 2 ^ (ea - q).toNat : Nat) : ℚ) * (2 : ℚ) ^ q := by
          push_cast
          rw [mul_assoc, two_zpow_split _ _ hlt]
        rw [e1]
        apply mul_le_mul_of_nonneg_right _ h2q.le
        have e2 : (a : ℚ) * (2 : ℚ) ^ ea
            = ((a * 2 ^ (ea - q).toNat * 2 ^ (q - e).toNat : Nat) : ℚ) * (2 : ℚ) ^ e := by
          push_cast
          rw [mul_assoc, mul_assoc, two_zpow_split _ _ hqe.le, two_zpow_split _ _ hlt]
        rw [e2] at h
        have h3 := le_of_mul_le_mul_right h (zpow_pos (by norm_num : (0 : ℚ) < 2) e)
        have h5 : a * 2 ^ (ea - q).toNat * 2 ^ (q - e).toNat ≤ m := by exact_mod_cast h3
        have h6 : a * 2 ^ (ea - q).toNat ≤ m / 2 ^ (q - e).toNat :=
          (Nat.le_div_iff_mul_le (Nat.two_pow_pos _)).mpr h5
        exact_mod_cast h6
      · have hq2 : q = e + bitlen m - p := by omega
        have hm : 0 < m := by
          rcases Nat.eq_zero_or_pos m with h0 | h0
          · subst h0
            have : bitlen 0 = 0 := by simp [bitlen, bitlen_aux]
            omega
          · exact h0
        obtain ⟨b1, _, b3⟩ := bitlen_spec m hm
        have hs : (q - e).toNat = bitlen m - p := by omega
        have hlen : p < bitlen m := by omega
        have h7 : 2 ^ (p - 1) ≤ m / 2 ^ (q - e).toNat := by
          rw [hs, Nat.le_div_iff_mul_le (Nat.two_pow_pos _), ← pow_add]
          have : p - 1 + (bitlen m - p) = bitlen m - 1 := by omega
          rw [this]
          exact b1
        have h8 : (a : ℚ) * (2 : ℚ) ^ ea ≤ ((2 ^ (p - 1) : Nat) : ℚ) * (2 : ℚ) ^ q := by
          have e3 : ((2 ^ (p - 1) : Nat) : ℚ) * (2 : ℚ) ^ q
              = ((2 ^ p : Nat) : ℚ) * (2 : ℚ) ^ (q - 1) := by
            push_cast
            rw [← zpow_natCast, ← zpow_natCast, ← zpow_add₀ (by norm_num : (2 : ℚ) ≠ 0),
              ← zpow_add₀ (by norm_num : (2 : ℚ) ≠ 0)]
            congr 1
            omega
          rw [e3]
          have h9 : (2 : ℚ) ^ ea ≤ (2 : ℚ) ^ (q - 1) :=
            zpow_le_zpow_right₀ (by norm_num) (by omega)
          have h10 : (a : ℚ) ≤ ((2 ^ p : Nat) : ℚ) := by exact_mod_cast ha
          exact mul_le_mul h10 h9 (zpow_pos (by norm_num) _).le (by positivity)
        refine le_trans h8 (mul_le_mul_of_nonneg_right ?_ h2q.le)
        exact_mod_cast h7
    refine le_trans hstep (mul_le_mul_of_nonneg_right ?_ h2q.le)
    exact_mod_cast h1

theorem round_rne_le_aux (p : Nat) (emin : Int) (m : Nat) (e : Int) (a : Nat) (ea : Int)
    (ha : a < 2 ^ p) (hp : 1 ≤ p) (hea : emin ≤ ea)
    (h : (m : ℚ) * (2 : ℚ) ^ e ≤ (a : ℚ) * (2 : ℚ) ^ ea) :
    ((round_rne p emin m e).1 : ℚ) * (2 : ℚ) ^ (round_rne p emin m e).2
      ≤ (a : ℚ) * (2 : ℚ) ^ ea := by
  by_cases hq : max emin (e + bitlen m - p) ≤ e
  · rw [round_rne_exact p emin m e hq]
    exact h
  · obtain ⟨_, h1, h0, h4⟩ := round_rne_floor_le p emin m e hq
    rw [h4]
    generalize (round_rne p emin m e).1 = t at h1 h0
    generalize hqd : max emin (e + bitlen m - p) = q at hq h1 h0
    have hqe : e < q := by omega
    have h2q : (0 : ℚ) < (2 : ℚ) ^ q := zpow_pos (by norm_num) _
    have h2e : (0 : ℚ) < (2 : ℚ) ^ e := zpow_pos (by norm_num) _
    have hsp : 0 < 2 ^ (q - e).toNat := Nat.two_pow_pos _
    by_cases hlt : q ≤ ea
    · have e1 : (a : ℚ) * (2 : ℚ) ^ ea = ((a * 2 ^ (ea - q).toNat : Nat) : ℚ) * (2 : ℚ) ^ q := by
        push_cast
        rw [mul_assoc, two_zpow_split _ _ hlt]
      rw [e1]
      apply mul_le_mul_of_nonneg_right _ h2q.le
      have e2 : (a : ℚ) * (2 : ℚ) ^ ea
          = ((a * 2 ^ (ea - q).toNat * 2 ^ (q - e).toNat : Nat) : ℚ) * (2 : ℚ) ^ e := by
        push_cast
        rw [mul_assoc, mul_assoc, two_zpow_split _ _ hqe.le, two_zpow_split _ _ hlt]
      rw [e2] at h
      have h3 := le_of_mul_le_mul_right h h2e
      have h5 : m ≤ a * 2 ^ (ea - q).toNat * 2 ^ (q - e).toNat := by exact_mod_cast h3
      have h6 : t ≤ a * 2 ^ (ea - q).toNat := by
        generalize a * 2 ^ (ea - q).toNat = A at h5
        generalize 2 ^ (q - e).toNat = S at h5 h1 h0 hsp
        by_cases hr : m % S = 0
        · rw [h0 hr]
          exact Nat.div_le_of_le_mul (by rw [Nat.mul_comm]; exact h5)
        · have hlt2 : m / S < A := by
            rw [Nat.div_lt_iff_lt_mul hsp]
            rcases Nat.lt_or_ge m (A * S) with h7 | h7
            · exact h7
            · have h8 : m = A * S := le_antisymm h5 h7
              exact absurd (by rw [h8]; exact Nat.mul_mod_left A S) hr
          omega
      exact_mod_cast h6
    · exfalso
      have hq2 : q = e + bitlen m - p := by omega
      have hm : 0 < m := by
        rcases Nat.eq_zero_or_pos m with h0 | h0
        · subst h0
          have : bitlen 0 = 0 := by simp [bitlen, bitlen_aux]
          omega
        · exact h0
      obtain ⟨b1, _, b3⟩ := bitlen_spec m hm
      have hlen : p < bitlen m := by omega
      have h8 : (a : ℚ) * (2 : ℚ) ^ ea < ((2 ^ p : Nat) : ℚ) * (2 : ℚ) ^ (q - 1) := by
        have h9 : (2 : ℚ) ^ ea ≤ (2 : ℚ) ^ (q - 1) :=
          zpow_le_zpow_right₀ (by norm_num) (by omega)
        have h10 : (a : ℚ) < ((2 ^ p : Nat) : ℚ) := by exact_mod_cast ha
        exact mul_lt_mul h10 h9 (zpow_pos (by norm_num) _) (by positivity)
      have e3 : ((2 ^ p : Nat) : ℚ) * (2 : ℚ) ^ (q - 1)
          = ((2 ^ (bitlen m - 1) : Nat) : ℚ) * (2 : ℚ) ^ e := by
        push_cast
        rw [← zpow_natCast, ← zpow_natCast, ← zpow_add₀ (by norm_num : (2 : ℚ) ≠ 0),
          ← zpow_add₀ (by norm_num : (2 : ℚ) ≠ 0)]
        congr 1
        omega
      rw [e3] at h8
      have h11 : ((2 ^ (bitlen m - 1) : Nat) : ℚ) * (2 : ℚ) ^ e ≤ (m : ℚ) * (2 : ℚ) ^ e :=
        mul_le_mul_of_nonneg_right (by exact_mod_cast b1) h2e.le
      linarith

theorem round_rne_le (p : Nat) (emin : Int) (m : Nat) (e : Int) (a : Nat) (ea : Int)
    (ha : a ≤ 2 ^ p) (hp : 1 ≤ p) (hea : emin ≤ ea)
    (h : (m : ℚ) * (2 : ℚ) ^ e ≤ (a : ℚ) * (2 : ℚ) ^ ea) :
    ((round_rne p emin m e).1 : ℚ) * (2 : ℚ) ^ (round_rne p emin m e).2
      ≤ (a : ℚ) * (2 : ℚ) ^ ea := by
  rcases Nat.lt_or_ge a (2 ^ p) with h1 | h1
  · exact round_rne_le_aux p emin m e a ea h1 hp hea h
  · have e1 : a = 2 ^ p := le_antisymm ha h1
    have e2 : (a : ℚ) * (2 : ℚ) ^ ea = ((2 ^ (p - 1) : Nat) : ℚ) * (2 : ℚ) ^ (ea + 1) := by
      rw [e1]
      push_cast
      rw [← zpow_natCast, ← zpow_natCast, ← zpow_add₀ (by norm_num : (2 : ℚ) ≠ 0),
        ← zpow_add₀ (by norm_num : (2 : ℚ) ≠ 0)]
      congr 1
      omega
    rw [e2] at h ⊢
    exact round_rne_le_aux p emin m e (2 ^ (p - 1)) (ea + 1)
      (Nat.pow_lt_pow_right (by decide) (by omega)) hp (by omega) h
theorem scaled_toRat (n : Bool) (m : Nat) (e b : Int) (h : b ≤ e) :
    ((Fp.scaled n m e b : Int) : ℚ) * (2 : ℚ) ^ b = (Fp.fin n m e).toRat := by
  cases n
  · simp only [Fp.scaled, Fp.toRat, Bool.false_eq_true, if_false, one_mul]
    push_cast
    rw [mul_assoc, two_zpow_split _ _ h]
  · simp only [Fp.scaled, Fp.toRat, if_true]
    push_cast
    rw [neg_mul, mul_assoc, two_zpow_split _ _ h]
    ring

theorem lt_fin_iff (n1 n2 : Bool) (m1 m2 : Nat) (e1 e2 : Int) :
    Fp.lt (.fin n1 m1 e1) (.fin n2 m2 e2) = true
      ↔ (Fp.fin n1 m1 e1).toRat < (Fp.fin n2 m2 e2).toRat := by
  have hp : (0 : ℚ) < (2 : ℚ) ^ (min e1 e2) := zpow_pos (by norm_num) _
  rw [← scaled_toRat n1 m1 e1 (min e1 e2) (min_le_left _ _),
    ← scaled_toRat n2 m2 e2 (min e1 e2) (min_le_right _ _), mul_lt_mul_right hp]
  simp only [Fp.lt, decide_eq_true_eq]
  exact Int.cast_lt.symm

theorem eq_fin_iff (n1 n2 : Bool) (m1 m2 : Nat) (e1 e2 : Int) :
    Fp.eq (.fin n1 m1 e1) (.fin n2 m2 e2) = true
      ↔ (Fp.fin n1 m1 e1).toRat = (Fp.fin n2 m2 e2).toRat := by
  have hp : (0 : ℚ) < (2 : ℚ) ^ (min e1 e2) := zpow_pos (by norm_num) _
  rw [← scaled_toRat n1 m1 e1 (min e1 e2) (min_le_left _ _),
    ← scaled_toRat n2 m2 e2 (min e1 e2) (min_le_right _ _), mul_left_inj' hp.ne']
  simp only [Fp.eq, decide_eq_true_eq]
  exact Int.cast_inj.symm

theorem le_fin_iff (n1 n2 : Bool) (m1 m2 : Nat) (e1 e2 : Int) :
    Fp.le (.fin n1 m1 e1) (.fin n2 m2 e2) = true
      ↔ (Fp.fin n1 m1 e1).toRat ≤ (Fp.fin n2 m2 e2).toRat := by
  rw [Fp.le, Bool.or_eq_true, lt_fin_iff, eq_fin_iff]
  exact le_iff_lt_or_eq.symm

theorem toRat_pos (m : Nat) (e : Int) : (Fp.fin false m e).toRat = (m : ℚ) * (2 : ℚ) ^ e := by
  simp [Fp.toRat]

theorem round_rne_sig_le (p : Nat) (emin : Int) (m : Nat) (e : Int)
    (h : ¬ max emin (e + bitlen m - p) ≤ e) : (round_rne p emin m e).1 ≤ 2 ^ p := by
  obtain ⟨_, h1, _, _⟩ := round_rne_floor_le p emin m e h
  refine le_trans h1 ?_
  rcases Nat.eq_zero_or_pos m with h0 | h0
  · subst h0
    simp only [Nat.zero_div, Nat.zero_add]
    exact Nat.one_le_two_pow
  · obtain ⟨_, b2, _⟩ := bitlen_spec m h0
    have hs : bitlen m - p ≤ (max emin (e + bitlen m - p) - e).toNat := by omega
    have h3 : m / 2 ^ (max emin (e + bitlen m - p) - e).toNat < 2 ^ p := by
      rw [Nat.div_lt_iff_lt_mul (Nat.two_pow_pos _), ← pow_add]
      exact lt_of_lt_of_le b2 (Nat.pow_le_pow_right (by decide) (by omega))
    omega

theorem bitlen_le_of_value (t : Nat) (q k : Int) (ht : 0 < t)
    (h : (t : ℚ) * (2 : ℚ) ^ q < (2 : ℚ) ^ k) : q + bitlen t ≤ k := by
  obtain ⟨b1, _, b3⟩ := bitlen_spec t ht
  by_contra hc
  have h1 : (2 : ℚ) ^ k ≤ (2 : ℚ) ^ (((bitlen t - 1 : Nat) : Int) + q) :=
    zpow_le_zpow_right₀ (by norm_num) (by omega)
  rw [zpow_add₀ (by norm_num : (2 : ℚ) ≠ 0), zpow_natCast] at h1
  have h2 : ((2 : ℚ) ^ (bitlen t - 1)) * (2 : ℚ) ^ q ≤ (t : ℚ) * (2 : ℚ) ^ q :=
    mul_le_mul_of_nonneg_right (by exact_mod_cast b1) (zpow_pos (by norm_num) _).le
  linarith

theorem pow52_971 :
    (((2 : Nat) ^ 52 : Nat) : ℚ) * (2 : ℚ) ^ (971 : Int) = (2 : ℚ) ^ (1023 : Int) := by
  rw [show (1023 : Int) = 52 + 971 by norm_num, zpow_add₀ (by norm_num : (2 : ℚ) ≠ 0)]
  congr 1
  norm_num

theorem round64_fin (neg : Bool) (m : Nat) (e : Int) (hm : 0 < m)
    (h : (m : ℚ) * (2 : ℚ) ^ e < (2 : ℚ) ^ (1023 : Int)) :
    Fp.round64 (.fin neg m e)
      = .fin neg (round_rne 53 (-1074) m e).1 (round_rne 53 (-1074) m e).2 := by
  have hle := round_rne_le 53 (-1074) m e (2 ^ 52) 971 (by norm_num) (by decide) (by decide)
    (by rw [pow52_971]; exact h.le)
  rw [pow52_971] at hle
  rw [Fp.round64]
  rw [if_neg]
  intro hc
  rcases Nat.eq_zero_or_pos (round_rne 53 (-1074) m e).1 with h0 | h0
  · rw [h0] at hc
    have hb0 : bitlen 0 = 0 := by simp [bitlen, bitlen_aux]
    rw [hb0] at hc
    -- the exponent is small as the value is small
    have hq : (round_rne 53 (-1074) m e).2 = max (-1074) (e + bitlen m - 53) := by
      simp only [round_rne]
      split <;> rfl
    have h3 := bitlen_le_of_value m e 1023 hm h
    omega
  · have h2 : ((round_rne 53 (-1074) m e).1 : ℚ) * (2 : ℚ) ^ (round_rne 53 (-1074) m e).2
        < (2 : ℚ) ^ (1024 : Int) :=
      lt_of_le_of_lt hle (zpow_lt_zpow_right₀ (by norm_num) (by decide))
    have := bitlen_le_of_value _ _ 1024 h0 h2
    omega

theorem add_half_eq (m : Nat) (e : Int) :
    Fp.add64 (.fin false m e) dbl_half
      = Fp.round64 (.fin false
          (m * 2 ^ (e - min e (-1)).toNat + 2 ^ (-1 - min e (-1)).toNat) (min e (-1))) := by
  have hpos : 0 < 2 ^ (-1 - min e (-1)).toNat := Nat.two_pow_pos _
  simp only [Fp.add64, dbl_half, Fp.scaled, Bool.false_eq_true, if_false, one_mul, Bool.and_self]
  rw [if_neg (by omega)]
  have h1 : ¬ ((((m * 2 ^ (e - min e (-1)).toNat : Nat) : Int)
      + ((2 ^ (-1 - min e (-1)).toNat : Nat) : Int)) < 0) := by omega
  rw [decide_eq_false h1]
  congr 1

theorem add_half_value (m : Nat) (e : Int) :
    ((m * 2 ^ (e - min e (-1)).toNat + 2 ^ (-1 - min e (-1)).toNat : Nat) : ℚ)
        * (2 : ℚ) ^ (min e (-1))
      = (m : ℚ) * (2 : ℚ) ^ e + 1 / 2 := by
  push_cast
  rw [add_mul, mul_assoc, two_zpow_split _ _ (min_le_left _ _),
    two_zpow_split _ _ (min_le_right _ _)]
  norm_num

theorem toUInt16_floor (t : Nat) (q : Int) (h : (t : ℚ) * (2 : ℚ) ^ q < 65536) :
    ((Fp.toUInt16 (.fin false t q) : Nat) : Int) = ⌊(t : ℚ) * (2 : ℚ) ^ q⌋ := by
  simp only [Fp.toUInt16]
  by_cases hq : 0 ≤ q
  · rw [if_pos hq]
    have e1 : (t : ℚ) * (2 : ℚ) ^ q = ((t * 2 ^ q.toNat : Nat) : ℚ) := by
      push_cast
      rw [← zpow_natCast, Int.toNat_of_nonneg hq]
    rw [e1] at h ⊢
    have h2 : t * 2 ^ q.toNat < 65536 := by exact_mod_cast h
    rw [Nat.mod_eq_of_lt h2]
    exact (Int.floor_natCast _).symm
  · rw [if_neg hq]
    have hk : (0 : ℚ) < (2 : ℚ) ^ (-q).toNat := by positivity
    have e1 : (t : ℚ) * (2 : ℚ) ^ q = (t : ℚ) / (2 : ℚ) ^ (-q).toNat := by
      rw [div_eq_mul_inv, ← zpow_natCast, ← zpow_neg]
      congr 2
      omega
    have h3 : t / 2 ^ (-q).toNat ≤ t := Nat.div_le_self _ _
    have hfl : ⌊(t : ℚ) * (2 : ℚ) ^ q⌋ = ((t / 2 ^ (-q).toNat : Nat) : Int) := by
      rw [Int.floor_eq_iff, e1]
      constructor
      · rw [le_div_iff₀ hk]
        have := Nat.div_mul_le_self t (2 ^ (-q).toNat)
        exact_mod_cast this
      · rw [div_lt_iff₀ hk]
        have := Nat.lt_succ_iff.mpr (le_refl (t / 2 ^ (-q).toNat))
        have h4 : t < (t / 2 ^ (-q).toNat + 1) * 2 ^ (-q).toNat := by
          have := Nat.lt_mul_of_div_lt (show t / 2 ^ (-q).toNat < t / 2 ^ (-q).toNat + 1 by omega)
            (Nat.two_pow_pos (-q).toNat)
          exact this
        exact_mod_cast h4
    rw [hfl]
    have h5 : t / 2 ^ (-q).toNat < 65536 := by
      have h6 : ((t / 2 ^ (-q).toNat : Nat) : ℚ) ≤ (t : ℚ) * (2 : ℚ) ^ q := by
        have := Int.floor_le ((t : ℚ) * (2 : ℚ) ^ q)
        rw [hfl] at this
        exact_mod_cast this
      have h7 : ((t / 2 ^ (-q).toNat : Nat) : ℚ) < 65536 := lt_of_le_of_lt h6 h
      exact_mod_cast h7
    rw [Nat.mod_eq_of_lt h5]

theorem sample_positive (m : Nat) (e : Int) (hm : 0 < m) (hm24 : m < 2 ^ 24)
    (hlt : (m : ℚ) * (2 : ℚ) ^ e < 65535) :
    ((Fp.toUInt16 (Fp.add64 (.fin false m e) dbl_half) : Nat) : Int)
      = ⌊(m : ℚ) * (2 : ℚ) ^ e + 1 / 2⌋ := by
  rw [add_half_eq]
  have hx := add_half_value m e
  have hs : 0 < m * 2 ^ (e - min e (-1)).toNat + 2 ^ (-1 - min e (-1)).toNat := by
    have := Nat.two_pow_pos (-1 - min e (-1)).toNat
    omega
  generalize m * 2 ^ (e - min e (-1)).toNat + 2 ^ (-1 - min e (-1)).toNat = s at hx hs
  have hE : min e (-1) ≤ -1 := min_le_right _ _
  have hEe : min e (-1) ≤ e := min_le_left _ _
  have hEe2 : min e (-1) < -36 → min e (-1) = e := by omega
  generalize min e (-1) = E at hx hE hEe hEe2
  have hv0 : (0 : ℚ) ≤ (m : ℚ) * (2 : ℚ) ^ e := by positivity
  have hbig : (65536 : ℚ) < (2 : ℚ) ^ (1023 : Int) := by
    have : (2 : ℚ) ^ (16 : Int) < (2 : ℚ) ^ (1023 : Int) :=
      zpow_lt_zpow_right₀ (by norm_num) (by decide)
    have e16 : (2 : ℚ) ^ (16 : Int) = 65536 := by norm_num
    rw [e16] at this
    exact this
  rw [round64_fin false s E hs (by rw [hx]; linarith)]
  -- the integer part of the exact sum
  obtain ⟨n, hn⟩ : ∃ n : Nat, ⌊(m : ℚ) * (2 : ℚ) ^ e + 1 / 2⌋ = (n : Int) :=
    ⟨⌊(m : ℚ) * (2 : ℚ) ^ e + 1 / 2⌋.toNat,
      (Int.toNat_of_nonneg (Int.floor_nonneg.mpr (by linarith))).symm⟩
  have hn1 : ((n : Int) : ℚ) ≤ (m : ℚ) * (2 : ℚ) ^ e + 1 / 2 := by
    rw [← hn]
    exact Int.floor_le _
  have hn2 : (m : ℚ) * (2 : ℚ) ^ e + 1 / 2 < ((n : Int) : ℚ) + 1 := by
    rw [← hn]
    exact Int.lt_floor_add_one _
  have hn3 : n < 65536 := by
    have : ((n : Int) : ℚ) < 65536 := by linarith
    exact_mod_cast this
  have hlow := round_rne_ge 53 (-1074) s E n 0 (by norm_num; omega) (by decide) (by decide)
    (by rw [hx, zpow_zero, mul_one]; exact_mod_cast hn1)
  rw [zpow_zero, mul_one] at hlow
  have hup : ((round_rne 53 (-1074) s E).1 : ℚ) * (2 : ℚ) ^ (round_rne 53 (-1074) s E).2
      < (n : ℚ) + 1 := by
    by_cases hc : -36 ≤ E
    · have h1 := round_rne_le 53 (-1074) s E s E (by
          have h2 : (s : ℚ) * (2 : ℚ) ^ E < 65536 := by rw [hx]; linarith
          have h3 : (2 : ℚ) ^ (-36 : Int) ≤ (2 : ℚ) ^ E := zpow_le_zpow_right₀ (by norm_num) hc
          have h4 : (s : ℚ) * (2 : ℚ) ^ (-36 : Int) < 65536 :=
            lt_of_le_of_lt (mul_le_mul_of_nonneg_left h3 (by positivity)) h2
          have h5 : (s : ℚ) < 65536 * (2 : ℚ) ^ (36 : Nat) := by
            rw [show (-36 : Int) = -((36 : Nat) : Int) by norm_num, zpow_neg, zpow_natCast,
              ← div_eq_mul_inv, div_lt_iff₀ (by positivity)] at h4
            exact h4
          have h6 : s < 65536 * 2 ^ 36 := by exact_mod_cast h5
          have : 65536 * 2 ^ 36 ≤ 2 ^ 53 := by norm_num
          omega) (by decide) (by omega) (le_refl _)
      rw [hx] at h1
      have : (((n : Int) : ℚ)) = (n : ℚ) := by push_cast; rfl
      linarith
    · have hEe3 := hEe2 (by omega)
      subst hEe3
      have h3 : (2 : ℚ) ^ E ≤ (2 : ℚ) ^ (-37 : Int) := zpow_le_zpow_right₀ (by norm_num) (by omega)
      have h4 : (m : ℚ) < (2 : ℚ) ^ (24 : Nat) := by exact_mod_cast hm24
      have h5 : (m : ℚ) * (2 : ℚ) ^ E ≤ (2 : ℚ) ^ (24 : Nat) * (2 : ℚ) ^ (-37 : Int) :=
        mul_le_mul h4.le h3 (zpow_pos (by norm_num) _).le (by positivity)
      have h6 : (2 : ℚ) ^ (24 : Nat) * (2 : ℚ) ^ (-37 : Int) = 1 / 8192 := by
        rw [show (-37 : Int) = -((37 : Nat) : Int) by norm_num, zpow_neg, zpow_natCast]
        norm_num
      rw [h6] at h5
      have h1 := round_rne_le 53 (-1074) s E 3 (-2) (by norm_num) (by decide) (by decide) (by
          rw [hx, show (-2 : Int) = -((2 : Nat) : Int) by norm_num, zpow_neg, zpow_natCast]
          norm_num
          linarith)
      have h7 : ((3 : Nat) : ℚ) * (2 : ℚ) ^ (-2 : Int) = 3 / 4 := by
        rw [show (-2 : Int) = -((2 : Nat) : Int) by norm_num, zpow_neg, zpow_natCast]
        norm_num
      rw [h7] at h1
      have : (0 : ℚ) ≤ (n : ℚ) := by positivity
      linarith
  rw [toUInt16_floor _ _ (by
    have : (n : ℚ) + 1 ≤ 65536 := by exact_mod_cast hn3
    linarith), hn, Int.floor_eq_iff]
  exact ⟨by exact_mod_cast hlow, by exact_mod_cast hup⟩
theorem flt_isnan_iff (v : Float32) : flt_isnan v = true ↔ v.toFp = .nan := by
  rw [flt_isnan]
  cases h : v.toFp with
  | nan => simp [Fp.eq]
  | inf n => simp [Fp.eq]
  | fin n m e => simp [Fp.eq]

theorem bitmap_sample_nan (v : Float32) (h : flt_isnan v = true) : bitmap_sample v = 0 := by
  rw [bitmap_sample, if_pos h]

theorem bitmap_sample_inf (v : Float32) (neg : Bool) (h : v.toFp = .inf neg) :
    bitmap_sample v = if neg then 0 else 65535 := by
  have hn : flt_isnan v = false := by
    rw [Bool.eq_false_iff, Ne, flt_isnan_iff, h]
    simp
  rw [bitmap_sample, hn, h]
  cases neg <;> decide

theorem toFp_fin_pos (v : Float32) (neg : Bool) (m : Nat) (e : Int) (h : v.toFp = .fin neg m e)
    (hpos : 0 < (Fp.fin neg m e).toRat) : neg = false ∧ 0 < m := by
  cases neg
  · refine ⟨rfl, ?_⟩
    rcases Nat.eq_zero_or_pos m with h0 | h0
    · subst h0
      simp [Fp.toRat] at hpos
    · exact h0
  · exfalso
    have : (Fp.fin true m e).toRat ≤ 0 := by
      simp only [Fp.toRat, if_true]
      have : (0 : ℚ) ≤ (m : ℚ) * (2 : ℚ) ^ e := by positivity
      linarith
    linarith

theorem bitmap_sample_fin (v : Float32) (neg : Bool) (m : Nat) (e : Int)
    (h : v.toFp = .fin neg m e) :
    ((bitmap_sample v : Nat) : Int)
      = max 0 (min 65535 (if 0 ≤ (Fp.fin neg m e).toRat + 1 / 2
          then ⌊(Fp.fin neg m e).toRat + 1 / 2⌋ else ⌈(Fp.fin neg m e).toRat + 1 / 2⌉)) := by
  have hn : flt_isnan v = false := by
    rw [Bool.eq_false_iff, Ne, flt_isnan_iff, h]
    simp
  have h0 : (Fp.fin false 0 0).toRat = 0 := by simp [Fp.toRat]
  have h65 : (Fp.fin false 65535 0).toRat = 65535 := by simp [Fp.toRat]
  rw [bitmap_sample, hn, h]
  simp only [Bool.false_eq_true, if_false, dbl_zero, dbl_65535]
  generalize hx : (Fp.fin neg m e).toRat = x
  by_cases c1 : Fp.le (.fin neg m e) (.fin false 0 0) = true
  · rw [if_pos c1]
    rw [le_fin_iff, hx, h0] at c1
    have h1 : (if 0 ≤ x + 1 / 2 then ⌊x + 1 / 2⌋ else ⌈x + 1 / 2⌉) ≤ 0 := by
      split
      · have : ⌊x + 1 / 2⌋ < 1 := by
          rw [Int.floor_lt]
          push_cast
          linarith
        omega
      · rename_i hneg
        rw [Int.ceil_le]
        push_cast
        linarith
    simp only [Nat.cast_zero]
    omega
  · rw [if_neg c1]
    rw [le_fin_iff, hx, h0, not_le] at c1
    by_cases c2 : Fp.le (.fin false 65535 0) (.fin neg m e) = true
    · rw [if_pos c2]
      rw [le_fin_iff, hx, h65] at c2
      rw [if_pos (by linarith)]
      have : (65535 : Int) ≤ ⌊x + 1 / 2⌋ := by
        rw [Int.le_floor]
        push_cast
        linarith
      simp only [Nat.cast_ofNat]
      omega
    · rw [if_neg c2]
      rw [le_fin_iff, hx, h65, not_le] at c2
      rw [if_pos (by linarith)]
      obtain ⟨hneg, hm⟩ := toFp_fin_pos v neg m e h (by rw [hx]; exact c1)
      subst hneg
      obtain ⟨hm24, _, _⟩ := toFp_range v false m e h
      rw [toRat_pos] at hx
      rw [← hx] at c2 ⊢
      rw [sample_positive m e hm hm24 c2]
      have hlo : (0 : Int) ≤ ⌊(m : ℚ) * (2 : ℚ) ^ e + 1 / 2⌋ :=
        Int.floor_nonneg.mpr (by positivity)
      have hhi : ⌊(m : ℚ) * (2 : ℚ) ^ e + 1 / 2⌋ < 65536 := by
        rw [Int.floor_lt]
        push_cast
        linarith
      omega

theorem samples_to_bytes_append (be : Bool) (a b : List Float32) :
    samples_to_bytes be (a ++ b) = samples_to_bytes be a ++ samples_to_bytes be b := by
  induction a with
  | nil => rfl
  | cons v vs ih =>
    rw [List.cons_append, samples_to_bytes, samples_to_bytes, ih, List.append_assoc]

theorem bitmap_bytes_eq_samples (be : Bool) (width height : Nat) (data : List Float32) :
    bitmap_bytes be width height data = samples_to_bytes be (data.take (width * height)) := by
  induction height generalizing data with
  | zero => simp [bitmap_bytes, samples_to_bytes]
  | succ n ih =>
    rw [bitmap_bytes, ih, ← samples_to_bytes_append, Nat.mul_succ, Nat.add_comm (width * n) width,
      List.take_add]

theorem length_samples_to_bytes (be : Bool) (data : List Float32) :
    (samples_to_bytes be data).length = 2 * data.length := by
  induction data with
  | nil => rfl
  | cons v vs ih =>
    simp only [samples_to_bytes, List.length_append, length_host_bytes, ih, List.length_cons]
    omega

theorem byte_at_samples (be : Bool) (data : List Float32) (k j : Nat) (hk : k < data.length)
    (hj : j < 2) :
    byte_at (samples_to_bytes be data) (2 * k + j)
      = byte_at (host_bytes be 2 (bitmap_sample (data.getD k 0))) j := by
  induction data generalizing k with
  | nil => simp at hk
  | cons v vs ih =>
    rw [samples_to_bytes]
    cases k with
    | zero =>
      rw [byte_at_append_left _ _ _ (by simpa using hj)]
      simp
    | succ k =>
      rw [byte_at_append_right _ _ _ (by simp; omega)]
      simp only [length_host_bytes, List.getD_cons_succ]
      rw [show 2 * (k + 1) + j - 2 = 2 * k + j by omega]
      exact ih k (by simpa using hk)

/-- The buffer of `WriteBitmap` is allocated exactly when the value returned is 0. -/
theorem WriteBitmap_ok_iff (be : Bool) (hFile : FileState) (width height : Nat)
    (data : List Float32) :
    (WriteBitmap be hFile width height data).2 = 0
      ↔ malloc_fails (int_bufsize width 2) = false := by
  rw [WriteBitmap_snd]
  cases malloc_fails (int_bufsize width 2) <;> simp

theorem WriteBitmap_fst_ok (be : Bool) (hFile : FileState) (width height : Nat)
    (data : List Float32) (hok : (WriteBitmap be hFile width height data).2 = 0) :
    (WriteBitmap be hFile width height data).1 = fwrite (bitmap_bytes be width height data) hFile := by
  rw [WriteBitmap_fst, bitmap_written_of_ok be width height data
    ((WriteBitmap_ok_iff be hFile width height data).mp hok)]

theorem sample_in_file (be : Bool) (hFile : FileState) (width height : Nat)
    (data : List Float32) (hlen : data.length = width * height)
    (hok : (WriteBitmap be hFile width height data).2 = 0) (k : Nat)
    (hk : k < width * height) :
    read_uint be (WriteBitmap be hFile width height data).1.bytes (hFile.pos + 2 * k) 2
      = bitmap_sample (data.getD k 0) := by
  rw [WriteBitmap_fst_ok be hFile width height data hok, bitmap_bytes_eq_samples, ← hlen,
    List.take_length]
  have h := read_uint_host_bytes be (fwrite (samples_to_bytes be data) hFile).bytes
    (hFile.pos + 2 * k) 2 (bitmap_sample (data.getD k 0)) (fun j hj => by
      rw [Nat.add_assoc, fwrite_written _ _ _ (by rw [length_samples_to_bytes]; omega)]
      exact byte_at_samples be data k j (by omega) hj)
  rw [h]
  exact Nat.mod_eq_of_lt (by have := bitmap_sample_lt (data.getD k 0); omega)

/-- C13, as stated, does not hold for every width. For one row of `2^30` samples the
`int` that holds the size of the row buffer, `width * sizeof(unsigned short)`, is
negative, `malloc` fails, and `WriteBitmap` returns -2 with no sample written: the file is
left as it was. -/
theorem bitmap_not_written_for_wide_row :
    int_bufsize 1073741824 2 = -2147483648
    ∧ WriteBitmap false ⟨[], 0⟩ 1073741824 1 (List.replicate 1073741824 0) = (⟨[], 0⟩, -2) := by
  decide

/-- C13, amended. `WriteBitmap`, given `width * height` values, returns 0 for every
`width` below `2^30`, and whenever it returns 0 it has written exactly `width * height`
16-bit samples from the file position on and changed no other byte; sample `k` comes from
`data[k]` (row-major order) and is 0 for a NaN, 0 or 65535 for minus or plus infinity, and
for a finite value `x` the truncation of `x + 1/2` clamped to 0 .. 65535.  For a `width`
from `2^30` on, within the range of an `int`, it returns -2 and leaves the file as it
was. -/
theorem bitmap_quantisation (be : Bool) (hFile : FileState) (width height : Nat)
    (data : List Float32) (hlen : data.length = width * height) :
    (width < 2 ^ 30 → (WriteBitmap be hFile width height data).2 = 0)
    ∧ (2 ^ 30 ≤ width → width < 2 ^ 31 →
        WriteBitmap be hFile width height data = (hFile, -2))
    ∧ ((WriteBitmap be hFile width height data).2 = 0 →
      (WriteBitmap be hFile width height data).1.pos = hFile.pos + 2 * (width * height)
      ∧ (∀ i, i < hFile.pos ∨ hFile.pos + 2 * (width * height) ≤ i →
          byte_at (WriteBitmap be hFile width height data).1.bytes i = byte_at hFile.bytes i)
      ∧ ∀ k, k < width * height →
          (flt_isnan (data.getD k 0) = true →
            read_uint be (WriteBitmap be hFile width height data).1.bytes (hFile.pos + 2 * k) 2
              = 0)
          ∧ (∀ neg, (data.getD k 0).toFp = .inf neg →
            read_uint be (WriteBitmap be hFile width height data).1.bytes (hFile.pos + 2 * k) 2
              = if neg then 0 else 65535)
          ∧ (∀ neg m e, (data.getD k 0).toFp = .fin neg m e →
            ((read_uint be (WriteBitmap be hFile width height data).1.bytes
                (hFile.pos + 2 * k) 2 : Nat) : Int)
              = max 0 (min 65535 (if 0 ≤ (Fp.fin neg m e).toRat + 1 / 2
                  then ⌊(Fp.fin neg m e).toRat + 1 / 2⌋
                  else ⌈(Fp.fin neg m e).toRat + 1 / 2⌉)))) := by
  refine ⟨fun hw => ?_, fun h1 h2 => ?_, fun hok => ⟨?_, ?_, ?_⟩⟩
  · exact (WriteBitmap_ok_iff be hFile width height data).mpr (bitmap_malloc_ok width hw)
  · rw [WriteBitmap, if_pos (bitmap_malloc_fails width h1 h2)]
  · rw [WriteBitmap_fst_ok be hFile width height data hok, bitmap_bytes_eq_samples, ← hlen,
      List.take_length, fwrite_pos, length_samples_to_bytes]
  · intro i hi
    rw [WriteBitmap_fst_ok be hFile width height data hok, bitmap_bytes_eq_samples, ← hlen,
      List.take_length, byte_at_fwrite, length_samples_to_bytes]
    rw [← hlen] at hi
    rcases hi with h | h
    · rw [if_pos h]
    · rw [if_neg (by omega), if_neg (by omega)]
  · intro k hk
    rw [sample_in_file be hFile width height data hlen hok k hk]
    exact ⟨bitmap_sample_nan _, bitmap_sample_inf _, bitmap_sample_fin _⟩

/-- C13, witness: the 2x2 grid NaN, 0.4, 2.5, 70000.0 written to an empty file on a
little-endian host gives the samples 0, 0, 3, 65535. -/
theorem bitmap_quantisation_witness :
    ([2143289344, 1053609165, 1075838976, 1200142336] : List Float32).length = 2 * 2
    ∧ (WriteBitmap false ⟨[], 0⟩ 2 2 [2143289344, 1053609165, 1075838976, 1200142336]).2 = 0
    ∧ (WriteBitmap false ⟨[], 0⟩ 2 2
        [2143289344, 1053609165, 1075838976, 1200142336]).1.pos = 0 + 2 * (2 * 2)
    ∧ (WriteBitmap false ⟨[], 0⟩ 2 2 [2143289344, 1053609165, 1075838976, 1200142336]).1.bytes
        = [0, 0, 0, 0, 3, 0, 255, 255] :=
  ⟨by decide,
    (bitmap_quantisation false ⟨[], 0⟩ 2 2 [2143289344, 1053609165, 1075838976, 1200142336]
      (by decide)).1 (by decide),
    ((bitmap_quantisation false ⟨[], 0⟩ 2 2 [2143289344, 1053609165, 1075838976, 1200142336]
      (by decide)).2.2 (by decide)).1,
    by decide⟩

/-- C14. For every value `v` of the grid with `0 <= v <= 65535` (so `v` is finite), the
16-bit sample `bitmap_sample v` that `WriteBitmap` computes for it differs from `v` by at
most one half; and when `WriteBitmap` returns 0, and so has written the samples, that is
the sample read from the file at the place of `v`. -/
theorem bitmap_sample_error (be : Bool) (hFile : FileState) (width height : Nat)
    (data : List Float32) (hlen : data.length = width * height) (k : Nat)
    (hk : k < width * height) (h0 : Fp.le dbl_zero (data.getD k 0).toFp = true)
    (h1 : Fp.le (data.getD k 0).toFp dbl_65535 = true) :
    (data.getD k 0).toFp.is_finite = true
    ∧ |((bitmap_sample (data.getD k 0) : Nat) : ℚ) - (data.getD k 0).toFp.toRat| ≤ 1 / 2
    ∧ ((WriteBitmap be hFile width height data).2 = 0 →
        |((read_uint be (WriteBitmap be hFile width height data).1.bytes (hFile.pos + 2 * k) 2
          : Nat) : ℚ) - (data.getD k 0).toFp.toRat| ≤ 1 / 2) := by
  have key : (data.getD k 0).toFp.is_finite = true
      ∧ |((bitmap_sample (data.getD k 0) : Nat) : ℚ) - (data.getD k 0).toFp.toRat|
          ≤ 1 / 2 := by
    generalize data.getD k 0 = v at h0 h1
    cases hv : v.toFp with
    | nan => rw [hv] at h0; exact absurd h0 (by decide)
    | inf neg =>
      rw [hv] at h0 h1
      cases neg
      · exact absurd h1 (by decide)
      · exact absurd h0 (by decide)
    | fin neg m e =>
      refine ⟨rfl, ?_⟩
      have hs := bitmap_sample_fin v neg m e hv
      rw [hv, dbl_zero, le_fin_iff] at h0
      rw [hv, dbl_65535, le_fin_iff] at h1
      have e0 : (Fp.fin false 0 0).toRat = 0 := by simp [Fp.toRat]
      have e65 : (Fp.fin false 65535 0).toRat = 65535 := by simp [Fp.toRat]
      rw [e0] at h0
      rw [e65] at h1
      generalize (Fp.fin neg m e).toRat = x at hs h0 h1
      rw [if_pos (by linarith)] at hs
      have f1 := Int.floor_le (x + 1 / 2)
      have f2 := Int.lt_floor_add_one (x + 1 / 2)
      have f3 : (0 : Int) ≤ ⌊x + 1 / 2⌋ := Int.floor_nonneg.mpr (by linarith)
      have f4 : ⌊x + 1 / 2⌋ < 65536 := by
        rw [Int.floor_lt]
        push_cast
        linarith
      have hs2 : ((bitmap_sample v : Nat) : Int) = ⌊x + 1 / 2⌋ := by
        rw [hs]
        omega
      have hs3 : ((bitmap_sample v : Nat) : ℚ) = ((⌊x + 1 / 2⌋ : Int) : ℚ) := by
        rw [← hs2]
        push_cast
        rfl
      rw [hs3, abs_le]
      constructor <;> linarith
  refine ⟨key.1, key.2, fun hok => ?_⟩
  rw [sample_in_file be hFile width height data hlen hok k hk]
  exact key.2

/-- C14, witness: the value 0.4 of the 2x2 grid NaN, 0.4, 2.5, 70000.0. -/
theorem bitmap_sample_error_witness :
    (([2143289344, 1053609165, 1075838976, 1200142336] : List Float32).length = 2 * 2
      ∧ 1 < 2 * 2
      ∧ Fp.le dbl_zero (Float32.toFp 1053609165) = true
      ∧ Fp.le (Float32.toFp 1053609165) dbl_65535 = true
      ∧ (WriteBitmap false ⟨[], 0⟩ 2 2
          [2143289344, 1053609165, 1075838976, 1200142336]).2 = 0)
    ∧ |((read_uint false (WriteBitmap false ⟨[], 0⟩ 2 2
          [2143289344, 1053609165, 1075838976, 1200142336]).1.bytes (0 + 2 * 1) 2 : Nat) : ℚ)
        - (Float32.toFp 1053609165).toRat| ≤ 1 / 2 :=
  ⟨by decide,
    (bitmap_sample_error false ⟨[], 0⟩ 2 2 [2143289344, 1053609165, 1075838976, 1200142336]
      (by decide) 1 (by decide) (by decide) (by decide)).2.2 (by decide)⟩

theorem toFp_normal (x : Float32) (neg : Bool) (m : Nat) (e : Int) (h : x.toFp = .fin neg m e) :
    (e = -149 ∧ m < 2 ^ 23) ∨ (2 ^ 23 ≤ m ∧ m < 2 ^ 24 ∧ -149 ≤ e ∧ e ≤ 104) := by
  have hx := x.isLt
  rw [Float32.toFp] at h
  split at h
  · split at h <;> exact absurd h (by simp)
  · split at h
    · injection h with _ h2 h3
      subst h2 h3
      left
      refine ⟨rfl, ?_⟩
      have := Nat.mod_lt x.val (by decide : 0 < 8388608)
      omega
    · injection h with _ h2 h3
      subst h2 h3
      have h4 := Nat.mod_lt x.val (by decide : 0 < 8388608)
      have h5 := Nat.mod_lt (x.val / 8388608) (by decide : 0 < 256)
      right
      refine ⟨by omega, by omega, by omega, by omega⟩

theorem round_rne_norm (p : Nat) (emin : Int) (m : Nat) (e : Int) (hp : 1 ≤ p) (hm : 0 < m) :
    emin ≤ (round_rne p emin m e).2 ∧ (round_rne p emin m e).1 ≤ 2 ^ p
    ∧ ((round_rne p emin m e).2 = emin ∨ 2 ^ (p - 1) ≤ (round_rne p emin m e).1) := by
  obtain ⟨b1, b2, b3⟩ := bitlen_spec m hm
  by_cases hq : max emin (e + bitlen m - p) ≤ e
  · simp only [round_rne, if_pos hq]
    refine ⟨le_max_left _ _, ?_, ?_⟩
    · have h1 : m * 2 ^ (e - max emin (e + bitlen m - p)).toNat
          < 2 ^ (bitlen m + (e - max emin (e + bitlen m - p)).toNat) := by
        rw [pow_add]
        exact Nat.mul_lt_mul_of_pos_right b2 (Nat.two_pow_pos _)
      exact le_of_lt (lt_of_lt_of_le h1 (Nat.pow_le_pow_right (by decide) (by omega)))
    · by_cases h2 : max emin (e + bitlen m - p) = emin
      · exact Or.inl h2
      · right
        have h3 : max emin (e + bitlen m - p) = e + bitlen m - p := by omega
        have h4 : 2 ^ (bitlen m - 1 + (e - max emin (e + bitlen m - p)).toNat)
            ≤ m * 2 ^ (e - max emin (e + bitlen m - p)).toNat := by
          rw [pow_add]
          exact Nat.mul_le_mul_right _ b1
        refine le_trans (Nat.pow_le_pow_right (by decide) ?_) h4
        omega
  · obtain ⟨h1, _, _, h4⟩ := round_rne_floor_le p emin m e hq
    refine ⟨by rw [h4]; exact le_max_left _ _, round_rne_sig_le p emin m e hq, ?_⟩
    rw [h4]
    by_cases h2 : max emin (e + bitlen m - p) = emin
    · exact Or.inl h2
    · right
      refine le_trans ?_ h1
      have hs : (max emin (e + bitlen m - p) - e).toNat = bitlen m - p := by omega
      rw [hs, Nat.le_div_iff_mul_le (Nat.two_pow_pos _), ← pow_add]
      have : p - 1 + (bitlen m - p) = bitlen m - 1 := by omega
      rw [this]
      exact b1

theorem round_rne_zero (p : Nat) (emin : Int) (e : Int) : (round_rne p emin 0 e).1 = 0 := by
  simp only [round_rne]
  split
  · simp
  · have hpos : 0 < 2 ^ ((max emin (e + ((bitlen 0 : Nat) : Int) - p) - e).toNat - 1) :=
      Nat.two_pow_pos _
    simp only [Nat.zero_div, Nat.zero_mod]
    rw [if_neg (by omega)]

theorem decode_nat (sgn mag : Nat) (hs : sgn = 0 ∨ sgn = 2147483648) (hm : mag < 2139095040) :
    (sgn + mag) / 8388608 % 256 = mag / 8388608 ∧ (sgn + mag) % 8388608 = mag % 8388608
    ∧ (2147483648 ≤ sgn + mag ↔ sgn = 2147483648) := by
  omega

theorem toFp_pattern (neg : Bool) (t : Nat) (q : Int) (ht : t ≤ 16777216)
    (hq : t ≠ 0 → -149 ≤ q) (hn : t ≠ 0 → (q = -149 ∨ 8388608 ≤ t))
    (hsmall : float_mag t q < 2139095040)
    (hlt : (if neg then 2147483648 else 0) + float_mag t q < 4294967296) :
    ∃ t2 q2, Float32.toFp ⟨(if neg then 2147483648 else 0) + float_mag t q, hlt⟩ = .fin neg t2 q2
      ∧ (t2 : ℚ) * (2 : ℚ) ^ q2 = (t : ℚ) * (2 : ℚ) ^ q := by
  obtain ⟨d1, d2, d3⟩ := decode_nat (if neg then 2147483648 else 0) (float_mag t q)
    (by cases neg <;> simp) hsmall
  have hneg : decide (2147483648 ≤ (if neg then 2147483648 else 0) + float_mag t q) = neg := by
    cases neg
    · simp only [Bool.false_eq_true, if_false] at d3 ⊢
      rw [decide_eq_false_iff_not, d3]
      omega
    · simp only [if_true] at d3 ⊢
      rw [decide_eq_true_iff]
      omega
  simp only [Float32.toFp, hneg, d1, d2]
  generalize hmag : float_mag t q = mag at hsmall
  have h255 : ¬ mag / 8388608 = 255 := by omega
  rw [if_neg h255]
  by_cases h0 : t = 0
  · subst h0
    refine ⟨0, -149, ?_, by simp⟩
    have : mag = 0 := by rw [← hmag, float_mag, if_pos rfl]
    subst this
    rfl
  · rw [float_mag, if_neg h0] at hmag
    have hq2 := hq h0
    have hn2 := hn h0
    obtain ⟨K, hK⟩ : ∃ K : Nat, (q + 149).toNat = K := ⟨_, rfl⟩
    have hKq : q = (K : Int) - 149 := by omega
    rw [hK] at hmag
    by_cases h1 : t < 8388608
    · have hK0 : K = 0 := by omega
      subst hK0
      have hq2 : q = -149 := by omega
      subst hq2
      refine ⟨t, -149, ?_, rfl⟩
      rw [if_pos (by omega)]
      have e1 : mag % 8388608 = t := by omega
      rw [e1]
    · by_cases h2 : t < 16777216
      · refine ⟨t, q, ?_, rfl⟩
        rw [if_neg (by omega)]
        have e1 : 8388608 + mag % 8388608 = t := by omega
        have e2 : ((mag / 8388608 : Nat) : Int) - 150 = q := by omega
        rw [e1, e2]
      · have h3 : t = 16777216 := by omega
        subst h3
        refine ⟨8388608, q + 1, ?_, ?_⟩
        · rw [if_neg (by omega)]
          have e1 : 8388608 + mag % 8388608 = 8388608 := by omega
          have e2 : ((mag / 8388608 : Nat) : Int) - 150 = q + 1 := by omega
          rw [e1, e2]
        · rw [zpow_add₀ (by norm_num : (2 : ℚ) ≠ 0), zpow_one]
          push_cast
          ring

theorem float_mag_small (t : Nat) (q : Int) (ht : t ≤ 16777216) (hq : -149 ≤ q)
    (hn : q = -149 ∨ 8388608 ≤ t) (hv : (t : ℚ) * (2 : ℚ) ^ q < (2 : ℚ) ^ (128 : Int)) :
    float_mag t q < 2139095040 := by
  rw [float_mag]
  split
  · omega
  · rename_i h0
    have hb := bitlen_le_of_value t q 128 (Nat.pos_of_ne_zero h0) hv
    obtain ⟨b1, b2, b3⟩ := bitlen_spec t (Nat.pos_of_ne_zero h0)
    by_cases h1 : t < 8388608
    · have : q = -149 := by omega
      subst this
      have e0 : (-149 + 149 : Int).toNat = 0 := rfl
      rw [e0]
      omega
    · have h24 : 24 ≤ bitlen t := by
        by_contra hc
        have h5 : t < 2 ^ 23 := lt_of_lt_of_le b2 (Nat.pow_le_pow_right (by decide) (by omega))
        have e23 : (2 : Nat) ^ 23 = 8388608 := by norm_num
        omega
      by_cases h2 : t < 16777216
      · have : (q + 149).toNat ≤ 253 := by omega
        omega
      · have h25 : 25 ≤ bitlen t := by
          by_contra hc
          have h5 : t < 2 ^ 24 := lt_of_lt_of_le b2 (Nat.pow_le_pow_right (by decide) (by omega))
          have e24 : (2 : Nat) ^ 24 = 16777216 := by norm_num
          omega
        have : (q + 149).toNat ≤ 252 := by omega
        omega

theorem round_rne_float (m : Nat) (e : Int) :
    (round_rne 24 (-149) m e).1 ≤ 16777216
    ∧ ((round_rne 24 (-149) m e).1 ≠ 0 → -149 ≤ (round_rne 24 (-149) m e).2)
    ∧ ((round_rne 24 (-149) m e).1 ≠ 0 →
        ((round_rne 24 (-149) m e).2 = -149 ∨ 8388608 ≤ (round_rne 24 (-149) m e).1)) := by
  rcases Nat.eq_zero_or_pos m with h0 | h0
  · subst h0
    have hz := round_rne_zero 24 (-149) e
    rw [hz]
    exact ⟨by omega, fun h => absurd rfl h, fun h => absurd rfl h⟩
  · obtain ⟨n1, n2, n3⟩ := round_rne_norm 24 (-149) m e (by decide) h0
    have e24 : (2 : Nat) ^ 24 = 16777216 := by norm_num
    have e23 : (2 : Nat) ^ (24 - 1) = 8388608 := by norm_num
    rw [e24] at n2
    rw [e23] at n3
    exact ⟨n2, fun _ => n1, fun _ => n3⟩

theorem toFp_toFloat32 (neg : Bool) (m : Nat) (e : Int)
    (hv : ((round_rne 24 (-149) m e).1 : ℚ) * (2 : ℚ) ^ (round_rne 24 (-149) m e).2
      < (2 : ℚ) ^ (128 : Int)) :
    ∃ t2 q2, (Fp.toFloat32 (.fin neg m e)).toFp = .fin neg t2 q2
      ∧ (t2 : ℚ) * (2 : ℚ) ^ q2
        = ((round_rne 24 (-149) m e).1 : ℚ) * (2 : ℚ) ^ (round_rne 24 (-149) m e).2 := by
  obtain ⟨n2, n1, n3⟩ := round_rne_float m e
  have hs : float_mag (round_rne 24 (-149) m e).1 (round_rne 24 (-149) m e).2 < 2139095040 := by
    by_cases h0 : (round_rne 24 (-149) m e).1 = 0
    · rw [float_mag, if_pos h0]
      omega
    · exact float_mag_small _ _ n2 (n1 h0) (n3 h0) hv
  simp only [Fp.toFloat32]
  simp only [if_neg (Nat.not_le.mpr hs)]
  exact toFp_pattern neg _ _ n2 n1 n3 hs _

theorem toFp_toFloat32_sign (neg : Bool) (m : Nat) (e : Int) :
    (Fp.toFloat32 (.fin neg m e)).toFp = .inf neg
    ∨ ∃ t2 q2, (Fp.toFloat32 (.fin neg m e)).toFp = .fin neg t2 q2
      ∧ (t2 : ℚ) * (2 : ℚ) ^ q2
        = ((round_rne 24 (-149) m e).1 : ℚ) * (2 : ℚ) ^ (round_rne 24 (-149) m e).2 := by
  obtain ⟨n2, n1, n3⟩ := round_rne_float m e
  by_cases hs : float_mag (round_rne 24 (-149) m e).1 (round_rne 24 (-149) m e).2 < 2139095040
  · right
    simp only [Fp.toFloat32]
    simp only [if_neg (Nat.not_le.mpr hs)]
    exact toFp_pattern neg _ _ n2 n1 n3 hs _
  · left
    simp only [Fp.toFloat32]
    simp only [if_pos (Nat.not_lt.mp hs)]
    cases neg <;> simp [Float32.toFp]
theorem toFp_min_limit : flt_min_limit.toFp = .fin false 8388608 (-23) := by decide

theorem toFp_max_limit : flt_max_limit.toFp = .fin false 16776704 (-8) := by decide

theorem toRat_min_limit : (Fp.fin false 8388608 (-23)).toRat = 1 := by
  rw [toRat_pos, show (-23 : Int) = -((23 : Nat) : Int) by norm_num, zpow_neg, zpow_natCast]
  norm_num

theorem toRat_max_limit : (Fp.fin false 16776704 (-8)).toRat = 65534 := by
  rw [toRat_pos, show (-8 : Int) = -((8 : Nat) : Int) by norm_num, zpow_neg, zpow_natCast]
  norm_num

theorem toRat_neg_le (m : Nat) (e : Int) : (Fp.fin true m e).toRat ≤ 0 := by
  simp only [Fp.toRat, if_true]
  have : (0 : ℚ) ≤ (m : ℚ) * (2 : ℚ) ^ e := by positivity
  linarith

theorem two_pow_128_big : (65536 : ℚ) < (2 : ℚ) ^ (128 : Int) := by
  have h : (2 : ℚ) ^ (16 : Int) < (2 : ℚ) ^ (128 : Int) :=
    zpow_lt_zpow_right₀ (by norm_num) (by decide)
  have e16 : (2 : ℚ) ^ (16 : Int) = 65536 := by norm_num
  rw [e16] at h
  exact h

/-- A sum that is at most one is stored as a `float` that is at most one. -/
theorem float_le_one (T : Nat) (Q : Int) (h : (T : ℚ) * (2 : ℚ) ^ Q ≤ 1) :
    Fp.le (Fp.toFloat32 (.fin false T Q)).toFp flt_min_limit.toFp = true := by
  have h1 := round_rne_le 24 (-149) T Q 1 0 (by norm_num) (by decide) (by decide)
    (by simpa using h)
  simp only [Nat.cast_one, zpow_zero, mul_one] at h1
  obtain ⟨t2, q2, e1, e2⟩ := toFp_toFloat32 false T Q (by
    have := two_pow_128_big
    linarith)
  rw [e1, toFp_min_limit, le_fin_iff, toRat_min_limit, toRat_pos, e2]
  exact h1

theorem float_neg_le_one (d : Fp) (h : d = .inf true ∨ ∃ T Q, d = .fin true T Q) :
    Fp.le (Fp.toFloat32 d).toFp flt_min_limit.toFp = true := by
  rcases h with h | ⟨T, Q, h⟩
  · subst h
    decide
  · subst h
    rcases toFp_toFloat32_sign true T Q with h1 | ⟨t2, q2, h1, _⟩
    · rw [h1, toFp_min_limit]
      rfl
    · rw [h1, toFp_min_limit, le_fin_iff, toRat_min_limit]
      have := toRat_neg_le t2 q2
      linarith

theorem float_ge_max (T : Nat) (Q : Int) (h : 65534 ≤ (T : ℚ) * (2 : ℚ) ^ Q) :
    Fp.le (Fp.toFloat32 (.fin false T Q)).toFp flt_min_limit.toFp = false
    ∧ Fp.le flt_max_limit.toFp (Fp.toFloat32 (.fin false T Q)).toFp = true := by
  have h1 := round_rne_ge 24 (-149) T Q 65534 0 (by norm_num) (by decide) (by decide)
    (by simpa using h)
  simp only [Nat.cast_ofNat, zpow_zero, mul_one] at h1
  rcases toFp_toFloat32_sign false T Q with h2 | ⟨t2, q2, h2, h3⟩
  · rw [h2, toFp_min_limit, toFp_max_limit]
    exact ⟨rfl, rfl⟩
  · rw [h2, toFp_min_limit, toFp_max_limit, le_fin_iff, toRat_max_limit, toRat_pos, h3,
      Bool.eq_false_iff, Ne, le_fin_iff, toRat_min_limit, toRat_pos, h3]
    exact ⟨by linarith, h1⟩
theorem add_half_cases (neg : Bool) (m : Nat) (e : Int) :
    ((Fp.fin neg m e).toRat + 1 / 2 ≤ 0 →
      (Fp.add64 (.fin neg m e) dbl_half = .inf true
        ∨ (∃ T Q, Fp.add64 (.fin neg m e) dbl_half = .fin true T Q)
        ∨ ∃ Q, Fp.add64 (.fin neg m e) dbl_half = .fin false 0 Q))
    ∧ (0 < (Fp.fin neg m e).toRat + 1 / 2 →
      ∃ S : Nat, 0 < S ∧ (S : ℚ) * (2 : ℚ) ^ (min e (-1)) = (Fp.fin neg m e).toRat + 1 / 2
        ∧ Fp.add64 (.fin neg m e) dbl_half = Fp.round64 (.fin false S (min e (-1)))) := by
  have h1 := scaled_toRat neg m e (min e (-1)) (min_le_left _ _)
  have h2 := scaled_toRat false 1 (-1) (min e (-1)) (min_le_right _ _)
  have hhalf : (Fp.fin false 1 (-1)).toRat = 1 / 2 := by
    rw [toRat_pos]
    norm_num
  rw [hhalf] at h2
  have hp : (0 : ℚ) < (2 : ℚ) ^ (min e (-1)) := zpow_pos (by norm_num) _
  simp only [Fp.add64, dbl_half]
  generalize hs : Fp.scaled neg m e (min e (-1)) + Fp.scaled false 1 (-1) (min e (-1)) = s
  have hsv : ((s : Int) : ℚ) * (2 : ℚ) ^ (min e (-1)) = (Fp.fin neg m e).toRat + 1 / 2 := by
    rw [← hs, ← h1, ← h2]
    push_cast
    ring
  constructor
  · intro hle
    rw [← hsv] at hle
    have hs0 : s ≤ 0 := by
      by_contra hc
      have : (0 : ℚ) < ((s : Int) : ℚ) := by exact_mod_cast (not_le.mp hc)
      have := mul_pos this hp
      linarith
    by_cases hz : s = 0
    · right
      right
      rw [if_pos hz]
      exact ⟨min e (-1), by simp⟩
    · rw [if_neg hz]
      have hneg : decide (s < 0) = true := decide_eq_true (by omega)
      rw [hneg, Fp.round64]
      split
      · exact Or.inl rfl
      · exact Or.inr (Or.inl ⟨_, _, rfl⟩)
  · intro hpos
    rw [← hsv] at hpos
    have hs0 : 0 < s := by
      by_contra hc
      have : ((s : Int) : ℚ) ≤ 0 := by exact_mod_cast (not_lt.mp hc)
      have := mul_nonpos_of_nonpos_of_nonneg this hp.le
      linarith
    rw [if_neg (by omega)]
    have hneg : decide (s < 0) = false := decide_eq_false (by omega)
    rw [hneg]
    refine ⟨s.natAbs, by omega, ?_, rfl⟩
    have h3 : ((s.natAbs : Nat) : Int) = s := by omega
    have h4 : ((s.natAbs : Nat) : ℚ) = ((s : Int) : ℚ) := by
      rw [← Int.cast_natCast, h3]
    rw [h4]
    exact hsv

theorem bil_nat (k m : Nat) (hk1 : 8 ≤ k) (hk2 : k ≤ 24) (hm1 : 8388608 ≤ m)
    (hm2 : m < 16777216) :
    (m + 2 ^ (k - 1)) / 2 + (m + 2 ^ (k - 1)) % 2 ≤ 16777216
    ∧ (m + 2 ^ (k - 1)) / 2 ^ k * 2 ^ k ≤ 2 * ((m + 2 ^ (k - 1)) / 2)
    ∧ (16777216 ≤ m + 2 ^ (k - 1) →
        2 * ((m + 2 ^ (k - 1)) / 2 + (m + 2 ^ (k - 1)) % 2)
          < ((m + 2 ^ (k - 1)) / 2 ^ k + 1) * 2 ^ k) := by
  interval_cases k <;> norm_num <;> omega
theorem toUInt16_floor_fp (t : Nat) (q : Int) :
    Fp.toUInt16 (Fp.floor (.fin false t q)) = Fp.toUInt16 (.fin false t q) := by
  simp only [Fp.floor]
  split
  · rfl
  · rename_i h
    simp [Fp.toUInt16, h]

theorem scaled_div (a k : Nat) : (a : ℚ) * (2 : ℚ) ^ (-(k : Int)) = (a : ℚ) / (2 : ℚ) ^ k := by
  rw [zpow_neg, zpow_natCast, div_eq_mul_inv]

theorem scaled_div_succ (a k : Nat) :
    (a : ℚ) * (2 : ℚ) ^ (-(k : Int) + 1) = ((2 * a : Nat) : ℚ) / (2 : ℚ) ^ k := by
  rw [zpow_add₀ (by norm_num : (2 : ℚ) ≠ 0), zpow_neg, zpow_natCast, zpow_one]
  push_cast
  field_simp
  ring

theorem float_exponent_range (m : Nat) (e : Int) (hm1 : 8388608 ≤ m) (hm2 : m < 16777216)
    (h1 : 1 / 2 < (m : ℚ) * (2 : ℚ) ^ e) (h2 : (m : ℚ) * (2 : ℚ) ^ e < 65534) :
    -24 ≤ e ∧ e ≤ -8 := by
  have hm1q : (8388608 : ℚ) ≤ (m : ℚ) := by exact_mod_cast hm1
  have hm2q : (m : ℚ) < 16777216 := by exact_mod_cast hm2
  constructor
  · by_contra hc
    have h3 : (2 : ℚ) ^ e ≤ (2 : ℚ) ^ (-25 : Int) := zpow_le_zpow_right₀ (by norm_num) (by omega)
    have e25 : (2 : ℚ) ^ (-25 : Int) = 1 / 33554432 := by
      rw [show (-25 : Int) = -((25 : Nat) : Int) by norm_num, zpow_neg, zpow_natCast]
      norm_num
    rw [e25] at h3
    have hp : (0 : ℚ) < (2 : ℚ) ^ e := zpow_pos (by norm_num) _
    nlinarith
  · by_contra hc
    have h3 : (2 : ℚ) ^ (-7 : Int) ≤ (2 : ℚ) ^ e := zpow_le_zpow_right₀ (by norm_num) (by omega)
    have e7 : (2 : ℚ) ^ (-7 : Int) = 1 / 128 := by
      rw [show (-7 : Int) = -((7 : Nat) : Int) by norm_num, zpow_neg, zpow_natCast]
      norm_num
    rw [e7] at h3
    nlinarith

theorem bil_intval_fin (x : Float32) (neg : Bool) (m : Nat) (e : Int)
    (h : x.toFp = .fin neg m e) :
    ((bil_intval x : Nat) : Int) = max 1 (min 65534 ⌊(Fp.fin neg m e).toRat + 1 / 2⌋) := by
  obtain ⟨hc1, hc2⟩ := add_half_cases neg m e
  obtain ⟨r1, r2, r3⟩ := toFp_range x neg m e h
  rw [bil_intval, h]
  simp only [min_limit, max_limit]
  by_cases hX0 : (Fp.fin neg m e).toRat + 1 / 2 ≤ 0
  · have hle : Fp.le (Fp.toFloat32 (Fp.add64 (.fin neg m e) dbl_half)).toFp flt_min_limit.toFp
        = true := by
      rcases hc1 hX0 with h1 | h1 | ⟨Q, h1⟩
      · exact float_neg_le_one _ (Or.inl h1)
      · exact float_neg_le_one _ (Or.inr h1)
      · rw [h1]
        exact float_le_one 0 Q (by simp)
    rw [if_pos hle]
    have : ⌊(Fp.fin neg m e).toRat + 1 / 2⌋ ≤ 0 := by
      have := Int.floor_mono hX0
      simpa using this
    simp only [Nat.cast_one]
    omega
  · obtain ⟨S, hS0, hSv, hd⟩ := hc2 (not_le.mp hX0)
    have hxr : (Fp.fin neg m e).toRat ≤ (m : ℚ) * (2 : ℚ) ^ e := by
      rw [← toRat_abs neg m e]
      exact le_abs_self _
    have hxr2 : (m : ℚ) * (2 : ℚ) ^ e < (2 : ℚ) ^ (128 : Int) := by
      have h3 : (m : ℚ) < (2 : ℚ) ^ (24 : Int) := by
        rw [show (24 : Int) = ((24 : Nat) : Int) by norm_num, zpow_natCast]
        exact_mod_cast r1
      have h4 : (2 : ℚ) ^ e ≤ (2 : ℚ) ^ (104 : Int) := zpow_le_zpow_right₀ (by norm_num) r3
      have h5 : (m : ℚ) * (2 : ℚ) ^ e < (2 : ℚ) ^ (24 : Int) * (2 : ℚ) ^ (104 : Int) :=
        mul_lt_mul h3 h4 (zpow_pos (by norm_num) _) (zpow_pos (by norm_num) _).le
      rw [← zpow_add₀ (by norm_num : (2 : ℚ) ≠ 0)] at h5
      exact h5
    have hbig : (2 : ℚ) ^ (128 : Int) + 1 / 2 < (2 : ℚ) ^ (1023 : Int) := by
      have h6 : (2 : ℚ) ^ (129 : Int) ≤ (2 : ℚ) ^ (1023 : Int) :=
        zpow_le_zpow_right₀ (by norm_num) (by decide)
      have h7 : (2 : ℚ) ^ (129 : Int) = (2 : ℚ) ^ (128 : Int) * 2 := by
        rw [show (129 : Int) = 128 + 1 by norm_num, zpow_add₀ (by norm_num : (2 : ℚ) ≠ 0),
          zpow_one]
      have := two_pow_128_big
      linarith
    rw [hd, round64_fin false S _ hS0 (by rw [hSv]; linarith)]
    generalize hX : (Fp.fin neg m e).toRat + 1 / 2 = X at hX0 hSv ⊢
    by_cases hX1 : X ≤ 1
    · have hT := round_rne_le 53 (-1074) S (min e (-1)) 1 0 (by norm_num) (by decide)
        (by decide) (by rw [hSv]; simpa using hX1)
      simp only [Nat.cast_one, zpow_zero, mul_one] at hT
      rw [if_pos (float_le_one _ _ hT)]
      have : ⌊X⌋ ≤ 1 := by
        have := Int.floor_mono hX1
        simpa using this
      simp only [Nat.cast_one]
      omega
    · by_cases hX2 : 65534 ≤ X
      · have hT := round_rne_ge 53 (-1074) S (min e (-1)) 65534 0 (by norm_num) (by decide)
          (by decide) (by rw [hSv]; simpa using hX2)
        simp only [Nat.cast_ofNat, zpow_zero, mul_one] at hT
        obtain ⟨g1, g2⟩ := float_ge_max _ _ hT
        rw [g1, g2]
        simp only [Bool.false_eq_true, if_false, if_true]
        have : (65534 : Int) ≤ ⌊X⌋ := by
          rw [Int.le_floor]
          exact_mod_cast hX2
        simp only [Nat.cast_ofNat]
        omega
      · -- the sum lies strictly between 1 and 65534
        have hx1 : 1 / 2 < (Fp.fin neg m e).toRat := by linarith
        obtain ⟨hneg, hm0⟩ := toFp_fin_pos x neg m e h (by linarith)
        subst hneg
        rw [toRat_pos] at hx1 hX
        have hnorm : 8388608 ≤ m ∧ m < 16777216 := by
          rcases toFp_normal x false m e h with ⟨s1, s2⟩ | ⟨s1, s2, _, _⟩
          · exfalso
            subst s1
            have h3 : (m : ℚ) < 8388608 := by exact_mod_cast s2
            have e149 : (2 : ℚ) ^ (-149 : Int) ≤ 1 / 16777216 := by
              have : (2 : ℚ) ^ (-149 : Int) ≤ (2 : ℚ) ^ (-24 : Int) :=
                zpow_le_zpow_right₀ (by norm_num) (by decide)
              have e24 : (2 : ℚ) ^ (-24 : Int) = 1 / 16777216 := by
                rw [show (-24 : Int) = -((24 : Nat) : Int) by norm_num, zpow_neg, zpow_natCast]
                norm_num
              rw [e24] at this
              exact this
            have hp : (0 : ℚ) < (2 : ℚ) ^ (-149 : Int) := zpow_pos (by norm_num) _
            nlinarith
          · exact ⟨s1, s2⟩
        obtain ⟨he1, he2⟩ := float_exponent_range m e hnorm.1 hnorm.2 hx1
          (by linarith)
        obtain ⟨k, hk⟩ : ∃ k : Nat, e = -(k : Int) := ⟨(-e).toNat, by omega⟩
        subst hk
        have hE : min (-(k : Int)) (-1) = -(k : Int) := min_eq_left (by omega)
        rw [hE] at hSv ⊢
        have hk1 : 8 ≤ k := by omega
        have hk2 : k ≤ 24 := by omega
        have h2k : (0 : ℚ) < (2 : ℚ) ^ k := by positivity
        -- the significand of the exact sum
        have hS : S = m + 2 ^ (k - 1) := by
          rw [scaled_div] at hSv
          rw [scaled_div] at hX
          have h4 : (S : ℚ) / (2 : ℚ) ^ k = (m : ℚ) / (2 : ℚ) ^ k + 1 / 2 := by rw [hSv, hX]
          rw [div_add' _ _ _ h2k.ne', div_left_inj' h2k.ne'] at h4
          have h5 : 1 / 2 * (2 : ℚ) ^ k = (2 : ℚ) ^ (k - 1) := by
            obtain ⟨j, hj⟩ : ∃ j, k = j + 1 := ⟨k - 1, by omega⟩
            rw [hj, pow_succ, Nat.add_sub_cancel]
            ring
          rw [h5] at h4
          exact_mod_cast h4
        obtain ⟨b1, b2, b3⟩ := bil_nat k m hk1 hk2 hnorm.1 hnorm.2
        rw [← hS] at b1 b2 b3
        have hS25 : S < 33554432 := by
          have : 2 ^ (k - 1) ≤ 2 ^ 23 := Nat.pow_le_pow_right (by decide) (by omega)
          have e23 : (2 : Nat) ^ 23 = 8388608 := by norm_num
          omega
        -- the double holds the sum exactly
        have hexact := round_rne_exact 53 (-1074) S (-(k : Int)) (by
          have := bitlen_le S 25 (by norm_num; omega)
          omega)
        rw [hSv] at hexact
        generalize (round_rne 53 (-1074) S (-(k : Int))).1 = T at hexact ⊢
        generalize (round_rne 53 (-1074) S (-(k : Int))).2 = Q at hexact ⊢
        -- bounds on the float
        have hnX1 : ((S / 2 ^ k : Nat) : ℚ) ≤ X := by
          rw [← hSv, scaled_div, le_div_iff₀ h2k]
          have := Nat.div_mul_le_self S (2 ^ k)
          exact_mod_cast this
        have hnX2 : X < ((S / 2 ^ k : Nat) : ℚ) + 1 := by
          rw [← hSv, scaled_div, div_lt_iff₀ h2k]
          have := Nat.lt_mul_of_div_lt (show S / 2 ^ k < S / 2 ^ k + 1 by omega)
            (Nat.two_pow_pos k)
          exact_mod_cast this
        have hlow := round_rne_ge 24 (-149) T Q (S / 2) (-(k : Int) + 1) (by norm_num; omega)
          (by decide) (by omega) (by
            rw [hexact, ← hSv, scaled_div_succ, scaled_div]
            apply div_le_div_of_nonneg_right _ h2k.le
            have : 2 * (S / 2) ≤ S := by omega
            exact_mod_cast this)
        rw [scaled_div_succ] at hlow
        have hlow2 : ((S / 2 ^ k : Nat) : ℚ)
            ≤ ((round_rne 24 (-149) T Q).1 : ℚ) * (2 : ℚ) ^ (round_rne 24 (-149) T Q).2 := by
          refine le_trans ?_ hlow
          rw [le_div_iff₀ h2k]
          exact_mod_cast b2
        have hup2 : ((round_rne 24 (-149) T Q).1 : ℚ) * (2 : ℚ) ^ (round_rne 24 (-149) T Q).2
            < ((S / 2 ^ k : Nat) : ℚ) + 1 := by
          by_cases hsm : S < 16777216
          · have hup := round_rne_le 24 (-149) T Q S (-(k : Int)) (by norm_num; omega)
              (by decide) (by omega) (by rw [hexact, hSv])
            rw [hSv] at hup
            linarith
          · have hup := round_rne_le 24 (-149) T Q (S / 2 + S % 2) (-(k : Int) + 1)
              (by norm_num; omega) (by decide) (by omega) (by
                rw [hexact, ← hSv, scaled_div_succ, scaled_div]
                apply div_le_div_of_nonneg_right _ h2k.le
                have : S ≤ 2 * (S / 2 + S % 2) := by omega
                exact_mod_cast this)
            rw [scaled_div_succ] at hup
            refine lt_of_le_of_lt hup ?_
            rw [div_lt_iff₀ h2k]
            have := b3 (by omega)
            exact_mod_cast this
        have hn1 : 1 ≤ S / 2 ^ k := by
          have : (1 : ℚ) < ((S / 2 ^ k : Nat) : ℚ) + 1 := by linarith
          have : (0 : ℚ) < ((S / 2 ^ k : Nat) : ℚ) := by linarith
          have : 0 < S / 2 ^ k := by exact_mod_cast this
          omega
        have hn2 : S / 2 ^ k < 65534 := by
          have : ((S / 2 ^ k : Nat) : ℚ) < 65534 := by linarith
          exact_mod_cast this
        have hfloor : ⌊X⌋ = ((S / 2 ^ k : Nat) : Int) := by
          rw [Int.floor_eq_iff]
          exact ⟨by exact_mod_cast hnX1, by exact_mod_cast hnX2⟩
        obtain ⟨t2, q2, f1, f2⟩ := toFp_toFloat32 false T Q (by
          have := two_pow_128_big
          have : ((S / 2 ^ k : Nat) : ℚ) < 65534 := by exact_mod_cast hn2
          linarith)
        rw [f1, toFp_min_limit, toFp_max_limit, hfloor]
        rw [← f2] at hlow2 hup2
        by_cases hR1 : Fp.le (.fin false t2 q2) (.fin false 8388608 (-23)) = true
        · rw [if_pos hR1]
          rw [le_fin_iff, toRat_min_limit, toRat_pos] at hR1
          have : ((S / 2 ^ k : Nat) : ℚ) ≤ 1 := le_trans hlow2 hR1
          have : S / 2 ^ k ≤ 1 := by exact_mod_cast this
          simp only [Nat.cast_one]
          omega
        · rw [if_neg hR1]
          by_cases hR2 : Fp.le (.fin false 16776704 (-8)) (.fin false t2 q2) = true
          · exfalso
            rw [le_fin_iff, toRat_max_limit, toRat_pos] at hR2
            have : (65534 : ℚ) < ((S / 2 ^ k : Nat) : ℚ) + 1 := lt_of_le_of_lt hR2 hup2
            have : (65534 : ℚ) ≤ ((S / 2 ^ k : Nat) : ℚ) := by
              have : 65534 < S / 2 ^ k + 1 := by exact_mod_cast this
              have : 65534 ≤ S / 2 ^ k := by omega
              exact_mod_cast this
            have : ((S / 2 ^ k : Nat) : ℚ) < 65534 := by exact_mod_cast hn2
            linarith
          · rw [if_neg hR2, toUInt16_floor_fp, toUInt16_floor _ _ (by
              have : ((S / 2 ^ k : Nat) : ℚ) < 65534 := by exact_mod_cast hn2
              linarith)]
            have : ⌊(t2 : ℚ) * (2 : ℚ) ^ q2⌋ = ((S / 2 ^ k : Nat) : Int) := by
              rw [Int.floor_eq_iff]
              exact ⟨by exact_mod_cast hlow2, by exact_mod_cast hup2⟩
            rw [this]
            omega
theorem bil_cell_fst (st : BilScan) (x : Float32) : (bil_cell st x).1 = bil_sample x := by
  simp only [bil_sample, bil_cell]
  split <;> rfl

theorem bil_row_fst (xs : List Float32) (st : BilScan) :
    (bil_row xs st).1 = xs.map bil_sample := by
  induction xs generalizing st with
  | nil => rfl
  | cons x xs ih => simp only [bil_row, bil_cell_fst, ih, List.map_cons]

theorem shorts_to_bytes_append (be : Bool) (a b : List Nat) :
    shorts_to_bytes be (a ++ b) = shorts_to_bytes be a ++ shorts_to_bytes be b := by
  induction a with
  | nil => rfl
  | cons v vs ih =>
    rw [List.cons_append, shorts_to_bytes, shorts_to_bytes, ih, List.append_assoc]

theorem bil_rows_bytes (be : Bool) (ncols n : Nat) (ptr : List Float32) (st : BilScan) :
    (bil_rows be ncols n ptr st).1
      = shorts_to_bytes be ((ptr.take (ncols * n)).map bil_sample) := by
  induction n generalizing ptr st with
  | zero => simp [bil_rows, shorts_to_bytes]
  | succ n ih =>
    rw [bil_rows]
    simp only []
    rw [ih, bil_row_fst, ← shorts_to_bytes_append, ← List.map_append, Nat.mul_succ,
      Nat.add_comm (ncols * n) ncols, List.take_add]

theorem length_shorts_to_bytes (be : Bool) (vs : List Nat) :
    (shorts_to_bytes be vs).length = 2 * vs.length := by
  induction vs with
  | nil => rfl
  | cons v vs ih =>
    simp only [shorts_to_bytes, List.length_append, length_host_bytes, ih, List.length_cons]
    omega

theorem byte_at_shorts (be : Bool) (vs : List Nat) (k j : Nat) (hk : k < vs.length)
    (hj : j < 2) :
    byte_at (shorts_to_bytes be vs) (2 * k + j) = byte_at (host_bytes be 2 (vs.getD k 0)) j := by
  induction vs generalizing k with
  | nil => simp at hk
  | cons v vs ih =>
    rw [shorts_to_bytes]
    cases k with
    | zero =>
      rw [byte_at_append_left _ _ _ (by simpa using hj)]
      simp
    | succ k =>
      rw [byte_at_append_right _ _ _ (by simp; omega)]
      simp only [length_host_bytes, List.getD_cons_succ]
      rw [show 2 * (k + 1) + j - 2 = 2 * k + j by omega]
      exact ih k (by simpa using hk)

theorem bil_sample_nan (x : Float32) (h : flt_isnan x = true) : bil_sample x = 0 := by
  simp [bil_sample, bil_cell, h]

theorem bil_sample_inf (x : Float32) (neg : Bool) (h : x.toFp = .inf neg) :
    bil_sample x = if neg then 1 else 65534 := by
  have hn : flt_isnan x = false := by
    rw [Bool.eq_false_iff, Ne, flt_isnan_iff, h]
    simp
  simp only [bil_sample, bil_cell, hn, Bool.false_eq_true, if_false, bil_intval, h]
  cases neg <;> decide

theorem bil_sample_fin (x : Float32) (neg : Bool) (m : Nat) (e : Int)
    (h : x.toFp = .fin neg m e) :
    ((bil_sample x : Nat) : Int) = max 1 (min 65534 ⌊(Fp.fin neg m e).toRat + 1 / 2⌋) := by
  have hn : flt_isnan x = false := by
    rw [Bool.eq_false_iff, Ne, flt_isnan_iff, h]
    simp
  simp only [bil_sample, bil_cell, hn, Bool.false_eq_true, if_false]
  exact bil_intval_fin x neg m e h

theorem bil_sample_range (x : Float32) (h : flt_isnan x = false) :
    1 ≤ bil_sample x ∧ bil_sample x ≤ 65534 := by
  cases hx : x.toFp with
  | nan =>
    rw [Bool.eq_false_iff, Ne, flt_isnan_iff] at h
    exact absurd hx h
  | inf neg =>
    rw [bil_sample_inf x neg hx]
    cases neg <;> decide
  | fin neg m e =>
    have := bil_sample_fin x neg m e hx
    omega

/-- A successful `write_bil_file` returns what its row loop leaves. -/
theorem write_bil_file_ok (be : Bool) (nrows ncols : Nat) (data : List Float32)
    (w : BilWritten) (h : write_bil_file be nrows ncols data = .ok w) :
    w = ⟨(bil_rows be ncols nrows data ⟨max_limit, min_limit⟩).1, 0,
      (bil_rows be ncols nrows data ⟨max_limit, min_limit⟩).2.min_value,
      (bil_rows be ncols nrows data ⟨max_limit, min_limit⟩).2.max_value⟩ := by
  unfold write_bil_file at h
  split at h
  · cases h
  · cases h
    rfl

/-- With fewer than `2^30` columns the buffer is allocated and `write_bil_file` succeeds. -/
theorem write_bil_file_of_lt (be : Bool) (nrows ncols : Nat) (data : List Float32)
    (hc : ncols < 2 ^ 30) :
    write_bil_file be nrows ncols data
      = .ok ⟨(bil_rows be ncols nrows data ⟨max_limit, min_limit⟩).1, 0,
        (bil_rows be ncols nrows data ⟨max_limit, min_limit⟩).2.min_value,
        (bil_rows be ncols nrows data ⟨max_limit, min_limit⟩).2.max_value⟩ := by
  unfold write_bil_file
  rw [if_neg (by rw [malloc_fails_of_lt ncols 2 (by omega)]; decide)]

/-- From `2^30` columns on, within the range of an `int`, the buffer is not allocated. -/
theorem write_bil_file_of_ge (be : Bool) (nrows ncols : Nat) (data : List Float32)
    (h1 : 2 ^ 30 ≤ ncols) (h2 : ncols < 2 ^ 31) :
    write_bil_file be nrows ncols data = .error .alloc := by
  unfold write_bil_file
  rw [if_pos (malloc_fails_of_ge ncols 2 (by omega) (by omega))]

theorem bil_sample_in_file (be : Bool) (nrows ncols : Nat) (data : List Float32)
    (hlen : data.length = nrows * ncols) (w : BilWritten)
    (hok : write_bil_file be nrows ncols data = .ok w) (k : Nat) (hk : k < nrows * ncols) :
    read_uint be w.bytes (2 * k) 2 = bil_sample (data.getD k 0) := by
  have hb : w.bytes = shorts_to_bytes be (data.map bil_sample) := by
    rw [write_bil_file_ok be nrows ncols data w hok]
    simp only []
    rw [bil_rows_bytes, Nat.mul_comm ncols nrows, ← hlen, List.take_length]
  have hget : (data.map bil_sample).getD k 0 = bil_sample (data.getD k 0) := by
    rw [List.getD_eq_getElem?_getD, List.getD_eq_getElem?_getD, List.getElem?_map]
    rw [List.getElem?_eq_getElem (by omega)]
    rfl
  rw [hb]
  have h := read_uint_host_bytes be (shorts_to_bytes be (data.map bil_sample)) (2 * k) 2
    (bil_sample (data.getD k 0)) (fun j hj => by
      rw [byte_at_shorts be _ k j (by rw [List.length_map]; omega) hj, hget])
  rw [h]
  apply Nat.mod_eq_of_lt
  by_cases hn : flt_isnan (data.getD k 0) = true
  · rw [bil_sample_nan _ hn]
    decide
  · have := bil_sample_range _ (Bool.eq_false_iff.mpr hn)
    omega

/-- C15, as stated, does not hold for every grid. For one row of `2^30` columns the `int`
that holds the size of the row buffer, `ncols * sizeof(unsigned short)`, is negative,
`malloc` fails, and `write_bil_file` stops with the memory allocation error: it returns
no nodata value and writes no sample. -/
theorem bil_not_written_for_wide_row :
    int_bufsize 1073741824 2 = -2147483648
    ∧ write_bil_file false 1 1073741824 (List.replicate 1073741824 0) = .error .alloc := by
  decide

/-- C15, amended. `write_bil_file`, given `nrows * ncols` values, succeeds for every
`ncols` below `2^30` and stops with the memory allocation error for `ncols` from `2^30`
on, within the range of an `int`.  Whenever it succeeds it returns `nodata = 0` and has
written `nrows * ncols` 16-bit samples; sample `k` comes from `data[k]` and is 0 for a
NaN, 1 or 65534 for minus or plus infinity, and for a finite value `x` the floor of
`x + 1/2` clamped to 1 .. 65534.  So a sample is 0 exactly when the value is a NaN, and
no sample is 65535. -/
theorem bil_quantisation (be : Bool) (nrows ncols : Nat) (data : List Float32)
    (hlen : data.length = nrows * ncols) :
    (ncols < 2 ^ 30 → ∃ w, write_bil_file be nrows ncols data = .ok w)
    ∧ (2 ^ 30 ≤ ncols → ncols < 2 ^ 31 → write_bil_file be nrows ncols data = .error .alloc)
    ∧ ∀ w, write_bil_file be nrows ncols data = .ok w →
      w.nodata = 0
      ∧ w.bytes.length = 2 * (nrows * ncols)
      ∧ ∀ k, k < nrows * ncols →
          (flt_isnan (data.getD k 0) = true → read_uint be w.bytes (2 * k) 2 = 0)
          ∧ (∀ neg, (data.getD k 0).toFp = .inf neg →
            read_uint be w.bytes (2 * k) 2 = if neg then 1 else 65534)
          ∧ (∀ neg m e, (data.getD k 0).toFp = .fin neg m e →
            ((read_uint be w.bytes (2 * k) 2 : Nat) : Int)
              = max 1 (min 65534 ⌊(Fp.fin neg m e).toRat + 1 / 2⌋))
          ∧ (read_uint be w.bytes (2 * k) 2 = 0 ↔ flt_isnan (data.getD k 0) = true)
          ∧ read_uint be w.bytes (2 * k) 2 ≠ 65535 := by
  refine ⟨fun hc => ⟨_, write_bil_file_of_lt be nrows ncols data hc⟩,
    write_bil_file_of_ge be nrows ncols data, fun w hok => ⟨?_, ?_, ?_⟩⟩
  · rw [write_bil_file_ok be nrows ncols data w hok]
  · rw [write_bil_file_ok be nrows ncols data w hok]
    simp only []
    rw [bil_rows_bytes, Nat.mul_comm ncols nrows, ← hlen, List.take_length,
      length_shorts_to_bytes, List.length_map]
  · intro k hk
    rw [bil_sample_in_file be nrows ncols data hlen w hok k hk]
    refine ⟨bil_sample_nan _, bil_sample_inf _, bil_sample_fin _, ?_, ?_⟩
    · constructor
      · intro h0
        by_contra hn
        have := bil_sample_range _ (Bool.eq_false_iff.mpr hn)
        omega
      · exact bil_sample_nan _
    · by_cases hn : flt_isnan (data.getD k 0) = true
      · rw [bil_sample_nan _ hn]
        decide
      · have := bil_sample_range _ (Bool.eq_false_iff.mpr hn)
        omega

/-- C15, witness: the 2x2 grid NaN, 0.4, 2.5, 70000.0 on a little-endian host gives the
samples 0, 1, 3, 65534. -/
theorem bil_quantisation_witness :
    ([2143289344, 1053609165, 1075838976, 1200142336] : List Float32).length = 2 * 2
    ∧ write_bil_file false 2 2 [2143289344, 1053609165, 1075838976, 1200142336]
        = .ok ⟨[0, 0, 1, 0, 3, 0, 254, 255], 0, 1, 65534⟩
    ∧ (⟨[0, 0, 1, 0, 3, 0, 254, 255], 0, 1, 65534⟩ : BilWritten).nodata = 0
    ∧ (⟨[0, 0, 1, 0, 3, 0, 254, 255], 0, 1, 65534⟩ : BilWritten).bytes.length = 2 * (2 * 2) :=
  ⟨by decide, by decide,
    ((bil_quantisation false 2 2 [2143289344, 1053609165, 1075838976, 1200142336]
      (by decide)).2.2 ⟨[0, 0, 1, 0, 3, 0, 254, 255], 0, 1, 65534⟩ (by decide)).1,
    ((bil_quantisation false 2 2 [2143289344, 1053609165, 1075838976, 1200142336]
      (by decide)).2.2 ⟨[0, 0, 1, 0, 3, 0, 254, 255], 0, 1, 65534⟩ (by decide)).2.1⟩

theorem zero_fill_of_le (bytes : List Byte) (pos : Nat) (h : pos ≤ bytes.length) :
    zero_fill bytes pos = bytes.take pos := by
  simp [zero_fill, Nat.sub_eq_zero_of_le h]

theorem length_fwrite (bs : List Byte) (f : FileState) (hbs : bs ≠ []) :
    (fwrite bs f).bytes.length = max f.bytes.length (f.pos + bs.length) := by
  simp only [fwrite, if_neg hbs, List.length_append, length_zero_fill, List.length_drop]
  omega

theorem overlay_fwrite (cb bs : List Byte) (f g : FileState) (h : Overlay cb f g) :
    Overlay cb (fwrite bs f) (fwrite bs g) := by
  obtain ⟨h1, h2, h3⟩ := h
  by_cases hbs : bs = []
  · subst hbs
    simp only [fwrite_nil]
    exact ⟨h1, h2, h3⟩
  · have hlg : f.pos ≤ g.bytes.length := by
      rw [h3, List.length_append]
      omega
    refine ⟨by simp [h1], ?_, ?_⟩
    · rw [length_fwrite bs f hbs, fwrite_pos]
      omega
    · rw [length_fwrite bs f hbs]
      simp only [fwrite, if_neg hbs, h1]
      rw [zero_fill_of_le _ _ h2, zero_fill_of_le _ _ hlg, h3, List.take_append_of_le_length h2,
        List.drop_append_eq_append_drop, List.drop_drop, List.append_assoc, List.append_assoc]
      have e : f.bytes.length + (f.pos + bs.length - f.bytes.length)
          = max f.bytes.length (f.pos + bs.length) := by omega
      rw [e, List.append_assoc]

theorem overlay_seek_back (cb : List Byte) (f g : FileState) (d : Int) (hd : d ≤ 0)
    (h : Overlay cb f g) : Overlay cb (fseek_cur f d) (fseek_cur g d) := by
  obtain ⟨h1, h2, h3⟩ := h
  refine ⟨by simp [fseek_cur, h1], ?_, h3⟩
  simp only [fseek_cur]
  omega

theorem overlay_done (cb : List Byte) (f g : FileState) (h : Overlay cb f g)
    (hlen : cb.length ≤ f.pos) : g = f := by
  obtain ⟨h1, h2, h3⟩ := h
  rw [List.drop_eq_nil_of_le (by omega), List.append_nil] at h3
  cases f
  cases g
  simp only at h1 h3
  rw [h1, h3]

theorem extent_fwrite (bs : List Byte) (f : FileState) :
    max (fwrite bs f).pos (fwrite bs f).bytes.length ≤ max f.pos f.bytes.length + bs.length := by
  by_cases hbs : bs = []
  · subst hbs
    simp
  · rw [length_fwrite bs f hbs, fwrite_pos]
    omega

theorem extent_seek (f : FileState) (d : Int) :
    max (fseek_cur f d).pos (fseek_cur f d).bytes.length
      ≤ max f.pos f.bytes.length + d.toNat := by
  simp only [fseek_cur_pos, fseek_cur_bytes]
  omega

theorem extent_tiff_call (be : Bool) (c : TiffCall) (f : FileState) :
    max (c.run be f).pos (c.run be f).bytes.length ≤ max f.pos f.bytes.length + c.growth := by
  cases c with
  | plain tag type length offset =>
    simp only [TiffCall.run, TiffCall.growth, WriteTIFFTag_eq_fwrite]
    have := extent_fwrite (tiff_entry_bytes be tag type length offset) f
    rw [length_tiff_entry_bytes] at this
    exact this
  | ascii tag s count offset =>
    simp only [TiffCall.run, TiffCall.growth, WriteTIFFAsciiTag]
    split
    · omega
    · have h1 := extent_fwrite (tiff_entry_bytes be Software TIFFascii count offset) f
      rw [length_tiff_entry_bytes] at h1
      simp only [WriteTIFFTag_eq_fwrite, WriteString_eq_fwrite]
      split
      · omega
      · rename_i hc
        have h2 := extent_seek (fwrite (tiff_entry_bytes be Software TIFFascii count offset) f)
          (-4)
        have h3 := extent_fwrite ((s ++ [0]).take count ++ [0])
          (fseek_cur (fwrite (tiff_entry_bytes be Software TIFFascii count offset) f) (-4))
        have h4 := extent_seek (fwrite ((s ++ [0]).take count ++ [0])
          (fseek_cur (fwrite (tiff_entry_bytes be Software TIFFascii count offset) f) (-4)))
          (((4 - count) &&& 2 : Nat) : Int)
        have h5 : (4 - count) &&& 2 ≤ 2 := Nat.and_le_right
        have h6 : ((s ++ [0]).take count ++ [0]).length ≤ 5 := by
          simp only [List.length_append, List.length_take, List.length_cons, List.length_nil]
          omega
        have h7 : (-4 : Int).toNat = 0 := rfl
        omega

theorem extent_foldl (be : Bool) (cs : List TiffCall) (f : FileState) :
    max (cs.foldl (TiffCall.run be) f).pos (cs.foldl (TiffCall.run be) f).bytes.length
      ≤ max f.pos f.bytes.length + (cs.map TiffCall.growth).sum := by
  induction cs generalizing f with
  | nil => simp
  | cons c cs ih =>
    simp only [List.foldl_cons, List.map_cons, List.sum_cons]
    have h1 := ih (TiffCall.run be f c)
    have h2 := extent_tiff_call be c f
    omega

theorem tiff_calls_growth (width height : Nat) (sw : Option (List Byte)) :
    ((tiff_calls width height sw).map TiffCall.growth).sum ≤ 175 := by
  simp only [tiff_calls, tiff_calls_a, tiff_calls_b]
  split <;> simp [TiffCall.growth]

theorem classic_length_le (be : Bool) (width height : Nat) (sw : Option (List Byte)) :
    (tiff_directory be ⟨[], 0⟩ width height sw).1.bytes.length
      ≤ (software_bytes be sw).length + 205 := by
  rw [tiff_directory_eq]
  simp only []
  have h1 := extent_fwrite (host_bytes be 4 0)
    ((tiff_calls width height sw).foldl (TiffCall.run be) (tiff_before_entries be ⟨[], 0⟩ sw))
  have h2 := extent_foldl be (tiff_calls width height sw) (tiff_before_entries be ⟨[], 0⟩ sw)
  have h3 := tiff_calls_growth width height sw
  have h4 : max (tiff_before_entries be ⟨[], 0⟩ sw).pos
      (tiff_before_entries be ⟨[], 0⟩ sw).bytes.length ≤ 24 + (software_bytes be sw).length + 2 := by
    simp only [tiff_before_entries, WriteWord, tiff_header_eq_fwrite]
    have h5 := extent_fwrite (host_bytes be 2 (tag_count sw))
      (fwrite (tiff_header_bytes be sw) ⟨[], 0⟩)
    have h6 := extent_fwrite (tiff_header_bytes be sw) ⟨[], 0⟩
    rw [length_tiff_header_bytes] at h6
    rw [length_host_bytes] at h5
    simp only [List.length_nil, Nat.max_self, Nat.zero_add] at h6
    omega
  rw [length_host_bytes] at h1
  omega

theorem overlay_big_call (be : Bool) (cb : List Byte) (c : BigTiffCall) (hc : c.not_ascii)
    (f g : FileState) (h : Overlay cb f g) : Overlay cb (c.run be f) (c.run be g) := by
  cases c with
  | plain tag type length offset =>
    simp only [BigTiffCall.run, WriteBigTIFFTag_eq_fwrite]
    exact overlay_fwrite _ _ _ _ h
  | ascii tag s count offset => exact absurd hc (by simp [BigTiffCall.not_ascii])
  | rational tag num den =>
    simp only [BigTiffCall.run, WriteBigTIFFTag_eq_fwrite, WriteLong]
    exact overlay_fwrite _ _ _ _ (overlay_fwrite _ _ _ _
      (overlay_seek_back _ _ _ _ (by decide) (overlay_fwrite _ _ _ _ h)))

theorem overlay_big_calls (be : Bool) (cb : List Byte) (cs : List BigTiffCall)
    (hcs : ∀ c ∈ cs, c.not_ascii) (f g : FileState) (h : Overlay cb f g) :
    Overlay cb (cs.foldl (BigTiffCall.run be) f) (cs.foldl (BigTiffCall.run be) g) := by
  induction cs generalizing f g with
  | nil => exact h
  | cons c cs ih =>
    simp only [List.foldl_cons]
    exact ih (fun d hd => hcs d (List.mem_cons_of_mem _ hd)) _ _
      (overlay_big_call be cb c (hcs c (List.mem_cons_self _ _)) f g h)

theorem bigtiff_calls_split (width height : Nat) (sw : Option (List Byte)) :
    bigtiff_calls width height sw
      = (bigtiff_calls_a width height ++ bigtiff_calls_mid height (write_count width height))
        ++ bigtiff_calls_end sw := by
  simp only [bigtiff_calls, bigtiff_calls_b, bigtiff_calls_mid, bigtiff_calls_end,
    List.append_assoc]

theorem bigtiff_calls_mid_pos (be : Bool) (f : FileState) (height lwc : Nat) :
    ((bigtiff_calls_mid height lwc).foldl (BigTiffCall.run be) f).pos = f.pos + 120 := by
  simp only [bigtiff_calls_mid, List.foldl_cons, List.foldl_nil, BigTiffCall.run,
    WriteBigTIFFTag_eq_fwrite, WriteLong, fwrite_pos, fseek_cur_pos, length_bigtiff_entry_bytes,
    length_host_bytes]
  omega

theorem bigtiff_twelve_not_ascii (width height lwc : Nat) :
    ∀ c ∈ bigtiff_calls_a width height ++ bigtiff_calls_mid height lwc, c.not_ascii := by
  intro c hc
  simp only [bigtiff_calls_a, bigtiff_calls_mid, List.cons_append, List.nil_append,
    List.mem_cons, List.mem_singleton, List.not_mem_nil, or_false] at hc
  rcases hc with h | h | h | h | h | h | h | h | h | h | h | h <;> subst h <;> trivial

/-- The BigTIFF directory written over the abandoned classic file is the one written to an
empty file. -/
theorem bigtiff_directory_over_classic (be : Bool) (width height : Nat)
    (sw : Option (List Byte)) :
    bigtiff_directory be (rewind (tiff_directory be ⟨[], 0⟩ width height sw).1) width height sw
      = bigtiff_directory be ⟨[], 0⟩ width height sw := by
  have hlen := classic_length_le be width height sw
  generalize (tiff_directory be ⟨[], 0⟩ width height sw).1 = c at hlen
  have h0 : Overlay c.bytes ⟨[], 0⟩ (rewind c) := ⟨rfl, Nat.le_refl _, by simp⟩
  have h1 : Overlay c.bytes (bigtiff_before_entries be ⟨[], 0⟩ sw)
      (bigtiff_before_entries be (rewind c) sw) := by
    simp only [bigtiff_before_entries, Write8Byte, bigtiff_header_eq_fwrite]
    exact overlay_fwrite _ _ _ _ (overlay_fwrite _ _ _ _ h0)
  have h2 := overlay_big_calls be c.bytes _ (bigtiff_twelve_not_ascii width height
    (write_count width height)) _ _ h1
  have hp1 := bigtiff_before_entries_pos be ⟨[], 0⟩ sw
  have hp2 := bigtiff_before_entries_pos be (rewind c) sw
  have hpos : ((bigtiff_calls_a width height
      ++ bigtiff_calls_mid height (write_count width height)).foldl (BigTiffCall.run be)
        (bigtiff_before_entries be ⟨[], 0⟩ sw)).pos
      = (bigtiff_before_entries be ⟨[], 0⟩ sw).pos + 240 := by
    rw [List.foldl_append, bigtiff_calls_mid_pos, bigtiff_calls_a_pos]
  have h3 := overlay_done _ _ _ h2 (by rw [hpos, hp1]; simp only []; omega)
  rw [bigtiff_directory_eq, bigtiff_directory_eq, bigtiff_calls_split]
  simp only [List.foldl_append] at h3 ⊢
  rw [h3, hp1, hp2]
  rfl

theorem block_in_finished_file {α : Type} (be : Bool) (run : FileState → α → FileState)
    (tag : α → Nat) (lo hi : Nat) (hlo : 2 ≤ lo) (a : List α) (c : α) (b : List α)
    (blk : List Byte) (hall : ∀ d ∈ b, EntryStep be (tag d) lo hi (fun f => run f d))
    (hc : ∀ f, run f c = fwrite blk f) (f0 : FileState) (z : List Byte)
    (off width height : Nat) (data : List Float32) (hoff : off + 4 ≤ (a.foldl run f0).pos) :
    ∀ j, j < blk.length →
      byte_at (patch_and_payload be (fwrite z ((a ++ c :: b).foldl run f0)) off width height
        data).1.bytes ((a.foldl run f0).pos + j) = byte_at blk j := by
  intro j hj
  rw [List.foldl_append, List.foldl_cons, hc]
  obtain ⟨b1, _, b3, _⟩ := steps_spec be run tag lo hi hlo b hall (fwrite blk (a.foldl run f0))
  rw [fwrite_pos] at b1 b3
  have hz := fwrite_untouched z (b.foldl run (fwrite blk (a.foldl run f0)))
  obtain ⟨p1, _, _, _⟩ := patch_and_payload_spec be
    (fwrite z (b.foldl run (fwrite blk (a.foldl run f0)))) off width height data
    (by rw [fwrite_pos]; omega)
  rw [p1 _ (by rw [fwrite_pos]; omega) (Or.inr (by omega)), hz _ (by omega), b3 _ (by omega)]
  exact fwrite_written blk (a.foldl run f0) j hj
theorem tiff_calls_around_counts (be : Bool) (width height : Nat) (sw : Option (List Byte)) :
    ∃ a b, tiff_calls width height sw
        = a ++ TiffCall.plain StripByteCounts TIFFlong 1 (write_count width height) :: b
      ∧ ∀ f, (a.foldl (TiffCall.run be) f).pos = f.pos + 96 := by
  refine ⟨tiff_calls_a width height
      ++ [.plain SamplesPerPixel TIFFshort 1 1, .plain RowsPerStrip TIFFlong 1 height],
    [.plain XResolution TIFFrational 1 8, .plain YResolution TIFFrational 1 16,
      .plain ResolutionUnit TIFFshort 1 2]
    ++ (if software_count sw ≠ 0 then
          [.ascii Software (sw.getD []) (software_count sw) 24]
        else [])
    ++ [.plain TIFFTAG_SAMPLEFORMAT TIFFshort 1 SAMPLEFORMAT_UINT], ?_, ?_⟩
  · simp only [tiff_calls, tiff_calls_b, List.append_assoc, List.cons_append, List.nil_append]
  · intro f
    simp only [tiff_calls_a, List.cons_append, List.nil_append, List.foldl_cons, List.foldl_nil,
      TiffCall.run, WriteTIFFTag_eq_fwrite, fwrite_pos, length_tiff_entry_bytes]

theorem bigtiff_calls_around_counts (be : Bool) (width height : Nat) (sw : Option (List Byte)) :
    ∃ a b, bigtiff_calls width height sw
        = a ++ BigTiffCall.plain StripByteCounts TIFFlong8 1 (write_count width height) :: b
      ∧ ∀ f, (a.foldl (BigTiffCall.run be) f).pos = f.pos + 160 := by
  refine ⟨bigtiff_calls_a width height
      ++ [.plain SamplesPerPixel TIFFshort 1 1, .plain RowsPerStrip TIFFlong 1 height],
    [.rational XResolution (72 * 0x02710) 0x02710, .rational YResolution (72 * 0x02710) 0x02710,
      .plain ResolutionUnit TIFFshort 1 2]
    ++ (if software_count sw ≠ 0 then
          [.ascii Software (sw.getD []) (software_count sw) 24]
        else [])
    ++ [.plain TIFFTAG_SAMPLEFORMAT TIFFshort 1 SAMPLEFORMAT_UINT], ?_, ?_⟩
  · simp only [bigtiff_calls, bigtiff_calls_b, List.append_assoc, List.cons_append,
      List.nil_append]
  · intro f
    simp only [bigtiff_calls_a, List.cons_append, List.nil_append, List.foldl_cons,
      List.foldl_nil, BigTiffCall.run, WriteBigTIFFTag_eq_fwrite, fwrite_pos,
      length_bigtiff_entry_bytes]

theorem write_count_eq (width height : Nat) (hw : width < 2 ^ 31) (hh : height < 2 ^ 31) :
    write_count width height = width * height * 2 := by
  have hmul : height * width < 2 ^ 62 := by
    calc height * width ≤ (2 ^ 31 - 1) * (2 ^ 31 - 1) :=
          Nat.mul_le_mul (by omega) (by omega)
      _ < 2 ^ 62 := by norm_num
  rw [write_count, Nat.mod_eq_of_lt (by omega), Nat.mul_comm height width]

theorem classic_counts_entry (be : Bool) (width height : Nat) (data : List Float32)
    (sw : Option (List Byte)) (hFile : FileState) :
    read_entry be (patch_and_payload be (tiff_directory be hFile width height sw).1
        (tiff_directory be hFile width height sw).2 width height data).1.bytes
        ((tiff_before_entries be hFile sw).pos + 96)
      = ⟨StripByteCounts, TIFFlong, 1, write_count width height % 2 ^ 32⟩ := by
  obtain ⟨a, b, hab, hpos⟩ := tiff_calls_around_counts be width height sw
  have hall : ∀ d ∈ b, EntryStep be d.tagId 12 13 (fun f => TiffCall.run be f d) := by
    intro d hd
    apply tiff_calls_entry_steps be width height sw
    rw [hab]
    exact List.mem_append_right _ (List.mem_cons_of_mem _ hd)
  have hblk := block_in_finished_file be (TiffCall.run be) TiffCall.tagId 12 13 (by omega)
    a (.plain StripByteCounts TIFFlong 1 (write_count width height)) b
    (tiff_entry_bytes be StripByteCounts TIFFlong 1 (write_count width height)) hall
    (fun f => by rw [TiffCall.run, WriteTIFFTag_eq_fwrite]) (tiff_before_entries be hFile sw)
    (host_bytes be 4 0) ((tiff_before_entries be hFile sw).pos + 68) width height data
    (by rw [hpos]; omega)
  rw [tiff_directory_eq, hab]
  rw [hpos] at hblk
  rw [read_entry_of_block be _ _ StripByteCounts TIFFlong 1
    (host_bytes be 4 (write_count width height)) (fun j hj => by
      rw [hblk j (by rw [length_tiff_entry_bytes]; exact hj)]
      rfl) (by decide) (by decide) (by decide)]
  rw [if_neg (by decide)]
  congr 1
  have := read_uint_host_bytes_zero be 4 (write_count width height) []
  rw [List.append_nil] at this
  rw [this]
  norm_num

theorem bigtiff_counts_entry (be : Bool) (width height : Nat) (data : List Float32)
    (sw : Option (List Byte)) (hFile : FileState) :
    read_uint be (WriteGrayscale16BitToBigTIFF be hFile width height data sw).file.bytes
        ((bigtiff_before_entries be hFile sw).pos + 160) 2 = StripByteCounts
    ∧ read_uint be (WriteGrayscale16BitToBigTIFF be hFile width height data sw).file.bytes
        ((bigtiff_before_entries be hFile sw).pos + 160 + 2) 2 = TIFFlong8
    ∧ read_uint be (WriteGrayscale16BitToBigTIFF be hFile width height data sw).file.bytes
        ((bigtiff_before_entries be hFile sw).pos + 160 + 4) 8 = 1
    ∧ read_uint be (WriteGrayscale16BitToBigTIFF be hFile width height data sw).file.bytes
        ((bigtiff_before_entries be hFile sw).pos + 160 + 12) 8 = write_count width height := by
  obtain ⟨a, b, hab, hpos⟩ := bigtiff_calls_around_counts be width height sw
  have hall : ∀ d ∈ b, EntryStep be d.tagId 20 21 (fun f => BigTiffCall.run be f d) := by
    intro d hd
    apply bigtiff_calls_entry_steps be width height sw
    rw [hab]
    exact List.mem_append_right _ (List.mem_cons_of_mem _ hd)
  have hblk := block_in_finished_file be (BigTiffCall.run be) BigTiffCall.tagId 20 21 (by omega)
    a (.plain StripByteCounts TIFFlong8 1 (write_count width height)) b
    (bigtiff_entry_bytes be StripByteCounts TIFFlong8 1 (write_count width height)) hall
    (fun f => by rw [BigTiffCall.run, WriteBigTIFFTag_eq_fwrite])
    (bigtiff_before_entries be hFile sw) (host_bytes be 8 0)
    ((bigtiff_before_entries be hFile sw).pos + 112) width height data (by rw [hpos]; omega)
  rw [hpos, length_bigtiff_entry_bytes] at hblk
  have hb : bigtiff_entry_bytes be StripByteCounts TIFFlong8 1 (write_count width height)
      = host_bytes be 2 StripByteCounts ++ (host_bytes be 2 TIFFlong8 ++ (host_bytes be 8 1
        ++ host_bytes be 8 (write_count width height))) := by
    rw [bigtiff_entry_bytes, if_neg (by decide), if_neg (by decide)]
  rw [hb] at hblk
  simp only [WriteGrayscale16BitToBigTIFF]
  rw [bigtiff_directory_eq, hab]
  refine ⟨?_, ?_, ?_, ?_⟩
  · rw [read_uint_host_bytes be _ _ 2 StripByteCounts (fun j hj => by
      rw [hblk j (by omega), byte_at_append_left _ _ _ (by simpa using hj)])]
    decide
  · rw [read_uint_host_bytes be _ _ 2 TIFFlong8 (fun j hj => by
      rw [Nat.add_assoc, hblk (2 + j) (by omega),
        byte_at_append_right _ _ _ (by rw [length_host_bytes]; omega), length_host_bytes,
        byte_at_append_left _ _ _ (by rw [length_host_bytes]; omega)]
      congr 1
      omega)]
    decide
  · rw [read_uint_host_bytes be _ _ 8 1 (fun j hj => by
      rw [Nat.add_assoc, hblk (4 + j) (by omega),
        byte_at_append_right _ _ _ (by rw [length_host_bytes]; omega), length_host_bytes,
        byte_at_append_right _ _ _ (by rw [length_host_bytes]; omega), length_host_bytes,
        byte_at_append_left _ _ _ (by rw [length_host_bytes]; omega)]
      congr 1
      omega)]
    decide
  · rw [read_uint_host_bytes be _ _ 8 (write_count width height) (fun j hj => by
      rw [Nat.add_assoc, hblk (12 + j) (by omega),
        byte_at_append_right _ _ _ (by rw [length_host_bytes]; omega), length_host_bytes,
        byte_at_append_right _ _ _ (by rw [length_host_bytes]; omega), length_host_bytes,
        byte_at_append_right _ _ _ (by rw [length_host_bytes]; omega), length_host_bytes]
      congr 1
      omega)]
    exact Nat.mod_eq_of_lt (by
      rw [write_count]
      exact lt_of_lt_of_le (Nat.mod_lt _ (by norm_num)) (by norm_num))

/-- C11. On an empty sink, for `width` and `height` in the range of an `int` and a software
string that fits an `int`: when `WriteGrayscale16BitToTIFF` writes a classic file, its
ninth directory entry is `StripByteCounts`, a single LONG whose 32-bit value is
`width * height * 2`, a number below `2^32`; when it writes a BigTIFF file, the ninth entry
is `StripByteCounts`, a single LONG8 whose 64-bit value is `width * height * 2`. -/
theorem strip_byte_counts_exact (be : Bool) (width height : Nat) (data : List Float32)
    (sw : Option (List Byte)) (hw : width < 2 ^ 31) (hh : height < 2 ^ 31)
    (hs : software_strlen sw + 2 < 2 ^ 31) :
    (too_big_for_tiff (((tiff_directory be ⟨[], 0⟩ width height sw).1.pos
        + write_count width height) % 2 ^ 64) = false →
      read_entry be (WriteGrayscale16BitToTIFF be ⟨[], 0⟩ width height data sw).file.bytes
          ((tiff_header be ⟨[], 0⟩ sw).pos + 2 + 12 * 8)
        = ⟨StripByteCounts, TIFFlong, 1, width * height * 2⟩
      ∧ width * height * 2 < 2 ^ 32)
    ∧ (too_big_for_tiff (((tiff_directory be ⟨[], 0⟩ width height sw).1.pos
        + write_count width height) % 2 ^ 64) = true →
      read_uint be (WriteGrayscale16BitToTIFF be ⟨[], 0⟩ width height data sw).file.bytes
          ((bigtiff_header be ⟨[], 0⟩ sw).pos + 8 + 20 * 8) 2 = StripByteCounts
      ∧ read_uint be (WriteGrayscale16BitToTIFF be ⟨[], 0⟩ width height data sw).file.bytes
          ((bigtiff_header be ⟨[], 0⟩ sw).pos + 8 + 20 * 8 + 2) 2 = TIFFlong8
      ∧ read_uint be (WriteGrayscale16BitToTIFF be ⟨[], 0⟩ width height data sw).file.bytes
          ((bigtiff_header be ⟨[], 0⟩ sw).pos + 8 + 20 * 8 + 4) 8 = 1
      ∧ read_uint be (WriteGrayscale16BitToTIFF be ⟨[], 0⟩ width height data sw).file.bytes
          ((bigtiff_header be ⟨[], 0⟩ sw).pos + 8 + 20 * 8 + 12) 8 = width * height * 2) := by
  have hwc := write_count_eq width height hw hh
  constructor
  · intro hsmall
    have hsb := length_software_bytes_le be sw
    have hf0 := tiff_before_entries_pos be ⟨[], 0⟩ sw
    obtain ⟨e1, e2⟩ := tiff_entries_end_pos be ⟨[], 0⟩ width height sw
    have hpos : (tiff_directory be ⟨[], 0⟩ width height sw).1.pos
        = ((tiff_calls width height sw).foldl (TiffCall.run be)
            (tiff_before_entries be ⟨[], 0⟩ sw)).pos + 4 := by
      rw [tiff_directory_eq, fwrite_pos, length_host_bytes]
    have hiff := too_big_for_tiff_iff (tiff_directory be ⟨[], 0⟩ width height sw).1.pos width
      height hw hh (by omega) (by simp only [] at hf0; omega)
    have hfit : width * height * 2 < 2 ^ 32 := by
      by_contra hc
      have : too_big_for_tiff (((tiff_directory be ⟨[], 0⟩ width height sw).1.pos
          + write_count width height) % 2 ^ 64) = true := hiff.mpr (by omega)
      rw [hsmall] at this
      exact absurd this (by decide)
    refine ⟨?_, hfit⟩
    have hp : (tiff_header be ⟨[], 0⟩ sw).pos + 2 + 12 * 8
        = (tiff_before_entries be ⟨[], 0⟩ sw).pos + 96 := by
      simp only [tiff_before_entries, WriteWord, fwrite_pos, length_host_bytes]
    simp only [WriteGrayscale16BitToTIFF, hsmall, Bool.false_eq_true, if_false]
    rw [hp, classic_counts_entry, hwc, Nat.mod_eq_of_lt hfit]
  · intro hbig
    have hp : (bigtiff_header be ⟨[], 0⟩ sw).pos + 8 + 20 * 8
        = (bigtiff_before_entries be (rewind (tiff_directory be ⟨[], 0⟩ width height sw).1)
            sw).pos + 160 := by
      rw [bigtiff_before_entries_pos, bigtiff_header_eq_fwrite, fwrite_pos,
        length_bigtiff_header_bytes, rewind_pos]
      simp only []
      omega
    simp only [WriteGrayscale16BitToTIFF, hbig, if_true]
    rw [hp, ← hwc]
    exact bigtiff_counts_entry be width height data sw _

/-- C11, witness: the 1x1 image without software string on a little-endian host is a
classic file, and its entry at offset 124 is `StripByteCounts` with the value 2. -/
theorem strip_byte_counts_exact_witness :
    ((1 : Nat) < 2 ^ 31 ∧ software_strlen none + 2 < 2 ^ 31
      ∧ too_big_for_tiff (((tiff_directory false ⟨[], 0⟩ 1 1 none).1.pos + write_count 1 1)
          % 2 ^ 64) = false)
    ∧ read_entry false (WriteGrayscale16BitToTIFF false ⟨[], 0⟩ 1 1 [1120403456] none).file.bytes
        ((tiff_header false ⟨[], 0⟩ none).pos + 2 + 12 * 8)
      = ⟨StripByteCounts, TIFFlong, 1, 1 * 1 * 2⟩
    ∧ (tiff_header false ⟨[], 0⟩ none).pos + 2 + 12 * 8 = 124 :=
  ⟨by decide,
    ((strip_byte_counts_exact false 1 1 [1120403456] none (by decide) (by decide)
      (by decide)).1 (by decide)).1,
    by decide⟩

/-- C12. For every input on which the size check of `WriteGrayscale16BitToTIFF` triggers
on an initially empty file, the file it leaves is byte for byte the file that
`WriteGrayscale16BitToBigTIFF` writes to an empty file with the same arguments (nothing of
the abandoned classic header is left), the file position is the same, and so is the
reported `fileSize`.  (In this embedding no write fails, so both calls return 0.) -/
theorem tiff_fallback_is_bigtiff (be : Bool) (width height : Nat) (data : List Float32)
    (sw : Option (List Byte))
    (htrig : too_big_for_tiff (((tiff_directory be ⟨[], 0⟩ width height sw).1.pos
      + write_count width height) % 2 ^ 64) = true) :
    (WriteGrayscale16BitToTIFF be ⟨[], 0⟩ width height data sw).file.bytes
      = (WriteGrayscale16BitToBigTIFF be ⟨[], 0⟩ width height data sw).file.bytes
    ∧ (WriteGrayscale16BitToTIFF be ⟨[], 0⟩ width height data sw).file.pos
      = (WriteGrayscale16BitToBigTIFF be ⟨[], 0⟩ width height data sw).file.pos
    ∧ (WriteGrayscale16BitToTIFF be ⟨[], 0⟩ width height data sw).fileSize
      = (WriteGrayscale16BitToBigTIFF be ⟨[], 0⟩ width height data sw).fileSize := by
  have h : WriteGrayscale16BitToTIFF be ⟨[], 0⟩ width height data sw
      = WriteGrayscale16BitToBigTIFF be ⟨[], 0⟩ width height data sw := by
    simp only [WriteGrayscale16BitToTIFF, htrig, if_true]
    simp only [WriteGrayscale16BitToBigTIFF, bigtiff_directory_over_classic]
  rw [h]
  exact ⟨rfl, rfl, rfl⟩

/-- C12, witness: an image of 65536 x 32768 samples, whose payload alone has `2^32` bytes,
without software string on a little-endian host. -/
theorem tiff_fallback_is_bigtiff_witness :
    too_big_for_tiff (((tiff_directory false ⟨[], 0⟩ 65536 32768 none).1.pos
      + write_count 65536 32768) % 2 ^ 64) = true
    ∧ (WriteGrayscale16BitToTIFF false ⟨[], 0⟩ 65536 32768
        (List.replicate (65536 * 32768) 0) none).file.bytes
      = (WriteGrayscale16BitToBigTIFF false ⟨[], 0⟩ 65536 32768
        (List.replicate (65536 * 32768) 0) none).file.bytes :=
  ⟨by decide,
    (tiff_fallback_is_bigtiff false 65536 32768 (List.replicate (65536 * 32768) 0) none
      (by decide)).1⟩

theorem hdr_lines_eq_fold (fuel : Nat) (f : List Byte) (v : HdrVars) :
    hdr_lines fuel f v = hdr_fold (hdr_pieces fuel f) v := by
  induction fuel generalizing f v with
  | zero => rfl
  | succ n ih =>
    rw [hdr_lines, hdr_pieces]
    split
    · rfl
    · rw [hdr_fold]
      cases hdr_line (fgets 82 f).1 v with
      | error e => rfl
      | ok v2 => exact ih _ _

theorem read_hdr_file_eq (h : List Byte) :
    read_hdr_file h
      = match hdr_fold (hdr_file_lines h) hdr_init with
        | .error e => .error e
        | .ok v => hdr_resolve v := by
  rw [read_hdr_file, hdr_lines_eq_fold]
  rfl

theorem hdr_fold_error (lines : List (List Byte)) (line : List Byte) (hmem : line ∈ lines)
    (hbad : ∀ v, ∃ e, hdr_line line v = .error e) :
    ∀ v, ∃ e, hdr_fold lines v = .error e := by
  induction lines with
  | nil => exact absurd hmem (List.not_mem_nil _)
  | cons L Ls ih =>
    intro v
    rw [hdr_fold]
    rcases List.mem_cons.mp hmem with h | h
    · subst h
      obtain ⟨e, he⟩ := hbad v
      rw [he]
      exact ⟨e, rfl⟩
    · cases hdr_line L v with
      | error e => exact ⟨e, rfl⟩
      | ok v2 => exact ih h v2

theorem read_hdr_file_error_of_line (h : List Byte) (line : List Byte)
    (hmem : line ∈ hdr_file_lines h) (hbad : ∀ v, ∃ e, hdr_line line v = .error e) :
    ∃ e, read_hdr_file h = .error e := by
  rw [read_hdr_file_eq]
  obtain ⟨e, he⟩ := hdr_fold_error _ line hmem hbad hdr_init
  rw [he]
  exact ⟨e, rfl⟩

theorem hdr_fold_last_set {α : Type} (proj : HdrVars → α) (upd : List Byte → Option α)
    (hstep : ∀ line v v2, hdr_line line v = .ok v2 → proj v2 = (upd line).getD (proj v))
    (lines : List (List Byte)) (v v2 : HdrVars) (h : hdr_fold lines v = .ok v2) :
    proj v2 = last_set upd lines (proj v) := by
  induction lines generalizing v with
  | nil =>
    rw [hdr_fold] at h
    cases h
    rfl
  | cons L Ls ih =>
    rw [hdr_fold] at h
    cases h1 : hdr_line L v with
    | error e =>
      rw [h1] at h
      cases h
    | ok v1 =>
      rw [h1] at h
      rw [last_set, List.foldl_cons, ← hstep L v v1 h1]
      exact ih v1 h

theorem bind_eq_ok {ε α β : Type} (x : Except ε α) (f : α → Except ε β) (b : β)
    (h : x.bind f = .ok b) : ∃ a, x = .ok a ∧ f a = .ok b := by
  cases x with
  | error e => cases h
  | ok a => exact ⟨a, rfl, h⟩

theorem ite_ok_cases {ε α : Type} {c : Prop} [Decidable c] {a b : Except ε α} {r : α}
    (h : (if c then a else b) = .ok r) : (c ∧ a = .ok r) ∨ (¬c ∧ b = .ok r) := by
  by_cases hc : c
  · rw [if_pos hc] at h
    exact Or.inl ⟨hc, h⟩
  · rw [if_neg hc] at h
    exact Or.inr ⟨hc, h⟩

theorem hdr_entry_frame (line kw : List Byte) (pos : Nat) (v v2 : HdrVars)
    (h : hdr_entry line kw pos v = .ok v2) :
    (kw ≠ str "ncols" → v2.ncols = v.ncols)
    ∧ (kw ≠ str "nrows" → v2.nrows = v.nrows)
    ∧ (kw ≠ str "xllcorner" → kw ≠ str "xllcenter" → kw ≠ str "ulxmap" →
        v2.xcoord = v.xcoord ∧ v2.xcoord_type = v.xcoord_type)
    ∧ (kw ≠ str "yllcorner" → kw ≠ str "yllcenter" → kw ≠ str "ulymap" →
        v2.ycoord = v.ycoord ∧ v2.ycoord_type = v.ycoord_type)
    ∧ (kw ≠ str "cellsize" → kw ≠ str "xdim" → v2.xdim = v.xdim)
    ∧ (kw ≠ str "cellsize" → kw ≠ str "ydim" → v2.ydim = v.ydim)
    ∧ (kw ≠ str "bandrowbytes" → v2.bandrow = v.bandrow)
    ∧ (kw ≠ str "totalrowbytes" → v2.totalrow = v.totalrow) := by
  unfold hdr_entry at h
  iterate 30 (rcases ite_ok_cases h with ⟨hc, h⟩ | ⟨hn, h⟩; rotate_left)
  all_goals first
    | (cases h
       refine ⟨?_, ?_, ?_, ?_, ?_, ?_, ?_, ?_⟩ <;> intros <;>
         first | rfl | exact ⟨rfl, rfl⟩)
    | (obtain ⟨a, _, h2⟩ := bind_eq_ok _ _ _ h
       first
         | (cases h2
            refine ⟨?_, ?_, ?_, ?_, ?_, ?_, ?_, ?_⟩ <;> intros <;>
              first | rfl | exact ⟨rfl, rfl⟩ | contradiction)
         | (rcases ite_ok_cases h2 with ⟨_, h3⟩ | ⟨_, h3⟩
            all_goals first
              | (cases h3; done)
              | (cases h3
                 refine ⟨?_, ?_, ?_, ?_, ?_, ?_, ?_, ?_⟩ <;> intros <;>
                   first | rfl | exact ⟨rfl, rfl⟩ | contradiction)
              | (rcases ite_ok_cases h3 with ⟨_, h4⟩ | ⟨_, h4⟩
                 all_goals first
                   | (cases h4; done)
                   | (cases h4
                      refine ⟨?_, ?_, ?_, ?_, ?_, ?_, ?_, ?_⟩ <;> intros <;>
                        first | rfl | exact ⟨rfl, rfl⟩)
                   | (rcases ite_ok_cases h4 with ⟨_, h5⟩ | ⟨_, h5⟩
                      all_goals first
                        | (cases h5; done)
                        | (cases h5
                           refine ⟨?_, ?_, ?_, ?_, ?_, ?_, ?_, ?_⟩ <;> intros <;>
                             first | rfl | exact ⟨rfl, rfl⟩)
                        | (rcases ite_ok_cases h5 with ⟨_, h6⟩ | ⟨_, h6⟩
                           all_goals first
                             | (cases h6; done)
                             | (cases h6
                                refine ⟨?_, ?_, ?_, ?_, ?_, ?_, ?_, ?_⟩ <;> intros <;>
                                  first | rfl | exact ⟨rfl, rfl⟩))))))

theorem hdr_line_cases (line : List Byte) (v v2 : HdrVars) (h : hdr_line line v = .ok v2) :
    (scan_keyword (c_str line) = none ∧ v2 = v)
    ∨ ∃ kp, scan_keyword (c_str line) = some kp
        ∧ hdr_entry (c_str line) kp.1 kp.2 v = .ok v2 := by
  rw [hdr_line] at h
  cases hk : scan_keyword (c_str line) with
  | none =>
    rw [hk] at h
    cases h
    exact Or.inl ⟨rfl, rfl⟩
  | some kp =>
    rw [hk] at h
    exact Or.inr ⟨kp, rfl, h⟩

theorem int_entry_ok (line : List Byte) (pos : Nat) (f : Int → HdrVars) (v2 : HdrVars)
    (h : (read_int line pos).bind (fun n =>
      if n ≤ 0 then .error (negative_exit n) else .ok (f n)) = .ok v2) :
    ∃ n, read_int line pos = .ok n ∧ 0 < n ∧ v2 = f n := by
  obtain ⟨n, hr, h2⟩ := bind_eq_ok _ _ _ h
  by_cases hn : n ≤ 0
  · rw [if_pos hn] at h2
    cases h2
  · rw [if_neg hn] at h2
    cases h2
    exact ⟨n, hr, by omega, rfl⟩

theorem line_sets_int_of (key line : List Byte) (kp : List Byte × Nat) (n : Int)
    (hk : scan_keyword (c_str line) = some kp) (hkey : kp.1 = key)
    (hr : read_int (c_str line) kp.2 = .ok n) : line_sets_int key line = some n := by
  simp only [line_sets_int, line_keyword, line_int, hk, hkey, if_true, hr]

theorem line_sets_int_none (key line : List Byte)
    (h : ∀ kp, scan_keyword (c_str line) = some kp → kp.1 ≠ key) :
    line_sets_int key line = none := by
  cases hk : scan_keyword (c_str line) with
  | none => simp [line_sets_int, line_keyword, hk]
  | some kp =>
    have := h kp hk
    simp [line_sets_int, line_keyword, hk, this]

theorem line_step_ncols (line : List Byte) (v v2 : HdrVars) (h : hdr_line line v = .ok v2) :
    v2.ncols = (line_sets_int (str "ncols") line).getD v.ncols := by
  rcases hdr_line_cases line v v2 h with ⟨hk, rfl⟩ | ⟨kp, hk, he⟩
  · rw [line_sets_int_none _ _ (fun kp h2 => by rw [hk] at h2; cases h2)]
    rfl
  · by_cases hkw : kp.1 = str "ncols"
    · rw [hkw] at he
      obtain ⟨n, hr, _, rfl⟩ := int_entry_ok _ _ _ _ (he : (read_int (c_str line) kp.2).bind _ = _)
      rw [line_sets_int_of _ _ kp n hk hkw hr]
      rfl
    · rw [line_sets_int_none _ _ (fun kp2 h2 => by rw [hk] at h2; cases h2; exact hkw)]
      exact (hdr_entry_frame _ _ _ _ _ he).1 hkw

theorem line_step_nrows (line : List Byte) (v v2 : HdrVars) (h : hdr_line line v = .ok v2) :
    v2.nrows = (line_sets_int (str "nrows") line).getD v.nrows := by
  rcases hdr_line_cases line v v2 h with ⟨hk, rfl⟩ | ⟨kp, hk, he⟩
  · rw [line_sets_int_none _ _ (fun kp h2 => by rw [hk] at h2; cases h2)]
    rfl
  · by_cases hkw : kp.1 = str "nrows"
    · rw [hkw] at he
      obtain ⟨n, hr, _, rfl⟩ := int_entry_ok _ _ _ _ (he : (read_int (c_str line) kp.2).bind _ = _)
      rw [line_sets_int_of _ _ kp n hk hkw hr]
      rfl
    · rw [line_sets_int_none _ _ (fun kp2 h2 => by rw [hk] at h2; cases h2; exact hkw)]
      exact (hdr_entry_frame _ _ _ _ _ he).2.1 hkw

theorem line_step_bandrow (line : List Byte) (v v2 : HdrVars) (h : hdr_line line v = .ok v2) :
    v2.bandrow = (line_sets_int (str "bandrowbytes") line).getD v.bandrow := by
  rcases hdr_line_cases line v v2 h with ⟨hk, rfl⟩ | ⟨kp, hk, he⟩
  · rw [line_sets_int_none _ _ (fun kp h2 => by rw [hk] at h2; cases h2)]
    rfl
  · by_cases hkw : kp.1 = str "bandrowbytes"
    · rw [hkw] at he
      obtain ⟨n, hr, _, rfl⟩ := int_entry_ok _ _ _ _ (he : (read_int (c_str line) kp.2).bind _ = _)
      rw [line_sets_int_of _ _ kp n hk hkw hr]
      rfl
    · rw [line_sets_int_none _ _ (fun kp2 h2 => by rw [hk] at h2; cases h2; exact hkw)]
      exact (hdr_entry_frame _ _ _ _ _ he).2.2.2.2.2.2.1 hkw

theorem line_step_totalrow (line : List Byte) (v v2 : HdrVars) (h : hdr_line line v = .ok v2) :
    v2.totalrow = (line_sets_int (str "totalrowbytes") line).getD v.totalrow := by
  rcases hdr_line_cases line v v2 h with ⟨hk, rfl⟩ | ⟨kp, hk, he⟩
  · rw [line_sets_int_none _ _ (fun kp h2 => by rw [hk] at h2; cases h2)]
    rfl
  · by_cases hkw : kp.1 = str "totalrowbytes"
    · rw [hkw] at he
      obtain ⟨n, hr, _, rfl⟩ := int_entry_ok _ _ _ _ (he : (read_int (c_str line) kp.2).bind _ = _)
      rw [line_sets_int_of _ _ kp n hk hkw hr]
      rfl
    · rw [line_sets_int_none _ _ (fun kp2 h2 => by rw [hk] at h2; cases h2; exact hkw)]
      exact (hdr_entry_frame _ _ _ _ _ he).2.2.2.2.2.2.2 hkw

theorem dbl_entry_ok (line : List Byte) (pos : Nat) (f : Fp → HdrVars) (v2 : HdrVars)
    (h : (read_double line pos).bind (fun d =>
      if Fp.eq d dbl_0 then .error .bad_zero else .ok (f d)) = .ok v2) :
    ∃ d, read_double line pos = .ok d ∧ Fp.eq d dbl_0 = false ∧ v2 = f d := by
  obtain ⟨d, hr, h2⟩ := bind_eq_ok _ _ _ h
  by_cases hd : Fp.eq d dbl_0 = true
  · rw [if_pos hd] at h2
    cases h2
  · rw [if_neg hd] at h2
    cases h2
    exact ⟨d, hr, Bool.eq_false_iff.mpr hd, rfl⟩

theorem origin_entry_ok (line : List Byte) (pos : Nat) (f : Fp → HdrVars) (v2 : HdrVars)
    (h : (read_double line pos).bind (fun x => .ok (f x)) = .ok v2) :
    ∃ x, read_double line pos = .ok x ∧ v2 = f x := by
  obtain ⟨x, hr, h2⟩ := bind_eq_ok _ _ _ h
  cases h2
  exact ⟨x, hr, rfl⟩

theorem line_sets_double_of (keys : List (List Byte)) (line : List Byte)
    (kp : List Byte × Nat) (d : Fp) (hk : scan_keyword (c_str line) = some kp)
    (hkey : kp.1 ∈ keys) (hr : read_double (c_str line) kp.2 = .ok d) :
    line_sets_double keys line = some d := by
  simp only [line_sets_double, line_keyword, line_double, hk, hkey, if_true, hr]

theorem line_sets_double_none (keys : List (List Byte)) (line : List Byte)
    (h : ∀ kp, scan_keyword (c_str line) = some kp → kp.1 ∉ keys) :
    line_sets_double keys line = none := by
  cases hk : scan_keyword (c_str line) with
  | none => simp [line_sets_double, line_keyword, hk]
  | some kp =>
    have := h kp hk
    simp [line_sets_double, line_keyword, hk, this]

theorem line_step_xdim (line : List Byte) (v v2 : HdrVars) (h : hdr_line line v = .ok v2) :
    v2.xdim = (line_sets_double [str "cellsize", str "xdim"] line).getD v.xdim := by
  rcases hdr_line_cases line v v2 h with ⟨hk, rfl⟩ | ⟨kp, hk, he⟩
  · rw [line_sets_double_none _ _ (fun kp h2 => by rw [hk] at h2; cases h2)]
    rfl
  · by_cases hkw : kp.1 = str "cellsize"
    · rw [hkw] at he
      obtain ⟨d, hr, _, rfl⟩ := dbl_entry_ok _ _ _ _
        (he : (read_double (c_str line) kp.2).bind _ = _)
      rw [line_sets_double_of _ _ kp d hk (by rw [hkw]; simp) hr]
      rfl
    · by_cases hkw2 : kp.1 = str "xdim"
      · rw [hkw2] at he
        obtain ⟨d, hr, _, rfl⟩ := dbl_entry_ok _ _ _ _
          (he : (read_double (c_str line) kp.2).bind _ = _)
        rw [line_sets_double_of _ _ kp d hk (by rw [hkw2]; simp) hr]
        rfl
      · rw [line_sets_double_none _ _ (fun kp2 h2 => by
          rw [hk] at h2
          cases h2
          simp [hkw, hkw2])]
        exact (hdr_entry_frame _ _ _ _ _ he).2.2.2.2.1 hkw hkw2

theorem line_step_ydim (line : List Byte) (v v2 : HdrVars) (h : hdr_line line v = .ok v2) :
    v2.ydim = (line_sets_double [str "cellsize", str "ydim"] line).getD v.ydim := by
  rcases hdr_line_cases line v v2 h with ⟨hk, rfl⟩ | ⟨kp, hk, he⟩
  · rw [line_sets_double_none _ _ (fun kp h2 => by rw [hk] at h2; cases h2)]
    rfl
  · by_cases hkw : kp.1 = str "cellsize"
    · rw [hkw] at he
      obtain ⟨d, hr, _, rfl⟩ := dbl_entry_ok _ _ _ _
        (he : (read_double (c_str line) kp.2).bind _ = _)
      rw [line_sets_double_of _ _ kp d hk (by rw [hkw]; simp) hr]
      rfl
    · by_cases hkw2 : kp.1 = str "ydim"
      · rw [hkw2] at he
        obtain ⟨d, hr, _, rfl⟩ := dbl_entry_ok _ _ _ _
          (he : (read_double (c_str line) kp.2).bind _ = _)
        rw [line_sets_double_of _ _ kp d hk (by rw [hkw2]; simp) hr]
        rfl
      · rw [line_sets_double_none _ _ (fun kp2 h2 => by
          rw [hk] at h2
          cases h2
          simp [hkw, hkw2])]
        exact (hdr_entry_frame _ _ _ _ _ he).2.2.2.2.2.1 hkw hkw2

theorem line_sets_x_origin_of (line : List Byte) (kp : List Byte × Nat) (c : Fp)
    (hk : scan_keyword (c_str line) = some kp) (hr : read_double (c_str line) kp.2 = .ok c) :
    line_sets_x_origin line
      = if kp.1 = str "xllcorner" then some (1, c)
        else if kp.1 = str "xllcenter" then some (2, c)
        else if kp.1 = str "ulxmap" then some (3, c)
        else none := by
  simp only [line_sets_x_origin, line_keyword, line_double, hk, hr]

theorem line_sets_x_origin_none (line : List Byte)
    (h : ∀ kp, scan_keyword (c_str line) = some kp →
      kp.1 ≠ str "xllcorner" ∧ kp.1 ≠ str "xllcenter" ∧ kp.1 ≠ str "ulxmap") :
    line_sets_x_origin line = none := by
  cases hk : scan_keyword (c_str line) with
  | none => simp [line_sets_x_origin, line_keyword, hk]
  | some kp =>
    obtain ⟨h1, h2, h3⟩ := h kp hk
    simp only [line_sets_x_origin, line_keyword, hk]
    cases line_double line with
    | none => rfl
    | some c => simp [h1, h2, h3]

theorem line_sets_y_origin_of (line : List Byte) (kp : List Byte × Nat) (c : Fp)
    (hk : scan_keyword (c_str line) = some kp) (hr : read_double (c_str line) kp.2 = .ok c) :
    line_sets_y_origin line
      = if kp.1 = str "yllcorner" then some (1, c)
        else if kp.1 = str "yllcenter" then some (2, c)
        else if kp.1 = str "ulymap" then some (3, c)
        else none := by
  simp only [line_sets_y_origin, line_keyword, line_double, hk, hr]

theorem line_sets_y_origin_none (line : List Byte)
    (h : ∀ kp, scan_keyword (c_str line) = some kp →
      kp.1 ≠ str "yllcorner" ∧ kp.1 ≠ str "yllcenter" ∧ kp.1 ≠ str "ulymap") :
    line_sets_y_origin line = none := by
  cases hk : scan_keyword (c_str line) with
  | none => simp [line_sets_y_origin, line_keyword, hk]
  | some kp =>
    obtain ⟨h1, h2, h3⟩ := h kp hk
    simp only [line_sets_y_origin, line_keyword, hk]
    cases line_double line with
    | none => rfl
    | some c => simp [h1, h2, h3]

theorem line_step_x_origin (line : List Byte) (v v2 : HdrVars) (h : hdr_line line v = .ok v2) :
    (v2.xcoord_type, v2.xcoord)
      = (line_sets_x_origin line).getD (v.xcoord_type, v.xcoord) := by
  rcases hdr_line_cases line v v2 h with ⟨hk, rfl⟩ | ⟨kp, hk, he⟩
  · rw [line_sets_x_origin_none _ (fun kp h2 => by rw [hk] at h2; cases h2)]
    rfl
  · by_cases h1 : kp.1 = str "xllcorner"
    · rw [h1] at he
      obtain ⟨c, hr, rfl⟩ := origin_entry_ok _ _ _ _
        (he : (read_double (c_str line) kp.2).bind _ = _)
      rw [line_sets_x_origin_of _ kp c hk hr, if_pos h1]
      rfl
    · by_cases h2 : kp.1 = str "xllcenter"
      · rw [h2] at he
        obtain ⟨c, hr, rfl⟩ := origin_entry_ok _ _ _ _
          (he : (read_double (c_str line) kp.2).bind _ = _)
        rw [line_sets_x_origin_of _ kp c hk hr, if_neg h1, if_pos h2]
        rfl
      · by_cases h3 : kp.1 = str "ulxmap"
        · rw [h3] at he
          obtain ⟨c, hr, rfl⟩ := origin_entry_ok _ _ _ _
            (he : (read_double (c_str line) kp.2).bind _ = _)
          rw [line_sets_x_origin_of _ kp c hk hr, if_neg h1, if_neg h2, if_pos h3]
          rfl
        · rw [line_sets_x_origin_none _ (fun kp2 h4 => by
            rw [hk] at h4
            cases h4
            exact ⟨h1, h2, h3⟩)]
          obtain ⟨e1, e2⟩ := (hdr_entry_frame _ _ _ _ _ he).2.2.1 h1 h2 h3
          simp only [Option.getD_none, e1, e2]

theorem line_step_y_origin (line : List Byte) (v v2 : HdrVars) (h : hdr_line line v = .ok v2) :
    (v2.ycoord_type, v2.ycoord)
      = (line_sets_y_origin line).getD (v.ycoord_type, v.ycoord) := by
  rcases hdr_line_cases line v v2 h with ⟨hk, rfl⟩ | ⟨kp, hk, he⟩
  · rw [line_sets_y_origin_none _ (fun kp h2 => by rw [hk] at h2; cases h2)]
    rfl
  · by_cases h1 : kp.1 = str "yllcorner"
    · rw [h1] at he
      obtain ⟨c, hr, rfl⟩ := origin_entry_ok _ _ _ _
        (he : (read_double (c_str line) kp.2).bind _ = _)
      rw [line_sets_y_origin_of _ kp c hk hr, if_pos h1]
      rfl
    · by_cases h2 : kp.1 = str "yllcenter"
      · rw [h2] at he
        obtain ⟨c, hr, rfl⟩ := origin_entry_ok _ _ _ _
          (he : (read_double (c_str line) kp.2).bind _ = _)
        rw [line_sets_y_origin_of _ kp c hk hr, if_neg h1, if_pos h2]
        rfl
      · by_cases h3 : kp.1 = str "ulymap"
        · rw [h3] at he
          obtain ⟨c, hr, rfl⟩ := origin_entry_ok _ _ _ _
            (he : (read_double (c_str line) kp.2).bind _ = _)
          rw [line_sets_y_origin_of _ kp c hk hr, if_neg h1, if_neg h2, if_pos h3]
          rfl
        · rw [line_sets_y_origin_none _ (fun kp2 h4 => by
            rw [hk] at h4
            cases h4
            exact ⟨h1, h2, h3⟩)]
          obtain ⟨e1, e2⟩ := (hdr_entry_frame _ _ _ _ _ he).2.2.2.1 h1 h2 h3
          simp only [Option.getD_none, e1, e2]

theorem last_set_absent {α : Type} (upd : List Byte → Option α) (lines : List (List Byte))
    (init : α) (h : ∀ line ∈ lines, upd line = none) : last_set upd lines init = init := by
  induction lines generalizing init with
  | nil => rfl
  | cons L Ls ih =>
    rw [last_set, List.foldl_cons, h L (List.mem_cons_self _ _)]
    exact ih init (fun l hl => h l (List.mem_cons_of_mem _ hl))

theorem header_vars (h : List Byte) (v : HdrVars)
    (hv : hdr_fold (hdr_file_lines h) hdr_init = .ok v) :
    v.ncols = header_int (str "ncols") h ∧ v.nrows = header_int (str "nrows") h
    ∧ v.bandrow = header_int (str "bandrowbytes") h
    ∧ v.totalrow = header_int (str "totalrowbytes") h
    ∧ v.xdim = header_xdim h ∧ v.ydim = header_ydim h
    ∧ (v.xcoord_type, v.xcoord) = header_x_origin h
    ∧ (v.ycoord_type, v.ycoord) = header_y_origin h :=
  ⟨hdr_fold_last_set (fun v => v.ncols) _ line_step_ncols _ _ _ hv,
    hdr_fold_last_set (fun v => v.nrows) _ line_step_nrows _ _ _ hv,
    hdr_fold_last_set (fun v => v.bandrow) _ line_step_bandrow _ _ _ hv,
    hdr_fold_last_set (fun v => v.totalrow) _ line_step_totalrow _ _ _ hv,
    hdr_fold_last_set (fun v => v.xdim) _ line_step_xdim _ _ _ hv,
    hdr_fold_last_set (fun v => v.ydim) _ line_step_ydim _ _ _ hv,
    hdr_fold_last_set (fun v => (v.xcoord_type, v.xcoord)) _ line_step_x_origin _ _ _ hv,
    hdr_fold_last_set (fun v => (v.ycoord_type, v.ycoord)) _ line_step_y_origin _ _ _ hv⟩

theorem read_hdr_file_ok (h : List Byte) (r : HdrInfo) (hok : read_hdr_file h = .ok r) :
    ∃ v, hdr_fold (hdr_file_lines h) hdr_init = .ok v ∧ hdr_resolve v = .ok r := by
  rw [read_hdr_file_eq] at hok
  cases hv : hdr_fold (hdr_file_lines h) hdr_init with
  | error e =>
    rw [hv] at hok
    cases hok
  | ok v =>
    rw [hv] at hok
    exact ⟨v, rfl, hok⟩

theorem read_hdr_file_error_of_vars (h : List Byte)
    (hbad : ∀ v, hdr_fold (hdr_file_lines h) hdr_init = .ok v → ∀ r, hdr_resolve v ≠ .ok r) :
    ∃ e, read_hdr_file h = .error e := by
  cases hr : read_hdr_file h with
  | error e => exact ⟨e, rfl⟩
  | ok r =>
    obtain ⟨v, hv, hres⟩ := read_hdr_file_ok h r hr
    exact absurd hres (hbad v hv r)

theorem hdr_resolve_ok (v : HdrVars) (r : HdrInfo) (h : hdr_resolve v = .ok r) :
    v.ncols ≠ 0 ∧ v.nrows ≠ 0
    ∧ (v.bandrow = 0 ∨ v.bandrow = wrap_int (4 * v.ncols))
    ∧ 0 ≤ (if v.totalrow ≠ 0 then wrap_int (v.totalrow - wrap_int (4 * v.ncols)) else 0)
    ∧ Fp.eq v.xdim dbl_0 = false ∧ Fp.eq v.ydim dbl_0 = false
    ∧ v.xcoord_type ≠ 0 ∧ v.ycoord_type ≠ 0
    ∧ r.ncols = v.ncols ∧ r.nrows = v.nrows
    ∧ r.rowpad = (if v.totalrow ≠ 0 then wrap_int (v.totalrow - wrap_int (4 * v.ncols)) else 0)
    ∧ r.xmin = (if Fp.lt v.xdim dbl_0 then
          (if v.xcoord_type = 1 then Fp.add64 v.xcoord (Fp.mul64 v.xdim (Fp.of_int v.ncols))
           else Fp.add64 v.xcoord (Fp.mul64 v.xdim (Fp.sub64 (Fp.of_int v.ncols) dbl_half)))
        else (if v.xcoord_type = 1 then v.xcoord
          else Fp.sub64 v.xcoord (Fp.mul64 v.xdim dbl_half)))
    ∧ r.xmax = (if Fp.lt v.xdim dbl_0 then
          (if v.xcoord_type = 1 then v.xcoord
           else Fp.sub64 v.xcoord (Fp.mul64 v.xdim dbl_half))
        else (if v.xcoord_type = 1 then
            Fp.add64 v.xcoord (Fp.mul64 v.xdim (Fp.of_int v.ncols))
          else Fp.add64 v.xcoord (Fp.mul64 v.xdim (Fp.sub64 (Fp.of_int v.ncols) dbl_half))))
    ∧ r.ymin = (if Fp.lt v.ydim dbl_0 then
          (if v.ycoord_type = 1 then Fp.add64 v.ycoord (Fp.mul64 v.ydim (Fp.of_int v.nrows))
           else if v.ycoord_type = 2 then
             Fp.add64 v.ycoord (Fp.mul64 v.ydim (Fp.sub64 (Fp.of_int v.nrows) dbl_half))
           else Fp.add64 v.ycoord (Fp.mul64 v.ydim dbl_half))
        else (if v.ycoord_type = 1 then v.ycoord
          else if v.ycoord_type = 2 then Fp.sub64 v.ycoord (Fp.mul64 v.ydim dbl_half)
          else Fp.sub64 v.ycoord (Fp.mul64 v.ydim (Fp.sub64 (Fp.of_int v.nrows) dbl_half))))
    ∧ r.ymax = (if Fp.lt v.ydim dbl_0 then
          (if v.ycoord_type = 1 then v.ycoord
           else if v.ycoord_type = 2 then Fp.sub64 v.ycoord (Fp.mul64 v.ydim dbl_half)
           else Fp.sub64 v.ycoord (Fp.mul64 v.ydim (Fp.sub64 (Fp.of_int v.nrows) dbl_half)))
        else (if v.ycoord_type = 1 then Fp.add64 v.ycoord (Fp.mul64 v.ydim (Fp.of_int v.nrows))
          else if v.ycoord_type = 2 then
            Fp.add64 v.ycoord (Fp.mul64 v.ydim (Fp.sub64 (Fp.of_int v.nrows) dbl_half))
          else Fp.add64 v.ycoord (Fp.mul64 v.ydim dbl_half))) := by
  unfold hdr_resolve at h
  rcases ite_ok_cases h with ⟨_, h1⟩ | ⟨c1, h1⟩
  · cases h1
  rcases ite_ok_cases h1 with ⟨_, h2⟩ | ⟨c2, h2⟩
  · cases h2
  rcases ite_ok_cases h2 with ⟨_, h3⟩ | ⟨c3, h3⟩
  · cases h3
  dsimp only at h3
  rcases ite_ok_cases h3 with ⟨_, h4⟩ | ⟨c4, h4⟩
  · cases h4
  rcases ite_ok_cases h4 with ⟨_, h5⟩ | ⟨c5, h5⟩
  · cases h5
  rcases ite_ok_cases h5 with ⟨_, h6⟩ | ⟨c6, h6⟩
  · cases h6
  rcases ite_ok_cases h6 with ⟨_, h7⟩ | ⟨c7, h7⟩
  · cases h7
  rcases ite_ok_cases h7 with ⟨_, h8⟩ | ⟨c8, h8⟩
  · cases h8
  cases h8
  refine ⟨c1, c2, ?_, by omega, Bool.eq_false_iff.mpr c5, Bool.eq_false_iff.mpr c6, c7, c8,
    rfl, rfl, rfl, rfl, rfl, rfl, rfl⟩
  by_cases hb : v.bandrow = 0
  · exact Or.inl hb
  · right
    by_contra hne
    exact c3 ⟨hb, hne⟩

theorem keyword_of (line kw : List Byte) (h : line_keyword line = some kw) :
    ∃ kp, scan_keyword (c_str line) = some kp ∧ kp.1 = kw := by
  rw [line_keyword] at h
  cases hk : scan_keyword (c_str line) with
  | none =>
    rw [hk] at h
    cases h
  | some kp =>
    rw [hk] at h
    cases h
    exact ⟨kp, rfl, rfl⟩

theorem line_int_of (line : List Byte) (kp : List Byte × Nat) (n : Int)
    (hk : scan_keyword (c_str line) = some kp) (h : line_int line = some n) :
    read_int (c_str line) kp.2 = .ok n := by
  simp only [line_int, hk] at h
  cases hr : read_int (c_str line) kp.2 with
  | error e =>
    rw [hr] at h
    cases h
  | ok m =>
    rw [hr] at h
    cases h
    rfl

theorem line_double_of (line : List Byte) (kp : List Byte × Nat) (d : Fp)
    (hk : scan_keyword (c_str line) = some kp) (h : line_double line = some d) :
    read_double (c_str line) kp.2 = .ok d := by
  simp only [line_double, hk] at h
  cases hr : read_double (c_str line) kp.2 with
  | error e =>
    rw [hr] at h
    cases h
  | ok m =>
    rw [hr] at h
    cases h
    rfl

theorem line_string_of (line : List Byte) (kp : List Byte × Nat) (s : List Byte)
    (hk : scan_keyword (c_str line) = some kp) (h : line_string line = some s) :
    read_string (c_str line) kp.2 = .ok s := by
  simp only [line_string, hk] at h
  cases hr : read_string (c_str line) kp.2 with
  | error e =>
    rw [hr] at h
    cases h
  | ok m =>
    rw [hr] at h
    cases h
    rfl

theorem hdr_line_of_keyword (line : List Byte) (kp : List Byte × Nat) (v : HdrVars)
    (hk : scan_keyword (c_str line) = some kp) :
    hdr_line line v = hdr_entry (c_str line) kp.1 kp.2 v := by
  rw [hdr_line, hk]

theorem bad_count_line (line : List Byte) (n : Int)
    (hkw : line_keyword line = some (str "ncols") ∨ line_keyword line = some (str "nrows"))
    (hn : line_int line = some n) (hle : n ≤ 0) (v : HdrVars) :
    ∃ e, hdr_line line v = .error e := by
  rcases hkw with hkw | hkw
  · obtain ⟨kp, hk, hkey⟩ := keyword_of line _ hkw
    have hr := line_int_of line kp n hk hn
    rw [hdr_line_of_keyword line kp v hk, hkey]
    refine ⟨negative_exit n, ?_⟩
    show (read_int (c_str line) kp.2).bind _ = _
    rw [hr]
    simp only [Except.bind, if_pos hle]
  · obtain ⟨kp, hk, hkey⟩ := keyword_of line _ hkw
    have hr := line_int_of line kp n hk hn
    rw [hdr_line_of_keyword line kp v hk, hkey]
    refine ⟨negative_exit n, ?_⟩
    show (read_int (c_str line) kp.2).bind _ = _
    rw [hr]
    simp only [Except.bind, if_pos hle]

theorem zero_dim_line (line : List Byte) (d : Fp)
    (hkw : line_keyword line = some (str "cellsize") ∨ line_keyword line = some (str "xdim")
      ∨ line_keyword line = some (str "ydim"))
    (hd : line_double line = some d) (hz : Fp.eq d dbl_0 = true) (v : HdrVars) :
    ∃ e, hdr_line line v = .error e := by
  rcases hkw with hkw | hkw | hkw
  all_goals
    obtain ⟨kp, hk, hkey⟩ := keyword_of line _ hkw
    have hr := line_double_of line kp d hk hd
    rw [hdr_line_of_keyword line kp v hk, hkey]
    refine ⟨.bad_zero, ?_⟩
    show (read_double (c_str line) kp.2).bind _ = _
    rw [hr]
    simp only [Except.bind, if_pos hz]

theorem line_sets_int_absent (key line : List Byte) (h : line_keyword line ≠ some key) :
    line_sets_int key line = none := by
  rw [line_sets_int, if_neg h]

theorem line_sets_double_absent (keys : List (List Byte)) (line : List Byte)
    (h : ∀ kw ∈ keys, line_keyword line ≠ some kw) : line_sets_double keys line = none := by
  rw [line_sets_double]
  cases hk : line_keyword line with
  | none => rfl
  | some kw =>
    simp only []
    rw [if_neg]
    intro hmem
    exact h kw hmem hk

theorem line_sets_x_origin_absent (line : List Byte)
    (h : line_keyword line ≠ some (str "xllcorner") ∧ line_keyword line ≠ some (str "xllcenter")
      ∧ line_keyword line ≠ some (str "ulxmap")) : line_sets_x_origin line = none := by
  rw [line_sets_x_origin]
  cases hk : line_keyword line with
  | none => rfl
  | some kw =>
    rw [hk] at h
    cases line_double line with
    | none => rfl
    | some c =>
      simp only []
      rw [if_neg (fun e => h.1 (by rw [e])), if_neg (fun e => h.2.1 (by rw [e])),
        if_neg (fun e => h.2.2 (by rw [e]))]

theorem line_sets_y_origin_absent (line : List Byte)
    (h : line_keyword line ≠ some (str "yllcorner") ∧ line_keyword line ≠ some (str "yllcenter")
      ∧ line_keyword line ≠ some (str "ulymap")) : line_sets_y_origin line = none := by
  rw [line_sets_y_origin]
  cases hk : line_keyword line with
  | none => rfl
  | some kw =>
    rw [hk] at h
    cases line_double line with
    | none => rfl
    | some c =>
      simp only []
      rw [if_neg (fun e => h.1 (by rw [e])), if_neg (fun e => h.2.1 (by rw [e])),
        if_neg (fun e => h.2.2 (by rw [e]))]

theorem length_fgets (k : Nat) (f : List Byte) :
    (fgets k f).1.length + (fgets k f).2.length = f.length := by
  induction k generalizing f with
  | zero => simp [fgets]
  | succ k ih =>
    cases f with
    | nil => simp [fgets]
    | cons c f =>
      rw [fgets]
      split
      · simp only [List.length_cons, List.length_nil]
        omega
      · have := ih f
        simp only [List.length_cons]
        omega

theorem length_skip_rest_le (fuel : Nat) (line f : List Byte) :
    (skip_rest fuel line f).length ≤ f.length := by
  induction fuel generalizing line f with
  | zero => simp [skip_rest]
  | succ n ih =>
    rw [skip_rest]
    split
    · exact Nat.le_refl _
    · split
      · exact Nat.le_refl _
      · have h1 := ih (fgets 82 f).1 (fgets 82 f).2
        have h2 := length_fgets 82 f
        omega

/-- The loop over the lines ends by itself: more fuel than the length of the stream
changes nothing. -/
theorem hdr_pieces_fuel (fuel1 fuel2 : Nat) (f : List Byte) (h1 : f.length < fuel1)
    (h2 : f.length < fuel2) : hdr_pieces fuel1 f = hdr_pieces fuel2 f := by
  induction fuel1 generalizing fuel2 f with
  | zero => omega
  | succ n ih =>
    obtain ⟨m, rfl⟩ : ∃ m, fuel2 = m + 1 := ⟨fuel2 - 1, by omega⟩
    rw [hdr_pieces, hdr_pieces]
    split
    · rfl
    · rename_i hne
      have hl := length_fgets 82 f
      have hpos : 0 < (fgets 82 f).1.length := List.length_pos.mpr hne
      have hs := length_skip_rest_le f.length (fgets 82 f).1 (fgets 82 f).2
      rw [ih m _ (by omega) (by omega)]

theorem hdr_lines_fuel (fuel : Nat) (f : List Byte) (v : HdrVars) (h : f.length < fuel) :
    hdr_lines fuel f v = hdr_lines (f.length + 1) f v := by
  rw [hdr_lines_eq_fold, hdr_lines_eq_fold, hdr_pieces_fuel fuel (f.length + 1) f h (by omega)]

theorem hdr_file_lines_cons (L rest : List Byte) (hL10 : ∀ c ∈ L, c ≠ 10)
    (hL0 : ∀ c ∈ L, c ≠ 0) (hlen : L.length ≤ 80) :
    hdr_file_lines (L ++ 10 :: rest) = (L ++ [10]) :: hdr_file_lines rest := by
  rw [hdr_file_lines, hdr_pieces, fgets_line L rest 82 hL10 (by omega)]
  simp only []
  rw [if_neg (by simp)]
  have hnl : (10 : Byte) ∈ c_str (L ++ [10]) := by
    rw [c_str_eq]
    · simp
    · intro c hc
      rcases List.mem_append.mp hc with h | h
      · exact hL0 c h
      · rw [List.mem_singleton.mp h]
        decide
  have hfuel : (L ++ 10 :: rest).length = (L.length + rest.length) + 1 := by
    simp only [List.length_append, List.length_cons]
    omega
  rw [hfuel, skip_rest_newline _ _ _ hnl, hdr_file_lines]
  congr 1
  exact hdr_pieces_fuel _ _ rest (by omega) (by omega)

/-- C16. `read_hdr_file` fails for every header in which no line has the keyword `ncols`,
or none has `nrows`; in which an `ncols` or `nrows` line gives zero or a negative number;
in which no line gives the X cell dimension (`cellsize`, `xdim`) or none gives the Y cell
dimension (`cellsize`, `ydim`); in which a `cellsize`, `xdim` or `ydim` line gives zero; in
which no line has one of `xllcorner`, `xllcenter`, `ulxmap`; or in which none has one of
`yllcorner`, `yllcenter`, `ulymap`. -/
theorem required_header_fields (h : List Byte) :
    ((∀ line ∈ hdr_file_lines h, line_keyword line ≠ some (str "ncols")) →
      ∃ e, read_hdr_file h = .error e)
    ∧ ((∀ line ∈ hdr_file_lines h, line_keyword line ≠ some (str "nrows")) →
      ∃ e, read_hdr_file h = .error e)
    ∧ (∀ line ∈ hdr_file_lines h, ∀ n,
        (line_keyword line = some (str "ncols") ∨ line_keyword line = some (str "nrows")) →
        line_int line = some n → n ≤ 0 → ∃ e, read_hdr_file h = .error e)
    ∧ ((∀ line ∈ hdr_file_lines h, line_keyword line ≠ some (str "cellsize")
          ∧ line_keyword line ≠ some (str "xdim")) →
      ∃ e, read_hdr_file h = .error e)
    ∧ ((∀ line ∈ hdr_file_lines h, line_keyword line ≠ some (str "cellsize")
          ∧ line_keyword line ≠ some (str "ydim")) →
      ∃ e, read_hdr_file h = .error e)
    ∧ (∀ line ∈ hdr_file_lines h, ∀ d,
        (line_keyword line = some (str "cellsize") ∨ line_keyword line = some (str "xdim")
          ∨ line_keyword line = some (str "ydim")) →
        line_double line = some d → Fp.eq d dbl_0 = true → ∃ e, read_hdr_file h = .error e)
    ∧ ((∀ line ∈ hdr_file_lines h, line_keyword line ≠ some (str "xllcorner")
          ∧ line_keyword line ≠ some (str "xllcenter")
          ∧ line_keyword line ≠ some (str "ulxmap")) →
      ∃ e, read_hdr_file h = .error e)
    ∧ ((∀ line ∈ hdr_file_lines h, line_keyword line ≠ some (str "yllcorner")
          ∧ line_keyword line ≠ some (str "yllcenter")
          ∧ line_keyword line ≠ some (str "ulymap")) →
      ∃ e, read_hdr_file h = .error e) := by
  refine ⟨?_, ?_, ?_, ?_, ?_, ?_, ?_, ?_⟩
  · intro habs
    apply read_hdr_file_error_of_vars
    intro v hv r hres
    have h1 := (header_vars h v hv).1
    rw [header_int, last_set_absent _ _ _ (fun l hl => line_sets_int_absent _ l (habs l hl))]
      at h1
    exact (hdr_resolve_ok v r hres).1 h1
  · intro habs
    apply read_hdr_file_error_of_vars
    intro v hv r hres
    have h1 := (header_vars h v hv).2.1
    rw [header_int, last_set_absent _ _ _ (fun l hl => line_sets_int_absent _ l (habs l hl))]
      at h1
    exact (hdr_resolve_ok v r hres).2.1 h1
  · intro line hmem n hkw hn hle
    exact read_hdr_file_error_of_line h line hmem (bad_count_line line n hkw hn hle)
  · intro habs
    apply read_hdr_file_error_of_vars
    intro v hv r hres
    have h1 := (header_vars h v hv).2.2.2.2.1
    rw [header_xdim, last_set_absent _ _ _ (fun l hl => line_sets_double_absent _ l (by
      intro kw hkw
      simp only [List.mem_cons, List.mem_singleton, List.not_mem_nil, or_false] at hkw
      rcases hkw with rfl | rfl
      · exact (habs l hl).1
      · exact (habs l hl).2))] at h1
    have h2 := (hdr_resolve_ok v r hres).2.2.2.2.1
    rw [h1] at h2
    exact absurd h2 (by decide)
  · intro habs
    apply read_hdr_file_error_of_vars
    intro v hv r hres
    have h1 := (header_vars h v hv).2.2.2.2.2.1
    rw [header_ydim, last_set_absent _ _ _ (fun l hl => line_sets_double_absent _ l (by
      intro kw hkw
      simp only [List.mem_cons, List.mem_singleton, List.not_mem_nil, or_false] at hkw
      rcases hkw with rfl | rfl
      · exact (habs l hl).1
      · exact (habs l hl).2))] at h1
    have h2 := (hdr_resolve_ok v r hres).2.2.2.2.2.1
    rw [h1] at h2
    exact absurd h2 (by decide)
  · intro line hmem d hkw hd hz
    exact read_hdr_file_error_of_line h line hmem (zero_dim_line line d hkw hd hz)
  · intro habs
    apply read_hdr_file_error_of_vars
    intro v hv r hres
    have h1 := (header_vars h v hv).2.2.2.2.2.2.1
    rw [header_x_origin, last_set_absent _ _ _
      (fun l hl => line_sets_x_origin_absent l (habs l hl))] at h1
    have h2 := (hdr_resolve_ok v r hres).2.2.2.2.2.2.1
    exact h2 (congrArg Prod.fst h1)
  · intro habs
    apply read_hdr_file_error_of_vars
    intro v hv r hres
    have h1 := (header_vars h v hv).2.2.2.2.2.2.2
    rw [header_y_origin, last_set_absent _ _ _
      (fun l hl => line_sets_y_origin_absent l (habs l hl))] at h1
    have h2 := (hdr_resolve_ok v r hres).2.2.2.2.2.2.2.1
    exact h2 (congrArg Prod.fst h1)

/-- C16, witness: a header without `ncols` line, whatever else it holds, is refused; this
one with "Input .hdr file does not specify NCOLS". -/
theorem required_header_fields_witness :
    (∀ line ∈ hdr_file_lines (text_of_lines
        ["nrows 2", "xllcorner 0", "yllcorner 0", "cellsize 1"]),
      line_keyword line ≠ some (str "ncols"))
    ∧ (∃ e, read_hdr_file (text_of_lines
        ["nrows 2", "xllcorner 0", "yllcorner 0", "cellsize 1"]) = .error e)
    ∧ read_hdr_file (text_of_lines ["nrows 2", "xllcorner 0", "yllcorner 0", "cellsize 1"])
      = .error .no_ncols :=
  ⟨by decide,
    (required_header_fields (text_of_lines
      ["nrows 2", "xllcorner 0", "yllcorner 0", "cellsize 1"])).1 (by decide),
    by decide⟩

theorem entry_nbands (line : List Byte) (pos : Nat) (v : HdrVars) :
    hdr_entry line (str "nbands") pos v
      = (read_int line pos).bind (fun n => if n ≠ 1 then .error .bad_value else .ok v) := rfl

theorem entry_nbits (line : List Byte) (pos : Nat) (v : HdrVars) :
    hdr_entry line (str "nbits") pos v
      = (read_int line pos).bind (fun n =>
          if n = 8 ∨ n = 16 ∨ n ≠ 32 then .error .bad_value else .ok v) := rfl

theorem entry_layout (line : List Byte) (pos : Nat) (v : HdrVars) :
    hdr_entry line (str "layout") pos v
      = (read_string line pos).bind (fun s =>
          if s = str "bip" ∨ s = str "bsq" ∨ s ≠ str "bil" then .error .bad_value
          else .ok v) := rfl

theorem entry_numbertype (line : List Byte) (pos : Nat) (v : HdrVars) :
    hdr_entry line (str "numbertype") pos v
      = (read_string line pos).bind (fun s =>
          if s = str "1_byte_integer" ∨ s = str "byte" then .error .bad_value
          else if s = str "2_byte_integer" then .error .bad_value
          else if s ≠ str "4_byte_float" then .error .bad_value
          else .ok v) := rfl

theorem entry_pixeltype (line : List Byte) (pos : Nat) (v : HdrVars) :
    hdr_entry line (str "pixeltype") pos v
      = (read_string line pos).bind (fun s =>
          if s = str "signedint" then .error .bad_value
          else if s = str "unsignedint" then .error .bad_value
          else if s ≠ str "float" ∧ s ≠ str "floatingpoint" then .error .bad_value
          else .ok v) := rfl

theorem line_int_eq (line : List Byte) (kp : List Byte × Nat)
    (hk : scan_keyword (c_str line) = some kp) :
    line_int line = match read_int (c_str line) kp.2 with
      | .ok n => some n
      | .error _ => none := by
  simp only [line_int, hk]

theorem line_string_eq (line : List Byte) (kp : List Byte × Nat)
    (hk : scan_keyword (c_str line) = some kp) :
    line_string line = match read_string (c_str line) kp.2 with
      | .ok s => some s
      | .error _ => none := by
  simp only [line_string, hk]

theorem bad_format_line (line : List Byte)
    (hbad : (line_keyword line = some (str "nbands") ∧ line_int line ≠ some 1)
      ∨ (line_keyword line = some (str "nbits") ∧ line_int line ≠ some 32)
      ∨ (line_keyword line = some (str "layout") ∧ line_string line ≠ some (str "bil"))
      ∨ (line_keyword line = some (str "numbertype")
          ∧ line_string line ≠ some (str "4_byte_float"))
      ∨ (line_keyword line = some (str "pixeltype") ∧ line_string line ≠ some (str "float")
          ∧ line_string line ≠ some (str "floatingpoint")))
    (v : HdrVars) : ∃ e, hdr_line line v = .error e := by
  rcases hbad with ⟨hkw, hv⟩ | ⟨hkw, hv⟩ | ⟨hkw, hv⟩ | ⟨hkw, hv⟩ | ⟨hkw, hv1, hv2⟩
  · obtain ⟨kp, hk, hkey⟩ := keyword_of line _ hkw
    rw [hdr_line_of_keyword line kp v hk, hkey, entry_nbands]
    rw [line_int_eq line kp hk] at hv
    cases hr : read_int (c_str line) kp.2 with
    | error e => exact ⟨e, rfl⟩
    | ok n =>
      rw [hr] at hv
      have hn : n ≠ 1 := fun e => hv (by rw [e])
      exact ⟨.bad_value, by simp only [Except.bind, if_pos hn]⟩
  · obtain ⟨kp, hk, hkey⟩ := keyword_of line _ hkw
    rw [hdr_line_of_keyword line kp v hk, hkey, entry_nbits]
    rw [line_int_eq line kp hk] at hv
    cases hr : read_int (c_str line) kp.2 with
    | error e => exact ⟨e, rfl⟩
    | ok n =>
      rw [hr] at hv
      have hn : n ≠ 32 := fun e => hv (by rw [e])
      exact ⟨.bad_value, by simp only [Except.bind, if_pos (Or.inr (Or.inr hn))]⟩
  · obtain ⟨kp, hk, hkey⟩ := keyword_of line _ hkw
    rw [hdr_line_of_keyword line kp v hk, hkey, entry_layout]
    rw [line_string_eq line kp hk] at hv
    cases hr : read_string (c_str line) kp.2 with
    | error e => exact ⟨e, rfl⟩
    | ok s =>
      rw [hr] at hv
      have hn : s ≠ str "bil" := fun e => hv (by rw [e])
      exact ⟨.bad_value, by simp only [Except.bind, if_pos (Or.inr (Or.inr hn))]⟩
  · obtain ⟨kp, hk, hkey⟩ := keyword_of line _ hkw
    rw [hdr_line_of_keyword line kp v hk, hkey, entry_numbertype]
    rw [line_string_eq line kp hk] at hv
    cases hr : read_string (c_str line) kp.2 with
    | error e => exact ⟨e, rfl⟩
    | ok s =>
      rw [hr] at hv
      have hn : s ≠ str "4_byte_float" := fun e => hv (by rw [e])
      refine ⟨.bad_value, ?_⟩
      simp only [Except.bind]
      repeat' split
      all_goals rfl
  · obtain ⟨kp, hk, hkey⟩ := keyword_of line _ hkw
    rw [hdr_line_of_keyword line kp v hk, hkey, entry_pixeltype]
    rw [line_string_eq line kp hk] at hv1 hv2
    cases hr : read_string (c_str line) kp.2 with
    | error e => exact ⟨e, rfl⟩
    | ok s =>
      rw [hr] at hv1 hv2
      have hn1 : s ≠ str "float" := fun e => hv1 (by rw [e])
      have hn2 : s ≠ str "floatingpoint" := fun e => hv2 (by rw [e])
      refine ⟨.bad_value, ?_⟩
      simp only [Except.bind]
      repeat' split
      all_goals first | rfl | (exact absurd (And.intro hn1 hn2) (by assumption))

theorem supported_format_line_ok (line : List Byte) (h : supported_format_line line = true)
    (v : HdrVars) : hdr_line line v = .ok v := by
  simp only [supported_format_line, Bool.or_eq_true, Bool.and_eq_true, beq_iff_eq] at h
  rcases h with (((⟨hkw, hv⟩ | ⟨hkw, hv⟩) | ⟨hkw, hv⟩) | ⟨hkw, hv⟩) | ⟨hkw, hv⟩
  · obtain ⟨kp, hk, hkey⟩ := keyword_of line _ hkw
    rw [hdr_line_of_keyword line kp v hk, hkey, entry_nbands, line_int_of line kp 1 hk hv]
    rfl
  · obtain ⟨kp, hk, hkey⟩ := keyword_of line _ hkw
    rw [hdr_line_of_keyword line kp v hk, hkey, entry_nbits, line_int_of line kp 32 hk hv]
    rfl
  · obtain ⟨kp, hk, hkey⟩ := keyword_of line _ hkw
    rw [hdr_line_of_keyword line kp v hk, hkey, entry_layout, line_string_of line kp _ hk hv]
    rfl
  · obtain ⟨kp, hk, hkey⟩ := keyword_of line _ hkw
    rw [hdr_line_of_keyword line kp v hk, hkey, entry_numbertype,
      line_string_of line kp _ hk hv]
    rfl
  · obtain ⟨kp, hk, hkey⟩ := keyword_of line _ hkw
    rcases hv with hv | hv
    · rw [hdr_line_of_keyword line kp v hk, hkey, entry_pixeltype,
        line_string_of line kp _ hk hv]
      rfl
    · rw [hdr_line_of_keyword line kp v hk, hkey, entry_pixeltype,
        line_string_of line kp _ hk hv]
      rfl

theorem hdr_fold_without_supported (lines : List (List Byte)) (v : HdrVars) :
    hdr_fold lines v = hdr_fold (lines.filter (fun l => !supported_format_line l)) v := by
  induction lines generalizing v with
  | nil => rfl
  | cons L Ls ih =>
    by_cases hs : supported_format_line L = true
    · rw [List.filter_cons_of_neg (by simp [hs]), hdr_fold, supported_format_line_ok L hs v]
      exact ih v
    · rw [List.filter_cons_of_pos (by simp [hs]), hdr_fold, hdr_fold]
      cases hdr_line L v with
      | error e => rfl
      | ok v2 => exact ih v2

/-- C17, as stated, does not hold for numbers outside the range of an `int`. The
conversion `%d` keeps the low 32 bits of the number it reads, so `nbands 4294967297` is
stored as 1 and `nbits 4294967328` as 32: a header with these lines, whose values are
other than 1 and 32, is accepted. -/
theorem format_number_out_of_range_accepted :
    line_int (str "nbands 4294967297\n") = some 1
    ∧ line_int (str "nbits 4294967328\n") = some 32
    ∧ read_hdr_file (text_of_lines ["ncols 2", "nrows 2", "nbands 4294967297",
        "nbits 4294967328", "xllcorner 0", "yllcorner 0", "cellsize 1"])
      = .ok { nrows := 2, ncols := 2, xmin := .fin false 0 (-1074),
              xmax := .fin false 4503599627370496 (-51), ymin := .fin false 0 (-1074),
              ymax := .fin false 4503599627370496 (-51), nodata := ⟨4286578687, by decide⟩,
              big_endian := false, skipbytes := 0, rowpad := 0, software := none } := by
  decide

/-- C17, amended. Unsupported format declarations. Write the value of an `nbands` or
`nbits` line for the `int` that `%d` stores (`line_int`: the number written when it is in
the range of an `int`, else its low 32 bits). For every header, if some line has keyword
`nbands` with a value other than 1 (or none readable), `nbits` with a value other than 32,
`layout` with a word other than `bil`, `numbertype` with a word other than `4_byte_float`,
or `pixeltype` with a word other than `float` and `floatingpoint` (`line_string` is the
word in lower case, so the comparison ignores case), then `read_hdr_file` fails. A line
with a supported value of one of these keywords succeeds and leaves every header
variable as it was, so the parse of any list of lines equals the parse of the list
without its supported format lines. -/
theorem unsupported_formats_rejected (h : List Byte) :
    (∀ line ∈ hdr_file_lines h,
      ((line_keyword line = some (str "nbands") ∧ line_int line ≠ some 1)
        ∨ (line_keyword line = some (str "nbits") ∧ line_int line ≠ some 32)
        ∨ (line_keyword line = some (str "layout") ∧ line_string line ≠ some (str "bil"))
        ∨ (line_keyword line = some (str "numbertype")
            ∧ line_string line ≠ some (str "4_byte_float"))
        ∨ (line_keyword line = some (str "pixeltype")
            ∧ line_string line ≠ some (str "float")
            ∧ line_string line ≠ some (str "floatingpoint"))) →
      ∃ e, read_hdr_file h = .error e)
    ∧ (∀ line ∈ hdr_file_lines h, supported_format_line line = true →
        ∀ v, hdr_line line v = .ok v)
    ∧ read_hdr_file h
        = (match hdr_fold ((hdr_file_lines h).filter (fun l => !supported_format_line l))
            hdr_init with
          | .error e => .error e
          | .ok v => hdr_resolve v) := by
  refine ⟨fun line hl hbad => ?_, fun line _ hs v => supported_format_line_ok line hs v, ?_⟩
  · exact read_hdr_file_error_of_line h line hl (bad_format_line line hbad)
  · rw [read_hdr_file_eq, hdr_fold_without_supported]

/-- C17 at concrete headers: `NBITS 16` is rejected, and a header whose format lines are
`nbands 1`, `NBITS 32`, `Layout BIL`, `numbertype 4_BYTE_FLOAT` and `pixeltype Float`
parses. -/
theorem unsupported_formats_rejected_witness :
    (∃ e, read_hdr_file (text_of_lines ["ncols 2", "nrows 2", "NBITS 16", "xllcorner 0",
        "yllcorner 0", "cellsize 1"]) = .error e)
    ∧ read_hdr_file (text_of_lines ["ncols 2", "nrows 2", "nbands 1", "NBITS 32",
        "Layout BIL", "numbertype 4_BYTE_FLOAT", "pixeltype Float", "xllcorner 0",
        "yllcorner 0", "cellsize 1"])
      = .ok { nrows := 2, ncols := 2, xmin := .fin false 0 (-1074),
              xmax := .fin false 4503599627370496 (-51), ymin := .fin false 0 (-1074),
              ymax := .fin false 4503599627370496 (-51), nodata := ⟨4286578687, by decide⟩,
              big_endian := false, skipbytes := 0, rowpad := 0, software := none } :=
  ⟨(unsupported_formats_rejected _).1 (str "NBITS 16\n") (by decide)
      (Or.inr (Or.inl ⟨by decide, by decide⟩)),
   ((unsupported_formats_rejected _).2.2).trans (by decide)⟩

theorem read_int_range (line : List Byte) (pos : Nat) (n : Int)
    (h : read_int line pos = .ok n) : -2147483648 ≤ n ∧ n ≤ 2147483647 := by
  rw [read_int] at h
  cases hs : scan_d (line.drop pos) with
  | none =>
    rw [hs] at h
    cases h
  | some v =>
    rw [hs] at h
    cases h
    exact wrap_int_range _

theorem size_line_ok (key line : List Byte) (v v2 : HdrVars)
    (hkey : key = str "ncols" ∨ key = str "nrows" ∨ key = str "bandrowbytes"
      ∨ key = str "totalrowbytes")
    (hkw : line_keyword line = some key) (h : hdr_line line v = .ok v2) :
    ∃ n, line_sets_int key line = some n ∧ 0 < n ∧ n ≤ 2147483647 := by
  obtain ⟨kp, hk, hkp⟩ := keyword_of line _ hkw
  rw [hdr_line_of_keyword line kp v hk, hkp] at h
  rcases hkey with rfl | rfl | rfl | rfl
  all_goals
    obtain ⟨n, hr, hpos, _⟩ :=
      int_entry_ok _ _ _ _ (h : (read_int (c_str line) kp.2).bind _ = _)
    exact ⟨n, line_sets_int_of _ _ kp n hk hkp hr, hpos, (read_int_range _ _ _ hr).2⟩

theorem last_set_cons {α : Type} (upd : List Byte → Option α) (L : List Byte)
    (Ls : List (List Byte)) (init : α) :
    last_set upd (L :: Ls) init = last_set upd Ls ((upd L).getD init) := rfl

theorem last_set_cases {α : Type} (upd : List Byte → Option α) (lines : List (List Byte))
    (init : α) :
    (last_set upd lines init = init ∧ ∀ line ∈ lines, upd line = none)
    ∨ ∃ line ∈ lines, upd line = some (last_set upd lines init) := by
  induction lines generalizing init with
  | nil => exact Or.inl ⟨rfl, fun l hl => absurd hl (List.not_mem_nil _)⟩
  | cons L Ls ih =>
    rw [last_set_cons]
    rcases ih ((upd L).getD init) with ⟨h1, h2⟩ | ⟨l, hl, h3⟩
    · cases hu : upd L with
      | none =>
        left
        rw [hu] at h1
        refine ⟨h1, fun l hl => ?_⟩
        rcases List.mem_cons.mp hl with e | e
        · rw [e]
          exact hu
        · exact h2 l e
      | some a =>
        right
        rw [hu] at h1
        exact ⟨L, List.mem_cons_self _ _, by rw [hu, h1]; rfl⟩
    · exact Or.inr ⟨l, List.mem_cons_of_mem _ hl, h3⟩

theorem hdr_fold_line_ok (lines : List (List Byte)) (v v2 : HdrVars)
    (h : hdr_fold lines v = .ok v2) :
    ∀ line ∈ lines, ∃ u u2, hdr_line line u = .ok u2 := by
  induction lines generalizing v with
  | nil => exact fun l hl => absurd hl (List.not_mem_nil _)
  | cons L Ls ih =>
    rw [hdr_fold] at h
    cases hL : hdr_line L v with
    | error e =>
      rw [hL] at h
      cases h
    | ok w =>
      rw [hL] at h
      intro l hl
      rcases List.mem_cons.mp hl with e | e
      · rw [e]
        exact ⟨v, w, hL⟩
      · exact ih w h l e

theorem line_sets_int_keyword (key line : List Byte) (n : Int)
    (h : line_sets_int key line = some n) : line_keyword line = some key := by
  rw [line_sets_int] at h
  by_cases hk : line_keyword line = some key
  · exact hk
  · rw [if_neg hk] at h
    cases h

/-- On a successful run of the loop, the value of a size keyword is 0 when the header has
no line of that keyword, and positive and in the range of an `int` when it has one. -/
theorem header_int_range (key h : List Byte) (v : HdrVars)
    (hkey : key = str "ncols" ∨ key = str "nrows" ∨ key = str "bandrowbytes"
      ∨ key = str "totalrowbytes")
    (hv : hdr_fold (hdr_file_lines h) hdr_init = .ok v) :
    ((∀ line ∈ hdr_file_lines h, line_keyword line ≠ some key) → header_int key h = 0)
    ∧ ((∃ line ∈ hdr_file_lines h, line_keyword line = some key) →
        0 < header_int key h ∧ header_int key h ≤ 2147483647) := by
  constructor
  · intro habs
    exact last_set_absent _ _ _ (fun l hl => line_sets_int_absent key l (habs l hl))
  · rintro ⟨line, hl, hkw⟩
    have hok := hdr_fold_line_ok _ _ _ hv
    rcases last_set_cases (line_sets_int key) (hdr_file_lines h) 0 with ⟨_, h2⟩ | ⟨l, hl2, h3⟩
    · obtain ⟨u, u2, hu⟩ := hok line hl
      obtain ⟨n, hn, _⟩ := size_line_ok key line u u2 hkey hkw hu
      rw [h2 line hl] at hn
      cases hn
    · obtain ⟨u, u2, hu⟩ := hok l hl2
      obtain ⟨n, hn, hpos, hle⟩ :=
        size_line_ok key l u u2 hkey (line_sets_int_keyword key l _ h3) hu
      rw [h3] at hn
      have e : header_int key h = n := Option.some.inj hn
      rw [e]
      exact ⟨hpos, hle⟩

/-- C18, as stated, does not hold. The check of `bandrowbytes` is made after the loop on
the value of the last line: the header `ncols 2`, `nrows 2`, `bandrowbytes 7`,
`bandrowbytes 8`, ... has a `bandrowbytes` line with the value 7, which is not 4*2, and
is accepted. And `4 * ncols` is an `int` product: with `ncols 1073741826` it wraps to 8,
so `bandrowbytes 8` is accepted and `totalrowbytes 16` gives `rowpad` 8. And `%d` keeps
the low 32 bits of a number: `bandrowbytes 4294967304` with `ncols 2` is stored as 8 and
accepted. -/
theorem row_bytes_check_uses_last_line :
    (str "bandrowbytes 7\n" ∈ hdr_file_lines (text_of_lines ["ncols 2", "nrows 2",
        "bandrowbytes 7", "bandrowbytes 8", "xllcorner 0", "yllcorner 0", "cellsize 1"])
      ∧ line_keyword (str "bandrowbytes 7\n") = some (str "bandrowbytes")
      ∧ line_int (str "bandrowbytes 7\n") = some 7
      ∧ header_int (str "ncols") (text_of_lines ["ncols 2", "nrows 2",
        "bandrowbytes 7", "bandrowbytes 8", "xllcorner 0", "yllcorner 0", "cellsize 1"]) = 2
      ∧ read_hdr_file (text_of_lines ["ncols 2", "nrows 2",
        "bandrowbytes 7", "bandrowbytes 8", "xllcorner 0", "yllcorner 0", "cellsize 1"])
        = .ok { nrows := 2, ncols := 2, xmin := .fin false 0 (-1074),
                xmax := .fin false 4503599627370496 (-51), ymin := .fin false 0 (-1074),
                ymax := .fin false 4503599627370496 (-51),
                nodata := ⟨4286578687, by decide⟩, big_endian := false, skipbytes := 0,
                rowpad := 0, software := none })
    ∧ (header_int (str "ncols") (text_of_lines ["ncols 1073741826", "nrows 2",
        "bandrowbytes 8", "totalrowbytes 16", "xllcorner 0", "yllcorner 0", "cellsize 1"])
        = 1073741826
      ∧ header_int (str "bandrowbytes") (text_of_lines ["ncols 1073741826", "nrows 2",
        "bandrowbytes 8", "totalrowbytes 16", "xllcorner 0", "yllcorner 0", "cellsize 1"])
        = 8
      ∧ ∃ r, read_hdr_file (text_of_lines ["ncols 1073741826", "nrows 2",
        "bandrowbytes 8", "totalrowbytes 16", "xllcorner 0", "yllcorner 0", "cellsize 1"])
        = .ok r ∧ r.rowpad = 8)
    ∧ (line_int (str "bandrowbytes 4294967304\n") = some 8
      ∧ read_hdr_file (text_of_lines ["ncols 2", "nrows 2", "bandrowbytes 4294967304",
        "xllcorner 0", "yllcorner 0", "cellsize 1"])
        = .ok { nrows := 2, ncols := 2, xmin := .fin false 0 (-1074),
                xmax := .fin false 4503599627370496 (-51), ymin := .fin false 0 (-1074),
                ymax := .fin false 4503599627370496 (-51),
                nodata := ⟨4286578687, by decide⟩, big_endian := false, skipbytes := 0,
                rowpad := 0, software := none }) := by
  refine ⟨⟨by decide, by decide, by decide, by decide, by decide⟩,
    ⟨by decide, by decide, ?_⟩, by decide, by decide⟩
  exact ⟨{ nrows := 2, ncols := 1073741826, xmin := .fin false 0 (-1074),
           xmax := .fin false 4503599635759104 (-22), ymin := .fin false 0 (-1074),
           ymax := .fin false 4503599627370496 (-51),
           nodata := ⟨4286578687, by decide⟩, big_endian := false, skipbytes := 0,
           rowpad := 8, software := none }, by decide, rfl⟩

/-- C18, amended. Write `ncols`, `bandrowbytes`, `totalrowbytes` for the values of the
last line of each keyword as `%d` stores them in an `int` (`header_int`: the number
written when it is in the range of an `int`, else its low 32 bits). On every successful
parse `rowpad` is not
negative. When `ncols` is at most 536870911, so that `4 * ncols` is computed without
overflow: a header that has a `bandrowbytes` line and whose `bandrowbytes` differs from
`4 * ncols` is rejected, wherever the lines stand; a header that has a `totalrowbytes`
line with `totalrowbytes < 4 * ncols` is rejected; and on success `rowpad` is
`totalrowbytes - 4 * ncols` when there is a `totalrowbytes` line and 0 when there is
none. -/
theorem row_bytes_validation (h : List Byte) :
    (∀ r, read_hdr_file h = .ok r → 0 ≤ r.rowpad)
    ∧ (header_int (str "ncols") h ≤ 536870911 →
        ((∃ line ∈ hdr_file_lines h, line_keyword line = some (str "bandrowbytes")) →
          header_int (str "bandrowbytes") h ≠ 4 * header_int (str "ncols") h →
          ∃ e, read_hdr_file h = .error e)
        ∧ ((∃ line ∈ hdr_file_lines h, line_keyword line = some (str "totalrowbytes")) →
          header_int (str "totalrowbytes") h < 4 * header_int (str "ncols") h →
          ∃ e, read_hdr_file h = .error e)
        ∧ (∀ r, read_hdr_file h = .ok r →
          ((∃ line ∈ hdr_file_lines h, line_keyword line = some (str "totalrowbytes")) →
            r.rowpad = header_int (str "totalrowbytes") h - 4 * header_int (str "ncols") h)
          ∧ ((∀ line ∈ hdr_file_lines h, line_keyword line ≠ some (str "totalrowbytes")) →
            r.rowpad = 0))) := by
  have key : ∀ r, read_hdr_file h = .ok r →
      0 ≤ r.rowpad
      ∧ (header_int (str "ncols") h ≤ 536870911 →
        ((∃ line ∈ hdr_file_lines h, line_keyword line = some (str "bandrowbytes")) →
          header_int (str "bandrowbytes") h = 4 * header_int (str "ncols") h)
        ∧ ((∃ line ∈ hdr_file_lines h, line_keyword line = some (str "totalrowbytes")) →
          r.rowpad = header_int (str "totalrowbytes") h - 4 * header_int (str "ncols") h)
        ∧ ((∀ line ∈ hdr_file_lines h, line_keyword line ≠ some (str "totalrowbytes")) →
          r.rowpad = 0)) := by
    intro r hok
    obtain ⟨v, hv, hres⟩ := read_hdr_file_ok h r hok
    obtain ⟨hc, _, hb, ht, _, _, _, _⟩ := header_vars h v hv
    obtain ⟨hn0, _, hband, hpad, _, _, _, _, _, _, hrow, _⟩ := hdr_resolve_ok v r hres
    rw [← hrow] at hpad
    refine ⟨hpad, fun hle => ?_⟩
    rw [hc] at hn0 hband hrow
    rw [hb] at hband
    rw [ht] at hrow
    have hncols := header_int_range (str "ncols") h v (Or.inl rfl) hv
    have hpos : 0 < header_int (str "ncols") h := by
      by_cases hex : ∃ line ∈ hdr_file_lines h, line_keyword line = some (str "ncols")
      · exact (hncols.2 hex).1
      · exact absurd (hncols.1 (fun l hl e => hex ⟨l, hl, e⟩)) hn0
    have hw : wrap_int (4 * header_int (str "ncols") h) = 4 * header_int (str "ncols") h :=
      wrap_int_of_range _ (by omega) (by omega)
    rw [hw] at hband hrow
    have hbr := header_int_range (str "bandrowbytes") h v (Or.inr (Or.inr (Or.inl rfl))) hv
    have htr := header_int_range (str "totalrowbytes") h v (Or.inr (Or.inr (Or.inr rfl))) hv
    refine ⟨fun hex => ?_, fun hex => ?_, fun habs => ?_⟩
    · have := (hbr.2 hex).1
      rcases hband with e | e
      · omega
      · exact e
    · have := htr.2 hex
      rw [hrow, if_pos (by omega), wrap_int_of_range _ (by omega) (by omega)]
    · rw [hrow, if_neg (by rw [htr.1 habs]; exact fun c => c rfl)]
  refine ⟨fun r hok => (key r hok).1, fun hle => ⟨fun hex hne => ?_, fun hex hlt => ?_,
    fun r hok => ((key r hok).2 hle).2⟩⟩
  · cases hr : read_hdr_file h with
    | error e => exact ⟨e, rfl⟩
    | ok r => exact absurd (((key r hr).2 hle).1 hex) hne
  · cases hr : read_hdr_file h with
    | error e => exact ⟨e, rfl⟩
    | ok r =>
      have h1 := (key r hr).1
      have h2 := (((key r hr).2 hle).2.1 hex)
      omega

/-- C18 at concrete headers: `bandrowbytes 7` before `ncols 2` and after it is rejected,
`totalrowbytes 7` with `ncols 2` is rejected, and `ncols 2` with `totalrowbytes 12` gives
`rowpad` 4. -/
theorem row_bytes_validation_witness :
    (∃ e, read_hdr_file (text_of_lines ["bandrowbytes 7", "ncols 2", "nrows 2",
        "xllcorner 0", "yllcorner 0", "cellsize 1"]) = .error e)
    ∧ (∃ e, read_hdr_file (text_of_lines ["ncols 2", "nrows 2", "bandrowbytes 7",
        "xllcorner 0", "yllcorner 0", "cellsize 1"]) = .error e)
    ∧ (∃ e, read_hdr_file (text_of_lines ["ncols 2", "nrows 2", "totalrowbytes 7",
        "xllcorner 0", "yllcorner 0", "cellsize 1"]) = .error e)
    ∧ (∀ r, read_hdr_file (text_of_lines ["ncols 2", "nrows 2", "bandrowbytes 8",
        "totalrowbytes 12", "xllcorner 0", "yllcorner 0", "cellsize 1"]) = .ok r →
        r.rowpad = 4) :=
  ⟨((row_bytes_validation _).2 (by decide)).1
      ⟨str "bandrowbytes 7\n", by decide, by decide⟩ (by decide),
   ((row_bytes_validation _).2 (by decide)).1
      ⟨str "bandrowbytes 7\n", by decide, by decide⟩ (by decide),
   ((row_bytes_validation _).2 (by decide)).2.1
      ⟨str "totalrowbytes 7\n", by decide, by decide⟩ (by decide),
   fun r hok => ((((row_bytes_validation _).2 (by decide)).2.2 r hok).1
      ⟨str "totalrowbytes 12\n", by decide, by decide⟩).trans (by decide)⟩

theorem lt_zero_of_pos (x : Fp) (h : Fp.lt dbl_0 x = true) : Fp.lt x dbl_0 = false := by
  cases x with
  | nan => rfl
  | inf n =>
    cases n
    · rfl
    · cases h
  | fin n m e =>
    simp only [Fp.lt, dbl_0, decide_eq_true_iff, decide_eq_false_iff_not, not_lt] at h ⊢
    rw [min_comm] at h
    exact le_of_lt h

/-- C19. Coordinate resolution with positive cell dimensions. Let `read_hdr_file` succeed
with the result `r`, and let the last X origin line of the header be of the kind
`header_x_origin` says with the coordinate `c`, the last cell size for X be `xdim > 0`.
For `xllcorner` (kind 1) `xmin = c` and `xmax = c + xdim * ncols`; for `xllcenter` and
`ulxmap` (kinds 2, 3) `xmin = c - xdim * 0.5` and `xmax = c + xdim * (ncols - 0.5)`. With
`ydim > 0`: for `yllcorner` `ymin = c` and `ymax = c + ydim * nrows`; for `yllcenter`
`ymin = c - ydim * 0.5` and `ymax = c + ydim * (nrows - 0.5)`; for `ulymap`
`ymax = c + ydim * 0.5` and `ymin = c - ydim * (nrows - 0.5)`. The sums and products
are those of `double`, and `ncols`, `nrows` are the counts returned, which are the values
of the last `ncols` and `nrows` lines. -/
theorem coordinate_resolution (h : List Byte) (r : HdrInfo) (hok : read_hdr_file h = .ok r) :
    r.ncols = header_int (str "ncols") h ∧ r.nrows = header_int (str "nrows") h
    ∧ (Fp.lt dbl_0 (header_xdim h) = true →
        (∀ c, header_x_origin h = (1, c) →
          r.xmin = c
          ∧ r.xmax = Fp.add64 c (Fp.mul64 (header_xdim h) (Fp.of_int r.ncols)))
        ∧ (∀ c, header_x_origin h = (2, c) ∨ header_x_origin h = (3, c) →
          r.xmin = Fp.sub64 c (Fp.mul64 (header_xdim h) dbl_half)
          ∧ r.xmax = Fp.add64 c
              (Fp.mul64 (header_xdim h) (Fp.sub64 (Fp.of_int r.ncols) dbl_half))))
    ∧ (Fp.lt dbl_0 (header_ydim h) = true →
        (∀ c, header_y_origin h = (1, c) →
          r.ymin = c
          ∧ r.ymax = Fp.add64 c (Fp.mul64 (header_ydim h) (Fp.of_int r.nrows)))
        ∧ (∀ c, header_y_origin h = (2, c) →
          r.ymin = Fp.sub64 c (Fp.mul64 (header_ydim h) dbl_half)
          ∧ r.ymax = Fp.add64 c
              (Fp.mul64 (header_ydim h) (Fp.sub64 (Fp.of_int r.nrows) dbl_half)))
        ∧ (∀ c, header_y_origin h = (3, c) →
          r.ymax = Fp.add64 c (Fp.mul64 (header_ydim h) dbl_half)
          ∧ r.ymin = Fp.sub64 c
              (Fp.mul64 (header_ydim h) (Fp.sub64 (Fp.of_int r.nrows) dbl_half)))) := by
  obtain ⟨v, hv, hres⟩ := read_hdr_file_ok h r hok
  obtain ⟨hc, hr, _, _, hxd, hyd, hxo, hyo⟩ := header_vars h v hv
  obtain ⟨_, _, _, _, _, _, _, _, rc, rr, _, rxmin, rxmax, rymin, rymax⟩ :=
    hdr_resolve_ok v r hres
  rw [hxd] at rxmin rxmax
  rw [hyd] at rymin rymax
  rw [← rc] at rxmin rxmax
  rw [← rr] at rymin rymax
  refine ⟨by rw [rc, hc], by rw [rr, hr], fun hx => ?_, fun hy => ?_⟩
  · rw [lt_zero_of_pos _ hx] at rxmin rxmax
    refine ⟨fun c ho => ?_, fun c ho => ?_⟩
    · rw [ho] at hxo
      have e1 : v.xcoord_type = 1 := congrArg Prod.fst hxo
      have e2 : v.xcoord = c := congrArg Prod.snd hxo
      rw [e1, e2] at rxmin rxmax
      exact ⟨rxmin, rxmax⟩
    · have e1 : v.xcoord_type ≠ 1 ∧ v.xcoord = c := by
        rcases ho with ho | ho
        all_goals
          rw [ho] at hxo
          have a1 : v.xcoord_type = _ := congrArg Prod.fst hxo
          have a2 : v.xcoord = c := congrArg Prod.snd hxo
          exact ⟨by rw [a1]; simp, a2⟩
      rw [e1.2] at rxmin rxmax
      simp only [if_neg e1.1] at rxmin rxmax
      exact ⟨rxmin, rxmax⟩
  · rw [lt_zero_of_pos _ hy] at rymin rymax
    refine ⟨fun c ho => ?_, fun c ho => ?_, fun c ho => ?_⟩
    all_goals
      rw [ho] at hyo
      have e1 : v.ycoord_type = _ := congrArg Prod.fst hyo
      have e2 : v.ycoord = c := congrArg Prod.snd hyo
      rw [e1, e2] at rymin rymax
    · exact ⟨rymin, rymax⟩
    · exact ⟨rymin, rymax⟩
    · exact ⟨rymax, rymin⟩

/-- C19 at the header `ncols 2`, `nrows 2`, `xllcorner 0`, `yllcorner 0`, `cellsize 1`:
the parse succeeds with `xmin = 0`, `xmax = 2`, `ymin = 0`, `ymax = 2`, the values that
the formulas for `xllcorner` and `yllcorner` give. -/
theorem coordinate_resolution_witness :
    read_hdr_file (text_of_lines ["ncols 2", "nrows 2", "xllcorner 0", "yllcorner 0",
        "cellsize 1"])
      = .ok { nrows := 2, ncols := 2, xmin := .fin false 0 (-1074),
              xmax := .fin false 4503599627370496 (-51), ymin := .fin false 0 (-1074),
              ymax := .fin false 4503599627370496 (-51), nodata := ⟨4286578687, by decide⟩,
              big_endian := false, skipbytes := 0, rowpad := 0, software := none }
    ∧ Fp.eq (.fin false 0 (-1074)) (Fp.of_int 0) = true
    ∧ Fp.eq (.fin false 4503599627370496 (-51)) (Fp.of_int 2) = true
    ∧ ((Fp.fin false 0 (-1074) = Fp.fin false 0 (-1074)
        ∧ Fp.fin false 4503599627370496 (-51)
          = Fp.add64 (.fin false 0 (-1074))
              (Fp.mul64 (header_xdim (text_of_lines ["ncols 2", "nrows 2", "xllcorner 0",
                "yllcorner 0", "cellsize 1"])) (Fp.of_int 2)))
      ∧ (Fp.fin false 0 (-1074) = Fp.fin false 0 (-1074)
        ∧ Fp.fin false 4503599627370496 (-51)
          = Fp.add64 (.fin false 0 (-1074))
              (Fp.mul64 (header_ydim (text_of_lines ["ncols 2", "nrows 2", "xllcorner 0",
                "yllcorner 0", "cellsize 1"])) (Fp.of_int 2)))) :=
  ⟨by decide, by decide, by decide,
   ((coordinate_resolution _
      { nrows := 2, ncols := 2, xmin := .fin false 0 (-1074),
        xmax := .fin false 4503599627370496 (-51), ymin := .fin false 0 (-1074),
        ymax := .fin false 4503599627370496 (-51), nodata := ⟨4286578687, by decide⟩,
        big_endian := false, skipbytes := 0, rowpad := 0, software := none }
      (by decide)).2.2.1 (by decide)).1 (.fin false 0 (-1074)) (by decide),
   ((coordinate_resolution _
      { nrows := 2, ncols := 2, xmin := .fin false 0 (-1074),
        xmax := .fin false 4503599627370496 (-51), ymin := .fin false 0 (-1074),
        ymax := .fin false 4503599627370496 (-51), nodata := ⟨4286578687, by decide⟩,
        big_endian := false, skipbytes := 0, rowpad := 0, software := none }
      (by decide)).2.2.2 (by decide)).1 (.fin false 0 (-1074)) (by decide)⟩

theorem toRat_fin (n : Bool) (m : Nat) (e : Int) :
    (Fp.fin n m e).toRat = (if n then -1 else 1) * ((m : ℚ) * (2 : ℚ) ^ e) := by
  rw [Fp.toRat, mul_assoc]

theorem round_rne_snd (p : Nat) (emin : Int) (m : Nat) (e : Int) :
    (round_rne p emin m e).2 = max emin (e + bitlen m - p) := by
  rw [round_rne]
  split <;> rfl

theorem double_lt_pow (a : Nat) (ea : Int) (h : ea + bitlen a ≤ 1024) :
    (a : ℚ) * (2 : ℚ) ^ ea < (2 : ℚ) ^ (1024 : Int) := by
  rcases Nat.eq_zero_or_pos a with h0 | h0
  · subst h0
    simp only [Nat.cast_zero, zero_mul]
    exact zpow_pos (by norm_num) _
  · obtain ⟨_, b2, _⟩ := bitlen_spec a h0
    have h1 : (a : ℚ) < (2 : ℚ) ^ ((bitlen a : Nat) : Int) := by
      rw [zpow_natCast]
      exact_mod_cast b2
    have h2 : (a : ℚ) * (2 : ℚ) ^ ea < (2 : ℚ) ^ ((bitlen a : Nat) : Int) * (2 : ℚ) ^ ea :=
      mul_lt_mul_of_pos_right h1 (zpow_pos (by norm_num) _)
    rw [← zpow_add₀ (by norm_num : (2 : ℚ) ≠ 0)] at h2
    exact lt_of_lt_of_le h2 (zpow_le_zpow_right₀ (by norm_num) (by omega))

/-- Rounding to `double` keeps the sign. -/
theorem round64_cases (neg : Bool) (m : Nat) (e : Int) :
    Fp.round64 (.fin neg m e) = .inf neg
    ∨ Fp.round64 (.fin neg m e)
        = .fin neg (round_rne 53 (-1074) m e).1 (round_rne 53 (-1074) m e).2 := by
  rw [Fp.round64]
  split
  · exact Or.inl rfl
  · exact Or.inr rfl

/-- Rounding to `double` a value that is at most a `double` gives a finite number that is
at most that `double`. -/
theorem round64_le_double (neg : Bool) (m : Nat) (e : Int) (a : Nat) (ea : Int) (hm : 0 < m)
    (ha : a ≤ 2 ^ 53) (hea : -1074 ≤ ea) (hb : ea + bitlen a ≤ 1024)
    (h : (m : ℚ) * (2 : ℚ) ^ e ≤ (a : ℚ) * (2 : ℚ) ^ ea) :
    Fp.round64 (.fin neg m e)
        = .fin neg (round_rne 53 (-1074) m e).1 (round_rne 53 (-1074) m e).2
    ∧ ((round_rne 53 (-1074) m e).1 : ℚ) * (2 : ℚ) ^ (round_rne 53 (-1074) m e).2
        ≤ (a : ℚ) * (2 : ℚ) ^ ea := by
  have hle := round_rne_le 53 (-1074) m e a ea ha (by decide) hea h
  refine ⟨?_, hle⟩
  have hlt := double_lt_pow a ea hb
  rw [Fp.round64]
  rw [if_neg]
  rcases Nat.eq_zero_or_pos (round_rne 53 (-1074) m e).1 with h0 | h0
  · rw [h0, round_rne_snd]
    have h1 : e + bitlen m ≤ 1024 :=
      bitlen_le_of_value m e 1024 hm (lt_of_le_of_lt h hlt)
    have : bitlen 0 = 0 := rfl
    omega
  · have := bitlen_le_of_value _ _ 1024 h0 (lt_of_le_of_lt hle hlt)
    omega

/-- Rounding to `double` a value that is at least a `double` gives an infinity or a finite
number that is at least that `double`. -/
theorem round64_ge_double (neg : Bool) (m : Nat) (e : Int) (a : Nat) (ea : Int)
    (ha : a ≤ 2 ^ 53) (hea : -1074 ≤ ea)
    (h : (a : ℚ) * (2 : ℚ) ^ ea ≤ (m : ℚ) * (2 : ℚ) ^ e) :
    Fp.round64 (.fin neg m e) = .inf neg
    ∨ (Fp.round64 (.fin neg m e)
        = .fin neg (round_rne 53 (-1074) m e).1 (round_rne 53 (-1074) m e).2
      ∧ (a : ℚ) * (2 : ℚ) ^ ea
        ≤ ((round_rne 53 (-1074) m e).1 : ℚ) * (2 : ℚ) ^ (round_rne 53 (-1074) m e).2) := by
  rcases round64_cases neg m e with h1 | h1
  · exact Or.inl h1
  · exact Or.inr ⟨h1, round_rne_ge 53 (-1074) m e a ea ha (by decide) hea h⟩

/-- The sum of two finite numbers: a zero when the exact sum is zero, and otherwise the
exact sum, with its sign, rounded to `double`. -/
theorem add64_fin_cases (n1 n2 : Bool) (m1 m2 : Nat) (e1 e2 : Int) :
    ((∃ n b, Fp.add64 (.fin n1 m1 e1) (.fin n2 m2 e2) = .fin n 0 b)
      ∧ (Fp.fin n1 m1 e1).toRat + (Fp.fin n2 m2 e2).toRat = 0)
    ∨ ∃ (M : Nat) (b : Int), 0 < M
      ∧ ((Fp.add64 (.fin n1 m1 e1) (.fin n2 m2 e2) = Fp.round64 (.fin false M b)
          ∧ (Fp.fin n1 m1 e1).toRat + (Fp.fin n2 m2 e2).toRat = (M : ℚ) * (2 : ℚ) ^ b)
        ∨ (Fp.add64 (.fin n1 m1 e1) (.fin n2 m2 e2) = Fp.round64 (.fin true M b)
          ∧ (Fp.fin n1 m1 e1).toRat + (Fp.fin n2 m2 e2).toRat
            = -((M : ℚ) * (2 : ℚ) ^ b))) := by
  have hsum : (Fp.fin n1 m1 e1).toRat + (Fp.fin n2 m2 e2).toRat
      = ((Fp.scaled n1 m1 e1 (min e1 e2) + Fp.scaled n2 m2 e2 (min e1 e2) : Int) : ℚ)
        * (2 : ℚ) ^ (min e1 e2) := by
    rw [← scaled_toRat n1 m1 e1 (min e1 e2) (min_le_left _ _),
      ← scaled_toRat n2 m2 e2 (min e1 e2) (min_le_right _ _)]
    push_cast
    ring
  rw [hsum]
  generalize hs : Fp.scaled n1 m1 e1 (min e1 e2) + Fp.scaled n2 m2 e2 (min e1 e2) = s
  have hadd : Fp.add64 (.fin n1 m1 e1) (.fin n2 m2 e2)
      = if s = 0 then .fin (n1 && n2) 0 (min e1 e2)
        else Fp.round64 (.fin (decide (s < 0)) s.natAbs (min e1 e2)) := by
    rw [← hs]
    rfl
  rw [hadd]
  by_cases h0 : s = 0
  · left
    rw [if_pos h0, h0]
    exact ⟨⟨_, _, rfl⟩, by simp⟩
  · right
    rw [if_neg h0]
    refine ⟨s.natAbs, min e1 e2, by omega, ?_⟩
    rcases lt_or_gt_of_ne h0 with hneg | hpos
    · right
      refine ⟨by rw [decide_eq_true hneg], ?_⟩
      have e : ((s.natAbs : Nat) : ℚ) = -(s : ℚ) := by
        have : ((s.natAbs : Nat) : Int) = -s := by omega
        rw [← Int.cast_natCast, this, Int.cast_neg]
      rw [e]
      ring
    · left
      refine ⟨by rw [decide_eq_false (by omega)], ?_⟩
      have e : ((s.natAbs : Nat) : ℚ) = (s : ℚ) := by
        have : ((s.natAbs : Nat) : Int) = s := by omega
        rw [← Int.cast_natCast, this]
      rw [e]

theorem toRat_true (m : Nat) (e : Int) :
    (Fp.fin true m e).toRat = -((m : ℚ) * (2 : ℚ) ^ e) := by
  simp [Fp.toRat]

theorem mag_nonneg (m : Nat) (e : Int) : (0 : ℚ) ≤ (m : ℚ) * (2 : ℚ) ^ e :=
  mul_nonneg (Nat.cast_nonneg _) (zpow_pos (by norm_num) _).le

theorem le_inf_false (n : Bool) (m : Nat) (e : Int) :
    Fp.le (.fin n m e) (.inf false) = true := rfl

theorem inf_true_le (n : Bool) (m : Nat) (e : Int) :
    Fp.le (.inf true) (.fin n m e) = true := rfl

theorem is_double_fin (n : Bool) (m : Nat) (e : Int) (h : Fp.is_double (.fin n m e) = true) :
    -1074 ≤ e ∧ m ≤ 2 ^ 53 ∧ e + bitlen m ≤ 1024 := by
  simpa only [Fp.is_double, decide_eq_true_eq] using h

/-- Adding a value that is not negative to a finite `double` does not give less. -/
theorem add64_ge (nc : Bool) (mc : Nat) (ec : Int) (p : Fp)
    (hd : Fp.is_double (.fin nc mc ec) = true) (hp : p.has_sign false = true) :
    Fp.le (.fin nc mc ec) (Fp.add64 (.fin nc mc ec) p) = true := by
  obtain ⟨d1, d2, d3⟩ := is_double_fin nc mc ec hd
  cases p with
  | nan => cases hp
  | inf n =>
    cases n
    · rfl
    · cases hp
  | fin np mp ep =>
    cases np
    swap
    · cases hp
    have hP := mag_nonneg mp ep
    rcases add64_fin_cases nc false mc mp ec ep with
      ⟨⟨n, b, hr⟩, hv⟩ | ⟨M, b, hM, ⟨hr, hv⟩ | ⟨hr, hv⟩⟩
    · rw [hr, le_fin_iff]
      rw [toRat_pos] at hv
      have : (Fp.fin n 0 b).toRat = 0 := by simp [Fp.toRat]
      rw [this]
      linarith
    · rw [hr]
      rw [toRat_pos] at hv
      cases nc
      · rw [toRat_pos] at hv
        rcases round64_ge_double false M b mc ec d2 d1 (by linarith) with h1 | ⟨h1, h2⟩
        · rw [h1]
          rfl
        · rw [h1, le_fin_iff, toRat_pos, toRat_pos]
          exact h2
      · rcases round64_cases false M b with h1 | h1
        · rw [h1]
          rfl
        · rw [h1, le_fin_iff, toRat_pos, toRat_true]
          have := mag_nonneg mc ec
          have := mag_nonneg (round_rne 53 (-1074) M b).1 (round_rne 53 (-1074) M b).2
          linarith
    · rw [hr]
      rw [toRat_pos] at hv
      have hMb := mag_nonneg M b
      cases nc
      · rw [toRat_pos] at hv
        have := mag_nonneg mc ec
        have hM0 : (0 : ℚ) < (M : ℚ) * (2 : ℚ) ^ b :=
          mul_pos (by exact_mod_cast hM) (zpow_pos (by norm_num) _)
        linarith
      · rw [toRat_true] at hv
        obtain ⟨h1, h2⟩ := round64_le_double true M b mc ec hM d2 d1 d3 (by linarith)
        rw [h1, le_fin_iff, toRat_true, toRat_true]
        linarith

/-- Adding a value that is not positive to a finite `double` does not give more. -/
theorem add64_le (nc : Bool) (mc : Nat) (ec : Int) (p : Fp)
    (hd : Fp.is_double (.fin nc mc ec) = true) (hp : p.has_sign true = true) :
    Fp.le (Fp.add64 (.fin nc mc ec) p) (.fin nc mc ec) = true := by
  obtain ⟨d1, d2, d3⟩ := is_double_fin nc mc ec hd
  cases p with
  | nan => cases hp
  | inf n =>
    cases n
    · cases hp
    · rfl
  | fin np mp ep =>
    cases np
    · cases hp
    have hP := mag_nonneg mp ep
    rcases add64_fin_cases nc true mc mp ec ep with
      ⟨⟨n, b, hr⟩, hv⟩ | ⟨M, b, hM, ⟨hr, hv⟩ | ⟨hr, hv⟩⟩
    · rw [hr, le_fin_iff]
      rw [toRat_true] at hv
      have : (Fp.fin n 0 b).toRat = 0 := by simp [Fp.toRat]
      rw [this]
      linarith
    · rw [hr]
      rw [toRat_true] at hv
      have hM0 : (0 : ℚ) < (M : ℚ) * (2 : ℚ) ^ b :=
        mul_pos (by exact_mod_cast hM) (zpow_pos (by norm_num) _)
      cases nc
      · rw [toRat_pos] at hv
        obtain ⟨h1, h2⟩ := round64_le_double false M b mc ec hM d2 d1 d3 (by linarith)
        rw [h1, le_fin_iff, toRat_pos, toRat_pos]
        exact h2
      · rw [toRat_true] at hv
        have := mag_nonneg mc ec
        linarith
    · rw [hr]
      rw [toRat_true] at hv
      cases nc
      · rcases round64_cases true M b with h1 | h1
        · rw [h1]
          rfl
        · rw [h1, le_fin_iff, toRat_pos, toRat_true]
          have := mag_nonneg mc ec
          have := mag_nonneg (round_rne 53 (-1074) M b).1 (round_rne 53 (-1074) M b).2
          linarith
      · rw [toRat_true] at hv
        rcases round64_ge_double true M b mc ec d2 d1 (by linarith) with h1 | ⟨h1, h2⟩
        · rw [h1]
          rfl
        · rw [h1, le_fin_iff, toRat_true, toRat_true]
          linarith

theorem le_refl_fin (n : Bool) (m : Nat) (e : Int) :
    Fp.le (.fin n m e) (.fin n m e) = true := by
  rw [le_fin_iff]

/-- The comparison `<=` is transitive through a finite number. -/
theorem le_trans_fin (a b : Fp) (n : Bool) (m : Nat) (e : Int)
    (h1 : Fp.le a (.fin n m e) = true) (h2 : Fp.le (.fin n m e) b = true) :
    Fp.le a b = true := by
  cases a with
  | nan => cases h1
  | inf na =>
    cases na
    · cases h1
    · cases b with
      | nan => cases h2
      | inf nb => cases nb <;> rfl
      | fin nb mb eb => rfl
  | fin na ma ea =>
    cases b with
    | nan => cases h2
    | inf nb =>
      cases nb
      · rfl
      · cases h2
    | fin nb mb eb =>
      rw [le_fin_iff] at h1 h2 ⊢
      exact le_trans h1 h2

theorem has_sign_round64 (n : Bool) (m : Nat) (e : Int) :
    (Fp.round64 (.fin n m e)).has_sign n = true := by
  rcases round64_cases n m e with h | h
  all_goals
    rw [h]
    simp [Fp.has_sign]

/-- The product of a value that is not a NaN with a finite positive number has the sign of
the value. -/
theorem mul64_sign (x : Fp) (s : Bool) (m : Nat) (e : Int) (hx : x.has_sign s = true)
    (hm : m ≠ 0) : (Fp.mul64 x (.fin false m e)).has_sign s = true := by
  cases x with
  | nan => cases hx
  | inf n =>
    have e1 : n = s := by simpa [Fp.has_sign] using hx
    subst e1
    show (if m = 0 then Fp.nan else Fp.inf (n != false)).has_sign n = true
    rw [if_neg hm]
    cases n <;> rfl
  | fin n mx ex =>
    have e1 : n = s := by simpa [Fp.has_sign] using hx
    subst e1
    show (Fp.round64 (.fin (n != false) (mx * m) (ex + e))).has_sign n = true
    have e2 : (n != false) = n := by cases n <;> rfl
    rw [e2]
    exact has_sign_round64 n _ _

theorem has_sign_neg (x : Fp) (s : Bool) (hx : x.has_sign s = true) :
    (Fp.neg x).has_sign (!s) = true := by
  cases x with
  | nan => cases hx
  | inf n =>
    have e1 : n = s := by simpa [Fp.has_sign] using hx
    subst e1
    simp [Fp.neg, Fp.has_sign]
  | fin n m e =>
    have e1 : n = s := by simpa [Fp.has_sign] using hx
    subst e1
    simp [Fp.neg, Fp.has_sign]

/-- A value that is neither a NaN nor a zero has the sign that the test `x < 0.0` tells. -/
theorem sign_of_nonzero (x : Fp) (hx : x ≠ .nan) (h0 : Fp.eq x dbl_0 = false) :
    x.has_sign (Fp.lt x dbl_0) = true := by
  cases x with
  | nan => exact absurd rfl hx
  | inf n => cases n <;> rfl
  | fin n m e =>
    cases n
    · have : Fp.lt (.fin false m e) dbl_0 = false := by
        simp only [Fp.lt, dbl_0, decide_eq_false_iff_not, not_lt]
        have h1 := scaled_nonneg m e (min e 0)
        have h2 : Fp.scaled false 0 0 (min e 0) = 0 := by simp [Fp.scaled]
        rw [h2]
        exact h1
      rw [this]
      rfl
    · have : Fp.lt (.fin true m e) dbl_0 = true := by
        simp only [Fp.eq, dbl_0, decide_eq_false_iff_not] at h0
        simp only [Fp.lt, dbl_0, decide_eq_true_eq]
        have h2 : Fp.scaled false 0 0 (min e 0) = 0 := by simp [Fp.scaled]
        rw [h2] at h0 ⊢
        have h3 : Fp.scaled true m e (min e 0) ≤ 0 := by
          simp only [Fp.scaled, if_true]
          omega
        omega
      rw [this]
      rfl

theorem of_int_form (n : Int) (h : 1 ≤ n) :
    Fp.of_int n = .fin false n.natAbs 0 ∧ n.natAbs ≠ 0 := by
  refine ⟨?_, by omega⟩
  rw [Fp.of_int, decide_eq_false (by omega)]

/-- The difference `n - 0.5` for a count `n` is a finite positive number. -/
theorem sub_half_form (n : Int) (h1 : 1 ≤ n) (h2 : n ≤ 2147483647) :
    ∃ m e, Fp.sub64 (Fp.of_int n) dbl_half = .fin false m e ∧ m ≠ 0 := by
  rw [(of_int_form n h1).1]
  have hsub : Fp.sub64 (.fin false n.natAbs 0) dbl_half
      = Fp.add64 (.fin false n.natAbs 0) (.fin true 1 (-1)) := rfl
  rw [hsub]
  have hn : ((n.natAbs : Nat) : ℚ) = (n : ℚ) := by
    have : ((n.natAbs : Nat) : Int) = n := by omega
    rw [← Int.cast_natCast, this]
  have hval : (Fp.fin false n.natAbs 0).toRat + (Fp.fin true 1 (-1)).toRat
      = (n : ℚ) - 1 / 2 := by
    rw [toRat_pos, toRat_true, hn]
    norm_num
    ring
  have hn1 : (1 : ℚ) ≤ (n : ℚ) := by exact_mod_cast h1
  have hn2 : (n : ℚ) ≤ 2147483647 := by exact_mod_cast h2
  rcases add64_fin_cases false true n.natAbs 1 0 (-1) with
    ⟨_, hv⟩ | ⟨M, b, hM, ⟨hr, hv⟩ | ⟨_, hv⟩⟩
  · rw [hval] at hv
    linarith
  · rw [hval] at hv
    have hlt : (M : ℚ) * (2 : ℚ) ^ b < (2 : ℚ) ^ (1023 : Int) := by
      rw [← hv]
      have : (2147483647 : ℚ) < (2 : ℚ) ^ (1023 : Int) := by
        have a1 : (2 : ℚ) ^ (31 : Int) ≤ (2 : ℚ) ^ (1023 : Int) :=
          zpow_le_zpow_right₀ (by norm_num) (by norm_num)
        have a2 : (2 : ℚ) ^ (31 : Int) = 2147483648 := by norm_num
        linarith
      linarith
    rw [hr, round64_fin false M b hM hlt]
    refine ⟨_, _, rfl, fun hz => ?_⟩
    have hge := round_rne_ge 53 (-1074) M b 1 (-1) (by norm_num) (by decide) (by decide)
      (by rw [← hv]; norm_num; linarith)
    rw [hz] at hge
    norm_num at hge
  · rw [hval] at hv
    have := mag_nonneg M b
    linarith

theorem round_ratio_sig_le (a b : Nat) : (round_ratio 53 (-1074) a b).1 ≤ 2 ^ 53 := by
  rw [round_ratio]
  by_cases ha : a = 0
  · rw [if_pos ha]
    exact Nat.zero_le _
  · rw [if_neg ha]
    simp only []
    generalize hq : max (-1074 : Int) (bin_exp a b + 1 - ((53 : Nat) : Int)) = q
    rcases Nat.eq_zero_or_pos b with hb | hb
    · subst hb
      rw [round_div, Nat.zero_mul, Nat.div_zero]
      split <;> norm_num
    · have hd : 0 < b * 2 ^ q.toNat := Nat.mul_pos hb (Nat.two_pow_pos _)
      apply round_div_le _ _ _ hd
      have hdq : (0 : ℚ) < ((b * 2 ^ q.toNat : Nat) : ℚ) := by exact_mod_cast hd
      have h1 := (bin_exp_bounds a b (Nat.pos_of_ne_zero ha) hb).2
      have h2 := ratio_scaled_value a b q
      have h3 : (a : ℚ) / b * (2 : ℚ) ^ (-q) ≤ (2 : ℚ) ^ (53 : Int) := by
        have h4 : (a : ℚ) / b * (2 : ℚ) ^ (-q)
            ≤ (2 : ℚ) ^ (bin_exp a b + 1) * (2 : ℚ) ^ (-q) :=
          mul_le_mul_of_nonneg_right h1.le (zpow_pos (by norm_num) _).le
        rw [← zpow_add₀ (by norm_num : (2 : ℚ) ≠ 0)] at h4
        exact le_trans h4 (zpow_le_zpow_right₀ (by norm_num) (by omega))
      rw [← h2, div_le_iff₀ hdq] at h3
      have h5 : ((a * 2 ^ (-q).toNat : Nat) : ℚ) ≤ ((2 ^ 53 * (b * 2 ^ q.toNat) : Nat) : ℚ) := by
        refine le_trans h3 (le_of_eq ?_)
        push_cast
        norm_num
      exact_mod_cast h5

theorem round_ratio_exp_ge (a b : Nat) : -1074 ≤ (round_ratio 53 (-1074) a b).2 := by
  rw [round_ratio]
  split
  · exact le_refl _
  · exact le_max_left _ _

/-- The `double` nearest to a ratio is a `double`. -/
theorem ratio64_is_double (neg : Bool) (a b : Nat) : (Fp.ratio64 neg a b).is_double = true := by
  rw [Fp.ratio64]
  split
  · rfl
  · rename_i h
    simp only [Fp.is_double, decide_eq_true_eq]
    exact ⟨round_ratio_exp_ge a b, round_ratio_sig_le a b, by omega⟩

theorem scan_lf_is_double (s : List Byte) (x : Fp) (h : scan_lf s = some x) :
    x.is_double = true := by
  rw [scan_lf] at h
  split at h
  · cases h
  · cases h
    rfl
  · cases h
    rfl
  · cases h
    exact ratio64_is_double _ _ _

theorem read_double_is_double (line : List Byte) (pos : Nat) (x : Fp)
    (h : read_double line pos = .ok x) : x.is_double = true := by
  rw [read_double] at h
  cases hs : scan_lf (line.drop pos) with
  | none =>
    rw [hs] at h
    cases h
  | some v =>
    rw [hs] at h
    cases h
    exact scan_lf_is_double _ _ hs

theorem line_double_is_double (line : List Byte) (x : Fp) (h : line_double line = some x) :
    x.is_double = true := by
  rw [line_double] at h
  cases hk : scan_keyword (c_str line) with
  | none =>
    rw [hk] at h
    cases h
  | some kp =>
    rw [hk] at h
    simp only [] at h
    cases hr : read_double (c_str line) kp.2 with
    | error e =>
      rw [hr] at h
      cases h
    | ok v =>
      rw [hr] at h
      cases h
      exact read_double_is_double _ _ _ hr

theorem line_x_origin_double (line : List Byte) (k : Nat) (c : Fp)
    (h : line_sets_x_origin line = some (k, c)) : c.is_double = true := by
  rw [line_sets_x_origin] at h
  cases hk : line_keyword line with
  | none =>
    rw [hk] at h
    cases h
  | some kw =>
    cases hd : line_double line with
    | none =>
      rw [hk, hd] at h
      cases h
    | some d =>
      rw [hk, hd] at h
      simp only [] at h
      have hdd := line_double_is_double line d hd
      split at h
      · cases h
        exact hdd
      · split at h
        · cases h
          exact hdd
        · split at h
          · cases h
            exact hdd
          · cases h

theorem line_y_origin_double (line : List Byte) (k : Nat) (c : Fp)
    (h : line_sets_y_origin line = some (k, c)) : c.is_double = true := by
  rw [line_sets_y_origin] at h
  cases hk : line_keyword line with
  | none =>
    rw [hk] at h
    cases h
  | some kw =>
    cases hd : line_double line with
    | none =>
      rw [hk, hd] at h
      cases h
    | some d =>
      rw [hk, hd] at h
      simp only [] at h
      have hdd := line_double_is_double line d hd
      split at h
      · cases h
        exact hdd
      · split at h
        · cases h
          exact hdd
        · split at h
          · cases h
            exact hdd
          · cases h

/-- The origin coordinates of a header are `double` values. -/
theorem header_origin_double (h : List Byte) :
    (header_x_origin h).2.is_double = true ∧ (header_y_origin h).2.is_double = true := by
  constructor
  · rcases last_set_cases line_sets_x_origin (hdr_file_lines h) (0, dbl_0) with
      ⟨h1, _⟩ | ⟨l, _, h2⟩
    · rw [header_x_origin, h1]
      rfl
    · exact line_x_origin_double l _ _ h2
  · rcases last_set_cases line_sets_y_origin (hdr_file_lines h) (0, dbl_0) with
      ⟨h1, _⟩ | ⟨l, _, h2⟩
    · rw [header_y_origin, h1]
      rfl
    · exact line_y_origin_double l _ _ h2

/-- The two sides of a finite `double` coordinate `c`: with a cell dimension `d` that is
neither a NaN nor zero and a finite positive factor `y`, `c + d * y` and `c - d * y` lie
on either side of `c`, in the order that the sign of `d` tells. -/
theorem side_facts (nc : Bool) (mc : Nat) (ec : Int) (d : Fp) (m : Nat) (e : Int)
    (hd : Fp.is_double (.fin nc mc ec) = true) (hnan : d ≠ .nan)
    (h0 : Fp.eq d dbl_0 = false) (hm : m ≠ 0) :
    (Fp.lt d dbl_0 = true →
      Fp.le (Fp.add64 (.fin nc mc ec) (Fp.mul64 d (.fin false m e))) (.fin nc mc ec) = true
      ∧ Fp.le (.fin nc mc ec) (Fp.sub64 (.fin nc mc ec) (Fp.mul64 d (.fin false m e))) = true)
    ∧ (Fp.lt d dbl_0 = false →
      Fp.le (.fin nc mc ec) (Fp.add64 (.fin nc mc ec) (Fp.mul64 d (.fin false m e))) = true
      ∧ Fp.le (Fp.sub64 (.fin nc mc ec) (Fp.mul64 d (.fin false m e))) (.fin nc mc ec)
          = true) := by
  have hs := mul64_sign d _ m e (sign_of_nonzero d hnan h0) hm
  constructor
  · intro hlt
    rw [hlt] at hs
    exact ⟨add64_le nc mc ec _ hd hs, add64_ge nc mc ec _ hd (has_sign_neg _ _ hs)⟩
  · intro hlt
    rw [hlt] at hs
    exact ⟨add64_ge nc mc ec _ hd hs, add64_le nc mc ec _ hd (has_sign_neg _ _ hs)⟩

theorem header_count_range (key h : List Byte) (v : HdrVars)
    (hkey : key = str "ncols" ∨ key = str "nrows")
    (hv : hdr_fold (hdr_file_lines h) hdr_init = .ok v) (hne : header_int key h ≠ 0) :
    1 ≤ header_int key h ∧ header_int key h ≤ 2147483647 := by
  have hr := header_int_range key h v
    (by rcases hkey with e | e
        · exact Or.inl e
        · exact Or.inr (Or.inl e)) hv
  by_cases hex : ∃ line ∈ hdr_file_lines h, line_keyword line = some key
  · have := hr.2 hex
    omega
  · exact absurd (hr.1 (fun l hl e => hex ⟨l, hl, e⟩)) hne

theorem is_finite_form (x : Fp) (h : x.is_finite = true) : ∃ n m e, x = .fin n m e := by
  cases x with
  | nan => cases h
  | inf n => cases h
  | fin n m e => exact ⟨n, m, e, rfl⟩

theorem hdr_resolve_corners (v : HdrVars) (r : HdrInfo) (h : hdr_resolve v = .ok r) :
    (r.xmin, r.xmax, r.ymin, r.ymax)
      = resolve_corners dbl_arith v.nrows v.ncols v.xcoord_type v.ycoord_type v.xcoord v.ycoord
          v.xdim v.ydim := by
  obtain ⟨_, _, _, _, _, _, _, _, _, _, _, e1, e2, e3, e4⟩ := hdr_resolve_ok v r h
  rw [e1, e2, e3, e4]
  rfl

/-- In exact arithmetic the corners are strictly ordered and as far apart as the grid is
wide and high. -/
theorem exact_corners (nrows ncols : Int) (xcoord_type ycoord_type : Nat)
    (xcoord ycoord xdim ydim : ℚ) (hr : 1 ≤ nrows) (hc : 1 ≤ ncols) (hx : xdim ≠ 0)
    (hy : ydim ≠ 0) :
    (resolve_corners exact_arith nrows ncols xcoord_type ycoord_type xcoord ycoord xdim ydim).1
      < (resolve_corners exact_arith nrows ncols xcoord_type ycoord_type xcoord ycoord xdim
          ydim).2.1
    ∧ (resolve_corners exact_arith nrows ncols xcoord_type ycoord_type xcoord ycoord xdim
          ydim).2.2.1
      < (resolve_corners exact_arith nrows ncols xcoord_type ycoord_type xcoord ycoord xdim
          ydim).2.2.2
    ∧ (resolve_corners exact_arith nrows ncols xcoord_type ycoord_type xcoord ycoord xdim
          ydim).2.1
        - (resolve_corners exact_arith nrows ncols xcoord_type ycoord_type xcoord ycoord xdim
          ydim).1 = |xdim| * (ncols : ℚ)
    ∧ (resolve_corners exact_arith nrows ncols xcoord_type ycoord_type xcoord ycoord xdim
          ydim).2.2.2
        - (resolve_corners exact_arith nrows ncols xcoord_type ycoord_type xcoord ycoord xdim
          ydim).2.2.1 = |ydim| * (nrows : ℚ) := by
  have hn : (1 : ℚ) ≤ (nrows : ℚ) := by exact_mod_cast hr
  have hm : (1 : ℚ) ≤ (ncols : ℚ) := by exact_mod_cast hc
  simp only [resolve_corners, exact_arith, decide_eq_true_eq]
  refine ⟨?_, ?_, ?_, ?_⟩
  · rcases lt_or_gt_of_ne hx with h | h
    · have := mul_pos_of_neg_of_neg h (by linarith : -(ncols : ℚ) < 0)
      rw [if_pos h, if_pos h]
      split <;> nlinarith
    · have := mul_pos h (by linarith : (0 : ℚ) < (ncols : ℚ))
      rw [if_neg (not_lt.mpr h.le), if_neg (not_lt.mpr h.le)]
      split <;> nlinarith
  · rcases lt_or_gt_of_ne hy with h | h
    · have := mul_pos_of_neg_of_neg h (by linarith : -(nrows : ℚ) < 0)
      rw [if_pos h, if_pos h]
      split
      · nlinarith
      · split <;> nlinarith
    · have := mul_pos h (by linarith : (0 : ℚ) < (nrows : ℚ))
      rw [if_neg (not_lt.mpr h.le), if_neg (not_lt.mpr h.le)]
      split
      · nlinarith
      · split <;> nlinarith
  · rcases lt_or_gt_of_ne hx with h | h
    · rw [if_pos h, if_pos h, abs_of_neg h]
      split <;> ring
    · rw [if_neg (not_lt.mpr h.le), if_neg (not_lt.mpr h.le), abs_of_pos h]
      split <;> ring
  · rcases lt_or_gt_of_ne hy with h | h
    · rw [if_pos h, if_pos h, abs_of_neg h]
      split
      · ring
      · split <;> ring
    · rw [if_neg (not_lt.mpr h.le), if_neg (not_lt.mpr h.le), abs_of_pos h]
      split
      · ring
      · split <;> ring

/-- On a successful parse with a finite origin and a cell dimension that is not a NaN the
corners returned are ordered in double comparison. -/
theorem corners_ordered (h : List Byte) (r : HdrInfo) (hok : read_hdr_file h = .ok r) :
    ((header_x_origin h).2.is_finite = true → header_xdim h ≠ .nan →
      Fp.le r.xmin r.xmax = true)
    ∧ ((header_y_origin h).2.is_finite = true → header_ydim h ≠ .nan →
      Fp.le r.ymin r.ymax = true) := by
  obtain ⟨v, hv, hres⟩ := read_hdr_file_ok h r hok
  obtain ⟨hc, hr, _, _, hxd, hyd, hxo, hyo⟩ := header_vars h v hv
  obtain ⟨hc0, hr0, _, _, hx0, hy0, _, _, _, _, _, rxmin, rxmax, rymin, rymax⟩ :=
    hdr_resolve_ok v r hres
  rw [hc] at hc0
  rw [hr] at hr0
  obtain ⟨c1, c2⟩ := header_count_range _ h v (Or.inl rfl) hv hc0
  obtain ⟨r1, r2⟩ := header_count_range _ h v (Or.inr rfl) hv hr0
  rw [← hc] at c1 c2
  rw [← hr] at r1 r2
  obtain ⟨dx, dy⟩ := header_origin_double h
  have ex : v.xcoord = (header_x_origin h).2 := congrArg Prod.snd hxo
  have ey : v.ycoord = (header_y_origin h).2 := congrArg Prod.snd hyo
  rw [← ex] at dx
  rw [← ey] at dy
  constructor
  · intro hfin hnan
    rw [← ex] at hfin
    rw [← hxd] at hnan
    obtain ⟨nc, mc, ec, hcf⟩ := is_finite_form _ hfin
    rw [hcf] at dx rxmin rxmax
    obtain ⟨m3, e3, hy3, hm3⟩ := sub_half_form v.ncols c1 c2
    obtain ⟨hy1, hm1⟩ := of_int_form v.ncols c1
    rw [hy3, hy1] at rxmin rxmax
    obtain ⟨a1, b1⟩ := side_facts nc mc ec v.xdim _ 0 dx hnan hx0 hm1
    obtain ⟨a2, b2⟩ := side_facts nc mc ec v.xdim 1 (-1) dx hnan hx0 (by decide)
    obtain ⟨a3, b3⟩ := side_facts nc mc ec v.xdim m3 e3 dx hnan hx0 hm3
    rw [rxmin, rxmax]
    cases hs : Fp.lt v.xdim dbl_0
    · simp only [Bool.false_eq_true, if_false]
      split
      · exact (b1 hs).1
      · exact le_trans_fin _ _ nc mc ec (b2 hs).2 (b3 hs).1
    · simp only [if_true]
      split
      · exact (a1 hs).1
      · exact le_trans_fin _ _ nc mc ec (a3 hs).1 (a2 hs).2
  · intro hfin hnan
    rw [← ey] at hfin
    rw [← hyd] at hnan
    obtain ⟨nc, mc, ec, hcf⟩ := is_finite_form _ hfin
    rw [hcf] at dy rymin rymax
    obtain ⟨m3, e3, hy3, hm3⟩ := sub_half_form v.nrows r1 r2
    obtain ⟨hy1, hm1⟩ := of_int_form v.nrows r1
    rw [hy3, hy1] at rymin rymax
    obtain ⟨a1, b1⟩ := side_facts nc mc ec v.ydim _ 0 dy hnan hy0 hm1
    obtain ⟨a2, b2⟩ := side_facts nc mc ec v.ydim 1 (-1) dy hnan hy0 (by decide)
    obtain ⟨a3, b3⟩ := side_facts nc mc ec v.ydim m3 e3 dy hnan hy0 hm3
    rw [rymin, rymax]
    cases hs : Fp.lt v.ydim dbl_0
    · simp only [Bool.false_eq_true, if_false]
      split
      · exact (b1 hs).1
      · split
        · exact le_trans_fin _ _ nc mc ec (b2 hs).2 (b3 hs).1
        · exact le_trans_fin _ _ nc mc ec (b3 hs).2 (b2 hs).1
    · simp only [if_true]
      split
      · exact (a1 hs).1
      · split
        · exact le_trans_fin _ _ nc mc ec (a3 hs).1 (a2 hs).2
        · exact le_trans_fin _ _ nc mc ec (a2 hs).1 (a3 hs).2

/-- C20, as stated, does not hold. With `cellsize nan` both tests `xdim == 0.0` and
`ydim == 0.0` are false, the parse succeeds, `xmax` and `ymax` are NaN, and `xmin <= xmax`
and `ymin <= ymax` are false. -/
theorem bounding_box_not_ordered_for_nan :
    ∃ r, read_hdr_file (text_of_lines ["ncols 2", "nrows 2", "xllcorner 0", "yllcorner 0",
          "cellsize nan"]) = .ok r
        ∧ r.xmax = .nan ∧ r.ymax = .nan
        ∧ Fp.le r.xmin r.xmax = false ∧ Fp.le r.ymin r.ymax = false :=
  ⟨{ nrows := 2, ncols := 2, xmin := .fin false 0 (-1074), xmax := .nan,
     ymin := .fin false 0 (-1074), ymax := .nan, nodata := ⟨4286578687, by decide⟩,
     big_endian := false, skipbytes := 0, rowpad := 0, software := none },
   by decide, rfl, rfl, rfl, rfl⟩

/-- C20, amended. On every successful parse, whichever the origin keyword and the sign of
`xdim` and `ydim`: `xmin <= xmax` holds for the doubles returned when the X origin
coordinate is finite and the X cell dimension is not a NaN, and `ymin <= ymax` when the Y
origin coordinate is finite and the Y cell dimension is not a NaN; `nrows` and `ncols` are
at least 1 and the cell dimensions compare unequal to zero; the four corners returned are
`resolve_corners` in the arithmetic of doubles at the values of the header; and the same
computation in exact arithmetic, at the `nrows`, `ncols` and kinds of origin of the header
and at any coordinates and nonzero cell dimensions, gives `xmin < xmax`, `ymin < ymax`,
`xmax - xmin = |xdim| * ncols` and `ymax - ymin = |ydim| * nrows`. -/
theorem bounding_box_ordered (h : List Byte) (r : HdrInfo) (hok : read_hdr_file h = .ok r) :
    ((header_x_origin h).2.is_finite = true → header_xdim h ≠ .nan →
      Fp.le r.xmin r.xmax = true)
    ∧ ((header_y_origin h).2.is_finite = true → header_ydim h ≠ .nan →
      Fp.le r.ymin r.ymax = true)
    ∧ 1 ≤ r.nrows ∧ 1 ≤ r.ncols
    ∧ Fp.eq (header_xdim h) dbl_0 = false ∧ Fp.eq (header_ydim h) dbl_0 = false
    ∧ (r.xmin, r.xmax, r.ymin, r.ymax)
        = resolve_corners dbl_arith r.nrows r.ncols (header_x_origin h).1 (header_y_origin h).1
            (header_x_origin h).2 (header_y_origin h).2 (header_xdim h) (header_ydim h)
    ∧ ∀ xcoord ycoord xdim ydim : ℚ, xdim ≠ 0 → ydim ≠ 0 →
        (resolve_corners exact_arith r.nrows r.ncols (header_x_origin h).1
            (header_y_origin h).1 xcoord ycoord xdim ydim).1
          < (resolve_corners exact_arith r.nrows r.ncols (header_x_origin h).1
              (header_y_origin h).1 xcoord ycoord xdim ydim).2.1
        ∧ (resolve_corners exact_arith r.nrows r.ncols (header_x_origin h).1
              (header_y_origin h).1 xcoord ycoord xdim ydim).2.2.1
          < (resolve_corners exact_arith r.nrows r.ncols (header_x_origin h).1
              (header_y_origin h).1 xcoord ycoord xdim ydim).2.2.2
        ∧ (resolve_corners exact_arith r.nrows r.ncols (header_x_origin h).1
              (header_y_origin h).1 xcoord ycoord xdim ydim).2.1
            - (resolve_corners exact_arith r.nrows r.ncols (header_x_origin h).1
              (header_y_origin h).1 xcoord ycoord xdim ydim).1 = |xdim| * (r.ncols : ℚ)
        ∧ (resolve_corners exact_arith r.nrows r.ncols (header_x_origin h).1
              (header_y_origin h).1 xcoord ycoord xdim ydim).2.2.2
            - (resolve_corners exact_arith r.nrows r.ncols (header_x_origin h).1
              (header_y_origin h).1 xcoord ycoord xdim ydim).2.2.1 = |ydim| * (r.nrows : ℚ) := by
  obtain ⟨v, hv, hres⟩ := read_hdr_file_ok h r hok
  obtain ⟨hc, hr, _, _, hxd, hyd, hxo, hyo⟩ := header_vars h v hv
  obtain ⟨hc0, hr0, _, _, hx0, hy0, _, _, rc, rr, _⟩ := hdr_resolve_ok v r hres
  have hcor := hdr_resolve_corners v r hres
  rw [hc] at hc0
  rw [hr] at hr0
  obtain ⟨c1, _⟩ := header_count_range _ h v (Or.inl rfl) hv hc0
  obtain ⟨r1, _⟩ := header_count_range _ h v (Or.inr rfl) hv hr0
  rw [← hc, ← rc] at c1
  rw [← hr, ← rr] at r1
  rw [hxd] at hx0
  rw [hyd] at hy0
  have tx : v.xcoord_type = (header_x_origin h).1 := congrArg Prod.fst hxo
  have ex : v.xcoord = (header_x_origin h).2 := congrArg Prod.snd hxo
  have ty : v.ycoord_type = (header_y_origin h).1 := congrArg Prod.fst hyo
  have ey : v.ycoord = (header_y_origin h).2 := congrArg Prod.snd hyo
  rw [← rc, ← rr, tx, ty, ex, ey, hxd, hyd] at hcor
  exact ⟨(corners_ordered h r hok).1, (corners_ordered h r hok).2, r1, c1, hx0, hy0, hcor,
    fun xcoord ycoord xdim ydim hx hy =>
      exact_corners r.nrows r.ncols _ _ xcoord ycoord xdim ydim r1 c1 hx hy⟩

/-- C20 at the header `ncols 3`, `nrows 2`, `ulxmap 10`, `ulymap 20`, `xdim -2`,
`ydim -0.5`: the origins are finite, the cell dimensions negative, the values returned
are ordered, and in exact arithmetic the corners are 9 < 15 and 19.75 < 20.75 at the
same origin and cell dimensions. -/
theorem bounding_box_ordered_witness :
    Fp.le (Fp.fin false 5629499534213120 (-50)) (Fp.fin false 6192449487634432 (-49)) = true
    ∧ Fp.le (Fp.fin false 5559130790035456 (-48)) (Fp.fin false 5840605766746112 (-48))
        = true
    ∧ (resolve_corners exact_arith 2 3 3 3 10 20 (-2) (-1 / 2)).2.1
        - (resolve_corners exact_arith 2 3 3 3 10 20 (-2) (-1 / 2)).1 = |(-2 : ℚ)| * (3 : Int) :=
  ⟨(bounding_box_ordered
      (text_of_lines ["ncols 3", "nrows 2", "ulxmap 10", "ulymap 20", "xdim -2", "ydim -0.5"])
      { nrows := 2, ncols := 3, xmin := .fin false 5629499534213120 (-50),
        xmax := .fin false 6192449487634432 (-49),
        ymin := .fin false 5559130790035456 (-48),
        ymax := .fin false 5840605766746112 (-48), nodata := ⟨4286578687, by decide⟩,
        big_endian := false, skipbytes := 0, rowpad := 0, software := none }
      (by decide)).1 (by decide) (by decide),
   (bounding_box_ordered
      (text_of_lines ["ncols 3", "nrows 2", "ulxmap 10", "ulymap 20", "xdim -2", "ydim -0.5"])
      { nrows := 2, ncols := 3, xmin := .fin false 5629499534213120 (-50),
        xmax := .fin false 6192449487634432 (-49),
        ymin := .fin false 5559130790035456 (-48),
        ymax := .fin false 5840605766746112 (-48), nodata := ⟨4286578687, by decide⟩,
        big_endian := false, skipbytes := 0, rowpad := 0, software := none }
      (by decide)).2.1 (by decide) (by decide),
   ((bounding_box_ordered
      (text_of_lines ["ncols 3", "nrows 2", "ulxmap 10", "ulymap 20", "xdim -2", "ydim -0.5"])
      { nrows := 2, ncols := 3, xmin := .fin false 5629499534213120 (-50),
        xmax := .fin false 6192449487634432 (-49),
        ymin := .fin false 5559130790035456 (-48),
        ymax := .fin false 5840605766746112 (-48), nodata := ⟨4286578687, by decide⟩,
        big_endian := false, skipbytes := 0, rowpad := 0, software := none }
      (by decide)).2.2.2.2.2.2.2 10 20 (-2) (-1 / 2) (by norm_num) (by norm_num)).2.2.1⟩

/-! ## The nodata sentinel of `write_flt_file` -/

theorem write_row_append (a b : List Float32) (st : FltScan) :
    write_row (a ++ b) st
      = match write_row a st with
        | .error e => .error e
        | .ok (va, st1) =>
          match write_row b st1 with
          | .error e => .error e
          | .ok (vb, st2) => .ok (va ++ vb, st2) := by
  induction a generalizing st with
  | nil =>
    simp only [List.nil_append, write_row]
    cases write_row b st with
    | error e => rfl
    | ok p => rfl
  | cons x xs ih =>
    simp only [List.cons_append, write_row]
    cases write_cell st x with
    | error e => rfl
    | ok p =>
      obtain ⟨v, st1⟩ := p
      simp only []
      rw [show List.append xs b = xs ++ b from rfl, ih]
      cases write_row xs st1 with
      | error e => rfl
      | ok q =>
        obtain ⟨va, st2⟩ := q
        simp only []
        cases write_row b st2 with
        | error e => rfl
        | ok r => rfl

/-- The row loop of `write_flt_file` is one scan of the whole array. -/
theorem write_rows_flat (host_be : Bool) (ncols n : Nat) (ptr : List Float32) (st : FltScan)
    (hlen : ptr.length = n * ncols) :
    write_rows host_be ncols n ptr st
      = match write_row ptr st with
        | .error e => .error e
        | .ok (buffer, st1) => .ok (floats_to_bytes host_be buffer, st1) := by
  induction n generalizing ptr st with
  | zero =>
    simp at hlen
    subst hlen
    rfl
  | succ k ih =>
    have hrest : (ptr.drop ncols).length = k * ncols := by
      rw [List.length_drop, hlen, Nat.succ_mul]
      omega
    have hsplit : write_row ptr st = write_row (ptr.take ncols ++ ptr.drop ncols) st := by
      rw [List.take_append_drop]
    rw [hsplit, write_row_append]
    simp only [write_rows]
    cases write_row (ptr.take ncols) st with
    | error e => rfl
    | ok p =>
      obtain ⟨va, st1⟩ := p
      simp only []
      rw [ih _ st1 hrest]
      cases write_row (ptr.drop ncols) st1 with
      | error e => rfl
      | ok q =>
        obtain ⟨vb, st2⟩ := q
        simp only []
        rw [floats_to_bytes_append]

/-- A successful `write_flt_file` is a successful scan of the whole array. -/
theorem write_flt_file_ok_row (host_be : Bool) (nrows ncols : Nat) (data : List Float32)
    (hlen : data.length = nrows * ncols) (w : FltWritten)
    (h : write_flt_file host_be nrows ncols data = .ok w) :
    ∃ buffer st, write_row data ⟨flt_m1e6, false, data.headD 0, data.headD 0⟩
        = .ok (buffer, st)
      ∧ w = ⟨floats_to_bytes host_be buffer, st.nodata, st.min_value, st.max_value⟩ := by
  obtain ⟨st, hrows, e1, e2, e3⟩ := write_flt_file_ok_rows host_be nrows ncols data w h
  rw [write_rows_flat _ _ _ _ _ hlen] at hrows
  cases hr : write_row data ⟨flt_m1e6, false, data.headD 0, data.headD 0⟩ with
  | error e =>
    rw [hr] at hrows
    cases hrows
  | ok r =>
    obtain ⟨buffer, st1⟩ := r
    rw [hr] at hrows
    simp only [Except.ok.injEq, Prod.mk.injEq] at hrows
    obtain ⟨hb, hs⟩ := hrows
    subst hs
    refine ⟨buffer, st1, rfl, ?_⟩
    cases w
    simp only [FltWritten.mk.injEq]
    exact ⟨hb.symm, e1, e2, e3⟩

theorem update_min_max_nodata (st : FltScan) (b : Float32) :
    (update_min_max st b).nodata = st.nodata := by
  rw [update_min_max]
  split
  · rfl
  · split <;> rfl

/-- One value that is not a NaN, before any NaN: the value is kept and the sentinel makes
one step. -/
theorem write_cell_before_nan (st : FltScan) (b : Float32) (hb : flt_isnan b = false)
    (hs : st.has_nulls = false) :
    ∃ st1, write_cell st b = .ok (b, st1) ∧ st1.has_nulls = false
      ∧ st1.nodata = sentinel_step st.nodata b := by
  simp only [write_cell, hb, hs, sentinel_step]
  by_cases hlt : Fp.lt b.toFp (Fp.mul64 st.nodata.toFp dbl_half) = true
  · simp only [hlt]
    exact ⟨_, rfl, by rw [update_min_max_has_nulls],
      by rw [update_min_max_nodata]; rfl⟩
  · simp only [hlt]
    exact ⟨_, rfl, by rw [update_min_max_has_nulls]; exact hs,
      by rw [update_min_max_nodata]; rfl⟩

/-- A run of values without a NaN, before any NaN: the values are kept and the sentinel
makes one step for each. -/
theorem write_row_before_nan (pre : List Float32) (st : FltScan)
    (hpre : ∀ v ∈ pre, flt_isnan v = false) (hs : st.has_nulls = false) :
    ∃ st1, write_row pre st = .ok (pre, st1) ∧ st1.has_nulls = false
      ∧ st1.nodata = pre.foldl sentinel_step st.nodata := by
  induction pre generalizing st with
  | nil => exact ⟨st, rfl, hs, rfl⟩
  | cons b bs ih =>
    obtain ⟨st1, h1, hs1, hn1⟩ :=
      write_cell_before_nan st b (hpre b (List.mem_cons_self _ _)) hs
    obtain ⟨st2, h2, hs2, hn2⟩ := ih st1 (fun v hv => hpre v (List.mem_cons_of_mem _ hv)) hs1
    refine ⟨st2, by simp only [write_row, h1, h2], hs2, ?_⟩
    rw [hn2, hn1]
    rfl

/-- The scan once a NaN has been met: a value that is not a NaN and equals the sentinel
is fatal; otherwise every NaN is replaced by the sentinel, which does not change. -/
theorem write_row_after_nan (post : List Float32) (st : FltScan) (hs : st.has_nulls = true) :
    ((∃ v ∈ post, flt_isnan v = false ∧ Fp.eq v.toFp st.nodata.toFp = true) →
      write_row post st = .error .nodata_collision)
    ∧ ((∀ v ∈ post, flt_isnan v = false → Fp.eq v.toFp st.nodata.toFp = false) →
      ∃ st1, write_row post st = .ok (post.map (replace_nan st.nodata), st1)
        ∧ st1.has_nulls = true ∧ st1.nodata = st.nodata) := by
  induction post generalizing st with
  | nil =>
    refine ⟨fun ⟨v, hv, _⟩ => absurd hv (List.not_mem_nil _), fun _ => ⟨st, rfl, hs, rfl⟩⟩
  | cons b bs ih =>
    by_cases hb : flt_isnan b = true
    · have hc : write_cell st b = .ok (st.nodata, { st with has_nulls := true }) := by
        simp only [write_cell, hb, if_true]
      obtain ⟨i1, i2⟩ := ih { st with has_nulls := true } rfl
      constructor
      · rintro ⟨v, hv, hvn, hve⟩
        rcases List.mem_cons.mp hv with e | e
        · rw [e, hb] at hvn
          cases hvn
        · simp only [write_row, hc]
          rw [i1 ⟨v, e, hvn, hve⟩]
      · intro hall
        obtain ⟨st1, h1, h2, h3⟩ := i2 (fun v hv => hall v (List.mem_cons_of_mem _ hv))
        refine ⟨st1, ?_, h2, h3⟩
        simp only [write_row, hc, h1, List.map_cons, replace_nan, hb, if_true]
    · have hb2 : flt_isnan b = false := by simpa using hb
      by_cases he : Fp.eq b.toFp st.nodata.toFp = true
      · have hc : write_cell st b = .error .nodata_collision := by
          simp [write_cell, hb2, hs, he]
        constructor
        · intro _
          simp only [write_row, hc]
        · intro hall
          have := hall b (List.mem_cons_self _ _) hb2
          rw [he] at this
          cases this
      · have he2 : Fp.eq b.toFp st.nodata.toFp = false := by simpa using he
        have hc : write_cell st b = .ok (b, update_min_max st b) := by
          simp [write_cell, hb2, hs, he2]
        obtain ⟨i1, i2⟩ := ih (update_min_max st b)
          (by rw [update_min_max_has_nulls]; exact hs)
        rw [update_min_max_nodata] at i1 i2
        constructor
        · rintro ⟨v, hv, hvn, hve⟩
          rcases List.mem_cons.mp hv with e | e
          · rw [e, he2] at hve
            cases hve
          · simp only [write_row, hc]
            rw [i1 ⟨v, e, hvn, hve⟩]
        · intro hall
          obtain ⟨st1, h1, h2, h3⟩ := i2 (fun v hv => hall v (List.mem_cons_of_mem _ hv))
          refine ⟨st1, ?_, h2, h3⟩
          simp only [write_row, hc, h1, List.map_cons, replace_nan, hb2]
          rfl

theorem lt_congr_right (x : Fp) (n1 n2 : Bool) (m1 m2 : Nat) (e1 e2 : Int)
    (h : Fp.eq (.fin n1 m1 e1) (.fin n2 m2 e2) = true) :
    Fp.lt x (.fin n1 m1 e1) = Fp.lt x (.fin n2 m2 e2) := by
  rw [eq_fin_iff] at h
  cases x with
  | nan => rfl
  | inf n => rfl
  | fin n m e =>
    rw [Bool.eq_iff_iff, lt_fin_iff, lt_fin_iff, h]

theorem half_m1e7 (x : Fp) :
    Fp.lt x (Fp.mul64 flt_m1e7.toFp dbl_half) = Fp.lt x dbl_m5e6 := by
  have e : Fp.mul64 flt_m1e7.toFp dbl_half = .fin true 5368709120000000 (-30) := by decide
  rw [e]
  exact lt_congr_right x _ _ _ _ _ _ (by decide)

theorem ten_m1e6 : Fp.toFloat32 (Fp.mul64 flt_m1e6.toFp dbl_ten) = flt_m1e7 := by decide

theorem half_m1e6_of_m5e6 (x : Fp) (h : Fp.lt x (Fp.mul64 flt_m1e6.toFp dbl_half) = false) :
    Fp.lt x dbl_m5e6 = false := by
  have e : Fp.mul64 flt_m1e6.toFp dbl_half = .fin true 8589934592000000 (-34) := by decide
  rw [e] at h
  cases x with
  | nan => rfl
  | inf n =>
    cases n
    · rfl
    · cases h
  | fin n m e =>
    have h1 : ¬ (Fp.fin n m e).toRat < (Fp.fin true 8589934592000000 (-34)).toRat := by
      rw [← lt_fin_iff, h]
      exact Bool.false_ne_true
    have h2 : ¬ (Fp.fin n m e).toRat < (Fp.fin true 5000000 0).toRat := by
      intro hc
      apply h1
      refine lt_trans hc ?_
      rw [toRat_true, toRat_true]
      norm_num
    have h3 : ¬ Fp.lt (Fp.fin n m e) dbl_m5e6 = true := by
      rw [dbl_m5e6, lt_fin_iff]
      exact h2
    simpa using h3

/-- While every value is at least `-5.0e6`, the sentinel is `-1.0e6` or `-1.0e7` and no
value seen is lower than half of it. -/
theorem sentinel_bounded (vs seen : List Float32) (s : Float32)
    (hs : (s = flt_m1e6 ∨ s = flt_m1e7)
      ∧ ∀ v ∈ seen, Fp.lt v.toFp (Fp.mul64 s.toFp dbl_half) = false)
    (hvs : ∀ v ∈ vs, Fp.lt v.toFp dbl_m5e6 = false) :
    (vs.foldl sentinel_step s = flt_m1e6 ∨ vs.foldl sentinel_step s = flt_m1e7)
    ∧ ∀ v ∈ seen ++ vs,
        Fp.lt v.toFp (Fp.mul64 (vs.foldl sentinel_step s).toFp dbl_half) = false := by
  induction vs generalizing s seen with
  | nil =>
    simp only [List.foldl_nil, List.append_nil]
    exact hs
  | cons b bs ih =>
    have hb := hvs b (List.mem_cons_self _ _)
    have hrest := fun v hv => hvs v (List.mem_cons_of_mem b hv)
    have key : (sentinel_step s b = flt_m1e6 ∨ sentinel_step s b = flt_m1e7)
        ∧ ∀ v ∈ seen ++ [b],
            Fp.lt v.toFp (Fp.mul64 (sentinel_step s b).toFp dbl_half) = false := by
      obtain ⟨hs1, hs2⟩ := hs
      by_cases hlt : Fp.lt b.toFp (Fp.mul64 s.toFp dbl_half) = true
      · have hstep : sentinel_step s b = Fp.toFloat32 (Fp.mul64 s.toFp dbl_ten) := by
          rw [sentinel_step, if_pos hlt]
        rcases hs1 with e | e
        · subst e
          rw [hstep, ten_m1e6]
          refine ⟨Or.inr rfl, fun v hv => ?_⟩
          rw [half_m1e7]
          rcases List.mem_append.mp hv with h1 | h1
          · exact half_m1e6_of_m5e6 _ (hs2 v h1)
          · rw [List.mem_singleton.mp h1]
            exact hb
        · subst e
          rw [half_m1e7, hb] at hlt
          cases hlt
      · have hstep : sentinel_step s b = s := by
          rw [sentinel_step, if_neg hlt]
        rw [hstep]
        refine ⟨hs1, fun v hv => ?_⟩
        rcases List.mem_append.mp hv with h1 | h1
        · exact hs2 v h1
        · rw [List.mem_singleton.mp h1]
          simpa using hlt
    have := ih (seen ++ [b]) (sentinel_step s b) key hrest
    simpa only [List.foldl_cons, List.append_assoc, List.singleton_append] using this

/-- The whole scan of a grid whose first NaN is `x`, after the values `pre`: a value after
`x` that is not a NaN and equals the sentinel is fatal; otherwise every NaN is replaced
by the sentinel that the values before `x` left. -/
theorem write_row_first_nan (pre post : List Float32) (x : Float32) (st : FltScan)
    (hpre : ∀ v ∈ pre, flt_isnan v = false) (hx : flt_isnan x = true)
    (hs : st.has_nulls = false) :
    ((∃ v ∈ post, flt_isnan v = false
        ∧ Fp.eq v.toFp (pre.foldl sentinel_step st.nodata).toFp = true) →
      write_row (pre ++ x :: post) st = .error .nodata_collision)
    ∧ ((∀ v ∈ post, flt_isnan v = false →
        Fp.eq v.toFp (pre.foldl sentinel_step st.nodata).toFp = false) →
      ∃ st2, write_row (pre ++ x :: post) st
          = .ok (pre ++ pre.foldl sentinel_step st.nodata
              :: post.map (replace_nan (pre.foldl sentinel_step st.nodata)), st2)
        ∧ st2.nodata = pre.foldl sentinel_step st.nodata) := by
  obtain ⟨st1, h1, hs1, hn1⟩ := write_row_before_nan pre st hpre hs
  have hc : write_cell st1 x = .ok (st1.nodata, { st1 with has_nulls := true }) := by
    simp only [write_cell, hx, if_true]
  obtain ⟨a1, a2⟩ := write_row_after_nan post { st1 with has_nulls := true } rfl
  rw [write_row_append, h1]
  simp only [write_row, hc]
  rw [← hn1]
  constructor
  · intro hex
    rw [a1 hex]
  · intro hall
    obtain ⟨st2, b1, _, b3⟩ := a2 hall
    rw [b1]
    exact ⟨st2, rfl, b3⟩

/-- C23, as stated, does not hold. The test of line 228 is an `if`, not a loop: for the
1x2 grid -1.0e9, NaN the sentinel is -1.0e7 after the first value, which is still lower
than half the sentinel and lower than the sentinel itself, and the NaN is written as
-1.0e7. -/
theorem sentinel_not_below_every_value :
    write_flt_file false 1 2 [3463342888, 2143289344]
        = .ok ⟨[40, 107, 110, 206, 128, 150, 24, 203], 3407386240, 3463342888, 3463342888⟩
    ∧ flt_isnan 3463342888 = false ∧ flt_isnan 2143289344 = true
    ∧ sentinel_after [3463342888] = 3407386240
    ∧ Fp.lt (3463342888 : Float32).toFp (Fp.mul64 (3407386240 : Float32).toFp dbl_half) = true
    ∧ Fp.lt (3463342888 : Float32).toFp (3407386240 : Float32).toFp = true := by
  decide

/-- C23, amended. Let `x` be the first NaN of a grid and `pre` the values before it. The
scan keeps the values of `pre`, and the sentinel that replaces `x`, which is also the
nodata value returned when `write_flt_file` succeeds, is `sentinel_after pre`: it starts
at -1.0e6 and each value lower than half the sentinel multiplies it by 10 once, every
other value leaving it as it is. When every value of `pre` is at least -5.0e6, the
sentinel is -1.0e6 or -1.0e7 and no value of `pre` is lower than half of it. -/
theorem sentinel_selection (host_be : Bool) (nrows ncols : Nat) (pre post : List Float32)
    (x : Float32) (hlen : (pre ++ x :: post).length = nrows * ncols)
    (hpre : ∀ v ∈ pre, flt_isnan v = false) (hx : flt_isnan x = true) :
    (∃ st1, write_row pre
          ⟨flt_m1e6, false, (pre ++ x :: post).headD 0, (pre ++ x :: post).headD 0⟩
          = .ok (pre, st1)
        ∧ st1.nodata = sentinel_after pre
        ∧ write_cell st1 x = .ok (sentinel_after pre, { st1 with has_nulls := true }))
    ∧ (∀ w, write_flt_file host_be nrows ncols (pre ++ x :: post) = .ok w →
        w.nodata = sentinel_after pre)
    ∧ ((∀ v ∈ pre, Fp.lt v.toFp dbl_m5e6 = false) →
        (sentinel_after pre = flt_m1e6 ∨ sentinel_after pre = flt_m1e7)
        ∧ ∀ v ∈ pre,
            Fp.lt v.toFp (Fp.mul64 (sentinel_after pre).toFp dbl_half) = false) := by
  refine ⟨?_, ?_, ?_⟩
  · obtain ⟨st1, h1, _, hn1⟩ := write_row_before_nan pre
      ⟨flt_m1e6, false, (pre ++ x :: post).headD 0, (pre ++ x :: post).headD 0⟩ hpre rfl
    refine ⟨st1, h1, hn1, ?_⟩
    simp only [write_cell, hx, if_true]
    rw [hn1]
    rfl
  · intro w hw
    obtain ⟨buffer, st, hrow, hw2⟩ := write_flt_file_ok_row host_be nrows ncols _ hlen w hw
    obtain ⟨a1, a2⟩ := write_row_first_nan pre post x
      ⟨flt_m1e6, false, (pre ++ x :: post).headD 0, (pre ++ x :: post).headD 0⟩ hpre hx rfl
    by_cases hex : ∃ v ∈ post, flt_isnan v = false
        ∧ Fp.eq v.toFp (pre.foldl sentinel_step flt_m1e6).toFp = true
    · rw [a1 hex] at hrow
      cases hrow
    · obtain ⟨st2, b1, b2⟩ := a2 (fun v hv hn => by
        by_contra hc
        exact hex ⟨v, hv, hn, by simpa using hc⟩)
      rw [b1] at hrow
      cases hrow
      rw [hw2]
      exact b2
  · intro hge
    have := sentinel_bounded pre [] flt_m1e6
      ⟨Or.inl rfl, fun v hv => absurd hv (List.not_mem_nil _)⟩ hge
    simpa only [List.nil_append] using this

/-- C23 at the 1x3 grid -4.0e6, NaN, 1.0: the value -4.0e6 moves the sentinel to -1.0e7,
which the NaN is replaced by, and -4.0e6 is not lower than half of it. -/
theorem sentinel_selection_witness :
    (∀ w, write_flt_file false 1 3 [3396609024, 2143289344, 1065353216] = .ok w →
        w.nodata = sentinel_after [3396609024])
    ∧ sentinel_after [3396609024] = flt_m1e7
    ∧ (sentinel_after [3396609024] = flt_m1e6 ∨ sentinel_after [3396609024] = flt_m1e7)
    ∧ ∀ v ∈ ([3396609024] : List Float32),
        Fp.lt v.toFp (Fp.mul64 (sentinel_after [3396609024]).toFp dbl_half) = false :=
  ⟨(sentinel_selection false 1 3 [3396609024] [1065353216] 2143289344 (by decide)
      (by intro v hv; rw [List.mem_singleton.mp hv]; decide) (by decide)).2.1,
   by decide,
   (sentinel_selection false 1 3 [3396609024] [1065353216] 2143289344 (by decide)
      (by intro v hv; rw [List.mem_singleton.mp hv]; decide) (by decide)).2.2
      (by intro v hv; rw [List.mem_singleton.mp hv]; decide)⟩

theorem step_in_finished_file {α : Type} (be : Bool) (run : FileState → α → FileState)
    (tag : α → Nat) (lo hi : Nat) (hlo : 2 ≤ lo) (a : List α) (c : α) (b : List α)
    (blk : List Byte) (hall : ∀ d ∈ b, EntryStep be (tag d) lo hi (fun f => run f d))
    (hc : ∀ f, (run f c).pos = f.pos + blk.length
      ∧ ∀ j, j < blk.length → byte_at (run f c).bytes (f.pos + j) = byte_at blk j)
    (f0 : FileState) (z : List Byte)
    (off width height : Nat) (data : List Float32) (hoff : off + 4 ≤ (a.foldl run f0).pos) :
    ∀ j, j < blk.length →
      byte_at (patch_and_payload be (fwrite z ((a ++ c :: b).foldl run f0)) off width height
        data).1.bytes ((a.foldl run f0).pos + j) = byte_at blk j := by
  intro j hj
  rw [List.foldl_append, List.foldl_cons]
  obtain ⟨hcp, hcb⟩ := hc (a.foldl run f0)
  obtain ⟨b1, _, b3, _⟩ := steps_spec be run tag lo hi hlo b hall (run (a.foldl run f0) c)
  rw [hcp] at b1 b3
  have hz := fwrite_untouched z (b.foldl run (run (a.foldl run f0) c))
  obtain ⟨p1, _, _, _⟩ := patch_and_payload_spec be
    (fwrite z (b.foldl run (run (a.foldl run f0) c))) off width height data
    (by rw [fwrite_pos]; omega)
  rw [p1 _ (by rw [fwrite_pos]; omega) (Or.inr (by omega)), hz _ (by omega), b3 _ (by omega)]
  exact hcb j hj

/-- The twenty bytes that the BigTIFF encoder leaves for a rational entry: tag, type, count
and, in the value slot, numerator and denominator. -/
theorem big_rational_block (be : Bool) (tag num den : Nat) (f : FileState) :
    (BigTiffCall.run be f (.rational tag num den)).pos
        = f.pos + (host_bytes be 2 tag ++ (host_bytes be 2 TIFFrational ++ (host_bytes be 8 1
            ++ (host_bytes be 4 num ++ host_bytes be 4 den)))).length
    ∧ ∀ j, j < (host_bytes be 2 tag ++ (host_bytes be 2 TIFFrational ++ (host_bytes be 8 1
            ++ (host_bytes be 4 num ++ host_bytes be 4 den)))).length →
        byte_at (BigTiffCall.run be f (.rational tag num den)).bytes (f.pos + j)
          = byte_at (host_bytes be 2 tag ++ (host_bytes be 2 TIFFrational ++ (host_bytes be 8 1
            ++ (host_bytes be 4 num ++ host_bytes be 4 den)))) j := by
  simp only [BigTiffCall.run, WriteBigTIFFTag_eq_fwrite, WriteLong, fwrite_fwrite]
  obtain ⟨hp, _, hw, hv⟩ := overwrite_tail (bigtiff_entry_bytes be tag TIFFrational 1 0)
    (host_bytes be 4 num ++ host_bytes be 4 den) f 8 (by simp)
  simp only [length_bigtiff_entry_bytes, List.length_append, length_host_bytes] at hp hw hv ⊢
  rw [show (-(8 : Int)) = -((8 : Nat) : Int) from rfl]
  refine ⟨by omega, ?_⟩
  intro j hj
  by_cases h12 : j < 12
  · rw [hw j (by omega), bigtiff_entry_bytes]
    by_cases h2 : j < 2
    · rw [byte_at_append_left _ _ _ (by simpa using h2),
        byte_at_append_left _ _ _ (by simpa using h2)]
    · obtain ⟨i, rfl⟩ : ∃ i, j = 2 + i := ⟨j - 2, by omega⟩
      rw [byte_at_host_skip, byte_at_host_skip]
      by_cases h4 : i < 2
      · rw [byte_at_append_left _ _ _ (by simpa using h4),
          byte_at_append_left _ _ _ (by simpa using h4)]
      · obtain ⟨k, rfl⟩ : ∃ k, i = 2 + k := ⟨i - 2, by omega⟩
        rw [byte_at_host_skip, byte_at_host_skip,
          byte_at_append_left _ _ _ (by rw [length_host_bytes]; omega),
          byte_at_append_left _ _ _ (by rw [length_host_bytes]; omega)]
  · obtain ⟨i, rfl⟩ : ∃ i, j = 12 + i := ⟨j - 12, by omega⟩
    have := hv i (by omega)
    rw [show f.pos + 20 - 8 + i = f.pos + (12 + i) by omega] at this
    rw [this, show 12 + i = 2 + (2 + (8 + i)) by omega, byte_at_host_skip, byte_at_host_skip,
      byte_at_host_skip]

theorem bigtiff_calls_around_xres (be : Bool) (width height : Nat) (sw : Option (List Byte)) :
    ∃ a b, bigtiff_calls width height sw
        = a ++ BigTiffCall.rational XResolution (72 * 0x02710) 0x02710 :: b
      ∧ ∀ f, (a.foldl (BigTiffCall.run be) f).pos = f.pos + 180 := by
  refine ⟨bigtiff_calls_a width height
      ++ [.plain SamplesPerPixel TIFFshort 1 1, .plain RowsPerStrip TIFFlong 1 height,
          .plain StripByteCounts TIFFlong8 1 (write_count width height)],
    [.rational YResolution (72 * 0x02710) 0x02710,
      .plain ResolutionUnit TIFFshort 1 2]
    ++ (if software_count sw ≠ 0 then
          [.ascii Software (sw.getD []) (software_count sw) 24]
        else [])
    ++ [.plain TIFFTAG_SAMPLEFORMAT TIFFshort 1 SAMPLEFORMAT_UINT], ?_, ?_⟩
  · simp only [bigtiff_calls, bigtiff_calls_b, List.append_assoc, List.cons_append,
      List.nil_append]
  · intro f
    simp only [bigtiff_calls_a, List.cons_append, List.nil_append, List.foldl_cons,
      List.foldl_nil, BigTiffCall.run, WriteBigTIFFTag_eq_fwrite, fwrite_pos,
      length_bigtiff_entry_bytes]

theorem bigtiff_calls_around_yres (be : Bool) (width height : Nat) (sw : Option (List Byte)) :
    ∃ a b, bigtiff_calls width height sw
        = a ++ BigTiffCall.rational YResolution (72 * 0x02710) 0x02710 :: b
      ∧ ∀ f, (a.foldl (BigTiffCall.run be) f).pos = f.pos + 200 := by
  refine ⟨bigtiff_calls_a width height
      ++ [.plain SamplesPerPixel TIFFshort 1 1, .plain RowsPerStrip TIFFlong 1 height,
          .plain StripByteCounts TIFFlong8 1 (write_count width height)]
      ++ [.rational XResolution (72 * 0x02710) 0x02710],
    [.plain ResolutionUnit TIFFshort 1 2]
    ++ (if software_count sw ≠ 0 then
          [.ascii Software (sw.getD []) (software_count sw) 24]
        else [])
    ++ [.plain TIFFTAG_SAMPLEFORMAT TIFFshort 1 SAMPLEFORMAT_UINT], ?_, ?_⟩
  · simp only [bigtiff_calls, bigtiff_calls_b, List.append_assoc, List.cons_append,
      List.nil_append]
  · intro f
    rw [List.foldl_append, List.foldl_cons, List.foldl_nil,
      (big_rational_block be XResolution (72 * 0x02710) 0x02710 _).1]
    simp only [bigtiff_calls_a, List.cons_append, List.nil_append, List.foldl_cons,
      List.foldl_nil, BigTiffCall.run, WriteBigTIFFTag_eq_fwrite, fwrite_pos,
      length_bigtiff_entry_bytes, List.length_append, length_host_bytes]

/-- The fields of a BigTIFF rational entry found at `p` when the twenty bytes there are the
ones of `big_rational_block`. -/
theorem read_big_rational_of_block (be : Bool) (bytes : List Byte) (p tag num den : Nat)
    (h : ∀ j, j < 20 → byte_at bytes (p + j)
      = byte_at (host_bytes be 2 tag ++ (host_bytes be 2 TIFFrational ++ (host_bytes be 8 1
            ++ (host_bytes be 4 num ++ host_bytes be 4 den)))) j) :
    read_uint be bytes p 2 = tag % 256 ^ 2
    ∧ read_uint be bytes (p + 2) 2 = TIFFrational
    ∧ read_uint be bytes (p + 4) 8 = 1
    ∧ read_uint be bytes (p + 12) 4 = num % 256 ^ 4
    ∧ read_uint be bytes (p + 16) 4 = den % 256 ^ 4 := by
  refine ⟨?_, ?_, ?_, ?_, ?_⟩
  · exact read_uint_host_bytes be _ _ 2 tag (fun j hj => by
      rw [h j (by omega), byte_at_append_left _ _ _ (by simpa using hj)])
  · rw [read_uint_host_bytes be _ _ 2 TIFFrational (fun j hj => by
      rw [Nat.add_assoc, h (2 + j) (by omega), byte_at_host_skip,
        byte_at_append_left _ _ _ (by simpa using hj)])]
    decide
  · rw [read_uint_host_bytes be _ _ 8 1 (fun j hj => by
      rw [Nat.add_assoc, h (4 + j) (by omega), show 4 + j = 2 + (2 + j) by omega,
        byte_at_host_skip, byte_at_host_skip,
        byte_at_append_left _ _ _ (by simpa using hj)])]
    decide
  · exact read_uint_host_bytes be _ _ 4 num (fun j hj => by
      rw [Nat.add_assoc, h (12 + j) (by omega), show 12 + j = 2 + (2 + (8 + j)) by omega,
        byte_at_host_skip, byte_at_host_skip, byte_at_host_skip,
        byte_at_append_left _ _ _ (by simpa using hj)])
  · exact read_uint_host_bytes be _ _ 4 den (fun j hj => by
      rw [Nat.add_assoc, h (16 + j) (by omega), show 16 + j = 2 + (2 + (8 + (4 + j))) by omega,
        byte_at_host_skip, byte_at_host_skip, byte_at_host_skip, byte_at_host_skip])

theorem bigtiff_xres_entry (be : Bool) (width height : Nat) (data : List Float32)
    (sw : Option (List Byte)) (hFile : FileState) :
    read_uint be (WriteGrayscale16BitToBigTIFF be hFile width height data sw).file.bytes
        ((bigtiff_before_entries be hFile sw).pos + 180) 2 = XResolution
    ∧ read_uint be (WriteGrayscale16BitToBigTIFF be hFile width height data sw).file.bytes
        ((bigtiff_before_entries be hFile sw).pos + 180 + 2) 2 = TIFFrational
    ∧ read_uint be (WriteGrayscale16BitToBigTIFF be hFile width height data sw).file.bytes
        ((bigtiff_before_entries be hFile sw).pos + 180 + 4) 8 = 1
    ∧ read_uint be (WriteGrayscale16BitToBigTIFF be hFile width height data sw).file.bytes
        ((bigtiff_before_entries be hFile sw).pos + 180 + 12) 4 = 720000
    ∧ read_uint be (WriteGrayscale16BitToBigTIFF be hFile width height data sw).file.bytes
        ((bigtiff_before_entries be hFile sw).pos + 180 + 16) 4 = 10000 := by
  obtain ⟨a, b, hab, hpos⟩ := bigtiff_calls_around_xres be width height sw
  have hall : ∀ d ∈ b, EntryStep be d.tagId 20 21 (fun f => BigTiffCall.run be f d) := by
    intro d hd
    apply bigtiff_calls_entry_steps be width height sw
    rw [hab]
    exact List.mem_append_right _ (List.mem_cons_of_mem _ hd)
  have hblk := step_in_finished_file be (BigTiffCall.run be) BigTiffCall.tagId 20 21 (by omega)
    a (.rational XResolution (72 * 0x02710) 0x02710) b _ hall
    (fun f => big_rational_block be XResolution (72 * 0x02710) 0x02710 f)
    (bigtiff_before_entries be hFile sw) (host_bytes be 8 0)
    ((bigtiff_before_entries be hFile sw).pos + 112) width height data (by rw [hpos]; omega)
  rw [hpos] at hblk
  simp only [List.length_append, length_host_bytes] at hblk
  simp only [WriteGrayscale16BitToBigTIFF]
  rw [bigtiff_directory_eq, hab]
  have h := read_big_rational_of_block be _ _ XResolution (72 * 0x02710) 0x02710 hblk
  exact h

theorem bigtiff_yres_entry (be : Bool) (width height : Nat) (data : List Float32)
    (sw : Option (List Byte)) (hFile : FileState) :
    read_uint be (WriteGrayscale16BitToBigTIFF be hFile width height data sw).file.bytes
        ((bigtiff_before_entries be hFile sw).pos + 200) 2 = YResolution
    ∧ read_uint be (WriteGrayscale16BitToBigTIFF be hFile width height data sw).file.bytes
        ((bigtiff_before_entries be hFile sw).pos + 200 + 2) 2 = TIFFrational
    ∧ read_uint be (WriteGrayscale16BitToBigTIFF be hFile width height data sw).file.bytes
        ((bigtiff_before_entries be hFile sw).pos + 200 + 4) 8 = 1
    ∧ read_uint be (WriteGrayscale16BitToBigTIFF be hFile width height data sw).file.bytes
        ((bigtiff_before_entries be hFile sw).pos + 200 + 12) 4 = 720000
    ∧ read_uint be (WriteGrayscale16BitToBigTIFF be hFile width height data sw).file.bytes
        ((bigtiff_before_entries be hFile sw).pos + 200 + 16) 4 = 10000 := by
  obtain ⟨a, b, hab, hpos⟩ := bigtiff_calls_around_yres be width height sw
  have hall : ∀ d ∈ b, EntryStep be d.tagId 20 21 (fun f => BigTiffCall.run be f d) := by
    intro d hd
    apply bigtiff_calls_entry_steps be width height sw
    rw [hab]
    exact List.mem_append_right _ (List.mem_cons_of_mem _ hd)
  have hblk := step_in_finished_file be (BigTiffCall.run be) BigTiffCall.tagId 20 21 (by omega)
    a (.rational YResolution (72 * 0x02710) 0x02710) b _ hall
    (fun f => big_rational_block be YResolution (72 * 0x02710) 0x02710 f)
    (bigtiff_before_entries be hFile sw) (host_bytes be 8 0)
    ((bigtiff_before_entries be hFile sw).pos + 112) width height data (by rw [hpos]; omega)
  rw [hpos] at hblk
  simp only [List.length_append, length_host_bytes] at hblk
  simp only [WriteGrayscale16BitToBigTIFF]
  rw [bigtiff_directory_eq, hab]
  have h := read_big_rational_of_block be _ _ YResolution (72 * 0x02710) 0x02710 hblk
  exact h

theorem tiff_calls_around_xres (be : Bool) (width height : Nat) (sw : Option (List Byte)) :
    ∃ a b, tiff_calls width height sw
        = a ++ TiffCall.plain XResolution TIFFrational 1 8 :: b
      ∧ ∀ f, (a.foldl (TiffCall.run be) f).pos = f.pos + 108 := by
  refine ⟨tiff_calls_a width height
      ++ [.plain SamplesPerPixel TIFFshort 1 1, .plain RowsPerStrip TIFFlong 1 height,
          .plain StripByteCounts TIFFlong 1 (write_count width height)],
    [.plain YResolution TIFFrational 1 16, .plain ResolutionUnit TIFFshort 1 2]
    ++ (if software_count sw ≠ 0 then
          [.ascii Software (sw.getD []) (software_count sw) 24]
        else [])
    ++ [.plain TIFFTAG_SAMPLEFORMAT TIFFshort 1 SAMPLEFORMAT_UINT], ?_, ?_⟩
  · simp only [tiff_calls, tiff_calls_b, List.append_assoc, List.cons_append, List.nil_append]
  · intro f
    simp only [tiff_calls_a, List.cons_append, List.nil_append, List.foldl_cons, List.foldl_nil,
      TiffCall.run, WriteTIFFTag_eq_fwrite, fwrite_pos, length_tiff_entry_bytes]

theorem tiff_calls_around_yres (be : Bool) (width height : Nat) (sw : Option (List Byte)) :
    ∃ a b, tiff_calls width height sw
        = a ++ TiffCall.plain YResolution TIFFrational 1 16 :: b
      ∧ ∀ f, (a.foldl (TiffCall.run be) f).pos = f.pos + 120 := by
  refine ⟨tiff_calls_a width height
      ++ [.plain SamplesPerPixel TIFFshort 1 1, .plain RowsPerStrip TIFFlong 1 height,
          .plain StripByteCounts TIFFlong 1 (write_count width height),
          .plain XResolution TIFFrational 1 8],
    [.plain ResolutionUnit TIFFshort 1 2]
    ++ (if software_count sw ≠ 0 then
          [.ascii Software (sw.getD []) (software_count sw) 24]
        else [])
    ++ [.plain TIFFTAG_SAMPLEFORMAT TIFFshort 1 SAMPLEFORMAT_UINT], ?_, ?_⟩
  · simp only [tiff_calls, tiff_calls_b, List.append_assoc, List.cons_append, List.nil_append]
  · intro f
    simp only [tiff_calls_a, List.cons_append, List.nil_append, List.foldl_cons, List.foldl_nil,
      TiffCall.run, WriteTIFFTag_eq_fwrite, fwrite_pos, length_tiff_entry_bytes]

theorem classic_entry_at {be : Bool} {width height : Nat} {sw : Option (List Byte)}
    {a b : List TiffCall} {tag type offset k : Nat} (data : List Float32) (hFile : FileState)
    (hab : tiff_calls width height sw = a ++ TiffCall.plain tag type 1 offset :: b)
    (hpos : ∀ f, (a.foldl (TiffCall.run be) f).pos = f.pos + k) (hk : 72 ≤ k)
    (ht : tag < 65536) (hty : type < 65536) (hns : type ≠ TIFFshort) :
    read_entry be (patch_and_payload be (tiff_directory be hFile width height sw).1
        (tiff_directory be hFile width height sw).2 width height data).1.bytes
        ((tiff_before_entries be hFile sw).pos + k)
      = ⟨tag, type, 1, offset % 2 ^ 32⟩ := by
  have hall : ∀ d ∈ b, EntryStep be d.tagId 12 13 (fun f => TiffCall.run be f d) := by
    intro d hd
    apply tiff_calls_entry_steps be width height sw
    rw [hab]
    exact List.mem_append_right _ (List.mem_cons_of_mem _ hd)
  have hblk := block_in_finished_file be (TiffCall.run be) TiffCall.tagId 12 13 (by omega)
    a (.plain tag type 1 offset) b (tiff_entry_bytes be tag type 1 offset) hall
    (fun f => by rw [TiffCall.run, WriteTIFFTag_eq_fwrite]) (tiff_before_entries be hFile sw)
    (host_bytes be 4 0) ((tiff_before_entries be hFile sw).pos + 68) width height data
    (by rw [hpos]; omega)
  rw [tiff_directory_eq, hab]
  rw [hpos] at hblk
  have hb : tiff_entry_bytes be tag type 1 offset
      = host_bytes be 2 tag ++ (host_bytes be 2 type ++ (host_bytes be 4 1
          ++ host_bytes be 4 offset)) := by
    rw [tiff_entry_bytes, if_neg (fun h => hns h.1)]
  rw [read_entry_of_block be _ _ tag type 1 (host_bytes be 4 offset) (fun j hj => by
      rw [hblk j (by rw [length_tiff_entry_bytes]; exact hj), hb]) ht hty (by decide)]
  rw [if_neg (fun h => hns h.1)]
  congr 1
  have := read_uint_host_bytes_zero be 4 offset []
  rw [List.append_nil] at this
  rw [this]
  norm_num

/-- C28, counterexample: in the BigTIFF file of a 1x1 image (little-endian host, no software
string, empty sink) the `XResolution` entry starts at offset 214 and the `YResolution` entry
at offset 234; the value slot of each holds the pair 720000, 10000 itself, and read as a file
offset it is 42949673680000, far beyond the 304 bytes of the file. -/
theorem bigtiff_rationals_inline :
    (bigtiff_header false ⟨[], 0⟩ none).pos + 8 + 20 * 9 = 214
    ∧ inline_rational_at false
        (WriteGrayscale16BitToBigTIFF false ⟨[], 0⟩ 1 1 [1120403456] none).file.bytes 214
        XResolution 720000 10000
    ∧ inline_rational_at false
        (WriteGrayscale16BitToBigTIFF false ⟨[], 0⟩ 1 1 [1120403456] none).file.bytes 234
        YResolution 720000 10000
    ∧ read_uint false
        (WriteGrayscale16BitToBigTIFF false ⟨[], 0⟩ 1 1 [1120403456] none).file.bytes 226 8
        = 42949673680000
    ∧ read_uint false
        (WriteGrayscale16BitToBigTIFF false ⟨[], 0⟩ 1 1 [1120403456] none).file.bytes 246 8
        = 42949673680000
    ∧ (WriteGrayscale16BitToBigTIFF false ⟨[], 0⟩ 1 1 [1120403456] none).file.bytes.length
        = 304 := by
  rw [bigtiff_one_pixel]
  decide

/-- C28, amended. Rational tags are out-of-line in the classic variant only.  When
`WriteGrayscale16BitToTIFF` writes a classic file to an empty sink, its tenth and eleventh
directory entries are `XResolution` and `YResolution`, single RATIONALs whose value slots
hold the file offsets 8 and 16, and the bytes 8..23 of the file are the two
(numerator, denominator) pairs 720000, 10000.  In every file written by
`WriteGrayscale16BitToBigTIFF`, from any file state, and in the BigTIFF file that
`WriteGrayscale16BitToTIFF` falls back to, the tenth and eleventh entries are `XResolution`
and `YResolution`, single RATIONALs whose 8-byte value slot holds the pair itself: the
4-byte numerator 720000 followed by the 4-byte denominator 10000. -/
theorem rational_tags (be : Bool) (width height : Nat) (data : List Float32)
    (sw : Option (List Byte)) :
    (too_big_for_tiff (((tiff_directory be ⟨[], 0⟩ width height sw).1.pos
        + write_count width height) % 2 ^ 64) = false →
      read_entry be (WriteGrayscale16BitToTIFF be ⟨[], 0⟩ width height data sw).file.bytes
          ((tiff_header be ⟨[], 0⟩ sw).pos + 2 + 12 * 9)
        = ⟨XResolution, TIFFrational, 1, 8⟩
      ∧ read_entry be (WriteGrayscale16BitToTIFF be ⟨[], 0⟩ width height data sw).file.bytes
          ((tiff_header be ⟨[], 0⟩ sw).pos + 2 + 12 * 10)
        = ⟨YResolution, TIFFrational, 1, 16⟩
      ∧ read_uint be (WriteGrayscale16BitToTIFF be ⟨[], 0⟩ width height data sw).file.bytes
          8 4 = 720000
      ∧ read_uint be (WriteGrayscale16BitToTIFF be ⟨[], 0⟩ width height data sw).file.bytes
          12 4 = 10000
      ∧ read_uint be (WriteGrayscale16BitToTIFF be ⟨[], 0⟩ width height data sw).file.bytes
          16 4 = 720000
      ∧ read_uint be (WriteGrayscale16BitToTIFF be ⟨[], 0⟩ width height data sw).file.bytes
          20 4 = 10000)
    ∧ (∀ hFile : FileState,
        inline_rational_at be
          (WriteGrayscale16BitToBigTIFF be hFile width height data sw).file.bytes
          ((bigtiff_header be hFile sw).pos + 8 + 20 * 9) XResolution 720000 10000
        ∧ inline_rational_at be
          (WriteGrayscale16BitToBigTIFF be hFile width height data sw).file.bytes
          ((bigtiff_header be hFile sw).pos + 8 + 20 * 10) YResolution 720000 10000)
    ∧ (too_big_for_tiff (((tiff_directory be ⟨[], 0⟩ width height sw).1.pos
        + write_count width height) % 2 ^ 64) = true →
      inline_rational_at be
          (WriteGrayscale16BitToTIFF be ⟨[], 0⟩ width height data sw).file.bytes
          ((bigtiff_header be ⟨[], 0⟩ sw).pos + 8 + 20 * 9) XResolution 720000 10000
        ∧ inline_rational_at be
          (WriteGrayscale16BitToTIFF be ⟨[], 0⟩ width height data sw).file.bytes
          ((bigtiff_header be ⟨[], 0⟩ sw).pos + 8 + 20 * 10) YResolution 720000 10000) := by
  have hbigpos : ∀ hFile : FileState, ∀ k,
      (bigtiff_header be hFile sw).pos + 8 + k = (bigtiff_before_entries be hFile sw).pos + k := by
    intro hFile k
    simp only [bigtiff_before_entries, Write8Byte, fwrite_pos, length_host_bytes]
  have hbig : ∀ hFile : FileState,
      inline_rational_at be
          (WriteGrayscale16BitToBigTIFF be hFile width height data sw).file.bytes
          ((bigtiff_header be hFile sw).pos + 8 + 20 * 9) XResolution 720000 10000
        ∧ inline_rational_at be
          (WriteGrayscale16BitToBigTIFF be hFile width height data sw).file.bytes
          ((bigtiff_header be hFile sw).pos + 8 + 20 * 10) YResolution 720000 10000 := by
    intro hFile
    rw [hbigpos, hbigpos]
    exact ⟨bigtiff_xres_entry be width height data sw hFile,
      bigtiff_yres_entry be width height data sw hFile⟩
  refine ⟨?_, hbig, ?_⟩
  · intro hsmall
    have hp : ∀ k, (tiff_header be ⟨[], 0⟩ sw).pos + 2 + k
        = (tiff_before_entries be ⟨[], 0⟩ sw).pos + k := by
      intro k
      simp only [tiff_before_entries, WriteWord, fwrite_pos, length_host_bytes]
    simp only [WriteGrayscale16BitToTIFF, hsmall, Bool.false_eq_true, if_false]
    obtain ⟨a1, b1, hab1, hpos1⟩ := tiff_calls_around_xres be width height sw
    obtain ⟨a2, b2, hab2, hpos2⟩ := tiff_calls_around_yres be width height sw
    refine ⟨?_, ?_, tiff_rationals_in_finished_file be width height data sw⟩
    · rw [hp]
      exact classic_entry_at data ⟨[], 0⟩ hab1 hpos1 (by omega) (by decide) (by decide)
        (by decide)
    · rw [hp]
      exact classic_entry_at data ⟨[], 0⟩ hab2 hpos2 (by omega) (by decide) (by decide)
        (by decide)
  · intro htrig
    have hpos : (bigtiff_header be ⟨[], 0⟩ sw).pos
        = (bigtiff_header be (rewind (tiff_directory be ⟨[], 0⟩ width height sw).1) sw).pos := by
      rw [bigtiff_header_eq_fwrite, bigtiff_header_eq_fwrite, fwrite_pos, fwrite_pos, rewind_pos]
    simp only [WriteGrayscale16BitToTIFF, htrig, if_true]
    rw [hpos]
    exact hbig _

/-- C28, witness: the classic file of the 1x1 image without software string on a
little-endian host has its `XResolution` entry at offset 136 with the value slot 8. -/
theorem rational_tags_witness :
    too_big_for_tiff (((tiff_directory false ⟨[], 0⟩ 1 1 none).1.pos + write_count 1 1)
          % 2 ^ 64) = false
    ∧ read_entry false (WriteGrayscale16BitToTIFF false ⟨[], 0⟩ 1 1 [1120403456] none).file.bytes
        ((tiff_header false ⟨[], 0⟩ none).pos + 2 + 12 * 9)
      = ⟨XResolution, TIFFrational, 1, 8⟩
    ∧ (tiff_header false ⟨[], 0⟩ none).pos + 2 + 12 * 9 = 136 :=
  ⟨by decide, ((rational_tags false 1 1 [1120403456] none).1 (by decide)).1, by decide⟩

/-! ## TIFF encoder: the inline `Software` entry -/

theorem ascii_entry_end (be : Bool) (f : FileState) (tag : Nat) (s : List Byte) (offset : Nat) :
    (WriteTIFFAsciiTag be f tag s (strlen s + 1) offset).pos
      = f.pos + (if strlen s + 1 ≤ 4 ∧ (strlen s + 1) % 2 = 0 then 13 else 12) := by
  simp only [WriteTIFFAsciiTag, WriteTIFFTag_eq_fwrite, WriteString_eq_fwrite]
  rw [if_neg (by omega)]
  by_cases hc : strlen s + 1 > 4
  · rw [if_pos hc, if_neg (by omega), fwrite_pos, length_tiff_entry_bytes]
  · rw [if_neg hc]
    obtain ⟨hp, _⟩ := overwrite_tail (tiff_entry_bytes be Software TIFFascii (strlen s + 1) offset)
      ((s ++ [0]).take (strlen s + 1) ++ [0]) f 4 (by simp)
    simp only [length_tiff_entry_bytes, length_string_bytes] at hp
    simp only [fseek_cur_pos]
    have hcase : strlen s = 0 ∨ strlen s = 1 ∨ strlen s = 2 ∨ strlen s = 3 := by omega
    rw [show (-(4 : Int)) = -((4 : Nat) : Int) from rfl, hp]
    have a0 : (0 &&& 2 : Nat) = 0 := by decide
    have a1 : (1 &&& 2 : Nat) = 0 := by decide
    have a2 : (2 &&& 2 : Nat) = 2 := by decide
    have a3 : (3 &&& 2 : Nat) = 2 := by decide
    rcases hcase with h | h | h | h <;> rw [h] <;>
      simp only [Nat.reduceAdd, Nat.reduceSub, a0, a1, a2, a3] <;> simp <;> omega

theorem big_ascii_entry_end (be : Bool) (f : FileState) (tag : Nat) (s : List Byte)
    (offset : Nat) :
    (WriteBigTIFFAsciiTag be f tag s (strlen s + 1) offset).pos
      = f.pos + (if strlen s + 1 ≤ 8 ∧ (strlen s + 1) % 2 = 0 then 21 else 20) := by
  simp only [WriteBigTIFFAsciiTag, WriteBigTIFFTag_eq_fwrite, WriteString_eq_fwrite]
  rw [if_neg (by omega)]
  by_cases hc : strlen s + 1 > 8
  · rw [if_pos hc, if_neg (by omega), fwrite_pos, length_bigtiff_entry_bytes]
  · rw [if_neg hc]
    obtain ⟨hp, _⟩ := overwrite_tail
      (bigtiff_entry_bytes be Software TIFFascii (strlen s + 1) offset)
      ((s ++ [0]).take (strlen s + 1) ++ [0]) f 8 (by simp)
    simp only [length_bigtiff_entry_bytes, length_string_bytes] at hp
    simp only [fseek_cur_pos]
    have hcase : strlen s = 0 ∨ strlen s = 1 ∨ strlen s = 2 ∨ strlen s = 3 ∨ strlen s = 4
        ∨ strlen s = 5 ∨ strlen s = 6 ∨ strlen s = 7 := by omega
    rw [show (-(8 : Int)) = -((8 : Nat) : Int) from rfl, hp]
    have a0 : (0 &&& 6 : Nat) = 0 := by decide
    have a1 : (1 &&& 6 : Nat) = 0 := by decide
    have a2 : (2 &&& 6 : Nat) = 2 := by decide
    have a3 : (3 &&& 6 : Nat) = 2 := by decide
    have a4 : (4 &&& 6 : Nat) = 4 := by decide
    have a5 : (5 &&& 6 : Nat) = 4 := by decide
    have a6 : (6 &&& 6 : Nat) = 6 := by decide
    have a7 : (7 &&& 6 : Nat) = 6 := by decide
    rcases hcase with h | h | h | h | h | h | h | h <;> rw [h] <;>
      simp only [Nat.reduceAdd, Nat.reduceSub, a0, a1, a2, a3, a4, a5, a6, a7] <;> simp <;> omega

/-- C29, the divergence.  An inline `Software` entry ends 13 bytes (classic) or 21 bytes
(BigTIFF) after its start whenever the count, the NUL included, is even, and 12 or 20 bytes
after it otherwise: `WriteString` writes its pad byte unconditionally.  Evaluated at the 1x1
image with the software string "a" on a little-endian host: the entries of the classic
directory start at 29, 41, ..., 173, 186, so the `SampleFormat` entry starts 13 bytes after
the `Software` entry and is not found at the offset 185 of a 12-byte layout; in the BigTIFF
file the `Software` entry starts at 275 and the `SampleFormat` entry at 296, not at 295. -/
theorem inline_ascii_entry_overruns :
    (∀ (be : Bool) (f : FileState) (tag : Nat) (s : List Byte) (offset : Nat),
      (WriteTIFFAsciiTag be f tag s (strlen s + 1) offset).pos
        = f.pos + (if strlen s + 1 ≤ 4 ∧ (strlen s + 1) % 2 = 0 then 13 else 12))
    ∧ (∀ (be : Bool) (f : FileState) (tag : Nat) (s : List Byte) (offset : Nat),
      (WriteBigTIFFAsciiTag be f tag s (strlen s + 1) offset).pos
        = f.pos + (if strlen s + 1 ≤ 8 ∧ (strlen s + 1) % 2 = 0 then 21 else 20))
    ∧ software_count (some [97]) = 2
    ∧ call_positions false (tiff_before_entries false ⟨[], 0⟩ (some [97]))
        (tiff_calls 1 1 (some [97]))
      = [29, 41, 53, 65, 77, 89, 101, 113, 125, 137, 149, 161, 173, 186]
    ∧ (tiff_header false ⟨[], 0⟩ (some [97])).pos + 2 + 12 * 13 = 185
    ∧ read_entry false (WriteGrayscale16BitToTIFF false ⟨[], 0⟩ 1 1 [1120403456]
        (some [97])).file.bytes 173 = ⟨Software, TIFFascii, 2, 97⟩
    ∧ read_entry false (WriteGrayscale16BitToTIFF false ⟨[], 0⟩ 1 1 [1120403456]
        (some [97])).file.bytes 185 = ⟨21248, 769, 256, 256⟩
    ∧ read_entry false (WriteGrayscale16BitToTIFF false ⟨[], 0⟩ 1 1 [1120403456]
        (some [97])).file.bytes 186 = ⟨TIFFTAG_SAMPLEFORMAT, TIFFshort, 1, SAMPLEFORMAT_UINT⟩
    ∧ big_call_positions false (bigtiff_before_entries false ⟨[], 0⟩ (some [97]))
        (bigtiff_calls 1 1 (some [97]))
      = [35, 55, 75, 95, 115, 135, 155, 175, 195, 215, 235, 255, 275, 296]
    ∧ (bigtiff_header false ⟨[], 0⟩ (some [97])).pos + 8 + 20 * 13 = 295
    ∧ read_uint false (WriteGrayscale16BitToBigTIFF false ⟨[], 0⟩ 1 1 [1120403456]
        (some [97])).file.bytes 295 2 = 21248
    ∧ read_uint false (WriteGrayscale16BitToBigTIFF false ⟨[], 0⟩ 1 1 [1120403456]
        (some [97])).file.bytes 296 2 = TIFFTAG_SAMPLEFORMAT :=
  ⟨ascii_entry_end, big_ascii_entry_end, by decide, by decide, by decide,
    by rw [tiff_one_pixel_a]; decide, by rw [tiff_one_pixel_a]; decide,
    by rw [tiff_one_pixel_a]; decide, by decide, by decide,
    by rw [bigtiff_one_pixel_a]; decide, by rw [bigtiff_one_pixel_a]; decide⟩

/-! ## The world file -/

theorem crlf_lines_from_field (g rest acc : List Byte) (hg : graph g) :
    crlf_lines_from (g ++ str "\r\n" ++ rest) acc
      = (crlf_lines_from rest []).map (fun ls => (g.reverse ++ acc).reverse :: ls) := by
  induction g generalizing acc with
  | nil =>
    have e : str "\r\n" = [13, 10] := by decide
    rw [e]
    simp [crlf_lines_from]
  | cons c g ih =>
    have hc : c ≠ 10 := by
      intro h
      have := hg c (List.mem_cons_self _ _)
      rw [h] at this
      exact absurd this.1 (by decide)
    have hg2 : graph g := fun d hd => hg d (List.mem_cons_of_mem _ hd)
    rw [List.cons_append, List.cons_append, crlf_lines_from, if_neg (fun h => hc h.1),
      ih (c :: acc) hg2]
    simp

theorem crlf_lines_tfw_line (v : Fp) (rest : List Byte) :
    crlf_lines (tfw_line v ++ rest) = (crlf_lines rest).map (fun ls => fmt_g 14 v :: ls) := by
  rw [crlf_lines, tfw_line, crlf_lines_from_field _ _ _ (graph_fmt_g 14 v), crlf_lines]
  simp

theorem scan_lf_tfw_line (v : Fp) : scan_lf (tfw_line v) = some (reread64 14 v) := by
  have e : str "\r\n" = [13, 10] := by decide
  rw [tfw_line, e]
  exact scan_lf_fmt_g 14 (by decide) v [10]

/-- C25. For all numbers of rows and columns and every bounding box, the text that
`write_tfw_file` emits consists of exactly six lines, each ended by CR LF: the `%.14g`
conversions of `xdim`, `0`, `0`, `-ydim`, `xmin + xdim * 0.5` and `ymax - ydim * 0.5`, in
this order, where `xdim = (xmax - xmin) / ncols` and `ydim = (ymax - ymin) / nrows` in
`double` arithmetic.  No conversion contains white space, and `%lf` reads from each line the
value printed, rounded to 14 significant digits.  For the 2x2 grid on the box from (0, 0)
to (2, 2) the text is "1", "0", "0", "-1", "0.5", "1.5". -/
theorem world_file_lines (nrows ncols : Int) (xmin xmax ymin ymax : Fp) :
    crlf_lines (write_tfw_file nrows ncols xmin xmax ymin ymax)
      = some [fmt_g 14 (Fp.div64 (Fp.sub64 xmax xmin) (Fp.of_int ncols)),
          fmt_g 14 dbl_0, fmt_g 14 dbl_0,
          fmt_g 14 (Fp.neg (Fp.div64 (Fp.sub64 ymax ymin) (Fp.of_int nrows))),
          fmt_g 14 (Fp.add64 xmin
            (Fp.mul64 (Fp.div64 (Fp.sub64 xmax xmin) (Fp.of_int ncols)) dbl_half)),
          fmt_g 14 (Fp.sub64 ymax
            (Fp.mul64 (Fp.div64 (Fp.sub64 ymax ymin) (Fp.of_int nrows)) dbl_half))]
    ∧ write_tfw_file nrows ncols xmin xmax ymin ymax
      = tfw_line (cell_dim ncols xmin xmax) ++ tfw_line dbl_0 ++ tfw_line dbl_0
        ++ tfw_line (Fp.neg (cell_dim nrows ymin ymax))
        ++ tfw_line (Fp.add64 xmin (Fp.mul64 (cell_dim ncols xmin xmax) dbl_half))
        ++ tfw_line (Fp.sub64 ymax (Fp.mul64 (cell_dim nrows ymin ymax) dbl_half))
    ∧ fmt_g 14 dbl_0 = str "0"
    ∧ (∀ v : Fp, graph (fmt_g 14 v) ∧ scan_lf (tfw_line v) = some (reread64 14 v))
    ∧ write_tfw_file 2 2 (.fin false 0 0) (.fin false 2 0) (.fin false 0 0) (.fin false 2 0)
      = str "1\r\n0\r\n0\r\n-1\r\n0.5\r\n1.5\r\n" := by
  refine ⟨?_, rfl, by decide, fun v => ⟨graph_fmt_g 14 v, scan_lf_tfw_line v⟩, by decide⟩
  simp only [write_tfw_file, cell_dim, List.append_assoc]
  rw [crlf_lines_tfw_line, crlf_lines_tfw_line, crlf_lines_tfw_line, crlf_lines_tfw_line,
    crlf_lines_tfw_line]
  have h := crlf_lines_tfw_line (Fp.sub64 ymax
    (Fp.mul64 (Fp.div64 (Fp.sub64 ymax ymin) (Fp.of_int nrows)) dbl_half)) []
  rw [List.append_nil] at h
  rw [h]
  rfl

/-! ## The size warnings of `write_tif_tfw_files` -/

theorem fwrite_length_eq_pos (bs : List Byte) (f : FileState) (hbs : bs ≠ [])
    (h : f.bytes.length ≤ f.pos) : (fwrite bs f).bytes.length = (fwrite bs f).pos := by
  rw [length_fwrite bs f hbs, fwrite_pos]
  omega

theorem tiff_call_length_le_pos (be : Bool) (width height : Nat) (sw : Option (List Byte))
    (c : TiffCall) (hc : c ∈ tiff_calls width height sw) (f : FileState)
    (h : f.bytes.length ≤ f.pos) :
    (TiffCall.run be f c).bytes.length ≤ (TiffCall.run be f c).pos := by
  have hplain : ∀ tag type length offset,
      (TiffCall.run be f (.plain tag type length offset)).bytes.length
        ≤ (TiffCall.run be f (.plain tag type length offset)).pos := by
    intro tag type length offset
    rw [TiffCall.run, WriteTIFFTag_eq_fwrite]
    exact Nat.le_of_eq (fwrite_length_eq_pos _ f (by
      intro h0
      have := length_tiff_entry_bytes be tag type length offset
      rw [h0] at this
      cases this) h)
  simp only [tiff_calls, tiff_calls_a, tiff_calls_b, List.mem_append, List.mem_cons,
    List.mem_singleton, List.not_mem_nil, or_false] at hc
  rcases hc with (h1 | h1 | h1 | h1 | h1 | h1) | ((h1 | h1 | h1 | h1 | h1 | h1) | h1) | h1
  any_goals (subst h1; exact hplain _ _ _ _)
  by_cases hs : software_count sw ≠ 0
  · rw [if_pos hs, List.mem_singleton] at h1
    subst h1
    rw [software_count_eq sw hs]
    have hend := ascii_entry_end be f Software (sw.getD []) 24
    rw [TiffCall.run, hend]
    simp only [WriteTIFFAsciiTag, WriteTIFFTag_eq_fwrite, WriteString_eq_fwrite]
    rw [if_neg (by omega)]
    have hne : tiff_entry_bytes be Software TIFFascii (strlen (sw.getD []) + 1) 24 ≠ [] := by
      intro h0
      have := length_tiff_entry_bytes be Software TIFFascii (strlen (sw.getD []) + 1) 24
      rw [h0] at this
      cases this
    have hl := length_fwrite _ f hne
    rw [length_tiff_entry_bytes] at hl
    by_cases hcnt : strlen (sw.getD []) + 1 > 4
    · rw [if_pos hcnt, if_neg (by omega), hl]
      omega
    · rw [if_neg hcnt]
      simp only [fseek_cur_bytes]
      have hne2 : (sw.getD [] ++ [0]).take (strlen (sw.getD []) + 1) ++ [(0 : Byte)] ≠ [] := by
        simp
      rw [length_fwrite _ _ hne2, length_string_bytes, fseek_cur_bytes, hl, fseek_cur_pos,
        fwrite_pos, length_tiff_entry_bytes]
      split <;> omega
  · rw [if_neg hs] at h1
    cases h1

theorem calls_length_le_pos (be : Bool) (width height : Nat) (sw : Option (List Byte))
    (cs : List TiffCall) (hcs : ∀ c ∈ cs, c ∈ tiff_calls width height sw) (f : FileState)
    (h : f.bytes.length ≤ f.pos) :
    (cs.foldl (TiffCall.run be) f).bytes.length ≤ (cs.foldl (TiffCall.run be) f).pos := by
  induction cs generalizing f with
  | nil => exact h
  | cons c cs ih =>
    rw [List.foldl_cons]
    exact ih (fun d hd => hcs d (List.mem_cons_of_mem _ hd)) _
      (tiff_call_length_le_pos be width height sw c (hcs c (List.mem_cons_self _ _)) f h)

/-- On an empty sink the classic directory ends where the file ends. -/
theorem classic_directory_length (be : Bool) (width height : Nat) (sw : Option (List Byte)) :
    (tiff_directory be ⟨[], 0⟩ width height sw).1.bytes.length
      = (tiff_directory be ⟨[], 0⟩ width height sw).1.pos := by
  rw [tiff_directory_eq]
  simp only []
  apply fwrite_length_eq_pos _ _ (by cases be <;> decide)
  apply calls_length_le_pos be width height sw _ (fun c hc => hc)
  have hb : tiff_before_entries be ⟨[], 0⟩ sw
      = fwrite (tiff_header_bytes be sw ++ host_bytes be 2 (tag_count sw)) ⟨[], 0⟩ := by
    simp only [tiff_before_entries, WriteWord, tiff_header_eq_fwrite, fwrite_fwrite]
  rw [hb]
  exact Nat.le_of_eq (fwrite_length_eq_pos _ _ (by
    intro h0
    have := congrArg List.length h0
    simp [length_host_bytes] at this) (Nat.le_refl _))

/-- The length of the classic file written to an empty sink. -/
theorem classic_file_length (be : Bool) (width height : Nat) (data : List Float32)
    (sw : Option (List Byte)) :
    (patch_and_payload be (tiff_directory be ⟨[], 0⟩ width height sw).1
        (tiff_directory be ⟨[], 0⟩ width height sw).2 width height data).1.bytes.length
      = (tiff_directory be ⟨[], 0⟩ width height sw).1.pos
        + (bitmap_written be width height data).length := by
  have hlen := classic_directory_length be width height sw
  have hpos : (tiff_directory be ⟨[], 0⟩ width height sw).2 + 4
      ≤ (tiff_directory be ⟨[], 0⟩ width height sw).1.pos := by
    obtain ⟨e1, _⟩ := tiff_entries_end_pos be ⟨[], 0⟩ width height sw
    rw [tiff_directory_eq, fwrite_pos, length_host_bytes]
    simp only []
    omega
  generalize (tiff_directory be ⟨[], 0⟩ width height sw).1 = s at hlen hpos
  generalize (tiff_directory be ⟨[], 0⟩ width height sw).2 = off at hpos
  simp only [patch_and_payload, WriteBitmap_fst, WriteLong]
  have h1 : (fwrite (host_bytes be 4 s.pos) (fseek_set s off)).bytes.length = s.pos := by
    rw [length_fwrite _ _ (by cases be <;> simp [host_bytes, le_bytes]), fseek_set_bytes,
      fseek_set_pos, length_host_bytes]
    omega
  by_cases hb : bitmap_written be width height data = []
  · rw [hb, fwrite_nil, fseek_set_bytes, h1, List.length_nil, Nat.add_zero]
  · rw [length_fwrite _ _ hb, fseek_set_bytes, h1, fseek_set_pos]
    omega

theorem size_warning_bigtiff_iff (fileSize : Nat) :
    size_warning fileSize = .bigtiff ↔ too_big_for_tiff fileSize = true := by
  simp only [size_warning, too_big_for_tiff, decide_eq_true_eq]
  constructor
  · intro h
    by_contra hc
    rw [if_neg hc] at h
    split at h <;> cases h
  · intro h
    rw [if_pos h]

theorem size_warning_two_gigabytes_iff (fileSize : Nat)
    (h : too_big_for_tiff fileSize = false) :
    (size_warning fileSize = .two_gigabytes ↔ 2 ^ 31 ≤ fileSize)
    ∧ (fileSize < 2 ^ 31 → size_warning fileSize = .no_warning) := by
  simp only [too_big_for_tiff, decide_eq_false_iff_not] at h
  rw [size_warning, if_neg h, Nat.shiftRight_eq_div_pow]
  by_cases hc : 2 ^ 31 ≤ fileSize
  · have h1 : 1 ≤ fileSize / 2 ^ 31 := (Nat.le_div_iff_mul_le (by norm_num)).mpr (by omega)
    rw [if_pos (by omega)]
    exact ⟨⟨fun _ => hc, fun _ => rfl⟩, fun h2 => absurd hc (by omega)⟩
  · have h1 : fileSize / 2 ^ 31 = 0 := Nat.div_eq_of_lt (by omega)
    rw [if_neg (by rw [h1]; simp)]
    exact ⟨⟨fun h2 => (by cases h2), fun h2 => absurd h2 hc⟩, fun _ => rfl⟩

theorem write_tif_tfw_files_eq (be : Bool) (f : FileState) (nrows ncols : Nat)
    (xmin xmax ymin ymax : Fp) (data : List Float32) (sw : Option (List Byte)) :
    write_tif_tfw_files be f nrows ncols xmin xmax ymin ymax data sw
      = if (WriteGrayscale16BitToTIFF be f ncols nrows data sw).err = -2 then .error .alloc
        else .ok ⟨(WriteGrayscale16BitToTIFF be f ncols nrows data sw).file,
          size_warning (WriteGrayscale16BitToTIFF be f ncols nrows data sw).fileSize,
          write_tfw_file nrows ncols xmin xmax ymin ymax⟩ := rfl

theorem tif_mk (A : FileState) (B : SizeWarning) (C : List Byte) :
    (TifTfwWritten.mk A B C).tif = A := rfl

theorem warning_mk (A : FileState) (B : SizeWarning) (C : List Byte) :
    (TifTfwWritten.mk A B C).warning = B := rfl

theorem tfw_mk (A : FileState) (B : SizeWarning) (C : List Byte) :
    (TifTfwWritten.mk A B C).tfw = C := rfl

/-- A successful `write_tif_tfw_files`: the encoder has not returned -2, and the outputs
are the file it leaves, the warning for the size it reports, and the world file. -/
theorem write_tif_tfw_files_ok (be : Bool) (f : FileState) (nrows ncols : Nat)
    (xmin xmax ymin ymax : Fp) (data : List Float32) (sw : Option (List Byte))
    (w : TifTfwWritten)
    (h : write_tif_tfw_files be f nrows ncols xmin xmax ymin ymax data sw = .ok w) :
    (WriteGrayscale16BitToTIFF be f ncols nrows data sw).err ≠ -2
    ∧ w.tif = (WriteGrayscale16BitToTIFF be f ncols nrows data sw).file
    ∧ w.warning = size_warning (WriteGrayscale16BitToTIFF be f ncols nrows data sw).fileSize
    ∧ w.tfw = write_tfw_file nrows ncols xmin xmax ymin ymax := by
  rw [write_tif_tfw_files_eq] at h
  by_cases he : (WriteGrayscale16BitToTIFF be f ncols nrows data sw).err = -2
  · rw [if_pos he] at h
    cases h
  · rw [if_neg he] at h
    have hw := Except.ok.inj h
    rw [← hw]
    exact ⟨he, tif_mk _ _ _, warning_mk _ _ _, tfw_mk _ _ _⟩

/-- With fewer than `2^30` columns `write_tif_tfw_files` succeeds. -/
theorem write_tif_tfw_files_of_lt (be : Bool) (f : FileState) (nrows ncols : Nat)
    (xmin xmax ymin ymax : Fp) (data : List Float32) (sw : Option (List Byte))
    (hc : ncols < 2 ^ 30) :
    ∃ w, write_tif_tfw_files be f nrows ncols xmin xmax ymin ymax data sw = .ok w := by
  have he := (tiff_err_of_lt be f ncols nrows data sw hc).1
  rw [write_tif_tfw_files_eq, if_neg (by rw [he]; decide)]
  exact ⟨_, rfl⟩

/-- From `2^30` columns on, within the range of an `int`, it takes the error exit of the
memory allocation error. -/
theorem write_tif_tfw_files_of_ge (be : Bool) (f : FileState) (nrows ncols : Nat)
    (xmin xmax ymin ymax : Fp) (data : List Float32) (sw : Option (List Byte))
    (h1 : 2 ^ 30 ≤ ncols) (h2 : ncols < 2 ^ 31) :
    write_tif_tfw_files be f nrows ncols xmin xmax ymin ymax data sw = .error .alloc := by
  have he := (tiff_err_of_ge be f ncols nrows data sw h1 h2).1
  rw [write_tif_tfw_files_eq, if_pos he]

/-- C30, as stated, does not hold: the encode does not succeed in every case. For the
grid of one row and `2^30` columns (little-endian host, no software string)
`WriteBitmap` cannot allocate its row buffer, the encoder returns -2, and
`write_tif_tfw_files` takes the error exit of lines 164-166. -/
theorem tif_not_written_for_wide_grid :
    (WriteGrayscale16BitToTIFF false ⟨[], 0⟩ 1073741824 1 (List.replicate 1073741824 0)
        none).err = -2
    ∧ write_tif_tfw_files false ⟨[], 0⟩ 1 1073741824 (.fin false 0 0) (.fin false 2 0)
        (.fin false 0 0) (.fin false 2 0) (List.replicate 1073741824 0) none
      = .error .alloc := by
  decide

/-- C30, amended. On an empty sink, for `nrows` and `ncols` in the range of an `int`, a
software string that fits an `int` and a grid of `ncols * nrows` values:
`write_tif_tfw_files` succeeds when `ncols` is below `2^30` and takes the error exit of the
memory allocation error when `ncols` is `2^30` or more.  Whenever it succeeds the size
warning agrees with the file written: the file is classic (version 42) or BigTIFF
(version 43); the BigTIFF warning is printed exactly when it is BigTIFF; the 2-gigabyte
warning is printed exactly when it is classic and at least `2^31` bytes long; a classic
file shorter than `2^31` bytes gets no warning; and the .tif file is the one that
`WriteGrayscale16BitToTIFF` leaves, with the return value 0. -/
theorem size_warnings_consistent (be : Bool) (nrows ncols : Nat) (xmin xmax ymin ymax : Fp)
    (data : List Float32) (sw : Option (List Byte)) (hw : ncols < 2 ^ 31)
    (hh : nrows < 2 ^ 31) (hs : software_strlen sw + 2 < 2 ^ 31)
    (hlen : data.length = ncols * nrows) :
    (ncols < 2 ^ 30 →
      ∃ w, write_tif_tfw_files be ⟨[], 0⟩ nrows ncols xmin xmax ymin ymax data sw = .ok w)
    ∧ (2 ^ 30 ≤ ncols →
      write_tif_tfw_files be ⟨[], 0⟩ nrows ncols xmin xmax ymin ymax data sw = .error .alloc)
    ∧ ∀ w, write_tif_tfw_files be ⟨[], 0⟩ nrows ncols xmin xmax ymin ymax data sw = .ok w →
      (read_uint be w.tif.bytes 2 2 = 42 ∨ read_uint be w.tif.bytes 2 2 = 43)
      ∧ (w.warning = .bigtiff ↔ read_uint be w.tif.bytes 2 2 = 43)
      ∧ (w.warning = .two_gigabytes
        ↔ read_uint be w.tif.bytes 2 2 = 42 ∧ 2 ^ 31 ≤ w.tif.bytes.length)
      ∧ (read_uint be w.tif.bytes 2 2 = 42 → w.tif.bytes.length < 2 ^ 31 →
          w.warning = .no_warning)
      ∧ w.tif = (WriteGrayscale16BitToTIFF be ⟨[], 0⟩ ncols nrows data sw).file
      ∧ (WriteGrayscale16BitToTIFF be ⟨[], 0⟩ ncols nrows data sw).err = 0 := by
  refine ⟨write_tif_tfw_files_of_lt be _ nrows ncols xmin xmax ymin ymax data sw,
    fun h1 => write_tif_tfw_files_of_ge be _ nrows ncols xmin xmax ymin ymax data sw h1 hw,
    fun w hok => ?_⟩
  obtain ⟨hne, htif, hwarn0, _⟩ :=
    write_tif_tfw_files_ok be _ nrows ncols xmin xmax ymin ymax data sw w hok
  have herr := tiff_err be ⟨[], 0⟩ ncols nrows data sw
  have hm : malloc_fails (int_bufsize ncols 2) = false := by
    cases hmf : malloc_fails (int_bufsize ncols 2)
    · rfl
    · rw [hmf] at herr
      exact absurd herr hne
  have herr0 : (WriteGrayscale16BitToTIFF be ⟨[], 0⟩ ncols nrows data sw).err = 0 := by
    rw [herr, hm]
    rfl
  refine (fun (h5 : _ ∧ _ ∧ _ ∧ _ ∧ _) =>
    ⟨h5.1, h5.2.1, h5.2.2.1, h5.2.2.2.1, h5.2.2.2.2, herr0⟩) ?_
  rw [htif, hwarn0]
  clear hne htif hwarn0 herr herr0 hok
  have hsb := length_software_bytes_le be sw
  have hf0 := tiff_before_entries_pos be ⟨[], 0⟩ sw
  obtain ⟨e1, e2⟩ := tiff_entries_end_pos be ⟨[], 0⟩ ncols nrows sw
  have hpos : (tiff_directory be ⟨[], 0⟩ ncols nrows sw).1.pos
      = ((tiff_calls ncols nrows sw).foldl (TiffCall.run be)
          (tiff_before_entries be ⟨[], 0⟩ sw)).pos + 4 := by
    rw [tiff_directory_eq, fwrite_pos, length_host_bytes]
  simp only [] at hf0
  have hiff := too_big_for_tiff_iff (tiff_directory be ⟨[], 0⟩ ncols nrows sw).1.pos ncols
    nrows hw hh (by omega) (by omega)
  have hwc := write_count_eq ncols nrows hw hh
  have hmul : ncols * nrows < 2 ^ 62 := by
    calc ncols * nrows ≤ (2 ^ 31 - 1) * (2 ^ 31 - 1) :=
          Nat.mul_le_mul (by omega) (by omega)
      _ < 2 ^ 62 := by norm_num
  by_cases hbig : too_big_for_tiff (((tiff_directory be ⟨[], 0⟩ ncols nrows sw).1.pos
      + write_count ncols nrows) % 2 ^ 64) = true
  · have hR : WriteGrayscale16BitToTIFF be ⟨[], 0⟩ ncols nrows data sw
        = WriteGrayscale16BitToBigTIFF be ⟨[], 0⟩ ncols nrows data sw := by
      simp only [WriteGrayscale16BitToTIFF, hbig, if_true]
      simp only [WriteGrayscale16BitToBigTIFF, bigtiff_directory_over_classic]
    have hv := bigtiff_version_field be ⟨[], 0⟩ ncols nrows data sw
    simp only [Nat.zero_add] at hv
    have hb0 := bigtiff_before_entries_pos be ⟨[], 0⟩ sw
    obtain ⟨b1, b2⟩ := bigtiff_entries_end_pos be ⟨[], 0⟩ ncols nrows sw
    have hbpos : (bigtiff_directory be ⟨[], 0⟩ ncols nrows sw).1.pos
        = ((bigtiff_calls ncols nrows sw).foldl (BigTiffCall.run be)
            (bigtiff_before_entries be ⟨[], 0⟩ sw)).pos + 8 := by
      rw [bigtiff_directory_eq, fwrite_pos, length_host_bytes]
    simp only [] at hb0
    have hiff2 := too_big_for_tiff_iff (bigtiff_directory be ⟨[], 0⟩ ncols nrows sw).1.pos
      ncols nrows hw hh (by omega) (by omega)
    have hwarn : size_warning (WriteGrayscale16BitToBigTIFF be ⟨[], 0⟩ ncols nrows data
        sw).fileSize = .bigtiff := by
      rw [size_warning_bigtiff_iff]
      simp only [WriteGrayscale16BitToBigTIFF]
      apply hiff2.mpr
      have := hiff.mp hbig
      omega
    rw [hR, hv, hwarn]
    exact ⟨Or.inr rfl, ⟨fun _ => rfl, fun _ => rfl⟩,
      ⟨fun h => (by cases h), fun h => absurd h.1 (by decide)⟩,
      fun h => absurd h (by decide), rfl⟩
  · have hfalse : too_big_for_tiff (((tiff_directory be ⟨[], 0⟩ ncols nrows sw).1.pos
        + write_count ncols nrows) % 2 ^ 64) = false := by
      rw [Bool.eq_false_iff]
      exact hbig
    have hv := tiff_version_field be ⟨[], 0⟩ ncols nrows data sw
    simp only [Nat.zero_add] at hv
    have hL := classic_file_length be ncols nrows data sw
    rw [bitmap_written_of_ok be ncols nrows data hm, bitmap_bytes_eq_samples, ← hlen,
      List.take_length, length_samples_to_bytes, hlen] at hL
    have hsz : ((tiff_directory be ⟨[], 0⟩ ncols nrows sw).1.pos + write_count ncols nrows)
        % 2 ^ 64 = (tiff_directory be ⟨[], 0⟩ ncols nrows sw).1.pos + 2 * (ncols * nrows) := by
      rw [hwc, Nat.mod_eq_of_lt (by omega)]
      omega
    obtain ⟨w1, w2⟩ := size_warning_two_gigabytes_iff _ hfalse
    have w0 : size_warning (((tiff_directory be ⟨[], 0⟩ ncols nrows sw).1.pos
        + write_count ncols nrows) % 2 ^ 64) ≠ .bigtiff := by
      rw [Ne, size_warning_bigtiff_iff]
      exact hbig
    simp only [WriteGrayscale16BitToTIFF, hfalse, Bool.false_eq_true, if_false]
    rw [hv, hL]
    rw [hsz] at w0 w1 w2
    rw [hsz]
    exact ⟨Or.inl rfl, ⟨fun h => absurd h w0, fun h => absurd h (by decide)⟩,
      ⟨fun h => ⟨rfl, w1.mp h⟩, fun h => w1.mpr h.2⟩, fun _ h => w2 h, trivial⟩

/-- C30, witness: the 1x1 grid without software string on a little-endian host gives a
classic file of 190 bytes and no warning. -/
theorem size_warnings_consistent_witness :
    ((1 : Nat) < 2 ^ 31 ∧ software_strlen none + 2 < 2 ^ 31
      ∧ ([1120403456] : List Float32).length = 1 * 1)
    ∧ (∃ w, write_tif_tfw_files false ⟨[], 0⟩ 1 1 (.fin false 0 0) (.fin false 2 0)
        (.fin false 0 0) (.fin false 2 0) [1120403456] none = .ok w)
    ∧ ∀ w, write_tif_tfw_files false ⟨[], 0⟩ 1 1 (.fin false 0 0) (.fin false 2 0)
        (.fin false 0 0) (.fin false 2 0) [1120403456] none = .ok w →
      (w.warning = .bigtiff ↔ read_uint false w.tif.bytes 2 2 = 43)
      ∧ w.tif = (WriteGrayscale16BitToTIFF false ⟨[], 0⟩ 1 1 [1120403456] none).file
      ∧ (WriteGrayscale16BitToTIFF false ⟨[], 0⟩ 1 1 [1120403456] none).file.bytes.length = 190
      ∧ size_warning (WriteGrayscale16BitToTIFF false ⟨[], 0⟩ 1 1 [1120403456] none).fileSize
        = .no_warning :=
  ⟨by decide,
    (size_warnings_consistent false 1 1 (.fin false 0 0) (.fin false 2 0) (.fin false 0 0)
      (.fin false 2 0) [1120403456] none (by decide) (by decide) (by decide) (by decide)).1
      (by decide),
    fun w hw =>
      ⟨((size_warnings_consistent false 1 1 (.fin false 0 0) (.fin false 2 0) (.fin false 0 0)
        (.fin false 2 0) [1120403456] none (by decide) (by decide) (by decide)
        (by decide)).2.2 w hw).2.1,
       ((size_warnings_consistent false 1 1 (.fin false 0 0) (.fin false 2 0) (.fin false 0 0)
        (.fin false 2 0) [1120403456] none (by decide) (by decide) (by decide)
        (by decide)).2.2 w hw).2.2.2.2.1,
       by rw [tiff_one_pixel]; decide, by rw [tiff_one_pixel]; decide⟩⟩

/-! ## The cell size in the header -/

/-- Rounding to `double` a value that is a `double` gives a finite number of that value. -/
theorem round64_exact_value (neg : Bool) (m : Nat) (e : Int) (a : Nat) (ea : Int) (hm : 0 < m)
    (ha : a ≤ 2 ^ 53) (hea : -1074 ≤ ea) (hb : ea + bitlen a ≤ 1024)
    (h : (m : ℚ) * (2 : ℚ) ^ e = (a : ℚ) * (2 : ℚ) ^ ea) :
    ∃ (T : Nat) (Q : Int), Fp.round64 (.fin neg m e) = .fin neg T Q
      ∧ (T : ℚ) * (2 : ℚ) ^ Q = (a : ℚ) * (2 : ℚ) ^ ea := by
  obtain ⟨h1, h2⟩ := round64_le_double neg m e a ea hm ha hea hb h.le
  have h3 := round_rne_ge 53 (-1074) m e a ea ha (by decide) hea h.ge
  exact ⟨_, _, h1, le_antisymm h2 h3⟩

theorem bitlen_eq_of_bounds (t k : Nat) (h1 : 2 ^ k ≤ t) (h2 : t < 2 ^ (k + 1)) :
    bitlen t = k + 1 := by
  have ht : 0 < t := lt_of_lt_of_le (Nat.two_pow_pos k) h1
  obtain ⟨b1, b2, b3⟩ := bitlen_spec t ht
  have c1 : k < bitlen t := by
    by_contra hc
    have : 2 ^ bitlen t ≤ 2 ^ k := Nat.pow_le_pow_right (by decide) (by omega)
    omega
  have c2 : bitlen t - 1 < k + 1 := by
    by_contra hc
    have : 2 ^ (k + 1) ≤ 2 ^ (bitlen t - 1) := Nat.pow_le_pow_right (by decide) (by omega)
    omega
  omega

/-- The quotient of two integers whose exact value is a normal `double` in canonical form is
that `double`. -/
theorem ratio64_exact (neg : Bool) (a b t : Nat) (q : Int) (ha : 0 < a) (hb : 0 < b)
    (h : (a : ℚ) / b = (t : ℚ) * (2 : ℚ) ^ q) (h52 : 2 ^ 52 ≤ t) (h53 : t < 2 ^ 53)
    (hq1 : -1074 ≤ q) (hq2 : q + 53 ≤ 1024) :
    Fp.ratio64 neg a b = .fin neg t q := by
  have h2n : (2 : ℚ) ≠ 0 := by norm_num
  obtain ⟨b1, b2⟩ := bin_exp_bounds a b ha hb
  rw [h] at b1 b2
  have ht52 : ((2 : ℚ) ^ (52 : Int)) ≤ (t : ℚ) := by
    calc (2 : ℚ) ^ (52 : Int) = ((2 ^ 52 : Nat) : ℚ) := by norm_num
      _ ≤ (t : ℚ) := by exact_mod_cast h52
  have ht53 : (t : ℚ) < (2 : ℚ) ^ (53 : Int) := by
    calc (t : ℚ) < ((2 ^ 53 : Nat) : ℚ) := by exact_mod_cast h53
      _ = (2 : ℚ) ^ (53 : Int) := by norm_num
  have hpq : (0 : ℚ) < (2 : ℚ) ^ q := zpow_pos (by norm_num) _
  have hx : bin_exp a b = 52 + q := by
    have u1 : (2 : ℚ) ^ bin_exp a b < (2 : ℚ) ^ (53 + q) := by
      rw [zpow_add₀ h2n]
      exact lt_of_le_of_lt b1 (mul_lt_mul_of_pos_right ht53 hpq)
    have u2 : (2 : ℚ) ^ (52 + q) < (2 : ℚ) ^ (bin_exp a b + 1) := by
      rw [zpow_add₀ h2n]
      exact lt_of_le_of_lt (mul_le_mul_of_nonneg_right ht52 hpq.le) b2
    have v1 := (zpow_lt_zpow_iff_right₀ (by norm_num : (1 : ℚ) < 2)).1 u1
    have v2 := (zpow_lt_zpow_iff_right₀ (by norm_num : (1 : ℚ) < 2)).1 u2
    omega
  have hq : (round_ratio 53 (-1074) a b).2 = q := by
    rw [round_ratio_exp 53 (-1074) a b ha, hx]
    omega
  have ht := round_ratio_sig 53 (-1074) a b ha
  rw [hq] at ht
  have hd : 0 < b * 2 ^ q.toNat := Nat.mul_pos hb (Nat.two_pow_pos _)
  have hval : ((a * 2 ^ (-q).toNat : Nat) : ℚ) / ((b * 2 ^ q.toNat : Nat) : ℚ) = (t : ℚ) := by
    rw [ratio_scaled_value, h, mul_assoc, ← zpow_add₀ h2n]
    simp
  have hn := round_div_nearest (a * 2 ^ (-q).toNat) (b * 2 ^ q.toNat) t hd
  rw [hval, sub_self, abs_zero] at hn
  have hsig : (round_ratio 53 (-1074) a b).1 = t := by
    rw [ht]
    have : ((round_div (a * 2 ^ (-q).toNat) (b * 2 ^ q.toNat) : Nat) : ℚ) = (t : ℚ) := by
      have := abs_nonpos_iff.1 hn
      linarith
    exact_mod_cast this
  have hbl : bitlen t = 53 := bitlen_eq_of_bounds t 52 h52 h53
  rw [Fp.ratio64]
  simp only [hq, hsig, hbl]
  rw [if_neg (by omega)]

/-- When both cell dimensions are the same normal `double` with at most 26 significant bits
and a moderate exponent, the harmonic mean of line 378 is computed without a rounding
error and is that `double`. -/
theorem harmonic_mean_exact (n : Bool) (t : Nat) (q : Int) (h52 : 2 ^ 52 ≤ t) (h53 : t < 2 ^ 53)
    (hdvd : 2 ^ 27 ∣ t) (hq1 : -500 ≤ q) (hq2 : q ≤ 400) :
    harmonic_mean (.fin n t q) (.fin n t q) = .fin n t q := by
  have h2n : (2 : ℚ) ≠ 0 := by norm_num
  obtain ⟨s, hs⟩ := hdvd
  have hs26 : s < 2 ^ 26 := by
    by_contra hc
    have : 2 ^ 27 * 2 ^ 26 ≤ 2 ^ 27 * s := Nat.mul_le_mul_left _ (by omega)
    have e : (2 : Nat) ^ 27 * 2 ^ 26 = 2 ^ 53 := by norm_num
    omega
  have hs0 : 0 < s := by
    rcases Nat.eq_zero_or_pos s with h0 | h0
    · rw [h0] at hs
      omega
    · exact h0
  have ht0 : 0 < t := by omega
  have htq : (0 : ℚ) < (t : ℚ) := by exact_mod_cast ht0
  have hP1 : (2 : ℚ) ^ (q + 1) = 2 * (2 : ℚ) ^ q := by
    rw [zpow_add₀ h2n, zpow_one]
    ring
  have hP2 : (2 : ℚ) ^ (2 * q + 55) = 36028797018963968 * ((2 : ℚ) ^ q * (2 : ℚ) ^ q) := by
    rw [show (2 * q + 55 : Int) = q + q + 55 by ring, zpow_add₀ h2n, zpow_add₀ h2n]
    norm_num
    ring
  have hblt : bitlen t = 53 := bitlen_eq_of_bounds t 52 h52 h53
  -- 2.0 * xdim
  have e1 : Fp.mul64 dbl_two (.fin n t q) = Fp.round64 (.fin (false != n) (2 * t) (0 + q)) := rfl
  obtain ⟨T1, Q1, r1, v1⟩ := round64_exact_value (false != n) (2 * t) (0 + q) t (q + 1)
    (by omega) (by omega) (by omega) (by omega) (by
      rw [zero_add, zpow_add₀ h2n, zpow_one]
      push_cast
      ring)
  have hT1 : 0 < T1 := by
    rcases Nat.eq_zero_or_pos T1 with h0 | h0
    · rw [h0, Nat.cast_zero, zero_mul] at v1
      have : (0 : ℚ) < (t : ℚ) * (2 : ℚ) ^ (q + 1) := mul_pos htq (zpow_pos (by norm_num) _)
      linarith
    · exact h0
  -- (2.0 * xdim) * ydim
  have e2 : Fp.mul64 (.fin (false != n) T1 Q1) (.fin n t q)
      = Fp.round64 (.fin ((false != n) != n) (T1 * t) (Q1 + q)) := rfl
  have hs2 : s * s < 2 ^ 52 := by
    calc s * s < 2 ^ 26 * 2 ^ 26 := Nat.mul_lt_mul'' hs26 hs26
      _ = 2 ^ 52 := by norm_num
  have hbl2 : bitlen (s * s) ≤ 52 := by
    have := bitlen_le_of_value (s * s) 0 52 (Nat.mul_pos hs0 hs0) (by
      rw [zpow_zero, mul_one]
      calc ((s * s : Nat) : ℚ) < ((2 ^ 52 : Nat) : ℚ) := by exact_mod_cast hs2
        _ = (2 : ℚ) ^ (52 : Int) := by norm_num)
    omega
  have htq2 : (t : ℚ) = (s : ℚ) * 134217728 := by
    rw [hs]
    push_cast
    ring
  obtain ⟨T2, Q2, r2, v2⟩ := round64_exact_value ((false != n) != n) (T1 * t) (Q1 + q) (s * s)
    (2 * q + 55) (Nat.mul_pos hT1 ht0) (by omega) (by omega) (by omega) (by
      push_cast
      rw [zpow_add₀ h2n, show (T1 : ℚ) * (t : ℚ) * ((2 : ℚ) ^ Q1 * (2 : ℚ) ^ q)
        = ((T1 : ℚ) * (2 : ℚ) ^ Q1) * ((t : ℚ) * (2 : ℚ) ^ q) by ring, v1, hP1, hP2, htq2]
      ring)
  -- xdim + ydim
  have hsum : (Fp.fin n t q).toRat + (Fp.fin n t q).toRat
      = (if n then -1 else 1) * ((t : ℚ) * (2 : ℚ) ^ (q + 1)) := by
    rw [toRat_fin, zpow_add₀ h2n]
    ring
  have hpos : (0 : ℚ) < (t : ℚ) * (2 : ℚ) ^ (q + 1) := mul_pos htq (zpow_pos (by norm_num) _)
  have e3 : ∃ (T3 : Nat) (Q3 : Int), Fp.add64 (.fin n t q) (.fin n t q) = .fin n T3 Q3
      ∧ (T3 : ℚ) * (2 : ℚ) ^ Q3 = (t : ℚ) * (2 : ℚ) ^ (q + 1) := by
    rcases add64_fin_cases n n t t q q with ⟨_, hv⟩ | ⟨M, b, hM, ⟨hr, hv⟩ | ⟨hr, hv⟩⟩
    · rw [hsum] at hv
      cases n
      · simp only [Bool.false_eq_true, if_false, one_mul] at hv
        linarith
      · simp only [if_true] at hv
        linarith
    · rw [hsum] at hv
      have hMpos : (0 : ℚ) ≤ (M : ℚ) * (2 : ℚ) ^ b := mag_nonneg M b
      cases n
      · simp only [Bool.false_eq_true, if_false, one_mul] at hv
        rw [hr]
        exact round64_exact_value false M b t (q + 1) hM (by omega) (by omega) (by omega)
          hv.symm
      · simp only [if_true] at hv
        linarith
    · rw [hsum] at hv
      have hMpos : (0 : ℚ) ≤ (M : ℚ) * (2 : ℚ) ^ b := mag_nonneg M b
      cases n
      · simp only [Bool.false_eq_true, if_false, one_mul] at hv
        linarith
      · simp only [if_true] at hv
        rw [hr]
        exact round64_exact_value true M b t (q + 1) hM (by omega) (by omega) (by omega)
          (by linarith)
  obtain ⟨T3, Q3, r3, v3⟩ := e3
  have hT3 : 0 < T3 := by
    rcases Nat.eq_zero_or_pos T3 with h0 | h0
    · rw [h0, Nat.cast_zero, zero_mul] at v3
      linarith
    · exact h0
  have hT2 : 0 < T2 := by
    rcases Nat.eq_zero_or_pos T2 with h0 | h0
    · rw [h0, Nat.cast_zero, zero_mul] at v2
      have : (0 : ℚ) < ((s * s : Nat) : ℚ) * (2 : ℚ) ^ (2 * q + 55) :=
        mul_pos (by exact_mod_cast Nat.mul_pos hs0 hs0) (zpow_pos (by norm_num) _)
      linarith
    · exact h0
  rw [harmonic_mean, e1, r1, e2, r2, r3]
  have e4 : Fp.div64 (.fin ((false != n) != n) T2 Q2) (.fin n T3 Q3)
      = Fp.ratio64 (((false != n) != n) != n) (T2 * 2 ^ (Q2 - Q3).toNat)
          (T3 * 2 ^ (Q3 - Q2).toNat) := by
    rw [Fp.div64, if_neg (by omega)]
  rw [e4]
  have hsign : (((false != n) != n) != n) = n := by cases n <;> rfl
  rw [hsign]
  apply ratio64_exact n _ _ t q (Nat.mul_pos hT2 (Nat.two_pow_pos _))
    (Nat.mul_pos hT3 (Nat.two_pow_pos _)) _ h52 h53 (by omega) (by omega)
  have hsr := scaled_ratio 2 (by decide) T2 T3 (Q2 - Q3)
  rw [show -(Q2 - Q3) = Q3 - Q2 by ring, Nat.cast_ofNat] at hsr
  rw [hsr]
  have hT3q : (T3 : ℚ) ≠ 0 := by exact_mod_cast hT3.ne'
  have hp3 : (2 : ℚ) ^ Q3 ≠ 0 := (zpow_pos (by norm_num) _).ne'
  have hdiv : (T2 : ℚ) / T3 * ((2 : ℚ) ^ (Q2 - Q3))
      = ((T2 : ℚ) * (2 : ℚ) ^ Q2) / ((T3 : ℚ) * (2 : ℚ) ^ Q3) := by
    rw [zpow_sub₀ h2n]
    field_simp
  rw [hdiv, v2, v3, hP1, hP2, htq2]
  have hpq : (2 : ℚ) ^ q ≠ 0 := (zpow_pos (by norm_num) _).ne'
  have hsq : (s : ℚ) ≠ 0 := by exact_mod_cast hs0.ne'
  push_cast
  field_simp
  ring

/-- C27, counterexample: a 1x1 grid on the box from (0, 0) to (x, x) with
`x = 6964641597482092 * 2^-52` (1.54646109195735).  Both cell dimensions are `x` and the
test for square cells holds, but the harmonic mean computed in `double` arithmetic is
`6964641597482091 * 2^-52`, one unit in the last place below `x`: the header says
`cellsize 1.5464610919573` where `xdim` itself prints as `1.5464610919574`.  With
`x = 2^600` the product `2.0 * xdim * ydim` overflows and the header says `cellsize inf`. -/
theorem cellsize_differs_from_xdim :
    cell_dim 1 dbl_0 (.fin false 6964641597482092 (-52)) = .fin false 6964641597482092 (-52)
    ∧ square_cells 1 1 dbl_0 (.fin false 6964641597482092 (-52)) dbl_0
        (.fin false 6964641597482092 (-52)) = true
    ∧ harmonic_mean (.fin false 6964641597482092 (-52)) (.fin false 6964641597482092 (-52))
        = .fin false 6964641597482091 (-52)
    ∧ cell_size_lines 1 1 dbl_0 (.fin false 6964641597482092 (-52)) dbl_0
        (.fin false 6964641597482092 (-52)) = str "cellsize      1.5464610919573\r\n"
    ∧ hdr_text_line (str "cellsize")
        (fmt_g 14 (cell_dim 1 dbl_0 (.fin false 6964641597482092 (-52))))
        = str "cellsize      1.5464610919574\r\n"
    ∧ cell_dim 1 dbl_0 (.fin false 1 600) = .fin false 4503599627370496 548
    ∧ square_cells 1 1 dbl_0 (.fin false 1 600) dbl_0 (.fin false 1 600) = true
    ∧ cell_size_lines 1 1 dbl_0 (.fin false 1 600) dbl_0 (.fin false 1 600)
        = str "cellsize      inf\r\n" := by
  decide

/-- C27, amended. In the text of `write_hdr_file` the four lines `ncols`, `nrows`,
`xllcorner`, `yllcorner` are followed by the cell-size lines.  These are a single `cellsize`
line exactly when `|(xmax - xmin)/ydim - ncols| < 0.25` and
`|(ymax - ymin)/xdim - nrows| < 0.25`, and its value is then the `%.14g` conversion of the
harmonic mean `2.0 * xdim * ydim / (xdim + ydim)` with every operation rounded to `double`;
otherwise they are an `xdim` line and a `ydim` line with the `%.14g` conversions of `xdim`
and `ydim`.  When the `cellsize` line is written and `xdim` and `ydim` are the same normal
`double` `t * 2^q` with at most 26 significant bits (`2^52 <= t < 2^53`, `t` a multiple of
`2^27`) and `-500 <= q <= 400`, the harmonic mean is computed without rounding error and the
line is the one that `xdim` itself gives. -/
theorem cell_size_choice (host_be : Bool) (nrows ncols : Int) (xmin xmax ymin ymax : Fp)
    (nodata min_value max_value : Float32) (flt_data_type : Bool)
    (software : Option (List Byte)) :
    (∃ rest, write_hdr_file host_be nrows ncols xmin xmax ymin ymax nodata min_value max_value
        flt_data_type software
      = hdr_text_line (str "ncols") (fmt_d ncols) ++ hdr_text_line (str "nrows") (fmt_d nrows)
        ++ hdr_text_line (str "xllcorner") (fmt_g 14 xmin)
        ++ hdr_text_line (str "yllcorner") (fmt_g 14 ymin)
        ++ cell_size_lines nrows ncols xmin xmax ymin ymax ++ rest)
    ∧ (square_cells nrows ncols xmin xmax ymin ymax = true
      ↔ Fp.lt (Fp.abs (Fp.sub64 (Fp.div64 (Fp.sub64 xmax xmin) (cell_dim nrows ymin ymax))
            (Fp.of_int ncols))) dbl_quarter = true
        ∧ Fp.lt (Fp.abs (Fp.sub64 (Fp.div64 (Fp.sub64 ymax ymin) (cell_dim ncols xmin xmax))
            (Fp.of_int nrows))) dbl_quarter = true)
    ∧ (square_cells nrows ncols xmin xmax ymin ymax = true →
        cell_size_lines nrows ncols xmin xmax ymin ymax
          = hdr_text_line (str "cellsize")
              (fmt_g 14 (Fp.div64
                (Fp.mul64 (Fp.mul64 dbl_two (cell_dim ncols xmin xmax))
                  (cell_dim nrows ymin ymax))
                (Fp.add64 (cell_dim ncols xmin xmax) (cell_dim nrows ymin ymax)))))
    ∧ (square_cells nrows ncols xmin xmax ymin ymax = false →
        cell_size_lines nrows ncols xmin xmax ymin ymax
          = hdr_text_line (str "xdim") (fmt_g 14 (cell_dim ncols xmin xmax))
            ++ hdr_text_line (str "ydim") (fmt_g 14 (cell_dim nrows ymin ymax)))
    ∧ (∀ (n : Bool) (t : Nat) (q : Int), cell_dim ncols xmin xmax = .fin n t q →
        cell_dim nrows ymin ymax = .fin n t q → 2 ^ 52 ≤ t → t < 2 ^ 53 → 2 ^ 27 ∣ t →
        -500 ≤ q → q ≤ 400 → square_cells nrows ncols xmin xmax ymin ymax = true →
        cell_size_lines nrows ncols xmin xmax ymin ymax
          = hdr_text_line (str "cellsize") (fmt_g 14 (cell_dim ncols xmin xmax))) := by
  refine ⟨⟨hdr_text_line (str "NODATA_value") (fmt_g 6 (Fp.of_float nodata))
      ++ hdr_text_line (str "byteorder") (if host_be then str "MSBFIRST" else str "LSBFIRST")
      ++ hdr_text_line (str "layout") (str "BIL")
      ++ hdr_text_line (str "nbands") (fmt_d 1)
      ++ hdr_text_line (str "nbits") (fmt_d (if flt_data_type then 32 else 16))
      ++ hdr_text_line (str "pixeltype")
          (if flt_data_type then str "FLOAT" else str "UNSIGNEDINT")
      ++ hdr_text_line (str "min_value")
          (fmt_f (if flt_data_type then 1 else 0) (Fp.of_float min_value))
      ++ hdr_text_line (str "max_value")
          (fmt_f (if flt_data_type then 1 else 0) (Fp.of_float max_value))
      ++ (software.map (fun s => hdr_text_line (str "software") (s.take (strlen s)))).getD [],
      ?_⟩, ?_, ?_, ?_, ?_⟩
  · simp only [write_hdr_file, List.append_assoc]
    cases software <;> rfl
  · rw [square_cells, Bool.and_eq_true]
  · intro h
    rw [cell_size_lines, if_pos h, harmonic_mean]
  · intro h
    rw [cell_size_lines, if_neg (by rw [h]; decide)]
  · intro n t q hx hy h52 h53 hdvd hq1 hq2 h
    rw [cell_size_lines, if_pos h, hx, hy, harmonic_mean_exact n t q h52 h53 hdvd hq1 hq2]

/-- C27, witness: the 2x2 grid on the box from (0, 0) to (2, 2): both cell dimensions are
`2^52 * 2^-52 = 1`, and the header says `cellsize 1`. -/
theorem cell_size_choice_witness :
    (cell_dim 2 dbl_0 (.fin false 2 0) = .fin false 4503599627370496 (-52)
      ∧ square_cells 2 2 dbl_0 (.fin false 2 0) dbl_0 (.fin false 2 0) = true)
    ∧ cell_size_lines 2 2 dbl_0 (.fin false 2 0) dbl_0 (.fin false 2 0)
      = hdr_text_line (str "cellsize") (fmt_g 14 (cell_dim 2 dbl_0 (.fin false 2 0)))
    ∧ hdr_text_line (str "cellsize") (fmt_g 14 (cell_dim 2 dbl_0 (.fin false 2 0)))
      = str "cellsize      1\r\n" :=
  ⟨by decide,
    (cell_size_choice false 2 2 dbl_0 (.fin false 2 0) dbl_0 (.fin false 2 0) 0 0 0 true
      none).2.2.2.2 false 4503599627370496 (-52) (by decide) (by decide) (by decide)
      (by decide) ⟨33554432, by decide⟩ (by decide) (by decide) (by decide),
    by decide⟩

/-! ## The projection file -/

theorem skip_space_eq_dropWhile (s : List Byte) : skip_space s = s.dropWhile isspace := by
  induction s with
  | nil => rfl
  | cons c s ih =>
    rw [skip_space, List.dropWhile_cons]
    split
    · exact ih
    · rfl

theorem scan_token_eq (s : List Byte) :
    scan_token s = (s.takeWhile (fun c => !isspace c), s.dropWhile (fun c => !isspace c)) := by
  induction s with
  | nil => rfl
  | cons c s ih =>
    rw [scan_token, List.takeWhile_cons, List.dropWhile_cons]
    by_cases h : isspace c = true
    · simp [h]
    · simp only [h, Bool.false_eq_true, if_false, ih]
      simp [h]

theorem skip_space_idem (s : List Byte) : skip_space (skip_space s) = skip_space s := by
  induction s with
  | nil => rfl
  | cons c s ih =>
    by_cases h : isspace c = true
    · rw [skip_space, if_pos h, ih]
    · rw [skip_space, if_neg h, skip_space, if_neg h]

theorem getD_nonzero_iff (s : List Byte) (h : ∀ c ∈ s, c ≠ 0) (i : Nat) :
    s.getD i 0 ≠ 0 ↔ i < s.length := by
  constructor
  · intro hne
    by_contra hc
    apply hne
    rw [List.getD_eq_default _ _ (by omega)]
  · intro hi
    rw [List.getD_eq_getElem _ _ hi]
    exact h _ (List.getElem_mem _)

/-- For a piece without NUL the code of `copy_prj_file` follows the rule `zunits_no`. -/
theorem prj_line_eq (P : List Byte) (h0 : ∀ c ∈ P, c ≠ 0) : prj_line P = zunits_no P := by
  have hw0 : P.takeWhile isspace ++ P.dropWhile isspace = P := List.takeWhile_append_dropWhile _ _
  have hk : (P.dropWhile isspace).takeWhile (fun c => !isspace c)
      ++ (P.dropWhile isspace).dropWhile (fun c => !isspace c) = P.dropWhile isspace :=
    List.takeWhile_append_dropWhile _ _
  have hw1 : ((P.dropWhile isspace).dropWhile (fun c => !isspace c)).takeWhile isspace
      ++ ((P.dropWhile isspace).dropWhile (fun c => !isspace c)).dropWhile isspace
      = (P.dropWhile isspace).dropWhile (fun c => !isspace c) :=
    List.takeWhile_append_dropWhile _ _
  have hv : (((P.dropWhile isspace).dropWhile (fun c => !isspace c)).dropWhile
        isspace).takeWhile (fun c => !isspace c)
      ++ (((P.dropWhile isspace).dropWhile (fun c => !isspace c)).dropWhile
        isspace).dropWhile (fun c => !isspace c)
      = ((P.dropWhile isspace).dropWhile (fun c => !isspace c)).dropWhile isspace :=
    List.takeWhile_append_dropWhile _ _
  rw [prj_line, zunits_no, c_str_eq P h0, scan_keyword, scan_token_eq, skip_space_eq_dropWhile,
    skip_space_eq_dropWhile, make_lowercase]
  simp only []
  generalize hw0d : P.takeWhile isspace = w0 at hw0
  generalize hr0d : P.dropWhile isspace = r0 at hw0 hk hw1 hv
  generalize hkd : r0.takeWhile (fun c => !isspace c) = k at hk
  generalize hr1d : r0.dropWhile (fun c => !isspace c) = r1 at hk hw1 hv
  generalize hw1d : r1.takeWhile isspace = w1 at hw1
  generalize hr2d : r1.dropWhile isspace = r2 at hw1 hv
  generalize hvd : r2.takeWhile (fun c => !isspace c) = v at hv
  generalize hr3d : r2.dropWhile (fun c => !isspace c) = r3 at hv
  have hP : P = w0 ++ k ++ w1 ++ r2 := by
    rw [← hw0, ← hk, ← hw1]
    simp only [List.append_assoc]
  have hpos : P.length - r2.length = (w0 ++ k ++ w1).length := by
    rw [hP]
    simp only [List.length_append]
    omega
  have htake : P.take (P.length - r2.length) = w0 ++ k ++ w1 := by
    rw [hpos]
    conv_lhs => rw [hP]
    exact List.take_left' rfl
  have hdrop : P.drop (P.length - r2.length) = r2 := by
    rw [hpos]
    conv_lhs => rw [hP]
    exact List.drop_left' rfl
  have hsame : P.take (P.length - r2.length) ++ P.drop (P.length - r2.length) = P :=
    List.take_append_drop _ _
  have hsame2 : P.take (P.length - r2.length) ++ r2 = P := by
    have h2 := hsame
    rw [hdrop] at h2
    exact h2
  by_cases hk0 : k = []
  · rw [if_pos hk0, if_neg (fun h => by
      rw [hk0] at h
      exact absurd h.1 (by decide))]
  · rw [if_neg hk0]
    simp only []
    by_cases hz : k.map tolower = str "zunits"
    · rw [if_pos hz, hdrop, scan_value, skip_space_eq_dropWhile]
      have hidem : r2.dropWhile isspace = r2 := by
        rw [← hr2d, ← skip_space_eq_dropWhile, ← skip_space_eq_dropWhile, skip_space_idem]
      rw [hidem, scan_token_eq, hvd, hr3d]
      simp only []
      have hlen2 : r2.length - r3.length = v.length := by
        rw [← hv]
        simp only [List.length_append]
        omega
      by_cases hv0 : v = []
      · rw [if_pos hv0, if_neg (fun h => h.2.1 hv0)]
        simp only []
        exact hsame2
      · rw [if_neg hv0]
        simp only []
        rw [hlen2]
        have hPl : P.length = (w0 ++ k ++ w1).length + v.length + r3.length := by
          conv_lhs => rw [hP, ← hv]
          simp only [List.length_append]
          omega
        by_cases hr3 : r3 = []
        · have hnot : ¬ (P.getD (P.length - r2.length + v.length) 0 ≠ 0) := by
            rw [getD_nonzero_iff P h0, hpos, hPl, hr3]
            simp
          rw [if_neg hnot, if_neg (fun h => h.2.2 hr3)]
          exact hsame2
        · have hyes : P.getD (P.length - r2.length + v.length) 0 ≠ 0 := by
            rw [getD_nonzero_iff P h0, hpos, hPl]
            have : 0 < r3.length := List.length_pos.mpr hr3
            omega
          rw [if_pos hyes, if_pos ⟨hz, hv0, hr3⟩, htake]
          congr 1
          rw [hpos]
          conv_lhs => rw [hP, ← hv]
          rw [show w0 ++ k ++ w1 ++ (v ++ r3) = (w0 ++ k ++ w1 ++ v) ++ r3 by
            simp only [List.append_assoc]]
          exact List.drop_left' (by simp only [List.length_append])
    · rw [if_neg hz, if_neg (fun h => hz h.1)]
      exact hsame

theorem fgets_all (L : List Byte) (k : Nat) (hL : ∀ c ∈ L, c ≠ 10) (hk : L.length ≤ k) :
    fgets k L = (L, []) := by
  induction L generalizing k with
  | nil => cases k <;> rfl
  | cons c L ih =>
    cases k with
    | zero => simp at hk
    | succ k =>
      have hc : c ≠ 10 := hL c (List.mem_cons_self _ _)
      have h2 := ih k (fun d hd => hL d (List.mem_cons_of_mem _ hd))
        (by simp only [List.length_cons] at hk; omega)
      rw [fgets, if_neg hc, h2]

theorem newline_mem_line (L : List Byte) (hL0 : ∀ c ∈ L, c ≠ 0) :
    (10 : Byte) ∈ c_str (L ++ [10]) := by
  rw [c_str_eq]
  · simp
  · intro c hc
    rcases List.mem_append.1 hc with h | h
    · exact hL0 c h
    · rw [List.mem_singleton] at h
      rw [h]
      decide

theorem prj_rest_to_newline (fuel : Nat) (chunk M rest : List Byte)
    (hM10 : ∀ c ∈ M, c ≠ 10) (hM0 : ∀ c ∈ M, c ≠ 0) (hchunk : (10 : Byte) ∉ c_str chunk)
    (hf : M.length + 2 ≤ fuel) :
    prj_rest fuel chunk (M ++ 10 :: rest) = (M ++ [10], rest) := by
  induction fuel generalizing chunk M with
  | zero => omega
  | succ f ih =>
    rw [prj_rest, if_neg hchunk]
    rcases Nat.lt_or_ge M.length 82 with h1 | h1
    · rw [fgets_line M rest 82 hM10 h1]
      simp only []
      rw [if_neg (by simp)]
      obtain ⟨f2, hf2⟩ : ∃ f2, f = f2 + 1 := ⟨f - 1, by omega⟩
      have hc0 : ∀ c ∈ M ++ [10], c ≠ 0 := by
        intro c hc
        rcases List.mem_append.1 hc with h | h
        · exact hM0 c h
        · rw [List.mem_singleton] at h
          rw [h]
          decide
      rw [hf2, prj_rest, if_pos (newline_mem_line M hM0), c_str_eq _ hc0, List.append_nil]
    · rw [fgets_long M (10 :: rest) 82 hM10 h1]
      simp only []
      have hne : List.take 82 M ≠ [] := by
        intro e
        have := congrArg List.length e
        simp only [List.length_take, List.length_nil] at this
        omega
      rw [if_neg hne]
      have h0t : ∀ c ∈ List.take 82 M, c ≠ 0 := fun c hc => hM0 c (List.mem_of_mem_take hc)
      rw [ih (List.take 82 M) (List.drop 82 M)
        (fun c hc => hM10 c (List.mem_of_mem_drop hc))
        (fun c hc => hM0 c (List.mem_of_mem_drop hc))
        (by
          rw [c_str_eq _ h0t]
          exact fun hc => hM10 10 (List.mem_of_mem_take hc) rfl)
        (by rw [List.length_drop]; omega), c_str_eq _ h0t]
      simp only []
      rw [← List.append_assoc, List.take_append_drop]

theorem prj_rest_to_end (fuel : Nat) (chunk M : List Byte)
    (hM10 : ∀ c ∈ M, c ≠ 10) (hM0 : ∀ c ∈ M, c ≠ 0) (hchunk : (10 : Byte) ∉ c_str chunk)
    (hf : M.length + 1 ≤ fuel) :
    prj_rest fuel chunk M = (M, []) := by
  induction fuel generalizing chunk M with
  | zero => omega
  | succ f ih =>
    rw [prj_rest, if_neg hchunk]
    rcases Nat.lt_or_ge 82 M.length with h1 | h1
    · have hfl := fgets_long M [] 82 hM10 (by omega)
      rw [List.append_nil, List.append_nil] at hfl
      rw [hfl]
      simp only []
      have hne : List.take 82 M ≠ [] := by
        intro e
        have := congrArg List.length e
        simp only [List.length_take, List.length_nil] at this
        omega
      rw [if_neg hne]
      have h0t : ∀ c ∈ List.take 82 M, c ≠ 0 := fun c hc => hM0 c (List.mem_of_mem_take hc)
      rw [ih (List.take 82 M) (List.drop 82 M)
        (fun c hc => hM10 c (List.mem_of_mem_drop hc))
        (fun c hc => hM0 c (List.mem_of_mem_drop hc))
        (by
          rw [c_str_eq _ h0t]
          exact fun hc => hM10 10 (List.mem_of_mem_take hc) rfl)
        (by rw [List.length_drop]; omega), c_str_eq _ h0t]
      simp only []
      rw [List.take_append_drop]
    · rw [fgets_all M 82 hM10 h1]
      simp only []
      by_cases hM : M = []
      · rw [if_pos hM, hM]
      · rw [if_neg hM]
        obtain ⟨f2, hf2⟩ : ∃ f2, f = f2 + 1 := ⟨f - 1, by
          have : 0 < M.length := List.length_pos.mpr hM
          omega⟩
        have hnl : (10 : Byte) ∉ c_str M := by
          rw [c_str_eq _ hM0]
          exact fun hc => hM10 10 hc rfl
        rw [hf2, prj_rest, if_neg hnl]
        have hnil : fgets 82 ([] : List Byte) = ([], []) := rfl
        rw [hnil, if_pos rfl, c_str_eq _ hM0, List.append_nil]

theorem length_prj_rest_le (fuel : Nat) (line f : List Byte) :
    (prj_rest fuel line f).2.length ≤ f.length := by
  induction fuel generalizing line f with
  | zero => simp [prj_rest]
  | succ n ih =>
    rw [prj_rest]
    split
    · exact Nat.le_refl _
    · split
      · exact Nat.le_refl _
      · have h1 := ih (fgets 82 f).1 (fgets 82 f).2
        have h2 := length_fgets 82 f
        simp only []
        omega

/-- The outer loop ends by itself: more fuel than the length of the stream changes
nothing. -/
theorem prj_lines_fuel (fuel1 fuel2 : Nat) (f : List Byte) (h1 : f.length < fuel1)
    (h2 : f.length < fuel2) : prj_lines fuel1 f = prj_lines fuel2 f := by
  induction fuel1 generalizing fuel2 f with
  | zero => omega
  | succ n ih =>
    obtain ⟨m, rfl⟩ : ∃ m, fuel2 = m + 1 := ⟨fuel2 - 1, by omega⟩
    rw [prj_lines, prj_lines]
    split
    · rfl
    · rename_i hne
      have hl := length_fgets 82 f
      have hpos : 0 < (fgets 82 f).1.length := List.length_pos.mpr hne
      have hs := length_prj_rest_le f.length (fgets 82 f).1 (fgets 82 f).2
      rw [ih m _ (by omega) (by omega)]

theorem take_line (L : List Byte) :
    (L ++ [10]).take 82 = if L.length < 82 then L ++ [10] else L.take 82 := by
  have hlen : (L ++ [10]).length = L.length + 1 := by simp
  split
  · exact List.take_of_length_le (by omega)
  · exact List.take_append_of_le_length (by omega)

theorem drop_line (L : List Byte) :
    (L ++ [10]).drop 82 = if L.length < 82 then [] else L.drop 82 ++ [10] := by
  have hlen : (L ++ [10]).length = L.length + 1 := by simp
  split
  · exact List.drop_of_length_le (by omega)
  · exact List.drop_append_of_le_length (by omega)

/-- One terminated line of the input of `copy_prj_file`. -/
theorem copy_prj_step (L rest : List Byte) (hL10 : ∀ c ∈ L, c ≠ 10) (hL0 : ∀ c ∈ L, c ≠ 0) :
    copy_prj_file (L ++ 10 :: rest)
      = zunits_no ((L ++ [10]).take 82) ++ (L ++ [10]).drop 82 ++ copy_prj_file rest := by
  have hfuel : (L ++ 10 :: rest).length = (L.length + rest.length) + 1 := by
    simp only [List.length_append, List.length_cons]
    omega
  rw [take_line, drop_line, copy_prj_file, hfuel, prj_lines]
  rcases Nat.lt_or_ge L.length 82 with h1 | h1
  · rw [if_pos h1, if_pos h1, fgets_line L rest 82 hL10 h1]
    simp only []
    rw [if_neg (by simp), hfuel, prj_rest, if_pos (newline_mem_line L hL0)]
    simp only []
    rw [prj_line_eq, copy_prj_file, prj_lines_fuel (L.length + rest.length + 1) (rest.length + 1) rest (by omega) (by omega)]
    intro c hc
    rcases List.mem_append.1 hc with h | h
    · exact hL0 c h
    · rw [List.mem_singleton] at h
      rw [h]
      decide
  · have hn82 : ¬ L.length < 82 := by omega
    rw [if_neg hn82, if_neg hn82, fgets_long L (10 :: rest) 82 hL10 h1]
    simp only []
    have hne : List.take 82 L ≠ [] := by
      intro e
      have := congrArg List.length e
      simp only [List.length_take, List.length_nil] at this
      omega
    have h0t : ∀ c ∈ List.take 82 L, c ≠ 0 := fun c hc => hL0 c (List.mem_of_mem_take hc)
    rw [if_neg hne, prj_rest_to_newline _ (List.take 82 L) (List.drop 82 L) rest
      (fun c hc => hL10 c (List.mem_of_mem_drop hc))
      (fun c hc => hL0 c (List.mem_of_mem_drop hc))
      (by
        rw [c_str_eq _ h0t]
        exact fun hc => hL10 10 (List.mem_of_mem_take hc) rfl)
      (by rw [hfuel, List.length_drop]; omega)]
    simp only []
    rw [prj_line_eq _ h0t, copy_prj_file,
      prj_lines_fuel (L.length + rest.length + 1) (rest.length + 1) rest (by omega) (by omega)]

/-- The last line of the input of `copy_prj_file` when it has no line feed. -/
theorem copy_prj_last (L : List Byte) (hL10 : ∀ c ∈ L, c ≠ 10) (hL0 : ∀ c ∈ L, c ≠ 0) :
    copy_prj_file L = zunits_no (L.take 82) ++ L.drop 82 := by
  have hnil : fgets 82 ([] : List Byte) = ([], []) := rfl
  have hend : ∀ fuel, prj_lines fuel [] = [] := by
    intro fuel
    cases fuel with
    | zero => rfl
    | succ n => rw [prj_lines, hnil, if_pos rfl]
  rw [copy_prj_file, prj_lines]
  rcases Nat.lt_or_ge 82 L.length with h1 | h1
  · have hfl := fgets_long L [] 82 hL10 (by omega)
    rw [List.append_nil, List.append_nil] at hfl
    rw [hfl]
    simp only []
    have hne : List.take 82 L ≠ [] := by
      intro e
      have := congrArg List.length e
      simp only [List.length_take, List.length_nil] at this
      omega
    have h0t : ∀ c ∈ List.take 82 L, c ≠ 0 := fun c hc => hL0 c (List.mem_of_mem_take hc)
    rw [if_neg hne, prj_rest_to_end _ (List.take 82 L) (List.drop 82 L)
      (fun c hc => hL10 c (List.mem_of_mem_drop hc))
      (fun c hc => hL0 c (List.mem_of_mem_drop hc))
      (by
        rw [c_str_eq _ h0t]
        exact fun hc => hL10 10 (List.mem_of_mem_take hc) rfl)
      (by rw [List.length_drop]; omega)]
    simp only []
    rw [prj_line_eq _ h0t, hend, List.append_nil]
  · rw [fgets_all L 82 hL10 h1, List.take_of_length_le h1, List.drop_of_length_le h1]
    simp only []
    by_cases hL : L = []
    · rw [if_pos hL, hL]
      rfl
    · have hnl : (10 : Byte) ∉ c_str L := by
        rw [c_str_eq _ hL0]
        exact fun hc => hL10 10 hc rfl
      obtain ⟨n, hn⟩ : ∃ n, L.length = n + 1 := ⟨L.length - 1, by
        have : 0 < L.length := List.length_pos.mpr hL
        omega⟩
      rw [if_neg hL, hn, prj_rest, if_neg hnl, hnil]
      simp only [if_true]
      rw [prj_line_eq _ hL0, hend, List.append_nil]

/-- C26 does not hold of the code, which departs here from its own comment (`changes any
ZUNITS line to ZUNITS NO`, line 485): a `ZUNITS` line that ends the file without a line
terminator is copied unchanged, because the test `line[pos+pos2] != 0` of line 508, meant
for a value cut by the line buffer, also fails when the value ends the file; the same line
with a line feed has its value replaced. -/
theorem zunits_last_line_kept :
    copy_prj_file (str "Projection UTM\nZUNITS METERS")
      = str "Projection UTM\nZUNITS METERS"
    ∧ copy_prj_file (str "Projection UTM\nZUNITS METERS\n")
      = str "Projection UTM\nZUNITS NO\n"
    ∧ (∀ c ∈ str "Projection UTM\nZUNITS METERS", c ≠ 0) := by
  decide

/-- What `copy_prj_file` does, line by line.  For a line `L` without NUL that is
ended by a line feed, `copy_prj_file` writes the first 82 characters of the line (line feed
included) as the rule `zunits_no` gives them, then the rest of the line unchanged, and goes
on with the text after the line; for a last line `L` without line feed it writes the first
82 characters as `zunits_no` gives them and the rest unchanged.  The rule `zunits_no`
replaces the value token by `NO` when the first token is `ZUNITS` in any letter case and
the value token is followed by at least one more character among those 82, and keeps every
other byte.  So the value on a `ZUNITS` line is replaced when a white-space character or
the line terminator follows it within the first 82 characters of the line, and is kept when
it ends the file or reaches past the 82nd character. -/
theorem projection_passthrough (L rest : List Byte) (hL10 : ∀ c ∈ L, c ≠ 10)
    (hL0 : ∀ c ∈ L, c ≠ 0) :
    copy_prj_file (L ++ 10 :: rest)
      = zunits_no ((L ++ [10]).take 82) ++ (L ++ [10]).drop 82 ++ copy_prj_file rest
    ∧ copy_prj_file L = zunits_no (L.take 82) ++ L.drop 82 :=
  ⟨copy_prj_step L rest hL10 hL0, copy_prj_last L hL10 hL0⟩

/-- The line `Zunits METERS` followed by the unterminated line `Units FEET`. -/
theorem projection_passthrough_witness :
    ((∀ c ∈ str "Zunits METERS", c ≠ 10) ∧ (∀ c ∈ str "Zunits METERS", c ≠ 0))
    ∧ copy_prj_file (str "Zunits METERS" ++ 10 :: str "Units FEET")
      = zunits_no ((str "Zunits METERS" ++ [10]).take 82)
        ++ (str "Zunits METERS" ++ [10]).drop 82 ++ copy_prj_file (str "Units FEET")
    ∧ zunits_no ((str "Zunits METERS" ++ [10]).take 82) = str "Zunits NO\n"
    ∧ copy_prj_file (str "Units FEET") = str "Units FEET" :=
  ⟨by decide,
    (projection_passthrough (str "Zunits METERS") (str "Units FEET") (by decide)
      (by decide)).1,
    by decide, by decide⟩

/-! ## Lines without recognised keyword, and the letter case of keywords -/

theorem hdr_entry_unrecognised (line kw : List Byte) (pos : Nat) (v : HdrVars)
    (h : kw ∉ recognised_keywords) : hdr_entry line kw pos v = .ok v := by
  simp only [recognised_keywords, List.mem_cons, List.mem_singleton, List.not_mem_nil,
    or_false, not_or] at h
  obtain ⟨h0, h1, h2, h3, h4, h5, h6, h7, h8, h9, h10, h11, h12, h13, h14, h15, h16, h17, h18, h19, h20, h21, h22, h23, h24, h25, h26, h27, h28, h29⟩ := h
  rw [hdr_entry, if_neg h0, if_neg h1, if_neg h2, if_neg h3, if_neg h4, if_neg h5, if_neg h6, if_neg h7, if_neg h8, if_neg h9, if_neg h10, if_neg h11, if_neg h12, if_neg h13, if_neg h14, if_neg h15, if_neg h16, if_neg h17, if_neg h18, if_neg h19, if_neg h20, if_neg h21, if_neg h22, if_neg h23, if_neg h24, if_neg h25, if_neg h26, if_neg h27, if_neg h28, if_neg h29]
  rfl

theorem hdr_line_unrecognised (P : List Byte) (v : HdrVars)
    (h : ∀ kp, scan_keyword (c_str P) = some kp → kp.1 ∉ recognised_keywords) :
    hdr_line P v = .ok v := by
  rw [hdr_line]
  cases hk : scan_keyword (c_str P) with
  | none => rfl
  | some kp => exact hdr_entry_unrecognised _ _ _ _ (h kp hk)

theorem hdr_file_lines_nil : hdr_file_lines [] = [] := rfl

/-- The first line of a header, of any length, and the lines after it. -/
theorem hdr_file_lines_line (L rest : List Byte) (hL10 : ∀ c ∈ L, c ≠ 10)
    (hL0 : ∀ c ∈ L, c ≠ 0) :
    hdr_file_lines (L ++ 10 :: rest) = (L ++ [10]).take 82 :: hdr_file_lines rest := by
  have hfuel : (L ++ 10 :: rest).length = (L.length + rest.length) + 1 := by
    simp only [List.length_append, List.length_cons]
    omega
  rw [take_line, hdr_file_lines, hfuel, hdr_pieces]
  rcases Nat.lt_or_ge L.length 82 with h1 | h1
  · rw [if_pos h1, fgets_line L rest 82 hL10 h1]
    simp only []
    rw [if_neg (by simp), hfuel, skip_rest_newline _ _ _ (newline_mem_line L hL0), hdr_file_lines,
      hdr_pieces_fuel (L.length + rest.length + 1) (rest.length + 1) rest (by omega) (by omega)]
  · have hn82 : ¬ L.length < 82 := by omega
    rw [if_neg hn82, fgets_long L (10 :: rest) 82 hL10 h1]
    simp only []
    have hne : List.take 82 L ≠ [] := by
      intro e
      have := congrArg List.length e
      simp only [List.length_take, List.length_nil] at this
      omega
    have h0t : ∀ c ∈ List.take 82 L, c ≠ 0 := fun c hc => hL0 c (List.mem_of_mem_take hc)
    rw [if_neg hne, skip_rest_to_newline _ (List.take 82 L) (List.drop 82 L) rest
      (fun c hc => hL10 c (List.mem_of_mem_drop hc))
      (fun c hc => hL0 c (List.mem_of_mem_drop hc))
      (by
        rw [c_str_eq _ h0t]
        exact fun hc => hL10 10 (List.mem_of_mem_take hc) rfl)
      (by rw [hfuel, List.length_drop]; omega), hdr_file_lines,
      hdr_pieces_fuel (L.length + rest.length + 1) (rest.length + 1) rest (by omega) (by omega)]

theorem first_line_split (A : List Byte) (h : (10 : Byte) ∈ A) :
    ∃ L R, A = L ++ 10 :: R ∧ (∀ c ∈ L, c ≠ 10) := by
  induction A with
  | nil => exact absurd h (List.not_mem_nil _)
  | cons a A ih =>
    by_cases ha : a = 10
    · exact ⟨[], A, by rw [ha]; rfl, fun c hc => absurd hc (List.not_mem_nil _)⟩
    · rcases List.mem_cons.mp h with h1 | h1
      · exact absurd h1.symm ha
      · obtain ⟨L, R, hA, hL⟩ := ih h1
        refine ⟨a :: L, R, by rw [hA]; rfl, ?_⟩
        intro c hc
        rcases List.mem_cons.mp hc with h2 | h2
        · rw [h2]
          exact ha
        · exact hL c h2

/-- The lines of a header that starts with complete lines without NUL are those lines
followed by the lines of the rest. -/
theorem hdr_file_lines_append (n : Nat) (A X : List Byte) (hn : A.length ≤ n)
    (hA0 : ∀ c ∈ A, c ≠ 0) :
    hdr_file_lines (A ++ 10 :: X) = hdr_file_lines (A ++ [10]) ++ hdr_file_lines X := by
  induction n generalizing A with
  | zero =>
    have hA : A = [] := List.length_eq_zero.mp (by omega)
    subst hA
    have hL : ∀ c ∈ ([] : List Byte), c ≠ 10 := fun c hc => absurd hc (List.not_mem_nil _)
    have h2 := hdr_file_lines_line [] [] hL hA0
    rw [hdr_file_lines_line [] X hL hA0, h2, hdr_file_lines_nil]
    rfl
  | succ n ih =>
    by_cases h10 : (10 : Byte) ∈ A
    · obtain ⟨L, R, hA, hL⟩ := first_line_split A h10
      have hL0 : ∀ c ∈ L, c ≠ 0 := fun c hc => hA0 c (by
        rw [hA]
        exact List.mem_append_left _ hc)
      have hR0 : ∀ c ∈ R, c ≠ 0 := fun c hc => hA0 c (by
        rw [hA]
        exact List.mem_append_right _ (List.mem_cons_of_mem _ hc))
      have hRn : R.length ≤ n := by
        rw [hA] at hn
        simp only [List.length_append, List.length_cons] at hn
        omega
      rw [hA, List.append_assoc, List.cons_append, hdr_file_lines_line L _ hL hL0,
        ih R hRn hR0, List.append_assoc, List.cons_append, hdr_file_lines_line L _ hL hL0]
      rfl
    · have hL : ∀ c ∈ A, c ≠ 10 := fun c hc hc2 => h10 (hc2 ▸ hc)
      have h2 := hdr_file_lines_line A [] hL hA0
      rw [hdr_file_lines_line A X hL hA0, h2, hdr_file_lines_nil]
      rfl

theorem hdr_fold_append (a b : List (List Byte)) (v : HdrVars) :
    hdr_fold (a ++ b) v
      = match hdr_fold a v with
        | .error e => .error e
        | .ok v2 => hdr_fold b v2 := by
  induction a generalizing v with
  | nil => rfl
  | cons L Ls ih =>
    rw [List.cons_append, hdr_fold, hdr_fold]
    cases hdr_line L v with
    | error e => rfl
    | ok w => exact ih w

theorem hdr_fold_skip (a b : List (List Byte)) (P : List Byte) (v : HdrVars)
    (hP : ∀ u, hdr_line P u = .ok u) :
    hdr_fold (a ++ P :: b) v = hdr_fold (a ++ b) v := by
  rw [hdr_fold_append, hdr_fold_append]
  cases hdr_fold a v with
  | error e => rfl
  | ok w =>
    simp only []
    rw [hdr_fold, hP w]

/-- A line without recognised keyword, inserted at the start of a header or after a
complete line, changes nothing. -/
theorem read_hdr_file_insert (A L B : List Byte) (hA0 : ∀ c ∈ A, c ≠ 0)
    (hA : A = [] ∨ ∃ A0, A = A0 ++ [10]) (hL10 : ∀ c ∈ L, c ≠ 10) (hL0 : ∀ c ∈ L, c ≠ 0)
    (hkw : ∀ kp, scan_keyword ((L ++ [10]).take 82) = some kp → kp.1 ∉ recognised_keywords) :
    read_hdr_file (A ++ L ++ 10 :: B) = read_hdr_file (A ++ B) := by
  have hP0 : ∀ c ∈ (L ++ [10]).take 82, c ≠ 0 := by
    intro c hc
    rcases List.mem_append.1 (List.mem_of_mem_take hc) with h | h
    · exact hL0 c h
    · rw [List.mem_singleton] at h
      rw [h]
      decide
  have hP : ∀ u, hdr_line ((L ++ [10]).take 82) u = .ok u := by
    intro u
    apply hdr_line_unrecognised
    rw [c_str_eq _ hP0]
    exact hkw
  rw [read_hdr_file_eq, read_hdr_file_eq]
  rcases hA with hA | ⟨A0, hA⟩
  · subst hA
    rw [List.nil_append, List.nil_append, hdr_file_lines_line L B hL10 hL0]
    have := hdr_fold_skip [] (hdr_file_lines B) _ hdr_init hP
    rw [List.nil_append, List.nil_append] at this
    rw [this]
  · have hA00 : ∀ c ∈ A0, c ≠ 0 := fun c hc => hA0 c (by
      rw [hA]
      exact List.mem_append_left _ hc)
    have e1 : A ++ L ++ 10 :: B = A0 ++ 10 :: (L ++ 10 :: B) := by
      rw [hA]
      simp only [List.append_assoc, List.cons_append, List.nil_append]
    have e2 : A ++ B = A0 ++ 10 :: B := by
      rw [hA]
      simp only [List.append_assoc, List.cons_append, List.nil_append]
    rw [e1, e2, hdr_file_lines_append A0.length A0 _ (Nat.le_refl _) hA00,
      hdr_file_lines_append A0.length A0 B (Nat.le_refl _) hA00,
      hdr_file_lines_line L B hL10 hL0, hdr_fold_skip _ _ _ _ hP]

/-- C21, counterexample: a line of 77 blanks followed by `ncolsXYZ 5`, put in front of a
header that is read successfully.  The first token of the line, `ncolsXYZ`, is not a
recognised keyword, but `fgets` hands the first 82 characters of the line to the keyword
test, and these end in `ncols`: the line is taken for an `ncols` line without a number and
`read_hdr_file` stops with the parse error. -/
theorem unknown_keyword_line_fatal :
    read_hdr_file (text_of_lines
        ["ncols 2", "nrows 2", "xllcorner 0", "yllcorner 0", "cellsize 1"])
      = .ok { nrows := 2, ncols := 2, xmin := .fin false 0 (-1074),
              xmax := .fin false 4503599627370496 (-51), ymin := .fin false 0 (-1074),
              ymax := .fin false 4503599627370496 (-51),
              nodata := ⟨4286578687, by decide⟩, big_endian := false, skipbytes := 0,
              rowpad := 0, software := none }
    ∧ scan_keyword (List.replicate 77 32 ++ str "ncolsXYZ 5") = some (str "ncolsxyz", 86)
    ∧ str "ncolsxyz" ∉ recognised_keywords
    ∧ read_hdr_file (List.replicate 77 32 ++ str "ncolsXYZ 5" ++ 10 :: text_of_lines
        ["ncols 2", "nrows 2", "xllcorner 0", "yllcorner 0", "cellsize 1"])
      = .error .parse := by
  decide

/-- C21, amended. Take a header `A ++ B` in which `A` is empty or a run of complete lines
(it ends with a line feed) without NUL, and a line `L` without NUL in whose first 82
characters, line feed included, the keyword test finds no recognised keyword (for a line
of at most 81 characters: whose first token is not a recognised keyword).  Inserting `L`
with its line feed between `A` and `B` changes neither whether `read_hdr_file` succeeds,
nor the error, nor any field of the result. -/
theorem unknown_keyword_ignored (A L B : List Byte) (hA0 : ∀ c ∈ A, c ≠ 0)
    (hA : A = [] ∨ ∃ A0, A = A0 ++ [10]) (hL10 : ∀ c ∈ L, c ≠ 10) (hL0 : ∀ c ∈ L, c ≠ 0)
    (hkw : no_recognised_keyword ((L ++ [10]).take 82) = true) :
    read_hdr_file (A ++ L ++ 10 :: B) = read_hdr_file (A ++ B) := by
  apply read_hdr_file_insert A L B hA0 hA hL10 hL0
  intro kp hk
  rw [no_recognised_keyword, hk] at hkw
  exact of_decide_eq_true hkw

/-- C21, witness: the line `comment 1 2 3` inserted after the `ncols` line of a header. -/
theorem unknown_keyword_ignored_witness :
    ((∀ c ∈ str "ncols 2\n", c ≠ 0) ∧ (∀ c ∈ str "comment 1 2 3", c ≠ 10)
      ∧ (∀ c ∈ str "comment 1 2 3", c ≠ 0)
      ∧ no_recognised_keyword ((str "comment 1 2 3" ++ [10]).take 82) = true)
    ∧ read_hdr_file (str "ncols 2\n" ++ str "comment 1 2 3" ++ 10 :: text_of_lines
        ["nrows 2", "xllcorner 0", "yllcorner 0", "cellsize 1"])
      = read_hdr_file (str "ncols 2\n" ++ text_of_lines
        ["nrows 2", "xllcorner 0", "yllcorner 0", "cellsize 1"])
    ∧ ∃ r, read_hdr_file (str "ncols 2\n" ++ text_of_lines
        ["nrows 2", "xllcorner 0", "yllcorner 0", "cellsize 1"]) = .ok r ∧ r.ncols = 2 :=
  ⟨by decide,
    unknown_keyword_ignored (str "ncols 2\n") (str "comment 1 2 3") (text_of_lines
      ["nrows 2", "xllcorner 0", "yllcorner 0", "cellsize 1"]) (by decide)
      (Or.inr ⟨str "ncols 2", by decide⟩) (by decide) (by decide) (by decide),
    ⟨{ nrows := 2, ncols := 2, xmin := .fin false 0 (-1074),
       xmax := .fin false 4503599627370496 (-51), ymin := .fin false 0 (-1074),
       ymax := .fin false 4503599627370496 (-51),
       nodata := ⟨4286578687, by decide⟩, big_endian := false, skipbytes := 0,
       rowpad := 0, software := none }, by decide, rfl⟩⟩

theorem isspace_tolower : ∀ c : Byte, isspace (tolower c) = isspace c := by decide

theorem tolower_eq_zero : ∀ c : Byte, tolower c = 0 ↔ c = 0 := by decide

theorem same_lower_cons {a b : Byte} {s t : List Byte}
    (h : (a :: s).map tolower = (b :: t).map tolower) :
    tolower a = tolower b ∧ s.map tolower = t.map tolower := by
  simp only [List.map_cons, List.cons.injEq] at h
  exact h

theorem same_lower_isspace {a b : Byte} (h : tolower a = tolower b) : isspace a = isspace b := by
  rw [← isspace_tolower a, ← isspace_tolower b, h]

theorem same_lower_length {s t : List Byte} (h : s.map tolower = t.map tolower) :
    s.length = t.length := by
  have := congrArg List.length h
  simpa using this

theorem same_lower_skip_space (s t : List Byte) (h : s.map tolower = t.map tolower) :
    (skip_space s).map tolower = (skip_space t).map tolower := by
  induction s generalizing t with
  | nil =>
    cases t with
    | nil => rfl
    | cons b t => cases h
  | cons a s ih =>
    cases t with
    | nil => cases h
    | cons b t =>
      obtain ⟨h1, h2⟩ := same_lower_cons h
      rw [skip_space, skip_space, same_lower_isspace h1]
      split
      · exact ih t h2
      · exact h

theorem same_lower_scan_token (s t : List Byte) (h : s.map tolower = t.map tolower) :
    (scan_token s).1.map tolower = (scan_token t).1.map tolower
    ∧ (scan_token s).2.map tolower = (scan_token t).2.map tolower := by
  induction s generalizing t with
  | nil =>
    cases t with
    | nil => exact ⟨rfl, rfl⟩
    | cons b t => cases h
  | cons a s ih =>
    cases t with
    | nil => cases h
    | cons b t =>
      obtain ⟨h1, h2⟩ := same_lower_cons h
      rw [scan_token, scan_token, same_lower_isspace h1]
      split
      · exact ⟨rfl, h⟩
      · obtain ⟨i1, i2⟩ := ih t h2
        refine ⟨?_, i2⟩
        simp only [List.map_cons, h1, i1]

theorem same_lower_strlen (s t : List Byte) (h : s.map tolower = t.map tolower) :
    strlen s = strlen t := by
  induction s generalizing t with
  | nil =>
    cases t with
    | nil => rfl
    | cons b t => cases h
  | cons a s ih =>
    cases t with
    | nil => cases h
    | cons b t =>
      obtain ⟨h1, h2⟩ := same_lower_cons h
      rw [strlen, strlen]
      by_cases ha : a = 0
      · have hb : b = 0 := by
          rw [← tolower_eq_zero, ← h1, tolower_eq_zero]
          exact ha
        rw [if_pos ha, if_pos hb]
      · have hb : ¬ b = 0 := by
          intro hb
          apply ha
          rw [← tolower_eq_zero, h1, tolower_eq_zero]
          exact hb
        rw [if_neg ha, if_neg hb, ih t h2]

theorem same_lower_c_str (s t : List Byte) (h : s.map tolower = t.map tolower) :
    (c_str s).map tolower = (c_str t).map tolower := by
  rw [c_str, c_str, same_lower_strlen s t h, List.map_take, List.map_take, h]

theorem same_lower_nil {s t : List Byte} (h : s.map tolower = t.map tolower) :
    s = [] ↔ t = [] := by
  have hl := same_lower_length h
  constructor
  · intro hs
    rw [hs] at hl
    exact List.length_eq_zero.mp hl.symm
  · intro ht
    rw [ht] at hl
    exact List.length_eq_zero.mp hl

theorem same_lower_scan_keyword (s t : List Byte) (h : s.map tolower = t.map tolower) :
    scan_keyword s = scan_keyword t := by
  obtain ⟨h1, h2⟩ := same_lower_scan_token _ _ (same_lower_skip_space s t h)
  have h3 := same_lower_length (same_lower_skip_space _ _ h2)
  rw [scan_keyword, scan_keyword]
  simp only [make_lowercase]
  by_cases hs : (scan_token (skip_space s)).1 = []
  · rw [if_pos hs, if_pos ((same_lower_nil h1).mp hs)]
  · rw [if_neg hs, if_neg (fun ht => hs ((same_lower_nil h1).mpr ht)), h1, h3,
      same_lower_length h]

theorem same_lower_read_string (s t : List Byte) (pos : Nat)
    (h : s.map tolower = t.map tolower) : read_string s pos = read_string t pos := by
  have hd : (s.drop pos).map tolower = (t.drop pos).map tolower := by
    rw [List.map_drop, List.map_drop, h]
  obtain ⟨h1, _⟩ := same_lower_scan_token _ _ (same_lower_skip_space _ _ hd)
  rw [read_string, read_string]
  simp only [make_lowercase]
  by_cases hs : (scan_token (skip_space (s.drop pos))).1 = []
  · rw [if_pos hs, if_pos ((same_lower_nil h1).mp hs)]
  · rw [if_neg hs, if_neg (fun ht => hs ((same_lower_nil h1).mpr ht)), h1]

theorem hdr_entry_of_drop (s t kw : List Byte) (pos : Nat) (v : HdrVars)
    (h : s.drop pos = t.drop pos) : hdr_entry s kw pos v = hdr_entry t kw pos v := by
  simp only [hdr_entry, read_int, read_float, read_double, read_string, h]

theorem entry_byteorder (line : List Byte) (pos : Nat) (v : HdrVars) :
    hdr_entry line (str "byteorder") pos v
      = (read_string line pos).bind (fun s =>
          if s = str "lsbfirst" then .ok { v with big_endian := false }
          else if s = str "i" then .ok { v with big_endian := false }
          else if s = str "msbfirst" then .ok { v with big_endian := true }
          else if s = str "m" then .ok { v with big_endian := true }
          else .error .bad_value) := rfl

theorem hdr_entry_of_word (s t kw : List Byte) (pos : Nat) (v : HdrVars)
    (hkw : kw ∈ word_valued_keywords) (h : s.map tolower = t.map tolower) :
    hdr_entry s kw pos v = hdr_entry t kw pos v := by
  have hr := same_lower_read_string s t pos h
  simp only [word_valued_keywords, List.mem_cons, List.mem_singleton, List.not_mem_nil,
    or_false] at hkw
  rcases hkw with e | e | e | e <;> subst e
  · rw [entry_byteorder, entry_byteorder, hr]
  · rw [entry_layout, entry_layout, hr]
  · rw [entry_numbertype, entry_numbertype, hr]
  · rw [entry_pixeltype, entry_pixeltype, hr]

theorem hdr_line_case_variant (P Q : List Byte) (v : HdrVars) (h : case_variant P Q = true) :
    hdr_line Q v = hdr_line P v := by
  rw [case_variant, Bool.and_eq_true, beq_iff_eq] at h
  obtain ⟨hl, hr⟩ := h
  have hc := same_lower_c_str P Q hl
  have hk := same_lower_scan_keyword _ _ hc
  rw [hdr_line, hdr_line, ← hk]
  cases hkp : scan_keyword (c_str P) with
  | none => rfl
  | some kp =>
    rw [hkp] at hr
    simp only [Bool.or_eq_true, decide_eq_true_eq, beq_iff_eq] at hr
    rcases hr with h1 | h1
    · exact (hdr_entry_of_word _ _ _ _ _ h1 hc).symm
    · exact (hdr_entry_of_drop _ _ _ _ _ h1).symm

theorem hdr_fold_case_variant (Ps Qs : List (List Byte)) (v : HdrVars)
    (h : lines_case_variant Ps Qs = true) : hdr_fold Qs v = hdr_fold Ps v := by
  induction Ps generalizing Qs v with
  | nil =>
    cases Qs with
    | nil => rfl
    | cons Q Qs => cases h
  | cons P Ps ih =>
    cases Qs with
    | nil => cases h
    | cons Q Qs =>
      rw [lines_case_variant, Bool.and_eq_true] at h
      rw [hdr_fold, hdr_fold, hdr_line_case_variant P Q v h.1]
      cases hdr_line P v with
      | error e => rfl
      | ok w => exact ih Qs w h.2

/-- C22. Let the lines that `read_hdr_file` takes from the header `h2` be, one by one, the
lines it takes from `h1` with the letter case changed in the keyword, or anywhere on the
line when the keyword is `byteorder`, `layout`, `numbertype` or `pixeltype`
(`lines_case_variant`).  Then `read_hdr_file` has the same outcome on both: the same
failure, or the same rows, columns, bounding box, nodata value, byte order, skipbytes and
rowpad. -/
theorem keyword_case_insensitive (h1 h2 : List Byte)
    (h : lines_case_variant (hdr_file_lines h1) (hdr_file_lines h2) = true) :
    read_hdr_file h2 = read_hdr_file h1 := by
  rw [read_hdr_file_eq, read_hdr_file_eq, hdr_fold_case_variant _ _ _ h]

/-- C22, witness: a header in lower case and the same header with keywords and words in
other letter cases; both are read as the same big-endian 2x2 grid. -/
theorem keyword_case_insensitive_witness :
    lines_case_variant
        (hdr_file_lines (text_of_lines ["ncols 2", "nrows 2", "xllcorner 0", "yllcorner 0",
          "cellsize 1", "byteorder msbfirst", "layout bil", "pixeltype float"]))
        (hdr_file_lines (text_of_lines ["NCOLS 2", "NRows 2", "XLLCORNER 0", "yllCorner 0",
          "CellSize 1", "ByteOrder MSBFIRST", "LAYOUT Bil", "PixelType FLOAT"])) = true
    ∧ read_hdr_file (text_of_lines ["NCOLS 2", "NRows 2", "XLLCORNER 0", "yllCorner 0",
          "CellSize 1", "ByteOrder MSBFIRST", "LAYOUT Bil", "PixelType FLOAT"])
      = read_hdr_file (text_of_lines ["ncols 2", "nrows 2", "xllcorner 0", "yllcorner 0",
          "cellsize 1", "byteorder msbfirst", "layout bil", "pixeltype float"])
    ∧ read_hdr_file (text_of_lines ["ncols 2", "nrows 2", "xllcorner 0", "yllcorner 0",
          "cellsize 1", "byteorder msbfirst", "layout bil", "pixeltype float"])
      = .ok { nrows := 2, ncols := 2, xmin := .fin false 0 (-1074),
              xmax := .fin false 4503599627370496 (-51), ymin := .fin false 0 (-1074),
              ymax := .fin false 4503599627370496 (-51),
              nodata := ⟨4286578687, by decide⟩, big_endian := true, skipbytes := 0,
              rowpad := 0, software := none } :=
  ⟨by decide,
    keyword_case_insensitive _ _ (by decide),
    by decide⟩

/-! ## Grid payload: the integrality flag, the layout, the size -/

theorem scan_row_ok_inv (nodata : Float32) (row : List Float32) (hn ai : Bool)
    (r : List Float32 × Bool × Bool) (h : scan_row nodata row hn ai = .ok r) :
    ∀ v ∈ row, flt_isnan v = false := by
  intro v hv
  by_contra hc
  have hnan : flt_isnan v = true := by simpa using hc
  rw [scan_row_nan nodata row hn ai ⟨v, hv, hnan⟩] at h
  cases h

/-- A successful read had all its rows in the stream, and no NaN among them. -/
theorem read_rows_ok_inv (host_be big_endian : Bool) (ncols : Nat) (nodata : Float32)
    (rowpad : Nat) (n : Nat) (rest : List Byte) (hn ai : Bool) (g : FltGrid)
    (h : read_rows host_be big_endian ncols nodata rowpad n rest hn ai = .ok g) :
    rows_present ncols rowpad n rest
      ∧ ∀ v ∈ stored_values host_be big_endian ncols rowpad n rest, flt_isnan v = false := by
  induction n generalizing rest hn ai g with
  | zero => exact ⟨trivial, fun v hv => by simp [stored_values] at hv⟩
  | succ k ih =>
    simp only [read_rows] at h
    by_cases hlen : rest.length < 4 * ncols
    · rw [if_pos hlen] at h
      cases h
    · rw [if_neg hlen] at h
      cases hs : scan_row nodata
          (decode_row host_be (host_be != big_endian) (rest.take (4 * ncols))) hn ai with
      | error e =>
        rw [hs] at h
        cases h
      | ok r =>
        obtain ⟨vals, hn2, ai2⟩ := r
        rw [hs] at h
        simp only [] at h
        cases hr : read_rows host_be big_endian ncols nodata rowpad k
            ((rest.drop (4 * ncols)).drop rowpad) hn2 ai2 with
        | error e =>
          rw [hr] at h
          cases h
        | ok g2 =>
          obtain ⟨p2, n2⟩ := ih _ _ _ _ hr
          refine ⟨⟨by omega, p2⟩, ?_⟩
          intro v hv
          simp only [stored_values, List.mem_append] at hv
          rcases hv with hv | hv
          · exact scan_row_ok_inv _ _ _ _ _ hs v hv
          · exact n2 v hv

/-- The result of a successful read, in terms of the stored values. -/
theorem read_flt_file_ok_eq (host_be : Bool) (in_flt_file : List Byte) (nrows ncols : Nat)
    (nodata : Float32) (big_endian : Bool) (skipbytes rowpad : Nat) (g : FltGrid)
    (hok : read_flt_file host_be in_flt_file nrows ncols nodata big_endian skipbytes rowpad
      = .ok g) :
    g = ⟨(stored_values host_be big_endian ncols rowpad nrows
            (in_flt_file.drop skipbytes)).map (replace_null nodata),
        (stored_values host_be big_endian ncols rowpad nrows
            (in_flt_file.drop skipbytes)).any (is_null nodata),
        (stored_values host_be big_endian ncols rowpad nrows
            (in_flt_file.drop skipbytes)).all (fun v => is_null nodata v || !not_integral v)⟩ := by
  obtain ⟨hp, hnan⟩ := read_rows_ok_inv host_be big_endian ncols nodata rowpad nrows _ _ _ g hok
  have h2 := read_rows_ok host_be big_endian ncols nodata rowpad nrows _ false true hp hnan
  rw [read_flt_file, h2] at hok
  simp only [Bool.false_or, Bool.true_and] at hok
  exact (Except.ok.inj hok).symm

/-- C31, as stated, does not hold. A stored value that is taken as null does not reach
the test of line 605: for the 1x1 payload 0.5 with nodata 0.5 the read succeeds, the value
is returned as 0.0, and `all_ints` is left set although the stored value 0.5 is not its
own floor. -/
theorem all_ints_set_for_fractional_null :
    read_flt_file false [0, 0, 0, 63] 1 1 1056964608 false 0 0 = .ok ⟨[0], true, true⟩
      ∧ stored_values false false 1 0 1 [0, 0, 0, 63] = [1056964608]
      ∧ Fp.eq (Float32.toFp 1056964608) (Fp.floor (Float32.toFp 1056964608)) = false := by
  decide

/-- C31, amended. For every payload that `read_flt_file` accepts, `all_ints` is returned
true if and only if every stored value that is not taken as null (neither equal to
`nodata` nor below `-1.0e38`) equals its own floor; and, the nulls being returned as 0.0,
if and only if every value of the grid returned equals its own floor. -/
theorem all_ints_flag (host_be : Bool) (in_flt_file : List Byte) (nrows ncols : Nat)
    (nodata : Float32) (big_endian : Bool) (skipbytes rowpad : Nat) (g : FltGrid)
    (hok : read_flt_file host_be in_flt_file nrows ncols nodata big_endian skipbytes rowpad
      = .ok g) :
    (g.all_ints = true ↔
        ∀ v ∈ stored_values host_be big_endian ncols rowpad nrows (in_flt_file.drop skipbytes),
          (Fp.eq v.toFp nodata.toFp || Fp.lt v.toFp dbl_m1e38) = false →
            Fp.eq v.toFp (Fp.floor v.toFp) = true)
      ∧ (g.all_ints = true ↔ ∀ v ∈ g.data, Fp.eq v.toFp (Fp.floor v.toFp) = true) := by
  have hg := read_flt_file_ok_eq _ _ _ _ _ _ _ _ g hok
  rw [hg]
  simp only [List.all_eq_true, List.mem_map]
  constructor
  · constructor
    · intro h v hv hnull
      have := h v hv
      rw [is_null, hnull, Bool.false_or, not_integral] at this
      simpa using this
    · intro h v hv
      by_cases hnull : is_null nodata v = true
      · rw [hnull]
        rfl
      · have hn2 : is_null nodata v = false := by simpa using hnull
        rw [hn2, Bool.false_or, not_integral, h v hv hn2]
        rfl
  · constructor
    · rintro h w ⟨v, hv, rfl⟩
      rw [replace_null]
      by_cases hnull : is_null nodata v = true
      · rw [if_pos hnull]
        decide
      · rw [if_neg hnull]
        have := h v hv
        have hn2 : is_null nodata v = false := by simpa using hnull
        rw [hn2, Bool.false_or, not_integral] at this
        simpa using this
    · intro h v hv
      by_cases hnull : is_null nodata v = true
      · rw [hnull]
        rfl
      · have hn2 : is_null nodata v = false := by simpa using hnull
        have := h (replace_null nodata v) ⟨v, hv, rfl⟩
        rw [replace_null, if_neg hnull] at this
        rw [hn2, Bool.false_or, not_integral, this]
        rfl

/-- C31 at the 2x2 payload 1.0, 2.0, 3.0, -9999.0 with nodata -9999: the read succeeds
with `all_ints` set, the three values that are not null being whole numbers. -/
theorem all_ints_flag_witness :
    read_flt_file false [0, 0, 128, 63, 0, 0, 0, 64, 0, 0, 64, 64, 0, 60, 28, 198]
        2 2 3323739136 false 0 0 = .ok ⟨[1065353216, 1073741824, 1077936128, 0], true, true⟩
      ∧ ((true = true ↔
          ∀ v ∈ stored_values false false 2 0 2
              (List.drop 0 [0, 0, 128, 63, 0, 0, 0, 64, 0, 0, 64, 64, 0, 60, 28, 198]),
            (Fp.eq v.toFp (Float32.toFp 3323739136) || Fp.lt v.toFp dbl_m1e38) = false →
              Fp.eq v.toFp (Fp.floor v.toFp) = true)
        ∧ (true = true ↔ ∀ v ∈ [(1065353216 : Float32), 1073741824, 1077936128, 0],
            Fp.eq v.toFp (Fp.floor v.toFp) = true)) :=
  ⟨by decide,
    all_ints_flag false [0, 0, 128, 63, 0, 0, 0, 64, 0, 0, 64, 64, 0, 60, 28, 198]
      2 2 3323739136 false 0 0 ⟨[1065353216, 1073741824, 1077936128, 0], true, true⟩
      (by decide)⟩

theorem getD_cons4 (c0 c1 c2 c3 : Byte) (rest : List Byte) (k : Nat) :
    (c0 :: c1 :: c2 :: c3 :: rest).getD (k + 4) 0 = rest.getD k 0 := rfl

theorem value_at_cons4 (host_be big_endian : Bool) (c0 c1 c2 c3 : Byte) (rest : List Byte)
    (p : Nat) :
    value_at host_be big_endian (c0 :: c1 :: c2 :: c3 :: rest) (p + 4)
      = value_at host_be big_endian rest p := by
  simp only [value_at]
  rw [show p + 4 + 3 = (p + 3) + 4 by omega, show p + 4 + 2 = (p + 2) + 4 by omega,
    show p + 4 + 1 = (p + 1) + 4 by omega]
  simp only [getD_cons4]

theorem length_decode_row (host_be r : Bool) (l : List Byte) :
    (decode_row host_be r l).length = l.length / 4 := by
  induction l using decode_row.induct host_be r with
  | case1 c0 c1 c2 c3 rest ih =>
    simp only [decode_row, List.length_cons, ih]
    omega
  | case2 l h =>
    have hl : l.length < 4 := by
      match l, h with
      | [], _ => simp
      | [_], _ => simp
      | [_, _], _ => simp
      | [_, _, _], _ => simp
      | c0 :: c1 :: c2 :: c3 :: rest, h => exact absurd rfl (h c0 c1 c2 c3 rest)
    have : decode_row host_be r l = [] := by
      unfold decode_row
      split
      · exact absurd rfl (h _ _ _ _ _)
      · rfl
    rw [this]
    simp only [List.length_nil]
    omega

/-- Value `j` of a decoded row comes from the four bytes at the offsets `4 * j ..`. -/
theorem decode_row_index (host_be big_endian : Bool) (l : List Byte) (j : Nat)
    (h : 4 * j + 4 ≤ l.length) :
    (decode_row host_be (host_be != big_endian) l)[j]?
      = some (value_at host_be big_endian l (4 * j)) := by
  induction l using decode_row.induct host_be (host_be != big_endian) generalizing j with
  | case1 c0 c1 c2 c3 rest ih =>
    cases j with
    | zero =>
      simp only [decode_row, value_at]
      cases hr : (host_be != big_endian) <;> simp
    | succ k =>
      simp only [List.length_cons] at h
      simp only [decode_row, List.getElem?_cons_succ]
      rw [ih k (by omega), show 4 * (k + 1) = 4 * k + 4 by omega, value_at_cons4]
  | case2 l hne =>
    exfalso
    match l, hne, h with
    | [], _, h => simp at h
    | [_], _, h => simp at h
    | [_, _], _, h => simp at h
    | [_, _, _], _, h => simp at h
    | c0 :: c1 :: c2 :: c3 :: rest, hne, _ => exact hne c0 c1 c2 c3 rest rfl

theorem value_at_take (host_be big_endian : Bool) (l : List Byte) (n p : Nat) (h : p + 4 ≤ n) :
    value_at host_be big_endian (l.take n) p = value_at host_be big_endian l p := by
  have e : ∀ k, k < n → (l.take n).getD k 0 = l.getD k 0 := by
    intro k hk
    simp only [List.getD_eq_getElem?_getD, List.getElem?_take, if_pos hk]
  simp only [value_at, e p (by omega), e (p + 1) (by omega), e (p + 2) (by omega),
    e (p + 3) (by omega)]

theorem value_at_drop (host_be big_endian : Bool) (l : List Byte) (d p : Nat) :
    value_at host_be big_endian (l.drop d) p = value_at host_be big_endian l (d + p) := by
  have e : ∀ k, (l.drop d).getD k 0 = l.getD (d + k) 0 := by
    intro k
    simp only [List.getD_eq_getElem?_getD, List.getElem?_drop]
  simp only [value_at, e, Nat.add_assoc]

/-- Value `j` of row `i` of the stored values comes from the four bytes at the offset
`i * (4 * ncols + rowpad) + 4 * j` of the stream. -/
theorem stored_values_index (host_be big_endian : Bool) (ncols rowpad : Nat) (n : Nat)
    (rest : List Byte) (hp : rows_present ncols rowpad n rest) (i j : Nat) (hi : i < n)
    (hj : j < ncols) :
    i * (4 * ncols + rowpad) + 4 * j + 4 ≤ rest.length
      ∧ (stored_values host_be big_endian ncols rowpad n rest)[i * ncols + j]?
        = some (value_at host_be big_endian rest (i * (4 * ncols + rowpad) + 4 * j)) := by
  induction n generalizing rest i with
  | zero => omega
  | succ k ih =>
    obtain ⟨hlen, hp2⟩ := hp
    have hrow : (decode_row host_be (host_be != big_endian) (rest.take (4 * ncols))).length
        = ncols := by
      rw [length_decode_row, List.length_take, Nat.min_eq_left hlen]
      omega
    cases i with
    | zero =>
      simp only [Nat.zero_mul, Nat.zero_add, stored_values]
      refine ⟨by omega, ?_⟩
      rw [List.getElem?_append_left (by omega),
        decode_row_index _ _ _ _ (by rw [List.length_take, Nat.min_eq_left hlen]; omega),
        value_at_take _ _ _ _ _ (by omega)]
    | succ m =>
      obtain ⟨b1, b2⟩ := ih ((rest.drop (4 * ncols)).drop rowpad) hp2 m (by omega)
      simp only [List.length_drop] at b1
      have e1 : (m + 1) * (4 * ncols + rowpad) = m * (4 * ncols + rowpad) + (4 * ncols + rowpad) :=
        Nat.succ_mul _ _
      have e2 : (m + 1) * ncols = m * ncols + ncols := Nat.succ_mul _ _
      refine ⟨by omega, ?_⟩
      simp only [stored_values]
      rw [List.getElem?_append_right (by omega), hrow,
        show (m + 1) * ncols + j - ncols = m * ncols + j by omega, b2, value_at_drop,
        value_at_drop]
      congr 2
      omega

theorem length_stored_values (host_be big_endian : Bool) (ncols rowpad : Nat) (n : Nat)
    (rest : List Byte) (hp : rows_present ncols rowpad n rest) :
    (stored_values host_be big_endian ncols rowpad n rest).length = n * ncols := by
  induction n generalizing rest with
  | zero => simp [stored_values]
  | succ k ih =>
    obtain ⟨hlen, hp2⟩ := hp
    simp only [stored_values, List.length_append]
    rw [ih _ hp2, length_decode_row, List.length_take, Nat.min_eq_left hlen]
    have e2 : (k + 1) * ncols = k * ncols + ncols := Nat.succ_mul _ _
    omega

/-- The pattern of `value_at` does not depend on the host: the first byte is the most
significant one when `big_endian` is set, the least significant one otherwise. -/
theorem value_at_val (host_be big_endian : Bool) (stream : List Byte) (p : Nat) :
    (value_at host_be big_endian stream p).val
      = if big_endian then
          (stream.getD (p + 3) 0).val + 256 * (stream.getD (p + 2) 0).val
            + 65536 * (stream.getD (p + 1) 0).val + 16777216 * (stream.getD p 0).val
        else
          (stream.getD p 0).val + 256 * (stream.getD (p + 1) 0).val
            + 65536 * (stream.getD (p + 2) 0).val + 16777216 * (stream.getD (p + 3) 0).val := by
  cases host_be <;> cases big_endian <;> rfl

/-- C32. Payload layout. On every successful read, for every row `i < nrows` and column
`j < ncols`, the stream holds the four bytes at the offsets
`skipbytes + i * (4 * ncols + rowpad) + 4 * j ..`, counted from the initial position, and
the value at row `i`, column `j` of the grid returned (index `i * ncols + j` of its
`nrows * ncols` values) is the `float` those four bytes stand for in the declared byte
order (0.0 in its place when it is taken as null): the first byte is the most
significant one when `big_endian` is set and the least significant one otherwise,
whatever the host. The skip region is passed over once, the pad region after each row. -/
theorem payload_layout (host_be : Bool) (in_flt_file : List Byte) (nrows ncols : Nat)
    (nodata : Float32) (big_endian : Bool) (skipbytes rowpad : Nat) (g : FltGrid)
    (hok : read_flt_file host_be in_flt_file nrows ncols nodata big_endian skipbytes rowpad
      = .ok g)
    (i j : Nat) (hi : i < nrows) (hj : j < ncols) :
    skipbytes + i * (4 * ncols + rowpad) + 4 * j + 4 ≤ in_flt_file.length
      ∧ g.data.length = nrows * ncols
      ∧ g.data[i * ncols + j]?
        = some (replace_null nodata (value_at host_be big_endian in_flt_file
            (skipbytes + i * (4 * ncols + rowpad) + 4 * j)))
      ∧ (value_at host_be big_endian in_flt_file
            (skipbytes + i * (4 * ncols + rowpad) + 4 * j)).val
        = (if big_endian then
            (in_flt_file.getD (skipbytes + i * (4 * ncols + rowpad) + 4 * j + 3) 0).val
              + 256 * (in_flt_file.getD (skipbytes + i * (4 * ncols + rowpad) + 4 * j + 2) 0).val
              + 65536 * (in_flt_file.getD (skipbytes + i * (4 * ncols + rowpad) + 4 * j + 1) 0).val
              + 16777216 * (in_flt_file.getD (skipbytes + i * (4 * ncols + rowpad) + 4 * j) 0).val
          else
            (in_flt_file.getD (skipbytes + i * (4 * ncols + rowpad) + 4 * j) 0).val
              + 256 * (in_flt_file.getD (skipbytes + i * (4 * ncols + rowpad) + 4 * j + 1) 0).val
              + 65536 * (in_flt_file.getD (skipbytes + i * (4 * ncols + rowpad) + 4 * j + 2) 0).val
              + 16777216
                * (in_flt_file.getD (skipbytes + i * (4 * ncols + rowpad) + 4 * j + 3) 0).val) := by
  obtain ⟨hp, _⟩ := read_rows_ok_inv host_be big_endian ncols nodata rowpad nrows _ _ _ g hok
  have hg := read_flt_file_ok_eq _ _ _ _ _ _ _ _ g hok
  obtain ⟨b1, b2⟩ := stored_values_index host_be big_endian ncols rowpad nrows _ hp i j hi hj
  rw [List.length_drop] at b1
  refine ⟨by omega, ?_, ?_, value_at_val _ _ _ _⟩
  · rw [hg]
    simp only [List.length_map]
    exact length_stored_values _ _ _ _ _ _ hp
  · rw [hg]
    simp only [List.getElem?_map, b2, Option.map_some']
    rw [value_at_drop, Nat.add_assoc]

/-- C32 at a 2x2 little-endian payload with one skip byte and two pad bytes after each
row: the value at row 1, column 1 is decoded from the bytes at the offsets 15 .. 18, and
it is 4.0. -/
theorem payload_layout_witness :
    1 + 1 * (4 * 2 + 2) + 4 * 1 + 4 ≤ [(255 : Byte), 0, 0, 128, 63, 0, 0, 0, 64, 255, 255,
        0, 0, 64, 64, 0, 0, 128, 64, 255, 255].length
      ∧ [(1065353216 : Float32), 1073741824, 1077936128, 1082130432].length = 2 * 2
      ∧ [(1065353216 : Float32), 1073741824, 1077936128, 1082130432][1 * 2 + 1]?
        = some (replace_null 3323739136 (value_at false false
            [255, 0, 0, 128, 63, 0, 0, 0, 64, 255, 255, 0, 0, 64, 64, 0, 0, 128, 64, 255, 255]
            (1 + 1 * (4 * 2 + 2) + 4 * 1)))
      ∧ (value_at false false
            [255, 0, 0, 128, 63, 0, 0, 0, 64, 255, 255, 0, 0, 64, 64, 0, 0, 128, 64, 255, 255]
            (1 + 1 * (4 * 2 + 2) + 4 * 1)).val
        = (if false = true then
            (([255, 0, 0, 128, 63, 0, 0, 0, 64, 255, 255, 0, 0, 64, 64, 0, 0, 128, 64, 255, 255]
                : List Byte).getD (1 + 1 * (4 * 2 + 2) + 4 * 1 + 3) 0).val
              + 256 * (([255, 0, 0, 128, 63, 0, 0, 0, 64, 255, 255, 0, 0, 64, 64, 0, 0, 128, 64,
                255, 255] : List Byte).getD (1 + 1 * (4 * 2 + 2) + 4 * 1 + 2) 0).val
              + 65536 * (([255, 0, 0, 128, 63, 0, 0, 0, 64, 255, 255, 0, 0, 64, 64, 0, 0, 128, 64,
                255, 255] : List Byte).getD (1 + 1 * (4 * 2 + 2) + 4 * 1 + 1) 0).val
              + 16777216 * (([255, 0, 0, 128, 63, 0, 0, 0, 64, 255, 255, 0, 0, 64, 64, 0, 0, 128,
                64, 255, 255] : List Byte).getD (1 + 1 * (4 * 2 + 2) + 4 * 1) 0).val
          else
            (([255, 0, 0, 128, 63, 0, 0, 0, 64, 255, 255, 0, 0, 64, 64, 0, 0, 128, 64, 255, 255]
                : List Byte).getD (1 + 1 * (4 * 2 + 2) + 4 * 1) 0).val
              + 256 * (([255, 0, 0, 128, 63, 0, 0, 0, 64, 255, 255, 0, 0, 64, 64, 0, 0, 128, 64,
                255, 255] : List Byte).getD (1 + 1 * (4 * 2 + 2) + 4 * 1 + 1) 0).val
              + 65536 * (([255, 0, 0, 128, 63, 0, 0, 0, 64, 255, 255, 0, 0, 64, 64, 0, 0, 128, 64,
                255, 255] : List Byte).getD (1 + 1 * (4 * 2 + 2) + 4 * 1 + 2) 0).val
              + 16777216 * (([255, 0, 0, 128, 63, 0, 0, 0, 64, 255, 255, 0, 0, 64, 64, 0, 0, 128,
                64, 255, 255] : List Byte).getD (1 + 1 * (4 * 2 + 2) + 4 * 1 + 3) 0).val) :=
  payload_layout false
    [255, 0, 0, 128, 63, 0, 0, 0, 64, 255, 255, 0, 0, 64, 64, 0, 0, 128, 64, 255, 255]
    2 2 3323739136 false 1 2 ⟨[1065353216, 1073741824, 1077936128, 1082130432], false, true⟩
    (by decide) 1 1 (by decide) (by decide)

/-- With at least one column, the rows are all in the stream exactly when the stream
reaches the last value of the last row. -/
theorem rows_present_iff (ncols rowpad : Nat) (hc : 1 ≤ ncols) (n : Nat) (rest : List Byte) :
    rows_present ncols rowpad (n + 1) rest
      ↔ n * (4 * ncols + rowpad) + 4 * ncols ≤ rest.length := by
  induction n generalizing rest with
  | zero => simp [rows_present]
  | succ k ih =>
    have e : (k + 1) * (4 * ncols + rowpad) = k * (4 * ncols + rowpad) + (4 * ncols + rowpad) :=
      Nat.succ_mul _ _
    rw [rows_present, ih, List.length_drop, List.length_drop]
    constructor
    · rintro ⟨_, h2⟩
      omega
    · intro h
      constructor <;> omega

/-- Bytes beyond the last value of the last row have no effect on the row loop. -/
theorem read_rows_take (host_be big_endian : Bool) (ncols : Nat) (nodata : Float32)
    (rowpad : Nat) (n : Nat) (rest : List Byte) (hn ai : Bool) (M : Nat)
    (hM : (n - 1) * (4 * ncols + rowpad) + 4 * ncols ≤ M) :
    read_rows host_be big_endian ncols nodata rowpad n (rest.take M) hn ai
      = read_rows host_be big_endian ncols nodata rowpad n rest hn ai := by
  induction n generalizing rest hn ai M with
  | zero => rfl
  | succ k ih =>
    simp only [Nat.add_sub_cancel] at hM
    have h4 : 4 * ncols ≤ M := by omega
    have e1 : (rest.take M).take (4 * ncols) = rest.take (4 * ncols) := by
      rw [List.take_take, Nat.min_eq_left h4]
    have e2 : ((rest.take M).drop (4 * ncols)).drop rowpad
        = ((rest.drop (4 * ncols)).drop rowpad).take (M - 4 * ncols - rowpad) := by
      rw [List.drop_take, List.drop_take]
    have e3 : ((rest.take M).length < 4 * ncols) ↔ (rest.length < 4 * ncols) := by
      rw [List.length_take]
      omega
    simp only [read_rows, e1, e2, e3]
    by_cases hlen : rest.length < 4 * ncols
    · rw [if_pos hlen, if_pos hlen]
    · rw [if_neg hlen, if_neg hlen]
      cases scan_row nodata
          (decode_row host_be (host_be != big_endian) (rest.take (4 * ncols))) hn ai with
      | error e => rfl
      | ok r =>
        obtain ⟨vals, hn2, ai2⟩ := r
        simp only []
        by_cases hk : k = 0
        · subst hk
          rfl
        · have e : k * (4 * ncols + rowpad)
              = (k - 1) * (4 * ncols + rowpad) + (4 * ncols + rowpad) := by
            obtain ⟨m, rfl⟩ := Nat.exists_eq_succ_of_ne_zero hk
            exact Nat.succ_mul _ _
          rw [ih _ _ _ _ (by omega)]

theorem length_after_rows (ncols rowpad : Nat) (n : Nat) (rest : List Byte) :
    (after_rows ncols rowpad n rest).length = rest.length - n * (4 * ncols + rowpad) := by
  induction n generalizing rest with
  | zero => simp [after_rows]
  | succ k ih =>
    have e : (k + 1) * (4 * ncols + rowpad) = k * (4 * ncols + rowpad) + (4 * ncols + rowpad) :=
      Nat.succ_mul _ _
    rw [after_rows, ih, List.length_drop, List.length_drop]
    omega

/-- C33. Size mismatch, for at least one row and one column. A stream that ends before
the last value of the last row (fewer than `flt_needed` bytes, which is
`skipbytes + (nrows - 1) * (4 * ncols + rowpad) + 4 * ncols`) makes `read_flt_file` fail.
Bytes past that point have no effect on the outcome: reading the stream cut after any
`N >= flt_needed` bytes gives the same result, grid, `has_nulls` and `all_ints`, as reading
the whole stream, and a stream of at least `flt_needed` bytes without a NaN among its
stored values is read successfully. The excess only brings the warning of lines 616-620,
which is printed exactly when the stream goes beyond the pad region of the last row. -/
theorem size_mismatch (host_be : Bool) (in_flt_file : List Byte) (nrows ncols : Nat)
    (nodata : Float32) (big_endian : Bool) (skipbytes rowpad : Nat)
    (hr : 1 ≤ nrows) (hc : 1 ≤ ncols) :
    (in_flt_file.length < flt_needed nrows ncols skipbytes rowpad →
        ∃ e, read_flt_file host_be in_flt_file nrows ncols nodata big_endian skipbytes rowpad
          = .error e)
      ∧ (∀ N, flt_needed nrows ncols skipbytes rowpad ≤ N →
          read_flt_file host_be (in_flt_file.take N) nrows ncols nodata big_endian skipbytes
              rowpad
            = read_flt_file host_be in_flt_file nrows ncols nodata big_endian skipbytes rowpad)
      ∧ (flt_needed nrows ncols skipbytes rowpad ≤ in_flt_file.length →
          (∀ v ∈ stored_values host_be big_endian ncols rowpad nrows
              (in_flt_file.drop skipbytes), flt_isnan v = false) →
          ∃ g, read_flt_file host_be in_flt_file nrows ncols nodata big_endian skipbytes rowpad
            = .ok g)
      ∧ (flt_too_large in_flt_file nrows ncols skipbytes rowpad = true
          ↔ skipbytes + nrows * (4 * ncols + rowpad) < in_flt_file.length) := by
  obtain ⟨n, rfl⟩ : ∃ n, nrows = n + 1 := ⟨nrows - 1, by omega⟩
  have hpres := rows_present_iff ncols rowpad hc n (in_flt_file.drop skipbytes)
  rw [List.length_drop] at hpres
  simp only [flt_needed, Nat.add_sub_cancel]
  refine ⟨?_, ?_, ?_, ?_⟩
  · intro hlt
    cases hres : read_flt_file host_be in_flt_file (n + 1) ncols nodata big_endian skipbytes
        rowpad with
    | error e => exact ⟨e, rfl⟩
    | ok g =>
      obtain ⟨hp, _⟩ :=
        read_rows_ok_inv host_be big_endian ncols nodata rowpad (n + 1) _ _ _ g hres
      have := hpres.mp hp
      omega
  · intro N hN
    rw [read_flt_file, read_flt_file, List.drop_take]
    exact read_rows_take _ _ _ _ _ _ _ _ _ _ (by simp only [Nat.add_sub_cancel]; omega)
  · intro hlen hnan
    exact ⟨_, read_rows_ok host_be big_endian ncols nodata rowpad (n + 1) _ false true
      (hpres.mpr (by omega)) hnan⟩
  · rw [flt_too_large]
    have hl := length_after_rows ncols rowpad (n + 1) (in_flt_file.drop skipbytes)
    rw [List.length_drop] at hl
    cases hA : after_rows ncols rowpad (n + 1) (in_flt_file.drop skipbytes) with
    | nil =>
      rw [hA, List.length_nil] at hl
      simp only [List.isEmpty_nil, Bool.not_true, Bool.false_eq_true, false_iff]
      omega
    | cons a as =>
      rw [hA, List.length_cons] at hl
      simp only [List.isEmpty_cons, Bool.not_false, true_iff]
      omega

/-- C33 at 1x1 grids: the three-byte stream is too short and fatal; the five-byte stream
holding 1.0 and one byte more is read as the four-byte stream is, with the warning. -/
theorem size_mismatch_witness :
    (([0, 0, 128] : List Byte).length < flt_needed 1 1 0 0 →
        ∃ e, read_flt_file false [0, 0, 128] 1 1 3323739136 false 0 0 = .error e)
      ∧ (read_flt_file false (([0, 0, 128, 63, 7] : List Byte).take 4) 1 1 3323739136 false 0 0
          = read_flt_file false [0, 0, 128, 63, 7] 1 1 3323739136 false 0 0)
      ∧ read_flt_file false [0, 0, 128, 63, 7] 1 1 3323739136 false 0 0
          = .ok ⟨[1065353216], false, true⟩
      ∧ flt_too_large [0, 0, 128, 63, 7] 1 1 0 0 = true :=
  ⟨(size_mismatch false [0, 0, 128] 1 1 3323739136 false 0 0 (by decide) (by decide)).1,
    (size_mismatch false [0, 0, 128, 63, 7] 1 1 3323739136 false 0 0 (by decide)
      (by decide)).2.1 4 (by decide),
    by decide, by decide⟩

/-! ## The byte order declared by a header -/

/-- Only a `byteorder` line changes `big_endian`. -/
theorem hdr_entry_frame_big_endian (line kw : List Byte) (pos : Nat) (v v2 : HdrVars)
    (h : hdr_entry line kw pos v = .ok v2) (hkw : kw ≠ str "byteorder") :
    v2.big_endian = v.big_endian := by
  unfold hdr_entry at h
  iterate 30 (rcases ite_ok_cases h with ⟨hc, h⟩ | ⟨hn, h⟩; rotate_left)
  all_goals first
    | (cases h
       rfl)
    | (exact absurd hc hkw)
    | (obtain ⟨a, _, h2⟩ := bind_eq_ok _ _ _ h
       first
         | (cases h2
            rfl)
         | (rcases ite_ok_cases h2 with ⟨_, h3⟩ | ⟨_, h3⟩
            all_goals first
              | (cases h3
                 rfl)
              | cases h3
              | (rcases ite_ok_cases h3 with ⟨_, h4⟩ | ⟨_, h4⟩
                 all_goals first
                   | cases h4
                   | (rcases ite_ok_cases h4 with ⟨_, h5⟩ | ⟨_, h5⟩
                      all_goals first
                        | (cases h5
                           rfl)
                        | cases h5))))

theorem line_sets_byteorder_none (line : List Byte)
    (h : line_keyword line ≠ some (str "byteorder")) : line_sets_byteorder line = none := by
  rw [line_sets_byteorder, if_neg h]

/-- One line of the loop either leaves `big_endian` as it is or sets it as the line says. -/
theorem line_step_big_endian (line : List Byte) (v v2 : HdrVars)
    (h : hdr_line line v = .ok v2) :
    v2.big_endian = (line_sets_byteorder line).getD v.big_endian := by
  rcases hdr_line_cases line v v2 h with ⟨hk, rfl⟩ | ⟨kp, hk, he⟩
  · rw [line_sets_byteorder_none _ (by simp only [line_keyword, hk]; exact fun h2 => by cases h2)]
    rfl
  · by_cases hkw : kp.1 = str "byteorder"
    · rw [hkw, entry_byteorder] at he
      obtain ⟨s, hr, h2⟩ := bind_eq_ok _ _ _ he
      have hls : line_string line = some s := by simp only [line_string, hk, hr]
      have hlk : line_keyword line = some (str "byteorder") := by
        simp only [line_keyword, hk, hkw]
      rw [line_sets_byteorder, if_pos hlk, hls, Option.bind, byteorder_of_word]
      by_cases h1 : s = str "lsbfirst"
      · rw [if_pos h1] at h2
        cases h2
        rw [if_pos (Or.inl h1)]
        rfl
      · rw [if_neg h1] at h2
        by_cases h2b : s = str "i"
        · rw [if_pos h2b] at h2
          cases h2
          rw [if_pos (Or.inr h2b)]
          rfl
        · rw [if_neg h2b] at h2
          rw [if_neg (by rintro (e | e); exacts [h1 e, h2b e])]
          by_cases h3 : s = str "msbfirst"
          · rw [if_pos h3] at h2
            cases h2
            rw [if_pos (Or.inl h3)]
            rfl
          · rw [if_neg h3] at h2
            by_cases h4 : s = str "m"
            · rw [if_pos h4] at h2
              cases h2
              rw [if_pos (Or.inr h4)]
              rfl
            · rw [if_neg h4] at h2
              cases h2
    · rw [line_sets_byteorder_none _ (by
        simp only [line_keyword, hk]
        exact fun h2 => hkw (Option.some.inj h2))]
      exact hdr_entry_frame_big_endian _ _ _ _ _ he hkw

/-- A `byteorder` line with none of the four words is fatal. -/
theorem bad_byteorder_line (line : List Byte)
    (hkw : line_keyword line = some (str "byteorder"))
    (hbad : (line_string line).bind byteorder_of_word = none) (v : HdrVars) :
    ∃ e, hdr_line line v = .error e := by
  obtain ⟨kp, hk, hkey⟩ := keyword_of line _ hkw
  rw [hdr_line_of_keyword line kp v hk, hkey, entry_byteorder]
  rw [line_string_eq line kp hk] at hbad
  cases hr : read_string (c_str line) kp.2 with
  | error e => exact ⟨e, rfl⟩
  | ok s =>
    rw [hr] at hbad
    simp only [Option.bind, byteorder_of_word] at hbad
    have hn1 : ¬(s = str "lsbfirst" ∨ s = str "i") := by
      intro hc
      rw [if_pos hc] at hbad
      cases hbad
    rw [if_neg hn1] at hbad
    have hn2 : ¬(s = str "msbfirst" ∨ s = str "m") := by
      intro hc
      rw [if_pos hc] at hbad
      cases hbad
    refine ⟨.bad_value, ?_⟩
    simp only [Except.bind]
    rw [if_neg (fun e => hn1 (Or.inl e)), if_neg (fun e => hn1 (Or.inr e)),
      if_neg (fun e => hn2 (Or.inl e)), if_neg (fun e => hn2 (Or.inr e))]

theorem last_set_append {α : Type} (upd : List Byte → Option α) (A B : List (List Byte))
    (init : α) : last_set upd (A ++ B) init = last_set upd B (last_set upd A init) := by
  simp only [last_set, List.foldl_append]

theorem hdr_resolve_big_endian (v : HdrVars) (r : HdrInfo) (h : hdr_resolve v = .ok r) :
    r.big_endian = v.big_endian := by
  unfold hdr_resolve at h
  rcases ite_ok_cases h with ⟨_, h1⟩ | ⟨c1, h1⟩
  · cases h1
  rcases ite_ok_cases h1 with ⟨_, h2⟩ | ⟨c2, h2⟩
  · cases h2
  rcases ite_ok_cases h2 with ⟨_, h3⟩ | ⟨c3, h3⟩
  · cases h3
  dsimp only at h3
  rcases ite_ok_cases h3 with ⟨_, h4⟩ | ⟨c4, h4⟩
  · cases h4
  rcases ite_ok_cases h4 with ⟨_, h5⟩ | ⟨c5, h5⟩
  · cases h5
  rcases ite_ok_cases h5 with ⟨_, h6⟩ | ⟨c6, h6⟩
  · cases h6
  rcases ite_ok_cases h6 with ⟨_, h7⟩ | ⟨c7, h7⟩
  · cases h7
  rcases ite_ok_cases h7 with ⟨_, h8⟩ | ⟨c8, h8⟩
  · cases h8
  cases h8
  rfl

/-- C34. Byte-order declaration. On every successful parse the `big_endian` returned is
the byte order that the header declares, `header_big_endian`: that of the last
`byteorder` line. It is 0 when the header has no `byteorder` line; when the last
`byteorder` line carries the word `lsbfirst` or `i` it is 0, and when it carries `msbfirst`
or `m` it is 1 (`line_string` is the word in lower case, so the comparison ignores case).
A `byteorder` line, the last one or not, with any other word or with none that can be
read makes `read_hdr_file` fail. -/
theorem byte_order_declaration (h : List Byte) :
    (∀ r, read_hdr_file h = .ok r → r.big_endian = header_big_endian h)
    ∧ ((∀ line ∈ hdr_file_lines h, line_keyword line ≠ some (str "byteorder")) →
        header_big_endian h = false)
    ∧ (∀ A L B, hdr_file_lines h = A ++ L :: B →
        line_keyword L = some (str "byteorder") →
        (∀ line ∈ B, line_keyword line ≠ some (str "byteorder")) →
        ((line_string L = some (str "lsbfirst") ∨ line_string L = some (str "i")) →
          header_big_endian h = false)
        ∧ ((line_string L = some (str "msbfirst") ∨ line_string L = some (str "m")) →
          header_big_endian h = true))
    ∧ (∀ line ∈ hdr_file_lines h, line_keyword line = some (str "byteorder") →
        line_string line ≠ some (str "lsbfirst") → line_string line ≠ some (str "i") →
        line_string line ≠ some (str "msbfirst") → line_string line ≠ some (str "m") →
        ∃ e, read_hdr_file h = .error e) := by
  refine ⟨?_, ?_, ?_, ?_⟩
  · intro r hok
    obtain ⟨v, hv, hres⟩ := read_hdr_file_ok h r hok
    rw [hdr_resolve_big_endian v r hres]
    exact hdr_fold_last_set (fun v => v.big_endian) _ line_step_big_endian _ _ _ hv
  · intro hno
    exact last_set_absent _ _ _ (fun line hl => line_sets_byteorder_none line (hno line hl))
  · intro A L B hsplit hkw hB
    have hval : header_big_endian h = (line_sets_byteorder L).getD
        (last_set line_sets_byteorder A false) := by
      rw [header_big_endian, hsplit, last_set_append]
      exact last_set_absent _ _ _ (fun line hl => line_sets_byteorder_none line (hB line hl))
    rw [hval, line_sets_byteorder, if_pos hkw]
    constructor
    · rintro (e | e) <;> rw [e] <;> rfl
    · rintro (e | e) <;> rw [e] <;> rfl
  · intro line hl hkw n1 n2 n3 n4
    refine read_hdr_file_error_of_line h line hl (bad_byteorder_line line hkw ?_)
    cases hs : line_string line with
    | none => rfl
    | some s =>
      rw [hs] at n1 n2 n3 n4
      simp only [Option.bind, byteorder_of_word]
      rw [if_neg (by rintro (e | e); exacts [n1 (by rw [e]), n2 (by rw [e])]),
        if_neg (by rintro (e | e); exacts [n3 (by rw [e]), n4 (by rw [e])])]

/-- C34 at concrete headers: with the lines `byteorder M` and then `BYTEORDER LSBfirst`
the parse succeeds with `big_endian = 0`, the last line winning; with `byteorder MSBFIRST`
it gives 1; and `byteorder vax` is fatal. -/
theorem byte_order_declaration_witness :
    ((∀ r, read_hdr_file (text_of_lines ["ncols 2", "nrows 2", "byteorder M",
          "xllcorner 0", "yllcorner 0", "cellsize 1", "BYTEORDER LSBfirst"]) = .ok r →
        r.big_endian = false)
      ∧ ∀ r, read_hdr_file (text_of_lines ["ncols 2", "nrows 2", "byteorder MSBFIRST",
          "xllcorner 0", "yllcorner 0", "cellsize 1"]) = .ok r → r.big_endian = true)
    ∧ (∃ r, read_hdr_file (text_of_lines ["ncols 2", "nrows 2", "byteorder M",
          "xllcorner 0", "yllcorner 0", "cellsize 1", "BYTEORDER LSBfirst"]) = .ok r)
    ∧ ∃ e, read_hdr_file (text_of_lines ["ncols 2", "nrows 2", "byteorder vax",
          "xllcorner 0", "yllcorner 0", "cellsize 1"]) = .error e :=
  ⟨⟨fun r hok => ((byte_order_declaration _).1 r hok).trans (by decide),
      fun r hok => ((byte_order_declaration _).1 r hok).trans (by decide)⟩,
    ⟨{ nrows := 2, ncols := 2, xmin := .fin false 0 (-1074),
       xmax := .fin false 4503599627370496 (-51), ymin := .fin false 0 (-1074),
       ymax := .fin false 4503599627370496 (-51), nodata := ⟨4286578687, by decide⟩,
       big_endian := false, skipbytes := 0, rowpad := 0, software := none }, by decide⟩,
    (byte_order_declaration _).2.2.2 (str "byteorder vax\n") (by decide) (by decide)
      (by decide) (by decide) (by decide) (by decide)⟩

/-! ## The minimum and the maximum found by the writers -/

theorem flt_not_nan (x : Float32) (h : flt_isnan x = false) : x.toFp ≠ .nan := by
  intro hc
  rw [(flt_isnan_iff x).mpr hc] at h
  cases h

theorem fp_le_refl (a : Fp) (h : a ≠ .nan) : Fp.le a a = true := by
  cases a with
  | nan => exact absurd rfl h
  | inf n => simp [Fp.le, Fp.eq]
  | fin n m e => simp [Fp.le, Fp.eq]

theorem fp_le_of_lt (a b : Fp) (h : Fp.lt a b = true) : Fp.le a b = true := by
  rw [Fp.le, h]
  rfl

/-- Of two numbers that are not NaNs, the one that is not lower is at least as high. -/
theorem fp_le_of_not_lt (a b : Fp) (ha : a ≠ .nan) (hb : b ≠ .nan) (h : Fp.lt a b = false) :
    Fp.le b a = true := by
  cases a with
  | nan => exact absurd rfl ha
  | inf na =>
    cases b with
    | nan => exact absurd rfl hb
    | inf nb => cases na <;> cases nb <;> first | rfl | cases h
    | fin nb mb eb => cases na <;> first | rfl | cases h
  | fin na ma ea =>
    cases b with
    | nan => exact absurd rfl hb
    | inf nb => cases nb <;> first | rfl | cases h
    | fin nb mb eb =>
      rw [le_fin_iff]
      have := (lt_fin_iff na nb ma mb ea eb).not
      rw [h] at this
      exact not_lt.mp (this.mp (by simp))

/-- The comparison `<=` is transitive. -/
theorem fp_le_trans (a b c : Fp) (h1 : Fp.le a b = true) (h2 : Fp.le b c = true) :
    Fp.le a c = true := by
  cases b with
  | nan => cases a <;> cases h1
  | fin n m e => exact le_trans_fin a c n m e h1 h2
  | inf nb =>
    cases nb with
    | false =>
      have hc : c = .inf false := by
        cases c with
        | nan => simp [Fp.le, Fp.lt, Fp.eq] at h2
        | inf nc =>
          cases nc with
          | false => rfl
          | true => simp [Fp.le, Fp.lt, Fp.eq] at h2
        | fin nc mc ec => simp [Fp.le, Fp.lt, Fp.eq] at h2
      rw [hc]
      exact h1
    | true =>
      have ha : a = .inf true := by
        cases a with
        | nan => simp [Fp.le, Fp.lt, Fp.eq] at h1
        | inf na =>
          cases na with
          | false => simp [Fp.le, Fp.lt, Fp.eq] at h1
          | true => rfl
        | fin na ma ea => simp [Fp.le, Fp.lt, Fp.eq] at h1
      rw [ha]
      exact h2

/-- What `update_min_max` keeps, for a value that is not a NaN: the minimum and the
maximum are values met, not NaNs, in order; they move outwards only, and the value lies
between them. -/
theorem update_min_max_bounds (D : List Float32) (st : FltScan) (b : Float32)
    (hb : flt_isnan b = false) (hbD : b ∈ D)
    (hmin : flt_isnan st.min_value = false ∧ st.min_value ∈ D)
    (hmax : flt_isnan st.max_value = false ∧ st.max_value ∈ D)
    (hord : Fp.le st.min_value.toFp st.max_value.toFp = true) :
    (flt_isnan (update_min_max st b).min_value = false ∧ (update_min_max st b).min_value ∈ D)
    ∧ (flt_isnan (update_min_max st b).max_value = false ∧ (update_min_max st b).max_value ∈ D)
    ∧ Fp.le (update_min_max st b).min_value.toFp (update_min_max st b).max_value.toFp = true
    ∧ Fp.le (update_min_max st b).min_value.toFp st.min_value.toFp = true
    ∧ Fp.le st.max_value.toFp (update_min_max st b).max_value.toFp = true
    ∧ Fp.le (update_min_max st b).min_value.toFp b.toFp = true
    ∧ Fp.le b.toFp (update_min_max st b).max_value.toFp = true := by
  have nb := flt_not_nan b hb
  have nmin := flt_not_nan _ hmin.1
  have nmax := flt_not_nan _ hmax.1
  rw [update_min_max]
  by_cases h1 : Fp.lt b.toFp st.min_value.toFp = true
  · rw [if_pos h1]
    have hle := fp_le_of_lt _ _ h1
    exact ⟨⟨hb, hbD⟩, hmax, fp_le_trans _ _ _ hle hord, hle, fp_le_refl _ nmax,
      fp_le_refl _ nb, fp_le_trans _ _ _ hle hord⟩
  · rw [if_neg h1]
    have h1f : Fp.lt b.toFp st.min_value.toFp = false := by simpa using h1
    have hge := fp_le_of_not_lt _ _ nb nmin h1f
    by_cases h2 : Fp.lt st.max_value.toFp b.toFp = true
    · rw [if_pos h2]
      have hle := fp_le_of_lt _ _ h2
      exact ⟨hmin, ⟨hb, hbD⟩, hge, fp_le_refl _ nmin, hle, hge, fp_le_refl _ nb⟩
    · rw [if_neg h2]
      have h2f : Fp.lt st.max_value.toFp b.toFp = false := by simpa using h2
      exact ⟨hmin, hmax, hord, fp_le_refl _ nmin, fp_le_refl _ nmax, hge,
        fp_le_of_not_lt _ _ nmax nb h2f⟩

/-- With a NaN in both, `update_min_max` changes nothing: no value is lower or higher
than a NaN. -/
theorem update_min_max_nan (st : FltScan) (b : Float32)
    (hmin : flt_isnan st.min_value = true) (hmax : flt_isnan st.max_value = true) :
    update_min_max st b = st := by
  rw [update_min_max, (flt_isnan_iff _).mp hmin, (flt_isnan_iff _).mp hmax]
  have e1 : Fp.lt b.toFp .nan = false := by cases b.toFp <;> rfl
  have e2 : Fp.lt .nan b.toFp = false := by cases b.toFp <;> rfl
  rw [e1, e2]
  rfl

theorem write_cell_min_max (D : List Float32) (st st1 : FltScan) (b v : Float32)
    (h : write_cell st b = .ok (v, st1)) (hbD : b ∈ D)
    (hmin : flt_isnan st.min_value = false ∧ st.min_value ∈ D)
    (hmax : flt_isnan st.max_value = false ∧ st.max_value ∈ D)
    (hord : Fp.le st.min_value.toFp st.max_value.toFp = true) :
    (flt_isnan st1.min_value = false ∧ st1.min_value ∈ D)
    ∧ (flt_isnan st1.max_value = false ∧ st1.max_value ∈ D)
    ∧ Fp.le st1.min_value.toFp st1.max_value.toFp = true
    ∧ Fp.le st1.min_value.toFp st.min_value.toFp = true
    ∧ Fp.le st.max_value.toFp st1.max_value.toFp = true
    ∧ (flt_isnan b = false →
        Fp.le st1.min_value.toFp b.toFp = true ∧ Fp.le b.toFp st1.max_value.toFp = true) := by
  rw [write_cell] at h
  by_cases hb : flt_isnan b = true
  · rw [if_pos hb] at h
    cases h
    exact ⟨hmin, hmax, hord, fp_le_refl _ (flt_not_nan _ hmin.1),
      fp_le_refl _ (flt_not_nan _ hmax.1), fun hc => by rw [hb] at hc; cases hc⟩
  · rw [if_neg hb] at h
    have hb2 : flt_isnan b = false := by simpa using hb
    have key : ∀ st0 : FltScan, st1 = update_min_max st0 b → st0.min_value = st.min_value →
        st0.max_value = st.max_value → _ := fun st0 e3 e1 e2 => by
      have := update_min_max_bounds D st0 b hb2 hbD (by rw [e1]; exact hmin)
        (by rw [e2]; exact hmax) (by rw [e1, e2]; exact hord)
      rw [← e3, e1, e2] at this
      exact (⟨this.1, this.2.1, this.2.2.1, this.2.2.2.1, this.2.2.2.2.1,
        fun _ => this.2.2.2.2.2⟩ :
        (flt_isnan st1.min_value = false ∧ st1.min_value ∈ D)
        ∧ (flt_isnan st1.max_value = false ∧ st1.max_value ∈ D)
        ∧ Fp.le st1.min_value.toFp st1.max_value.toFp = true
        ∧ Fp.le st1.min_value.toFp st.min_value.toFp = true
        ∧ Fp.le st.max_value.toFp st1.max_value.toFp = true
        ∧ (flt_isnan b = false →
            Fp.le st1.min_value.toFp b.toFp = true
              ∧ Fp.le b.toFp st1.max_value.toFp = true))
    rcases ite_ok_cases h with ⟨_, h2⟩ | ⟨_, h2⟩
    · rcases ite_ok_cases h2 with ⟨_, h3⟩ | ⟨_, h3⟩
      · cases h3
        exact key _ rfl rfl rfl
      · cases h3
        exact key _ rfl rfl rfl
    · rcases ite_ok_cases h2 with ⟨_, h3⟩ | ⟨_, h3⟩
      · cases h3
      · cases h3
        exact key _ rfl rfl rfl

theorem write_cell_nan_min_max (st st1 : FltScan) (b v : Float32)
    (h : write_cell st b = .ok (v, st1))
    (hmin : flt_isnan st.min_value = true) (hmax : flt_isnan st.max_value = true) :
    st1.min_value = st.min_value ∧ st1.max_value = st.max_value := by
  have key : ∀ st0 : FltScan, st1 = update_min_max st0 b → st0.min_value = st.min_value →
      st0.max_value = st.max_value →
      st1.min_value = st.min_value ∧ st1.max_value = st.max_value := fun st0 e3 e1 e2 => by
    rw [e3, update_min_max_nan st0 b (by rw [e1]; exact hmin) (by rw [e2]; exact hmax)]
    exact ⟨e1, e2⟩
  rw [write_cell] at h
  rcases ite_ok_cases h with ⟨_, h1⟩ | ⟨_, h1⟩
  · cases h1
    exact ⟨rfl, rfl⟩
  · rcases ite_ok_cases h1 with ⟨_, h2⟩ | ⟨_, h2⟩
    · rcases ite_ok_cases h2 with ⟨_, h3⟩ | ⟨_, h3⟩
      · cases h3
        exact key _ rfl rfl rfl
      · cases h3
        exact key _ rfl rfl rfl
    · rcases ite_ok_cases h2 with ⟨_, h3⟩ | ⟨_, h3⟩
      · cases h3
      · cases h3
        exact key _ rfl rfl rfl

theorem write_row_cons_ok (b : Float32) (bs vs : List Float32) (st st2 : FltScan)
    (h : write_row (b :: bs) st = .ok (vs, st2)) :
    ∃ v st1 vs1, write_cell st b = .ok (v, st1) ∧ write_row bs st1 = .ok (vs1, st2) := by
  rw [write_row] at h
  cases hc : write_cell st b with
  | error e =>
    rw [hc] at h
    cases h
  | ok p =>
    obtain ⟨v, st1⟩ := p
    rw [hc] at h
    simp only [] at h
    cases hr : write_row bs st1 with
    | error e =>
      rw [hr] at h
      cases h
    | ok q =>
      obtain ⟨vs1, st3⟩ := q
      rw [hr] at h
      cases h
      exact ⟨v, st1, vs1, rfl, hr⟩

/-- The scan of a run of values from a state whose minimum and maximum are values met
and in order: they end as the least and the greatest of the values of the run that are
not NaNs, and of the two at the start. -/
theorem write_row_min_max (D : List Float32) (l vs : List Float32) (st st2 : FltScan)
    (h : write_row l st = .ok (vs, st2)) (hl : ∀ v ∈ l, v ∈ D)
    (hmin : flt_isnan st.min_value = false ∧ st.min_value ∈ D)
    (hmax : flt_isnan st.max_value = false ∧ st.max_value ∈ D)
    (hord : Fp.le st.min_value.toFp st.max_value.toFp = true) :
    (flt_isnan st2.min_value = false ∧ st2.min_value ∈ D)
    ∧ (flt_isnan st2.max_value = false ∧ st2.max_value ∈ D)
    ∧ Fp.le st2.min_value.toFp st.min_value.toFp = true
    ∧ Fp.le st.max_value.toFp st2.max_value.toFp = true
    ∧ ∀ v ∈ l, flt_isnan v = false →
        Fp.le st2.min_value.toFp v.toFp = true ∧ Fp.le v.toFp st2.max_value.toFp = true := by
  induction l generalizing st vs with
  | nil =>
    rw [write_row] at h
    cases h
    exact ⟨hmin, hmax, fp_le_refl _ (flt_not_nan _ hmin.1), fp_le_refl _ (flt_not_nan _ hmax.1),
      fun v hv => absurd hv (List.not_mem_nil _)⟩
  | cons b bs ih =>
    obtain ⟨v, st1, vs1, hc, hr⟩ := write_row_cons_ok b bs vs st st2 h
    obtain ⟨a1, a2, a3, a4, a5, a6⟩ :=
      write_cell_min_max D st st1 b v hc (hl b (List.mem_cons_self _ _)) hmin hmax hord
    obtain ⟨b1, b2, b3, b4, b5⟩ :=
      ih vs1 st1 hr (fun w hw => hl w (List.mem_cons_of_mem _ hw)) a1 a2 a3
    refine ⟨b1, b2, fp_le_trans _ _ _ b3 a4, fp_le_trans _ _ _ a5 b4, ?_⟩
    intro w hw hwn
    rcases List.mem_cons.mp hw with e | e
    · subst e
      exact ⟨fp_le_trans _ _ _ b3 (a6 hwn).1, fp_le_trans _ _ _ (a6 hwn).2 b4⟩
    · exact b5 w e hwn

theorem write_row_nan_min_max (l vs : List Float32) (st st2 : FltScan)
    (h : write_row l st = .ok (vs, st2))
    (hmin : flt_isnan st.min_value = true) (hmax : flt_isnan st.max_value = true) :
    st2.min_value = st.min_value ∧ st2.max_value = st.max_value := by
  induction l generalizing st vs with
  | nil =>
    rw [write_row] at h
    cases h
    exact ⟨rfl, rfl⟩
  | cons b bs ih =>
    obtain ⟨v, st1, vs1, hc, hr⟩ := write_row_cons_ok b bs vs st st2 h
    obtain ⟨a1, a2⟩ := write_cell_nan_min_max st st1 b v hc hmin hmax
    obtain ⟨b1, b2⟩ := ih vs1 st1 hr (by rw [a1]; exact hmin) (by rw [a2]; exact hmax)
    exact ⟨b1.trans a1, b2.trans a2⟩

/-- A successful `write_flt_file` on an array of `nrows * ncols` values is one successful
scan of the array, whose final variables are returned. -/
theorem write_flt_file_ok (host_be : Bool) (nrows ncols : Nat) (data : List Float32)
    (w : FltWritten) (hlen : data.length = nrows * ncols)
    (hok : write_flt_file host_be nrows ncols data = .ok w) :
    ∃ buffer st, write_row data ⟨flt_m1e6, false, data.headD 0, data.headD 0⟩ = .ok (buffer, st)
      ∧ w = ⟨floats_to_bytes host_be buffer, st.nodata, st.min_value, st.max_value⟩ := by
  exact write_flt_file_ok_row host_be nrows ncols data hlen w hok

/-- C35. The minimum and the maximum of `write_flt_file` start as the first value of the
array (lines 215-216) and are compared with the values that are not NaNs. When the first
value is not a NaN, the `min_value` and `max_value` returned are values of the grid, not
NaNs, and are the least and the greatest of its values that are not NaNs, wherever the
NaNs are. When the first value is a NaN, no value compares lower or higher than it, and
`min_value` and `max_value` are returned as that NaN, whatever the other values are: the
claim fails there. -/
theorem flt_min_max (host_be : Bool) (nrows ncols : Nat) (x : Float32) (rest : List Float32)
    (w : FltWritten) (hlen : (x :: rest).length = nrows * ncols)
    (hok : write_flt_file host_be nrows ncols (x :: rest) = .ok w) :
    (flt_isnan x = true → w.min_value = x ∧ w.max_value = x)
    ∧ (flt_isnan x = false →
        (w.min_value ∈ x :: rest ∧ flt_isnan w.min_value = false
          ∧ ∀ v ∈ x :: rest, flt_isnan v = false → Fp.le w.min_value.toFp v.toFp = true)
        ∧ (w.max_value ∈ x :: rest ∧ flt_isnan w.max_value = false
          ∧ ∀ v ∈ x :: rest, flt_isnan v = false → Fp.le v.toFp w.max_value.toFp = true)) := by
  obtain ⟨buffer, st, hrow, rfl⟩ := write_flt_file_ok host_be nrows ncols _ w hlen hok
  simp only [List.headD_cons] at hrow
  constructor
  · intro hx
    exact write_row_nan_min_max _ _ _ _ hrow hx hx
  · intro hx
    obtain ⟨a1, a2, _, _, a5⟩ := write_row_min_max (x :: rest) _ _ _ _ hrow (fun v hv => hv)
      ⟨hx, List.mem_cons_self _ _⟩ ⟨hx, List.mem_cons_self _ _⟩
      (fp_le_refl _ (flt_not_nan x hx))
    exact ⟨⟨a1.2, a1.1, fun v hv hn => (a5 v hv hn).1⟩,
      ⟨a2.2, a2.1, fun v hv hn => (a5 v hv hn).2⟩⟩

/-- C35 at two 1-row grids on a little-endian host. For NaN, 1.0 the minimum and the
maximum returned are the NaN, not 1.0. For 2.0, NaN, 1.0 they are 1.0 and 2.0. -/
theorem flt_min_max_witness :
    (write_flt_file false 1 2 [2143289344, 1065353216]
        = .ok ⟨[0, 36, 116, 201, 0, 0, 128, 63], 3379831808, 2143289344, 2143289344⟩
      ∧ (flt_isnan 2143289344 = true →
          (2143289344 : Float32) = 2143289344 ∧ (2143289344 : Float32) = 2143289344))
    ∧ write_flt_file false 1 3 [1073741824, 2143289344, 1065353216]
        = .ok ⟨[0, 0, 0, 64, 0, 36, 116, 201, 0, 0, 128, 63], 3379831808, 1065353216,
            1073741824⟩
    ∧ (flt_isnan 1073741824 = false →
        ((1065353216 : Float32) ∈ [(1073741824 : Float32), 2143289344, 1065353216]
          ∧ flt_isnan 1065353216 = false
          ∧ ∀ v ∈ [(1073741824 : Float32), 2143289344, 1065353216], flt_isnan v = false →
              Fp.le (Float32.toFp 1065353216) v.toFp = true)
        ∧ ((1073741824 : Float32) ∈ [(1073741824 : Float32), 2143289344, 1065353216]
          ∧ flt_isnan 1073741824 = false
          ∧ ∀ v ∈ [(1073741824 : Float32), 2143289344, 1065353216], flt_isnan v = false →
              Fp.le v.toFp (Float32.toFp 1073741824) = true)) :=
  ⟨⟨by decide,
      (flt_min_max false 1 2 2143289344 [1065353216]
        ⟨[0, 36, 116, 201, 0, 0, 128, 63], 3379831808, 2143289344, 2143289344⟩
        (by decide) (by decide)).1⟩,
    by decide,
    (flt_min_max false 1 3 1073741824 [2143289344, 1065353216]
      ⟨[0, 0, 0, 64, 0, 36, 116, 201, 0, 0, 128, 63], 3379831808, 1065353216, 1073741824⟩
      (by decide) (by decide)).2⟩

theorem bil_row_append (a b : List Float32) (st : BilScan) :
    (bil_row (a ++ b) st).2 = (bil_row b (bil_row a st).2).2 := by
  induction a generalizing st with
  | nil => rfl
  | cons x xs ih =>
    simp only [List.cons_append, bil_row]
    exact ih _

/-- The row loop of `write_bil_file` leaves the variables that one scan of the values
leaves. -/
theorem bil_rows_state (be : Bool) (ncols n : Nat) (ptr : List Float32) (st : BilScan) :
    (bil_rows be ncols n ptr st).2 = (bil_row (ptr.take (ncols * n)) st).2 := by
  induction n generalizing ptr st with
  | zero => simp [bil_rows, bil_row]
  | succ n ih =>
    rw [bil_rows]
    simp only []
    rw [ih, Nat.mul_succ, Nat.add_comm (ncols * n) ncols, List.take_add, bil_row_append]

theorem bil_cell_snd (st : BilScan) (x : Float32) :
    (bil_cell st x).2 = if flt_isnan x then st else bil_min_max st (bil_sample x) := by
  simp only [bil_sample, bil_cell]
  split <;> rfl

/-- The minimum that a scan leaves is the least of the minimum at the start and of the
samples of the values that are not NaNs. -/
theorem bil_row_min (l : List Float32) (st : BilScan) :
    (bil_row l st).2.min_value ≤ st.min_value
    ∧ (∀ v ∈ l, flt_isnan v = false → (bil_row l st).2.min_value ≤ bil_sample v)
    ∧ ((bil_row l st).2.min_value = st.min_value
        ∨ ∃ v ∈ l, flt_isnan v = false ∧ (bil_row l st).2.min_value = bil_sample v) := by
  induction l generalizing st with
  | nil => exact ⟨le_refl _, fun v hv => absurd hv (List.not_mem_nil _), Or.inl rfl⟩
  | cons x xs ih =>
    obtain ⟨a1, a2, a3⟩ := ih (bil_cell st x).2
    have hstep : (bil_cell st x).2.min_value ≤ st.min_value
        ∧ (flt_isnan x = false → (bil_cell st x).2.min_value ≤ bil_sample x)
        ∧ ((bil_cell st x).2.min_value = st.min_value
          ∨ (flt_isnan x = false ∧ (bil_cell st x).2.min_value = bil_sample x)) := by
      rw [bil_cell_snd]
      by_cases hx : flt_isnan x = true
      · rw [if_pos hx]
        exact ⟨le_refl _, fun hc => absurd (hx.symm.trans hc) (by decide), Or.inl rfl⟩
      · rw [if_neg hx, bil_min_max]
        have hx2 : flt_isnan x = false := by simpa using hx
        by_cases h1 : bil_sample x < st.min_value
        · rw [if_pos h1]
          exact ⟨Nat.le_of_lt h1, fun _ => le_refl _, Or.inr ⟨hx2, rfl⟩⟩
        · rw [if_neg h1]
          by_cases h2 : bil_sample x > st.max_value
          · rw [if_pos h2]
            exact ⟨le_refl _, fun _ => Nat.le_of_not_lt h1, Or.inl rfl⟩
          · rw [if_neg h2]
            exact ⟨le_refl _, fun _ => Nat.le_of_not_lt h1, Or.inl rfl⟩
    simp only [bil_row]
    refine ⟨le_trans a1 hstep.1, ?_, ?_⟩
    · intro v hv hn
      rcases List.mem_cons.mp hv with e | e
      · subst e
        exact le_trans a1 (hstep.2.1 hn)
      · exact a2 v e hn
    · rcases a3 with e | ⟨v, hv, hn, e⟩
      · rcases hstep.2.2 with e2 | ⟨hn, e2⟩
        · exact Or.inl (e.trans e2)
        · exact Or.inr ⟨x, List.mem_cons_self _ _, hn, e.trans e2⟩
      · exact Or.inr ⟨v, List.mem_cons_of_mem _ hv, hn, e⟩

/-- The maximum that a scan leaves is the maximum at the start or the sample of a value
that is not a NaN. -/
theorem bil_row_max (l : List Float32) (st : BilScan) :
    (bil_row l st).2.max_value = st.max_value
      ∨ ∃ v ∈ l, flt_isnan v = false ∧ (bil_row l st).2.max_value = bil_sample v := by
  induction l generalizing st with
  | nil => exact Or.inl rfl
  | cons x xs ih =>
    have hstep : (bil_cell st x).2.max_value = st.max_value
        ∨ (flt_isnan x = false ∧ (bil_cell st x).2.max_value = bil_sample x) := by
      rw [bil_cell_snd]
      by_cases hx : flt_isnan x = true
      · rw [if_pos hx]
        exact Or.inl rfl
      · rw [if_neg hx, bil_min_max]
        have hx2 : flt_isnan x = false := by simpa using hx
        by_cases h1 : bil_sample x < st.min_value
        · rw [if_pos h1]
          exact Or.inl rfl
        · rw [if_neg h1]
          by_cases h2 : bil_sample x > st.max_value
          · rw [if_pos h2]
            exact Or.inr ⟨hx2, rfl⟩
          · rw [if_neg h2]
            exact Or.inl rfl
    simp only [bil_row]
    rcases ih (bil_cell st x).2 with e | ⟨v, hv, hn, e⟩
    · rcases hstep with e2 | ⟨hn, e2⟩
      · exact Or.inl (e.trans e2)
      · exact Or.inr ⟨x, List.mem_cons_self _ _, hn, e.trans e2⟩
    · exact Or.inr ⟨v, List.mem_cons_of_mem _ hv, hn, e⟩

/-- A sample that is lower than the minimum so far takes the first branch of lines
318-322, and the maximum is not looked at: over a run of values whose samples go strictly
down, all below the minimum at the start, the maximum stays as it was. -/
theorem bil_row_max_stale (l : List Float32) (st : BilScan)
    (hn : ∀ v ∈ l, flt_isnan v = false) (hlow : ∀ v ∈ l, bil_sample v < st.min_value)
    (hdec : (l.map bil_sample).Pairwise (fun a b => b < a)) :
    (bil_row l st).2.max_value = st.max_value := by
  induction l generalizing st with
  | nil => rfl
  | cons x xs ih =>
    have hx := hn x (List.mem_cons_self _ _)
    have h1 := hlow x (List.mem_cons_self _ _)
    rw [List.map_cons, List.pairwise_cons] at hdec
    have hst : (bil_cell st x).2 = { st with min_value := bil_sample x } := by
      rw [bil_cell_snd, hx, bil_min_max, if_pos h1]
      rfl
    simp only [bil_row]
    rw [hst, ih _ (fun v hv => hn v (List.mem_cons_of_mem _ hv))
      (fun v hv => hdec.1 _ (List.mem_map_of_mem _ hv)) hdec.2]

/-- C36. The minimum and the maximum of `write_bil_file` start at the opposite limits,
65534 and 1, and a sample is compared with the maximum only when it is not lower than
the minimum so far (the `else if` of line 320). On every successful call (there is one
for every `ncols` below `2^30`) the `min_value` returned is the least sample written for
a value that is not a NaN (65534 when there is none). The `max_value` returned is 1 or
such a sample, but not always the greatest: over a grid without NaN whose samples go
strictly down from one below 65534, a single cell included, every sample is a new minimum
and `max_value` is returned as 1, so that `min_value <= max_value` fails when a sample is
not 1. -/
theorem bil_min_max_values (be : Bool) (nrows ncols : Nat) (data : List Float32)
    (hlen : data.length = nrows * ncols) :
    (ncols < 2 ^ 30 → ∃ w, write_bil_file be nrows ncols data = .ok w)
    ∧ ∀ w, write_bil_file be nrows ncols data = .ok w →
      (∀ v ∈ data, flt_isnan v = false → w.min_value ≤ bil_sample v)
      ∧ (w.min_value = max_limit
          ∨ ∃ v ∈ data, flt_isnan v = false ∧ w.min_value = bil_sample v)
      ∧ (w.max_value = min_limit
          ∨ ∃ v ∈ data, flt_isnan v = false ∧ w.max_value = bil_sample v)
      ∧ ((∀ v ∈ data, flt_isnan v = false) → (∀ v ∈ data, bil_sample v < max_limit) →
          (data.map bil_sample).Pairwise (fun a b => b < a) →
          w.max_value = min_limit) := by
  refine ⟨fun hc => ⟨_, write_bil_file_of_lt be nrows ncols data hc⟩, fun w hok => ?_⟩
  have hst : ∀ st, (bil_rows be ncols nrows data st).2 = (bil_row data st).2 := by
    intro st
    rw [bil_rows_state, Nat.mul_comm ncols nrows, ← hlen, List.take_length]
  rw [write_bil_file_ok be nrows ncols data w hok]
  simp only [hst]
  obtain ⟨_, a2, a3⟩ := bil_row_min data ⟨max_limit, min_limit⟩
  exact ⟨a2, a3, bil_row_max data _, fun hn hlow hdec => bil_row_max_stale data _ hn hlow hdec⟩

/-- C36 at two grids on a little-endian host: for the single cell 100.0 the values
returned are `min_value = 100` and `max_value = 1`; for the row 3.0, 2.0, 1.0 they are
`min_value = 1` and `max_value = 1` while the sample 3 is written. -/
theorem bil_min_max_values_witness :
    write_bil_file false 1 1 [1120403456] = .ok ⟨[100, 0], 0, 100, 1⟩
    ∧ write_bil_file false 1 3 [1077936128, 1073741824, 1065353216]
        = .ok ⟨[3, 0, 2, 0, 1, 0], 0, 1, 1⟩
    ∧ ((∀ v ∈ [(1120403456 : Float32)], flt_isnan v = false) →
        (∀ v ∈ [(1120403456 : Float32)], bil_sample v < max_limit) →
        ([(1120403456 : Float32)].map bil_sample).Pairwise (fun a b => b < a) →
        (⟨[100, 0], 0, 100, 1⟩ : BilWritten).max_value = min_limit) :=
  ⟨by decide, by decide,
    ((bil_min_max_values false 1 1 [1120403456] (by decide)).2 ⟨[100, 0], 0, 100, 1⟩
      (by decide)).2.2.2⟩

/-! ## The sentinel once a NaN has been met -/

theorem sentinel_values_eq :
    sentinel_values = List.iterate sentinel_times_ten flt_m1e6 34 := by decide

theorem sentinel_values_closed :
    sentinel_values.all (fun v => decide (sentinel_times_ten v ∈ sentinel_values)) = true := by
  decide

theorem sentinel_values_negative :
    sentinel_values.all (fun v => Fp.lt v.toFp dbl_0) = true := by decide

theorem sentinel_power_mem (k : Nat) : sentinel_power k ∈ sentinel_values := by
  induction k with
  | zero => decide
  | succ n ih =>
    have := List.all_eq_true.mp sentinel_values_closed _ ih
    rw [sentinel_power]
    exact of_decide_eq_true this

theorem sentinel_step_eq (s v : Float32) :
    sentinel_step s v = s ∨ sentinel_step s v = sentinel_times_ten s := by
  rw [sentinel_step]
  split
  · exact Or.inr rfl
  · exact Or.inl rfl

/-- A run of values multiplies the sentinel by 10 at most once for each value. -/
theorem sentinel_fold_power (l : List Float32) (j : Nat) :
    ∃ k, k ≤ l.length ∧ l.foldl sentinel_step (sentinel_power j) = sentinel_power (j + k) := by
  induction l generalizing j with
  | nil => exact ⟨0, le_refl _, rfl⟩
  | cons v vs ih =>
    rw [List.foldl_cons]
    rcases sentinel_step_eq (sentinel_power j) v with e | e
    · obtain ⟨k, hk, h⟩ := ih j
      exact ⟨k, by rw [List.length_cons]; omega, by rw [e, h]⟩
    · obtain ⟨k, hk, h⟩ := ih (j + 1)
      refine ⟨k + 1, by rw [List.length_cons]; omega, ?_⟩
      rw [e, show sentinel_times_ten (sentinel_power j) = sentinel_power (j + 1) from rfl, h,
        Nat.add_assoc, Nat.add_comm 1 k]

/-- C37, as stated, does not hold. The sentinel is multiplied by 10 in `float`
arithmetic, and from the fifth product on the result is rounded: for the 1x6 grid -1.0e6,
-1.0e7, -1.0e8, -1.0e9, -1.0e10, NaN (little-endian host) the NaN is written as, and
`nodata` returned as, the `float` -12207031 * 2^13 = -99999997952, which lies strictly
between -10^11 and -10^10 and is no power of ten. After 33 products the sentinel is
minus infinity. -/
theorem sentinel_not_power_of_ten :
    write_flt_file false 1 6
        [3379831808, 3407386240, 3435052064, 3463342888, 3491037945, 2143289344]
      = .ok ⟨[0, 36, 116, 201, 128, 150, 24, 203, 32, 188, 190, 204, 40, 107, 110, 206,
              249, 2, 21, 208, 183, 67, 186, 209], 3518645175, 3491037945, 3379831808⟩
    ∧ Float32.toFp 3518645175 = .fin true 12207031 13
    ∧ Fp.lt (Fp.of_int (-100000000000)) (Float32.toFp 3518645175) = true
    ∧ Fp.lt (Float32.toFp 3518645175) (Fp.of_int (-10000000000)) = true
    ∧ (sentinel_power 33).toFp = .inf true := by
  decide

/-- C37, amended. Let `x` be the first NaN of a grid of `nrows * ncols` values, `pre` the
values before it and `post` those after it, and let `write_flt_file` succeed. The nodata
value returned is the sentinel reached when `x` is met, `sentinel_after pre`; the file
holds the values of `pre`, then that value for `x`, then `post` with every NaN replaced by
that same value, so the sentinel does not change once a NaN has been replaced. It is the
initial -1.0e6 multiplied by 10 in `float` arithmetic `k` times, with `k` at most the
number of values before the first NaN: one of the 34 values `sentinel_values`, all lower
than zero. For `k` up to 4 it is -10^(6+k) exactly; from `k = 5` on the products are
rounded (`sentinel_power 5` is not -10^11), and from `k = 33` on it is minus infinity. -/
theorem sentinel_frozen (host_be : Bool) (nrows ncols : Nat) (pre post : List Float32)
    (x : Float32) (w : FltWritten) (hlen : (pre ++ x :: post).length = nrows * ncols)
    (hpre : ∀ v ∈ pre, flt_isnan v = false) (hx : flt_isnan x = true)
    (hok : write_flt_file host_be nrows ncols (pre ++ x :: post) = .ok w) :
    w.nodata = sentinel_after pre
    ∧ w.bytes = floats_to_bytes host_be (pre ++ w.nodata :: post.map (replace_nan w.nodata))
    ∧ (∃ k, k ≤ pre.length ∧ w.nodata = sentinel_power k)
    ∧ w.nodata ∈ sentinel_values
    ∧ Fp.lt w.nodata.toFp dbl_0 = true
    ∧ (∀ k, k ≤ 4 →
        Fp.eq (sentinel_power k).toFp (Fp.of_int (-((10 : Int) ^ (6 + k)))) = true)
    ∧ Fp.eq (sentinel_power 5).toFp (Fp.of_int (-((10 : Int) ^ 11))) = false
    ∧ ∀ k, 33 ≤ k → (sentinel_power k).toFp = .inf true := by
  obtain ⟨buffer, st, hrow, rfl⟩ := write_flt_file_ok host_be nrows ncols _ w hlen hok
  obtain ⟨a1, a2⟩ := write_row_first_nan pre post x
    ⟨flt_m1e6, false, (pre ++ x :: post).headD 0, (pre ++ x :: post).headD 0⟩ hpre hx rfl
  have hnod : st.nodata = sentinel_after pre
      ∧ buffer = pre ++ sentinel_after pre :: post.map (replace_nan (sentinel_after pre)) := by
    by_cases hex : ∃ v ∈ post, flt_isnan v = false
        ∧ Fp.eq v.toFp (pre.foldl sentinel_step flt_m1e6).toFp = true
    · rw [a1 hex] at hrow
      cases hrow
    · obtain ⟨st2, b1, b2⟩ := a2 (fun v hv hn => by
        by_contra hc
        exact hex ⟨v, hv, hn, by simpa using hc⟩)
      rw [b1] at hrow
      cases hrow
      exact ⟨b2, rfl⟩
  obtain ⟨k, hk, hpow⟩ := sentinel_fold_power pre 0
  rw [Nat.zero_add] at hpow
  have hpw : st.nodata = sentinel_power k := hnod.1.trans hpow
  have hmem : st.nodata ∈ sentinel_values := by
    rw [hpw]
    exact sentinel_power_mem k
  refine ⟨hnod.1, ?_, ⟨k, hk, hpw⟩, hmem,
    List.all_eq_true.mp sentinel_values_negative _ hmem, ?_, by decide, ?_⟩
  · simp only []
    rw [hnod.2, hnod.1]
  · intro j hj
    interval_cases j <;> decide
  · intro j hj
    obtain ⟨d, rfl⟩ : ∃ d, j = 33 + d := ⟨j - 33, by omega⟩
    induction d with
    | zero => decide
    | succ n ih =>
      have e : sentinel_power (33 + (n + 1)) = sentinel_times_ten (sentinel_power (33 + n)) :=
        rfl
      rw [e, sentinel_times_ten, ih (by omega)]
      decide

/-- C37 at the 2x2 grid -1.0e7, NaN, 1.0, NaN on a little-endian host: the value -1.0e7
moves the sentinel to -1.0e7, and both NaNs are written as -1.0e7, which is the nodata
value returned. -/
theorem sentinel_frozen_witness :
    write_flt_file false 2 2 [3407386240, 2143289344, 1065353216, 2143289345]
      = .ok ⟨[128, 150, 24, 203, 128, 150, 24, 203, 0, 0, 128, 63, 128, 150, 24, 203],
          3407386240, 3407386240, 1065353216⟩
    ∧ (3407386240 : Float32) = sentinel_after [3407386240]
    ∧ ([128, 150, 24, 203, 128, 150, 24, 203, 0, 0, 128, 63, 128, 150, 24, 203] : List Byte)
        = floats_to_bytes false ([3407386240] ++ (3407386240 : Float32)
            :: [(1065353216 : Float32), 2143289345].map (replace_nan 3407386240))
    ∧ (∃ k, k ≤ [(3407386240 : Float32)].length ∧ (3407386240 : Float32) = sentinel_power k)
    ∧ Fp.lt (Float32.toFp 3407386240) dbl_0 = true :=
  have h := sentinel_frozen false 2 2 [3407386240] [1065353216, 2143289345] 2143289344
    ⟨[128, 150, 24, 203, 128, 150, 24, 203, 0, 0, 128, 63, 128, 150, 24, 203],
      3407386240, 3407386240, 1065353216⟩ (by decide)
    (forall_mem_of_all_not _ _ (by decide)) (by decide) (by decide)
  ⟨by decide, h.1, h.2.1, h.2.2.1, h.2.2.2.2.1⟩

/-! ## The world file and the header, in exact arithmetic -/

theorem cell_dim_in_dbl (n : Int) (lo hi : Fp) : cell_dim_in dbl_arith n lo hi = cell_dim n lo hi :=
  rfl

theorem square_cells_in_dbl (nrows ncols : Int) (xmin xmax ymin ymax : Fp) :
    square_cells_in dbl_arith nrows ncols xmin xmax ymin ymax
      = square_cells nrows ncols xmin xmax ymin ymax := rfl

theorem harmonic_mean_in_dbl (xdim ydim : Fp) :
    harmonic_mean_in dbl_arith xdim ydim = harmonic_mean xdim ydim := rfl

/-- The text of the world file is that of the six values in `double` arithmetic. -/
theorem write_tfw_file_values (nrows ncols : Int) (xmin xmax ymin ymax : Fp) :
    write_tfw_file nrows ncols xmin xmax ymin ymax
      = ((tfw_values dbl_arith nrows ncols xmin xmax ymin ymax).map tfw_line).flatten := by
  simp only [write_tfw_file, tfw_values, List.map_cons, List.map_nil, List.flatten_cons,
    List.flatten_nil, List.append_nil, List.append_assoc]
  rfl

/-- The corners of a successful parse with the origin keywords `ulxmap` and `ulymap` are
those of the formulas in `double` arithmetic. -/
theorem hdr_resolve_upper_left (v : HdrVars) (r : HdrInfo) (h : hdr_resolve v = .ok r)
    (hx : v.xcoord_type = 3) (hy : v.ycoord_type = 3) :
    (r.xmin, r.xmax, r.ymin, r.ymax)
      = upper_left_corners dbl_arith v.nrows v.ncols v.xcoord v.ycoord v.xdim v.ydim := by
  obtain ⟨_, _, _, _, _, _, _, _, _, _, _, e1, e2, e3, e4⟩ := hdr_resolve_ok v r h
  rw [e1, e2, e3, e4, hx, hy]
  simp only [show ¬((3 : Nat) = 1) by decide, show ¬((3 : Nat) = 2) by decide, if_false]
  rfl

/-- C38. World file and header agree, in exact arithmetic. For all numbers of rows and
columns from 1 on and every box with `xmin < xmax` and `ymin < ymax`, let the six values
of the world file be computed by the formulas of `write_tfw_file` over the rational
numbers. The corners that the formulas of `read_hdr_file` give, over the rational numbers,
for `ulxmap` and `ulymap` equal to the fifth and the sixth value, `xdim` equal to the first
and `ydim` equal to the negation of the fourth, with the same `ncols` and `nrows`, are
`xmin`, `xmax`, `ymin` and `ymax`. The same formulas over `double`, every operation
rounded, are the program: the text of `write_tfw_file` is that of `tfw_values`, and the
corners of a successful parse with `ulxmap` and `ulymap` are `upper_left_corners`. -/
theorem world_file_agrees_with_header (nrows ncols : Int) (xmin xmax ymin ymax : ℚ)
    (hr : 1 ≤ nrows) (hc : 1 ≤ ncols) (hx : xmin < xmax) (hy : ymin < ymax) :
    (∃ w1 w4 w5 w6, tfw_values exact_arith nrows ncols xmin xmax ymin ymax
          = [w1, 0, 0, w4, w5, w6]
        ∧ upper_left_corners exact_arith nrows ncols w5 w6 w1 (-w4)
          = (xmin, xmax, ymin, ymax))
    ∧ (∀ (a b c d : Fp), write_tfw_file nrows ncols a b c d
        = ((tfw_values dbl_arith nrows ncols a b c d).map tfw_line).flatten)
    ∧ (∀ (v : HdrVars) (r : HdrInfo), hdr_resolve v = .ok r → v.xcoord_type = 3 →
        v.ycoord_type = 3 →
        (r.xmin, r.xmax, r.ymin, r.ymax)
          = upper_left_corners dbl_arith v.nrows v.ncols v.xcoord v.ycoord v.xdim v.ydim) := by
  refine ⟨⟨_, _, _, _, rfl, ?_⟩, write_tfw_file_values nrows ncols, hdr_resolve_upper_left⟩
  have hn : (0 : ℚ) < (nrows : ℚ) := by exact_mod_cast (by omega : (0 : Int) < nrows)
  have hm : (0 : ℚ) < (ncols : ℚ) := by exact_mod_cast (by omega : (0 : Int) < ncols)
  have hxd : ¬((xmax - xmin) / (ncols : ℚ) < 0) := not_lt.mpr (div_nonneg (by linarith) hm.le)
  have hyd : ¬(-(-((ymax - ymin) / (nrows : ℚ))) < 0) := by
    rw [neg_neg]
    exact not_lt.mpr (div_nonneg (by linarith) hn.le)
  simp only [upper_left_corners, exact_arith, cell_dim_in, decide_eq_true_eq, hxd, hyd,
    if_false]
  refine Prod.ext ?_ (Prod.ext ?_ (Prod.ext ?_ ?_))
  · simp only []
    ring
  · simp only []
    field_simp
    ring
  · simp only []
    field_simp
    ring
  · simp only []
    ring

/-- C38 at the 2x2 grid on the box from (0, 0) to (2, 2): the world file values are 1, 0,
0, -1, 1/2, 3/2, and the corners resolved from them are 0, 2, 0, 2. -/
theorem world_file_agrees_with_header_witness :
    ∃ w1 w4 w5 w6, tfw_values exact_arith 2 2 0 2 0 2 = [w1, 0, 0, w4, w5, w6]
      ∧ upper_left_corners exact_arith 2 2 w5 w6 w1 (-w4) = ((0 : ℚ), (2 : ℚ), (0 : ℚ), (2 : ℚ)) :=
  (world_file_agrees_with_header 2 2 0 2 0 2 (by decide) (by decide) (by norm_num)
    (by norm_num)).1

/-! ## The guard of the harmonic mean -/

theorem of_int_pos (n : Int) (hn : 1 ≤ n) : Fp.of_int n = .fin false n.natAbs 0 := by
  rw [Fp.of_int, decide_eq_false (by omega)]

/-- A quotient within a quarter of a count that is at least 1 is a finite positive
number: the test of lines 374-375 fails for a NaN, an infinity, a zero and a negative
number. -/
theorem guard_positive (q : Fp) (n : Int) (hn : 1 ≤ n)
    (h : Fp.lt (Fp.abs (Fp.sub64 q (Fp.of_int n))) dbl_quarter = true) :
    ∃ m e, q = .fin false m e ∧ 0 < m := by
  have hN : (1 : ℚ) ≤ (n.natAbs : ℚ) := by
    have : 1 ≤ n.natAbs := by omega
    exact_mod_cast this
  rw [of_int_pos n hn, Fp.sub64, Fp.neg] at h
  simp only [Bool.not_false] at h
  cases q with
  | nan => simp [Fp.add64, Fp.abs, Fp.lt] at h
  | inf s => simp [Fp.add64, Fp.abs, Fp.lt, dbl_quarter] at h
  | fin nq m e =>
    by_cases hpos : nq = false ∧ 0 < m
    · exact ⟨m, e, by rw [hpos.1], hpos.2⟩
    · exfalso
      have hq : (Fp.fin nq m e).toRat ≤ 0 := by
        cases nq with
        | true => exact toRat_neg_le m e
        | false =>
          have : m = 0 := by
            by_contra hc
            exact hpos ⟨rfl, Nat.pos_of_ne_zero hc⟩
          rw [this]
          simp [Fp.toRat]
      have hs : (Fp.fin true n.natAbs 0).toRat = -(n.natAbs : ℚ) := by
        rw [toRat_true, zpow_zero, mul_one]
      rcases add64_fin_cases nq true m n.natAbs e 0 with ⟨_, h0⟩ | ⟨M, b, hM, ⟨_, hv⟩ | ⟨hD, hv⟩⟩
      · rw [hs] at h0
        linarith
      · rw [hs] at hv
        have := mag_nonneg M b
        linarith
      · rw [hs] at hv
        have h1 : ((1 : Nat) : ℚ) * (2 : ℚ) ^ (0 : Int) ≤ (M : ℚ) * (2 : ℚ) ^ b := by
          rw [Nat.cast_one, zpow_zero, one_mul]
          linarith
        rw [hD] at h
        rcases round64_ge_double true M b 1 0 (by norm_num) (by norm_num) h1 with hr | ⟨hr, hge⟩
        · rw [hr] at h
          simp [Fp.abs, Fp.lt, dbl_quarter] at h
        · rw [hr] at h
          simp only [Fp.abs] at h
          have hlt := (lt_fin_iff false false _ 1 _ (-2)).mp h
          rw [toRat_pos, toRat_pos] at hlt
          rw [Nat.cast_one, zpow_zero, one_mul] at hge
          have e4 : ((1 : Nat) : ℚ) * (2 : ℚ) ^ (-2 : Int) = 1 / 4 := by norm_num
          rw [e4] at hlt
          linarith

theorem ratio64_cases (neg : Bool) (a b : Nat) :
    Fp.ratio64 neg a b = .inf neg
    ∨ Fp.ratio64 neg a b
        = .fin neg (round_ratio 53 (-1074) a b).1 (round_ratio 53 (-1074) a b).2 := by
  rw [Fp.ratio64]
  split
  · exact Or.inl rfl
  · exact Or.inr rfl

/-- A quotient that is a finite positive number comes from two finite numbers of the
same sign, neither of them zero. -/
theorem div_positive (W y : Fp) (m : Nat) (e : Int) (hm : 0 < m)
    (h : Fp.div64 W y = .fin false m e) :
    ∃ s mw ew my ey, W = .fin s mw ew ∧ y = .fin s my ey ∧ 0 < mw ∧ 0 < my := by
  cases W with
  | nan => cases y <;> simp [Fp.div64] at h
  | inf nw => cases y <;> simp [Fp.div64] at h
  | fin nw mw ew =>
    cases y with
    | nan => simp [Fp.div64] at h
    | inf ny =>
      simp only [Fp.div64, Fp.fin.injEq] at h
      omega
    | fin ny my ey =>
      simp only [Fp.div64] at h
      by_cases h0 : my = 0
      · rw [if_pos h0] at h
        split at h <;> cases h
      · rw [if_neg h0] at h
        rcases ratio64_cases (nw != ny) (mw * 2 ^ (ew - ey).toNat) (my * 2 ^ (ey - ew).toNat)
          with hr | hr
        · rw [hr] at h
          cases h
        · rw [hr] at h
          simp only [Fp.fin.injEq] at h
          obtain ⟨hs, hm1, _⟩ := h
          have hsign : nw = ny := by
            cases nw <;> cases ny <;> first | rfl | cases hs
          have hmw : 0 < mw := by
            by_contra hc
            have : mw = 0 := by omega
            rw [this, Nat.zero_mul, round_ratio, if_pos rfl] at hm1
            simp only [] at hm1
            omega
          exact ⟨ny, mw, ew, my, ey, by rw [hsign], rfl, hmw, Nat.pos_of_ne_zero h0⟩

/-- The cell dimension over a count that is at least 1 has the sign of the difference. -/
theorem cell_dim_sign (n : Int) (hn : 1 ≤ n) (lo hi : Fp) (s s2 : Bool) (mw mx : Nat)
    (ew ex : Int) (hW : Fp.sub64 hi lo = .fin s mw ew) (hx : cell_dim n lo hi = .fin s2 mx ex) :
    s2 = s ∧ Fp.is_double (.fin s2 mx ex) = true := by
  rw [cell_dim, hW, of_int_pos n hn] at hx
  simp only [Fp.div64] at hx
  rw [if_neg (by omega)] at hx
  have hd := ratio64_is_double (s != false) (mw * 2 ^ (ew - 0).toNat)
    (n.natAbs * 2 ^ (0 - ew).toNat)
  rw [hx] at hd
  refine ⟨?_, hd⟩
  rcases ratio64_cases (s != false) (mw * 2 ^ (ew - 0).toNat) (n.natAbs * 2 ^ (0 - ew).toNat)
    with hr | hr
  · rw [hr] at hx
    cases hx
  · rw [hr] at hx
    simp only [Fp.fin.injEq] at hx
    rw [← hx.1]
    cases s <;> rfl

/-- The sum of two finite `double` numbers of the same sign, neither of them zero, is
not zero: it is an infinity or a finite number of that sign. -/
theorem add64_same_sign (s : Bool) (mx my : Nat) (ex ey : Int) (hx : 0 < mx) (hy : 0 < my)
    (hd : Fp.is_double (.fin s mx ex) = true) :
    Fp.eq (Fp.add64 (.fin s mx ex) (.fin s my ey)) dbl_0 = false
      ∧ (Fp.add64 (.fin s mx ex) (.fin s my ey)).has_sign s = true := by
  obtain ⟨d1, d2, _⟩ := is_double_fin s mx ex hd
  have px : (0 : ℚ) < (mx : ℚ) * (2 : ℚ) ^ ex :=
    mul_pos (by exact_mod_cast hx) (zpow_pos (by norm_num) _)
  have py : (0 : ℚ) < (my : ℚ) * (2 : ℚ) ^ ey :=
    mul_pos (by exact_mod_cast hy) (zpow_pos (by norm_num) _)
  have key : ∀ (M : Nat) (b : Int), (mx : ℚ) * (2 : ℚ) ^ ex ≤ (M : ℚ) * (2 : ℚ) ^ b →
      Fp.eq (Fp.round64 (.fin s M b)) dbl_0 = false
        ∧ (Fp.round64 (.fin s M b)).has_sign s = true := by
    intro M b hle
    refine ⟨?_, has_sign_round64 s M b⟩
    rcases round64_ge_double s M b mx ex d2 d1 hle with hr | ⟨hr, hge⟩
    · rw [hr]
      rfl
    · rw [hr]
      have hne : ¬(Fp.eq (.fin s (round_rne 53 (-1074) M b).1 (round_rne 53 (-1074) M b).2)
          dbl_0 = true) := by
        rw [dbl_0, eq_fin_iff]
        have z : (Fp.fin false 0 0).toRat = 0 := by simp [Fp.toRat]
        rw [z]
        cases s with
        | false =>
          rw [toRat_pos]
          linarith
        | true =>
          rw [toRat_true]
          linarith
      simpa using hne
  cases s with
  | false =>
    rcases add64_fin_cases false false mx my ex ey with ⟨_, h0⟩ | ⟨M, b, _, ⟨hD, hv⟩ | ⟨_, hv⟩⟩
    · rw [toRat_pos, toRat_pos] at h0
      linarith
    · rw [toRat_pos, toRat_pos] at hv
      rw [hD]
      exact key M b (by linarith)
    · rw [toRat_pos, toRat_pos] at hv
      have := mag_nonneg M b
      linarith
  | true =>
    rcases add64_fin_cases true true mx my ex ey with ⟨_, h0⟩ | ⟨M, b, _, ⟨_, hv⟩ | ⟨hD, hv⟩⟩
    · rw [toRat_true, toRat_true] at h0
      linarith
    · rw [toRat_true, toRat_true] at hv
      have := mag_nonneg M b
      linarith
    · rw [toRat_true, toRat_true] at hv
      rw [hD]
      exact key M b (by linarith)

/-- When the test of lines 374-375 holds, the two cell dimensions are finite numbers of
the same sign, neither of them zero, and their sum is not zero. -/
theorem square_cells_guard (nrows ncols : Int) (hr : 1 ≤ nrows) (hc : 1 ≤ ncols)
    (xmin xmax ymin ymax : Fp) (h : square_cells nrows ncols xmin xmax ymin ymax = true) :
    ∃ s mx ex my ey, cell_dim ncols xmin xmax = .fin s mx ex
      ∧ cell_dim nrows ymin ymax = .fin s my ey ∧ 0 < mx ∧ 0 < my
      ∧ Fp.eq (Fp.add64 (cell_dim ncols xmin xmax) (cell_dim nrows ymin ymax)) dbl_0 = false
      ∧ (Fp.add64 (cell_dim ncols xmin xmax) (cell_dim nrows ymin ymax)).has_sign s = true := by
  rw [square_cells, Bool.and_eq_true] at h
  obtain ⟨h1, h2⟩ := h
  obtain ⟨m1, e1, hq1, hm1⟩ := guard_positive _ ncols hc h1
  obtain ⟨m2, e2, hq2, hm2⟩ := guard_positive _ nrows hr h2
  obtain ⟨s, mw, ew, my, ey, hW, hy, hmw, hmy⟩ := div_positive _ _ m1 e1 hm1 hq1
  obtain ⟨s2, mh, eh, mx, ex, hH, hx, hmh, hmx⟩ := div_positive _ _ m2 e2 hm2 hq2
  obtain ⟨hs, hd⟩ := cell_dim_sign ncols hc xmin xmax s s2 mw mx ew ex hW hx
  subst hs
  obtain ⟨a1, a2⟩ := add64_same_sign s2 mx my ex ey hmx hmy hd
  rw [hx, hy]
  exact ⟨s2, mx, ex, my, ey, rfl, rfl, hmx, hmy, a1, a2⟩

/-- The harmonic mean of two positive numbers that agree to within a quarter of a cell,
in exact arithmetic. -/
theorem harmonic_core (x y n m : ℚ) (hx : 0 < x) (hy : 0 < y)
    (h1 : |n * x / y - n| < 1 / 4) (h2 : |m * y / x - m| < 1 / 4) :
    min x y ≤ 2 * x * y / (x + y) ∧ 2 * x * y / (x + y) ≤ max x y
      ∧ |2 * x * y / (x + y) * n - n * x| < |2 * x * y / (x + y)| / 8
      ∧ |2 * x * y / (x + y) * m - m * y| < |2 * x * y / (x + y)| / 8 := by
  have hxy : 0 < x + y := by linarith
  have hH : 0 < 2 * x * y / (x + y) := by positivity
  have g1 : |n * x - n * y| < y / 4 := by
    have e : n * x / y - n = (n * x - n * y) / y := by
      field_simp
      ring
    rw [e, abs_div, abs_of_pos hy, div_lt_iff₀ hy] at h1
    linarith
  have g2 : |m * y - m * x| < x / 4 := by
    have e : m * y / x - m = (m * y - m * x) / x := by
      field_simp
      ring
    rw [e, abs_div, abs_of_pos hx, div_lt_iff₀ hx] at h2
    linarith
  refine ⟨?_, ?_, ?_, ?_⟩
  · rcases le_total x y with hle | hle
    · rw [min_eq_left hle, le_div_iff₀ hxy]
      nlinarith
    · rw [min_eq_right hle, le_div_iff₀ hxy]
      nlinarith
  · rcases le_total x y with hle | hle
    · rw [max_eq_right hle, div_le_iff₀ hxy]
      nlinarith
    · rw [max_eq_left hle, div_le_iff₀ hxy]
      nlinarith
  · have e : 2 * x * y / (x + y) * n - n * x = -(x * (n * x - n * y)) / (x + y) := by
      field_simp
      ring
    rw [e, abs_div, abs_neg, abs_mul, abs_of_pos hx, abs_of_pos hxy, abs_of_pos hH,
      div_lt_iff₀ hxy]
    have e2 : 2 * x * y / (x + y) / 8 * (x + y) = x * (y / 4) := by
      field_simp
      ring
    rw [e2]
    exact mul_lt_mul_of_pos_left g1 hx
  · have e : 2 * x * y / (x + y) * m - m * y = -(y * (m * y - m * x)) / (x + y) := by
      field_simp
      ring
    rw [e, abs_div, abs_neg, abs_mul, abs_of_pos hy, abs_of_pos hxy, abs_of_pos hH,
      div_lt_iff₀ hxy]
    have e2 : 2 * x * y / (x + y) / 8 * (x + y) = y * (x / 4) := by
      field_simp
      ring
    rw [e2]
    exact mul_lt_mul_of_pos_left g2 hy

/-- A quotient within a quarter of a count that is at least 1 is positive, in exact
arithmetic: the two numbers are not zero and have the same sign. -/
theorem exact_guard (W y n : ℚ) (hn : 1 ≤ n) (h : |W / y - n| < 1 / 4) :
    (0 < W ∧ 0 < y) ∨ (W < 0 ∧ y < 0) := by
  have h2 := (abs_lt.mp h).1
  have hq : 0 < W / y := by linarith
  rcases div_pos_iff.mp hq with hp | hp
  · exact Or.inl hp
  · exact Or.inr hp

/-- The test of lines 374-375 and the harmonic mean of line 378 in exact arithmetic. -/
theorem exact_cellsize (nrows ncols : Int) (hr : 1 ≤ nrows) (hc : 1 ≤ ncols)
    (xmin xmax ymin ymax : ℚ)
    (h : square_cells_in exact_arith nrows ncols xmin xmax ymin ymax = true) :
    0 < cell_dim_in exact_arith ncols xmin xmax * cell_dim_in exact_arith nrows ymin ymax
    ∧ cell_dim_in exact_arith ncols xmin xmax + cell_dim_in exact_arith nrows ymin ymax ≠ 0
    ∧ min (cell_dim_in exact_arith ncols xmin xmax) (cell_dim_in exact_arith nrows ymin ymax)
        ≤ harmonic_mean_in exact_arith (cell_dim_in exact_arith ncols xmin xmax)
            (cell_dim_in exact_arith nrows ymin ymax)
    ∧ harmonic_mean_in exact_arith (cell_dim_in exact_arith ncols xmin xmax)
          (cell_dim_in exact_arith nrows ymin ymax)
        ≤ max (cell_dim_in exact_arith ncols xmin xmax)
            (cell_dim_in exact_arith nrows ymin ymax)
    ∧ |harmonic_mean_in exact_arith (cell_dim_in exact_arith ncols xmin xmax)
          (cell_dim_in exact_arith nrows ymin ymax) * (ncols : ℚ) - (xmax - xmin)|
        < |harmonic_mean_in exact_arith (cell_dim_in exact_arith ncols xmin xmax)
            (cell_dim_in exact_arith nrows ymin ymax)| / 8
    ∧ |harmonic_mean_in exact_arith (cell_dim_in exact_arith ncols xmin xmax)
          (cell_dim_in exact_arith nrows ymin ymax) * (nrows : ℚ) - (ymax - ymin)|
        < |harmonic_mean_in exact_arith (cell_dim_in exact_arith ncols xmin xmax)
            (cell_dim_in exact_arith nrows ymin ymax)| / 8 := by
  have hn : (1 : ℚ) ≤ (ncols : ℚ) := by exact_mod_cast hc
  have hm : (1 : ℚ) ≤ (nrows : ℚ) := by exact_mod_cast hr
  have hn0 : (ncols : ℚ) ≠ 0 := by linarith
  have hm0 : (nrows : ℚ) ≠ 0 := by linarith
  simp only [square_cells_in, exact_arith, cell_dim_in, Bool.and_eq_true,
    decide_eq_true_eq] at h
  simp only [harmonic_mean_in, exact_arith, cell_dim_in]
  generalize hx : (xmax - xmin) / (ncols : ℚ) = x at h ⊢
  generalize hy : (ymax - ymin) / (nrows : ℚ) = y at h ⊢
  have eW : xmax - xmin = (ncols : ℚ) * x := by
    rw [← hx]
    field_simp
  have eH : ymax - ymin = (nrows : ℚ) * y := by
    rw [← hy]
    field_simp
  rw [eW, eH] at h ⊢
  obtain ⟨h1, h2⟩ := h
  have s1 := exact_guard _ _ _ hn h1
  have s2 := exact_guard _ _ _ hm h2
  have hnpos : (0 : ℚ) < (ncols : ℚ) := by linarith
  have hmpos : (0 : ℚ) < (nrows : ℚ) := by linarith
  rcases s1 with ⟨pw, py⟩ | ⟨pw, py⟩
  · have px : 0 < x := by
      rcases s2 with ⟨_, p⟩ | ⟨_, p⟩
      · exact p
      · exact pos_of_mul_pos_right pw hnpos.le
    obtain ⟨c1, c2, c3, c4⟩ := harmonic_core x y _ _ px py h1 h2
    exact ⟨mul_pos px py, by linarith, c1, c2, c3, c4⟩
  · have px : x < 0 := by
      by_contra hge
      have : 0 ≤ (ncols : ℚ) * x := mul_nonneg hnpos.le (not_lt.mp hge)
      linarith
    have h1n : |(ncols : ℚ) * -x / -y - (ncols : ℚ)| < 1 / 4 := by
      rw [mul_neg, neg_div_neg_eq]
      exact h1
    have h2n : |(nrows : ℚ) * -y / -x - (nrows : ℚ)| < 1 / 4 := by
      rw [mul_neg, neg_div_neg_eq]
      exact h2
    obtain ⟨c1, c2, c3, c4⟩ := harmonic_core (-x) (-y) _ _ (by linarith) (by linarith) h1n h2n
    have eHm : 2 * -x * -y / (-x + -y) = -(2 * x * y / (x + y)) := by
      rw [show -x + -y = -(x + y) by ring, show 2 * -x * -y = 2 * x * y by ring, div_neg]
    rw [eHm] at c1 c2 c3 c4
    rw [abs_neg] at c3 c4
    refine ⟨mul_pos_of_neg_of_neg px py, by linarith, ?_, ?_, ?_, ?_⟩
    · have e : min x y = -max (-x) (-y) := by
        rw [max_neg_neg, neg_neg]
      rw [e]
      linarith
    · have e : max x y = -min (-x) (-y) := by
        rw [min_neg_neg, neg_neg]
      rw [e]
      linarith
    · have e : 2 * x * y / (x + y) * (ncols : ℚ) - (ncols : ℚ) * x
          = -(-(2 * x * y / (x + y)) * (ncols : ℚ) - (ncols : ℚ) * -x) := by ring
      rw [e, abs_neg]
      exact c3
    · have e : 2 * x * y / (x + y) * (nrows : ℚ) - (nrows : ℚ) * y
          = -(-(2 * x * y / (x + y)) * (nrows : ℚ) - (nrows : ℚ) * -y) := by ring
      rw [e, abs_neg]
      exact c4

/-- C39, as stated, does not hold in the `double` arithmetic of the program. On the 1x1
grid on the box from (0, 0) to (x, x) with `x = 6964641597482092 * 2^-52` the two cell
dimensions are `x`, the `cellsize` branch is taken, and the harmonic mean computed is
`6964641597482091 * 2^-52`, lower than both: it does not lie between `xdim` and `ydim`.
With `x = 2^-600` the product `2.0 * xdim * ydim` underflows: the cell size emitted is 0,
the extent rebuilt from it is 0, and it differs from `xmax - xmin` by the whole cell,
which is not less than a quarter of it. -/
theorem harmonic_mean_outside_cells :
    (cell_dim 1 dbl_0 (.fin false 6964641597482092 (-52)) = .fin false 6964641597482092 (-52)
      ∧ square_cells 1 1 dbl_0 (.fin false 6964641597482092 (-52)) dbl_0
          (.fin false 6964641597482092 (-52)) = true
      ∧ harmonic_mean (.fin false 6964641597482092 (-52)) (.fin false 6964641597482092 (-52))
          = .fin false 6964641597482091 (-52)
      ∧ Fp.lt (.fin false 6964641597482091 (-52)) (.fin false 6964641597482092 (-52)) = true)
    ∧ cell_dim 1 dbl_0 (.fin false 1 (-600)) = .fin false 4503599627370496 (-652)
    ∧ square_cells 1 1 dbl_0 (.fin false 1 (-600)) dbl_0 (.fin false 1 (-600)) = true
    ∧ harmonic_mean (.fin false 4503599627370496 (-652)) (.fin false 4503599627370496 (-652))
        = .fin false 0 (-1074)
    ∧ Fp.mul64 (.fin false 0 (-1074)) (Fp.of_int 1) = .fin false 0 (-1074)
    ∧ Fp.abs (Fp.sub64 (Fp.sub64 (.fin false 1 (-600)) dbl_0) (.fin false 0 (-1074)))
        = .fin false 4503599627370496 (-652)
    ∧ Fp.lt (.fin false 4503599627370496 (-652))
        (Fp.mul64 dbl_quarter (.fin false 4503599627370496 (-652))) = false := by
  decide

/-- C39, amended. For all numbers of rows and columns from 1 on: whenever the `cellsize`
branch of `write_hdr_file` is taken, `xdim` and `ydim` are finite `double` numbers of the
same sign, neither of them zero, and the sum `xdim + ydim` by which line 378 divides is
not zero (it is a number of that sign, or an infinity). In exact arithmetic, with the
same formulas over the rational numbers, whenever the test of lines 374-375 holds the
cell dimensions have the same sign, their sum is not zero, the harmonic mean lies
between them inclusive, and the extents rebuilt from it, `cellsize * ncols` and
`cellsize * nrows`, differ from `xmax - xmin` and `ymax - ymin` by less than an eighth of
the cell size. The cell size emitted is the harmonic mean in `double` arithmetic, rounded
three times, of which neither holds in general. -/
theorem harmonic_mean_guarded (nrows ncols : Int) (hr : 1 ≤ nrows) (hc : 1 ≤ ncols) :
    (∀ xmin xmax ymin ymax : Fp, square_cells nrows ncols xmin xmax ymin ymax = true →
      ∃ s mx ex my ey, cell_dim ncols xmin xmax = .fin s mx ex
        ∧ cell_dim nrows ymin ymax = .fin s my ey ∧ 0 < mx ∧ 0 < my
        ∧ Fp.eq (Fp.add64 (cell_dim ncols xmin xmax) (cell_dim nrows ymin ymax)) dbl_0 = false
        ∧ (Fp.add64 (cell_dim ncols xmin xmax) (cell_dim nrows ymin ymax)).has_sign s = true)
    ∧ (∀ xmin xmax ymin ymax : ℚ,
      square_cells_in exact_arith nrows ncols xmin xmax ymin ymax = true →
      0 < cell_dim_in exact_arith ncols xmin xmax * cell_dim_in exact_arith nrows ymin ymax
      ∧ cell_dim_in exact_arith ncols xmin xmax + cell_dim_in exact_arith nrows ymin ymax ≠ 0
      ∧ min (cell_dim_in exact_arith ncols xmin xmax)
            (cell_dim_in exact_arith nrows ymin ymax)
          ≤ harmonic_mean_in exact_arith (cell_dim_in exact_arith ncols xmin xmax)
              (cell_dim_in exact_arith nrows ymin ymax)
      ∧ harmonic_mean_in exact_arith (cell_dim_in exact_arith ncols xmin xmax)
            (cell_dim_in exact_arith nrows ymin ymax)
          ≤ max (cell_dim_in exact_arith ncols xmin xmax)
              (cell_dim_in exact_arith nrows ymin ymax)
      ∧ |harmonic_mean_in exact_arith (cell_dim_in exact_arith ncols xmin xmax)
            (cell_dim_in exact_arith nrows ymin ymax) * (ncols : ℚ) - (xmax - xmin)|
          < |harmonic_mean_in exact_arith (cell_dim_in exact_arith ncols xmin xmax)
              (cell_dim_in exact_arith nrows ymin ymax)| / 8
      ∧ |harmonic_mean_in exact_arith (cell_dim_in exact_arith ncols xmin xmax)
            (cell_dim_in exact_arith nrows ymin ymax) * (nrows : ℚ) - (ymax - ymin)|
          < |harmonic_mean_in exact_arith (cell_dim_in exact_arith ncols xmin xmax)
              (cell_dim_in exact_arith nrows ymin ymax)| / 8)
    ∧ (∀ xmin xmax ymin ymax : Fp,
      square_cells_in dbl_arith nrows ncols xmin xmax ymin ymax
          = square_cells nrows ncols xmin xmax ymin ymax
        ∧ harmonic_mean_in dbl_arith (cell_dim_in dbl_arith ncols xmin xmax)
            (cell_dim_in dbl_arith nrows ymin ymax)
          = harmonic_mean (cell_dim ncols xmin xmax) (cell_dim nrows ymin ymax)) :=
  ⟨fun xmin xmax ymin ymax h => square_cells_guard nrows ncols hr hc xmin xmax ymin ymax h,
    fun xmin xmax ymin ymax h => exact_cellsize nrows ncols hr hc xmin xmax ymin ymax h,
    fun _ _ _ _ => ⟨rfl, rfl⟩⟩

/-- C39 at the grid of 2 rows and 3 columns on the box from (0, 0) to (3, 2): the
`cellsize` branch is taken, both cell dimensions are 1, their sum is not zero, and the
harmonic mean is 1. -/
theorem harmonic_mean_guarded_witness :
    square_cells 2 3 dbl_0 (.fin false 3 0) dbl_0 (.fin false 2 0) = true
    ∧ (∃ s mx ex my ey, cell_dim 3 dbl_0 (.fin false 3 0) = .fin s mx ex
        ∧ cell_dim 2 dbl_0 (.fin false 2 0) = .fin s my ey ∧ 0 < mx ∧ 0 < my
        ∧ Fp.eq (Fp.add64 (cell_dim 3 dbl_0 (.fin false 3 0))
            (cell_dim 2 dbl_0 (.fin false 2 0))) dbl_0 = false
        ∧ (Fp.add64 (cell_dim 3 dbl_0 (.fin false 3 0))
            (cell_dim 2 dbl_0 (.fin false 2 0))).has_sign s = true)
    ∧ harmonic_mean (cell_dim 3 dbl_0 (.fin false 3 0)) (cell_dim 2 dbl_0 (.fin false 2 0))
        = .fin false 4503599627370496 (-52)
    ∧ harmonic_mean_in exact_arith (cell_dim_in exact_arith 3 0 3)
        (cell_dim_in exact_arith 2 0 2) = 1 :=
  ⟨by decide,
    (harmonic_mean_guarded 2 3 (by decide) (by decide)).1 dbl_0 (.fin false 3 0) dbl_0
      (.fin false 2 0) (by decide),
    by decide, by norm_num [harmonic_mean_in, exact_arith, cell_dim_in]⟩

/-! ## The file size that the encoders report -/

theorem big_call_length_le_pos (be : Bool) (width height : Nat) (sw : Option (List Byte))
    (c : BigTiffCall) (hc : c ∈ bigtiff_calls width height sw) (f : FileState)
    (h : f.bytes.length ≤ f.pos) :
    (BigTiffCall.run be f c).bytes.length ≤ (BigTiffCall.run be f c).pos := by
  have hne : ∀ tag type length offset, bigtiff_entry_bytes be tag type length offset ≠ [] := by
    intro tag type length offset h0
    have := length_bigtiff_entry_bytes be tag type length offset
    rw [h0] at this
    cases this
  have hplain : ∀ tag type length offset,
      (BigTiffCall.run be f (.plain tag type length offset)).bytes.length
        ≤ (BigTiffCall.run be f (.plain tag type length offset)).pos := by
    intro tag type length offset
    rw [BigTiffCall.run, WriteBigTIFFTag_eq_fwrite]
    exact Nat.le_of_eq (fwrite_length_eq_pos _ f (hne _ _ _ _) h)
  have hrat : ∀ tag num den,
      (BigTiffCall.run be f (.rational tag num den)).bytes.length
        ≤ (BigTiffCall.run be f (.rational tag num den)).pos := by
    intro tag num den
    simp only [BigTiffCall.run, WriteBigTIFFTag_eq_fwrite, WriteLong]
    have h4 : ∀ n, host_bytes be 4 n ≠ [] := by
      intro n h0
      have := length_host_bytes be 4 n
      rw [h0] at this
      cases this
    rw [length_fwrite _ _ (h4 _), length_fwrite _ _ (h4 _), fseek_cur_bytes,
      length_fwrite _ _ (hne _ _ _ _)]
    simp only [fwrite_pos, fseek_cur_pos, length_host_bytes, length_bigtiff_entry_bytes]
    omega
  simp only [bigtiff_calls, bigtiff_calls_a, bigtiff_calls_b, List.mem_append, List.mem_cons,
    List.mem_singleton, List.not_mem_nil, or_false] at hc
  rcases hc with (h1 | h1 | h1 | h1 | h1 | h1) | ((h1 | h1 | h1 | h1 | h1 | h1) | h1) | h1
  any_goals (subst h1; first | exact hplain _ _ _ _ | exact hrat _ _ _)
  by_cases hs : software_count sw ≠ 0
  · rw [if_pos hs, List.mem_singleton] at h1
    subst h1
    rw [software_count_eq sw hs]
    have hend := big_ascii_entry_end be f Software (sw.getD []) 24
    rw [BigTiffCall.run, hend]
    simp only [WriteBigTIFFAsciiTag, WriteBigTIFFTag_eq_fwrite, WriteString_eq_fwrite]
    rw [if_neg (by omega)]
    have hl := length_fwrite _ f
      (hne Software TIFFascii (strlen (sw.getD []) + 1) 24)
    rw [length_bigtiff_entry_bytes] at hl
    by_cases hcnt : strlen (sw.getD []) + 1 > 8
    · rw [if_pos hcnt, if_neg (by omega), hl]
      omega
    · rw [if_neg hcnt]
      simp only [fseek_cur_bytes]
      have hne2 : (sw.getD [] ++ [0]).take (strlen (sw.getD []) + 1) ++ [(0 : Byte)] ≠ [] := by
        simp
      rw [length_fwrite _ _ hne2, length_string_bytes, fseek_cur_bytes, hl, fseek_cur_pos,
        fwrite_pos, length_bigtiff_entry_bytes]
      split <;> omega
  · rw [if_neg hs] at h1
    cases h1

theorem big_calls_length_le_pos (be : Bool) (width height : Nat) (sw : Option (List Byte))
    (cs : List BigTiffCall) (hcs : ∀ c ∈ cs, c ∈ bigtiff_calls width height sw) (f : FileState)
    (h : f.bytes.length ≤ f.pos) :
    (cs.foldl (BigTiffCall.run be) f).bytes.length ≤ (cs.foldl (BigTiffCall.run be) f).pos := by
  induction cs generalizing f with
  | nil => exact h
  | cons c cs ih =>
    rw [List.foldl_cons]
    exact ih (fun d hd => hcs d (List.mem_cons_of_mem _ hd)) _
      (big_call_length_le_pos be width height sw c (hcs c (List.mem_cons_self _ _)) f h)

/-- On an empty sink the BigTIFF directory ends where the file ends. -/
theorem bigtiff_directory_length (be : Bool) (width height : Nat) (sw : Option (List Byte)) :
    (bigtiff_directory be ⟨[], 0⟩ width height sw).1.bytes.length
      = (bigtiff_directory be ⟨[], 0⟩ width height sw).1.pos := by
  rw [bigtiff_directory_eq]
  simp only []
  apply fwrite_length_eq_pos _ _ (by cases be <;> decide)
  apply big_calls_length_le_pos be width height sw _ (fun c hc => hc)
  have hb : bigtiff_before_entries be ⟨[], 0⟩ sw
      = fwrite (bigtiff_header_bytes be sw ++ host_bytes be 8 (tag_count sw)) ⟨[], 0⟩ := by
    simp only [bigtiff_before_entries, Write8Byte, bigtiff_header_eq_fwrite, fwrite_fwrite]
  rw [hb]
  exact Nat.le_of_eq (fwrite_length_eq_pos _ _ (by
    intro h0
    have := congrArg List.length h0
    simp [length_host_bytes] at this) (Nat.le_refl _))

/-- The length of the file that patching and the bitmap leave, from a directory that
ends where the file ends and holds the value slot at `off`. -/
theorem patched_file_length (be : Bool) (s : FileState) (off width height : Nat)
    (data : List Float32) (hlen : s.bytes.length = s.pos) (hoff : off + 4 ≤ s.pos) :
    (patch_and_payload be s off width height data).1.bytes.length
      = s.pos + (bitmap_written be width height data).length := by
  simp only [patch_and_payload, WriteBitmap_fst, WriteLong]
  have h1 : (fwrite (host_bytes be 4 s.pos) (fseek_set s off)).bytes.length = s.pos := by
    rw [length_fwrite _ _ (by cases be <;> simp [host_bytes, le_bytes]), fseek_set_bytes,
      fseek_set_pos, length_host_bytes]
    omega
  by_cases hb : bitmap_written be width height data = []
  · rw [hb, fwrite_nil, fseek_set_bytes, h1, List.length_nil, Nat.add_zero]
  · rw [length_fwrite _ _ hb, fseek_set_bytes, h1, fseek_set_pos]
    omega

theorem length_bitmap_bytes (be : Bool) (width height : Nat) (data : List Float32)
    (hlen : data.length = width * height) :
    (bitmap_bytes be width height data).length = width * height * 2 := by
  rw [bitmap_bytes_eq_samples, length_samples_to_bytes, ← hlen, List.take_length]
  omega

/-- The classic directory on an empty sink: where it ends, and what the finished file
holds at `offsetpos`, the value slot of the `StripOffsets` entry. -/
theorem classic_strip_offsets (be : Bool) (width height : Nat) (data : List Float32)
    (sw : Option (List Byte)) (hs : software_strlen sw + 2 < 2 ^ 31) :
    1 ≤ (tiff_directory be ⟨[], 0⟩ width height sw).1.pos
    ∧ (tiff_directory be ⟨[], 0⟩ width height sw).1.pos < 2 ^ 32
    ∧ (tiff_directory be ⟨[], 0⟩ width height sw).2 + 4
        ≤ (tiff_directory be ⟨[], 0⟩ width height sw).1.pos
    ∧ read_uint be (patch_and_payload be (tiff_directory be ⟨[], 0⟩ width height sw).1
          (tiff_directory be ⟨[], 0⟩ width height sw).2 width height data).1.bytes
        ((tiff_directory be ⟨[], 0⟩ width height sw).2 - 8) 2 = StripOffsets
    ∧ read_uint be (patch_and_payload be (tiff_directory be ⟨[], 0⟩ width height sw).1
          (tiff_directory be ⟨[], 0⟩ width height sw).2 width height data).1.bytes
        (tiff_directory be ⟨[], 0⟩ width height sw).2 4
      = (tiff_directory be ⟨[], 0⟩ width height sw).1.pos := by
  have hsb := length_software_bytes_le be sw
  rw [tiff_directory_eq]
  have hf0 := tiff_before_entries_pos be ⟨[], 0⟩ sw
  obtain ⟨e1, e2⟩ := tiff_entries_end_pos be ⟨[], 0⟩ width height sw
  have hA := tiff_calls_a_pos be (tiff_before_entries be ⟨[], 0⟩ sw) width height
  simp only [fwrite_pos, length_host_bytes]
  simp only [] at hf0
  generalize hS2 : (tiff_calls width height sw).foldl (TiffCall.run be)
    (tiff_before_entries be ⟨[], 0⟩ sw) = s2 at e1 e2 ⊢
  obtain ⟨_, p2, _, _⟩ := patch_and_payload_spec be (fwrite (host_bytes be 4 0) s2)
    ((tiff_before_entries be ⟨[], 0⟩ sw).pos + 68) width height data
    (by rw [fwrite_pos, length_host_bytes]; omega)
  simp only [fwrite_pos, length_host_bytes] at p2
  refine ⟨by omega, by omega, by omega, ?_, ?_⟩
  · have h := tags_in_finished_file be (TiffCall.run be) TiffCall.tagId 12 13 (by omega)
      (tiff_calls_a width height) _ (tiff_calls_entry_steps be width height sw)
      (tiff_before_entries be ⟨[], 0⟩ sw) (host_bytes be 4 0)
      ((tiff_before_entries be ⟨[], 0⟩ sw).pos + 68) width height data (by omega) (by omega)
      _ (strip_offsets_call_mem be (tiff_before_entries be ⟨[], 0⟩ sw) width height sw)
    rw [show tiff_calls_a width height ++ tiff_calls_b height (write_count width height) sw
      = tiff_calls width height sw from rfl, hS2] at h
    rw [show (tiff_before_entries be ⟨[], 0⟩ sw).pos + 68 - 8
      = (tiff_before_entries be ⟨[], 0⟩ sw).pos + 60 by omega]
    exact h
  · rw [p2]
    exact Nat.mod_eq_of_lt (by omega)

/-- The BigTIFF directory on an empty sink: where it ends, and what the finished file
holds at `offsetpos`, in the value slot of the `StripOffsets` entry. -/
theorem bigtiff_strip_offsets (be : Bool) (width height : Nat) (data : List Float32)
    (sw : Option (List Byte)) (hs : software_strlen sw + 2 < 2 ^ 31) :
    (bigtiff_directory be ⟨[], 0⟩ width height sw).1.pos < 2 ^ 32
    ∧ (bigtiff_directory be ⟨[], 0⟩ width height sw).2 + 4
        ≤ (bigtiff_directory be ⟨[], 0⟩ width height sw).1.pos
    ∧ read_uint be (patch_and_payload be (bigtiff_directory be ⟨[], 0⟩ width height sw).1
          (bigtiff_directory be ⟨[], 0⟩ width height sw).2 width height data).1.bytes
        ((bigtiff_directory be ⟨[], 0⟩ width height sw).2 - 12) 2 = StripOffsets
    ∧ read_uint be (patch_and_payload be (bigtiff_directory be ⟨[], 0⟩ width height sw).1
          (bigtiff_directory be ⟨[], 0⟩ width height sw).2 width height data).1.bytes
        (bigtiff_directory be ⟨[], 0⟩ width height sw).2 4
      = (bigtiff_directory be ⟨[], 0⟩ width height sw).1.pos := by
  have hsb := length_software_bytes_le be sw
  rw [bigtiff_directory_eq]
  have hf0 := bigtiff_before_entries_pos be ⟨[], 0⟩ sw
  obtain ⟨e1, e2⟩ := bigtiff_entries_end_pos be ⟨[], 0⟩ width height sw
  have hA := bigtiff_calls_a_pos be (bigtiff_before_entries be ⟨[], 0⟩ sw) width height
  simp only [fwrite_pos, length_host_bytes]
  simp only [] at hf0
  generalize hS2 : (bigtiff_calls width height sw).foldl (BigTiffCall.run be)
    (bigtiff_before_entries be ⟨[], 0⟩ sw) = s2 at e1 e2 ⊢
  obtain ⟨_, p2, _, _⟩ := patch_and_payload_spec be (fwrite (host_bytes be 8 0) s2)
    ((bigtiff_before_entries be ⟨[], 0⟩ sw).pos + 112) width height data
    (by rw [fwrite_pos, length_host_bytes]; omega)
  simp only [fwrite_pos, length_host_bytes] at p2
  refine ⟨by omega, by omega, ?_, ?_⟩
  · have h := tags_in_finished_file be (BigTiffCall.run be) BigTiffCall.tagId 20 21 (by omega)
      (bigtiff_calls_a width height) _ (bigtiff_calls_entry_steps be width height sw)
      (bigtiff_before_entries be ⟨[], 0⟩ sw) (host_bytes be 8 0)
      ((bigtiff_before_entries be ⟨[], 0⟩ sw).pos + 112) width height data (by omega) (by omega)
      _ (big_strip_offsets_call_mem be (bigtiff_before_entries be ⟨[], 0⟩ sw) width height sw)
    rw [show bigtiff_calls_a width height
        ++ bigtiff_calls_b height (write_count width height) sw
      = bigtiff_calls width height sw from rfl, hS2] at h
    rw [show (bigtiff_before_entries be ⟨[], 0⟩ sw).pos + 112 - 12
      = (bigtiff_before_entries be ⟨[], 0⟩ sw).pos + 100 by omega]
    exact h
  · rw [p2]
    exact Nat.mod_eq_of_lt (by omega)

/-- The file size that `WriteGrayscale16BitToBigTIFF` reports on an empty sink, when it
returns 0. -/
theorem bigtiff_size (be : Bool) (width height : Nat) (data : List Float32)
    (sw : Option (List Byte)) (hw : width < 2 ^ 31) (hh : height < 2 ^ 31)
    (hs : software_strlen sw + 2 < 2 ^ 31) (hlen : data.length = width * height)
    (hok : (WriteGrayscale16BitToBigTIFF be ⟨[], 0⟩ width height data sw).err = 0) :
    (WriteGrayscale16BitToBigTIFF be ⟨[], 0⟩ width height data sw).fileSize
        = (WriteGrayscale16BitToBigTIFF be ⟨[], 0⟩ width height data sw).file.bytes.length
    ∧ read_uint be (WriteGrayscale16BitToBigTIFF be ⟨[], 0⟩ width height data sw).file.bytes
        ((bigtiff_directory be ⟨[], 0⟩ width height sw).2 - 12) 2 = StripOffsets
    ∧ (WriteGrayscale16BitToBigTIFF be ⟨[], 0⟩ width height data sw).fileSize
        = read_uint be (WriteGrayscale16BitToBigTIFF be ⟨[], 0⟩ width height data sw).file.bytes
            (bigtiff_directory be ⟨[], 0⟩ width height sw).2 4 + width * height * 2 := by
  have hm := malloc_ok_of_err width ((bigtiff_err be ⟨[], 0⟩ width height data sw).symm.trans hok)
  obtain ⟨b1, b2, b3, b4⟩ := bigtiff_strip_offsets be width height data sw hs
  have hL := patched_file_length be (bigtiff_directory be ⟨[], 0⟩ width height sw).1
    (bigtiff_directory be ⟨[], 0⟩ width height sw).2 width height data
    (bigtiff_directory_length be width height sw) b2
  rw [bitmap_written_of_ok be width height data hm,
    length_bitmap_bytes be width height data hlen] at hL
  have hmul : width * height < 2 ^ 62 := by
    calc width * height ≤ (2 ^ 31 - 1) * (2 ^ 31 - 1) :=
          Nat.mul_le_mul (by omega) (by omega)
      _ < 2 ^ 62 := by norm_num
  have hsize : ((bigtiff_directory be ⟨[], 0⟩ width height sw).1.pos
      + write_count width height) % 2 ^ 64
      = (bigtiff_directory be ⟨[], 0⟩ width height sw).1.pos + width * height * 2 := by
    rw [write_count_eq width height hw hh]
    exact Nat.mod_eq_of_lt (by omega)
  simp only [WriteGrayscale16BitToBigTIFF]
  rw [hsize, hL, b3, b4]
  exact ⟨rfl, rfl, rfl⟩

/-- C40. On an initially empty sink, for `width` and `height` in the range of an `int`, a
software string that fits an `int` and a buffer of `width * height` samples, every
successful encode (the value returned is 0, which it is for every `width` below `2^30`),
in the classic case, in the fallback case and for a direct call of
`WriteGrayscale16BitToBigTIFF`, reports a `fileSize` that is the number of bytes of the
written file; the entry whose value slot is at `offsetpos` is the `StripOffsets` entry,
and `fileSize` is the 4-byte value stored in that slot plus `width * height * 2`. -/
theorem file_size_reported (be : Bool) (width height : Nat) (data : List Float32)
    (sw : Option (List Byte)) (hw : width < 2 ^ 31) (hh : height < 2 ^ 31)
    (hs : software_strlen sw + 2 < 2 ^ 31) (hlen : data.length = width * height) :
    (too_big_for_tiff (((tiff_directory be ⟨[], 0⟩ width height sw).1.pos
          + write_count width height) % 2 ^ 64) = false →
      (WriteGrayscale16BitToTIFF be ⟨[], 0⟩ width height data sw).err = 0 →
      (WriteGrayscale16BitToTIFF be ⟨[], 0⟩ width height data sw).fileSize
          = (WriteGrayscale16BitToTIFF be ⟨[], 0⟩ width height data sw).file.bytes.length
      ∧ read_uint be (WriteGrayscale16BitToTIFF be ⟨[], 0⟩ width height data sw).file.bytes
          ((tiff_directory be ⟨[], 0⟩ width height sw).2 - 8) 2 = StripOffsets
      ∧ (WriteGrayscale16BitToTIFF be ⟨[], 0⟩ width height data sw).fileSize
          = read_uint be (WriteGrayscale16BitToTIFF be ⟨[], 0⟩ width height data sw).file.bytes
              (tiff_directory be ⟨[], 0⟩ width height sw).2 4 + width * height * 2)
    ∧ (too_big_for_tiff (((tiff_directory be ⟨[], 0⟩ width height sw).1.pos
          + write_count width height) % 2 ^ 64) = true →
      (WriteGrayscale16BitToTIFF be ⟨[], 0⟩ width height data sw).err = 0 →
      (WriteGrayscale16BitToTIFF be ⟨[], 0⟩ width height data sw).fileSize
          = (WriteGrayscale16BitToTIFF be ⟨[], 0⟩ width height data sw).file.bytes.length
      ∧ read_uint be (WriteGrayscale16BitToTIFF be ⟨[], 0⟩ width height data sw).file.bytes
          ((bigtiff_directory be ⟨[], 0⟩ width height sw).2 - 12) 2 = StripOffsets
      ∧ (WriteGrayscale16BitToTIFF be ⟨[], 0⟩ width height data sw).fileSize
          = read_uint be (WriteGrayscale16BitToTIFF be ⟨[], 0⟩ width height data sw).file.bytes
              (bigtiff_directory be ⟨[], 0⟩ width height sw).2 4 + width * height * 2)
    ∧ ((WriteGrayscale16BitToBigTIFF be ⟨[], 0⟩ width height data sw).err = 0 →
      (WriteGrayscale16BitToBigTIFF be ⟨[], 0⟩ width height data sw).fileSize
          = (WriteGrayscale16BitToBigTIFF be ⟨[], 0⟩ width height data sw).file.bytes.length
      ∧ read_uint be (WriteGrayscale16BitToBigTIFF be ⟨[], 0⟩ width height data sw).file.bytes
          ((bigtiff_directory be ⟨[], 0⟩ width height sw).2 - 12) 2 = StripOffsets
      ∧ (WriteGrayscale16BitToBigTIFF be ⟨[], 0⟩ width height data sw).fileSize
          = read_uint be
              (WriteGrayscale16BitToBigTIFF be ⟨[], 0⟩ width height data sw).file.bytes
              (bigtiff_directory be ⟨[], 0⟩ width height sw).2 4 + width * height * 2)
    ∧ (width < 2 ^ 30 →
      (WriteGrayscale16BitToTIFF be ⟨[], 0⟩ width height data sw).err = 0
      ∧ (WriteGrayscale16BitToBigTIFF be ⟨[], 0⟩ width height data sw).err = 0) := by
  have hbig := bigtiff_size be width height data sw hw hh hs hlen
  refine ⟨fun hfalse hok => ?_, fun htrue hok => ?_, hbig,
    tiff_err_of_lt be ⟨[], 0⟩ width height data sw⟩
  · have hm := malloc_ok_of_err width ((tiff_err be ⟨[], 0⟩ width height data sw).symm.trans hok)
    obtain ⟨c0, c1, c2, c3, c4⟩ := classic_strip_offsets be width height data sw hs
    have hL := patched_file_length be (tiff_directory be ⟨[], 0⟩ width height sw).1
      (tiff_directory be ⟨[], 0⟩ width height sw).2 width height data
      (classic_directory_length be width height sw) c2
    rw [bitmap_written_of_ok be width height data hm,
      length_bitmap_bytes be width height data hlen] at hL
    have hmul : width * height < 2 ^ 62 := by
      calc width * height ≤ (2 ^ 31 - 1) * (2 ^ 31 - 1) :=
            Nat.mul_le_mul (by omega) (by omega)
        _ < 2 ^ 62 := by norm_num
    have hsize : ((tiff_directory be ⟨[], 0⟩ width height sw).1.pos
        + write_count width height) % 2 ^ 64
        = (tiff_directory be ⟨[], 0⟩ width height sw).1.pos + width * height * 2 := by
      rw [write_count_eq width height hw hh]
      exact Nat.mod_eq_of_lt (by omega)
    simp only [WriteGrayscale16BitToTIFF, hfalse, Bool.false_eq_true, if_false]
    rw [hsize, hL, c3, c4]
    exact ⟨rfl, rfl, rfl⟩
  · have h : WriteGrayscale16BitToTIFF be ⟨[], 0⟩ width height data sw
        = WriteGrayscale16BitToBigTIFF be ⟨[], 0⟩ width height data sw := by
      simp only [WriteGrayscale16BitToTIFF, htrue, if_true]
      simp only [WriteGrayscale16BitToBigTIFF, bigtiff_directory_over_classic]
    rw [h] at hok ⊢
    exact hbig hok

/-- C40, witness: a 1x1 image without software string on a little-endian host gives a
classic file of 190 bytes whose `StripOffsets` value is 188. -/
theorem file_size_reported_witness :
    [(1120403456 : Float32)].length = 1 * 1
    ∧ too_big_for_tiff (((tiff_directory false ⟨[], 0⟩ 1 1 none).1.pos
          + write_count 1 1) % 2 ^ 64) = false
    ∧ (WriteGrayscale16BitToTIFF false ⟨[], 0⟩ 1 1 [1120403456] none).err = 0
    ∧ (WriteGrayscale16BitToTIFF false ⟨[], 0⟩ 1 1 [1120403456] none).fileSize
        = (WriteGrayscale16BitToTIFF false ⟨[], 0⟩ 1 1 [1120403456] none).file.bytes.length
    ∧ (WriteGrayscale16BitToTIFF false ⟨[], 0⟩ 1 1 [1120403456] none).fileSize
        = read_uint false (WriteGrayscale16BitToTIFF false ⟨[], 0⟩ 1 1 [1120403456] none).file.bytes
            (tiff_directory false ⟨[], 0⟩ 1 1 none).2 4 + 1 * 1 * 2
    ∧ (WriteGrayscale16BitToTIFF false ⟨[], 0⟩ 1 1 [1120403456] none).fileSize = 190
    ∧ (WriteGrayscale16BitToBigTIFF false ⟨[], 0⟩ 1 1 [1120403456] none).fileSize
        = (WriteGrayscale16BitToBigTIFF false ⟨[], 0⟩ 1 1 [1120403456] none).file.bytes.length :=
  ⟨rfl, by decide, by decide,
    ((file_size_reported false 1 1 [1120403456] none (by decide) (by decide) (by decide)
      rfl).1 (by decide) (by decide)).1,
    ((file_size_reported false 1 1 [1120403456] none (by decide) (by decide) (by decide)
      rfl).1 (by decide) (by decide)).2.2,
    by decide,
    ((file_size_reported false 1 1 [1120403456] none (by decide) (by decide) (by decide)
      rfl).2.2.1 (by decide)).1⟩

/-! ## Grid payload: when the bytes are reversed -/

/-- C4. Reading the stream in which the four bytes of every stored value are reversed,
with the opposite `big_endian` flag, gives the same outcome (the same grid, `has_nulls` and
`all_ints`, or the same failure) as reading the original stream with the original flag.
The reversal that `read_flt_file` applies to a row (lines 582-593) is an involution:
applied to the row it has reversed, it gives the row as it was stored.  And it is
applied exactly when the declared byte order differs from that of the host: on every
successful read the value at row `i`, column `j` is made of the four bytes at the offset
`skipbytes + i * (4 * ncols + rowpad) + 4 * j` as they lie in the stream when
`big_endian` is the order of the host, and of the same bytes in reversed order when it is
not (0.0 standing in for a value taken as null). -/
theorem read_flt_file_byte_order (host_be : Bool) (in_flt_file : List Byte) (nrows ncols : Nat)
    (nodata : Float32) (big_endian : Bool) (skipbytes rowpad : Nat) :
    read_flt_file host_be (reverse_payload nrows ncols skipbytes rowpad in_flt_file) nrows ncols
        nodata (!big_endian) skipbytes rowpad
      = read_flt_file host_be in_flt_file nrows ncols nodata big_endian skipbytes rowpad
    ∧ (∀ row : List Byte,
        decode_row host_be true (floats_to_bytes host_be (decode_row host_be true row))
          = decode_row host_be false row)
    ∧ (∀ g, read_flt_file host_be in_flt_file nrows ncols nodata big_endian skipbytes rowpad
          = .ok g →
        ∀ i j, i < nrows → j < ncols →
          g.data[i * ncols + j]?
            = some (replace_null nodata
                (if big_endian = host_be then
                  float_of_mem host_be
                    (in_flt_file.getD (skipbytes + i * (4 * ncols + rowpad) + 4 * j) 0)
                    (in_flt_file.getD (skipbytes + i * (4 * ncols + rowpad) + 4 * j + 1) 0)
                    (in_flt_file.getD (skipbytes + i * (4 * ncols + rowpad) + 4 * j + 2) 0)
                    (in_flt_file.getD (skipbytes + i * (4 * ncols + rowpad) + 4 * j + 3) 0)
                else
                  float_of_mem host_be
                    (in_flt_file.getD (skipbytes + i * (4 * ncols + rowpad) + 4 * j + 3) 0)
                    (in_flt_file.getD (skipbytes + i * (4 * ncols + rowpad) + 4 * j + 2) 0)
                    (in_flt_file.getD (skipbytes + i * (4 * ncols + rowpad) + 4 * j + 1) 0)
                    (in_flt_file.getD (skipbytes + i * (4 * ncols + rowpad) + 4 * j) 0)))) := by
  refine ⟨read_flt_file_reverse host_be in_flt_file nrows ncols nodata big_endian skipbytes
    rowpad, decode_row_reverse_twice host_be, fun g hok i j hi hj => ?_⟩
  obtain ⟨hp, _⟩ := read_rows_ok_inv host_be big_endian ncols nodata rowpad nrows _ _ _ g hok
  have hg := read_flt_file_ok_eq _ _ _ _ _ _ _ _ g hok
  obtain ⟨_, b2⟩ := stored_values_index host_be big_endian ncols rowpad nrows _ hp i j hi hj
  rw [hg]
  simp only [List.getElem?_map, b2, Option.map_some']
  rw [value_at_drop, Nat.add_assoc, value_at]
  cases host_be <;> cases big_endian <;> rfl

/-- C4 at the four bytes 0, 0, 128, 63.  On a little-endian host they are read as 1.0
when the header declares little-endian and as the pattern `0x0000803F` when it declares
big-endian, and the reversed bytes 63, 128, 0, 0 declared big-endian are read as 1.0.  On
a big-endian host the same four bytes declared big-endian are taken as they lie, which is
the pattern `0x0000803F`, and declared little-endian they are reversed and read as 1.0. -/
theorem read_flt_file_byte_order_witness :
    read_flt_file false (reverse_payload 1 1 0 0 [0, 0, 128, 63]) 1 1 3323739136 (!false) 0 0
        = read_flt_file false [0, 0, 128, 63] 1 1 3323739136 false 0 0
    ∧ reverse_payload 1 1 0 0 [0, 0, 128, 63] = [63, 128, 0, 0]
    ∧ read_flt_file false [0, 0, 128, 63] 1 1 3323739136 false 0 0
        = .ok ⟨[1065353216], false, true⟩
    ∧ read_flt_file false [0, 0, 128, 63] 1 1 3323739136 true 0 0
        = .ok ⟨[32831], false, false⟩
    ∧ read_flt_file true [0, 0, 128, 63] 1 1 3323739136 true 0 0
        = .ok ⟨[32831], false, false⟩
    ∧ read_flt_file true [0, 0, 128, 63] 1 1 3323739136 false 0 0
        = .ok ⟨[1065353216], false, true⟩ :=
  ⟨(read_flt_file_byte_order false [0, 0, 128, 63] 1 1 3323739136 false 0 0).1,
    by decide, by decide, by decide, by decide, by decide⟩

end TextureShader
